import Mathlib

/-! # ModalWX source editor: code-element tree, folding and navigation

A shallow embedding of `src/ModalWX.cpp`.

Conventions of the embedding.

* A `STxtLine` is the list of the `length` characters held in `szBuf`.
* A code tree is an inductive value.  A pointer to a code element is the
  *handle* of the element: the list of `indexContainer` values met when
  following `pContainer` links from the element up to the root, innermost
  first.  The root (whose `pContainer` is `NULL`) has handle `[]`; the element
  at index `i` of the section whose base element has handle `h` has handle
  `i :: h`.  The `pContainer` of `i :: h` is therefore the section `h`, and
  parent/index links are consistent by construction.
* C `int` values are modelled by `Int`; line counts are far below `2^31`.
* A function that can dereference a null or unset pointer returns `Option`,
  `none` standing for the fault; a pointer result that may be `NULL` is an
  inner `Option`.
* Mutation of `bSummarized` is explicit state passing: the function returns the
  new tree.
-/

namespace ModalWX

/-! ## Data model -/

/-- The characters `szBuf[0 .. length)` of a `STxtLine`. -/
abbrev STxtLine := List Char

/-- Handle of a code element (see the header). -/
abbrev Handle := List Nat

abbrev CDE_S_INCLUDE : Nat := 0
abbrev CDE_S_FWDDECL_FN : Nat := 1
abbrev CDE_S_FWDDECL_STR : Nat := 2
abbrev CDE_S_BLANK : Nat := 3
abbrev CDE_S_GLOBAL : Nat := 4
abbrev CDE_S_DEFINE : Nat := 5
abbrev CDE_S_COMMENT : Nat := 6
abbrev CDE_S_VARDECL : Nat := 7
abbrev CDE_S_CODELINE : Nat := 8
abbrev CDE_S_BLOCKSTART : Nat := 9
abbrev CDE_S_SUBBLOCKSTART : Nat := 10
abbrev CDE_ENUM : Nat := 11
abbrev CDE_COMMENT : Nat := 12
abbrev CDE_L1SECTION : Nat := 13
abbrev CDE_L2SECTION : Nat := 14
abbrev CDE_L3SECTION : Nat := 15
abbrev CDE_L4SECTION : Nat := 16
abbrev CDE_TYPEDEF : Nat := 17
abbrev CDE_CLASSDECL : Nat := 18
abbrev CDE_FNDEFN : Nat := 19
abbrev CDE_CLASS_FNDEFN : Nat := 20
abbrev CDE_SUBBLOCK : Nat := 21
abbrev CDE_BLOCK : Nat := 22
abbrev CDE_PREAMBLE : Nat := 23
abbrev CDE_CODEBASE : Nat := 24
abbrev CDE_WX : Nat := 25
abbrev CDE_IFDEF : Nat := 26

/-- `SLocation`: a code element pointer (possibly unset) and a file offset. -/
structure SLocation where
  pCodeBaseLoc : Option Handle
  fileOffset : Int
deriving DecidableEq, Repr

/-- `SVar` (lines 1647-1692): type name, name and location of a variable; each
of them may be `NULL`. -/
structure SVar where
  pTypeName : Option STxtLine
  pName : Option STxtLine
  pLocation : Option SLocation
deriving DecidableEq, Repr

/-- The fields of a `SCodeSection` other than its element list: the fold flag,
the symbol link and the variables declared directly in the section. -/
structure SSecInfo where
  bSummarized : Bool
  symLinkType : Int
  symLinkIndex : Int
  pVarSet : List SVar
deriving DecidableEq, Repr

/-- `SCodeElement`.  `single` is an element with `bSingle` set, carrying its
`type` and `pLine`.  `sec` is an element with `bSingle` cleared together with
the `SCodeSection` its `pSec` points to: `type` and `pLine` (the summary line)
of the base element, the section fields and `ppElements[0 .. numElements)`. -/
inductive SCodeElement where
  | single (type : Nat) (pLine : STxtLine) : SCodeElement
  | sec (type : Nat) (pLine : STxtLine) (info : SSecInfo)
      (ppElements : List SCodeElement) : SCodeElement
deriving Repr

/-- Field `type` of an element. -/
def SCodeElement.type : SCodeElement → Nat
  | .single t _ => t
  | .sec t _ _ _ => t

/-- Field `bSingle` of an element. -/
def SCodeElement.bSingle : SCodeElement → Bool
  | .single _ _ => true
  | .sec _ _ _ _ => false

/-- Field `pLine` of an element. -/
def SCodeElement.pLine : SCodeElement → STxtLine
  | .single _ l => l
  | .sec _ l _ _ => l

/-- The element list of the section of an element (empty for a single). -/
def SCodeElement.ppElements : SCodeElement → List SCodeElement
  | .single _ _ => []
  | .sec _ _ _ es => es

/-- `pSec->bSummarized` of a section element (`false` for a single). -/
def SCodeElement.bSummarized : SCodeElement → Bool
  | .single _ _ => false
  | .sec _ _ info _ => info.bSummarized

/-- The element a handle points to: `[]` is the root, `i :: h` is
`ppElements[i]` of the section whose base element is `h`. -/
def ce_at (root : SCodeElement) : Handle → Option SCodeElement
  | [] => some root
  | i :: h =>
    match ce_at root h with
    | some (.sec _ _ _ es) => es[i]?
    | _ => none

/-! ## Lengths and file offsets -/

mutual
/-- `ce_length` (lines 3100-3105): 1 for a single, `pSec->get_length()` for a
section; `get_length` (lines 2902-2912) sums the same quantity over the
elements of the section. -/
def ce_length : SCodeElement → Int
  | .single _ _ => 1
  | .sec _ _ _ es => get_length_list es
/-- The loop of `SCodeSection::get_length` over `ppElements`. -/
def get_length_list : List SCodeElement → Int
  | [] => 0
  | e :: es => ce_length e + get_length_list es
end

/-- `SCodeSection::get_length` of the section of a section element. -/
def get_length (sec : SCodeElement) : Int := get_length_list sec.ppElements

/-- `SCodeSection::get_file_offset` (lines 2886-2899) of the section whose base
element has handle `h`. -/
def get_file_offset (root : SCodeElement) : Handle → Option Int
  | [] =>
    if root.type ≠ CDE_CODEBASE then none  -- pContainer is NULL
    else some 0
  | i :: h =>
    match ce_at root (i :: h), ce_at root h with
    | some e, some c =>
      if e.type ≠ CDE_CODEBASE then
        match get_file_offset root h with
        | some off => some (off + ((c.ppElements.take i).map ce_length).sum)
        | none => none
      else some 0
    | _, _ => none

/-- `ce_file_offset` (lines 3108-3122). -/
def ce_file_offset (root : SCodeElement) : Handle → Option Int
  | [] =>
    if root.type ≠ CDE_CODEBASE then none  -- pContainer is NULL
    else some 0
  | i :: h =>
    match ce_at root (i :: h), ce_at root h with
    | some e, some c =>
      if e.type ≠ CDE_CODEBASE then
        match get_file_offset root h with
        | some off => some (off + ((c.ppElements.take i).map ce_length).sum)
        | none => none
      else some 0
    | _, _ => none

/-! ## Stepping -/

mutual
/-- `get_next_element(NULL, bNextPrev)` (lines 2767-2776 and 2826-2837) called
on the section of the given element, whose handle is `h`: the first or last
element of the section, descending into it while it is an unsummarized
section.  `none` when the section has no element to read. -/
def get_next_element_null : SCodeElement → Handle → Bool → Option Handle
  | .single _ _, _, _ => none
  | .sec _ _ _ es, h, true => first_element es h
  | .sec _ _ _ es, h, false => last_element es 0 h
/-- Case `bNextPrev` of `get_next_element(NULL, _)`: looks at `ppElements[0]`. -/
def first_element : List SCodeElement → Handle → Option Handle
  | [], _ => none
  | .single _ _ :: _, h => some (0 :: h)
  | .sec t l info cs :: _, h =>
    if info.bSummarized then some (0 :: h)
    else get_next_element_null (.sec t l info cs) (0 :: h) true
/-- Case `!bNextPrev` of `get_next_element(NULL, _)`: looks at
`ppElements[numElements-1]`; the `Nat` is the index of the head of the list. -/
def last_element : List SCodeElement → Nat → Handle → Option Handle
  | [], _, _ => none
  | [.single _ _], i, h => some (i :: h)
  | [.sec t l info cs], i, h =>
    if info.bSummarized then some (i :: h)
    else get_next_element_null (.sec t l info cs) (i :: h) false
  | _ :: e :: es, i, h => last_element (e :: es) (i + 1) h
end

/-- `get_next_element(pElemFrom, bNextPrev)` with `pElemFrom != NULL` (lines
2779-2820 and 2840-2881).  The result `some none` is the `NULL` returned at
the root. -/
def get_next_element_from (root : SCodeElement) : Handle → Bool → Option (Option Handle)
  | [], _ => some none
  | i :: h, true =>
    match ce_at root h with
    | some (.sec _ _ _ es) =>
      if i + 1 < es.length then
        match es[i + 1]? with
        | some (.single _ _) => some (some ((i + 1) :: h))
        | some (.sec t l info cs) =>
          if !info.bSummarized then
            (get_next_element_null (.sec t l info cs) ((i + 1) :: h) true).map some
          else some (some ((i + 1) :: h))
        | none => none
      else get_next_element_from root h true
    | _ => none
  | i :: h, false =>
    match ce_at root h with
    | some (.sec _ _ _ es) =>
      if i > 0 then
        match es[i - 1]? with
        | some (.single _ _) => some (some ((i - 1) :: h))
        | some (.sec t l info cs) =>
          if !info.bSummarized then
            (get_next_element_null (.sec t l info cs) ((i - 1) :: h) false).map some
          else some (some ((i - 1) :: h))
        | none => none
      else get_next_element_from root h false
    | _ => none

/-- `SCodeSection::get_next_element` (lines 2761-2884) called on the section
with handle `this`. -/
def get_next_element (root : SCodeElement) (this : Handle) (pElemFrom : Option Handle)
    (bNextPrev : Bool) : Option (Option Handle) :=
  match pElemFrom with
  | none =>
    match ce_at root this with
    | some s => (get_next_element_null s this bNextPrev).map some
    | none => none
  | some p => get_next_element_from root p bNextPrev

/-- `pElem->bSingle ? 1 : pElem->pSec->get_length()` for the element `h`. -/
def elem_length (root : SCodeElement) (h : Handle) : Option Int :=
  (ce_at root h).map ce_length

mutual
/-- Number of elements of a tree, the bound on the length of any walk. -/
def ce_count : SCodeElement → Nat
  | .single _ _ => 1
  | .sec _ _ _ es => 1 + ce_count_list es
/-- Number of elements in a list of trees. -/
def ce_count_list : List SCodeElement → Nat
  | [] => 0
  | e :: es => ce_count e + ce_count_list es
end

/-- The loop of lines 2676-2691 of `get_element_at`: accumulate element lengths
until `accum` reaches `lineLocation` or the walk ends.  Returns `pElem`,
`accum` and `bEOSec`.  The first argument bounds the number of iterations. -/
def seek_loop (root : SCodeElement) (lineLocation : Int) :
    Nat → Handle → Int → Option (Handle × Int × Bool)
  | fuel, pElem, accum =>
    if accum < lineLocation then
      match fuel with
      | 0 => none
      | fuel + 1 =>
        match get_next_element_from root pElem true with
        | none => none
        | some none => some (pElem, accum, true)
        | some (some pElemNext) =>
          match elem_length root pElemNext with
          | none => none
          | some n => seek_loop root lineLocation fuel pElemNext (accum + n)
    else some (pElem, accum, false)

/-- The forward walk, lines 2712-2731: `n` is the number of iterations left,
the state is `pElem` and `*pnLineOffset`. -/
def walk_forward (root : SCodeElement) (this : Handle) (lineLocation : Int) :
    Nat → Option Handle → Int → Option (Option Handle × Int)
  | 0, pElem, off => some (pElem, off)
  | n + 1, pElem, off =>
    match pElem with
    | none => none  -- pElem->bSingle on NULL
    | some p =>
      match elem_length root p, get_next_element_from root p true with
      | some len, some pElemNext =>
        match pElemNext with
        | none =>
          match elem_length root this with
          | some total => some (some p, total - lineLocation - len)
          | none => none
        | some q => walk_forward root this lineLocation n (some q) (off + len)
      | _, _ => none

/-- The backward walk, lines 2738-2752. -/
def walk_backward (root : SCodeElement) (lineLocation : Int) :
    Nat → Option Handle → Int → Option (Option Handle × Int)
  | 0, pElem, off => some (pElem, off)
  | n + 1, pElem, off =>
    match pElem with
    | none => none  -- pElem->bSingle on NULL
    | some p =>
      match elem_length root p, get_next_element_from root p false with
      | some len, some pElemNext =>
        match pElemNext with
        | none => some (some p, -lineLocation)
        | some q => walk_backward root lineLocation n (some q) (off - len)
      | _, _ => none

/-- The search for the starting element, lines 2661-2704: returns `pElem` and
`*pnLineOffset` before the walk. -/
def seek_start (root : SCodeElement) (this : Handle) (lineLocation steps : Int) :
    Option (Option Handle × Int) :=
  match get_next_element root this none true with
  | some (some first) =>
    if lineLocation > 0 then
      match elem_length root first with
      | none => none
      | some n =>
        match seek_loop root lineLocation (ce_count root) first n with
        | none => none
        | some (pElem, accum, bEOSec) =>
          if accum > lineLocation then
            if steps ≥ 0 then
              match ce_at root pElem with
              | some (.sec t l info es) =>
                some (some pElem, (accum - get_length (.sec t l info es)) - lineLocation)
              | _ => none  -- pElem->pSec is NULL
            else some (some pElem, lineLocation - accum)
          else if !bEOSec then
            if steps ≥ 0 then
              match get_next_element_from root pElem true with
              | some r => some (r, 0)
              | none => none
            else some (some pElem, 0)
          else some (some pElem, 0)
    else some (some first, 0)
  | _ => none

/-- `SCodeSection::get_element_at` (lines 2659-2755) called on the section with
handle `this`: the returned element pointer and the value left in
`*pnLineOffset`. -/
def get_element_at (root : SCodeElement) (this : Handle) (lineLocation steps : Int) :
    Option (Option Handle × Int) :=
  match seek_start root this lineLocation steps with
  | none => none
  | some (pElem, off) =>
    if steps > 0 then walk_forward root this lineLocation steps.toNat pElem off
    else if steps < 0 then walk_backward root lineLocation (-steps).toNat pElem off
    else some (pElem, off)

/-! ## Folding -/

mutual
/-- Writes `bSummarized` of the section reached from the given element by the
root-to-element path `p` (outermost index first). -/
def set_along : SCodeElement → List Nat → Bool → SCodeElement
  | .single t l, _, _ => .single t l
  | .sec t l info es, [], b => .sec t l { info with bSummarized := b } es
  | .sec t l info es, i :: p, b => .sec t l info (set_along_list es i p b)
/-- Applies `set_along` to the element at index `i` of a list. -/
def set_along_list : List SCodeElement → Nat → List Nat → Bool → List SCodeElement
  | [], _, _, _ => []
  | e :: es, 0, p, b => set_along e p b :: es
  | e :: es, i + 1, p, b => e :: set_along_list es i p b
end

/-- The assignment `pSec->bSummarized = b` for the section with handle `h`. -/
def set_summarized (root : SCodeElement) (h : Handle) (b : Bool) : SCodeElement :=
  set_along root h.reverse b

/-- The scan of `SCodeSection::collapse` for an element of type
`CDE_SUBBLOCK` (lines 2954-2957). -/
def has_subblock (es : List SCodeElement) : Bool :=
  es.any (fun e => e.type == CDE_SUBBLOCK)

/-- The body of `SCodeSection::collapse` (lines 2946-2976) for the cases that
do not recurse; `none` for the `default` case. -/
def collapse_here (root : SCodeElement) (h : Handle) (type : Nat)
    (es : List SCodeElement) : Option (SCodeElement × Option Handle) :=
  if type = CDE_CODEBASE then
    -- pElemRoot is set, then control falls through into case CDE_BLOCK
    if !has_subblock es then some (set_summarized root h true, some h)
    else some (root, some h)
  else if type = CDE_BLOCK then
    if !has_subblock es then some (set_summarized root h true, some h)
    else some (root, none)
  else if type = CDE_SUBBLOCK then some (set_summarized root h true, some h)
  else none

/-- `SCodeSection::collapse` (lines 2946-2976) on the section with handle `h`:
the new tree and the returned `pElemRoot` (possibly `NULL`). -/
def collapse (root : SCodeElement) : Handle → Option (SCodeElement × Option Handle)
  | [] =>
    match root with
    | .sec type _ _ es =>
      match collapse_here root [] type es with
      | some r => some r
      | none => none  -- pBaseElem->pContainer is NULL
    | .single _ _ => none
  | i :: h =>
    match ce_at root (i :: h) with
    | some (.sec type _ _ es) =>
      match collapse_here root (i :: h) type es with
      | some r => some r
      | none => collapse (set_summarized root (i :: h) true) h
    | _ => none

/-- `SCodeSection::expand` (lines 2981-2995) on the section with handle `h`. -/
def expand (root : SCodeElement) : Handle → Option SCodeElement
  | [] =>
    match root with
    | .sec type _ _ _ =>
      if type = CDE_CODEBASE ∨ type = CDE_SUBBLOCK ∨ type = CDE_BLOCK then
        some (set_summarized root [] false)
      else none  -- pBaseElem->pContainer is NULL
    | .single _ _ => none
  | i :: h =>
    match ce_at root (i :: h) with
    | some (.sec type _ _ _) =>
      if type = CDE_CODEBASE ∨ type = CDE_SUBBLOCK ∨ type = CDE_BLOCK then
        some (set_summarized root (i :: h) false)
      else expand (set_summarized root (i :: h) false) h
    | _ => none

/-- `ce_collapse` (lines 3130-3136): the new tree and the returned root of the
collapse. -/
def ce_collapse (root : SCodeElement) (pElem : Handle) :
    Option (SCodeElement × Option Handle) :=
  match pElem, ce_at root pElem with
  | _ :: h, some e =>
    match collapse root h with
    | some (root1, pElemRoot) =>
      if !e.bSingle then some (set_summarized root1 pElem true, pElemRoot)
      else some (root1, pElemRoot)
    | none => none
  | _, _ => none  -- pElem->pContainer is NULL

/-- `ce_expand` (lines 3142-3144). -/
def ce_expand (root : SCodeElement) (pElem : Handle) : Option SCodeElement :=
  match pElem, ce_at root pElem with
  | _ :: h, some _ => expand root h
  | _, _ => none  -- pElem->pContainer is NULL

mutual
/-- `SCodeSection::write_source` (lines 2998-3006): the lines added to the
file, in order. -/
def write_source : SCodeElement → List STxtLine
  | .single _ l => [l]
  | .sec _ _ _ es => write_source_list es
/-- The loop of `write_source` over `ppElements`. -/
def write_source_list : List SCodeElement → List STxtLine
  | [] => []
  | e :: es => write_source e ++ write_source_list es
end

/-! ## Notions used to state the properties -/

mutual
/-- Every section of the tree has at least one element. -/
def sections_nonempty : SCodeElement → Bool
  | .single _ _ => true
  | .sec _ _ _ es => !es.isEmpty && sections_nonempty_list es
/-- Every section in a list of trees has at least one element. -/
def sections_nonempty_list : List SCodeElement → Bool
  | [] => true
  | e :: es => sections_nonempty e && sections_nonempty_list es
end

mutual
/-- No element of the tree has type `CDE_CODEBASE`. -/
def no_codebase : SCodeElement → Bool
  | .single t _ => t != CDE_CODEBASE
  | .sec t _ _ es => t != CDE_CODEBASE && no_codebase_list es
/-- No element of a list of trees has type `CDE_CODEBASE`. -/
def no_codebase_list : List SCodeElement → Bool
  | [] => true
  | e :: es => no_codebase e && no_codebase_list es
end

/-- A well-formed code tree: the root is the section made by `new_codebase`
(type `CDE_CODEBASE`, the only element of that type) and every section has at
least one element.  Parent and index links are consistent by construction. -/
def well_formed (root : SCodeElement) : Bool :=
  match root with
  | .single _ _ => false
  | .sec t _ _ es =>
    t == CDE_CODEBASE && !es.isEmpty && sections_nonempty_list es && no_codebase_list es

mutual
/-- The addressable elements inside the section of an element with handle `h`,
in file order: the singles and summarized sections reached through unsummarized
sections only. -/
def addressable_in : SCodeElement → Handle → List Handle
  | .single _ _, _ => []
  | .sec _ _ _ es, h => addressable_list es 0 h
/-- The addressable elements of a list of sibling elements, the head of the
list having index `i` in the section `h`. -/
def addressable_list : List SCodeElement → Nat → Handle → List Handle
  | [], _, _ => []
  | .single _ _ :: es, i, h => (i :: h) :: addressable_list es (i + 1) h
  | .sec t l info cs :: es, i, h =>
    (if info.bSummarized then [i :: h] else addressable_in (.sec t l info cs) (i :: h))
      ++ addressable_list es (i + 1) h
end

/-- The addressable elements of a tree, in file order. -/
def addressable (root : SCodeElement) : List Handle := addressable_in root []

/-- The lengths of the addressable elements, in file order. -/
def addressable_lengths (root : SCodeElement) : List Int :=
  (addressable root).map (fun v => (elem_length root v).getD 0)

/-- Index of the entry covering line `loc` in a list of consecutive element
lengths. -/
def cover_index : List Int → Int → Nat
  | [], _ => 0
  | n :: rest, loc => if loc < n then 0 else 1 + cover_index rest (loc - n)

mutual
/-- The tree with every fold flag cleared: what is left is the shape, the
types, the lines (summary lines included) and the symbol data. -/
def erase_flags : SCodeElement → SCodeElement
  | .single t l => .single t l
  | .sec t l info es => .sec t l { info with bSummarized := false } (erase_flags_list es)
/-- Clears the fold flags in a list of trees. -/
def erase_flags_list : List SCodeElement → List SCodeElement
  | [] => []
  | e :: es => erase_flags e :: erase_flags_list es
end

/-- Kinds at which `collapse` and `expand` stop climbing. -/
def is_stop_type (t : Nat) : Bool :=
  t == CDE_CODEBASE || t == CDE_SUBBLOCK || t == CDE_BLOCK

/-- The section `h` followed by its ancestor sections, up to and including the
nearest one whose type is block, sub-block or codebase. -/
def fold_path (root : SCodeElement) : Handle → List Handle
  | [] => [[]]
  | i :: h =>
    match ce_at root (i :: h) with
    | some e => if is_stop_type e.type then [i :: h] else (i :: h) :: fold_path root h
    | none => []

/-- A fold operation: a call of `ce_collapse`, a call of `ce_expand`, or a
direct assignment to the `bSummarized` flag of a section. -/
inductive FoldOp where
  | collapse (pElem : Handle) : FoldOp
  | expand (pElem : Handle) : FoldOp
  | assign (sec : Handle) (b : Bool) : FoldOp

/-- Runs one fold operation. -/
def run_op (root : SCodeElement) : FoldOp → Option SCodeElement
  | .collapse p => (ce_collapse root p).map (fun r => r.1)
  | .expand p => ce_expand root p
  | .assign h b => some (set_summarized root h b)

/-- Runs a sequence of fold operations. -/
def run_ops (root : SCodeElement) : List FoldOp → Option SCodeElement
  | [] => some root
  | op :: ops =>
    match run_op root op with
    | some r => run_ops r ops
    | none => none

/-- The handle `h` points to a section. -/
def is_sec_at (root : SCodeElement) (h : Handle) : Prop :=
  ∃ t l info es, ce_at root h = some (.sec t l info es)

/-! ## Sample trees -/

/-- Section fields with the given fold flag and no symbol data. -/
def plain_info (b : Bool) : SSecInfo := ⟨b, 0, -1, []⟩

/-- A dialect tree: a preamble, a block with two sub-blocks (the first holding
an unfolded function with a folded inner section) and a folded block without
sub-blocks. -/
def sample_tree : SCodeElement :=
  .sec CDE_CODEBASE "The CodeBase".toList (plain_info false) [
    .sec CDE_PREAMBLE "// PREAMBLE: p...\x7d".toList (plain_info false) [
      .single CDE_S_COMMENT "// PREAMBLE: p".toList,
      .single CDE_S_COMMENT "// more".toList],
    .sec CDE_BLOCK "A...\x7d".toList (plain_info false) [
      .sec CDE_SUBBLOCK "S1...\x7d".toList (plain_info false) [
        .single CDE_S_COMMENT "// SUBBLOCK: S1".toList,
        .sec CDE_FNDEFN "void f() \x7b...\x7d".toList (plain_info false) [
          .single CDE_S_CODELINE "void f() \x7b".toList,
          .sec CDE_L1SECTION "if( x ) \x7b...\x7d".toList (plain_info true) [
            .single CDE_S_CODELINE "if( x ) \x7b".toList,
            .single CDE_S_CODELINE "g();".toList,
            .single CDE_S_CODELINE "\x7d".toList],
          .single CDE_S_CODELINE "\x7d".toList]],
      .sec CDE_SUBBLOCK "S2...\x7d".toList (plain_info true) [
        .single CDE_S_COMMENT "// SUBBLOCK: S2".toList,
        .single CDE_S_VARDECL "int x;".toList]],
    .sec CDE_BLOCK "B...\x7d".toList (plain_info true) [
      .single CDE_S_COMMENT "// BLOCK: B".toList,
      .single CDE_S_CODELINE "int y;".toList]]

/-- A flat tree of four code lines. -/
def flat_tree : SCodeElement :=
  .sec CDE_CODEBASE "The CodeBase".toList (plain_info false) [
    .single CDE_S_CODELINE "a".toList, .single CDE_S_CODELINE "b".toList,
    .single CDE_S_CODELINE "c".toList, .single CDE_S_CODELINE "d".toList]

/-- A tree whose second element is a folded two-line function. -/
def folded_tree : SCodeElement :=
  .sec CDE_CODEBASE "The CodeBase".toList (plain_info false) [
    .single CDE_S_CODELINE "a".toList,
    .sec CDE_FNDEFN "void f() \x7b...\x7d".toList (plain_info true) [
      .single CDE_S_CODELINE "void f() \x7b".toList, .single CDE_S_CODELINE "\x7d".toList],
    .single CDE_S_CODELINE "c".toList]

/-- The tree `folded_tree` with the function unfolded. -/
def unfolded_tree : SCodeElement :=
  .sec CDE_CODEBASE "The CodeBase".toList (plain_info false) [
    .single CDE_S_CODELINE "a".toList,
    .sec CDE_FNDEFN "void f() \x7b...\x7d".toList (plain_info false) [
      .single CDE_S_CODELINE "void f() \x7b".toList, .single CDE_S_CODELINE "\x7d".toList],
    .single CDE_S_CODELINE "c".toList]

/-- The element reached from `e` by the root-to-element path `p` (outermost
index first); `ce_at root h` is `ce_at_path root h.reverse`. -/
def ce_at_path : SCodeElement → List Nat → Option SCodeElement
  | e, [] => some e
  | .single _ _, _ :: _ => none
  | .sec _ _ _ es, i :: p =>
    match es[i]? with
    | some c => ce_at_path c p
    | none => none

/-- Whether `collapse`, reaching the section `s` on its way up, sets its fold
flag: always for a section that is not a block, sub-block or codebase and for a
sub-block; for a block (and for the codebase root, whose case falls through
into the block case) only when it has no sub-block element. -/
def collapse_folds (s : SCodeElement) : Bool :=
  !is_stop_type s.type || s.type == CDE_SUBBLOCK || !has_subblock s.ppElements

/-! ## Notions used in the proofs about the walk -/

/-- A pointer result: `w` when there is one, else the fallback `fin`. -/
def fin_of (hd : Option Handle) (fin : Option (Option Handle)) : Option (Option Handle) :=
  match hd with
  | some w => some (some w)
  | none => fin

/-- Forward links along a list of handles: the next element of each entry is
the following entry, and `fin` for the last entry. -/
def linked_fwd (root : SCodeElement) : List Handle → Option (Option Handle) → Prop
  | [], _ => True
  | v :: rest, fin =>
    get_next_element_from root v true = fin_of rest.head? fin ∧ linked_fwd root rest fin

/-- Backward links along a list of handles: the previous element of each entry
is the preceding entry, and `fin` for the first entry. -/
def linked_bwd (root : SCodeElement) : List Handle → Option (Option Handle) → Prop
  | [], _ => True
  | v :: rest, fin =>
    get_next_element_from root v false = fin ∧ linked_bwd root rest (some (some v))

/-- Sum of the lengths of the elements a list of handles points to. -/
def len_sum (root : SCodeElement) (A : List Handle) : Int :=
  (A.map (fun v => (elem_length root v).getD 0)).sum

/-- The handles of a list point to consecutive elements of at least one line
each, the first starting at file offset `o`. -/
def offsets_from (root : SCodeElement) : List Handle → Int → Prop
  | [], _ => True
  | v :: rest, o =>
    ce_file_offset root v = some o ∧
      (∃ e, ce_at root v = some e ∧ 1 ≤ ce_length e ∧
        (e.bSingle = true ∨ e.bSummarized = true)) ∧
      offsets_from root rest (o + (elem_length root v).getD 0)

/-- File offset of the `k`-th addressable element: the lengths of those before
it added up. -/
def psum (root : SCodeElement) (k : Nat) : Int := len_sum root ((addressable root).take k)

/-- What the walk of `get_element_at` relies on, stated on the list of
addressable elements of a tree: they are linked by `get_next_element` in both
directions, each has at least one line, and the `k`-th starts at `psum k`. -/
structure WalkFacts (root : SCodeElement) : Prop where
  first : ∃ v, (addressable root)[0]? = some v ∧
    get_next_element root [] none true = some (some v)
  next : ∀ (k : Nat) (v : Handle), (addressable root)[k]? = some v →
    get_next_element_from root v true = some ((addressable root)[k + 1]?)
  prev : ∀ (k : Nat) (v : Handle), (addressable root)[k]? = some v →
    get_next_element_from root v false =
      some (if k = 0 then none else (addressable root)[k - 1]?)
  elem : ∀ (k : Nat) (v : Handle), (addressable root)[k]? = some v →
    ∃ e, ce_at root v = some e ∧ 1 ≤ ce_length e ∧ (e.bSingle = true ∨ e.bSummarized = true)
  off : ∀ (k : Nat) (v : Handle), (addressable root)[k]? = some v → ce_file_offset root v = some (psum root k)
  total : psum root (addressable root).length = ce_length root
  count : (addressable root).length ≤ ce_count root

/-! ## Text lines -/

/-- The character `szBuf[i]`: the `i`-th character of the line, and the
terminating NUL at index `length`. -/
def tl_char (pThis : STxtLine) (i : Nat) : Char := pThis.getD i (Char.ofNat 0)

/-- `tl_equals` (lines 998-1013) on two non-null lines. -/
def tl_equals (pThis pTarget : STxtLine) : Bool := pThis == pTarget

/-- `tl_equals_sz` (lines 1015-1030). -/
def tl_equals_sz (pThis : STxtLine) (szBuf : String) : Bool := pThis == szBuf.toList

/-- The inner loop of `tl_find`, `tl_remove` and `tl_before_first`: does
`szToken` occur in the line at index `i`. -/
def tl_match_at : STxtLine → List Char → Bool
  | _, [] => true
  | [], _ :: _ => false
  | c :: cs, t :: ts => c == t && tl_match_at cs ts

/-- The outer loop of `tl_find`: `n` is the number of start indices left to
try, `i` the current one and `rest` the line from index `i` on. -/
def tl_find_loop (szToken : List Char) : Nat → Nat → STxtLine → Int
  | 0, _, _ => -1
  | n + 1, i, rest =>
    if tl_match_at rest szToken then (i : Int)
    else tl_find_loop szToken n (i + 1) rest.tail

/-- `tl_find` (lines 977-996): the index of the first occurrence of the token,
or -1.  The start indices tried are `0 .. length - tokenLength`. -/
def tl_find (pThis : STxtLine) (szToken : String) : Int :=
  tl_find_loop szToken.toList (pThis.length + 1 - szToken.length) 0 pThis

/-- `tl_isempty` (lines 1033-1038): only spaces and tabs. -/
def tl_isempty (pThis : STxtLine) : Bool :=
  pThis.all (fun c => c == ' ' || c == '\t')

/-- `tl_cut_out` (lines 942-958): the cut-out text and the shortened line, or
`none` (the `NULL` return, the line being left as it is) on invalid indices. -/
def tl_cut_out (pThis : STxtLine) (iFrom iTo : Int) : Option (List Char × STxtLine) :=
  if iFrom < 0 ∨ iTo > pThis.length ∨ iTo < iFrom then none
  else some ((pThis.drop iFrom.toNat).take (iTo - iFrom).toNat,
    pThis.take iFrom.toNat ++ pThis.drop iTo.toNat)

/-- `tl_delete_char` (lines 927-938): deletes the character at `index`, or the
last one when `index` is -1 or greater than the length. -/
def tl_delete_char (pThis : STxtLine) (index : Int) : STxtLine :=
  let idx : Nat := if index = -1 ∨ index > pThis.length then pThis.length else index.toNat
  if idx < pThis.length then pThis.eraseIdx idx else pThis.dropLast

/-- `tl_remove` (lines 1041-1066): removes the first occurrence of a non-empty
token; the flag tells whether one was found. -/
def tl_remove (pThis : STxtLine) (pcToken : String) : STxtLine × Bool :=
  if pcToken.length = 0 then (pThis, false)
  else
    let i := tl_find pThis pcToken
    if i = -1 then (pThis, false)
    else (pThis.take i.toNat ++ pThis.drop (i.toNat + pcToken.length), true)

/-- `tl_trim` (lines 1258-1300): removes leading and trailing spaces and tabs.
For a line of spaces and tabs only the C code goes on to read `szBuf[-1]`; the
model takes that byte to be neither a space nor a tab. -/
def tl_trim (pThis : STxtLine) : STxtLine :=
  ((pThis.dropWhile (fun c => c == ' ' || c == '\t')).reverse.dropWhile
    (fun c => c == ' ' || c == '\t')).reverse

/-- `tl_before_first_deref` (lines 1070-1106): the text before the first `.`
or `->` (or `NULL`), and the line shortened to what follows it.  An occurrence
at index 0 counts as not found. -/
def tl_before_first_deref (pThis : STxtLine) : Option STxtLine × STxtLine :=
  let dotIndex := tl_find pThis "."
  let ptrIndex := tl_find pThis "->"
  let derefType : Nat :=
    if dotIndex > 0 then
      if ptrIndex > 0 then (if ptrIndex < dotIndex then 2 else 1) else 1
    else if ptrIndex > 0 then 2 else 0
  if derefType = 1 then
    match tl_cut_out pThis 0 (dotIndex + 1) with
    | some (szBuf, rest) => (some (tl_delete_char szBuf (szBuf.length - 1)), rest)
    | none => (none, pThis)
  else if derefType = 2 then
    match tl_cut_out pThis 0 (ptrIndex + 2) with
    | some (szBuf, rest) =>
      let r1 := tl_delete_char szBuf (szBuf.length - 1)
      (some (tl_delete_char r1 (r1.length - 1)), rest)
    | none => (none, pThis)
  else (none, pThis)

/-- Word start delimiters of `tl_get_word_at`. -/
def is_start_delim (c : Char) : Bool := c == ' ' || c == ',' || c == '(' || c == ')'

/-- Word end delimiters of `tl_get_word_at` and `tl_extract_word`. -/
def is_end_delim (c : Char) : Bool :=
  c == ' ' || c == ',' || c == '(' || c == ')' || c == ';'

/-- The backward loop of `tl_get_word_at` (lines 1145-1153) from index `i`:
the value left in `indexStart`. -/
def word_start (pLine : STxtLine) : Nat → Nat
  | 0 => if is_start_delim (tl_char pLine 0) then 1 else 0
  | i + 1 => if is_start_delim (tl_char pLine (i + 1)) then i + 2 else word_start pLine i

/-- The forward loop of `tl_get_word_at` (lines 1156-1164): `n` bounds the
number of iterations, `i` is the current index. -/
def word_end (pLine : STxtLine) : Nat → Nat → Nat
  | 0, _ => pLine.length
  | n + 1, i =>
    if i < pLine.length then
      if is_end_delim (tl_char pLine i) then i else word_end pLine n (i + 1)
    else pLine.length

/-- `tl_get_word_at` (lines 1138-1174) for `0 <= index <= length`.  `none`
stands for the cases in which the returned line has no defined content: an
index past the terminating NUL, or `tl_cut_out` rejecting the indices (the caret
is on a start delimiter), after which `new_txt_line(NULL)` leaves the buffer
unset. -/
def tl_get_word_at (pLine : STxtLine) (index : Nat) : Option STxtLine :=
  if index > pLine.length then none
  else
    match tl_cut_out pLine (word_start pLine index) (word_end pLine pLine.length index) with
    | some (szWord, _) => some szWord
    | none => none

/-- The scan of `tl_extract_word` (lines 1195-1222) for the first delimiter:
its index. -/
def first_delim (pThis : STxtLine) : Option Nat :=
  pThis.findIdx? is_end_delim

/-- `tl_extract_word` (lines 1182-1254): the extracted word (or `NULL`), the
line left, and the value written to `*pcSeparator` if any. -/
def tl_extract_word (pThis : STxtLine) : Option STxtLine × STxtLine × Option Char :=
  if !tl_isempty pThis then
    match first_delim pThis with
    | some index =>
      let cSep1 := tl_char pThis index
      let next := tl_char pThis (index + 1)
      let bTwoDelim : Bool :=
        if cSep1 == ' ' then
          decide (index + 1 < pThis.length) &&
            (next == ',' || next == '(' || next == ')' || next == ';')
        else decide (index + 1 < pThis.length) && next == ' '
      let cSep2 : Char := if bTwoDelim then next else ' '
      let sep : Char := if cSep1 != ' ' then cSep1 else cSep2
      if index > 0 then
        (some (pThis.take index), pThis.drop (index + (if bTwoDelim then 2 else 1)), some sep)
      else (none, pThis, some sep)
    | none => (some pThis, [], some (Char.ofNat 0))
  else (none, pThis, none)

/-! ## Symbols -/

/-- `SSymFunc` (lines 1815-1864): a function symbol; its name, return type and
location may be `NULL`. -/
structure SSymFunc where
  pVarSet : List SVar
  pReturnType : Option STxtLine
  pLocation : Option SLocation
  pName : Option STxtLine
deriving DecidableEq, Repr

/-- `SClass`: a class symbol with its constructor and destructor slots, its
function set and its variable set.  Every class and struct symbol made by the
parser or by the samples below has a name. -/
structure SClass where
  pConstr : Option SSymFunc
  pDestr : Option SSymFunc
  pFuncSet : List SSymFunc
  pVarSet : List SVar
  pName : STxtLine
  pLocation : Option SLocation
deriving DecidableEq, Repr

/-- `SStruct`: a struct symbol with its function set and its variable set. -/
structure SStruct where
  pFuncSet : List SSymFunc
  pVarSet : List SVar
  pName : STxtLine
  pLocation : Option SLocation
deriving DecidableEq, Repr

/-- `SSymbolSet`: the classes, structs and free functions of a codebase, each
list holding `pp...[0 .. num...)`. -/
structure SSymbolSet where
  pClassSet : List SClass
  pStructSet : List SStruct
  pFuncSet : List SSymFunc
deriving DecidableEq, Repr

/-- `tl_equals(pThis, pTarget)` (lines 998-1013) on pointers: a null `pTarget`
gives false, a null `pThis` with a non-null target is dereferenced (`none`). -/
def tl_equals_ptr (pThis pTarget : Option STxtLine) : Option Bool :=
  match pTarget with
  | none => some false
  | some t =>
    match pThis with
    | none => none
    | some a => some (tl_equals a t)

/-- `tl_equals(pThis, pTarget)` with `pThis` set and `pTarget` possibly null. -/
def tl_equals_target (pThis : STxtLine) (pTarget : Option STxtLine) : Bool :=
  match pTarget with
  | none => false
  | some t => tl_equals pThis t

/-- `SVarSet::get_var` (lines 1761-1770): the first variable with the name, or
`NULL`; `none` when a variable without a name is compared on the way. -/
def get_var : List SVar → STxtLine → Option (Option SVar)
  | [], _ => some none
  | v :: rest, pName =>
    match tl_equals_ptr v.pName (some pName) with
    | none => none
    | some true => some (some v)
    | some false => get_var rest pName

/-- `SFuncSet::get_func` (lines 1953-1962): the first function with the name,
or `NULL`; `none` when a function without a name is compared on the way. -/
def get_func : List SSymFunc → STxtLine → Option (Option SSymFunc)
  | [], _ => some none
  | f :: rest, pName =>
    match tl_equals_ptr f.pName (some pName) with
    | none => none
    | some true => some (some f)
    | some false => get_func rest pName

/-- `verify_var_isstruct` (lines 7962-7977): the struct set is searched first,
the class set only when no struct has the name. -/
def verify_var_isstruct (pVarType : Option STxtLine) (pSymSet : SSymbolSet) :
    Option SClass × Option SStruct × Bool :=
  match pVarType with
  | none => (none, none, false)
  | some ty =>
    match pSymSet.pStructSet.find? (fun s => tl_equals ty s.pName) with
    | some s => (none, some s, true)
    | none =>
      match pSymSet.pClassSet.find? (fun c => tl_equals ty c.pName) with
      | some c => (some c, none, true)
      | none => (none, none, false)

/-- The clean-up of a variable type in `find_deref_varfunc` (lines 8019-8025):
up to two `*` and one `&` are removed, trimming after each. -/
def strip_type_markers (pTypeName : STxtLine) : STxtLine :=
  let t1 := tl_trim (tl_remove pTypeName "*").1
  let t2 := tl_trim (tl_remove t1 "*").1
  tl_trim (tl_remove t2 "&").1

/-- `find_deref_varfunc` (lines 7982-8096).  The first argument bounds the
depth of the recursion (each recursive call follows a shortening of `pLine`).
The static `callCount` is passed in and out, as are `pLine` and
`*ppLocation`; the result is `bFound`, `*ppLocation`, `pLine` and
`callCount`, or `none` when `pClass->pVarSet` is read with both `pStruct` and
`pClass` null, when a variable or function without a name is compared, or
when the type name cloned at line 8019 is `NULL`. -/
def find_deref_varfunc (pSymSet : SSymbolSet) :
    Nat → STxtLine → List SVar → Option SClass → Option SStruct → Option SLocation → Int →
      Option (Bool × Option SLocation × STxtLine × Int)
  | 0, _, _, _, _, _, _ => none
  | fuel + 1, pLine, pVarSetContext, pClass, pStruct, ppLocation, callCount =>
    let pLine1 := tl_trim pLine
    let first := tl_before_first_deref pLine1
    let st : Option STxtLine × STxtLine × Int :=
      match first.1 with
      | some t =>
        if tl_equals_sz t "this" then
          let second := tl_before_first_deref first.2
          (second.1, second.2, callCount + 1)
        else (some t, first.2, callCount)
      | none => (none, first.2, callCount)
    match st with
    | (some pTemp, pLine2, callCount2) =>
      let pVarType : Option (Option STxtLine) :=
        match get_var pVarSetContext pTemp with
        | none => none
        | some none => some none
        | some (some v) => v.pTypeName.map (fun ty => some (strip_type_markers ty))
      match pVarType with
      | none => none
      | some pVarType =>
        match verify_var_isstruct pVarType pSymSet with
        | (pClassThis, pStructThis, true) =>
          let ctx : List SVar :=
            match pStructThis, pClassThis with
            | some s, _ => s.pVarSet
            | none, some c => c.pVarSet
            | none, none => []
          match find_deref_varfunc pSymSet fuel pLine2 ctx pClassThis pStructThis ppLocation
              (callCount2 + 1) with
          | some (bFound, loc, pLine3, callCount3) => some (bFound, loc, pLine3, callCount3 - 1)
          | none => none
        | (_, _, false) => some (false, ppLocation, pLine2, callCount2)
    | (none, pLine2, callCount2) =>
      if callCount2 > 0 then
        match tl_extract_word pLine2 with
        | (some pLast, pLine3, _) =>
          match pStruct, pClass with
          | none, none => none  -- pClass->pVarSet with pClass NULL
          | some s, _ =>
            match get_var s.pVarSet pLast with
            | none => none
            | some (some v) => some (true, v.pLocation, pLine3, callCount2)
            | some none =>
              match get_func s.pFuncSet pLast with
              | none => none
              | some (some fn) => some (true, fn.pLocation, pLine3, callCount2)
              | some none => some (false, ppLocation, pLine3, callCount2)
          | none, some c =>
            match get_var c.pVarSet pLast with
            | none => none
            | some (some v) => some (true, v.pLocation, pLine3, callCount2)
            | some none =>
              match get_func c.pFuncSet pLast with
              | none => none
              | some (some fn) => some (true, fn.pLocation, pLine3, callCount2)
              | some none => some (false, ppLocation, pLine3, callCount2)
        | (none, pLine3, _) => some (false, ppLocation, pLine3, callCount2)
      else some (false, ppLocation, pLine2, callCount2)

/-- Element `ppClasses[idx]` of the class set; `none` when `idx` is outside
`0 .. numClasses - 1`. -/
def class_at (pSymSet : SSymbolSet) (idx : Int) : Option SClass :=
  if idx < 0 then none else pSymSet.pClassSet[idx.toNat]?

/-- Element `ppStructs[idx]` of the struct set; `none` when `idx` is outside
`0 .. numStructs - 1`. -/
def struct_at (pSymSet : SSymbolSet) (idx : Int) : Option SStruct :=
  if idx < 0 then none else pSymSet.pStructSet[idx.toNat]?

/-- Field `symLinkIndex` of the section of an element. -/
def SCodeElement.symLinkIndex : SCodeElement → Int
  | .single _ _ => -1
  | .sec _ _ info _ => info.symLinkIndex

/-- Field `pVarSet` of the section of an element. -/
def SCodeElement.pVarSet : SCodeElement → List SVar
  | .single _ _ => []
  | .sec _ _ info _ => info.pVarSet

/-- The climbing loops of `get_requested_element` (lines 8174-8177, 8189-8193
and 8204-8208): starting at the section `h`, go up through `pContainer` until a
section whose type satisfies `stop`; returns the variables of the sections
passed (in the order added) and the section reached.  `none` when the root is
passed without a stop. -/
def climb_to (root : SCodeElement) (stop : Nat → Bool) : Handle → Option (List SVar × Handle)
  | [] =>
    match root with
    | .sec t _ _ _ => if stop t then some ([], []) else none
    | .single _ _ => none
  | i :: h =>
    match ce_at root (i :: h) with
    | some (.sec t _ info _) =>
      if stop t then some ([], i :: h)
      else
        match climb_to root stop h with
        | some (vars, top) => some (info.pVarSet ++ vars, top)
        | none => none
    | _ => none

/-- The variable scope built by `get_requested_element` (lines 8158-8216) for
an element whose container is the section `h`. -/
def build_var_context (root : SCodeElement) (pSymSet : SSymbolSet) (h : Handle) :
    Option (List SVar) :=
  let is_fn : Nat → Bool := fun t => t == CDE_FNDEFN || t == CDE_CLASS_FNDEFN
  let is_cls : Nat → Bool := fun t => t == CDE_TYPEDEF || t == CDE_CLASSDECL
  match climb_to root is_fn h with
  | some (_, _ :: up) =>
    match ce_at root up with
    | some (.sec t _ _ _) =>
      if is_cls t then
        -- case 1: the function is contained in a class or struct
        match climb_to root is_cls h with
        | some (vars, top) =>
          match ce_at root top with
          | some c =>
            if c.type = CDE_TYPEDEF then
              (struct_at pSymSet c.symLinkIndex).map (fun s => vars ++ s.pVarSet)
            else (class_at pSymSet c.symLinkIndex).map (fun k => vars ++ k.pVarSet)
          | none => none
        | none => none
      else
        -- case 2: a standalone function
        match climb_to root is_fn h with
        | some (vars, top) =>
          match ce_at root top with
          | some fn =>
            if fn.type = CDE_CLASS_FNDEFN then
              (class_at pSymSet fn.symLinkIndex).map (fun k => vars ++ fn.pVarSet ++ k.pVarSet)
            else some (vars ++ fn.pVarSet)
          | none => none
        | none => none
    | _ => none
  | _ => none  -- no enclosing function, or the function is the root

/-- `get_requested_element` (lines 8101-8234): the returned location (possibly
`NULL`) and the value of the static `callCount` afterwards.  `none` is a
fault: a null `pContainer` or `pConstr` dereferenced, a symbol link index
outside its set, or a word without defined content. -/
def get_requested_element (root : SCodeElement) (pElem : Handle) (caretX : Nat)
    (pSymSet : SSymbolSet) (callCount : Int) : Option (Option SLocation × Int) :=
  match ce_at root pElem with
  | none => none
  | some e =>
    let pLine := e.pLine
    match tl_get_word_at pLine caretX with
    | none => none
    | some pWord =>
      -- check for struct or class
      match pSymSet.pStructSet.find? (fun s => tl_equals pWord s.pName) with
      | some s => some (s.pLocation, callCount)
      | none =>
        match pSymSet.pClassSet.find? (fun c => tl_equals pWord c.pName) with
        | some c =>
          if tl_find pLine "new" ≠ -1 then
            match c.pConstr with
            | some k => some (k.pLocation, callCount)
            | none => none  -- pConstr is NULL
          else some (c.pLocation, callCount)
        | none =>
          match pElem with
          | [] => none  -- pElem->pContainer is NULL
          | _ :: h =>
            match ce_at root h with
            | none => none
            | some container =>
              -- check for fn contained in a class
              let inClass : Option (Option (Option SLocation)) :=
                if container.type = CDE_CLASSDECL then
                  match class_at pSymSet container.symLinkIndex with
                  | some k => some ((k.pFuncSet.find? (fun f => tl_equals_target pWord f.pName)).map
                      (fun f => f.pLocation))
                  | none => none
                else some none
              match inClass with
              | none => none  -- ppClasses read outside the set
              | some (some loc) => some (loc, callCount)
              | some none =>
                -- check for fn contained in a class/struct calling a sibling fn
                match h with
                | [] => none  -- pContainer->pBaseElem->pContainer is NULL
                | _ :: h2 =>
                  match ce_at root h2 with
                  | none => none
                  | some outer =>
                    let pFuncSet : Option (Option (List SSymFunc)) :=
                      if outer.type = CDE_CLASSDECL then
                        (class_at pSymSet outer.symLinkIndex).map (fun k => some k.pFuncSet)
                      else if outer.type = CDE_TYPEDEF then
                        (struct_at pSymSet outer.symLinkIndex).map (fun s => some s.pFuncSet)
                      else some none
                    match pFuncSet with
                    | none => none  -- ppClasses or ppStructs read outside the set
                    | some fs =>
                      -- tl_before_first_deref shortens pWord itself
                      let cut : Option STxtLine × STxtLine :=
                        match fs with
                        | some _ => tl_before_first_deref pWord
                        | none => (none, pWord)
                      let pWord2 := cut.2
                      let sibling : Option (Option SLocation) :=
                        match fs with
                        | some funcs =>
                          if cut.1 = none ∨ cut.1 = some "this".toList then
                            ((funcs.reverse.find? (fun f => tl_equals_target pWord2 f.pName)).map
                              (fun f => f.pLocation))
                          else none
                        | none => none
                      match sibling with
                      | some loc => some (loc, callCount)
                      | none =>
                        -- check for fn dereferenced from a class/struct var
                        match build_var_context root pSymSet h with
                        | none => none
                        | some ctx =>
                          match find_deref_varfunc pSymSet (pWord2.length + 1) pWord2 ctx
                              none none none callCount with
                          | none => none
                          | some (true, loc, _, cc) => some (loc, cc)
                          | some (false, _, pWord3, cc) =>
                            -- check for fn (not contained in a class/struct)
                            some (((pSymSet.pFuncSet.find?
                              (fun f => tl_equals_target pWord3 f.pName)).bind
                                (fun f => f.pLocation)), cc)

/-! ## Navigation trail and the goto handler -/

/-- `SNavTrail`: the entries `(ppSteps[i], pCaretLocs[i])` for
`i < numSteps`, oldest first; the top of the stack is the last entry. -/
structure SNavTrail where
  steps : List (SLocation × Int)
deriving DecidableEq, Repr

/-- Field `numSteps` of a trail. -/
def SNavTrail.numSteps (t : SNavTrail) : Nat := t.steps.length

/-- `SLocation::equals` (lines 1512-1517): file offsets only. -/
def SLocation.equals (a b : SLocation) : Bool := a.fileOffset == b.fileOffset

/-- `SNavTrail::add_step` (lines 1557-1581). -/
def add_step (t : SNavTrail) (pAdd : SLocation) (caretLoc : Int) : SNavTrail :=
  match t.steps.getLast? with
  | some top =>
    if !top.1.equals pAdd then ⟨t.steps ++ [(pAdd, caretLoc)]⟩
    else t
  | none => ⟨t.steps ++ [(pAdd, caretLoc)]⟩

/-- `SNavTrail::remove_step` (lines 1584-1593): the returned location (or
`NULL`), the value written to `*pCaretLoc` if any, and the trail left. -/
def remove_step (t : SNavTrail) : Option SLocation × Option Int × SNavTrail :=
  match t.steps.getLast? with
  | some top => (some top.1, some top.2, ⟨t.steps.dropLast⟩)
  | none => (none, none, t)

/-- The part of `SModeSrcEdr` and of the program state that `src_edr_goto`
reads and writes: the code base (tree and symbol set), the screen offset, the
caret, the number of displayed lines, the navigation trail, the state of the
line input (`bInputRcvd` and the number `ToLong` reads from its text) and the
static `callCount` of `find_deref_varfunc`. -/
structure SModeSrcEdr where
  root : SCodeElement
  pSymSet : SSymbolSet
  fileOffset : Int
  CaretX : Int
  CaretY : Int
  dispLines : Int
  pNavTrail : SNavTrail
  bInputRcvd : Bool
  lVal : Int
  callCount : Int

/-- The loop of lines 8288-8292 (and 8353-8357): fetch the element at
`fileOffset` and unsummarize it until the returned offset is 0.  Returns the
tree and the last `pElem`.  The first argument bounds the number of
iterations. -/
def unfold_to_goto : Nat → SCodeElement → Int → Option (SCodeElement × Handle)
  | 0, _, _ => none
  | fuel + 1, root, fileOffset =>
    match get_element_at root [] fileOffset 0 with
    | some (some pElem, lineOffset) =>
      match ce_at root pElem with
      | some e =>
        if lineOffset ≠ 0 then
          if !e.bSingle then unfold_to_goto fuel (set_summarized root pElem false) fileOffset
          else unfold_to_goto fuel root fileOffset
        else some (root, pElem)
      | none => none
    | _ => none  -- pElem is NULL

/-- The loop of lines 8403-8407: as `unfold_to_goto`, without the test of
`bSingle` before `pElem->pSec` is written. -/
def unfold_to_back : Nat → SCodeElement → Int → Option (SCodeElement × Handle)
  | 0, _, _ => none
  | fuel + 1, root, fileOffset =>
    match get_element_at root [] fileOffset 0 with
    | some (some pElem, lineOffset) =>
      match ce_at root pElem with
      | some e =>
        if lineOffset ≠ 0 then
          if !e.bSingle then unfold_to_back fuel (set_summarized root pElem false) fileOffset
          else none  -- pElem->pSec is NULL
        else some (root, pElem)
      | none => none
    | _ => none  -- pElem is NULL

/-- The search of lines 8314-8320 for the caret line: the first `i` with
`i0 <= i <= i0 + n` whose element `get_element_at(fileOffset, i)` has the line
`pLine`; `some none` when there is none (the `wxASSERT` then fails). -/
def find_caret_line (root : SCodeElement) (fileOffset : Int) (pLine : STxtLine) :
    Nat → Int → Option (Option Int)
  | 0, _ => some none
  | n + 1, i =>
    match get_element_at root [] fileOffset i with
    | some (some pElemTemp, _) =>
      match ce_at root pElemTemp with
      | some e =>
        if tl_equals e.pLine pLine then some (some i)
        else find_caret_line root fileOffset pLine n (i + 1)
      | none => none
    | _ => none  -- pElemTemp is NULL

/-- Lines 8275-8324 of `src_edr_goto`: the jump to a resolved location whose
file offset is `target`. -/
def goto_location (st : SModeSrcEdr) (target : Int) : Option SModeSrcEdr :=
  match get_element_at st.root [] st.fileOffset st.CaretY with
  | some (some pElem0, lineOffset0) =>
    let pCurLoc : SLocation := ⟨some pElem0, st.fileOffset + lineOffset0⟩
    let trail := add_step st.pNavTrail pCurLoc st.CaretY
    match ce_collapse st.root pElem0 with
    | none => none
    | some (root1, _) =>
      match unfold_to_goto (ce_count root1 + 1) root1 target with
      | none => none
      | some (root2, pElem) =>
        match ce_at root2 pElem with
        | none => none
        | some e =>
          let root3 := if !e.bSingle then set_summarized root2 pElem false else root2
          match ce_expand root3 pElem with
          | none => none
          | some root4 =>
            match get_element_at root4 [] target 0,
                get_element_at root4 [] target (Int.tdiv (-st.dispLines) 2) with
            | some (some pElem4, _), some (_, lineOffset) =>
              match ce_at root4 pElem4 with
              | none => none
              | some e4 =>
                let fileOffset := target + lineOffset
                let half := Int.tdiv st.dispLines 2
                match get_element_at root4 [] fileOffset half with
                | some (some pElemTemp, _) =>
                  match ce_at root4 pElemTemp with
                  | none => none
                  | some eT =>
                    let caretY : Option (Option Int) :=
                      if tl_equals eT.pLine e4.pLine then some (some half)
                      else find_caret_line root4 fileOffset e4.pLine (half + 1).toNat 0
                    match caretY with
                    | none => none
                    | some found =>
                      some { st with
                        root := root4, fileOffset := fileOffset, CaretX := 0,
                        CaretY := found.getD st.CaretY, pNavTrail := trail }
                | _ => none  -- pElemTemp is NULL
            | _, _ => none
  | _ => none  -- ce_collapse on a NULL element

/-- Lines 8342-8368 of `src_edr_goto`: the jump to the line number `lVal`
typed into the line input. -/
def goto_line (st : SModeSrcEdr) : Option SModeSrcEdr :=
  match get_element_at st.root [] st.fileOffset st.CaretY with
  | some (some pElem0, lineOffset0) =>
    let pCurLoc : SLocation := ⟨some pElem0, st.fileOffset + lineOffset0⟩
    let trail := add_step st.pNavTrail pCurLoc st.CaretY
    match ce_collapse st.root pElem0 with
    | none => none
    | some (root1, _) =>
      match unfold_to_goto (ce_count root1 + 1) root1 st.lVal with
      | none => none
      | some (root2, pElem) =>
        match ce_at root2 pElem with
        | none => none
        | some e =>
          let root3 := if !e.bSingle then set_summarized root2 pElem false else root2
          match ce_expand root3 pElem with
          | none => none
          | some root4 =>
            match get_element_at root4 [] st.lVal (Int.tdiv (-st.dispLines) 2) with
            | some (_, lineOffset) =>
              some { st with
                root := root4, fileOffset := st.lVal + lineOffset,
                CaretY := Int.tdiv st.dispLines 2, pNavTrail := trail, bInputRcvd := false }
            | none => none
  | _ => none

/-- The back branch of `src_edr_goto` (lines 8387-8418). -/
def goto_back (st : SModeSrcEdr) : Option SModeSrcEdr :=
  match remove_step st.pNavTrail with
  | (some pBackToLoc, some caretLoc, trail) =>
    match get_element_at st.root [] st.fileOffset st.CaretY with
    | some (some pElem, _) =>
      match ce_collapse st.root pElem with
      | none => none
      | some (root1, _) =>
        match unfold_to_back (ce_count root1 + 1) root1 pBackToLoc.fileOffset with
        | none => none
        | some (root2, _) =>
          match get_element_at root2 [] pBackToLoc.fileOffset (-caretLoc) with
          | some (_, lineOffset) =>
            some { st with
              root := root2, fileOffset := pBackToLoc.fileOffset + lineOffset,
              CaretY := caretLoc, pNavTrail := trail }
          | none => none
    | _ => none  -- ce_collapse on a NULL element
  | (_, _, trail) => some { st with pNavTrail := trail }

/-- `src_edr_goto` (lines 8239-8420) in phase `PH_NOTIFY`; `bRight` tells
whether the key is `WXK_RIGHT`.  Launching the browser, pushing the line input
mode and refreshing the window leave the modelled state as it is. -/
def src_edr_goto (st : SModeSrcEdr) (bRight : Bool) : Option SModeSrcEdr :=
  if bRight then
    match get_element_at st.root [] st.fileOffset st.CaretY with
    | some (some pElem, _) =>
      match ce_at st.root pElem with
      | none => none
      | some e =>
        if tl_find (tl_trim e.pLine) "http" ≠ -1 then some st
        else if st.CaretX < 0 then none
        else
          match get_requested_element st.root pElem st.CaretX.toNat st.pSymSet st.callCount with
          | none => none
          | some (pLocation, cc) =>
            let st1 := { st with callCount := cc }
            match pLocation with
            | some loc =>
              match loc.pCodeBaseLoc with
              | some _ => goto_location st1 loc.fileOffset
              | none =>
                if !st1.bInputRcvd then some st1
                else if st1.lVal ≥ 0 ∧ st1.lVal < ce_length st1.root - 1 then goto_line st1
                else some st1
            | none => some st1
    | _ => none  -- pElem->pLine on a NULL element
  else goto_back st

/-! ## Sample code bases for the resolver -/

/-- Location of the declaration `void bar();` in the sample trees. -/
def bar_location : SLocation := ⟨some [1, 2], 7⟩

/-- Location of the local declaration `Foo *f;` in `deref_tree`. -/
def f_location : SLocation := ⟨some [1, 1], 2⟩

/-- Location of the declaration `void bar();` in `inline_tree`. -/
def bar_location_inline : SLocation := ⟨some [1, 1], 8⟩

/-- The class `Foo` with the member function `bar` declared at `loc`. -/
def class_foo (loc : SLocation) : SClass :=
  { pConstr := none, pDestr := none,
    pFuncSet := [⟨[], some "void".toList, some loc, some "bar".toList⟩],
    pVarSet := [], pName := "Foo".toList, pLocation := none }

/-- The declaration of class `Foo`, three lines. -/
def class_foo_decl : SCodeElement :=
  .sec CDE_CLASSDECL "class Foo \x7b...\x7d".toList ⟨true, 2, 0, []⟩ [
    .single CDE_S_CODELINE "class Foo \x7b".toList,
    .single CDE_S_FWDDECL_FN "  void bar();".toList,
    .single CDE_S_CODELINE "\x7d;".toList]

/-- The body of a function `g` declaring `Foo *f` and calling `f->bar()` and
`f.bar()`. -/
def function_g : SCodeElement :=
  .sec CDE_FNDEFN "void g() \x7b...\x7d".toList
    ⟨false, 0, -1, [⟨some "Foo *".toList, some "f".toList, some f_location⟩]⟩ [
    .single CDE_S_CODELINE "void g() \x7b".toList,
    .single CDE_S_VARDECL "  Foo *f;".toList,
    .single CDE_S_CODELINE "  f->bar();".toList,
    .single CDE_S_CODELINE "  f.bar();".toList,
    .single CDE_S_CODELINE "\x7d".toList]

/-- A code base with a standalone function `g` followed by class `Foo`. -/
def deref_tree : SCodeElement :=
  .sec CDE_CODEBASE "The CodeBase".toList (plain_info false) [
    .single CDE_S_COMMENT "// top".toList, function_g, class_foo_decl]

/-- The symbol set of `deref_tree`. -/
def deref_symbols : SSymbolSet :=
  { pClassSet := [class_foo bar_location], pStructSet := [],
    pFuncSet := [⟨[], some "void".toList, some ⟨some [1], 1⟩, some "g".toList⟩] }

/-- A code base in which the same function `g` is defined inside the body of a
struct `Baz`, followed by class `Foo`. -/
def inline_tree : SCodeElement :=
  .sec CDE_CODEBASE "The CodeBase".toList (plain_info false) [
    .sec CDE_TYPEDEF "typedef struct Baz \x7b...\x7d".toList ⟨false, 1, 0, []⟩ [
      .single CDE_S_CODELINE "typedef struct Baz \x7b".toList,
      function_g,
      .single CDE_S_CODELINE "\x7d Baz;".toList],
    class_foo_decl]

/-- The symbol set of `inline_tree`: struct `Baz` with member function `g`,
and class `Foo`. -/
def inline_symbols : SSymbolSet :=
  { pClassSet := [class_foo bar_location_inline],
    pStructSet := [{ pFuncSet := [⟨[], some "void".toList, some ⟨some [1, 0], 1⟩,
                                  some "g".toList⟩],
                     pVarSet := [], pName := "Baz".toList, pLocation := some ⟨some [0], 0⟩ }],
    pFuncSet := [] }

/-- The empty symbol set. -/
def no_symbols : SSymbolSet := ⟨[], [], []⟩

/-! ## Sample editor states -/

/-- A code base of three lines followed by two unfolded functions, `h` and
`g`, the second calling the first. -/
def nav_tree : SCodeElement :=
  .sec CDE_CODEBASE "The CodeBase".toList (plain_info false) [
    .single CDE_S_COMMENT "// one".toList,
    .single CDE_S_COMMENT "// two".toList,
    .single CDE_S_COMMENT "// three".toList,
    .sec CDE_FNDEFN "void h() \x7b...\x7d".toList (plain_info false) [
      .single CDE_S_CODELINE "void h() \x7b".toList,
      .single CDE_S_VARDECL "  int a;".toList,
      .single CDE_S_CODELINE "\x7d".toList],
    .sec CDE_FNDEFN "void g() \x7b...\x7d".toList (plain_info false) [
      .single CDE_S_CODELINE "void g() \x7b".toList,
      .single CDE_S_CODELINE "  h();".toList,
      .single CDE_S_CODELINE "\x7d".toList]]

/-- The symbol set of `nav_tree`: the free functions `h` and `g`. -/
def nav_symbols : SSymbolSet :=
  { pClassSet := [], pStructSet := [],
    pFuncSet := [⟨[], some "void".toList, some ⟨some [3], 3⟩, some "h".toList⟩,
                 ⟨[], some "void".toList, some ⟨some [4], 6⟩, some "g".toList⟩] }

/-- Editor state on `nav_tree`: the screen starts at line 2, the caret is five
steps below, on the call `h();` (line 7), column 2; ten lines are displayed and
the trail is as given. -/
def nav_state (trail : SNavTrail) : SModeSrcEdr :=
  { root := nav_tree, pSymSet := nav_symbols, fileOffset := 2, CaretX := 2, CaretY := 5,
    dispLines := 10, pNavTrail := trail, bInputRcvd := false, lVal := 0, callCount := 0 }

mutual
/-- Number of summarized sections of a tree: the measure that bounds the
unfolding loops of the goto handler. -/
def num_summarized : SCodeElement → Nat
  | .single _ _ => 0
  | .sec _ _ info es => (if info.bSummarized then 1 else 0) + num_summarized_list es
/-- Number of summarized sections in a list of trees. -/
def num_summarized_list : List SCodeElement → Nat
  | [] => 0
  | e :: es => num_summarized e + num_summarized_list es
end

/-! ## Brace matching -/

/-- The loop of `find_end_brace` (lines 3901-3907): `n` bounds the number of
iterations, `idx` and `numBraces` are the loop variables; returns their final
values. -/
def find_end_brace_loop (pPage : List STxtLine) : Nat → Nat → Nat → Nat × Nat
  | 0, idx, numBraces => (idx, numBraces)
  | n + 1, idx, numBraces =>
    if numBraces > 0 ∧ idx + 1 < pPage.length then
      let pLine := pPage.getD (idx + 1) []
      let nb1 := if tl_find pLine "\x7b" ≠ -1 then numBraces + 1 else numBraces
      let nb2 := if tl_find pLine "\x7d" ≠ -1 then nb1 - 1 else nb1
      find_end_brace_loop pPage n (idx + 1) nb2
    else (idx, numBraces)

/-- `find_end_brace` (lines 3884-3917).  The result is `none` when
`ppLines[index]` is outside the page, `some none` when the function returns
false (leaving `*pnLength` as it is) and `some (some n)` when it returns true
with `*pnLength == n`. -/
def find_end_brace (pPage : List STxtLine) (index : Nat) : Option (Option Nat) :=
  match pPage[index]? with
  | none => none
  | some pLine =>
    -- special case, end brace on same line as startbrace
    if tl_find pLine "\x7d" ≠ -1 then some (some 1)
    else
      let r := find_end_brace_loop pPage (pPage.length - 1 - index) index 1
      if r.2 > 0 then some none
      else some (some (r.1 + 1 - index))

/-! ## Declaration extraction -/

/-- `tl_insert` (lines 960-974) for `0 <= at <= length`: the token is put in
at index `at`. -/
def tl_insert (pThis : STxtLine) (szToken : List Char) (iAt : Nat) : STxtLine :=
  pThis.take iAt ++ szToken ++ pThis.drop iAt

/-- `tl_before_first` (lines 1110-1134): the line clipped before the first
occurrence of a non-empty token, and whether one was found. -/
def tl_before_first (pThis : STxtLine) (pcToken : String) : STxtLine × Bool :=
  if pcToken.length = 0 then (pThis, false)
  else
    let i := tl_find pThis pcToken
    if i = -1 then (pThis, false)
    else (pThis.take i.toNat, true)

/-- `check_composite_funcname` (lines 1896-1912) on a non-null name: `none`
when the name holds no `::`, else the class part and the member part. -/
def check_composite_funcname (pFuncName : STxtLine) : Option (STxtLine × STxtLine) :=
  if tl_find pFuncName "::" ≠ -1 then
    let cls := tl_before_first pFuncName "::"
    if cls.2 then
      let sub1 := (tl_remove pFuncName (String.mk cls.1)).1
      some (cls.1, (tl_remove sub1 "::").1)
    else none
  else none

/-- The flags and the return value of `check_var_type_for_ptrs` and
`check_wxvar_type_for_ptrs`. -/
structure SPtrCheck where
  retVal : Nat
  bIsPtr : Bool
  bIsPtrPtr : Bool
  bIsDeref : Bool
deriving DecidableEq, Repr

/-- `check_var_type_for_ptrs` (lines 3171-3206); `indexEnd` is the length of
`szVar`, and the three flags are false on entry. -/
def check_var_type_for_ptrs (pLine : STxtLine) (indexEnd : Nat) : SPtrCheck :=
  if indexEnd < pLine.length then
    if tl_char pLine indexEnd == '*' then
      if indexEnd + 1 < pLine.length ∧ tl_char pLine (indexEnd + 1) == '*' then
        ⟨indexEnd + 2, true, true, false⟩
      else ⟨indexEnd + 1, true, false, false⟩
    else if tl_char pLine indexEnd == '&' then ⟨indexEnd + 1, false, false, true⟩
    else if tl_char pLine indexEnd == ' ' then
      if indexEnd + 1 < pLine.length then
        if tl_char pLine (indexEnd + 1) == '*' then
          if indexEnd + 2 < pLine.length ∧ tl_char pLine (indexEnd + 2) == '*' then
            ⟨indexEnd + 3, true, true, false⟩
          else ⟨indexEnd + 2, true, false, false⟩
        else if tl_char pLine (indexEnd + 1) == '&' then ⟨indexEnd + 2, false, false, true⟩
        else ⟨indexEnd, false, false, false⟩
      else ⟨indexEnd, false, false, false⟩
    else ⟨indexEnd, false, false, false⟩
  else ⟨indexEnd, false, false, false⟩

/-- `check_wxvar_type_for_ptrs` (lines 3217-3263) for a word `szVar` of at
least two characters that starts the line: the check and the word with its
trailing `*`, `**` or `&` cut off. -/
def check_wxvar_type_for_ptrs (pLine : STxtLine) (szVar : STxtLine) : SPtrCheck × STxtLine :=
  let indexEnd := szVar.length
  if tl_char pLine (indexEnd - 1) == '*' then
    if tl_char pLine (indexEnd - 2) == '*' then
      (⟨indexEnd, true, true, false⟩, szVar.take (indexEnd - 2))
    else (⟨indexEnd, true, false, false⟩, szVar.take (indexEnd - 1))
  else if tl_char pLine (indexEnd - 1) == '&' then
    (⟨indexEnd, false, false, true⟩, szVar.take (indexEnd - 1))
  else if indexEnd < pLine.length ∧ tl_char pLine indexEnd == ' ' ∧
      indexEnd + 1 < pLine.length then
    if tl_char pLine (indexEnd + 1) == '*' then
      if indexEnd + 2 < pLine.length ∧ tl_char pLine (indexEnd + 2) == '*' then
        (⟨indexEnd + 3, true, true, false⟩, szVar)
      else (⟨indexEnd + 2, true, false, false⟩, szVar)
    else if tl_char pLine (indexEnd + 1) == '&' then (⟨indexEnd + 2, false, false, true⟩, szVar)
    else (⟨indexEnd, false, false, false⟩, szVar)
  else (⟨indexEnd, false, false, false⟩, szVar)

/-- The text `extract_var` appends to a type for the markers found (lines
3346-3354 and the like). -/
def ptr_suffix (c : SPtrCheck) : List Char :=
  if c.bIsPtr && !c.bIsPtrPtr then " *".toList
  else if c.bIsPtr && c.bIsPtrPtr then " **".toList
  else if c.bIsDeref then " &".toList
  else []

/-- A `STxtLine *` out-parameter: `NULL`, the line made by
`new_txt_line(NULL)` (100 characters that are never written), or a line with
content. -/
inductive TxtLinePtr where
  | null : TxtLinePtr
  | unset : TxtLinePtr
  | line (l : STxtLine) : TxtLinePtr
deriving DecidableEq, Repr

/-- What `extract_var` returns and leaves in its arguments: the return value,
the line, `*ppClassName`, `*ppVarName`, `*ppVarType`, and the character
written to `*pcSeparator` if one is written. -/
structure SExtractVar where
  bFound : Bool
  pLine : STxtLine
  pClassName : TxtLinePtr
  pVarName : Option STxtLine
  pVarType : Option STxtLine
  cSeparator : Option Char
deriving DecidableEq, Repr

/-- The qualifier keywords `szCVars[8 .. 11]` of `extract_var`. -/
def qualifier_keywords : List String := ["virtual", "static", "explicit", "const"]

/-- The built-in type keywords `szCVars[0 .. 7]` of `extract_var`. -/
def type_keywords : List String :=
  ["void", "bool", "int", "unsigned int", "char", "unsigned char", "float", "double"]

/-- The first of the keywords found at index 0 of the line. -/
def first_keyword (pLine : STxtLine) (keywords : List String) : Option String :=
  keywords.find? (fun k => decide (tl_find pLine k = 0))

/-- `tl_cut_out(pLine, 0, n)` with the cut-out text dropped: the line left, which
is the line itself when the call is rejected. -/
def cut_front (pLine : STxtLine) (n : Nat) : STxtLine :=
  match tl_cut_out pLine 0 n with
  | some (_, rest) => rest
  | none => pLine

/-- The loops of lines 3403-3410 and 3439-3447: the longest name found at index
0 of the line, the first one among those of the same length; no name of
length 0. -/
def longest_prefix_name (pLine : STxtLine) : List STxtLine → Option STxtLine → Option STxtLine
  | [], best => best
  | pName :: rest, best =>
    if tl_find pLine (String.mk pName) = 0 ∧ pName.length > (best.map List.length).getD 0 then
      longest_prefix_name pLine rest (some pName)
    else longest_prefix_name pLine rest best

/-- The loop of lines 3512-3537: the first class whose name, between `~` and
`(`, is found at index 0 of the line. -/
def first_destructor (pLine : STxtLine) (names : List STxtLine) : Option STxtLine :=
  names.find? (fun n => decide (tl_find pLine (String.mk ('~' :: n ++ ['('])) = 0))

/-- The type found by `extract_var`, before the name is looked for: whether a
type was found, `bConstr` (which `bDestr` is copied to), `*ppClassName`,
`*ppVarName`, `*ppVarType` and `varLength`. -/
structure SVarTypeFound where
  bFound : Bool
  bConstr : Bool
  pClassName : TxtLinePtr
  pVarName : Option STxtLine
  pVarType : Option STxtLine
  varLength : Nat
deriving DecidableEq, Repr

/-- The type with the keyword or name `szAdded` added and the markers of the
check appended (lines 3338-3354 and the like). -/
def add_to_type (pVarType : Option STxtLine) (bQualifier : Bool) (szAdded : STxtLine)
    (c : SPtrCheck) : Option STxtLine :=
  if bQualifier then pVarType.map (fun t => t ++ " ".toList ++ szAdded ++ ptr_suffix c)
  else some (szAdded ++ ptr_suffix c)

/-- Lines 3432-3541 of `extract_var`: the search for a class name, a
constructor or a destructor at the start of the line, run when no keyword, no
`wx` type and no struct name was found. -/
def extract_class_type (pLine : STxtLine) (pSymSet : SSymbolSet) (bQualifier : Bool)
    (pVarType : Option STxtLine) : SVarTypeFound :=
  match longest_prefix_name pLine (pSymSet.pClassSet.map (fun c => c.pName)) none with
  | some szLongest =>
    let len := szLongest.length
    if tl_char pLine len == '(' then
      ⟨true, true, .line szLongest, some szLongest, some szLongest, len + 1⟩
    else if (tl_before_first pLine "::").1 == szLongest then
      let pLineT := cut_front pLine (len + 2)
      if tl_find pLineT (String.mk szLongest) = 0 then
        ⟨true, true, .line szLongest, some szLongest, some szLongest, len + 2 + len + 1⟩
      else if tl_find pLineT (String.mk ('~' :: szLongest)) = 0 then
        ⟨true, true, .line szLongest, some ('~' :: szLongest), some szLongest,
          (len + 1) + 2 + len + 1⟩
      else ⟨true, false, .line szLongest, none, pVarType, 0⟩
    else
      let c := check_var_type_for_ptrs pLine len
      ⟨true, false, .line szLongest, none, some (szLongest ++ ptr_suffix c), c.retVal⟩
  | none =>
    match first_destructor pLine (pSymSet.pClassSet.map (fun c => c.pName)) with
    | some pName =>
      let pDestr := (tl_remove ('~' :: pName ++ ['(']) "(").1
      let ty := if bQualifier then pVarType.map (fun t => t ++ " ".toList ++ pName)
        else some pName
      ⟨true, true, .unset, some pDestr, ty, pDestr.length + 1⟩
    | none => ⟨false, false, .unset, none, pVarType, 0⟩

/-- Lines 3287-3541 of `extract_var`, after the line is trimmed: the
qualifiers are cut off the line, then a type is looked for.  Returns the line
and what was found; `none` when the word extracted for a `wx` type is `NULL`
and its buffer is read. -/
def extract_var_type (pLine : STxtLine) (pSymSet : SSymbolSet) :
    Option (STxtLine × SVarTypeFound) :=
  -- look for a qualifier, then for another one
  let q1 := first_keyword pLine qualifier_keywords
  let bQualifier := q1.isSome
  let pLine1 := match q1 with
    | some q => tl_trim (cut_front pLine q.length)
    | none => pLine
  let q2 := if bQualifier then first_keyword pLine1 qualifier_keywords else none
  let pLine2 := match q2 with
    | some q => tl_trim (cut_front pLine1 q.length)
    | none => pLine1
  let pVarType0 : Option STxtLine :=
    match q1, q2 with
    | some a, some b => some (a.toList ++ " ".toList ++ b.toList)
    | some a, none => some a.toList
    | none, _ => none
  -- look for a language type
  match first_keyword pLine2 type_keywords with
  | some k =>
    let c := check_var_type_for_ptrs pLine2 k.length
    some (pLine2, ⟨true, false, .null, none, add_to_type pVarType0 bQualifier k.toList c,
      c.retVal⟩)
  | none =>
    -- look for a wx type
    let wx : Option (Option SVarTypeFound) :=
      if tl_find pLine2 "wx" = 0 then
        match tl_extract_word pLine2 with
        | (some szAdded, _, some sep) =>
          if sep == ' ' then
            let c := check_wxvar_type_for_ptrs pLine2 szAdded
            some (some ⟨true, false, .null, none, add_to_type pVarType0 bQualifier c.2 c.1,
              c.1.retVal⟩)
          else some none
        | (none, _, some sep) => if sep == ' ' then none else some none
        | (_, _, none) => some none
      else some none
    match wx with
    | none => none
    | some (some found) => some (pLine2, found)
    | some none =>
      -- look for one of the user defined struct types
      match longest_prefix_name pLine2 (pSymSet.pStructSet.map (fun s => s.pName)) none with
      | some szLongest =>
        let c := check_var_type_for_ptrs pLine2 szLongest.length
        some (pLine2, ⟨true, false, .null, none, add_to_type pVarType0 bQualifier szLongest c,
          c.retVal⟩)
      | none =>
        -- look for a user defined class type, a constructor or a destructor
        some (pLine2, extract_class_type pLine2 pSymSet bQualifier pVarType0)

/-- Lines 3562-3585 of `extract_var`, the function pointer form: the index of
the first `)` from index 1 on. -/
def find_close_paren (pLine : STxtLine) : Option Nat :=
  ((pLine.drop 1).findIdx? (fun c => c == ')')).map (fun i => i + 1)

/-- `extract_var` (lines 3272-3612), called with `*ppClassName`, `*ppVarName`
and `*ppVarType` null.  `none` when a null word is read: the `wx` word, or the
name passed to `check_composite_funcname` (the `wxASSERT` before it fails). -/
def extract_var (pLine : STxtLine) (pSymSet : SSymbolSet) : Option SExtractVar :=
  match extract_var_type (tl_trim pLine) pSymSet with
  | none => none
  | some (pLine1, f) =>
    if f.bFound then
      -- remove the type info from the line
      let pLine2 := tl_trim (cut_front pLine1 f.varLength)
      if !f.bConstr then
        if tl_char pLine2 0 == '(' then
          -- the function pointer case
          match find_close_paren pLine2 with
          | some index =>
            match tl_cut_out pLine2 0 (index + 1) with
            | some (szName, pLine3) =>
              if tl_char pLine3 0 == '(' then
                some ⟨true, cut_front pLine3 1, f.pClassName, some szName, f.pVarType, some '('⟩
              else some ⟨true, pLine3, f.pClassName, some szName, f.pVarType, none⟩
            | none => some ⟨true, pLine2, f.pClassName, f.pVarName, f.pVarType, none⟩
          | none => some ⟨true, pLine2, f.pClassName, f.pVarName, f.pVarType, none⟩
        else
          -- extract the word and set the name
          match tl_extract_word pLine2 with
          | (some pVarName, pLine3, sep) =>
            match check_composite_funcname pVarName with
            | some (pDummy, pSubName) =>
              some ⟨true, pLine3, .line pDummy, some pSubName, f.pVarType, sep⟩
            | none => some ⟨true, pLine3, f.pClassName, some pVarName, f.pVarType, sep⟩
          | (none, _, _) => none
      else some ⟨true, pLine2, f.pClassName, f.pVarName, f.pVarType, none⟩
    else some ⟨false, pLine1, f.pClassName, f.pVarName, f.pVarType, none⟩

/-- An identifier character: a letter, a digit or `_`. -/
def is_ident_char (c : Char) : Bool := c.isAlphanum || c == '_'

/-- An identifier: one or more identifier characters, the first not a digit. -/
def is_identifier (n : STxtLine) : Bool :=
  match n with
  | [] => false
  | c :: rest => is_ident_char c && !c.isDigit && rest.all is_ident_char

/-! ## Symbol sets under the parser -/

/-- `new_var` (lines 1694-1698). -/
def new_var (pName pTypeName : Option STxtLine) (pLocation : Option SLocation) : SVar :=
  ⟨pTypeName, pName, pLocation⟩

/-- `SVarSet::add_var` (lines 1732-1739): the variable is appended. -/
def add_var (ppVars : List SVar) (pAdd : SVar) : List SVar := ppVars ++ [pAdd]

/-- `SFuncSet::add_func` (lines 1921-1941): the function replaces the first one
of the same name, or is appended; also the index it is stored at.  `none` when
a stored function without a name is compared. -/
def add_func : List SSymFunc → SSymFunc → Option (List SSymFunc × Nat)
  | [], pAdd => some ([pAdd], 0)
  | f :: rest, pAdd =>
    match tl_equals_ptr f.pName pAdd.pName with
    | none => none
    | some true => some (pAdd :: rest, 0)
    | some false =>
      match add_func rest pAdd with
      | none => none
      | some (fs, i) => some (f :: fs, i + 1)

/-- Where in a symbol set a function symbol has been stored. -/
inductive SFuncSlot where
  | nowhere : SFuncSlot
  | global (i : Nat) : SFuncSlot
  | classConstr (c : Nat) : SFuncSlot
  | classDestr (c : Nat) : SFuncSlot
  | classFunc (c i : Nat) : SFuncSlot
  | structFunc (s i : Nat) : SFuncSlot
deriving DecidableEq, Repr

/-- `SClass::add_func` (lines 2033-2047): a function named as its return type
goes to the constructor slot, one named `~` and its return type to the
destructor slot, any other to the function set; also the part of the class
it is stored in (`some i` for index `i` of the function set).  `none` when a
null name or return type is read. -/
def SClass.add_func (c : SClass) (pAdd : SSymFunc) :
    Option (SClass × Option (Option Nat × Bool)) :=
  match tl_equals_ptr pAdd.pName pAdd.pReturnType with
  | none => none
  | some true => some ({ c with pConstr := some pAdd }, some (none, true))
  | some false =>
    match pAdd.pReturnType with
    | none => none  -- tl_clone of a null return type
    | some ty =>
      match tl_equals_ptr pAdd.pName (some (tl_insert ty "~".toList 0)) with
      | none => none
      | some true => some ({ c with pDestr := some pAdd }, some (none, false))
      | some false =>
        match ModalWX.add_func c.pFuncSet pAdd with
        | none => none
        | some (fs, i) => some ({ c with pFuncSet := fs }, some (some i, false))

/-- `SClassSet::add_class` (lines 2226-2250): the class replaces the first one
of the same name, or is appended; also the index it is stored at. -/
def add_class : List SClass → SClass → List SClass × Nat
  | [], pAdd => ([pAdd], 0)
  | c :: rest, pAdd =>
    if tl_equals c.pName pAdd.pName then (pAdd :: rest, 0)
    else ((c :: (add_class rest pAdd).1), (add_class rest pAdd).2 + 1)

/-- `SStructSet::add_struct` (lines 2316-2340): as `add_class`. -/
def add_struct : List SStruct → SStruct → List SStruct × Nat
  | [], pAdd => ([pAdd], 0)
  | s :: rest, pAdd =>
    if tl_equals s.pName pAdd.pName then (pAdd :: rest, 0)
    else ((s :: (add_struct rest pAdd).1), (add_struct rest pAdd).2 + 1)

/-- `new_class` (lines 2103-2107) with a name. -/
def new_class (pName : STxtLine) (pLocation : Option SLocation) : SClass :=
  { pConstr := none, pDestr := none, pFuncSet := [], pVarSet := [], pName := pName,
    pLocation := pLocation }

/-- `new_struct` (lines 2189-2193) with a name. -/
def new_struct (pName : STxtLine) (pLocation : Option SLocation) : SStruct :=
  { pFuncSet := [], pVarSet := [], pName := pName, pLocation := pLocation }

/-- The function stored in a slot gets the location (`pFunc->pLocation =
pLocation`, line 4708). -/
def set_func_location (pSymSet : SSymbolSet) (slot : SFuncSlot) (loc : SLocation) :
    SSymbolSet :=
  let setLoc : SSymFunc → SSymFunc := fun f => { f with pLocation := some loc }
  match slot with
  | .nowhere => pSymSet
  | .global i => { pSymSet with pFuncSet := List.modify setLoc i pSymSet.pFuncSet }
  | .classConstr c =>
    { pSymSet with pClassSet :=
        (List.modify (fun k => { k with pConstr := k.pConstr.map setLoc }) c
          pSymSet.pClassSet) }
  | .classDestr c =>
    { pSymSet with pClassSet :=
        (List.modify (fun k => { k with pDestr := k.pDestr.map setLoc }) c
          pSymSet.pClassSet) }
  | .classFunc c i =>
    { pSymSet with pClassSet :=
        (List.modify (fun k => { k with pFuncSet := List.modify setLoc i k.pFuncSet }) c
          pSymSet.pClassSet) }
  | .structFunc s i =>
    { pSymSet with pStructSet :=
        (List.modify (fun k => { k with pFuncSet := List.modify setLoc i k.pFuncSet }) s
          pSymSet.pStructSet) }

/-! ## Sections under construction -/

/-- `MAX_ELEMENTS_IN_CS` (line 2495). -/
abbrev MAX_ELEMENTS_IN_CS : Nat := 200

/-- A `SCodeSection` while its parser runs: the type and the line of its base
element, its fields, and what the parser reads of its place in the tree: the
handle of the base element, the value of `get_file_offset()` (which depends
on the elements before the section only) and the type of the container
(`CDE_CODEBASE` for the root, which has none).  The flag `bSummarized` is not
set by `SCodeSection::init`; a flag that has not been written is taken to be
false.  `ppElements` is an array of `MAX_ELEMENTS_IN_CS` pointers (line 2580)
that no function tests or grows: the functions that store an element give
`none` when the array is full. -/
structure SCodeSection where
  type : Nat
  pLine : STxtLine
  bSummarized : Bool
  symLinkType : Int
  symLinkIndex : Int
  pVarSet : List SVar
  ppElements : List SCodeElement
  handle : Handle
  fileOffset : Int
  containerType : Nat
deriving Repr

/-- The base element of a finished section. -/
def SCodeSection.pBaseElem (s : SCodeSection) : SCodeElement :=
  .sec s.type s.pLine ⟨s.bSummarized, s.symLinkType, s.symLinkIndex, s.pVarSet⟩ s.ppElements

/-- `SCodeSection::get_length` (lines 2902-2912). -/
def SCodeSection.get_length (s : SCodeSection) : Int := get_length_list s.ppElements

/-- `SCodeSection::add_single` (lines 2914-2918): the element is stored at
`ppElements[numElements]`; `none` when `numElements` has reached
`MAX_ELEMENTS_IN_CS`, the store being past the end of the array. -/
def SCodeSection.add_single (s : SCodeSection) (type : Nat) (pLine : STxtLine) :
    Option SCodeSection :=
  if s.ppElements.length < MAX_ELEMENTS_IN_CS then
    some { s with ppElements := s.ppElements ++ [.single type pLine] }
  else none

/-- `new_location(ppElements[numElements-1], ce_file_offset(...))` for the
last element of the section (lines 4486-4487 and the like); `none` when the
section has no element. -/
def SCodeSection.last_location (s : SCodeSection) : Option SLocation :=
  if s.ppElements.length = 0 then none
  else some ⟨some ((s.ppElements.length - 1) :: s.handle),
    s.fileOffset + get_length_list s.ppElements.dropLast⟩

/-- The section being parsed and the symbol set. -/
structure SParse where
  pThis : SCodeSection
  pSymSet : SSymbolSet
deriving Repr

/-- `SCodeSection::add_section` as the parsers call it: type, index, length,
`bInlineBrace`, symbol link type and index; the result is the return value
and the state after it, or `none`. -/
abbrev AddSection := Nat → Nat → Nat → Bool → Int → Int → SParse → Option (Bool × SParse)

/-- The line appended to the first line of a section for its summary (lines
4970-4979 and the like). -/
def summary_line (pLine : STxtLine) (bInlineBrace : Bool) : STxtLine :=
  if bInlineBrace then tl_insert pLine "...\x7d".toList pLine.length
  else tl_insert pLine " \x7b...\x7d".toList pLine.length

/-- The loops of the form `while( !bFound && idx < numLines )` that look for a
line holding a token: the index of the first line from `idx` on in which
`tl_find` finds the token. -/
def find_line_with (pPage : List STxtLine) (szToken : String) (idx : Nat) : Option Nat :=
  ((pPage.drop idx).findIdx? (fun l => decide (tl_find l szToken ≠ -1))).map (fun i => i + idx)

/-! ## The classifiers -/

/-- The loop of lines 3803-3829 of `find_comment`: the index of the first line
from `idx` on that is not a `//` line or holds a block or sub-block marker. -/
def comment_run_end (pPage : List STxtLine) (idx : Nat) : Option Nat :=
  ((pPage.drop idx).findIdx? (fun l =>
    !(decide (tl_find (tl_trim l) "//" = 0) && decide (tl_find (tl_trim l) "// BLOCK:" = -1) &&
      decide (tl_find (tl_trim l) "// SUBBLOCK:" = -1)))).map (fun i => i + idx)

/-- The comment section `find_comment` makes of `length` lines from `index`
and adds with `add_parsed_section` (lines 3810-3823 and 2920-2925).  The new
section takes one `add_single` for each line, so that its array is overrun
when `length` is more than `MAX_ELEMENTS_IN_CS`, and `add_parsed_section`
stores it at `ppElements[numElements]` of `pThis` (line 2923), past the end
of the array when `pThis` is full: `none` in both cases. -/
def add_comment_section (pThis : SCodeSection) (pPage : List STxtLine) (index length : Nat) :
    Option SCodeSection :=
  match pPage[index]? with
  | none => none
  | some first =>
    if index + length ≤ pPage.length then
      if length ≤ MAX_ELEMENTS_IN_CS ∧ pThis.ppElements.length < MAX_ELEMENTS_IN_CS then
        some { pThis with ppElements := pThis.ppElements ++
          [.sec CDE_COMMENT (summary_line first false)
            ⟨decide (pThis.type ≠ CDE_PREAMBLE), 0, -1, []⟩
            (((pPage.drop index).take length).map (fun l => .single CDE_S_COMMENT l))] }
      else none
    else none

/-- `find_comment` (lines 3777-3878): the return value, `*pnLength` (when it
returns true) and the section. -/
def find_comment (pThis : SCodeSection) (pPage : List STxtLine) (index : Nat) :
    Option (Bool × Nat × SCodeSection) :=
  match pPage[index]? with
  | none => none
  | some line =>
    let pLine := tl_trim line
    if tl_find pLine "//" = 0 then
      match pPage[index + 1]? with
      | some next =>
        if tl_find (tl_trim next) "//" ≠ 0 then
          (pThis.add_single CDE_S_COMMENT line).map (fun s => (true, 1, s))
        else
          match comment_run_end pPage (index + 1) with
          | some idx =>
            (add_comment_section pThis pPage index (idx - index)).map
              (fun s => (true, idx - index, s))
          | none => some (false, 0, pThis)
      | none => (pThis.add_single CDE_S_COMMENT line).map (fun s => (true, 1, s))
    else if tl_find pLine "/*" = 0 then
      match find_line_with pPage "*/" (index + 1) with
      | some idx =>
        (add_comment_section pThis pPage index (idx + 1 - index)).map
          (fun s => (true, idx + 1 - index, s))
      | none => some (false, 0, pThis)
    else some (false, 0, pThis)

/-- The brace pair looked for by `find_enum`, `find_class`,
`find_typedef_struct` and `find_var_decl`: the first line from `index` on that
holds an opening brace, then `find_end_brace` from there.  Returns
`bInlineBrace` and the number of lines from `index` to the closing brace;
`some none` when a brace is missing. -/
def find_brace_pair (pPage : List STxtLine) (index : Nat) : Option (Option (Bool × Nat)) :=
  match find_line_with pPage "\x7b" index with
  | none => some none
  | some idx =>
    match find_end_brace pPage idx with
    | none => none
    | some none => some none
    | some (some secLength) => some (some (decide (idx = index), idx + secLength - index))

/-- `find_enum` (lines 4089-4132). -/
def find_enum (add_section : AddSection) (pPage : List STxtLine) (index : Nat) (st : SParse) :
    Option (Bool × Nat × SParse) :=
  match pPage[index]? with
  | none => none
  | some line =>
    if tl_find (tl_trim line) "enum" = 0 then
      match find_brace_pair pPage index with
      | none => none
      | some none => some (false, 0, st)
      | some (some (bInlineBrace, length)) =>
        match add_section CDE_ENUM index length bInlineBrace 0 (-1) st with
        | none => none
        | some (_, st1) => some (true, length, st1)
    else some (false, 0, st)

/-- `find_typedef_struct` (lines 3922-3986). -/
def find_typedef_struct (add_section : AddSection) (pPage : List STxtLine) (index : Nat)
    (st : SParse) : Option (Bool × Nat × SParse) :=
  match pPage[index]? with
  | none => none
  | some line =>
    let pLine := tl_trim line
    if tl_find pLine "typedef struct" = 0 ∨ tl_find pLine "typedef union" = 0 then
      match find_brace_pair pPage index with
      | none => none
      | some none => some (false, 0, st)
      | some (some (bInlineBrace, length)) =>
        -- extract the name of the symbol from the string
        let t1 := (tl_remove line "typedef struct").1
        let t2 := (tl_remove t1 "typedef union").1
        let pName := tl_trim (tl_remove t2 "\x7b").1
        let added := add_struct st.pSymSet.pStructSet (new_struct pName none)
        let st1 : SParse := { st with pSymSet := { st.pSymSet with pStructSet := added.1 } }
        match add_section CDE_TYPEDEF index length bInlineBrace 1 added.2 st1 with
        | none => none
        | some (_, st2) =>
          match st2.pThis.last_location with
          | none => none
          | some loc =>
            some (true, length, { st2 with pSymSet := { st2.pSymSet with
              pStructSet := (List.modify (fun s => { s with pLocation := some loc }) added.2
                st2.pSymSet.pStructSet) } })
    else some (false, 0, st)

/-- `find_class` (lines 3991-4084). -/
def find_class (add_section : AddSection) (pPage : List STxtLine) (index : Nat) (st : SParse) :
    Option (Bool × Nat × SParse) :=
  match pPage[index]? with
  | none => none
  | some line =>
    if tl_find (tl_trim line) "class" = 0 then
      if tl_find line ";" ≠ -1 then
        -- a forward declaration
        match st.pThis.add_single CDE_S_FWDDECL_STR line with
        | none => none
        | some pThis1 =>
          let pName := (tl_before_first (tl_remove line "class ").1 ";").1
          match pThis1.last_location with
          | none => none
          | some loc =>
            some (true, 1, { pThis := pThis1, pSymSet := { st.pSymSet with
              pClassSet := (add_class st.pSymSet.pClassSet (new_class pName (some loc))).1 } })
      else
        match find_brace_pair pPage index with
        | none => none
        | some none => some (false, 0, st)
        | some (some (bInlineBrace, length)) =>
          let pName := (tl_before_first (tl_remove line "class ").1 " ").1
          let added := add_class st.pSymSet.pClassSet (new_class pName none)
          let st1 : SParse := { st with pSymSet := { st.pSymSet with pClassSet := added.1 } }
          match add_section CDE_CLASSDECL index length bInlineBrace 2 added.2 st1 with
          | none => none
          | some (_, st2) =>
            match st2.pThis.last_location with
            | none => none
            | some loc =>
              some (true, length, { st2 with pSymSet := { st2.pSymSet with
                pClassSet := (List.modify (fun c => { c with pLocation := some loc }) added.2
                  st2.pSymSet.pClassSet) } })
    else some (false, 0, st)

/-- The loops of `find_ifdef` (lines 3633-3644 and 3663-3672): from `idx` on,
while `idx - index < numLines`, the first line that starts with `#endif` or,
when `bElse` is set, with `#else`; `n` bounds the number of iterations.
`none` when a line outside the page is read or the bound is used up,
`some none` when the loop ends without a find, else the index and whether
`#endif` was found. -/
def find_endif (pPage : List STxtLine) (index : Nat) (bElse : Bool) :
    Nat → Nat → Option (Option (Nat × Bool))
  | 0, _ => none
  | n + 1, idx =>
    if idx - index < pPage.length then
      match pPage[idx]? with
      | none => none
      | some line =>
        if tl_find (tl_trim line) "#endif" = 0 then some (some (idx, true))
        else if bElse ∧ tl_find (tl_trim line) "#else" = 0 then some (some (idx, false))
        else find_endif pPage index bElse n (idx + 1)
    else some none

/-- `find_ifdef` (lines 3618-3686). -/
def find_ifdef (add_section : AddSection) (pPage : List STxtLine) (index : Nat) (st : SParse) :
    Option (Bool × Nat × SParse) :=
  match pPage[index]? with
  | none => none
  | some line =>
    let pLine := tl_trim line
    if tl_find pLine "#ifdef" = 0 ∨ tl_find pLine "#ifndef" = 0 ∨ tl_find pLine "#if" = 0 then
      match find_endif pPage index true (pPage.length + 1) (index + 1) with
      | none => none
      | some none => some (false, 0, st)
      | some (some (idx, bEndIfFound)) =>
        -- if #else not found inc idx to include the #endif
        let idx1 := if bEndIfFound then idx + 1 else idx
        let length := idx1 - index
        match add_section CDE_IFDEF index length false 0 (-1) st with
        | none => none
        | some (bFound, st1) =>
          if bEndIfFound then some (bFound, length, st1)
          else
            -- #else found, look for the #endif and add another section
            match find_endif pPage index false (pPage.length + 1) (idx1 + 1) with
            | none => none
            | some none => some (false, length, st1)
            | some (some (idx2, _)) =>
              match add_section CDE_IFDEF idx1 (idx2 + 1 - idx1) false 0 (-1) st1 with
              | none => none
              | some (bFound2, st2) => some (bFound2, length + (idx2 + 1 - idx1), st2)
    else some (false, 0, st)

/-- The start strings of `find_L1L2`. -/
def L1L2_starts : List String := ["if", "else", "else if", "for", "while", "switch", "case "]

/-- `find_L1L2` (lines 3692-3772). -/
def find_L1L2 (add_section : AddSection) (pPage : List STxtLine) (index : Nat) (st : SParse) :
    Option (Bool × Nat × SParse) :=
  match pPage[index]? with
  | none => none
  | some line =>
    if (first_keyword (tl_trim line) L1L2_starts).isSome then
      -- the starting brace is either on the first or on the second line
      let brace : Option (Option Nat) :=
        if tl_find line "\x7b" ≠ -1 then some (some index)
        else
          match pPage[index + 1]? with
          | some next => if tl_find next "\x7b" ≠ -1 then some (some (index + 1)) else some none
          | none => some none
      match brace with
      | none => none
      | some none => some (false, 0, st)
      | some (some idx) =>
        match find_end_brace pPage idx with
        | none => none
        | some none => some (false, 0, st)
        | some (some secLength) =>
          let length := idx + secLength - index
          let type :=
            if st.pThis.type = CDE_L3SECTION then CDE_L4SECTION
            else if st.pThis.type = CDE_L2SECTION then CDE_L3SECTION
            else if st.pThis.type = CDE_L1SECTION then CDE_L2SECTION
            else CDE_L1SECTION
          match add_section type index length (decide (idx = index)) 0 (-1) st with
          | none => none
          | some (_, st1) => some (true, length, st1)
    else some (false, 0, st)
/-- `tl_equals(pClassName, pName)` for a class name pointer set by
`extract_var`; the line made by `new_txt_line(NULL)` is taken to differ from
every name. -/
def class_name_equals (pClassName : TxtLinePtr) (pName : STxtLine) : Bool :=
  match pClassName with
  | .line l => tl_equals l pName
  | _ => false

/-- The parameter loop of `find_var_decl` (lines 4594-4633): `n` bounds the
number of iterations; `pLine` and `idx` are the loop variables and `vars` the
parameters found so far.  `none` when a line outside the page is read, when
`extract_var` gives none, or when the bound is used up. -/
def extract_params (pPage : List STxtLine) (pSymSet : SSymbolSet) (index fnDefnLength : Nat) :
    Nat → STxtLine → Nat → List SVar → Option (List SVar)
  | 0, _, _, _ => none
  | n + 1, pLine, idx, vars =>
    -- if the line is parsed out, load the next line
    let next : Option (Option (STxtLine × Nat)) :=
      if tl_isempty pLine then
        if idx + 1 - index < fnDefnLength then
          (pPage[idx + 1]?).map (fun l => some (tl_trim l, idx + 1))
        else some none
      else some (some (pLine, idx))
    match next with
    | none => none
    | some none => some vars
    | some (some (pLine1, idx1)) =>
      match extract_var pLine1 pSymSet with
      | none => none
      | some ev =>
        if ev.bFound then
          let vars1 := add_var vars (new_var ev.pVarName ev.pVarType none)
          if ev.cSeparator ≠ some ')' then
            extract_params pPage pSymSet index fnDefnLength n ev.pLine idx1 vars1
          else some vars1
        else some vars

/-- The variable of a declaration is added to the set its context gives
(lines 4489-4501 and 4518-4527): the variable set of the class or struct the
section is linked to, else the variable set of the section; `bGlobal` sends it
to the section.  `none` when the link index is outside its set. -/
def register_var (st : SParse) (bGlobal : Bool) (pVar : SVar) : Option SParse :=
  if !bGlobal ∧ st.pThis.type = CDE_CLASSDECL then
    match class_at st.pSymSet st.pThis.symLinkIndex with
    | none => none
    | some _ =>
      some { st with pSymSet := { st.pSymSet with pClassSet :=
        (List.modify (fun c => { c with pVarSet := add_var c.pVarSet pVar })
          st.pThis.symLinkIndex.toNat st.pSymSet.pClassSet) } }
  else if !bGlobal ∧ st.pThis.type = CDE_TYPEDEF then
    match struct_at st.pSymSet st.pThis.symLinkIndex with
    | none => none
    | some _ =>
      some { st with pSymSet := { st.pSymSet with pStructSet :=
        (List.modify (fun s => { s with pVarSet := add_var s.pVarSet pVar })
          st.pThis.symLinkIndex.toNat st.pSymSet.pStructSet) } }
  else some { st with pThis := { st.pThis with pVarSet := add_var st.pThis.pVarSet pVar } }

/-- The function of a declaration or definition is added to the set its
context gives (lines 4638-4674); also the slot it is stored in. -/
def register_func (st : SParse) (bGlobalContext : Bool) (pClassName : TxtLinePtr)
    (pFunc : SSymFunc) : Option (SSymbolSet × SFuncSlot) :=
  let toClass : Nat → Option (SSymbolSet × SFuncSlot) := fun i =>
    match st.pSymSet.pClassSet[i]? with
    | none => none
    | some c =>
      match c.add_func pFunc with
      | none => none
      | some (c1, slot) =>
        some ({ st.pSymSet with pClassSet := st.pSymSet.pClassSet.set i c1 },
          match slot with
          | some (some j, _) => .classFunc i j
          | some (none, true) => .classConstr i
          | some (none, false) => .classDestr i
          | none => .nowhere)
  if bGlobalContext then
    if pClassName ≠ .null then
      match st.pSymSet.pClassSet.findIdx? (fun c => class_name_equals pClassName c.pName) with
      | some i => toClass i
      | none => some (st.pSymSet, .nowhere)
    else
      match add_func st.pSymSet.pFuncSet pFunc with
      | none => none
      | some (fs, i) => some ({ st.pSymSet with pFuncSet := fs }, .global i)
  else if st.pThis.type = CDE_CLASSDECL then
    if st.pThis.symLinkIndex < 0 then none else toClass st.pThis.symLinkIndex.toNat
  else if st.pThis.type = CDE_TYPEDEF then
    match struct_at st.pSymSet st.pThis.symLinkIndex with
    | none => none
    | some s =>
      match add_func s.pFuncSet pFunc with
      | none => none
      | some (fs, i) =>
        some ({ st.pSymSet with pStructSet :=
          st.pSymSet.pStructSet.set st.pThis.symLinkIndex.toNat { s with pFuncSet := fs } },
          .structFunc st.pThis.symLinkIndex.toNat i)
  else some (st.pSymSet, .nowhere)

/-- Lines 4696-4698 of `find_var_decl`: the parameters are added to the
variable set of the section of the last element.  `none` when there are
parameters and the last element is missing or a single. -/
def add_params_to_last (pThis : SCodeSection) (vars : List SVar) : Option SCodeSection :=
  if vars = [] then some pThis
  else
    match pThis.ppElements.getLast? with
    | some (.sec t l info es) =>
      some { pThis with ppElements := pThis.ppElements.dropLast ++
        [.sec t l { info with pVarSet := info.pVarSet ++ vars } es] }
    | _ => none

/-- `find_var_decl` (lines 4443-4733).  The character `cSeparator` is read
where `extract_var` may have left it unwritten; an unwritten character is
taken to differ from `;` and from `)`.  The first argument bounds the
parameter loop. -/
def find_var_decl (add_section : AddSection) (fuel : Nat) (pPage : List STxtLine) (index : Nat)
    (st : SParse) : Option (Bool × Nat × SParse) :=
  match pPage[index]? with
  | none => none
  | some line =>
    let type := st.pThis.type
    let bGlobalContext : Bool := type == CDE_CODEBASE || type == CDE_BLOCK || type == CDE_SUBBLOCK
    match extract_var (tl_trim line) st.pSymSet with
    | none => none
    | some ev =>
      if ev.bFound then
        -- the variable declaration of lines 4482-4503 and 4511-4528
        let var_decl : Bool → Option (Bool × Nat × SParse) := fun bGlobal =>
          match st.pThis.add_single CDE_S_VARDECL line with
          | none => none
          | some pThis1 =>
            match pThis1.last_location with
            | none => none
            | some loc =>
              (register_var { st with pThis := pThis1 } bGlobal
                (new_var ev.pVarName ev.pVarType (some loc))).map (fun st1 => (true, 1, st1))
        -- the function declaration or definition of lines 4562-4721
        let func : Bool → Nat → Nat → Bool → Option (Bool × Nat × SParse) :=
          fun bFnDecl fnDefnLength nLength bInlineBrace =>
          match extract_var line st.pSymSet with
          | none => none
          | some ev2 =>
            if ev2.bFound then
              match extract_params pPage st.pSymSet index fnDefnLength fuel ev2.pLine index []
                with
              | none => none
              | some vars =>
                let pFunc : SSymFunc := ⟨vars, ev2.pVarType, none, ev2.pVarName⟩
                match register_func st bGlobalContext ev.pClassName pFunc with
                | none => none
                | some (syms1, slot) =>
                  let st1 : SParse := { st with pSymSet := syms1 }
                  -- depending on the element type detected, add the element
                  let added : Option SParse :=
                    if bFnDecl then
                      (st1.pThis.add_single CDE_S_FWDDECL_FN line).map
                        (fun p => { st1 with pThis := p })
                    else
                      let sec : Option SParse :=
                        if ev.pClassName ≠ .null then
                          match syms1.pClassSet.findIdx?
                              (fun c => class_name_equals ev.pClassName c.pName) with
                          | some i =>
                            (add_section CDE_CLASS_FNDEFN index nLength bInlineBrace 2 i st1).map
                              (fun r => r.2)
                          | none => some st1
                        else
                          (add_section CDE_FNDEFN index nLength bInlineBrace 0 (-1) st1).map
                            (fun r => r.2)
                      match sec with
                      | none => none
                      | some st2 =>
                        (add_params_to_last st2.pThis vars).map
                          (fun p => { st2 with pThis := p })
                  match added with
                  | none => none
                  | some st3 =>
                    match st3.pThis.last_location with
                    | none => none
                    | some loc =>
                      some (true, nLength,
                        { st3 with pSymSet := set_func_location st3.pSymSet slot loc })
            else some (false, nLength, st)
        if ev.cSeparator = some ';' ∨ tl_char ev.pLine 0 = '=' then var_decl bGlobalContext
        else if tl_find ev.pLine ");" ≠ -1 ∨ tl_find ev.pLine "wxOVERRIDE;" ≠ -1 then
          if !(bGlobalContext || type == CDE_CLASSDECL) then var_decl false
          else func true 1 1 true
        else
          -- check for fn defn
          match find_line_with pPage "\x7b" index with
          | none => some (false, 0, st)
          | some idx =>
            match find_end_brace pPage idx with
            | none => none
            | some none => some (false, 0, st)
            | some (some secLength) =>
              func false (idx - index + 1) (idx + secLength - index) (decide (idx = index))
      else some (false, 0, st)

/-- The iteration of the loop of `find_startstring_parse` (lines 4249-4427)
at line `idx`: `bFound`, `bExit`, `*pnLength`, the line index the loop goes on
from, and the state.  `prevSecLength` is the length of the section when
`find_startstring_parse` was entered (it is written again only when `bFound`
is set): a section found is accepted when the section has grown by its
length. -/
def find_startstring_step (add_section : AddSection) (pPage : List STxtLine) (index idx : Nat)
    (prevSecLength : Int) (st : SParse) : Option (Bool × Bool × Nat × Nat × SParse) :=
  match pPage[idx]? with
  | none => none
  | some line =>
    let pLine := tl_trim line
    if tl_find pLine "#include" = 0 then
      (st.pThis.add_single CDE_S_INCLUDE line).map
        (fun p => (true, false, 1, idx, { st with pThis := p }))
    else
      match find_class add_section pPage idx st with
      | none => none
      | some (true, secLength, st1) =>
        some (decide (st1.pThis.get_length - prevSecLength = secLength), false, secLength, idx,
          st1)
      | some (false, _, st1) =>
        if tl_find pLine "struct" = 0 then
          -- we assume this is a fwd decl
          match st1.pThis.add_single CDE_S_FWDDECL_STR line with
          | none => none
          | some pThis1 =>
            let pName := tl_trim (tl_remove (tl_remove line "struct ").1 ";").1
            match pThis1.last_location with
            | none => none
            | some loc =>
              some (true, false, 1, idx, { pThis := pThis1, pSymSet := { st1.pSymSet with
                pStructSet :=
                  (add_struct st1.pSymSet.pStructSet (new_struct pName (some loc))).1 } })
        else
          match find_enum add_section pPage idx st1 with
          | none => none
          | some (true, secLength, st2) =>
            some (decide (st2.pThis.get_length - prevSecLength = secLength), false, secLength,
              idx, st2)
          | some (false, _, st2) =>
            match find_typedef_struct add_section pPage idx st2 with
            | none => none
            | some (true, secLength, st3) =>
              some (decide (st3.pThis.get_length - prevSecLength = secLength), false, secLength,
                idx, st3)
            | some (false, _, st3) =>
              if tl_find pLine "#define" = 0 then
                (st3.pThis.add_single CDE_S_DEFINE line).map
                  (fun p => (true, false, 1, idx, { st3 with pThis := p }))
              else
                match find_comment st3.pThis pPage idx with
                | none => none
                | some (true, secLength, pThis4) =>
                  some (decide (pThis4.get_length - prevSecLength = secLength), false, secLength,
                    idx, { st3 with pThis := pThis4 })
                | some (false, _, _) =>
                  if tl_find pLine "wxBEGIN" = 0 then
                    -- find the wxEND
                    match find_line_with pPage "wxEND" (idx + 1) with
                    | none => some (false, true, 0, pPage.length, st3)
                    | some idxEnd =>
                      let length := idxEnd + 1 - index
                      match add_section CDE_WX index length false 0 (-1) st3 with
                      | none => none
                      | some (_, st4) =>
                        some (decide (st4.pThis.get_length - prevSecLength = length), false,
                          length, idxEnd, st4)
                  else if tl_find pLine "wxIMPLEMENT" = 0 then
                    (st3.pThis.add_single CDE_S_CODELINE line).map
                      (fun p => (true, false, 1, idx, { st3 with pThis := p }))
                  else
                    match find_ifdef add_section pPage idx st3 with
                    | none => none
                    | some (true, secLength, st4) =>
                      some (decide (st4.pThis.get_length - prevSecLength = secLength), false,
                        secLength, idx, st4)
                    | some (false, _, st4) =>
                      if tl_find pLine "#endif" ≠ -1 ∨ tl_find pLine "#error" ≠ -1 then
                        (st4.pThis.add_single CDE_S_CODELINE line).map
                          (fun p => (true, false, 1, idx, { st4 with pThis := p }))
                      else if tl_isempty pLine then
                        (st4.pThis.add_single CDE_S_BLANK line).map
                          (fun p => (true, false, 1, idx, { st4 with pThis := p }))
                      else some (false, true, 0, idx, st4)
/-- The loop of `find_startstring_parse` (lines 4249-4427): `n` bounds the
number of iterations. -/
def find_startstring_loop (add_section : AddSection) (pPage : List STxtLine) (index : Nat)
    (prevSecLength : Int) : Nat → Nat → SParse → Option (Bool × Nat × SParse)
  | 0, _, _ => none
  | n + 1, idx, st =>
    if idx < pPage.length then
      match find_startstring_step add_section pPage index idx prevSecLength st with
      | none => none
      | some (bFound, bExit, nLength, idx1, st1) =>
        if bFound ∨ bExit then some (bFound, nLength, st1)
        else find_startstring_loop add_section pPage index prevSecLength n idx1 st1
    else some (false, 0, st)

/-- `find_startstring_parse` (lines 4237-4429): the return value, `*pnLength`
(when it returns true) and the state.  The second argument bounds the number
of iterations of its loop. -/
def find_startstring_parse (add_section : AddSection) (fuel : Nat) (pPage : List STxtLine)
    (index : Nat) (st : SParse) : Option (Bool × Nat × SParse) :=
  find_startstring_loop add_section pPage index st.pThis.get_length fuel index st

/-! ## The section parsers

Each loop takes a bound `n` on the number of its iterations and gives `none`
when the bound is used up. -/

/-- The loop of `parse_not` (lines 4983-4991). -/
def parse_not_loop (pPage : List STxtLine) (index length : Nat) :
    Nat → Nat → SCodeSection → Option SCodeSection
  | 0, _, _ => none
  | n + 1, idx, pThis =>
    if idx < index + length then
      match find_comment pThis pPage idx with
      | none => none
      | some (true, secLength, pThis1) =>
        parse_not_loop pPage index length n (idx + secLength) pThis1
      | some (false, _, pThis1) =>
        match pPage[idx]? with
        | none => none
        | some line =>
          match pThis1.add_single CDE_S_CODELINE line with
          | none => none
          | some pThis2 => parse_not_loop pPage index length n (idx + 1) pThis2
    else some pThis

/-- `parse_not` (lines 4963-4993). -/
def parse_not (fuel : Nat) (pPage : List STxtLine) (index length : Nat) (bInlineBrace : Bool)
    (st : SParse) : Option (Bool × SParse) :=
  match pPage[index]? with
  | none => none
  | some first =>
    (parse_not_loop pPage index length fuel index
      { st.pThis with pLine := summary_line first bInlineBrace }).map
      (fun p => (true, { st with pThis := p }))

/-- The loop of `parse_preamble` (lines 5011-5026): `bExit` and the
section. -/
def parse_preamble_loop (pPage : List STxtLine) (index length : Nat) :
    Nat → Nat → SCodeSection → Option (Bool × SCodeSection)
  | 0, _, _ => none
  | n + 1, idx, pThis =>
    if idx - index < length then
      match find_comment pThis pPage idx with
      | none => none
      | some (true, secLength, pThis1) =>
        parse_preamble_loop pPage index length n (idx + secLength) pThis1
      | some (false, _, pThis1) =>
        match pPage[idx]? with
        | none => none
        | some line =>
          if tl_isempty line then
            match pThis1.add_single CDE_S_BLANK line with
            | none => none
            | some pThis2 => parse_preamble_loop pPage index length n (idx + 1) pThis2
          else some (true, pThis1)
    else some (false, pThis)

/-- `parse_preamble` (lines 4996-5028). -/
def parse_preamble (fuel : Nat) (pPage : List STxtLine) (index length : Nat) (st : SParse) :
    Option (Bool × SParse) :=
  match pPage[index]? with
  | none => none
  | some first =>
    (parse_preamble_loop pPage index length fuel index
      { st.pThis with pLine := summary_line first false }).map
      (fun r => (!r.1, { st with pThis := r.2 }))

/-- The loop of `parse_local_scope` (lines 4174-4231). -/
def parse_local_scope_loop (add_section : AddSection) (fuel : Nat) (pPage : List STxtLine)
    (index length : Nat) : Nat → Nat → SParse → Option SParse
  | 0, _, _ => none
  | n + 1, idx, st =>
    if idx - index < length then
      match find_L1L2 add_section pPage idx st with
      | none => none
      | some (true, secLength, st1) =>
        parse_local_scope_loop add_section fuel pPage index length n (idx + secLength) st1
      | some (false, _, st1) =>
        match find_ifdef add_section pPage idx st1 with
        | none => none
        | some (true, secLength, st2) =>
          parse_local_scope_loop add_section fuel pPage index length n (idx + secLength) st2
        | some (false, _, st2) =>
          match find_comment st2.pThis pPage idx with
          | none => none
          | some (true, secLength, pThis3) =>
            parse_local_scope_loop add_section fuel pPage index length n (idx + secLength)
              { st2 with pThis := pThis3 }
          | some (false, _, pThis3) =>
            -- add a codeline or a blank
            match pPage[idx]? with
            | none => none
            | some line =>
              if tl_isempty line then
                match pThis3.add_single CDE_S_BLANK line with
                | none => none
                | some pThis4 =>
                  parse_local_scope_loop add_section fuel pPage index length n (idx + 1)
                    { st2 with pThis := pThis4 }
              else
                match find_var_decl add_section fuel pPage idx { st2 with pThis := pThis3 } with
                | none => none
                | some (true, secLength, st3) =>
                  parse_local_scope_loop add_section fuel pPage index length n (idx + secLength)
                    st3
                | some (false, _, st3) =>
                  match st3.pThis.add_single CDE_S_CODELINE line with
                  | none => none
                  | some pThis4 =>
                    parse_local_scope_loop add_section fuel pPage index length n (idx + 1)
                      { st3 with pThis := pThis4 }
    else some st

/-- `parse_local_scope` (lines 4143-4233). -/
def parse_local_scope (add_section : AddSection) (fuel : Nat) (pPage : List STxtLine)
    (index length : Nat) (bInlineBrace : Bool) (st : SParse) : Option (Bool × SParse) :=
  match pPage[index]? with
  | none => none
  | some first =>
    -- add the first line and start with the second
    match ({ st.pThis with pLine := summary_line first bInlineBrace }).add_single
        CDE_S_CODELINE first with
    | none => none
    | some pThis1 =>
      (parse_local_scope_loop add_section fuel pPage index length fuel (index + 1)
        { st with pThis := pThis1 }).map (fun st1 => (true, st1))

/-- The loop of `parse_struct` (lines 4768-4819). -/
def parse_struct_loop (add_section : AddSection) (fuel : Nat) (pPage : List STxtLine)
    (index length : Nat) : Nat → Nat → SParse → Option SParse
  | 0, _, _ => none
  | n + 1, idx, st =>
    if idx - index + 1 < length then
      match pPage[idx]? with
      | none => none
      | some line =>
        match find_comment st.pThis pPage idx with
        | none => none
        | some (true, secLength, pThis1) =>
          parse_struct_loop add_section fuel pPage index length n (idx + secLength)
            { st with pThis := pThis1 }
        | some (false, _, pThis1) =>
          if tl_isempty (tl_trim line) then
            match pThis1.add_single CDE_S_COMMENT line with
            | none => none
            | some pThis2 =>
              parse_struct_loop add_section fuel pPage index length n (idx + 1)
                { st with pThis := pThis2 }
          else
            match find_var_decl add_section fuel pPage idx { st with pThis := pThis1 } with
            | none => none
            | some (true, secLength, st1) =>
              parse_struct_loop add_section fuel pPage index length n (idx + secLength) st1
            | some (false, _, st1) =>
              match find_enum add_section pPage idx st1 with
              | none => none
              | some (true, secLength, st2) =>
                parse_struct_loop add_section fuel pPage index length n (idx + secLength) st2
              | some (false, _, st2) =>
                match find_ifdef add_section pPage idx st2 with
                | none => none
                | some (true, secLength, st3) =>
                  parse_struct_loop add_section fuel pPage index length n (idx + secLength) st3
                | some (false, _, st3) =>
                  match st3.pThis.add_single CDE_S_CODELINE line with
                  | none => none
                  | some pThis4 =>
                    parse_struct_loop add_section fuel pPage index length n (idx + 1)
                      { st3 with pThis := pThis4 }
    else some st

/-- `parse_struct` (lines 4739-4823). -/
def parse_struct (add_section : AddSection) (fuel : Nat) (pPage : List STxtLine)
    (index length : Nat) (bInlineBrace : Bool) (st : SParse) : Option (Bool × SParse) :=
  match pPage[index]? with
  | none => none
  | some first =>
    -- load the first line and start from the second line
    match ({ st.pThis with pLine := summary_line first bInlineBrace }).add_single
        CDE_S_CODELINE first with
    | none => none
    | some pThis1 =>
      match parse_struct_loop add_section fuel pPage index length fuel (index + 1)
          { st with pThis := pThis1 } with
      | none => none
      | some st1 =>
        -- add the last line
        if index + length = 0 then none
        else
          match pPage[index + length - 1]? with
          | none => none
          | some last =>
            (st1.pThis.add_single CDE_S_CODELINE last).map
              (fun p => (true, { st1 with pThis := p }))

/-- The loop of `parse_global_scope` (lines 4854-4880). -/
def parse_global_scope_loop (add_section : AddSection) (fuel : Nat) (pPage : List STxtLine)
    (index length : Nat) : Nat → Nat → SParse → Option SParse
  | 0, _, _ => none
  | n + 1, idx, st =>
    if idx - index < length then
      match find_startstring_parse add_section fuel pPage idx st with
      | none => none
      | some (true, numLines, st1) =>
        parse_global_scope_loop add_section fuel pPage index length n (idx + numLines) st1
      | some (false, _, st1) =>
        match find_var_decl add_section fuel pPage idx st1 with
        | none => none
        | some (true, numLines, st2) =>
          parse_global_scope_loop add_section fuel pPage index length n (idx + numLines) st2
        | some (false, _, st2) =>
          -- add a codeline
          match pPage[idx]? with
          | none => none
          | some line =>
            match st2.pThis.add_single CDE_S_CODELINE line with
            | none => none
            | some pThis3 =>
              parse_global_scope_loop add_section fuel pPage index length n (idx + 1)
                { st2 with pThis := pThis3 }
    else some st

/-- `parse_global_scope` (lines 4830-4882). -/
def parse_global_scope (add_section : AddSection) (fuel : Nat) (pPage : List STxtLine)
    (index length : Nat) (st : SParse) : Option (Bool × SParse) :=
  match pPage[index]? with
  | none => none
  | some first =>
    let pLineSum := summary_line first false
    -- remove SUBBLOCK:, add a CDE_S_SUBBLOCKSTART to pThis
    let added : Option SCodeSection :=
      if st.pThis.type = CDE_SUBBLOCK then
        ({ st.pThis with pLine := (tl_remove pLineSum "// SUBBLOCK: ").1 }).add_single
          CDE_S_SUBBLOCKSTART first
      else ({ st.pThis with pLine := pLineSum }).add_single CDE_S_CODELINE first
    match added with
    | none => none
    | some pThis1 =>
      (parse_global_scope_loop add_section fuel pPage index length fuel (index + 1)
        { st with pThis := pThis1 }).map (fun st1 => (true, st1))

/-- The inner loop of `parse_block` (lines 4916-4936) at the marker line
`idx`, from the value `subBlockIndex` on: the length with which the sub-block
is added, or `some none` when the loop ends with nothing added. -/
def subblock_length (pPage : List STxtLine) (index length idx : Nat) :
    Nat → Nat → Option (Option Nat)
  | 0, _ => none
  | n + 1, subBlockIndex =>
    if idx - index + subBlockIndex < length then
      match pPage[idx + subBlockIndex]? with
      | none => none
      | some line =>
        if tl_find line "// SUBBLOCK:" = 0 then some (some subBlockIndex)
        -- test for EOSection
        else if idx - index + (subBlockIndex + 1) = length then some (some (subBlockIndex + 1))
        else subblock_length pPage index length idx n (subBlockIndex + 1)
    else some none

/-- The loop of `parse_block` (lines 4907-4952): `bParsed`, whether a
sub-block marker was met (`subBlockIndex != 0`) and the state. -/
def parse_block_loop (add_section : AddSection) (fuel : Nat) (pPage : List STxtLine)
    (index length : Nat) : Nat → Nat → Bool → SParse → Option (Bool × Bool × SParse)
  | 0, _, _, _ => none
  | n + 1, idx, bSub, st =>
    if idx - index < length then
      match pPage[idx]? with
      | none => none
      | some line =>
        -- look for a sub-block demarcator
        if tl_find line "// SUBBLOCK:" = 0 then
          match subblock_length pPage index length idx (length + 1) 1 with
          | none => none
          | some none => parse_block_loop add_section fuel pPage index length n idx true st
          | some (some subBlockIndex) =>
            match add_section CDE_SUBBLOCK idx subBlockIndex true 0 (-1) st with
            | none => none
            | some (_, st1) =>
              parse_block_loop add_section fuel pPage index length n (idx + subBlockIndex) true
                st1
        else
          match find_startstring_parse add_section fuel pPage idx st with
          | none => none
          | some (true, numLines, st1) =>
            parse_block_loop add_section fuel pPage index length n (idx + numLines) bSub st1
          | some (false, _, st1) =>
            match find_var_decl add_section fuel pPage idx st1 with
            | none => none
            | some (true, numLines, st2) =>
              parse_block_loop add_section fuel pPage index length n (idx + numLines) bSub st2
            -- fail and exit
            | some (false, _, st2) => some (false, bSub, st2)
    else some (true, bSub, st)

/-- `parse_block` (lines 4886-4959). -/
def parse_block (add_section : AddSection) (fuel : Nat) (pPage : List STxtLine)
    (index length : Nat) (st : SParse) : Option (Bool × SParse) :=
  match pPage[index]? with
  | none => none
  | some first =>
    let pLineSum := (tl_remove (summary_line first false) "// BLOCK: ").1
    match ({ st.pThis with pLine := pLineSum }).add_single CDE_S_BLOCKSTART first with
    | none => none
    | some pThis1 =>
      match parse_block_loop add_section fuel pPage index length fuel (index + 1) false
          { st with pThis := pThis1 } with
      | none => none
      | some (bParsed, bSub, st1) =>
        -- summarize the block if no sub-blocks were found
        some (bParsed,
          if bSub then st1 else { st1 with pThis := { st1.pThis with bSummarized := true } })

/-- The loop of `parse_nm_codebase` (lines 5102-5130): `bContinue` and the
state. -/
def parse_nm_codebase_loop (add_section : AddSection) (fuel : Nat) (pPage : List STxtLine)
    (index length : Nat) : Nat → Nat → SParse → Option (Bool × SParse)
  | 0, _, _ => none
  | n + 1, idx, st =>
    if idx - index < length then
      match find_startstring_parse add_section fuel pPage idx st with
      | none => none
      | some (true, numLines, st1) =>
        parse_nm_codebase_loop add_section fuel pPage index length n (idx + numLines) st1
      | some (false, _, st1) =>
        match find_var_decl add_section fuel pPage idx st1 with
        | none => none
        | some (true, numLines, st2) =>
          parse_nm_codebase_loop add_section fuel pPage index length n (idx + numLines) st2
        -- fail and exit if neither worked
        | some (false, _, st2) => some (false, st2)
    else some (true, st)

/-- `parse_nm_codebase` (lines 5094-5132). -/
def parse_nm_codebase (add_section : AddSection) (fuel : Nat) (pPage : List STxtLine)
    (index length : Nat) (st : SParse) : Option (Bool × SParse) :=
  parse_nm_codebase_loop add_section fuel pPage index length fuel index st

/-- `MODAL_NUMBLOCKS` (line 1493). -/
abbrev MODAL_NUMBLOCKS : Nat := 6

/-- The loop of `parse_codebase` (lines 5049-5085) with its variables
`offsetPrev`, `offset` and `numBlocks`: `bParsed` and the state. -/
def parse_codebase_loop (add_section : AddSection) (pPage : List STxtLine)
    (index length : Nat) : Nat → Nat → Nat → Nat → SParse → Option (Bool × SParse)
  | 0, _, _, _, _ => none
  | n + 1, offsetPrev, offset, numBlocks, st =>
    match pPage[index + offset]? with
    | none => none
    | some pLine =>
      -- look for a block demarcator and add a block or the preamble
      let marked : Option (Nat × Nat × SParse) :=
        if tl_find pLine "// BLOCK:" = 0 then
          (add_section (if numBlocks = 0 then CDE_PREAMBLE else CDE_BLOCK) (index + offsetPrev)
            (offset - offsetPrev) true 0 (-1) st).map (fun r => (offset, numBlocks + 1, r.2))
        else some (offsetPrev, numBlocks, st)
      match marked with
      | none => none
      | some (offsetPrev1, numBlocks1, st1) =>
        -- test for EOF, add the last block
        if offset + 1 = length then
          match add_section CDE_BLOCK (index + offsetPrev1) (offset + 1 - offsetPrev1) true 0 (-1)
              st1 with
          | none => none
          | some (bParsed, st2) =>
            some (if numBlocks1 ≠ MODAL_NUMBLOCKS then false else bParsed, st2)
        else parse_codebase_loop add_section pPage index length n offsetPrev1 (offset + 1)
          numBlocks1 st1

/-- `parse_codebase` (lines 5031-5092). -/
def parse_codebase (add_section : AddSection) (fuel : Nat) (pPage : List STxtLine)
    (index length : Nat) (st : SParse) : Option (Bool × SParse) :=
  match pPage[index]? with
  | none => none
  | some pLine =>
    if tl_find pLine "// PREAMBLE:" = 0 then
      parse_codebase_loop add_section pPage index length fuel 0 1 0 st
    -- no preamble implies parse a non-modal codefile
    else parse_nm_codebase add_section fuel pPage index length st

/-- `SCodeSection::parse` (lines 2593-2648): the parser of the section
type. -/
def parse (add_section : AddSection) (fuel : Nat) (pPage : List STxtLine) (index length : Nat)
    (bInlineBrace : Bool) (st : SParse) : Option (Bool × SParse) :=
  let type := st.pThis.type
  if type = CDE_CODEBASE then parse_codebase add_section fuel pPage index length st
  else if type = CDE_PREAMBLE then parse_preamble fuel pPage index length st
  else if type = CDE_BLOCK then parse_block add_section fuel pPage index length st
  else if type = CDE_IFDEF then
    if st.pThis.containerType = CDE_CODEBASE ∨ st.pThis.containerType = CDE_BLOCK ∨
        st.pThis.containerType = CDE_SUBBLOCK then
      parse_global_scope add_section fuel pPage index length st
    else parse_local_scope add_section fuel pPage index length bInlineBrace st
  else if type = CDE_SUBBLOCK then parse_global_scope add_section fuel pPage index length st
  else if type = CDE_WX ∨ type = CDE_ENUM ∨ type = CDE_L4SECTION then
    parse_not fuel pPage index length bInlineBrace st
  else if type = CDE_FNDEFN ∨ type = CDE_CLASS_FNDEFN ∨ type = CDE_L1SECTION ∨
      type = CDE_L2SECTION ∨ type = CDE_L3SECTION then
    parse_local_scope add_section fuel pPage index length bInlineBrace st
  else if type = CDE_CLASSDECL ∨ type = CDE_TYPEDEF then
    parse_struct add_section fuel pPage index length bInlineBrace st
  else some (false, st)

/-- `SCodeSection::add_section` (lines 2927-2940) on the page `pPage`: a new
section is made, flagged, stored at `ppElements[numElements]` and parsed.  The
first argument bounds the nesting of the sections and the number of
iterations of every loop below; `none` stands for a run that reads a null
pointer or a line outside the page, that stores the section past the end of
the array (`numElements` has reached `MAX_ELEMENTS_IN_CS`, lines 2937-2938),
or that the bound stops. -/
def add_section (pPage : List STxtLine) : Nat → AddSection
  | 0 => fun _ _ _ _ _ _ _ => none
  | fuel + 1 => fun type index length bInlineBrace symLinkType symLinkIndex st =>
    -- everything is summarized except the parent block of a sub-block or a preamble
    let pSec : SCodeSection :=
      { type := type, pLine := [], bSummarized := decide (type ≠ CDE_PREAMBLE),
        symLinkType := symLinkType, symLinkIndex := symLinkIndex, pVarSet := [],
        ppElements := [], handle := st.pThis.ppElements.length :: st.pThis.handle,
        fileOffset := st.pThis.fileOffset + st.pThis.get_length,
        containerType := st.pThis.type }
    let pThis1 : SCodeSection :=
      if type = CDE_SUBBLOCK then { st.pThis with bSummarized := false } else st.pThis
    if st.pThis.ppElements.length < MAX_ELEMENTS_IN_CS then
      match parse (add_section pPage fuel) fuel pPage index length bInlineBrace
          { pThis := pSec, pSymSet := st.pSymSet } with
      | none => none
      | some (bParsed, st1) =>
        let pThis2 : SCodeSection :=
          { pThis1 with ppElements := pThis1.ppElements ++ [st1.pThis.pBaseElem] }
        some (bParsed, { pThis := pThis2, pSymSet := st1.pSymSet })
    else none

/-- The base section of `new_codebase` (lines 5492-5501) with the symbol set
of `SCodeBase::init`: its line is `The CodeBase`, it holds no element and no
symbol. -/
def new_base_section : SParse :=
  let pBaseSec : SCodeSection :=
    { type := CDE_CODEBASE, pLine := "The CodeBase".toList, bSummarized := false,
      symLinkType := 0, symLinkIndex := -1, pVarSet := [], ppElements := [], handle := [],
      fileOffset := 0, containerType := CDE_CODEBASE }
  { pThis := pBaseSec, pSymSet := ⟨[], [], []⟩ }

/-- The parse of `SCodeBase::load_codefile` (line 5407):
`pBaseSec->parse(pPage, 0, numLines, true)` on a new code base.  Gives the
value of `parse`, the tree and the symbol set. -/
def parse_page (fuel : Nat) (pPage : List STxtLine) : Option (Bool × SCodeElement × SSymbolSet) :=
  (parse (add_section pPage fuel) fuel pPage 0 pPage.length true new_base_section).map
    (fun r => (r.1, r.2.pThis.pBaseElem, r.2.pSymSet))

/-! ## Sample pages -/

/-- A dialect page of three lines with one block, whose last line is a
sub-block marker. -/
def trailing_subblock_page : List STxtLine :=
  ["// PREAMBLE: demo".toList, "// BLOCK: 1".toList, "// SUBBLOCK: a".toList]

/-! ## Brace depth as the claims word it -/

/-- The depth by lines after the `k` lines that follow the line `index`: 1 for
the opening brace `find_end_brace` is called for, plus the number of those
lines that hold an opening brace, minus the number of those that hold a
closing brace. -/
def spec_line_depth (pPage : List STxtLine) (index k : Nat) : Int :=
  1 + (((pPage.drop (index + 1)).take k).countP (fun l => decide ('\x7b' ∈ l)) : Nat)
    - (((pPage.drop (index + 1)).take k).countP (fun l => decide ('\x7d' ∈ l)) : Nat)

/-- The depth by characters over the `n` lines from `index` on: the number of
opening braces minus the number of closing braces in these lines. -/
def spec_brace_balance (pPage : List STxtLine) (index n : Nat) : Int :=
  (((pPage.drop index).take n).map
    (fun l => ((l.count '\x7b' : Nat) : Int) - ((l.count '\x7d' : Nat) : Int))).sum

/-- A page with a line that opens two braces. -/
def two_brace_page : List STxtLine :=
  ["void f() \x7b".toList, "  if (a) \x7b\x7b".toList, "  \x7d".toList, "  \x7d".toList,
    "\x7d".toList]

/-- A page with a line that closes one brace and opens two. -/
def else_brace_page : List STxtLine :=
  ["void f() \x7b".toList, "  if (a) \x7b b(); \x7d else \x7b".toList, "    c();".toList,
    "  \x7d".toList, "\x7d".toList]

/-- `SClassSet::get_class_from_name` (lines 2253-2261): the first class with
the name, or `NULL`. -/
def get_class_from_name (ppClasses : List SClass) (pClassName : STxtLine) : Option SClass :=
  ppClasses.find? (fun c => tl_equals c.pName pClassName)

/-- A class declaration with a virtual destructor. -/
def virtual_destructor_page : List STxtLine :=
  ["class Foo \x7b".toList, "  virtual ~Foo();".toList, "\x7d;".toList]

/-- A conditional that encloses another one. -/
def nested_ifdef_page : List STxtLine :=
  ["#ifdef A".toList, "#ifdef B".toList, "int x;".toList, "#endif".toList, "int y;".toList,
    "#endif".toList]

/-- Whether the line `k` of the page starts with the sub-block marker. -/
def spec_is_marker (pPage : List STxtLine) (k : Nat) : Bool :=
  match pPage[k]? with
  | some l => decide (tl_find l "// SUBBLOCK:" = 0)
  | none => false

/-- The sub-block ranges (first line, number of lines) the claim on
`parse_block` gives for the marker lines `m`, then `ms`, of a block that ends
before the line `e`: from each marker to the next one, and from the last one
to the end. -/
def spec_subblock_ranges : Nat → List Nat → Nat → List (Nat × Nat)
  | m, [], e => [(m, e - m)]
  | m, m' :: ms, e => (m, m' - m) :: spec_subblock_ranges m' ms e

/-- The sub-blocks of the given ranges added one after the other with
`add_section`. -/
def spec_add_subblocks (add_section : AddSection) : List (Nat × Nat) → SParse → Option SParse
  | [], st => some st
  | (m, len) :: rest, st =>
    match add_section CDE_SUBBLOCK m len true 0 (-1) st with
    | none => none
    | some (_, st1) => spec_add_subblocks add_section rest st1

/-- The lines `m`, then `ms`, are the marker lines from `m` on of a block that
ends before the line `e`, in order, and the last of them is not the last line
of the block. -/
def spec_markers_from (pPage : List STxtLine) (e : Nat) : Nat → List Nat → Prop
  | m, [] => spec_is_marker pPage m = true ∧ m + 1 < e ∧
      ∀ k, m < k → k < e → spec_is_marker pPage k = false
  | m, m' :: ms => spec_is_marker pPage m = true ∧ m < m' ∧
      (∀ k, m < k → k < m' → spec_is_marker pPage k = false) ∧
      spec_markers_from pPage e m' ms

/-- A block with two sub-block markers, the second on its last line. -/
def trailing_marker_block : List STxtLine :=
  ["// BLOCK: b".toList, "// SUBBLOCK: a".toList, "int x;".toList, "// SUBBLOCK: c".toList]

/-! ## Summary lines as the claims word them -/

mutual
/-- The first source line an element shows when everything is unfolded: the
line of a single, the first line of the first element of a section. -/
def spec_first_line : SCodeElement → Option STxtLine
  | .single _ l => some l
  | .sec _ _ _ es => spec_first_line_list es
/-- The first line of the first element of a list. -/
def spec_first_line_list : List SCodeElement → Option STxtLine
  | [] => none
  | e :: _ => spec_first_line e
end

/-- The section types whose summary ends in `...\x7d` when the opening brace is
on the first line: enumerations, the four nesting levels, structs, classes and
function definitions. -/
def spec_brace_type (type : Nat) : Bool :=
  decide (type = CDE_ENUM ∨ type = CDE_L1SECTION ∨ type = CDE_L2SECTION ∨
    type = CDE_L3SECTION ∨ type = CDE_L4SECTION ∨ type = CDE_TYPEDEF ∨ type = CDE_CLASSDECL ∨
    type = CDE_FNDEFN ∨ type = CDE_CLASS_FNDEFN)

/-- The summary of a section of the given type whose first source line is
`first`: the line followed by `...\x7d` or ` \x7b...\x7d`, from which the first
occurrence of the marker is then removed for a block or a sub-block. -/
def spec_summary (type : Nat) (first : STxtLine) : STxtLine :=
  let s := summary_line first (spec_brace_type type && decide (tl_find first "\x7b" ≠ -1))
  if type = CDE_BLOCK then (tl_remove s "// BLOCK: ").1
  else if type = CDE_SUBBLOCK then (tl_remove s "// SUBBLOCK: ").1
  else s

/-- The summary in the order of the words of the claim: the first source line
with the first occurrence of the marker removed for a block or a sub-block,
followed by `...\x7d` or ` \x7b...\x7d`. -/
def spec_summary_marker_first (type : Nat) (first : STxtLine) : STxtLine :=
  let f :=
    if type = CDE_BLOCK then (tl_remove first "// BLOCK: ").1
    else if type = CDE_SUBBLOCK then (tl_remove first "// SUBBLOCK: ").1
    else first
  summary_line f (spec_brace_type type && decide (tl_find first "\x7b" ≠ -1))

mutual
/-- Every section of the element carries the summary of a line of the page,
which is its first source line when it has an element. -/
def spec_summaries_ok (pPage : List STxtLine) : SCodeElement → Bool
  | .single _ _ => true
  | .sec t l _ es =>
    pPage.any (fun first => decide (l = spec_summary t first) &&
      (es.isEmpty || decide (spec_first_line_list es = some first))) &&
    spec_summaries_ok_list pPage es
/-- The same for every element of a list. -/
def spec_summaries_ok_list (pPage : List STxtLine) : List SCodeElement → Bool
  | [] => true
  | e :: es => spec_summaries_ok pPage e && spec_summaries_ok_list pPage es
end

/-- The fields of a section under construction its parser sets once: type,
line, type of the container and symbol link. -/
def SCodeSection.kind (s : SCodeSection) : Nat × STxtLine × Nat × Int × Int :=
  (s.type, s.pLine, s.containerType, s.symLinkType, s.symLinkIndex)

/-- The value of `bInlineBrace` a section of the given type is added with at
the line `index`: whether the first line holds an opening brace for the types
with a brace, false for conditional and macro sections; the types are those
`SCodeSection::parse` has a parser for, the root apart. -/
def spec_flag_ok (pPage : List STxtLine) (type index : Nat) (bInlineBrace : Bool) : Prop :=
  (spec_brace_type type = true →
    ∃ first, pPage[index]? = some first ∧ bInlineBrace = decide (tl_find first "\x7b" ≠ -1)) ∧
  (type = CDE_WX ∨ type = CDE_IFDEF → bInlineBrace = false) ∧
  (spec_brace_type type = true ∨ type = CDE_WX ∨ type = CDE_IFDEF ∨ type = CDE_SUBBLOCK ∨
    type = CDE_BLOCK ∨ type = CDE_PREAMBLE)

/-- What the parsers rely on when they add a section: the section they are
filling keeps its type, line and link, and gets one more element, whose
summaries are right when the flag is. -/
def spec_add_ok (pPage : List STxtLine) (add_section : AddSection) : Prop :=
  ∀ (type index length : Nat) (b : Bool) (lt li : Int) (st : SParse) (r : Bool × SParse),
    add_section type index length b lt li st = some r →
    r.2.pThis.kind = st.pThis.kind ∧
    ∃ child, r.2.pThis.ppElements = st.pThis.ppElements ++ [child] ∧
      (spec_flag_ok pPage type index b → spec_summaries_ok pPage child = true)

/-- A parser step on the section being filled: type, line and link stay, the
summaries of the elements stay right, and the first line stays once there is
an element. -/
def spec_step_ok (pPage : List STxtLine) (s s1 : SCodeSection) : Prop :=
  s1.kind = s.kind ∧
  (spec_summaries_ok_list pPage s.ppElements = true →
    spec_summaries_ok_list pPage s1.ppElements = true) ∧
  (s.ppElements ≠ [] → s1.ppElements ≠ [] ∧
    spec_first_line_list s1.ppElements = spec_first_line_list s.ppElements)

/-- A dialect page whose block marker has no name and no blank after the
colon. -/
def bare_block_page : List STxtLine :=
  ["// PREAMBLE: p".toList, "// BLOCK:".toList, "int x;".toList]

/-- A page with a comment run, a function whose brace is on the second line
and a conditional whose brace is on its first line. -/
def summary_page : List STxtLine :=
  ["// a".toList, "// b".toList, "int f(int a)".toList, "\x7b".toList, "  if (a) \x7b".toList,
   "    a = 1;".toList, "  \x7d".toList, "\x7d".toList]

/-! ## Member routing as the claims word it -/

/-- The section is parsed as local scope inside a function: a function
definition, a nesting level, or a conditional section that is not directly in
the root, a block or a sub-block. -/
def spec_local_section (type containerType : Nat) : Prop :=
  type = CDE_FNDEFN ∨ type = CDE_CLASS_FNDEFN ∨ type = CDE_L1SECTION ∨ type = CDE_L2SECTION ∨
    type = CDE_L3SECTION ∨ type = CDE_L4SECTION ∨
    (type = CDE_IFDEF ∧ ¬ (containerType = CDE_CODEBASE ∨ containerType = CDE_BLOCK ∨
      containerType = CDE_SUBBLOCK))

/-- Adding a section that is parsed as local scope leaves the symbol set as it
is. -/
def spec_add_local (add_section : AddSection) : Prop :=
  ∀ (type index length : Nat) (b : Bool) (lt li : Int) (st : SParse) (r : Bool × SParse),
    add_section type index length b lt li st = some r →
    spec_local_section type st.pThis.type → r.2.pSymSet = st.pSymSet

/-- The class `c1` is the class `c` with the variable `v` recorded: `v` is put
at the end of its variable set and nothing else changes. -/
def spec_class_records_var (c c1 : SClass) (v : SVar) : Prop :=
  c1 = { c with pVarSet := c.pVarSet ++ [v] }

/-- The class `c1` is the class `c` with the function `f` recorded: `f` is its
constructor, its destructor or an element of its function set, and name,
location, variable set and the other two of these are as in `c`, the function
set apart, in which `f` may have replaced a function. -/
def spec_class_records_func (c c1 : SClass) (f : SSymFunc) : Prop :=
  c1.pVarSet = c.pVarSet ∧ c1.pName = c.pName ∧ c1.pLocation = c.pLocation ∧
  ((c1.pConstr = some f ∧ c1.pDestr = c.pDestr ∧ c1.pFuncSet = c.pFuncSet) ∨
    (c1.pDestr = some f ∧ c1.pConstr = c.pConstr ∧ c1.pFuncSet = c.pFuncSet) ∨
    (f ∈ c1.pFuncSet ∧ c1.pConstr = c.pConstr ∧ c1.pDestr = c.pDestr))

/-- The struct `s1` is the struct `s` with the variable `v` recorded. -/
def spec_struct_records_var (s s1 : SStruct) (v : SVar) : Prop :=
  s1 = { s with pVarSet := s.pVarSet ++ [v] }

/-- The struct `s1` is the struct `s` with the function `f` recorded in its
function set. -/
def spec_struct_records_func (s s1 : SStruct) (f : SSymFunc) : Prop :=
  s1.pVarSet = s.pVarSet ∧ s1.pName = s.pName ∧ s1.pLocation = s.pLocation ∧ f ∈ s1.pFuncSet

/-- A class with a member variable, a constructor and a method defined in its
body. -/
def member_page : List STxtLine :=
  ["class Foo \x7b".toList, "  int x;".toList, "  Foo();".toList,
   "  int get() \x7b return x; \x7d".toList, "\x7d;".toList]

/-- The section of the body of the class `Foo` of `member_page` before its
members are read, with the class registered as class 0. -/
def member_state : SParse :=
  { pThis := { type := CDE_CLASSDECL, pLine := [], bSummarized := true, symLinkType := 2,
               symLinkIndex := 0, pVarSet := [], ppElements := [], handle := [0],
               fileOffset := 0, containerType := CDE_CODEBASE },
    pSymSet := ⟨[new_class "Foo".toList none], [], []⟩ }

/-- The delimiter at index `k` of the line and the character after it are a
space and a delimiter other than the space, in either order. -/
def spec_two_delims (pThis : STxtLine) (k : Nat) : Bool :=
  decide (k + 1 < pThis.length) &&
    ((tl_char pThis k == ' ' && is_end_delim (tl_char pThis (k + 1)) &&
        tl_char pThis (k + 1) != ' ') ||
      (tl_char pThis k != ' ' && tl_char pThis (k + 1) == ' '))

/-- The class `Foo` of `this_tree`: the member function `bar` and the member
variable `next` of type `Foo *`. -/
def class_foo_next : SClass :=
  { pConstr := none, pDestr := none,
    pFuncSet := [⟨[], some "void".toList, some ⟨some [1, 1], 5⟩, some "bar".toList⟩,
                 ⟨[], some "void".toList, some ⟨some [0], 0⟩, some "run".toList⟩],
    pVarSet := [⟨some "Foo *".toList, some "next".toList, some ⟨some [2, 1], 6⟩⟩],
    pName := "Foo".toList, pLocation := some ⟨some [1], 4⟩ }

/-- A code base with the member function `Foo::run`, which calls
`this->next->bar()` and then the free function `stop()`, followed by the
declaration of class `Foo` and of `stop`. -/
def this_tree : SCodeElement :=
  .sec CDE_CODEBASE "The CodeBase".toList (plain_info false) [
    .sec CDE_CLASS_FNDEFN "void Foo::run() \x7b...\x7d".toList ⟨false, 2, 0, []⟩ [
      .single CDE_S_CODELINE "void Foo::run() \x7b".toList,
      .single CDE_S_CODELINE "  this->next->bar();".toList,
      .single CDE_S_CODELINE "  stop();".toList,
      .single CDE_S_CODELINE "\x7d".toList],
    .sec CDE_CLASSDECL "class Foo \x7b...\x7d".toList ⟨false, 2, 0, []⟩ [
      .single CDE_S_CODELINE "class Foo \x7b".toList,
      .single CDE_S_FWDDECL_FN "  void bar();".toList,
      .single CDE_S_VARDECL "  Foo *next;".toList,
      .single CDE_S_CODELINE "\x7d;".toList],
    .single CDE_S_FWDDECL_FN "void stop();".toList]

/-- The symbol set of `this_tree`. -/
def this_symbols : SSymbolSet :=
  { pClassSet := [class_foo_next], pStructSet := [],
    pFuncSet := [⟨[], some "void".toList, some ⟨some [2], 8⟩, some "stop".toList⟩] }

/-- The element `q` of the tree exists and is a single-line element or a
section whose `bSummarized` flag is set. -/
def spec_single_or_folded (root : SCodeElement) (q : Handle) : Bool :=
  match ce_at root q with
  | some e => e.bSingle || e.bSummarized
  | none => false

/-- The section `h` and every section above it are unsummarized (unfolded). -/
def spec_all_unfolded (root : SCodeElement) : Handle → Bool
  | [] =>
    match root with
    | .sec _ _ info _ => !info.bSummarized
    | .single _ _ => false
  | i :: h =>
    (match ce_at root (i :: h) with
      | some (.sec _ _ info _) => !info.bSummarized
      | _ => false) && spec_all_unfolded root h

/-- An addressable element, in words: a single-line element or a folded
section, all of whose ancestor sections are unfolded. -/
def spec_addressable (root : SCodeElement) (e : Handle) : Bool :=
  (match ce_at root e with
    | some c => c.bSingle || c.bSummarized
    | none => false) &&
  (match e with
    | [] => true
    | _ :: h => spec_all_unfolded root h)

/-- A dialect page whose preamble holds the code line `int a;`, followed by
six block markers. -/
def preamble_code_page : List STxtLine :=
  ["// PREAMBLE: p".toList, "int a;".toList, "// BLOCK: 1".toList, "// BLOCK: 2".toList,
   "// BLOCK: 3".toList, "// BLOCK: 4".toList, "// BLOCK: 5".toList, "// BLOCK: 6".toList]

/-- A page without preamble: a function whose body opens an `#ifdef` that is
closed after the closing brace of the function. -/
def ifdef_across_page : List STxtLine :=
  ["void f() \x7b".toList, "#ifdef X".toList, "\x7d".toList, "#endif".toList]

/-- A dialect page with a preamble line and six block markers, the last block
ending with a sub-block marker. -/
def six_block_trailing_page : List STxtLine :=
  "// PREAMBLE: p".toList ::
    ["// BLOCK: 1".toList, "// BLOCK: 2".toList, "// BLOCK: 3".toList, "// BLOCK: 4".toList,
      "// BLOCK: 5".toList] ++ ["// BLOCK: 6".toList, "// SUBBLOCK: a".toList]

/-! ## Symbol locations as the claims word them -/

/-- The locations set in a list of variables. -/
def var_locations (vs : List SVar) : List SLocation := vs.filterMap (fun v => v.pLocation)

/-- The locations set in a function symbol: its own and those of its
parameters. -/
def func_locations (f : SSymFunc) : List SLocation :=
  f.pLocation.toList ++ var_locations f.pVarSet

/-- The locations set in a class symbol: its own, those of its constructor,
destructor and member functions, and those of its member variables. -/
def class_locations (c : SClass) : List SLocation :=
  c.pLocation.toList ++ (c.pConstr.map func_locations).getD [] ++
    (c.pDestr.map func_locations).getD [] ++ (c.pFuncSet.map func_locations).flatten ++
    var_locations c.pVarSet

/-- The locations set in a struct symbol. -/
def struct_locations (s : SStruct) : List SLocation :=
  s.pLocation.toList ++ (s.pFuncSet.map func_locations).flatten ++ var_locations s.pVarSet

/-- The locations set in a symbol set. -/
def symbol_locations (syms : SSymbolSet) : List SLocation :=
  (syms.pClassSet.map class_locations).flatten ++
    (syms.pStructSet.map struct_locations).flatten ++
    (syms.pFuncSet.map func_locations).flatten

mutual
/-- The locations set in the variable sets of the sections of a tree (global
and local variables). -/
def tree_locations : SCodeElement → List SLocation
  | .single _ _ => []
  | .sec _ _ info es => var_locations info.pVarSet ++ tree_locations_list es
/-- The same for a list of trees. -/
def tree_locations_list : List SCodeElement → List SLocation
  | [] => []
  | e :: es => tree_locations e ++ tree_locations_list es
end

/-- The property `Location.fileOffset == ce_file_offset(Location.element)` in
the tree, for a location whose element is set. -/
def spec_location_ok (root : SCodeElement) (loc : SLocation) : Bool :=
  match loc.pCodeBaseLoc with
  | some h => ce_file_offset root h == some loc.fileOffset
  | none => false

/-- The element list of the section reached by the handle `q` (innermost
index first) from a section whose element list is `es`; `[]` is that section
itself. -/
def spec_rel_sec (es : List SCodeElement) : Handle → Option (List SCodeElement)
  | [] => some es
  | i :: q =>
    match spec_rel_sec es q with
    | some cs =>
      match cs[i]? with
      | some (.sec _ _ _ ds) => some ds
      | _ => none
    | none => none

/-- The number of lines before the element reached by the handle `q` from a
section whose element list is `es`, counted from the start of that section;
defined when no element on the way has type `CDE_CODEBASE`. -/
def spec_rel_offset (es : List SCodeElement) : Handle → Option Int
  | [] => some 0
  | i :: q =>
    match spec_rel_sec es q, spec_rel_offset es q with
    | some cs, some o =>
      match cs[i]? with
      | some e => if e.type ≠ CDE_CODEBASE then some (o + get_length_list (cs.take i)) else none
      | none => none
    | _, _ => none

/-- The location points to an element inside the section with handle `H`,
file offset `O` and element list `es`, and carries the file offset of that
element. -/
def spec_loc_anchored (es : List SCodeElement) (H : Handle) (O : Int) (loc : SLocation) :
    Prop :=
  ∃ p, p ≠ [] ∧ loc.pCodeBaseLoc = some (p ++ H) ∧
    spec_rel_offset es p = some (loc.fileOffset - O)

/-- Every location set in the variables satisfies `Q`. -/
def spec_vars_ok (Q : SLocation → Prop) (vs : List SVar) : Prop :=
  ∀ v ∈ vs, ∀ loc, v.pLocation = some loc → Q loc

/-- Every location set in the function symbol satisfies `Q`. -/
def spec_func_ok (Q : SLocation → Prop) (f : SSymFunc) : Prop :=
  (∀ loc, f.pLocation = some loc → Q loc) ∧ spec_vars_ok Q f.pVarSet

/-- Every location set in the class symbol satisfies `Q`. -/
def spec_class_ok (Q : SLocation → Prop) (c : SClass) : Prop :=
  (∀ loc, c.pLocation = some loc → Q loc) ∧ (∀ f, c.pConstr = some f → spec_func_ok Q f) ∧
    (∀ f, c.pDestr = some f → spec_func_ok Q f) ∧ (∀ f ∈ c.pFuncSet, spec_func_ok Q f) ∧
    spec_vars_ok Q c.pVarSet

/-- Every location set in the struct symbol satisfies `Q`. -/
def spec_struct_ok (Q : SLocation → Prop) (s : SStruct) : Prop :=
  (∀ loc, s.pLocation = some loc → Q loc) ∧ (∀ f ∈ s.pFuncSet, spec_func_ok Q f) ∧
    spec_vars_ok Q s.pVarSet

/-- Every location set in the symbol set satisfies `Q`. -/
def spec_syms_ok (Q : SLocation → Prop) (syms : SSymbolSet) : Prop :=
  (∀ c ∈ syms.pClassSet, spec_class_ok Q c) ∧ (∀ s ∈ syms.pStructSet, spec_struct_ok Q s) ∧
    (∀ f ∈ syms.pFuncSet, spec_func_ok Q f)

/-- The locations a state may hold while the section `s` is parsed: those
that satisfy `P` (they point outside the section) and those anchored in the
section. -/
def spec_loc_here (P : SLocation → Prop) (s : SCodeSection) (loc : SLocation) : Prop :=
  P loc ∨ spec_loc_anchored s.ppElements s.handle s.fileOffset loc

/-- The invariant of the parse of a section: every location in the symbol set
and in the variable sets of the section and of its elements satisfies `P` or
is anchored in the section, and no element of the section has type
`CDE_CODEBASE`. -/
def spec_loc_inv (P : SLocation → Prop) (st : SParse) : Prop :=
  spec_syms_ok (spec_loc_here P st.pThis) st.pSymSet ∧
    spec_vars_ok (spec_loc_here P st.pThis) st.pThis.pVarSet ∧
    (∀ loc ∈ tree_locations_list st.pThis.ppElements, spec_loc_here P st.pThis loc) ∧
    (∀ e ∈ st.pThis.ppElements, e.type ≠ CDE_CODEBASE)

/-- A parser step keeps the place and the type of the section and the
invariant of the locations. -/
def spec_locs_step (st st1 : SParse) : Prop :=
  st1.pThis.handle = st.pThis.handle ∧ st1.pThis.fileOffset = st.pThis.fileOffset ∧
    st1.pThis.type = st.pThis.type ∧ ∀ P, spec_loc_inv P st → spec_loc_inv P st1

/-- Adding a section of a type other than `CDE_CODEBASE` is a step. -/
def spec_add_locs (add_section : AddSection) : Prop :=
  ∀ (type index length : Nat) (b : Bool) (lt li : Int) (st : SParse) (r : Bool × SParse),
    type ≠ CDE_CODEBASE → add_section type index length b lt li st = some r →
    spec_locs_step st r.2

/-- A page with a class, a free function with a local variable in a nested
section, a global variable and forward declarations. -/
def location_page : List STxtLine :=
  ["class Foo \x7b".toList, "  int x;".toList, "  Foo();".toList, "\x7d;".toList,
   "int f(int a)".toList, "\x7b".toList, "  if (a) \x7b".toList, "    int b;".toList,
   "  \x7d".toList, "\x7d".toList, "int g;".toList, "struct S;".toList]

end ModalWX

/-! # Theorems -/

namespace ModalWX

/-! ## Erasing fold flags -/

mutual
theorem ce_length_erase_flags : ∀ e : SCodeElement, ce_length (erase_flags e) = ce_length e
  | .single _ _ => by simp [erase_flags]
  | .sec _ _ _ es => by
    simp only [erase_flags, ce_length]
    exact get_length_list_erase_flags es
theorem get_length_list_erase_flags :
    ∀ es : List SCodeElement, get_length_list (erase_flags_list es) = get_length_list es
  | [] => by simp [erase_flags_list]
  | e :: es => by
    simp only [erase_flags_list, get_length_list]
    rw [ce_length_erase_flags e, get_length_list_erase_flags es]
end

mutual
theorem write_source_erase_flags :
    ∀ e : SCodeElement, write_source (erase_flags e) = write_source e
  | .single _ _ => by simp [erase_flags]
  | .sec _ _ _ es => by
    simp only [erase_flags, write_source]
    exact write_source_list_erase_flags es
theorem write_source_list_erase_flags :
    ∀ es : List SCodeElement, write_source_list (erase_flags_list es) = write_source_list es
  | [] => by simp [erase_flags_list]
  | e :: es => by
    simp only [erase_flags_list, write_source_list]
    rw [write_source_erase_flags e, write_source_list_erase_flags es]
end

theorem erase_flags_list_eq_map (es : List SCodeElement) :
    erase_flags_list es = es.map erase_flags := by
  induction es with
  | nil => simp [erase_flags_list]
  | cons e es ih => simp [erase_flags_list, ih]

theorem get_length_list_eq_sum (es : List SCodeElement) :
    get_length_list es = (es.map ce_length).sum := by
  induction es with
  | nil => simp [get_length_list]
  | cons e es ih => simp [get_length_list, ih]

theorem ce_length_eq_of_erase {a b : SCodeElement} (h : erase_flags a = erase_flags b) :
    ce_length a = ce_length b := by
  rw [← ce_length_erase_flags a, ← ce_length_erase_flags b, h]

theorem write_source_eq_of_erase {a b : SCodeElement} (h : erase_flags a = erase_flags b) :
    write_source a = write_source b := by
  rw [← write_source_erase_flags a, ← write_source_erase_flags b, h]

theorem ppElements_erase_flags (e : SCodeElement) :
    (erase_flags e).ppElements = e.ppElements.map erase_flags := by
  cases e with
  | single t l => simp [erase_flags, SCodeElement.ppElements]
  | sec t l info es => simp [erase_flags, SCodeElement.ppElements, erase_flags_list_eq_map]

theorem get_length_eq_of_erase {a b : SCodeElement} (h : erase_flags a = erase_flags b) :
    get_length a = get_length b := by
  have h1 : ∀ e : SCodeElement, get_length e = get_length (erase_flags e) := by
    intro e
    cases e with
    | single t l => simp [erase_flags]
    | sec t l info es =>
      simp only [get_length, erase_flags, SCodeElement.ppElements]
      exact (get_length_list_erase_flags es).symm
  rw [h1 a, h1 b, h]

theorem ce_at_erase_flags (root : SCodeElement) :
    ∀ h : Handle, ce_at (erase_flags root) h = (ce_at root h).map erase_flags
  | [] => by simp [ce_at]
  | i :: h => by
    simp only [ce_at]
    rw [ce_at_erase_flags root h]
    cases hc : ce_at root h with
    | none => simp
    | some c =>
      cases c with
      | single t l => simp [erase_flags]
      | sec t l info es =>
        simp [erase_flags, erase_flags_list_eq_map, List.getElem?_map]

/-- Two trees that differ in fold flags only have the same elements at the same
handles, up to fold flags. -/
theorem ce_at_of_erase_eq {a b : SCodeElement} (hab : erase_flags a = erase_flags b)
    {h : Handle} {s : SCodeElement} (hs : ce_at a h = some s) :
    ∃ s', ce_at b h = some s' ∧ erase_flags s = erase_flags s' := by
  have h1 := ce_at_erase_flags a h
  have h2 := ce_at_erase_flags b h
  rw [hab, h2, hs] at h1
  cases hb : ce_at b h with
  | none => simp [hb] at h1
  | some s' =>
    refine ⟨s', rfl, ?_⟩
    simp [hb] at h1
    exact h1.symm

/-! ## Assigning a fold flag -/

mutual
theorem erase_flags_set_along :
    ∀ (e : SCodeElement) (p : List Nat) (b : Bool), erase_flags (set_along e p b) = erase_flags e
  | .single _ _, _, _ => by simp [set_along]
  | .sec _ _ _ _, [], _ => by simp [set_along, erase_flags]
  | .sec _ _ _ es, i :: p, b => by
    simp only [set_along, erase_flags]
    rw [erase_flags_list_set_along_list es i p b]
theorem erase_flags_list_set_along_list :
    ∀ (es : List SCodeElement) (i : Nat) (p : List Nat) (b : Bool),
      erase_flags_list (set_along_list es i p b) = erase_flags_list es
  | [], _, _, _ => by simp [set_along_list]
  | e :: es, 0, p, b => by
    simp only [set_along_list, erase_flags_list]
    rw [erase_flags_set_along e p b]
  | e :: es, i + 1, p, b => by
    simp only [set_along_list, erase_flags_list]
    rw [erase_flags_list_set_along_list es i p b]
end

theorem erase_flags_set_summarized (root : SCodeElement) (h : Handle) (b : Bool) :
    erase_flags (set_summarized root h b) = erase_flags root :=
  erase_flags_set_along root h.reverse b

theorem is_sec_at_of_erase_eq {a b : SCodeElement} (hab : erase_flags a = erase_flags b)
    {h : Handle} (hs : is_sec_at a h) : is_sec_at b h := by
  obtain ⟨t, l, info, es, hs⟩ := hs
  obtain ⟨s', hs', he⟩ := ce_at_of_erase_eq hab hs
  cases s' with
  | single t' l' => simp [erase_flags] at he
  | sec t' l' info' es' => exact ⟨t', l', info', es', hs'⟩

theorem is_sec_at_container {root : SCodeElement} {i : Nat} {h : Handle} {e : SCodeElement}
    (he : ce_at root (i :: h) = some e) : is_sec_at root h := by
  simp only [ce_at] at he
  cases hc : ce_at root h with
  | none => simp [hc] at he
  | some c =>
    cases c with
    | single t l => simp [hc] at he
    | sec t l info es => exact ⟨t, l, info, es, hc⟩

theorem type_eq_of_erase_eq {s s' : SCodeElement} (h : erase_flags s = erase_flags s') :
    s.type = s'.type := by
  cases s <;> cases s' <;> simp_all [erase_flags, SCodeElement.type]

/-! ## `collapse` and `expand` change fold flags only, and return -/

theorem collapse_here_erase {root : SCodeElement} {h : Handle} {type : Nat}
    {es : List SCodeElement} {r : SCodeElement × Option Handle}
    (hr : collapse_here root h type es = some r) : erase_flags r.1 = erase_flags root := by
  unfold collapse_here at hr
  split_ifs at hr <;> simp at hr <;> subst hr <;>
    simp [erase_flags_set_summarized]

theorem collapse_total_erase :
    ∀ (h : Handle) (root : SCodeElement), root.type = CDE_CODEBASE → is_sec_at root h →
      ∃ r, collapse root h = some r ∧ erase_flags r.1 = erase_flags root
  | [], root, hty, hsec => by
    obtain ⟨t, l, info, es, hs⟩ := hsec
    simp only [ce_at, Option.some.injEq] at hs
    subst hs
    simp only [SCodeElement.type] at hty
    subst hty
    simp only [collapse, collapse_here, if_true]
    split_ifs <;> simp [erase_flags_set_summarized]
  | i :: h, root, hty, hsec => by
    obtain ⟨t, l, info, es, hs⟩ := hsec
    simp only [collapse, hs]
    cases hh : collapse_here root (i :: h) t es with
    | some r => exact ⟨r, rfl, collapse_here_erase hh⟩
    | none =>
      simp only
      have he := erase_flags_set_summarized root (i :: h) true
      have hty' : (set_summarized root (i :: h) true).type = CDE_CODEBASE := by
        rw [type_eq_of_erase_eq he]; exact hty
      have hsec' : is_sec_at (set_summarized root (i :: h) true) h :=
        is_sec_at_of_erase_eq he.symm (is_sec_at_container hs)
      obtain ⟨r, hr, hre⟩ := collapse_total_erase h _ hty' hsec'
      exact ⟨r, hr, hre.trans he⟩

theorem expand_total_erase :
    ∀ (h : Handle) (root : SCodeElement), root.type = CDE_CODEBASE → is_sec_at root h →
      ∃ r, expand root h = some r ∧ erase_flags r = erase_flags root
  | [], root, hty, hsec => by
    obtain ⟨t, l, info, es, hs⟩ := hsec
    simp only [ce_at, Option.some.injEq] at hs
    subst hs
    simp only [SCodeElement.type] at hty
    subst hty
    simp [expand, erase_flags_set_summarized]
  | i :: h, root, hty, hsec => by
    obtain ⟨t, l, info, es, hs⟩ := hsec
    simp only [expand, hs]
    split_ifs with hstop
    · exact ⟨_, rfl, erase_flags_set_summarized _ _ _⟩
    · have he := erase_flags_set_summarized root (i :: h) false
      have hty' : (set_summarized root (i :: h) false).type = CDE_CODEBASE := by
        rw [type_eq_of_erase_eq he]; exact hty
      have hsec' : is_sec_at (set_summarized root (i :: h) false) h :=
        is_sec_at_of_erase_eq he.symm (is_sec_at_container hs)
      obtain ⟨r, hr, hre⟩ := expand_total_erase h _ hty' hsec'
      exact ⟨r, hr, hre.trans he⟩

theorem collapse_erase :
    ∀ (h : Handle) (root : SCodeElement) (r : SCodeElement × Option Handle),
      collapse root h = some r → erase_flags r.1 = erase_flags root
  | [], root, r, hr => by
    cases root with
    | single t l => simp [collapse] at hr
    | sec t l info es =>
      simp only [collapse] at hr
      cases hh : collapse_here (.sec t l info es) [] t es with
      | some r' => simp [hh] at hr; subst hr; exact collapse_here_erase hh
      | none => simp [hh] at hr
  | i :: h, root, r, hr => by
    simp only [collapse] at hr
    cases hc : ce_at root (i :: h) with
    | none => simp [hc] at hr
    | some c =>
      cases c with
      | single t l => simp [hc] at hr
      | sec t l info es =>
        simp only [hc] at hr
        cases hh : collapse_here root (i :: h) t es with
        | some r' => simp [hh] at hr; subst hr; exact collapse_here_erase hh
        | none =>
          simp only [hh] at hr
          exact (collapse_erase h _ r hr).trans (erase_flags_set_summarized _ _ _)

theorem expand_erase :
    ∀ (h : Handle) (root r : SCodeElement), expand root h = some r →
      erase_flags r = erase_flags root
  | [], root, r, hr => by
    cases root with
    | single t l => simp [expand] at hr
    | sec t l info es =>
      simp only [expand] at hr
      split_ifs at hr
      simp at hr; subst hr; exact erase_flags_set_summarized _ _ _
  | i :: h, root, r, hr => by
    simp only [expand] at hr
    cases hc : ce_at root (i :: h) with
    | none => simp [hc] at hr
    | some c =>
      cases c with
      | single t l => simp [hc] at hr
      | sec t l info es =>
        simp only [hc] at hr
        split_ifs at hr
        · simp at hr; subst hr; exact erase_flags_set_summarized _ _ _
        · exact (expand_erase h _ r hr).trans (erase_flags_set_summarized _ _ _)

theorem ce_collapse_erase {root : SCodeElement} {p : Handle}
    {r : SCodeElement × Option Handle} (hr : ce_collapse root p = some r) :
    erase_flags r.1 = erase_flags root := by
  unfold ce_collapse at hr
  split at hr
  · rename_i i h e hp
    cases hc : collapse root h with
    | none => simp [hc] at hr
    | some r1 =>
      obtain ⟨root1, pr⟩ := r1
      simp only [hc] at hr
      have h1 := collapse_erase h root _ hc
      split_ifs at hr <;> simp at hr <;> subst hr
      · exact (erase_flags_set_summarized _ _ _).trans h1
      · exact h1
  · simp at hr

theorem ce_expand_erase {root : SCodeElement} {p : Handle} {r : SCodeElement}
    (hr : ce_expand root p = some r) : erase_flags r = erase_flags root := by
  unfold ce_expand at hr
  split at hr
  · exact expand_erase _ _ _ hr
  · simp at hr

theorem run_op_erase {root : SCodeElement} {op : FoldOp} {r : SCodeElement}
    (hr : run_op root op = some r) : erase_flags r = erase_flags root := by
  cases op with
  | collapse p =>
    simp only [run_op, Option.map_eq_some'] at hr
    obtain ⟨x, hx, rfl⟩ := hr
    exact ce_collapse_erase hx
  | expand p => exact ce_expand_erase hr
  | assign h b =>
    simp only [run_op, Option.some.injEq] at hr
    subst hr
    exact erase_flags_set_summarized _ _ _

theorem run_ops_erase :
    ∀ (ops : List FoldOp) (root r : SCodeElement), run_ops root ops = some r →
      erase_flags r = erase_flags root
  | [], root, r, hr => by
    simp only [run_ops, Option.some.injEq] at hr
    rw [hr]
  | op :: ops, root, r, hr => by
    simp only [run_ops] at hr
    cases h1 : run_op root op with
    | none => simp [h1] at hr
    | some r1 =>
      simp only [h1] at hr
      exact (run_ops_erase ops r1 r hr).trans (run_op_erase h1)

/-! ## Lengths under folding (C2) and the collapse/expand round trip (C5) -/

/-- C2: for every section of a code tree, `get_length()` is the sum of
`ce_length` over its elements, `ce_length` of a single-line element being 1,
and after any sequence of `ce_collapse` / `ce_expand` calls and direct
assignments to fold flags the section at the same place has the same length. -/
theorem get_length_fold_invariant (root : SCodeElement) (ops : List FoldOp)
    (root' : SCodeElement) (hrun : run_ops root ops = some root')
    (h : Handle) (t : Nat) (l : STxtLine) (info : SSecInfo) (es : List SCodeElement)
    (hs : ce_at root h = some (.sec t l info es)) :
    get_length (.sec t l info es) = (es.map ce_length).sum ∧
    (∀ c ∈ es, c.bSingle = true → ce_length c = 1) ∧
    ∃ info' es', ce_at root' h = some (.sec t l info' es') ∧
      get_length (.sec t l info' es') = get_length (.sec t l info es) := by
  refine ⟨get_length_list_eq_sum es, ?_, ?_⟩
  · intro c _ hc
    cases c with
    | single t l => simp [ce_length]
    | sec t l info es => simp [SCodeElement.bSingle] at hc
  · have he := run_ops_erase ops root root' hrun
    obtain ⟨s', hs', hes⟩ := ce_at_of_erase_eq he.symm hs
    cases s' with
    | single t' l' => simp [erase_flags] at hes
    | sec t' l' info' es' =>
      have h1 : t = t' ∧ l = l' := by
        simp only [erase_flags, SCodeElement.sec.injEq] at hes
        exact ⟨hes.1, hes.2.1⟩
      obtain ⟨rfl, rfl⟩ := h1
      exact ⟨info', es', hs', (get_length_eq_of_erase hes).symm⟩

/-- Witness of C2 on `sample_tree`: collapse the line `g();`, expand it again
and fold the first sub-block by hand; the function body still has length 5. -/
theorem get_length_fold_invariant_witness :
    get_length (.sec CDE_FNDEFN "void f() \x7b...\x7d".toList (plain_info false) [
          .single CDE_S_CODELINE "void f() \x7b".toList,
          .sec CDE_L1SECTION "if( x ) \x7b...\x7d".toList (plain_info true) [
            .single CDE_S_CODELINE "if( x ) \x7b".toList,
            .single CDE_S_CODELINE "g();".toList,
            .single CDE_S_CODELINE "\x7d".toList],
          .single CDE_S_CODELINE "\x7d".toList]) = 5 ∧
    ∃ info' es', ce_at (set_summarized (set_summarized sample_tree [1, 1, 0, 1] false)
        [0, 1] true) [1, 0, 1] = some (.sec CDE_FNDEFN "void f() \x7b...\x7d".toList info' es') ∧
      get_length (.sec CDE_FNDEFN "void f() \x7b...\x7d".toList info' es') = 5 := by
  have h := get_length_fold_invariant sample_tree
    [.collapse [1, 1, 1, 0, 1], .expand [1, 1, 1, 0, 1], .assign [0, 1] true]
    (set_summarized (set_summarized sample_tree [1, 1, 0, 1] false) [0, 1] true) (by rfl)
    [1, 0, 1] _ _ _ _ (by rfl)
  refine ⟨by rfl, ?_⟩
  obtain ⟨info', es', h1, h2⟩ := h.2.2
  exact ⟨info', es', h1, h2.trans (by rfl)⟩

/-- C5: for every element `e` of a tree (an element held by a section, so not
the root base element), `ce_collapse(e)` followed by `ce_expand(e)` both return
and change fold flags only: the tree with its flags erased (shape, types, lines
and summary lines) and the lines `write_source` emits are those before the
collapse. -/
theorem collapse_expand_round_trip (root : SCodeElement) (hroot : well_formed root = true)
    (i : Nat) (h : Handle) (e : SCodeElement) (he : ce_at root (i :: h) = some e) :
    ∃ r1 pElemRoot r2, ce_collapse root (i :: h) = some (r1, pElemRoot) ∧
      ce_expand r1 (i :: h) = some r2 ∧
      erase_flags r2 = erase_flags root ∧ write_source r2 = write_source root := by
  have hty : root.type = CDE_CODEBASE := by
    cases root with
    | single t l => simp [well_formed] at hroot
    | sec t l info es =>
      simp only [well_formed, Bool.and_eq_true, beq_iff_eq] at hroot
      exact hroot.1.1.1
  obtain ⟨r, hr, hre⟩ := collapse_total_erase h root hty (is_sec_at_container he)
  have hc : ∃ r1, ce_collapse root (i :: h) = some (r1, r.2) ∧
      erase_flags r1 = erase_flags root := by
    simp only [ce_collapse, he, hr]
    split_ifs
    · exact ⟨_, rfl, (erase_flags_set_summarized _ _ _).trans hre⟩
    · exact ⟨_, rfl, hre⟩
  obtain ⟨r1, hr1, hr1e⟩ := hc
  obtain ⟨e1, he1, _⟩ := ce_at_of_erase_eq hr1e.symm he
  have hty1 : r1.type = CDE_CODEBASE := by rw [type_eq_of_erase_eq hr1e]; exact hty
  obtain ⟨r2, hr2, hr2e⟩ := expand_total_erase h r1 hty1 (is_sec_at_container he1)
  refine ⟨r1, r.2, r2, hr1, ?_, hr2e.trans hr1e, write_source_eq_of_erase (hr2e.trans hr1e)⟩
  simp only [ce_expand, he1]
  exact hr2

/-- Witness of C5 on `sample_tree`, at the line `g();` of the inner section. -/
theorem collapse_expand_round_trip_witness :
    ∃ r1 pElemRoot r2, ce_collapse sample_tree [1, 1, 1, 0, 1] = some (r1, pElemRoot) ∧
      ce_expand r1 [1, 1, 1, 0, 1] = some r2 ∧
      erase_flags r2 = erase_flags sample_tree ∧ write_source r2 = write_source sample_tree :=
  collapse_expand_round_trip sample_tree (by decide) 1 [1, 1, 0, 1]
    (.single CDE_S_CODELINE "g();".toList) (by rfl)

/-! ## Fold flags after an assignment -/

theorem ce_at_path_snoc :
    ∀ (p : List Nat) (e : SCodeElement) (i : Nat),
      ce_at_path e (p ++ [i]) =
        match ce_at_path e p with
        | some (.sec _ _ _ es) => es[i]?
        | _ => none
  | [], e, i => by
    cases e with
    | single t l => simp [ce_at_path]
    | sec t l info es =>
      simp only [List.nil_append, ce_at_path]
      cases es[i]? <;> simp [ce_at_path]
  | j :: p, e, i => by
    cases e with
    | single t l => simp [ce_at_path]
    | sec t l info es =>
      simp only [List.cons_append, ce_at_path]
      cases hj : es[j]? with
      | none => simp
      | some c => simp only; exact ce_at_path_snoc p c i

theorem ce_at_eq_path (root : SCodeElement) :
    ∀ h : Handle, ce_at root h = ce_at_path root h.reverse
  | [] => by simp [ce_at, ce_at_path]
  | i :: h => by
    simp only [ce_at, List.reverse_cons]
    rw [ce_at_path_snoc, ← ce_at_eq_path root h]

theorem set_along_list_getElem? :
    ∀ (es : List SCodeElement) (j : Nat) (p : List Nat) (b : Bool) (i : Nat),
      (set_along_list es j p b)[i]? =
        if i = j then (es[i]?).map (fun c => set_along c p b) else es[i]?
  | [], j, p, b, i => by simp [set_along_list]
  | e :: es, 0, p, b, i => by
    cases i with
    | zero => simp [set_along_list]
    | succ i => simp [set_along_list]
  | e :: es, j + 1, p, b, i => by
    cases i with
    | zero => simp [set_along_list]
    | succ i =>
      simp only [set_along_list, List.getElem?_cons_succ]
      rw [set_along_list_getElem? es j p b i]
      simp

theorem bSummarized_set_along (e : SCodeElement) (p : List Nat) (b : Bool) :
    (set_along e p b).bSummarized =
      if p = [] ∧ e.bSingle = false then b else e.bSummarized := by
  cases e with
  | single t l => simp [set_along, SCodeElement.bSummarized, SCodeElement.bSingle]
  | sec t l info es =>
    cases p with
    | nil => simp [set_along, SCodeElement.bSummarized, SCodeElement.bSingle]
    | cons i p => simp [set_along, SCodeElement.bSummarized]

theorem flag_at_path_set_along :
    ∀ (q : List Nat) (e : SCodeElement) (p : List Nat) (b : Bool) (s : SCodeElement),
      ce_at_path e q = some s →
      ∃ s', ce_at_path (set_along e p b) q = some s' ∧
        s'.bSummarized = if q = p ∧ s.bSingle = false then b else s.bSummarized
  | [], e, p, b, s, hs => by
    simp only [ce_at_path, Option.some.injEq] at hs
    subst hs
    refine ⟨set_along e p b, by simp [ce_at_path], ?_⟩
    rw [bSummarized_set_along]
    cases p <;> simp
  | i :: q, e, p, b, s, hs => by
    cases e with
    | single t l => simp [ce_at_path] at hs
    | sec t l info es =>
      simp only [ce_at_path] at hs
      cases hi : es[i]? with
      | none => simp [hi] at hs
      | some c =>
        simp only [hi] at hs
        cases p with
        | nil =>
          refine ⟨s, ?_, by simp⟩
          simp [set_along, ce_at_path, hi, hs]
        | cons j p =>
          simp only [set_along, ce_at_path, set_along_list_getElem?, hi]
          by_cases hij : i = j
          · subst hij
            obtain ⟨s', hs', hf⟩ := flag_at_path_set_along q c p b s hs
            refine ⟨s', by simp [hs'], ?_⟩
            simp [hf]
          · refine ⟨s, by simp [hij, hs], ?_⟩
            simp [hij]

/-- Effect of `pSec->bSummarized = b` for the section `h` on the element at any
handle `g`: the element is still there, equal up to fold flags, and its own
flag is `b` when `g = h` points to a section and unchanged otherwise. -/
theorem ce_at_set_summarized {root : SCodeElement} (h : Handle) (b : Bool) {g : Handle}
    {s : SCodeElement} (hs : ce_at root g = some s) :
    ∃ s', ce_at (set_summarized root h b) g = some s' ∧
      s'.bSummarized = (if g = h ∧ s.bSingle = false then b else s.bSummarized) ∧
      erase_flags s' = erase_flags s := by
  rw [ce_at_eq_path] at hs
  obtain ⟨s', hs', hf⟩ := flag_at_path_set_along g.reverse root h.reverse b s hs
  have hs'' : ce_at (set_summarized root h b) g = some s' := by
    rw [ce_at_eq_path]; exact hs'
  obtain ⟨s2, h2, h3⟩ := ce_at_of_erase_eq (erase_flags_set_summarized root h b).symm
    ((ce_at_eq_path root g).trans hs)
  rw [hs''] at h2
  simp only [Option.some.injEq] at h2
  subst h2
  refine ⟨s', hs'', ?_, h3.symm⟩
  rw [hf]
  simp

theorem has_subblock_of_erase_eq {s s' : SCodeElement} (h : erase_flags s = erase_flags s') :
    has_subblock s.ppElements = has_subblock s'.ppElements := by
  have key : ∀ e : SCodeElement,
      has_subblock e.ppElements = has_subblock (erase_flags e).ppElements := by
    intro e
    rw [ppElements_erase_flags]
    simp only [has_subblock, List.any_map]
    congr 1
    funext c
    simp only [Function.comp]
    cases c <;> simp [erase_flags, SCodeElement.type]
  rw [key s, key s', h]

theorem bSingle_of_erase_eq {s s' : SCodeElement} (h : erase_flags s = erase_flags s') :
    s.bSingle = s'.bSingle := by
  cases s <;> cases s' <;> simp_all [erase_flags, SCodeElement.bSingle]

theorem collapse_folds_of_erase_eq {s s' : SCodeElement} (h : erase_flags s = erase_flags s') :
    collapse_folds s = collapse_folds s' := by
  simp only [collapse_folds, type_eq_of_erase_eq h, has_subblock_of_erase_eq h]

theorem fold_path_of_erase_eq {a b : SCodeElement} (hab : erase_flags a = erase_flags b) :
    ∀ h : Handle, fold_path a h = fold_path b h
  | [] => by simp [fold_path]
  | i :: h => by
    simp only [fold_path]
    cases ha : ce_at a (i :: h) with
    | none =>
      cases hb : ce_at b (i :: h) with
      | none => rfl
      | some e =>
        obtain ⟨s', hs', _⟩ := ce_at_of_erase_eq hab.symm hb
        simp [ha] at hs'
    | some e =>
      obtain ⟨s', hs', he⟩ := ce_at_of_erase_eq hab ha
      simp only [hs', type_eq_of_erase_eq he, fold_path_of_erase_eq hab h]

/-! ## Fold flags after `expand` (C6) and `collapse` (C7) -/

theorem is_stop_type_iff (t : Nat) :
    is_stop_type t = true ↔ (t = CDE_CODEBASE ∨ t = CDE_SUBBLOCK ∨ t = CDE_BLOCK) := by
  simp [is_stop_type, or_assoc]

theorem expand_flags :
    ∀ (h : Handle) (root r : SCodeElement), expand root h = some r →
      ∀ (g : Handle) (s : SCodeElement), ce_at root g = some s →
        ∃ s', ce_at r g = some s' ∧ erase_flags s' = erase_flags s ∧
          s'.bSummarized = (if g ∈ fold_path root h then false else s.bSummarized)
  | [], root, r, hr, g, s, hs => by
    cases root with
    | single t l => simp [expand] at hr
    | sec t l info es =>
      simp only [expand] at hr
      split_ifs at hr
      simp only [Option.some.injEq] at hr
      subst hr
      obtain ⟨s', hs', hf, he⟩ := ce_at_set_summarized [] false hs
      refine ⟨s', hs', he, ?_⟩
      rw [hf]
      by_cases hg : g = []
      · subst hg
        simp only [ce_at, Option.some.injEq] at hs
        subst hs
        simp [fold_path, SCodeElement.bSingle]
      · simp [fold_path, hg]
  | i :: h, root, r, hr, g, s, hs => by
    simp only [expand] at hr
    cases hc : ce_at root (i :: h) with
    | none => simp [hc] at hr
    | some c =>
      cases c with
      | single t l => simp [hc] at hr
      | sec t l info es =>
        simp only [hc] at hr
        obtain ⟨s1, hs1, hf1, he1⟩ := ce_at_set_summarized (i :: h) false hs
        have hsingle : g = i :: h → s.bSingle = false := by
          intro hg
          subst hg
          rw [hc] at hs
          simp only [Option.some.injEq] at hs
          subst hs
          rfl
        split_ifs at hr with hstop
        · simp only [Option.some.injEq] at hr
          subst hr
          refine ⟨s1, hs1, he1, ?_⟩
          rw [hf1]
          have hst : is_stop_type t = true := (is_stop_type_iff t).2 hstop
          by_cases hg : g = i :: h
          · simp [fold_path, hc, SCodeElement.type, hst, hg, hsingle hg]
          · simp [fold_path, hc, SCodeElement.type, hst, hg]
        · obtain ⟨s2, hs2, he2, hf2⟩ := expand_flags h _ r hr g s1 hs1
          refine ⟨s2, hs2, he2.trans he1, ?_⟩
          rw [hf2, hf1, fold_path_of_erase_eq (erase_flags_set_summarized root (i :: h) false) h]
          have hst : is_stop_type t = false := by
            rw [Bool.eq_false_iff]
            intro hst
            exact hstop ((is_stop_type_iff t).1 hst)
          by_cases hg : g = i :: h
          · simp [fold_path, hc, SCodeElement.type, hst, hg, hsingle hg]
          · simp [fold_path, hc, SCodeElement.type, hst, hg]

theorem type_of_well_formed {root : SCodeElement} (hwf : well_formed root = true) :
    root.type = CDE_CODEBASE := by
  cases root with
  | single t l => simp [well_formed] at hwf
  | sec t l info es =>
    simp only [well_formed, Bool.and_eq_true, beq_iff_eq] at hwf
    exact hwf.1.1.1

/-- C6: `ce_expand(e)` returns, and in the resulting tree the fold flag is
false on the section holding `e` and on each ancestor section up to and
including the nearest block, sub-block or codebase section (the handles of
`fold_path`), and is unchanged on every other section; nothing but fold flags
changes. -/
theorem ce_expand_flags (root : SCodeElement) (hroot : well_formed root = true)
    (i : Nat) (h : Handle) (e : SCodeElement) (he : ce_at root (i :: h) = some e) :
    ∃ r, ce_expand root (i :: h) = some r ∧ erase_flags r = erase_flags root ∧
      ∀ (g : Handle) (s : SCodeElement), ce_at root g = some s →
        ∃ s', ce_at r g = some s' ∧
          s'.bSummarized = (if g ∈ fold_path root h then false else s.bSummarized) := by
  obtain ⟨r, hr, hre⟩ :=
    expand_total_erase h root (type_of_well_formed hroot) (is_sec_at_container he)
  refine ⟨r, by simp only [ce_expand, he]; exact hr, hre, ?_⟩
  intro g s hs
  obtain ⟨s', hs', _, hf⟩ := expand_flags h root r hr g s hs
  exact ⟨s', hs', hf⟩

/-- Witness of C6 on `sample_tree`: expanding the line `g();` unfolds the inner
section, the function and the sub-block, and leaves the block above alone. -/
theorem ce_expand_flags_witness :
    ∃ r, ce_expand sample_tree [1, 1, 1, 0, 1] = some r ∧
      erase_flags r = erase_flags sample_tree ∧
      ∀ (g : Handle) (s : SCodeElement), ce_at sample_tree g = some s →
        ∃ s', ce_at r g = some s' ∧
          s'.bSummarized =
            (if g ∈ fold_path sample_tree [1, 1, 0, 1] then false else s.bSummarized) :=
  ce_expand_flags sample_tree (by decide) 1 [1, 1, 0, 1]
    (.single CDE_S_CODELINE "g();".toList) (by rfl)

theorem collapse_here_flags {root : SCodeElement} {h : Handle} {t : Nat} {l : STxtLine}
    {info : SSecInfo} {es : List SCodeElement} {r : SCodeElement × Option Handle}
    (hc : ce_at root h = some (.sec t l info es))
    (hr : collapse_here root h t es = some r)
    {g : Handle} {s : SCodeElement} (hs : ce_at root g = some s) :
    is_stop_type t = true ∧
    ∃ s', ce_at r.1 g = some s' ∧ erase_flags s' = erase_flags s ∧
      s'.bSummarized = (if g = h ∧ collapse_folds s = true then true else s.bSummarized) := by
  have hsingle : g = h → s = .sec t l info es := by
    intro hg
    subst hg
    rw [hc] at hs
    simp only [Option.some.injEq] at hs
    exact hs.symm
  obtain ⟨s1, hs1, hf1, he1⟩ := ce_at_set_summarized h true hs
  unfold collapse_here at hr
  split_ifs at hr with h1 h2 h3 h4 h5
  all_goals simp only [Option.some.injEq] at hr
  all_goals subst hr
  all_goals refine ⟨by simp [is_stop_type, *], ?_⟩
  · refine ⟨s1, hs1, he1, ?_⟩
    rw [hf1]
    by_cases hg : g = h
    · rw [hsingle hg]
      simp_all [collapse_folds, SCodeElement.bSingle, SCodeElement.ppElements]
    · simp [hg]
  · refine ⟨s, hs, rfl, ?_⟩
    by_cases hg : g = h
    · rw [hsingle hg]
      simp_all [collapse_folds, SCodeElement.ppElements, SCodeElement.type, is_stop_type]
    · simp [hg]
  · refine ⟨s1, hs1, he1, ?_⟩
    rw [hf1]
    by_cases hg : g = h
    · rw [hsingle hg]
      simp_all [collapse_folds, SCodeElement.bSingle, SCodeElement.ppElements]
    · simp [hg]
  · refine ⟨s, hs, rfl, ?_⟩
    by_cases hg : g = h
    · rw [hsingle hg]
      simp_all [collapse_folds, SCodeElement.ppElements, SCodeElement.type, is_stop_type]
    · simp [hg]
  · refine ⟨s1, hs1, he1, ?_⟩
    rw [hf1]
    by_cases hg : g = h
    · rw [hsingle hg]
      simp_all [collapse_folds, SCodeElement.bSingle, SCodeElement.type]
    · simp [hg]

theorem collapse_here_none {root : SCodeElement} {h : Handle} {t : Nat}
    {es : List SCodeElement} (hr : collapse_here root h t es = none) :
    is_stop_type t = false := by
  unfold collapse_here at hr
  split_ifs at hr with h1 h2 h3 h4 h5
  simp [is_stop_type, *]

theorem collapse_flags :
    ∀ (h : Handle) (root : SCodeElement) (r : SCodeElement × Option Handle),
      collapse root h = some r →
      ∀ (g : Handle) (s : SCodeElement), ce_at root g = some s →
        ∃ s', ce_at r.1 g = some s' ∧ erase_flags s' = erase_flags s ∧
          s'.bSummarized =
            (if g ∈ fold_path root h ∧ collapse_folds s = true then true else s.bSummarized)
  | [], root, r, hr, g, s, hs => by
    cases root with
    | single t l => simp [collapse] at hr
    | sec t l info es =>
      simp only [collapse] at hr
      cases hh : collapse_here (.sec t l info es) [] t es with
      | none => simp [hh] at hr
      | some r' =>
        simp only [hh, Option.some.injEq] at hr
        subst hr
        obtain ⟨_, s', hs', he, hf⟩ := collapse_here_flags
          (show ce_at (.sec t l info es) [] = some (.sec t l info es) by simp [ce_at]) hh hs
        refine ⟨s', hs', he, ?_⟩
        rw [hf]
        simp [fold_path]
  | i :: h, root, r, hr, g, s, hs => by
    simp only [collapse] at hr
    cases hc : ce_at root (i :: h) with
    | none => simp [hc] at hr
    | some c =>
      cases c with
      | single t l => simp [hc] at hr
      | sec t l info es =>
        simp only [hc] at hr
        cases hh : collapse_here root (i :: h) t es with
        | some r' =>
          simp only [hh, Option.some.injEq] at hr
          subst hr
          obtain ⟨hst, s', hs', he, hf⟩ := collapse_here_flags hc hh hs
          refine ⟨s', hs', he, ?_⟩
          rw [hf]
          simp [fold_path, hc, SCodeElement.type, hst]
        | none =>
          simp only [hh] at hr
          have hst := collapse_here_none hh
          obtain ⟨s1, hs1, hf1, he1⟩ := ce_at_set_summarized (i :: h) true hs
          obtain ⟨s2, hs2, he2, hf2⟩ := collapse_flags h _ r hr g s1 hs1
          refine ⟨s2, hs2, he2.trans he1, ?_⟩
          rw [hf2, hf1, fold_path_of_erase_eq (erase_flags_set_summarized root (i :: h) true) h,
            collapse_folds_of_erase_eq he1]
          by_cases hg : g = i :: h
          · have hs' : s = .sec t l info es := by
              subst hg
              rw [hc] at hs
              simp only [Option.some.injEq] at hs
              exact hs.symm
            subst hs'
            simp [fold_path, hc, SCodeElement.type, hst, hg, SCodeElement.bSingle,
              collapse_folds]
          · simp [fold_path, hc, SCodeElement.type, hst, hg]

/-- C7: `ce_collapse(e)` returns, and afterwards the fold flag is true on the
own section of `e` when `e` is a section, and on the sections of `fold_path`
(the section holding `e`, then each ancestor up to and including the first
sub-block, block or codebase section) that `collapse` folds: every section
that is not a block, sub-block or codebase, a sub-block, and a block (or the
codebase root, whose case falls through into the block case) only when it has
no sub-block element.  The flag of every other section, in particular of every
section above the stopping point or off the path, is unchanged, and nothing but
fold flags changes. -/
theorem ce_collapse_flags (root : SCodeElement) (hroot : well_formed root = true)
    (i : Nat) (h : Handle) (e : SCodeElement) (he : ce_at root (i :: h) = some e) :
    ∃ r pElemRoot, ce_collapse root (i :: h) = some (r, pElemRoot) ∧
      erase_flags r = erase_flags root ∧
      ∀ (g : Handle) (s : SCodeElement), ce_at root g = some s →
        ∃ s', ce_at r g = some s' ∧
          s'.bSummarized =
            (if (g = i :: h ∧ s.bSingle = false) ∨
                (g ∈ fold_path root h ∧ collapse_folds s = true)
             then true else s.bSummarized) := by
  obtain ⟨r1, hr1, hre1⟩ :=
    collapse_total_erase h root (type_of_well_formed hroot) (is_sec_at_container he)
  by_cases hb : e.bSingle = true
  · refine ⟨r1.1, r1.2, by simp [ce_collapse, he, hr1, hb], hre1, ?_⟩
    intro g s hs
    obtain ⟨s', hs', _, hf⟩ := collapse_flags h root r1 hr1 g s hs
    refine ⟨s', hs', ?_⟩
    rw [hf]
    by_cases hg : g = i :: h
    · subst hg
      rw [he] at hs
      simp only [Option.some.injEq] at hs
      subst hs
      simp [hb]
    · simp [hg]
  · refine ⟨set_summarized r1.1 (i :: h) true, r1.2, by simp [ce_collapse, he, hr1, hb],
      (erase_flags_set_summarized _ _ _).trans hre1, ?_⟩
    intro g s hs
    obtain ⟨s1, hs1, he1, hf1⟩ := collapse_flags h root r1 hr1 g s hs
    obtain ⟨s2, hs2, hf2, _⟩ := ce_at_set_summarized (i :: h) true hs1
    refine ⟨s2, hs2, ?_⟩
    rw [hf2, hf1, bSingle_of_erase_eq he1]
    by_cases hg : g = i :: h
    · subst hg
      rw [he] at hs
      simp only [Option.some.injEq] at hs
      subst hs
      simp [hb]
    · simp [hg]

/-- Witness of C7 on `sample_tree`, at the line `g();` of the inner section. -/
theorem ce_collapse_flags_witness :
    ∃ r pElemRoot, ce_collapse sample_tree [1, 1, 1, 0, 1] = some (r, pElemRoot) ∧
      erase_flags r = erase_flags sample_tree ∧
      ∀ (g : Handle) (s : SCodeElement), ce_at sample_tree g = some s →
        ∃ s', ce_at r g = some s' ∧
          s'.bSummarized =
            (if (g = [1, 1, 1, 0, 1] ∧ s.bSingle = false) ∨
                (g ∈ fold_path sample_tree [1, 1, 0, 1] ∧ collapse_folds s = true)
             then true else s.bSummarized) :=
  ce_collapse_flags sample_tree (by decide) 1 [1, 1, 0, 1]
    (.single CDE_S_CODELINE "g();".toList) (by rfl)

/-! ## The addressable elements: first and last -/

mutual
theorem first_null_eq :
    ∀ (c : SCodeElement) (h : Handle), sections_nonempty c = true → c.bSingle = false →
      ∃ w, get_next_element_null c h true = some w ∧ (addressable_in c h).head? = some w
  | .single _ _, _, _, hb => by simp [SCodeElement.bSingle] at hb
  | .sec _ _ _ es, h, hne, _ => by
    simp only [sections_nonempty, Bool.and_eq_true, Bool.not_eq_true',
      List.isEmpty_eq_false] at hne
    simp only [get_next_element_null, addressable_in]
    exact first_list_eq es h hne.1 hne.2
theorem first_list_eq :
    ∀ (es : List SCodeElement) (h : Handle), es ≠ [] → sections_nonempty_list es = true →
      ∃ w, first_element es h = some w ∧ (addressable_list es 0 h).head? = some w
  | [], _, hne, _ => by simp at hne
  | .single _ _ :: _, h, _, _ => by simp [first_element, addressable_list]
  | .sec t l info cs :: es, h, _, hs => by
    simp only [first_element, addressable_list]
    by_cases hb : info.bSummarized = true
    · simp [hb]
    · simp only [hb, if_false, Bool.false_eq_true]
      simp only [sections_nonempty_list, Bool.and_eq_true] at hs
      obtain ⟨w, hw, hw'⟩ := first_null_eq (.sec t l info cs) (0 :: h) hs.1 rfl
      refine ⟨w, hw, ?_⟩
      rw [List.head?_append_of_ne_nil]
      · exact hw'
      · intro hnil
        rw [hnil] at hw'
        simp at hw'
end

/-- The addressable elements contributed by one element `c` with handle `v`:
`c` itself when it is a single or a summarized section, else those inside. -/
theorem addressable_list_cons (c : SCodeElement) (es : List SCodeElement) (i : Nat)
    (h : Handle) :
    addressable_list (c :: es) i h =
      (if c.bSingle = true ∨ c.bSummarized = true then [i :: h] else addressable_in c (i :: h))
        ++ addressable_list es (i + 1) h := by
  cases c with
  | single t l => simp [addressable_list, SCodeElement.bSingle]
  | sec t l info cs =>
    simp only [addressable_list, SCodeElement.bSingle, SCodeElement.bSummarized]
    simp

mutual
theorem last_null_eq :
    ∀ (c : SCodeElement) (h : Handle), sections_nonempty c = true → c.bSingle = false →
      ∃ w, get_next_element_null c h false = some w ∧ (addressable_in c h).getLast? = some w
  | .single _ _, _, _, hb => by simp [SCodeElement.bSingle] at hb
  | .sec _ _ _ es, h, hne, _ => by
    simp only [sections_nonempty, Bool.and_eq_true, Bool.not_eq_true',
      List.isEmpty_eq_false] at hne
    simp only [get_next_element_null, addressable_in]
    exact last_list_eq es 0 h hne.1 hne.2
theorem last_list_eq :
    ∀ (es : List SCodeElement) (i : Nat) (h : Handle), es ≠ [] →
      sections_nonempty_list es = true →
      ∃ w, last_element es i h = some w ∧ (addressable_list es i h).getLast? = some w
  | [], _, _, hne, _ => by simp at hne
  | [.single _ _], i, h, _, _ => by simp [last_element, addressable_list]
  | [.sec t l info cs], i, h, _, hs => by
    simp only [last_element, addressable_list, List.append_nil]
    by_cases hb : info.bSummarized = true
    · simp [hb]
    · simp only [hb, if_false, Bool.false_eq_true]
      simp only [sections_nonempty_list, Bool.and_eq_true] at hs
      exact last_null_eq (.sec t l info cs) (i :: h) hs.1 rfl
  | c :: e :: es, i, h, _, hs => by
    have hs' : sections_nonempty_list (e :: es) = true := by
      simp only [sections_nonempty_list, Bool.and_eq_true] at hs ⊢
      exact hs.2
    obtain ⟨w, hw, hw'⟩ := last_list_eq (e :: es) (i + 1) h (by simp) hs'
    refine ⟨w, by simp only [last_element]; exact hw, ?_⟩
    rw [addressable_list_cons, List.getLast?_append, hw']
    simp
end

theorem addressable_list_ne_nil :
    ∀ (es : List SCodeElement) (i : Nat) (h : Handle), es ≠ [] →
      sections_nonempty_list es = true → addressable_list es i h ≠ [] := by
  intro es i h hne hs hnil
  obtain ⟨w, _, hw⟩ := last_list_eq es i h hne hs
  rw [hnil] at hw
  simp at hw

theorem sections_nonempty_children {t : Nat} {l : STxtLine} {info : SSecInfo}
    {es : List SCodeElement} (h : sections_nonempty (.sec t l info es) = true) :
    es ≠ [] ∧ sections_nonempty_list es = true := by
  simp only [sections_nonempty, Bool.and_eq_true, Bool.not_eq_true',
    List.isEmpty_eq_false] at h
  exact h

theorem sections_nonempty_list_append {pre suf : List SCodeElement} :
    sections_nonempty_list (pre ++ suf) = true ↔
      sections_nonempty_list pre = true ∧ sections_nonempty_list suf = true := by
  induction pre with
  | nil => simp [sections_nonempty_list]
  | cons e pre ih => simp [sections_nonempty_list, ih, and_assoc]

theorem no_codebase_list_append {pre suf : List SCodeElement} :
    no_codebase_list (pre ++ suf) = true ↔
      no_codebase_list pre = true ∧ no_codebase_list suf = true := by
  induction pre with
  | nil => simp [no_codebase_list]
  | cons e pre ih => simp [no_codebase_list, ih, and_assoc]

/-! ## The addressable elements are linked by `get_next_element` -/

theorem linked_fwd_append (root : SCodeElement) :
    ∀ (A B : List Handle) (fin : Option (Option Handle)),
      linked_fwd root (A ++ B) fin ↔
        linked_fwd root A (fin_of B.head? fin) ∧ linked_fwd root B fin
  | [], B, fin => by simp [linked_fwd]
  | v :: A, B, fin => by
    have happ : (v :: A) ++ B = v :: (A ++ B) := rfl
    rw [happ]
    simp only [linked_fwd]
    rw [linked_fwd_append root A B fin]
    cases A with
    | nil => simp [fin_of, and_assoc]
    | cons a A => simp [fin_of, and_assoc]

theorem linked_bwd_append (root : SCodeElement) :
    ∀ (A B : List Handle) (fin : Option (Option Handle)),
      linked_bwd root (A ++ B) fin ↔
        linked_bwd root A fin ∧ linked_bwd root B (fin_of A.getLast? fin)
  | [], B, fin => by simp [linked_bwd, fin_of]
  | v :: A, B, fin => by
    have happ : (v :: A) ++ B = v :: (A ++ B) := rfl
    rw [happ]
    simp only [linked_bwd]
    rw [linked_bwd_append root A B (some (some v))]
    cases A with
    | nil => simp [fin_of, linked_bwd, and_assoc]
    | cons a A =>
      have h1 : (v :: a :: A).getLast? = (a :: A).getLast? := by simp
      rw [h1]
      cases hl : (a :: A).getLast? with
      | none => simp at hl
      | some w => simp [fin_of, and_assoc]

theorem getElem?_pre_length (pre : List SCodeElement) (c : SCodeElement)
    (rest : List SCodeElement) : (pre ++ c :: rest)[pre.length]? = some c := by
  rw [List.getElem?_append_right (le_refl _)]
  simp

theorem ce_at_child {root : SCodeElement} {g : Handle} {t : Nat} {l : STxtLine}
    {info : SSecInfo} {pre : List SCodeElement} {c : SCodeElement} {rest : List SCodeElement}
    (hg : ce_at root g = some (.sec t l info (pre ++ c :: rest))) :
    ce_at root (pre.length :: g) = some c := by
  simp only [ce_at, hg]
  exact getElem?_pre_length pre c rest

theorem next_of_child {root : SCodeElement} {g : Handle} {t : Nat} {l : STxtLine}
    {info : SSecInfo} {pre : List SCodeElement} {c : SCodeElement} {rest : List SCodeElement}
    (hg : ce_at root g = some (.sec t l info (pre ++ c :: rest)))
    (hs : sections_nonempty_list rest = true) :
    get_next_element_from root (pre.length :: g) true =
      fin_of (addressable_list rest (pre.length + 1) g).head?
        (get_next_element_from root g true) := by
  simp only [get_next_element_from, hg]
  cases rest with
  | nil => simp [addressable_list, fin_of]
  | cons d rest =>
    have hlen : pre.length + 1 < (pre ++ c :: d :: rest).length := by simp
    have hget : (pre ++ c :: d :: rest)[pre.length + 1]? = some d := by
      rw [List.getElem?_append_right (by omega)]
      simp
    simp only [hlen, if_true, hget]
    cases d with
    | single t' l' => simp [addressable_list, fin_of]
    | sec t' l' info' cs =>
      by_cases hb : info'.bSummarized = true
      · simp [addressable_list, fin_of, hb]
      · simp only [sections_nonempty_list, Bool.and_eq_true] at hs
        obtain ⟨w, hw, hw'⟩ :=
          first_null_eq (.sec t' l' info' cs) ((pre.length + 1) :: g) hs.1 rfl
        have hne : addressable_in (.sec t' l' info' cs) ((pre.length + 1) :: g) ≠ [] := by
          intro hnil
          rw [hnil] at hw'
          simp at hw'
        simp only [Bool.not_eq_true] at hb
        simp only [hb, Bool.not_false, if_true, hw, Option.map_some', addressable_list,
          Bool.false_eq_true, if_false]
        rw [List.head?_append_of_ne_nil _ hne, hw']
        rfl

theorem prev_of_child {root : SCodeElement} {g : Handle} {t : Nat} {l : STxtLine}
    {info : SSecInfo} {pre : List SCodeElement} {c : SCodeElement} {rest : List SCodeElement}
    (hg : ce_at root g = some (.sec t l info (pre ++ c :: rest)))
    (hs : sections_nonempty c = true) :
    ∃ w, (if c.bSingle = true ∨ c.bSummarized = true then [pre.length :: g]
            else addressable_in c (pre.length :: g)).getLast? = some w ∧
      get_next_element_from root ((pre.length + 1) :: g) false = some (some w) := by
  simp only [get_next_element_from, hg]
  have hget : (pre ++ c :: rest)[pre.length + 1 - 1]? = some c := by
    rw [Nat.add_sub_cancel]
    exact getElem?_pre_length pre c rest
  simp only [Nat.zero_lt_succ, gt_iff_lt, if_true, hget]
  cases c with
  | single t' l' => simp [SCodeElement.bSingle]
  | sec t' l' info' cs =>
    by_cases hb : info'.bSummarized = true
    · simp [SCodeElement.bSingle, SCodeElement.bSummarized, hb]
    · obtain ⟨w, hw, hw'⟩ := last_null_eq (.sec t' l' info' cs) (pre.length :: g) hs rfl
      simp only [Bool.not_eq_true] at hb
      refine ⟨w, ?_, ?_⟩
      · simp [SCodeElement.bSingle, SCodeElement.bSummarized, hb, hw']
      · simp [hb, hw]

theorem prev_of_first (root : SCodeElement) (g : Handle) :
    get_next_element_from root (0 :: g) false =
      match ce_at root g with
      | some (.sec _ _ _ _) => get_next_element_from root g false
      | _ => none := by
  simp only [get_next_element_from]
  cases ce_at root g with
  | none => rfl
  | some c => cases c <;> simp

mutual
theorem linked_fwd_in (root : SCodeElement) :
    ∀ (c : SCodeElement) (h : Handle), ce_at root h = some c → sections_nonempty c = true →
      linked_fwd root (addressable_in c h) (get_next_element_from root h true)
  | .single _ _, h, _, _ => by simp [addressable_in, linked_fwd]
  | .sec t l info es, h, hc, hs => by
    simp only [addressable_in]
    exact linked_fwd_list root es [] h t l info (by simpa using hc)
      (sections_nonempty_children hs).2
theorem linked_fwd_list (root : SCodeElement) :
    ∀ (suf pre : List SCodeElement) (g : Handle) (t : Nat) (l : STxtLine) (info : SSecInfo),
      ce_at root g = some (.sec t l info (pre ++ suf)) → sections_nonempty_list suf = true →
      linked_fwd root (addressable_list suf pre.length g) (get_next_element_from root g true)
  | [], _, _, _, _, _, _, _ => by simp [addressable_list, linked_fwd]
  | c :: rest, pre, g, t, l, info, hg, hs => by
    simp only [sections_nonempty_list, Bool.and_eq_true] at hs
    rw [addressable_list_cons, linked_fwd_append]
    have hrest := linked_fwd_list root rest (pre ++ [c]) g t l info (by simpa using hg) hs.2
    simp only [List.length_append, List.length_singleton] at hrest
    refine ⟨?_, hrest⟩
    rw [← next_of_child hg hs.2]
    split_ifs
    · simp [linked_fwd, fin_of]
    · exact linked_fwd_in root c (pre.length :: g) (ce_at_child hg) hs.1
end

mutual
theorem linked_bwd_in (root : SCodeElement) :
    ∀ (c : SCodeElement) (h : Handle), ce_at root h = some c → sections_nonempty c = true →
      linked_bwd root (addressable_in c h) (get_next_element_from root h false)
  | .single _ _, h, _, _ => by simp [addressable_in, linked_bwd]
  | .sec t l info es, h, hc, hs => by
    simp only [addressable_in]
    have h1 := linked_bwd_list root es [] h t l info (by simpa using hc)
      (sections_nonempty_children hs).2
    rw [List.length_nil, prev_of_first, hc] at h1
    exact h1
theorem linked_bwd_list (root : SCodeElement) :
    ∀ (suf pre : List SCodeElement) (g : Handle) (t : Nat) (l : STxtLine) (info : SSecInfo),
      ce_at root g = some (.sec t l info (pre ++ suf)) → sections_nonempty_list suf = true →
      linked_bwd root (addressable_list suf pre.length g)
        (get_next_element_from root (pre.length :: g) false)
  | [], _, _, _, _, _, _, _ => by simp [addressable_list, linked_bwd]
  | c :: rest, pre, g, t, l, info, hg, hs => by
    simp only [sections_nonempty_list, Bool.and_eq_true] at hs
    rw [addressable_list_cons, linked_bwd_append]
    have hrest := linked_bwd_list root rest (pre ++ [c]) g t l info (by simpa using hg) hs.2
    simp only [List.length_append, List.length_singleton] at hrest
    obtain ⟨w, hw, hprev⟩ := prev_of_child hg hs.1
    rw [hw]
    rw [hprev] at hrest
    refine ⟨?_, hrest⟩
    split_ifs
    · simp [linked_bwd]
    · exact linked_bwd_in root c (pre.length :: g) (ce_at_child hg) hs.1
end

/-! ## File offsets of the addressable elements -/

mutual
theorem ce_length_pos :
    ∀ c : SCodeElement, sections_nonempty c = true → 1 ≤ ce_length c
  | .single _ _, _ => by simp [ce_length]
  | .sec _ _ _ es, hs => by
    simp only [ce_length]
    obtain ⟨hne, hs'⟩ := sections_nonempty_children hs
    cases es with
    | nil => simp at hne
    | cons e es =>
      simp only [sections_nonempty_list, Bool.and_eq_true] at hs'
      simp only [get_length_list]
      have h1 := ce_length_pos e hs'.1
      have h2 := get_length_list_nonneg es hs'.2
      omega
theorem get_length_list_nonneg :
    ∀ es : List SCodeElement, sections_nonempty_list es = true → 0 ≤ get_length_list es
  | [], _ => by simp [get_length_list]
  | e :: es, hs => by
    simp only [sections_nonempty_list, Bool.and_eq_true] at hs
    simp only [get_length_list]
    have h1 := ce_length_pos e hs.1
    have h2 := get_length_list_nonneg es hs.2
    omega
end

theorem len_sum_append (root : SCodeElement) (A B : List Handle) :
    len_sum root (A ++ B) = len_sum root A + len_sum root B := by
  simp [len_sum]

theorem len_sum_singleton (root : SCodeElement) (v : Handle) :
    len_sum root [v] = (elem_length root v).getD 0 := by
  simp [len_sum]

theorem offsets_from_append (root : SCodeElement) :
    ∀ (A B : List Handle) (o : Int),
      offsets_from root (A ++ B) o ↔
        offsets_from root A o ∧ offsets_from root B (o + len_sum root A)
  | [], B, o => by simp [offsets_from, len_sum]
  | v :: A, B, o => by
    have happ : (v :: A) ++ B = v :: (A ++ B) := rfl
    rw [happ]
    simp only [offsets_from]
    rw [offsets_from_append root A B]
    have hl : len_sum root (v :: A) = (elem_length root v).getD 0 + len_sum root A := by
      simp [len_sum]
    rw [hl, add_assoc]
    simp only [and_assoc]

theorem get_length_list_append (pre suf : List SCodeElement) :
    get_length_list (pre ++ suf) = get_length_list pre + get_length_list suf := by
  simp [get_length_list_eq_sum]

theorem file_offset_child {root : SCodeElement} {g : Handle} {t : Nat} {l : STxtLine}
    {info : SSecInfo} {pre : List SCodeElement} {c : SCodeElement} {rest : List SCodeElement}
    {o : Int} (hg : ce_at root g = some (.sec t l info (pre ++ c :: rest)))
    (hoff : get_file_offset root g = some o) (hc : c.type ≠ CDE_CODEBASE) :
    ce_file_offset root (pre.length :: g) = some (o + get_length_list pre) ∧
    get_file_offset root (pre.length :: g) = some (o + get_length_list pre) := by
  have hchild := ce_at_child hg
  constructor
  · simp only [ce_file_offset, hchild, hg, hoff, SCodeElement.ppElements]
    simp [hc, get_length_list_eq_sum]
  · simp only [get_file_offset, hchild, hg, hoff, SCodeElement.ppElements]
    simp [hc, get_length_list_eq_sum]

theorem type_of_no_codebase {c : SCodeElement} (h : no_codebase c = true) :
    c.type ≠ CDE_CODEBASE ∧ no_codebase_list c.ppElements = true := by
  cases c with
  | single t l =>
    simp only [no_codebase, bne_iff_ne, ne_eq] at h
    exact ⟨h, by simp [SCodeElement.ppElements, no_codebase_list]⟩
  | sec t l info es =>
    simp only [no_codebase, Bool.and_eq_true, bne_iff_ne, ne_eq] at h
    exact ⟨h.1, h.2⟩

mutual
theorem offsets_in (root : SCodeElement) :
    ∀ (c : SCodeElement) (h : Handle) (o : Int), ce_at root h = some c →
      get_file_offset root h = some o → sections_nonempty c = true →
      no_codebase_list c.ppElements = true →
      offsets_from root (addressable_in c h) o ∧
        (c.bSingle = false → len_sum root (addressable_in c h) = ce_length c)
  | .single _ _, h, o, _, _, _, _ => by
    simp [addressable_in, offsets_from, SCodeElement.bSingle]
  | .sec t l info es, h, o, hc, hoff, hs, hn => by
    simp only [addressable_in, ce_length]
    have h1 := offsets_list root es [] h t l info o (by simpa using hc) hoff
      (sections_nonempty_children hs).2 hn
    simp only [List.length_nil, get_length_list, add_zero] at h1
    exact ⟨h1.1, fun _ => h1.2⟩
theorem offsets_list (root : SCodeElement) :
    ∀ (suf pre : List SCodeElement) (g : Handle) (t : Nat) (l : STxtLine) (info : SSecInfo)
      (o : Int), ce_at root g = some (.sec t l info (pre ++ suf)) →
      get_file_offset root g = some o → sections_nonempty_list suf = true →
      no_codebase_list suf = true →
      offsets_from root (addressable_list suf pre.length g) (o + get_length_list pre) ∧
        len_sum root (addressable_list suf pre.length g) = get_length_list suf
  | [], _, _, _, _, _, _, _, _, _, _ => by
    simp [addressable_list, offsets_from, len_sum, get_length_list]
  | c :: rest, pre, g, t, l, info, o, hg, hoff, hs, hn => by
    simp only [sections_nonempty_list, Bool.and_eq_true] at hs
    simp only [no_codebase_list, Bool.and_eq_true] at hn
    obtain ⟨hty, hnc⟩ := type_of_no_codebase hn.1
    obtain ⟨hco, hgo⟩ := file_offset_child hg hoff hty
    have hchild := ce_at_child hg
    have hrest := offsets_list root rest (pre ++ [c]) g t l info o (by simpa using hg) hoff
      hs.2 hn.2
    simp only [List.length_append, List.length_singleton, get_length_list_append,
      get_length_list, add_zero] at hrest
    have hAc : offsets_from root
          (if c.bSingle = true ∨ c.bSummarized = true then [pre.length :: g]
            else addressable_in c (pre.length :: g)) (o + get_length_list pre) ∧
        len_sum root
          (if c.bSingle = true ∨ c.bSummarized = true then [pre.length :: g]
            else addressable_in c (pre.length :: g)) = ce_length c := by
      split_ifs with hadd
      · refine ⟨?_, ?_⟩
        · simp only [offsets_from, and_true]
          exact ⟨hco, c, hchild, ce_length_pos c hs.1, hadd⟩
        · simp [len_sum, elem_length, hchild]
      · have hb : c.bSingle = false := by
          cases hcb : c.bSingle with
          | true => exact absurd (Or.inl hcb) hadd
          | false => rfl
        have h2 := offsets_in root c (pre.length :: g) _ hchild hgo hs.1 hnc
        exact ⟨h2.1, h2.2 hb⟩
    rw [addressable_list_cons, offsets_from_append, len_sum_append, hAc.2]
    refine ⟨⟨hAc.1, ?_⟩, ?_⟩
    · rw [add_assoc]; exact hrest.1
    · rw [hrest.2]; simp [get_length_list]
end

/-! ## Index form of the facts about addressable elements -/

theorem linked_fwd_get (root : SCodeElement) :
    ∀ (A : List Handle) (fin : Option (Option Handle)), linked_fwd root A fin →
      ∀ (k : Nat) (v : Handle), A[k]? = some v →
        get_next_element_from root v true = fin_of A[k + 1]? fin
  | [], _, _, k, v, hv => by simp at hv
  | v0 :: rest, fin, hl, k, v, hv => by
    simp only [linked_fwd] at hl
    cases k with
    | zero =>
      simp only [List.getElem?_cons_zero, Option.some.injEq] at hv
      subst hv
      rw [hl.1, List.head?_eq_getElem?]
      simp
    | succ k =>
      simp only [List.getElem?_cons_succ] at hv
      have := linked_fwd_get root rest fin hl.2 k v hv
      simpa using this

theorem linked_bwd_get (root : SCodeElement) :
    ∀ (A : List Handle) (fin : Option (Option Handle)), linked_bwd root A fin →
      ∀ (k : Nat) (v : Handle), A[k]? = some v →
        get_next_element_from root v false = if k = 0 then fin else some A[k - 1]?
  | [], _, _, k, v, hv => by simp at hv
  | v0 :: rest, fin, hl, k, v, hv => by
    simp only [linked_bwd] at hl
    cases k with
    | zero =>
      simp only [List.getElem?_cons_zero, Option.some.injEq] at hv
      subst hv
      simp [hl.1]
    | succ k =>
      simp only [List.getElem?_cons_succ] at hv
      have h1 := linked_bwd_get root rest _ hl.2 k v hv
      rw [h1]
      cases k with
      | zero => simp
      | succ k => simp

theorem offsets_from_get (root : SCodeElement) :
    ∀ (A : List Handle) (o : Int), offsets_from root A o →
      ∀ (k : Nat) (v : Handle), A[k]? = some v →
        ce_file_offset root v = some (o + len_sum root (A.take k)) ∧
          ∃ e, ce_at root v = some e ∧ 1 ≤ ce_length e ∧
            (e.bSingle = true ∨ e.bSummarized = true)
  | [], _, _, k, v, hv => by simp at hv
  | v0 :: rest, o, ho, k, v, hv => by
    simp only [offsets_from] at ho
    cases k with
    | zero =>
      simp only [List.getElem?_cons_zero, Option.some.injEq] at hv
      subst hv
      simp [len_sum, ho.1, ho.2.1]
    | succ k =>
      simp only [List.getElem?_cons_succ] at hv
      have h1 := offsets_from_get root rest _ ho.2.2 k v hv
      refine ⟨?_, h1.2⟩
      rw [h1.1]
      simp [len_sum, add_assoc]

mutual
theorem addressable_in_length_le :
    ∀ (c : SCodeElement) (h : Handle), (addressable_in c h).length + 1 ≤ ce_count c
  | .single _ _, _ => by simp [addressable_in, ce_count]
  | .sec _ _ _ es, h => by
    simp only [addressable_in, ce_count]
    have := addressable_list_length_le es 0 h
    omega
theorem addressable_list_length_le :
    ∀ (es : List SCodeElement) (i : Nat) (h : Handle),
      (addressable_list es i h).length ≤ ce_count_list es
  | [], _, _ => by simp [addressable_list]
  | c :: es, i, h => by
    rw [addressable_list_cons, List.length_append]
    simp only [ce_count_list]
    have h1 := addressable_in_length_le c (i :: h)
    have h2 := addressable_list_length_le es (i + 1) h
    split_ifs
    · simp only [List.length_singleton]
      omega
    · omega
end

theorem fin_of_some_none (x : Option Handle) : fin_of x (some none) = some x := by
  cases x <;> rfl

/-- Every well-formed tree satisfies the walk facts. -/
theorem walk_facts_of_well_formed {root : SCodeElement} (hwf : well_formed root = true) :
    WalkFacts root := by
  cases root with
  | single t l => simp [well_formed] at hwf
  | sec t l info es =>
    simp only [well_formed, Bool.and_eq_true, beq_iff_eq, Bool.not_eq_true',
      List.isEmpty_eq_false] at hwf
    obtain ⟨⟨⟨hty, hne⟩, hs⟩, hn⟩ := hwf
    subst hty
    have hsn : sections_nonempty (.sec CDE_CODEBASE l info es) = true := by
      simp [sections_nonempty, hne, hs]
    have hat : ce_at (.sec CDE_CODEBASE l info es) [] = some (.sec CDE_CODEBASE l info es) := by
      simp [ce_at]
    have hfo : get_file_offset (.sec CDE_CODEBASE l info es) [] = some 0 := by
      simp [get_file_offset, SCodeElement.type]
    have hfwd := linked_fwd_in _ _ [] hat hsn
    have hbwd := linked_bwd_in _ _ [] hat hsn
    have hoff := offsets_in _ _ [] 0 hat hfo hsn hn
    simp only [get_next_element_from] at hfwd hbwd
    refine ⟨?_, ?_, ?_, ?_, ?_, ?_, ?_⟩
    · obtain ⟨w, hw, hw'⟩ := first_null_eq _ [] hsn rfl
      refine ⟨w, ?_, ?_⟩
      · rw [← List.head?_eq_getElem?]; exact hw'
      · simp [get_next_element, ce_at, hw]
    · intro k v hv
      have := linked_fwd_get _ _ _ hfwd k v hv
      rw [this, fin_of_some_none]
      rfl
    · intro k v hv
      have := linked_bwd_get _ _ _ hbwd k v hv
      rw [this]
      split_ifs <;> rfl
    · intro k v hv
      exact (offsets_from_get _ _ _ hoff.1 k v hv).2
    · intro k v hv
      have := (offsets_from_get _ _ _ hoff.1 k v hv).1
      rw [this]
      simp [psum, addressable]
    · have := hoff.2 rfl
      simp only [psum, List.take_length]
      exact this
    · have := addressable_in_length_le (.sec CDE_CODEBASE l info es) []
      simp only [addressable]
      omega

/-! ## Prefix sums of the addressable lengths -/

theorem psum_zero (root : SCodeElement) : psum root 0 = 0 := by
  simp [psum, len_sum]

theorem psum_succ {root : SCodeElement} (f : WalkFacts root) {k : Nat} {v : Handle}
    (hv : (addressable root)[k]? = some v) :
    ∃ e, ce_at root v = some e ∧ elem_length root v = some (ce_length e) ∧
      1 ≤ ce_length e ∧ psum root (k + 1) = psum root k + ce_length e := by
  obtain ⟨e, he, hpos, _⟩ := f.elem k v hv
  refine ⟨e, he, by simp [elem_length, he], hpos, ?_⟩
  simp only [psum, List.take_succ, hv, len_sum_append]
  simp [len_sum, elem_length, he]

theorem psum_add_le {root : SCodeElement} (f : WalkFacts root) (k : Nat) :
    ∀ d : Nat, k + d ≤ (addressable root).length → psum root k + d ≤ psum root (k + d)
  | 0, _ => by simp
  | d + 1, hd => by
    have h1 := psum_add_le f k d (by omega)
    have hlt : k + d < (addressable root).length := by omega
    obtain ⟨e, _, _, hpos, hs⟩ := psum_succ f (List.getElem?_eq_getElem hlt)
    rw [← add_assoc, hs]
    push_cast
    omega

theorem psum_lt_of_lt {root : SCodeElement} (f : WalkFacts root) {j k : Nat} (hjk : j < k)
    (hk : k ≤ (addressable root).length) : psum root j < psum root k := by
  have h := psum_add_le f j (k - j) (by omega)
  have h2 : j + (k - j) = k := by omega
  rw [h2] at h
  have h3 : (1 : Int) ≤ ((k - j : Nat) : Int) := by
    have : 1 ≤ k - j := by omega
    exact_mod_cast this
  omega

theorem psum_le_of_le {root : SCodeElement} (f : WalkFacts root) {j k : Nat} (hjk : j ≤ k)
    (hk : k ≤ (addressable root).length) : psum root j ≤ psum root k := by
  rcases Nat.lt_or_ge j k with h | h
  · exact le_of_lt (psum_lt_of_lt f h hk)
  · have : j = k := by omega
    rw [this]

theorem psum_nonneg {root : SCodeElement} (f : WalkFacts root) {k : Nat}
    (hk : k ≤ (addressable root).length) : 0 ≤ psum root k := by
  have := psum_le_of_le f (Nat.zero_le k) hk
  rw [psum_zero] at this
  exact this

/-- The index of the addressable element covering a line is unique. -/
theorem cover_unique {root : SCodeElement} (f : WalkFacts root) {j k : Nat} {loc : Int}
    (hj : j < (addressable root).length) (hk : k < (addressable root).length)
    (hj1 : psum root j ≤ loc) (hj2 : loc < psum root (j + 1))
    (hk1 : psum root k ≤ loc) (hk2 : loc < psum root (k + 1)) : j = k := by
  rcases Nat.lt_trichotomy j k with h | h | h
  · have := psum_le_of_le f (show j + 1 ≤ k by omega) (by omega)
    omega
  · exact h
  · have := psum_le_of_le f (show k + 1 ≤ j by omega) (by omega)
    omega

theorem cover_index_spec :
    ∀ (lens : List Int) (loc : Int), 0 ≤ loc → loc < lens.sum →
      cover_index lens loc < lens.length ∧
        (lens.take (cover_index lens loc)).sum ≤ loc ∧
        loc < (lens.take (cover_index lens loc + 1)).sum
  | [], loc, h0, h1 => by simp at h1; omega
  | n :: rest, loc, h0, h1 => by
    simp only [cover_index]
    split_ifs with hlt
    · simp [h0, hlt]
    · simp only [List.sum_cons] at h1
      obtain ⟨ha, hb, hc⟩ := cover_index_spec rest (loc - n) (by omega) (by omega)
      refine ⟨by simp only [List.length_cons]; omega, ?_, ?_⟩
      · rw [Nat.add_comm 1, List.take_succ_cons, List.sum_cons]
        omega
      · rw [Nat.add_comm 1, List.take_succ_cons, List.sum_cons]
        omega

theorem psum_eq_take (root : SCodeElement) (k : Nat) :
    psum root k = ((addressable_lengths root).take k).sum := by
  simp [psum, len_sum, addressable_lengths, List.map_take]

theorem cover_index_psum {root : SCodeElement} (f : WalkFacts root) {loc : Int}
    (h0 : 0 ≤ loc) (h1 : loc < ce_length root) :
    cover_index (addressable_lengths root) loc < (addressable root).length ∧
      psum root (cover_index (addressable_lengths root) loc) ≤ loc ∧
      loc < psum root (cover_index (addressable_lengths root) loc + 1) := by
  have hsum : (addressable_lengths root).sum = ce_length root := by
    rw [← f.total, psum_eq_take]
    have : (addressable root).length = (addressable_lengths root).length := by
      simp [addressable_lengths]
    rw [this, List.take_length]
  have := cover_index_spec (addressable_lengths root) loc h0 (by rw [hsum]; exact h1)
  rw [psum_eq_take, psum_eq_take]
  refine ⟨?_, this.2⟩
  have hl : (addressable root).length = (addressable_lengths root).length := by
    simp [addressable_lengths]
  rw [hl]
  exact this.1

/-! ## The search for the starting element -/

theorem seek_loop_spec {root : SCodeElement} (f : WalkFacts root) (loc : Int) :
    ∀ (fuel j : Nat) (v : Handle), (addressable root)[j]? = some v →
      (addressable root).length ≤ fuel + j → psum root j < loc →
      ∃ j' v' eos, seek_loop root loc fuel v (psum root (j + 1))
          = some (v', psum root (j' + 1), eos) ∧
        (addressable root)[j']? = some v' ∧ psum root j' < loc ∧
        (eos = false → loc ≤ psum root (j' + 1)) ∧
        (eos = true → j' + 1 = (addressable root).length ∧ psum root (j' + 1) < loc)
  | fuel, j, v, hv, hfuel, hlt => by
    have hj : j < (addressable root).length := by
      by_contra hcon
      rw [List.getElem?_eq_none (by omega)] at hv
      simp at hv
    unfold seek_loop
    by_cases hacc : psum root (j + 1) < loc
    · simp only [hacc, if_true]
      cases fuel with
      | zero => omega
      | succ fuel =>
        simp only [f.next j v hv]
        cases hnext : (addressable root)[j + 1]? with
        | none =>
          refine ⟨j, v, true, rfl, hv, hlt, by simp, fun _ => ⟨?_, hacc⟩⟩
          have := List.getElem?_eq_none_iff.1 hnext
          omega
        | some w =>
          obtain ⟨e, _, hlen, _, hs⟩ := psum_succ f hnext
          simp only [hlen]
          rw [← hs]
          exact seek_loop_spec f loc fuel (j + 1) w hnext (by omega) hacc
    · simp only [hacc, if_false]
      exact ⟨j, v, false, rfl, hv, hlt, fun _ => by omega, by simp⟩

/-- For a line inside the tree and a non-negative step count the search ends
on the addressable element covering the line, with the offset of its first
line. -/
theorem seek_start_forward {root : SCodeElement} (f : WalkFacts root) {loc steps : Int}
    (h0 : 0 ≤ loc) (h1 : loc < ce_length root) (hsteps : 0 ≤ steps) :
    ∃ s v, (addressable root)[s]? = some v ∧ psum root s ≤ loc ∧ loc < psum root (s + 1) ∧
      seek_start root [] loc steps = some (some v, psum root s - loc) := by
  obtain ⟨v0, hv0, hfirst⟩ := f.first
  obtain ⟨e0, he0, hlen0, hpos0, hs0⟩ := psum_succ f hv0
  simp only [psum_zero, zero_add] at hs0
  unfold seek_start
  simp only [hfirst]
  by_cases hloc : loc > 0
  · simp only [hloc, if_true, hlen0]
    obtain ⟨j, v, eos, hloop, hv, hlt, hfalse, htrue⟩ :=
      seek_loop_spec f loc (ce_count root) 0 v0 hv0 (by have := f.count; omega)
        (by rw [psum_zero]; exact hloc)
    simp only [zero_add, hs0] at hloop
    simp only [hloop]
    have heos : eos = false := by
      cases eos with
      | false => rfl
      | true =>
        obtain ⟨hm, hlt'⟩ := htrue rfl
        rw [hm, f.total] at hlt'
        omega
    subst heos
    have hle := hfalse rfl
    obtain ⟨e, he, hlen, hpos, hs⟩ := psum_succ f hv
    by_cases hgt : psum root (j + 1) > loc
    · simp only [hgt, if_true, ge_iff_le, hsteps, he]
      refine ⟨j, v, hv, le_of_lt hlt, hgt, ?_⟩
      cases e with
      | single t l =>
        simp only [ce_length] at hs
        omega
      | sec t l info es =>
        simp only [get_length, SCodeElement.ppElements]
        simp only [ce_length] at hs
        rw [hs]
        congr 2
        omega
    · have heq : psum root (j + 1) = loc := by omega
      simp only [hgt, if_false, Bool.not_false, if_true, ge_iff_le, hsteps, f.next j v hv]
      have hj1 : j + 1 < (addressable root).length := by
        by_contra hcon
        have hj : j < (addressable root).length := by
          by_contra hcon2
          rw [List.getElem?_eq_none (by omega)] at hv
          simp at hv
        have : j + 1 = (addressable root).length := by omega
        rw [this, f.total] at heq
        omega
      obtain ⟨e', _, _, hpos', hs'⟩ := psum_succ f (List.getElem?_eq_getElem hj1)
      refine ⟨j + 1, (addressable root)[j + 1], List.getElem?_eq_getElem hj1,
        le_of_eq heq, by omega, ?_⟩
      rw [List.getElem?_eq_getElem hj1, heq]
      simp
  · have hz : loc = 0 := by omega
    subst hz
    simp only [gt_iff_lt, lt_self_iff_false, if_false]
    exact ⟨0, v0, hv0, by rw [psum_zero], by rw [hs0]; omega, by rw [psum_zero]; simp⟩

theorem lt_length_of_getElem? {A : List Handle} {j : Nat} {v : Handle}
    (hv : A[j]? = some v) : j < A.length := by
  by_contra hcon
  rw [List.getElem?_eq_none (by omega)] at hv
  simp at hv

/-- For a line inside the tree and a negative step count the search ends on
the element that ends just before the line, with offset zero, or, when the
line lies strictly inside a summarized section, on that section with the
offset `lineLocation - accum`. -/
theorem seek_start_backward {root : SCodeElement} (f : WalkFacts root) {loc steps : Int}
    (h0 : 0 ≤ loc) (h1 : loc < ce_length root) (hsteps : steps < 0) :
    ∃ j v d, (addressable root)[j]? = some v ∧
      seek_start root [] loc steps = some (some v, d) ∧
      ((loc = 0 ∧ j = 0 ∧ d = 0) ∨ (0 < loc ∧ loc = psum root (j + 1) ∧ d = 0) ∨
        (psum root j < loc ∧ loc < psum root (j + 1) ∧ d = loc - psum root (j + 1))) := by
  obtain ⟨v0, hv0, hfirst⟩ := f.first
  obtain ⟨e0, he0, hlen0, hpos0, hs0⟩ := psum_succ f hv0
  simp only [psum_zero, zero_add] at hs0
  have hns : ¬ (steps ≥ 0) := by omega
  unfold seek_start
  simp only [hfirst]
  by_cases hloc : loc > 0
  · simp only [hloc, if_true, hlen0]
    obtain ⟨j, v, eos, hloop, hv, hlt, hfalse, htrue⟩ :=
      seek_loop_spec f loc (ce_count root) 0 v0 hv0 (by have := f.count; omega)
        (by rw [psum_zero]; exact hloc)
    simp only [zero_add, hs0] at hloop
    simp only [hloop]
    have heos : eos = false := by
      cases eos with
      | false => rfl
      | true =>
        obtain ⟨hm, hlt'⟩ := htrue rfl
        rw [hm, f.total] at hlt'
        omega
    subst heos
    have hle := hfalse rfl
    by_cases hgt : psum root (j + 1) > loc
    · simp only [hgt, if_true, hns, if_false]
      exact ⟨j, v, _, hv, rfl, Or.inr (Or.inr ⟨hlt, hgt, rfl⟩)⟩
    · have heq : psum root (j + 1) = loc := by omega
      simp only [hgt, if_false, Bool.not_false, if_true, hns]
      refine ⟨j, v, 0, hv, rfl, Or.inr (Or.inl ?_)⟩
      simp [heq]
  · have hz : loc = 0 := by omega
    subst hz
    simp only [gt_iff_lt, lt_self_iff_false, if_false]
    refine ⟨0, v0, 0, hv0, rfl, Or.inl ?_⟩
    simp

/-! ## The walks -/

theorem elem_length_root (root : SCodeElement) :
    elem_length root [] = some (ce_length root) := by
  simp [elem_length, ce_at]

theorem walk_forward_spec {root : SCodeElement} (f : WalkFacts root) (loc : Int) :
    ∀ (n s : Nat) (v : Handle), (addressable root)[s]? = some v →
      ∃ v', (addressable root)[min (s + n) ((addressable root).length - 1)]? = some v' ∧
        walk_forward root [] loc n (some v) (psum root s - loc) =
          some (some v', psum root (min (s + n) ((addressable root).length - 1)) - loc)
  | 0, s, v, hv => by
    have hs := lt_length_of_getElem? hv
    have hmin : min (s + 0) ((addressable root).length - 1) = s := by
      rw [Nat.add_zero]; exact Nat.min_eq_left (by omega)
    rw [hmin]
    exact ⟨v, hv, by simp [walk_forward]⟩
  | n + 1, s, v, hv => by
    have hs := lt_length_of_getElem? hv
    obtain ⟨e, _, hlen, hpos, hsucc⟩ := psum_succ f hv
    simp only [walk_forward, hlen, f.next s v hv]
    cases hnext : (addressable root)[s + 1]? with
    | none =>
      have hlast : s + 1 = (addressable root).length := by
        have := List.getElem?_eq_none_iff.1 hnext
        omega
      have hmin : min (s + (n + 1)) ((addressable root).length - 1) = s := by
        exact Nat.min_eq_right (by omega) |>.trans (by omega)
      rw [hmin]
      refine ⟨v, hv, ?_⟩
      simp only [elem_length_root]
      have ht := f.total
      rw [← hlast, hsucc] at ht
      congr 2
      omega
    | some w =>
      have hw := lt_length_of_getElem? hnext
      obtain ⟨v', hv', hwalk⟩ := walk_forward_spec f loc n (s + 1) w hnext
      have hidx : s + 1 + n = s + (n + 1) := by omega
      rw [hidx] at hv' hwalk
      refine ⟨v', hv', ?_⟩
      simp only
      rw [← hwalk, hsucc]
      congr 1
      omega

theorem walk_backward_spec {root : SCodeElement} (f : WalkFacts root) (loc : Int) :
    ∀ (n j : Nat) (v : Handle) (d : Int), (addressable root)[j]? = some v →
      walk_backward root loc n (some v) d =
        some (if n ≤ j then
            ((addressable root)[j - n]?, d - (psum root (j + 1) - psum root (j + 1 - n)))
          else ((addressable root)[0]?, -loc))
  | 0, j, v, d, hv => by simp [walk_backward, hv]
  | n + 1, j, v, d, hv => by
    have hj := lt_length_of_getElem? hv
    obtain ⟨e, _, hlen, hpos, hsucc⟩ := psum_succ f hv
    simp only [walk_backward, hlen, f.prev j v hv]
    cases j with
    | zero => simp [hv]
    | succ j =>
      have hjl : j < (addressable root).length := by omega
      have hq : (addressable root)[j]? = some (addressable root)[j] :=
        List.getElem?_eq_getElem hjl
      simp only [Nat.add_sub_cancel, Nat.succ_ne_zero, if_false, hq]
      rw [walk_backward_spec f loc n j _ _ hq]
      by_cases hn : n ≤ j
      · have h1 : n + 1 ≤ j + 1 := by omega
        have h2 : j + 1 - (n + 1) = j - n := by omega
        have h3 : j + 1 + 1 - (n + 1) = j + 1 - n := by omega
        simp only [hn, h1, if_true, h2, h3]
        congr 2
        omega
      · have h1 : ¬ (n + 1 ≤ j + 1) := by omega
        simp only [hn, h1, if_false]

/-! ## `get_element_at` on well-formed trees (C1, C3, C4) -/

/-- Forward and zero-step calls of `get_element_at` inside the tree: the result
is the addressable element `steps` places after the one covering `base`, the
last one when the walk is cut short, and `base + delta` is its file offset. -/
theorem get_element_at_forward {root : SCodeElement} (f : WalkFacts root) {base steps : Int}
    (h0 : 0 ≤ base) (h1 : base < ce_length root) (hsteps : 0 ≤ steps) :
    ∃ v, (addressable root)[min (cover_index (addressable_lengths root) base + steps.toNat)
          ((addressable root).length - 1)]? = some v ∧
      get_element_at root [] base steps =
        some (some v, psum root (min (cover_index (addressable_lengths root) base + steps.toNat)
          ((addressable root).length - 1)) - base) := by
  obtain ⟨s, v, hv, hs1, hs2, hseek⟩ := seek_start_forward f h0 h1 hsteps
  obtain ⟨hc0, hc1, hc2⟩ := cover_index_psum f h0 h1
  have hs := lt_length_of_getElem? hv
  have heq : s = cover_index (addressable_lengths root) base :=
    cover_unique f hs hc0 hs1 hs2 hc1 hc2
  rw [← heq]
  unfold get_element_at
  simp only [hseek]
  by_cases hpos : steps > 0
  · simp only [hpos, if_true]
    exact walk_forward_spec f base steps.toNat s v hv
  · have hz : steps = 0 := by omega
    subst hz
    have hmin : min (s + (0 : Int).toNat) ((addressable root).length - 1) = s := by
      simp only [Int.toNat_zero, Nat.add_zero]
      exact Nat.min_eq_left (by omega)
    rw [hmin]
    exact ⟨v, hv, by simp⟩

/-- C1 (amended): for every addressable element `e` of a well-formed tree (a
single-line element or summarized section reached through unsummarized
sections only), `get_element_at(ce_file_offset(e), 0, &d)` on the root section
returns `e` itself and sets `d` to 0. -/
theorem get_element_at_file_offset (root : SCodeElement) (hwf : well_formed root = true)
    (e : Handle) (he : e ∈ addressable root) :
    ∃ off, ce_file_offset root e = some off ∧
      get_element_at root [] off 0 = some (some e, 0) := by
  have f := walk_facts_of_well_formed hwf
  obtain ⟨k, hk⟩ := List.mem_iff_getElem?.1 he
  have hkl := lt_length_of_getElem? hk
  refine ⟨psum root k, f.off k e hk, ?_⟩
  obtain ⟨e', _, _, hpos, hsucc⟩ := psum_succ f hk
  have h0 : 0 ≤ psum root k := psum_nonneg f (by omega)
  have h1 : psum root k < ce_length root := by
    rw [← f.total]
    exact psum_lt_of_lt f hkl (le_refl _)
  obtain ⟨s, v, hv, hs1, hs2, hseek⟩ := seek_start_forward f h0 h1 (le_refl (0 : Int))
  have hs := lt_length_of_getElem? hv
  have heq : s = k := cover_unique f hs hkl hs1 hs2 (le_refl _) (by omega)
  subst heq
  rw [hk] at hv
  simp only [Option.some.injEq] at hv
  subst hv
  unfold get_element_at
  simp [hseek]

/-- Witness of C1 (amended) on `sample_tree`: the folded inner section of the
function. -/
theorem get_element_at_file_offset_witness :
    ∃ off, ce_file_offset sample_tree [1, 1, 0, 1] = some off ∧
      get_element_at sample_tree [] off 0 = some (some [1, 1, 0, 1], 0) :=
  get_element_at_file_offset sample_tree (by decide) [1, 1, 0, 1] (by decide)

/-- Counterexample to C1 as stated, on the well-formed `sample_tree`: the
unfolded block `[1]` starts at line 2, where `get_element_at` returns the first
line inside it; the line `g();` inside the folded inner section is line 5,
where `get_element_at` returns that section with `d = -1`. -/
theorem get_element_at_file_offset_counterexample :
    well_formed sample_tree = true ∧
    (ce_at sample_tree [1]).isSome = true ∧
    ce_file_offset sample_tree [1] = some 2 ∧
    get_element_at sample_tree [] 2 0 = some (some [0, 0, 1], 0) ∧
    (ce_at sample_tree [1, 1, 1, 0, 1]).isSome = true ∧
    ce_file_offset sample_tree [1, 1, 1, 0, 1] = some 5 ∧
    get_element_at sample_tree [] 5 0 = some (some [1, 1, 0, 1], -1) := by
  decide

/-- C3 at a failing input: on the flat tree of four lines, walking one step
back from line 2 returns the element at line 0 together with `delta = -1`, so
`base + delta = 1` is not the file offset of the returned element. -/
theorem get_element_at_backward_mismatch :
    well_formed flat_tree = true ∧
    get_element_at flat_tree [] 2 (-1) = some (some [0], -1) ∧
    ce_file_offset flat_tree [0] = some 0 := by
  decide

/-- For non-negative step counts the relation of C3 holds: `base + delta` is
the file offset of the returned element. -/
theorem get_element_at_forward_offset (root : SCodeElement) (hwf : well_formed root = true)
    (base steps : Int) (h0 : 0 ≤ base) (h1 : base < get_length root) (hsteps : 0 ≤ steps) :
    ∃ r delta, get_element_at root [] base steps = some (some r, delta) ∧
      ce_file_offset root r = some (base + delta) := by
  have f := walk_facts_of_well_formed hwf
  have h1' : base < ce_length root := by
    cases root with
    | single t l => simp [well_formed] at hwf
    | sec t l info es => simpa [get_length, ce_length, SCodeElement.ppElements] using h1
  obtain ⟨v, hv, hget⟩ := get_element_at_forward f h0 h1' hsteps
  refine ⟨v, _, hget, ?_⟩
  rw [f.off _ v hv]
  congr 1
  omega

theorem ce_length_eq_get_length {root : SCodeElement} (hwf : well_formed root = true) :
    ce_length root = get_length root := by
  cases root with
  | single t l => simp [well_formed] at hwf
  | sec t l info es => simp [get_length, ce_length, SCodeElement.ppElements]

theorem get_element_at_backward {root : SCodeElement} (f : WalkFacts root) {base steps : Int}
    (h0 : 0 ≤ base) (h1 : base < ce_length root) (hsteps : steps < 0) :
    ∃ j v d, (addressable root)[j]? = some v ∧
      ((base = 0 ∧ j = 0 ∧ d = 0) ∨ (0 < base ∧ base = psum root (j + 1) ∧ d = 0) ∨
        (psum root j < base ∧ base < psum root (j + 1) ∧ d = base - psum root (j + 1))) ∧
      get_element_at root [] base steps =
        some (if (-steps).toNat ≤ j then
            ((addressable root)[j - (-steps).toNat]?,
              d - (psum root (j + 1) - psum root (j + 1 - (-steps).toNat)))
          else ((addressable root)[0]?, -base)) := by
  obtain ⟨j, v, d, hv, hseek, hcases⟩ := seek_start_backward f h0 h1 hsteps
  refine ⟨j, v, d, hv, hcases, ?_⟩
  unfold get_element_at
  have h2 : ¬ (steps > 0) := by omega
  simp only [hseek, h2, if_false, hsteps, if_true]
  exact walk_backward_spec f base (-steps).toNat j v d hv

/-- C4 (amended): on a well-formed tree and for `0 <= base < get_length(root)`,
with `s` the index of the addressable element covering `base`:
when a forward walk would run past the last addressable element, that element
is returned and `base + delta` is its file offset,
`get_length(root) - ce_length(last)` (which is `get_length(root) - 1` exactly
when the last addressable element is a single line);
when a backward walk would run past the first addressable element, that
element is returned and `base + delta = 0`;
and `0 <= base + delta <= get_length(root) - 1` for every non-negative step
count, and for every negative step count when `base` is the file offset of an
addressable element. -/
theorem get_element_at_clamp (root : SCodeElement) (hwf : well_formed root = true)
    (base steps : Int) (h0 : 0 ≤ base) (h1 : base < get_length root) :
    (0 < steps →
      (addressable root).length - 1 < cover_index (addressable_lengths root) base + steps.toNat →
      ∃ last e, (addressable root).getLast? = some last ∧ ce_at root last = some e ∧
        get_element_at root [] base steps =
          some (some last, get_length root - ce_length e - base)) ∧
    (steps < 0 → cover_index (addressable_lengths root) base < (-steps).toNat →
      ∃ first, (addressable root).head? = some first ∧
        get_element_at root [] base steps = some (some first, -base)) ∧
    ((0 ≤ steps ∨ ∃ e ∈ addressable root, ce_file_offset root e = some base) →
      ∃ r delta, get_element_at root [] base steps = some (some r, delta) ∧
        0 ≤ base + delta ∧ base + delta ≤ get_length root - 1) := by
  have f := walk_facts_of_well_formed hwf
  have hlen := ce_length_eq_get_length hwf
  rw [← hlen] at h1 ⊢
  obtain ⟨hc0, hc1, hc2⟩ := cover_index_psum f h0 h1
  have hfwd : 0 ≤ steps → ∃ r delta, get_element_at root [] base steps = some (some r, delta) ∧
      0 ≤ base + delta ∧ base + delta ≤ ce_length root - 1 := by
    intro hsteps
    obtain ⟨v, hv, hget⟩ := get_element_at_forward f h0 h1 hsteps
    have hk := lt_length_of_getElem? hv
    refine ⟨v, _, hget, ?_, ?_⟩
    · have := psum_nonneg f (le_of_lt hk)
      omega
    · have := psum_lt_of_lt f hk (le_refl _)
      rw [f.total] at this
      omega
  refine ⟨?_, ?_, ?_⟩
  · intro hsteps hpast
    obtain ⟨v, hv, hget⟩ := get_element_at_forward f h0 h1 (le_of_lt hsteps)
    have hmin : min (cover_index (addressable_lengths root) base + steps.toNat)
        ((addressable root).length - 1) = (addressable root).length - 1 :=
      Nat.min_eq_right (le_of_lt hpast)
    rw [hmin] at hv hget
    obtain ⟨e, he, _, _, hsucc⟩ := psum_succ f hv
    have hm : (addressable root).length - 1 + 1 = (addressable root).length := by omega
    rw [hm, f.total] at hsucc
    refine ⟨v, e, ?_, he, ?_⟩
    · rw [List.getLast?_eq_getElem?]; exact hv
    · rw [hget]
      congr 2
      omega
  · intro hsteps hpast
    obtain ⟨j, v, d, hv, hcases, hget⟩ := get_element_at_backward f h0 h1 hsteps
    have hj := lt_length_of_getElem? hv
    have hjn : ¬ ((-steps).toNat ≤ j) := by
      rcases hcases with ⟨hb, hj0, _⟩ | ⟨hb, hb2, _⟩ | ⟨hb1, hb2, _⟩
      · omega
      · have hj1 : j + 1 < (addressable root).length := by
          by_contra hcon
          have : j + 1 = (addressable root).length := by omega
          rw [this, f.total] at hb2
          omega
        obtain ⟨_, _, _, hpos, hsucc⟩ := psum_succ f (List.getElem?_eq_getElem hj1)
        have := cover_unique f hj1 hc0 (le_of_eq hb2.symm) (by omega) hc1 hc2
        omega
      · have := cover_unique f hj hc0 (le_of_lt hb1) hb2 hc1 hc2
        omega
    simp only [hjn, if_false] at hget
    have h0l : 0 < (addressable root).length := by omega
    refine ⟨(addressable root)[0], ?_, ?_⟩
    · rw [List.head?_eq_getElem?]; exact List.getElem?_eq_getElem h0l
    · rw [hget, List.getElem?_eq_getElem h0l]
  · rintro (hsteps | ⟨e, he, hoff⟩)
    · exact hfwd hsteps
    · by_cases hsteps : 0 ≤ steps
      · exact hfwd hsteps
      · obtain ⟨k, hk⟩ := List.mem_iff_getElem?.1 he
        have hkl := lt_length_of_getElem? hk
        have hbase : base = psum root k := by
          have := f.off k e hk
          rw [hoff] at this
          simpa using this
        obtain ⟨j, v, d, hv, hcases, hget⟩ :=
          get_element_at_backward f h0 h1 (by omega : steps < 0)
        have hj := lt_length_of_getElem? hv
        have hd : d = 0 ∧ (base = 0 ∨ base = psum root (j + 1)) := by
          rcases hcases with ⟨hb, _, hd⟩ | ⟨_, hb2, hd⟩ | ⟨hb1, hb2, _⟩
          · exact ⟨hd, Or.inl hb⟩
          · exact ⟨hd, Or.inr hb2⟩
          · exfalso
            obtain ⟨_, _, _, hpos, hsucc⟩ := psum_succ f hk
            have hjk := cover_unique f hj hkl (le_of_lt hb1) hb2 (le_of_eq hbase.symm)
              (by omega)
            subst hjk
            omega
        obtain ⟨hd0, hb⟩ := hd
        subst hd0
        have h0l : 0 < (addressable root).length := by omega
        by_cases hn : (-steps).toNat ≤ j
        · simp only [hn, if_true] at hget
          have hjn : j - (-steps).toNat < (addressable root).length := by omega
          rw [List.getElem?_eq_getElem hjn] at hget
          refine ⟨_, _, hget, ?_, ?_⟩
          · rcases hb with hb | hb
            · have h3 := psum_le_of_le f (show j + 1 - (-steps).toNat ≤ j + 1 by omega)
                (by omega)
              have h4 := psum_nonneg f (show j + 1 - (-steps).toNat ≤ _ by omega)
              have h5 := psum_nonneg f (show j + 1 ≤ (addressable root).length by omega)
              have h6 := psum_lt_of_lt f (show 0 < j + 1 by omega) (by omega)
              rw [psum_zero] at h6
              omega
            · have h4 := psum_nonneg f (show j + 1 - (-steps).toNat ≤ _ by omega)
              omega
          · have hpos : 1 ≤ (-steps).toNat := by omega
            have h3 := psum_lt_of_lt f
              (show j + 1 - (-steps).toNat < (addressable root).length by omega) (le_refl _)
            rw [f.total] at h3
            rcases hb with hb | hb
            · have h6 := psum_lt_of_lt f (show 0 < j + 1 by omega) (by omega)
              rw [psum_zero] at h6
              have h7 := psum_le_of_le f (show j + 1 - (-steps).toNat ≤ j + 1 by omega)
                (by omega)
              omega
            · omega
        · simp only [hn, if_false] at hget
          rw [List.getElem?_eq_getElem h0l] at hget
          exact ⟨_, _, hget, by omega, by omega⟩

/-- Witness of C4 (amended) on `folded_tree`: five steps forward from line 0 end
on the last line, and four steps back from line 3 end on the first line. -/
theorem get_element_at_clamp_witness :
    (∃ last e, (addressable folded_tree).getLast? = some last ∧
      ce_at folded_tree last = some e ∧
      get_element_at folded_tree [] 0 5 =
        some (some last, get_length folded_tree - ce_length e - 0)) ∧
    (∃ first, (addressable folded_tree).head? = some first ∧
      get_element_at folded_tree [] 3 (-4) = some (some first, -3)) :=
  ⟨(get_element_at_clamp folded_tree (by decide) 0 5 (by decide) (by decide)).1
      (by decide) (by decide),
    (get_element_at_clamp folded_tree (by decide) 3 (-4) (by decide) (by decide)).2.1
      (by decide) (by decide)⟩

/-- Counterexample to C4 as stated.  On `sample_tree` (12 lines, the last
addressable element being a folded block of two lines) a walk of 100 steps from
line 0 ends with `base + delta = 10`, not `get_length(root) - 1 = 11`.  On
`folded_tree` one step back from line 2, which lies inside the folded function,
gives `base + delta = -1`, out of range. -/
theorem get_element_at_clamp_counterexample :
    well_formed sample_tree = true ∧ get_length sample_tree = 12 ∧
    get_element_at sample_tree [] 0 100 = some (some [2], 10) ∧
    well_formed folded_tree = true ∧ get_length folded_tree = 4 ∧
    get_element_at folded_tree [] 2 (-1) = some (some [0], -3) := by
  decide

/-! ## Symbol resolution (C8, C9) -/

/-- C8 at a failing input.  In `inline_tree` the function `g` is defined inside
the body of struct `Baz`; its scope declares `Foo *f`, and class `Foo` is
registered with the member function `bar`.  With the caret on the word
`f->bar` of the line `  f->bar();` (a line directly in the body of `g`)
`get_requested_element` returns `NULL` instead of the location of `bar`: the
sibling-function check has shortened the word to `bar` before the dereference
chain is resolved.  In `deref_tree`, where the same function stands alone, the
location of `bar` is returned for both `f->bar()` and `f.bar()`. -/
theorem get_requested_element_inline_method :
    (ce_at inline_tree [2, 1, 0]).map SCodeElement.pLine = some "  f->bar();".toList ∧
    tl_get_word_at "  f->bar();".toList 4 = some "f->bar".toList ∧
    get_requested_element inline_tree [2, 1, 0] 4 inline_symbols 0 = some (none, 0) ∧
    get_requested_element deref_tree [2, 1] 4 deref_symbols 0 = some (some bar_location, 0) ∧
    get_requested_element deref_tree [3, 1] 3 deref_symbols 0 = some (some bar_location, 0) := by
  decide

/-- C9 at failing inputs: with no symbol matching, `get_requested_element`
faults (a null `pContainer` is dereferenced) for a line directly under the
codebase root (`flat_tree`, line `a`) and for a line outside any function
definition (`sample_tree`, the declaration `int x;` in the second sub-block). -/
theorem get_requested_element_faults :
    get_requested_element flat_tree [0] 0 no_symbols 0 = none ∧
    (ce_at sample_tree [1, 1, 1]).map SCodeElement.pLine = some "int x;".toList ∧
    get_requested_element sample_tree [1, 1, 1] 4 no_symbols 0 = none := by
  decide

/-! ## Fold-independent facts used by the goto handler -/

mutual
theorem sections_nonempty_erase_flags :
    ∀ e : SCodeElement, sections_nonempty (erase_flags e) = sections_nonempty e
  | .single _ _ => by simp [erase_flags]
  | .sec _ _ _ es => by
    simp only [erase_flags, sections_nonempty]
    rw [sections_nonempty_list_erase_flags es]
    cases es <;> simp [erase_flags_list]
theorem sections_nonempty_list_erase_flags :
    ∀ es : List SCodeElement,
      sections_nonempty_list (erase_flags_list es) = sections_nonempty_list es
  | [] => by simp [erase_flags_list]
  | e :: es => by
    simp only [erase_flags_list, sections_nonempty_list]
    rw [sections_nonempty_erase_flags e, sections_nonempty_list_erase_flags es]
end

mutual
theorem no_codebase_erase_flags :
    ∀ e : SCodeElement, no_codebase (erase_flags e) = no_codebase e
  | .single _ _ => by simp [erase_flags]
  | .sec _ _ _ es => by
    simp only [erase_flags, no_codebase]
    rw [no_codebase_list_erase_flags es]
theorem no_codebase_list_erase_flags :
    ∀ es : List SCodeElement, no_codebase_list (erase_flags_list es) = no_codebase_list es
  | [] => by simp [erase_flags_list]
  | e :: es => by
    simp only [erase_flags_list, no_codebase_list]
    rw [no_codebase_erase_flags e, no_codebase_list_erase_flags es]
end

theorem well_formed_erase_flags (root : SCodeElement) :
    well_formed (erase_flags root) = well_formed root := by
  cases root with
  | single t l => simp [erase_flags, well_formed]
  | sec t l info es =>
    simp only [erase_flags, well_formed]
    rw [sections_nonempty_list_erase_flags es, no_codebase_list_erase_flags es]
    cases es <;> simp [erase_flags_list]

theorem well_formed_of_erase_eq {a b : SCodeElement} (hab : erase_flags a = erase_flags b)
    (ha : well_formed a = true) : well_formed b = true := by
  rw [← well_formed_erase_flags, ← hab, well_formed_erase_flags]
  exact ha

mutual
theorem addressable_in_ne_nil :
    ∀ (c : SCodeElement) (h : Handle) (v : Handle), v ∈ addressable_in c h → v ≠ []
  | .single _ _, _, v, hv => by simp [addressable_in] at hv
  | .sec _ _ _ es, h, v, hv => by
    simp only [addressable_in] at hv
    exact addressable_list_ne_nil_handle es 0 h v hv
theorem addressable_list_ne_nil_handle :
    ∀ (es : List SCodeElement) (i : Nat) (h : Handle) (v : Handle),
      v ∈ addressable_list es i h → v ≠ []
  | [], _, _, v, hv => by simp [addressable_list] at hv
  | c :: es, i, h, v, hv => by
    rw [addressable_list_cons, List.mem_append] at hv
    rcases hv with hv | hv
    · split_ifs at hv
      · simp only [List.mem_singleton] at hv
        rw [hv]
        simp
      · exact addressable_in_ne_nil c (i :: h) v hv
    · exact addressable_list_ne_nil_handle es (i + 1) h v hv
end

/-- An addressable element is held by a section, exists, and is a single line
or a summarized section. -/
theorem addressable_elem {root : SCodeElement} (f : WalkFacts root) {v : Handle}
    (hv : v ∈ addressable root) :
    ∃ i h e, v = i :: h ∧ ce_at root v = some e ∧
      (e.bSingle = true ∨ e.bSummarized = true) := by
  obtain ⟨k, hk⟩ := List.mem_iff_getElem?.1 hv
  obtain ⟨e, he, _, hkind⟩ := f.elem k v hk
  have hne := addressable_in_ne_nil root [] v hv
  cases v with
  | nil => exact absurd rfl hne
  | cons i h => exact ⟨i, h, e, rfl, he, hkind⟩

/-! ## Calls of `get_element_at` that return -/

theorem get_element_at_forward_range {root : SCodeElement} (f : WalkFacts root)
    {base steps : Int} (h0 : 0 ≤ base) (h1 : base < ce_length root) (hsteps : 0 ≤ steps) :
    ∃ r delta, get_element_at root [] base steps = some (some r, delta) ∧
      r ∈ addressable root ∧ 0 ≤ base + delta ∧ base + delta < ce_length root ∧
      (steps = 0 → delta ≤ 0) := by
  obtain ⟨v, hv, hget⟩ := get_element_at_forward f h0 h1 hsteps
  obtain ⟨_, hc1, _⟩ := cover_index_psum f h0 h1
  have hk := lt_length_of_getElem? hv
  refine ⟨v, _, hget, List.mem_iff_getElem?.2 ⟨_, hv⟩, ?_, ?_, ?_⟩
  · have := psum_nonneg f (le_of_lt hk)
    omega
  · have := psum_lt_of_lt f hk (le_refl _)
    rw [f.total] at this
    omega
  · intro hz
    subst hz
    have hmin : min (cover_index (addressable_lengths root) base + (0 : Int).toNat)
        ((addressable root).length - 1) = cover_index (addressable_lengths root) base := by
      simp only [Int.toNat_zero, Nat.add_zero]
      have := (cover_index_psum f h0 h1).1
      exact Nat.min_eq_left (by omega)
    rw [hmin]
    omega

theorem walk_forward_total {root : SCodeElement} (f : WalkFacts root) (loc : Int) :
    ∀ (n s : Nat) (v : Handle) (off : Int), (addressable root)[s]? = some v →
      ∃ v' d, walk_forward root [] loc n (some v) off = some (some v', d) ∧
        v' ∈ addressable root
  | 0, s, v, off, hv => ⟨v, off, by simp [walk_forward], List.mem_iff_getElem?.2 ⟨s, hv⟩⟩
  | n + 1, s, v, off, hv => by
    obtain ⟨e, _, hlen, _, _⟩ := psum_succ f hv
    simp only [walk_forward, hlen, f.next s v hv]
    cases hnext : (addressable root)[s + 1]? with
    | none =>
      simp only [elem_length_root]
      exact ⟨v, _, rfl, List.mem_iff_getElem?.2 ⟨s, hv⟩⟩
    | some w => exact walk_forward_total f loc n (s + 1) w _ hnext

/-- A call with a non-negative step count and a line before the end of the
tree returns an addressable element. -/
theorem get_element_at_total {root : SCodeElement} (f : WalkFacts root) {base steps : Int}
    (h1 : base < ce_length root) (hsteps : 0 ≤ steps) :
    ∃ r delta, get_element_at root [] base steps = some (some r, delta) ∧
      r ∈ addressable root := by
  by_cases h0 : 0 ≤ base
  · obtain ⟨r, d, hget, hr, _⟩ := get_element_at_forward_range f h0 h1 hsteps
    exact ⟨r, d, hget, hr⟩
  · obtain ⟨v0, hv0, hfirst⟩ := f.first
    have hloc : ¬ (base > 0) := by omega
    unfold get_element_at seek_start
    simp only [hfirst, hloc, if_false]
    by_cases hpos : steps > 0
    · simp only [hpos, if_true]
      exact walk_forward_total f base steps.toNat 0 v0 0 hv0
    · have hneg : ¬ (steps < 0) := by omega
      simp only [hpos, hneg, if_false]
      exact ⟨v0, 0, rfl, List.mem_iff_getElem?.2 ⟨0, hv0⟩⟩

/-- A call with a non-positive step count and a line inside the tree returns,
with a non-positive offset. -/
theorem get_element_at_nonpos_steps {root : SCodeElement} (f : WalkFacts root)
    {base steps : Int} (h0 : 0 ≤ base) (h1 : base < ce_length root) (hsteps : steps ≤ 0) :
    ∃ r delta, get_element_at root [] base steps = some (r, delta) ∧ delta ≤ 0 := by
  by_cases hz : steps = 0
  · obtain ⟨r, d, hget, _, _, _, hd⟩ := get_element_at_forward_range f h0 h1 (le_of_eq hz.symm)
    exact ⟨some r, d, hget, hd hz⟩
  · obtain ⟨j, v, d, hv, hcases, hget⟩ :=
      get_element_at_backward f h0 h1 (by omega : steps < 0)
    have hj := lt_length_of_getElem? hv
    have hd : d ≤ 0 := by
      rcases hcases with ⟨_, _, hd⟩ | ⟨_, _, hd⟩ | ⟨_, hb2, hd⟩ <;> omega
    by_cases hn : (-steps).toNat ≤ j
    · simp only [hn, if_true] at hget
      have := psum_le_of_le f (show j + 1 - (-steps).toNat ≤ j + 1 by omega) (by omega)
      exact ⟨_, _, hget, by omega⟩
    · simp only [hn, if_false] at hget
      exact ⟨_, _, hget, by omega⟩

/-- A backward walk started at the first line of an addressable element stays
inside the file. -/
theorem get_element_at_backward_start {root : SCodeElement} (f : WalkFacts root)
    {base steps : Int} {p : Handle} (h0 : 0 ≤ base) (h1 : base < ce_length root)
    (hstart : get_element_at root [] base 0 = some (some p, 0)) (hsteps : steps ≤ 0) :
    ∃ r delta, get_element_at root [] base steps = some (r, delta) ∧ delta ≤ 0 ∧
      0 ≤ base + delta := by
  by_cases hz : steps = 0
  · obtain ⟨r, d, hget, _, hlo, _, hd⟩ := get_element_at_forward_range f h0 h1 (le_of_eq hz.symm)
    exact ⟨some r, d, hget, hd hz, hlo⟩
  · obtain ⟨hci, hc1, hc2⟩ := cover_index_psum f h0 h1
    obtain ⟨v0, _, hfw⟩ := get_element_at_forward f h0 h1 (le_refl (0 : Int))
    have hmin : min (cover_index (addressable_lengths root) base + (0 : Int).toNat)
        ((addressable root).length - 1) = cover_index (addressable_lengths root) base := by
      simp only [Int.toNat_zero, Nat.add_zero]
      omega
    rw [hmin, hstart] at hfw
    have hbase : psum root (cover_index (addressable_lengths root) base) = base := by
      simp only [Option.some.injEq, Prod.mk.injEq] at hfw
      omega
    obtain ⟨j, v, d, hv, hcases, hget⟩ :=
      get_element_at_backward f h0 h1 (by omega : steps < 0)
    have hj := lt_length_of_getElem? hv
    by_cases hn : (-steps).toNat ≤ j
    · simp only [hn, if_true] at hget
      have hle := psum_le_of_le f (show j + 1 - (-steps).toNat ≤ j + 1 by omega) (by omega)
      have hnn := psum_nonneg f (show j + 1 - (-steps).toNat ≤ (addressable root).length by omega)
      rcases hcases with ⟨_, hj0, hd⟩ | ⟨_, hb, hd⟩ | ⟨hb1, hb2, hd⟩
      · exact ⟨_, _, hget, by omega, by omega⟩
      · exact ⟨_, _, hget, by omega, by omega⟩
      · exfalso
        rcases Nat.lt_or_ge j (cover_index (addressable_lengths root) base) with hlt | hge
        · have := psum_le_of_le f (show j + 1 ≤ cover_index (addressable_lengths root) base
            by omega) (by omega)
          omega
        · have := psum_le_of_le f hge (by omega)
          omega
    · simp only [hn, if_false] at hget
      exact ⟨_, _, hget, by omega, by omega⟩

/-! ## The unfolding loops of the goto handler return -/

mutual
theorem num_summarized_le_count : ∀ e : SCodeElement, num_summarized e ≤ ce_count e
  | .single _ _ => by simp [num_summarized]
  | .sec _ _ info es => by
    simp only [num_summarized, ce_count]
    have := num_summarized_list_le_count es
    split_ifs <;> omega
theorem num_summarized_list_le_count :
    ∀ es : List SCodeElement, num_summarized_list es ≤ ce_count_list es
  | [] => by simp [num_summarized_list]
  | e :: es => by
    simp only [num_summarized_list, ce_count_list]
    have h1 := num_summarized_le_count e
    have h2 := num_summarized_list_le_count es
    omega
end

theorem num_summarized_list_set :
    ∀ (es : List SCodeElement) (i : Nat) (p : List Nat) (b : Bool) (c : SCodeElement),
      es[i]? = some c →
      num_summarized_list (set_along_list es i p b) + num_summarized c =
        num_summarized_list es + num_summarized (set_along c p b)
  | [], i, p, b, c, hc => by simp at hc
  | e :: es, 0, p, b, c, hc => by
    simp only [List.getElem?_cons_zero, Option.some.injEq] at hc
    subst hc
    simp only [set_along_list, num_summarized_list]
    omega
  | e :: es, i + 1, p, b, c, hc => by
    simp only [List.getElem?_cons_succ] at hc
    have := num_summarized_list_set es i p b c hc
    simp only [set_along_list, num_summarized_list]
    omega

theorem num_summarized_set_along :
    ∀ (p : List Nat) (e s : SCodeElement), ce_at_path e p = some s → s.bSummarized = true →
      num_summarized (set_along e p false) + 1 = num_summarized e
  | [], e, s, hs, hb => by
    simp only [ce_at_path, Option.some.injEq] at hs
    subst hs
    cases e with
    | single t l => simp [SCodeElement.bSummarized] at hb
    | sec t l info es =>
      simp only [SCodeElement.bSummarized] at hb
      simp [set_along, num_summarized, hb]
      omega
  | i :: p, e, s, hs, hb => by
    cases e with
    | single t l => simp [ce_at_path] at hs
    | sec t l info es =>
      simp only [ce_at_path] at hs
      cases hi : es[i]? with
      | none => simp [hi] at hs
      | some c =>
        simp only [hi] at hs
        have h1 := num_summarized_set_along p c s hs hb
        have h2 := num_summarized_list_set es i p false c hi
        simp only [set_along, num_summarized]
        omega

theorem num_summarized_set_summarized {root : SCodeElement} {v : Handle} {e : SCodeElement}
    (he : ce_at root v = some e) (hb : e.bSummarized = true) :
    num_summarized (set_summarized root v false) + 1 = num_summarized root := by
  rw [ce_at_eq_path] at he
  exact num_summarized_set_along v.reverse root e he hb

/-- A zero-step call inside the tree: the returned element is addressable,
covers the line, and the offset leads back to its first line. -/
theorem get_element_at_zero {root : SCodeElement} (f : WalkFacts root) {base : Int}
    (h0 : 0 ≤ base) (h1 : base < ce_length root) :
    ∃ r delta e, get_element_at root [] base 0 = some (some r, delta) ∧
      r ∈ addressable root ∧ ce_at root r = some e ∧
      (e.bSingle = true ∨ e.bSummarized = true) ∧ delta ≤ 0 ∧ -delta < ce_length e := by
  obtain ⟨v, hv, hget⟩ := get_element_at_forward f h0 h1 (le_refl (0 : Int))
  obtain ⟨hc0, hc1, hc2⟩ := cover_index_psum f h0 h1
  have hmin : min (cover_index (addressable_lengths root) base + (0 : Int).toNat)
      ((addressable root).length - 1) = cover_index (addressable_lengths root) base := by
    simp only [Int.toNat_zero, Nat.add_zero]
    exact Nat.min_eq_left (by omega)
  rw [hmin] at hv hget
  obtain ⟨e, he, _, hkind⟩ := f.elem _ v hv
  obtain ⟨e', he', _, _, hsucc⟩ := psum_succ f hv
  rw [he] at he'
  simp only [Option.some.injEq] at he'
  subst he'
  exact ⟨v, _, e, hget, List.mem_iff_getElem?.2 ⟨_, hv⟩, he, hkind, by omega, by omega⟩

theorem bSingle_length {e : SCodeElement} (h : e.bSingle = true) : ce_length e = 1 := by
  cases e with
  | single t l => simp [ce_length]
  | sec t l info es => simp [SCodeElement.bSingle] at h

theorem unfold_to_goto_spec :
    ∀ (fuel : Nat) (root : SCodeElement) (target : Int), well_formed root = true →
      0 ≤ target → target < ce_length root → num_summarized root < fuel →
      ∃ root' p, unfold_to_goto fuel root target = some (root', p) ∧
        erase_flags root' = erase_flags root ∧ p ∈ addressable root'
  | 0, _, _, _, _, _, hfuel => by omega
  | fuel + 1, root, target, hwf, h0, h1, hfuel => by
    have f := walk_facts_of_well_formed hwf
    obtain ⟨r, d, e, hget, hr, he, hkind, hd, hlen⟩ := get_element_at_zero f h0 h1
    simp only [unfold_to_goto, hget, he]
    by_cases hz : d = 0
    · simp only [hz, ne_eq, not_true_eq_false, if_false]
      exact ⟨root, r, rfl, rfl, hr⟩
    · have hnb : e.bSingle = false := by
        cases hb : e.bSingle with
        | false => rfl
        | true =>
          have := bSingle_length hb
          omega
      have hsum : e.bSummarized = true := by
        rcases hkind with hk | hk
        · rw [hnb] at hk; exact absurd hk (by simp)
        · exact hk
      have hera := erase_flags_set_summarized root r false
      have hwf' := well_formed_of_erase_eq hera.symm hwf
      have hnum := num_summarized_set_summarized he hsum
      obtain ⟨root', p, hrec, hre, hp⟩ := unfold_to_goto_spec fuel
        (set_summarized root r false) target hwf' h0
        (by rw [ce_length_eq_of_erase hera]; exact h1) (by omega)
      simp only [ne_eq, hz, not_false_eq_true, if_true, hnb, Bool.not_false]
      exact ⟨root', p, hrec, hre.trans hera, hp⟩

theorem unfold_to_back_spec :
    ∀ (fuel : Nat) (root : SCodeElement) (target : Int), well_formed root = true →
      0 ≤ target → target < ce_length root → num_summarized root < fuel →
      ∃ root' p, unfold_to_back fuel root target = some (root', p) ∧
        erase_flags root' = erase_flags root ∧ p ∈ addressable root' ∧
        get_element_at root' [] target 0 = some (some p, 0)
  | 0, _, _, _, _, _, hfuel => by omega
  | fuel + 1, root, target, hwf, h0, h1, hfuel => by
    have f := walk_facts_of_well_formed hwf
    obtain ⟨r, d, e, hget, hr, he, hkind, hd, hlen⟩ := get_element_at_zero f h0 h1
    simp only [unfold_to_back, hget, he]
    by_cases hz : d = 0
    · simp only [hz, ne_eq, not_true_eq_false, if_false]
      exact ⟨root, r, rfl, rfl, hr, hz ▸ hget⟩
    · have hnb : e.bSingle = false := by
        cases hb : e.bSingle with
        | false => rfl
        | true =>
          have := bSingle_length hb
          omega
      have hsum : e.bSummarized = true := by
        rcases hkind with hk | hk
        · rw [hnb] at hk; exact absurd hk (by simp)
        · exact hk
      have hera := erase_flags_set_summarized root r false
      have hwf' := well_formed_of_erase_eq hera.symm hwf
      have hnum := num_summarized_set_summarized he hsum
      obtain ⟨root', p, hrec, hre, hp, hfin⟩ := unfold_to_back_spec fuel
        (set_summarized root r false) target hwf' h0
        (by rw [ce_length_eq_of_erase hera]; exact h1) (by omega)
      simp only [ne_eq, hz, not_false_eq_true, if_true, hnb, Bool.not_false]
      exact ⟨root', p, hrec, hre.trans hera, hp, hfin⟩

/-! ## The goto handler returns (C10) -/

theorem ce_collapse_total {root : SCodeElement} (hwf : well_formed root = true) {i : Nat}
    {h : Handle} {e : SCodeElement} (he : ce_at root (i :: h) = some e) :
    ∃ root1 pElemRoot, ce_collapse root (i :: h) = some (root1, pElemRoot) ∧
      erase_flags root1 = erase_flags root := by
  obtain ⟨r, hr, hre⟩ :=
    collapse_total_erase h root (type_of_well_formed hwf) (is_sec_at_container he)
  simp only [ce_collapse, he, hr]
  split_ifs
  · exact ⟨_, _, rfl, (erase_flags_set_summarized _ _ _).trans hre⟩
  · exact ⟨_, _, rfl, hre⟩

theorem ce_expand_total {root : SCodeElement} (hwf : well_formed root = true) {i : Nat}
    {h : Handle} {e : SCodeElement} (he : ce_at root (i :: h) = some e) :
    ∃ root1, ce_expand root (i :: h) = some root1 ∧ erase_flags root1 = erase_flags root := by
  obtain ⟨r, hr, hre⟩ :=
    expand_total_erase h root (type_of_well_formed hwf) (is_sec_at_container he)
  exact ⟨r, by simp only [ce_expand, he]; exact hr, hre⟩

theorem find_caret_line_spec {root : SCodeElement} (f : WalkFacts root) {base : Int}
    (h1 : base < ce_length root) (pLine : STxtLine) :
    ∀ (n : Nat) (i0 : Int), 0 ≤ i0 →
      ∃ r, find_caret_line root base pLine n i0 = some r ∧ ∀ i, r = some i → 0 ≤ i
  | 0, i0, _ => ⟨none, by simp [find_caret_line], by simp⟩
  | n + 1, i0, hi => by
    obtain ⟨v, d, hget, hv⟩ := get_element_at_total f h1 hi
    obtain ⟨_, _, e, _, he, _⟩ := addressable_elem f hv
    simp only [find_caret_line, hget, he]
    split_ifs
    · refine ⟨some i0, rfl, ?_⟩
      intro i hi'
      simp only [Option.some.injEq] at hi'
      omega
    · exact find_caret_line_spec f h1 pLine n (i0 + 1) (by omega)

theorem remove_step_add_step (t : SNavTrail) (loc : SLocation) (y : Int)
    (hpush : ∀ top, t.steps.getLast? = some top → top.1.fileOffset ≠ loc.fileOffset) :
    remove_step (add_step t loc y) = (some loc, some y, t) := by
  have hadd : add_step t loc y = ⟨t.steps ++ [(loc, y)]⟩ := by
    unfold add_step
    cases hl : t.steps.getLast? with
    | none => rfl
    | some top =>
      have := hpush top hl
      simp [SLocation.equals, this]
  rw [hadd]
  simp [remove_step]

/-- The jump to a location inside the file returns, pushes the caret location
on the trail and changes nothing in the tree but fold flags. -/
theorem goto_location_spec (st : SModeSrcEdr) (target : Int)
    (hwf : well_formed st.root = true) (h0 : 0 ≤ st.fileOffset)
    (h1 : st.fileOffset < ce_length st.root) (hy : 0 ≤ st.CaretY) (hdisp : 0 ≤ st.dispLines)
    (ht0 : 0 ≤ target) (ht1 : target < ce_length st.root) :
    ∃ st1 pElem0 d0, get_element_at st.root [] st.fileOffset st.CaretY = some (some pElem0, d0) ∧
      0 ≤ st.fileOffset + d0 ∧ st.fileOffset + d0 < ce_length st.root ∧
      goto_location st target = some st1 ∧
      st1.pNavTrail = add_step st.pNavTrail ⟨some pElem0, st.fileOffset + d0⟩ st.CaretY ∧
      erase_flags st1.root = erase_flags st.root ∧
      st1.fileOffset < ce_length st.root ∧ 0 ≤ st1.CaretY := by
  have f := walk_facts_of_well_formed hwf
  obtain ⟨p0, d0, hget0, hp0, hb0, hb1, _⟩ := get_element_at_forward_range f h0 h1 hy
  obtain ⟨i0, g0, e0, hp0eq, he0, _⟩ := addressable_elem f hp0
  subst hp0eq
  obtain ⟨root1, pr, hcol, hera1⟩ := ce_collapse_total hwf he0
  have hwf1 := well_formed_of_erase_eq hera1.symm hwf
  have hlen1 := ce_length_eq_of_erase hera1
  obtain ⟨root2, p, hunf, hera2, hp⟩ := unfold_to_goto_spec (ce_count root1 + 1) root1 target
    hwf1 ht0 (by rw [hlen1]; exact ht1)
    (by have := num_summarized_le_count root1; omega)
  have hwf2 := well_formed_of_erase_eq hera2.symm hwf1
  obtain ⟨i2, g2, e2, hpeq, he2, _⟩ := addressable_elem (walk_facts_of_well_formed hwf2) hp
  subst hpeq
  have hera3 : erase_flags (if (!e2.bSingle) = true then set_summarized root2 (i2 :: g2) false
      else root2) = erase_flags root2 := by
    split_ifs
    · exact erase_flags_set_summarized _ _ _
    · rfl
  have hwf3 := well_formed_of_erase_eq hera3.symm hwf2
  obtain ⟨e3, he3, _⟩ := ce_at_of_erase_eq hera3.symm he2
  obtain ⟨root4, hexp, hera4⟩ := ce_expand_total hwf3 he3
  have hwf4 := well_formed_of_erase_eq hera4.symm hwf3
  have hera : erase_flags root4 = erase_flags st.root :=
    hera4.trans (hera3.trans (hera2.trans hera1))
  have hlen4 : ce_length root4 = ce_length st.root := ce_length_eq_of_erase hera
  have f4 := walk_facts_of_well_formed hwf4
  have ht1' : target < ce_length root4 := by rw [hlen4]; exact ht1
  obtain ⟨p4, d4, hget4, hp4, _⟩ := get_element_at_forward_range f4 ht0 ht1' (le_refl (0 : Int))
  obtain ⟨_, _, e4, _, he4, _⟩ := addressable_elem f4 hp4
  have hsteps : Int.tdiv (-st.dispLines) 2 ≤ 0 := by
    rw [Int.neg_tdiv]
    have := Int.tdiv_nonneg hdisp (by decide : (0 : Int) ≤ 2)
    omega
  obtain ⟨rb, lineOffset, hgetb, hlo⟩ := get_element_at_nonpos_steps f4 ht0 ht1' hsteps
  have hhalf : 0 ≤ Int.tdiv st.dispLines 2 := Int.tdiv_nonneg hdisp (by decide)
  have hfo : target + lineOffset < ce_length root4 := by omega
  obtain ⟨pT, dT, hgetT, hpT⟩ := get_element_at_total f4 hfo hhalf
  obtain ⟨_, _, eT, _, heT, _⟩ := addressable_elem f4 hpT
  obtain ⟨found, hfound, hfpos⟩ := find_caret_line_spec f4 hfo e4.pLine
    (Int.tdiv st.dispLines 2 + 1).toNat 0 (le_refl _)
  unfold goto_location
  simp only [hget0, hcol, hunf, he2, hexp, hget4, hgetb, he4, hgetT, heT]
  by_cases heq : tl_equals eT.pLine e4.pLine = true
  · simp only [heq, if_true]
    refine ⟨_, (i0 :: g0), d0, rfl, hb0, hb1, rfl, rfl, hera, ?_, ?_⟩
    · simp only [Option.getD_some]
      rw [← hlen4]; exact hfo
    · simp only [Option.getD_some]
      exact hhalf
  · simp only [heq, if_false, hfound, Bool.false_eq_true]
    refine ⟨_, (i0 :: g0), d0, rfl, hb0, hb1, rfl, rfl, hera, ?_, ?_⟩
    · simp only
      rw [← hlen4]; exact hfo
    · simp only
      cases found with
      | none => simpa using hy
      | some i => simpa using hfpos i rfl


/-- The back operation returns when the trail holds a step whose location is
inside the file: it pops the step, restores the caret line stored in it and
places the screen by walking that many steps back from the stored location. -/
theorem goto_back_spec (st : SModeSrcEdr) (loc : SLocation) (y : Int) (t : SNavTrail)
    (hrem : remove_step st.pNavTrail = (some loc, some y, t))
    (hwf : well_formed st.root = true) (h1 : st.fileOffset < ce_length st.root)
    (hy : 0 ≤ st.CaretY) (hl0 : 0 ≤ loc.fileOffset) (hl1 : loc.fileOffset < ce_length st.root)
    (hy0 : 0 ≤ y) :
    ∃ st2 r delta, goto_back st = some st2 ∧ erase_flags st2.root = erase_flags st.root ∧
      st2.pNavTrail = t ∧ st2.CaretY = y ∧
      get_element_at st2.root [] loc.fileOffset (-y) = some (r, delta) ∧
      st2.fileOffset = loc.fileOffset + delta ∧ delta ≤ 0 ∧ 0 ≤ loc.fileOffset + delta := by
  have f := walk_facts_of_well_formed hwf
  obtain ⟨p0, d0, hget0, hp0⟩ := get_element_at_total f h1 hy
  obtain ⟨i0, g0, e0, hp0eq, he0, _⟩ := addressable_elem f hp0
  subst hp0eq
  obtain ⟨root1, pr, hcol, hera1⟩ := ce_collapse_total hwf he0
  have hwf1 := well_formed_of_erase_eq hera1.symm hwf
  have hlen1 := ce_length_eq_of_erase hera1
  obtain ⟨root2, p, hunf, hera2, _, hstart⟩ := unfold_to_back_spec (ce_count root1 + 1) root1
    loc.fileOffset hwf1 hl0 (by rw [hlen1]; exact hl1)
    (by have := num_summarized_le_count root1; omega)
  have hwf2 := well_formed_of_erase_eq hera2.symm hwf1
  have hera : erase_flags root2 = erase_flags st.root := hera2.trans hera1
  have hlen2 : ce_length root2 = ce_length st.root := ce_length_eq_of_erase hera
  obtain ⟨r, delta, hgetb, hdelta, hlow⟩ := get_element_at_backward_start
    (walk_facts_of_well_formed hwf2) hl0 (by rw [hlen2]; exact hl1) hstart (by omega : -y ≤ 0)
  unfold goto_back
  simp only [hrem, hget0, hcol, hunf, hgetb]
  exact ⟨_, r, delta, rfl, hera, rfl, rfl, hgetb, rfl, hdelta, hlow⟩


/-! ## Goto followed by back (C10) -/

/-- C10 as stated fails.  In `nav_tree` the caret is on the call `h();` of
line 7, five steps below the screen offset 2, and the word resolves to the
definition of `h` at line 3.  With an empty trail, goto then back leaves the
caret line 5 but the screen offset 0 instead of 2: the back operation folds
the function `h` just visited and recomputes the offset by walking five
steps back from line 7.  With a trail whose top step already holds line 7
(with caret line 3), the goto pushes nothing and back leaves the screen offset
2 but the caret line 3 instead of 5. -/
theorem src_edr_goto_back_counterexample :
    get_requested_element nav_tree [1, 4] 2 nav_symbols 0 = some (some ⟨some [3], 3⟩, 0) ∧
    get_element_at nav_tree [] 2 5 = some (some [1, 4], 5) ∧
    ((nav_state ⟨[]⟩).fileOffset, (nav_state ⟨[]⟩).CaretY) = (2, 5) ∧
    ((src_edr_goto (nav_state ⟨[]⟩) true).bind (fun s => src_edr_goto s false)).map
      (fun s => (s.fileOffset, s.CaretY)) = some (0, 5) ∧
    ((src_edr_goto (nav_state ⟨[(⟨some [1, 4], 7⟩, 3)]⟩) true).bind
      (fun s => src_edr_goto s false)).map
      (fun s => (s.fileOffset, s.CaretY)) = some (2, 3) := by
  decide

/-- C10 (amended): in a well-formed code base, with the screen offset inside
the file, a non-negative caret line and number of displayed lines, the caret
on a line without "http" whose word resolves to a location inside the
file, and a trail that is empty or whose top step holds another file offset
than the line under the caret, the goto (Ctrl-Right) and the back (Ctrl-Left)
that follows both return; together they change nothing in the tree but fold
flags, leave the trail and the caret line `Caret.y` as they were before the
goto, and leave the screen offset `Caret.y` steps (in the new fold state)
before the line that was under the caret (never before the first line of the
file), which is not always the offset before the goto. -/
theorem src_edr_goto_back (st : SModeSrcEdr) (pElem : Handle) (d0 : Int) (e : SCodeElement)
    (loc : SLocation) (cb : Handle) (cc : Int)
    (hwf : well_formed st.root = true) (h0 : 0 ≤ st.fileOffset)
    (h1 : st.fileOffset < ce_length st.root) (hy : 0 ≤ st.CaretY) (hdisp : 0 ≤ st.dispLines)
    (hx : 0 ≤ st.CaretX)
    (hcur : get_element_at st.root [] st.fileOffset st.CaretY = some (some pElem, d0))
    (he : ce_at st.root pElem = some e)
    (hhttp : tl_find (tl_trim e.pLine) "http" = -1)
    (hres : get_requested_element st.root pElem st.CaretX.toNat st.pSymSet st.callCount =
      some (some loc, cc))
    (hcb : loc.pCodeBaseLoc = some cb)
    (ht0 : 0 ≤ loc.fileOffset) (ht1 : loc.fileOffset < ce_length st.root)
    (hpush : ∀ top, st.pNavTrail.steps.getLast? = some top →
      top.1.fileOffset ≠ st.fileOffset + d0) :
    ∃ st1 st2 r delta, src_edr_goto st true = some st1 ∧ src_edr_goto st1 false = some st2 ∧
      erase_flags st2.root = erase_flags st.root ∧
      st2.pNavTrail = st.pNavTrail ∧
      st2.CaretY = st.CaretY ∧
      get_element_at st2.root [] (st.fileOffset + d0) (-st.CaretY) = some (r, delta) ∧
      st2.fileOffset = st.fileOffset + d0 + delta ∧ delta ≤ 0 ∧ 0 ≤ st2.fileOffset := by
  obtain ⟨st1, p0, d0', hget, hb0, hb1, hgoto, htrail, hera1, hfo1, hy1⟩ :=
    goto_location_spec { st with callCount := cc } loc.fileOffset hwf h0 h1 hy hdisp ht0 ht1
  have hpd : p0 = pElem ∧ d0' = d0 := by
    have := hget.symm.trans hcur
    simpa using this
  obtain ⟨rfl, rfl⟩ := hpd
  have hrem : remove_step st1.pNavTrail =
      (some ⟨some p0, st.fileOffset + d0'⟩, some st.CaretY, st.pNavTrail) := by
    rw [htrail]
    exact remove_step_add_step st.pNavTrail _ _ hpush
  have hwf1 := well_formed_of_erase_eq hera1.symm hwf
  have hlen1 : ce_length st1.root = ce_length st.root := ce_length_eq_of_erase hera1
  obtain ⟨st2, r, delta, hback, hera2, ht2, hy2, hget2, hfo2, hdelta, hlow⟩ :=
    goto_back_spec st1 _ _ _ hrem hwf1 (by rw [hlen1]; exact hfo1) hy1 hb0
      (by rw [hlen1]; exact hb1) hy
  refine ⟨st1, st2, r, delta, ?_, ?_, hera2.trans hera1, ht2, hy2, hget2, hfo2, hdelta,
    by rw [hfo2]; exact hlow⟩
  · have hnx : ¬ st.CaretX < 0 := by omega
    simp only [src_edr_goto, if_true, hcur, he, hhttp, ne_eq, not_true_eq_false, if_false, hnx,
      hres, hcb]
    exact hgoto
  · simp only [src_edr_goto, Bool.false_eq_true, if_false]
    exact hback

/-- C10 (amended) at the editor state `nav_state` with an empty trail: the
hypotheses hold there, with the caret on `h();` resolving to line 3. -/
theorem src_edr_goto_back_witness :
    ∃ st1 st2 r delta, src_edr_goto (nav_state ⟨[]⟩) true = some st1 ∧
      src_edr_goto st1 false = some st2 ∧
      erase_flags st2.root = erase_flags (nav_state ⟨[]⟩).root ∧
      st2.pNavTrail = (nav_state ⟨[]⟩).pNavTrail ∧
      st2.CaretY = (nav_state ⟨[]⟩).CaretY ∧
      get_element_at st2.root [] ((nav_state ⟨[]⟩).fileOffset + 5)
        (-(nav_state ⟨[]⟩).CaretY) = some (r, delta) ∧
      st2.fileOffset = (nav_state ⟨[]⟩).fileOffset + 5 + delta ∧ delta ≤ 0 ∧
      0 ≤ st2.fileOffset :=
  src_edr_goto_back (nav_state ⟨[]⟩) [1, 4] 5 (.single CDE_S_CODELINE "  h();".toList)
    ⟨some [3], 3⟩ [3] 0 (by decide) (by decide) (by decide) (by decide) (by decide) (by decide)
    (by decide) rfl (by decide) (by decide) rfl (by decide) (by decide)
    (by intro top h; simp [nav_state] at h)

/-! ## Navigation trail (C11, C12) -/

/-- C11 as stated fails in its second half: on a trail whose top entry already
holds the file offset 7, pushing a location with file offset 7 twice leaves
the one entry there is; the trail does not grow by one. -/
theorem add_step_dedup_counterexample :
    (add_step (add_step ⟨[(⟨none, 7⟩, 3)]⟩ ⟨some [1], 7⟩ 5) ⟨some [1], 7⟩ 5) =
      ⟨[(⟨none, 7⟩, 3)]⟩ ∧
    (add_step (add_step ⟨[(⟨none, 7⟩, 3)]⟩ ⟨some [1], 7⟩ 5) ⟨some [1], 7⟩ 5).numSteps ≠
      (SNavTrail.mk [(⟨none, 7⟩, 3)]).numSteps + 1 := by
  decide

/-- C11 (amended): `add_step` with a location whose file offset equals that of
the top entry leaves the trail (the number of steps, every stored location
and every stored caret line) as it is; a second push of the same location is
always such a push; and pushing the same location twice grows the trail by
exactly one entry, the location with the caret line of the first push, when
the trail is empty or its top entry holds another file offset. -/
theorem add_step_dedup (t : SNavTrail) (loc : SLocation) (y1 y2 : Int) :
    (∀ top, t.steps.getLast? = some top → top.1.fileOffset = loc.fileOffset →
      add_step t loc y1 = t) ∧
    add_step (add_step t loc y1) loc y2 = add_step t loc y1 ∧
    ((∀ top, t.steps.getLast? = some top → top.1.fileOffset ≠ loc.fileOffset) →
      (add_step (add_step t loc y1) loc y2).steps = t.steps ++ [(loc, y1)] ∧
      (add_step (add_step t loc y1) loc y2).numSteps = t.numSteps + 1) := by
  have hpush : (∀ top, t.steps.getLast? = some top → top.1.fileOffset ≠ loc.fileOffset) →
      add_step t loc y1 = ⟨t.steps ++ [(loc, y1)]⟩ := by
    intro h
    unfold add_step
    cases hl : t.steps.getLast? with
    | none => rfl
    | some top => simp [SLocation.equals, h top hl]
  have hsame : ∀ (u : SNavTrail) (top : SLocation × Int), u.steps.getLast? = some top →
      top.1.fileOffset = loc.fileOffset → ∀ y, add_step u loc y = u := by
    intro u top hl heq y
    unfold add_step
    simp [hl, SLocation.equals, heq]
  have hsecond : add_step (add_step t loc y1) loc y2 = add_step t loc y1 := by
    by_cases h : ∀ top, t.steps.getLast? = some top → top.1.fileOffset ≠ loc.fileOffset
    · rw [hpush h]
      exact hsame _ (loc, y1) (by simp) rfl y2
    · push_neg at h
      obtain ⟨top, hl, heq⟩ := h
      rw [hsame t top hl heq y1]
      exact hsame t top hl heq y2
  refine ⟨fun top hl heq => hsame t top hl heq y1, hsecond, ?_⟩
  intro h
  rw [hsecond, hpush h]
  simp [SNavTrail.numSteps]

/-- C11 (amended) on the empty trail and on a trail whose top holds the
offset pushed. -/
theorem add_step_dedup_witness :
    (add_step (add_step ⟨[]⟩ ⟨some [1], 7⟩ 5) ⟨some [1], 7⟩ 2).steps = [] ++ [(⟨some [1], 7⟩, 5)] ∧
    add_step ⟨[(⟨none, 7⟩, 3)]⟩ ⟨some [1], 7⟩ 5 = ⟨[(⟨none, 7⟩, 3)]⟩ :=
  ⟨((add_step_dedup ⟨[]⟩ ⟨some [1], 7⟩ 5 2).2.2 (by intro top h; simp at h)).1,
   (add_step_dedup ⟨[(⟨none, 7⟩, 3)]⟩ ⟨some [1], 7⟩ 5 5).1 (⟨none, 7⟩, 3) rfl rfl⟩

/-- C12: on a trail whose last entry is `(loc, y)`, `remove_step` returns
`loc`, writes `y` to `*pCaretLoc` and leaves the entries before it, one step
fewer (so steps come back last in, first out: what comes back after an
`add_step` that stored an entry is that entry, and the trail is as before);
on an empty trail it returns `NULL`, writes nothing and leaves the trail as it
is. -/
theorem remove_step_lifo (t : SNavTrail) :
    (∀ init loc y, t.steps = init ++ [(loc, y)] →
      remove_step t = (some loc, some y, ⟨init⟩) ∧
      (remove_step t).2.2.numSteps + 1 = t.numSteps) ∧
    (∀ loc y, (add_step t loc y).numSteps = t.numSteps + 1 →
      remove_step (add_step t loc y) = (some loc, some y, t)) ∧
    (t.numSteps = 0 → remove_step t = (none, none, t)) := by
  have hlast : ∀ (init : List (SLocation × Int)) loc y,
      remove_step ⟨init ++ [(loc, y)]⟩ = (some loc, some y, ⟨init⟩) := by
    intro init loc y
    simp [remove_step]
  refine ⟨?_, ?_, ?_⟩
  · intro init loc y h
    have ht : t = ⟨init ++ [(loc, y)]⟩ := by cases t; simp_all
    subst ht
    rw [hlast]
    simp [SNavTrail.numSteps]
  · intro loc y h
    have hadd : add_step t loc y = ⟨t.steps ++ [(loc, y)]⟩ := by
      unfold add_step at h ⊢
      cases hl : t.steps.getLast? with
      | none => rfl
      | some top =>
        simp only [hl] at h ⊢
        split_ifs with hne
        · rfl
        · rw [if_neg hne] at h
          omega
    rw [hadd, hlast]
  · intro h
    have : t.steps = [] := List.length_eq_zero.mp h
    simp [remove_step, this]

/-- C12 on a trail of two steps and on the empty trail. -/
theorem remove_step_lifo_witness :
    remove_step ⟨[(⟨none, 3⟩, 1), (⟨some [2], 7⟩, 5)]⟩ =
      (some ⟨some [2], 7⟩, some 5, ⟨[(⟨none, 3⟩, 1)]⟩) ∧
    remove_step ⟨[]⟩ = (none, none, ⟨[]⟩) :=
  ⟨((remove_step_lifo ⟨[(⟨none, 3⟩, 1), (⟨some [2], 7⟩, 5)]⟩).1 [(⟨none, 3⟩, 1)]
      ⟨some [2], 7⟩ 5 rfl).1,
   (remove_step_lifo ⟨[]⟩).2.2 rfl⟩
/-! ## Brace matching (C20) -/

theorem tl_find_loop_nonneg_of_mem (c : Char) :
    ∀ (rest : STxtLine) (n i : Nat), rest.length ≤ n → c ∈ rest →
      0 ≤ tl_find_loop [c] n i rest
  | [], _, _, _, hmem => by simp at hmem
  | a :: rest, 0, _, hlen, _ => by simp at hlen
  | a :: rest, n + 1, i, hlen, hmem => by
    simp only [tl_find_loop, tl_match_at, Bool.and_true]
    by_cases hac : (a == c) = true
    · simp [hac]
    · simp only [hac, Bool.false_eq_true, if_false, List.tail_cons]
      have hne : c ≠ a := by
        intro h
        exact hac (by simp [h])
      have hmem2 : c ∈ rest := by
        rcases List.mem_cons.mp hmem with h | h
        · exact absurd h hne
        · exact h
      exact tl_find_loop_nonneg_of_mem c rest n (i + 1)
        (by simp only [List.length_cons] at hlen; omega) hmem2

/-- A line that holds the character `c` is one in which `tl_find` finds the
one-character token `c`. -/
theorem tl_find_singleton_of_mem (c : Char) (pLine : STxtLine) (hmem : c ∈ pLine) :
    tl_find pLine (String.singleton c) ≠ -1 := by
  have h := tl_find_loop_nonneg_of_mem c pLine pLine.length 0 (le_refl _) hmem
  have htok : (String.singleton c).toList = [c] := rfl
  have hlen : (String.singleton c).length = 1 := rfl
  simp only [tl_find, htok, hlen, Nat.add_sub_cancel]
  omega

/-- C20: when the line at `index` holds a closing brace (as a line holding
both braces does), `find_end_brace` returns true with `*pnLength == 1`. -/
theorem find_end_brace_same_line (pPage : List STxtLine) (index : Nat) (pLine : STxtLine)
    (hline : pPage[index]? = some pLine) (hbrace : '\x7d' ∈ pLine) :
    find_end_brace pPage index = some (some 1) := by
  have h := tl_find_singleton_of_mem '\x7d' pLine hbrace
  have hs : String.singleton '\x7d' = "\x7d" := rfl
  rw [hs] at h
  simp [find_end_brace, hline, h]

/-- C20 on a page whose second line holds both braces. -/
theorem find_end_brace_same_line_witness :
    find_end_brace ["int a;".toList, "void f() \x7b return; \x7d".toList] 1 = some (some 1) :=
  find_end_brace_same_line ["int a;".toList, "void f() \x7b return; \x7d".toList] 1
    "void f() \x7b return; \x7d".toList rfl (by decide)

/-! ## Facts about the text primitives -/

theorem tl_match_at_spec : ∀ (l t : List Char), tl_match_at l t = true ↔ t <+: l
  | _, [] => by simp [tl_match_at]
  | [], _ :: _ => by simp [tl_match_at]
  | c :: cs, t :: ts => by
    simp only [tl_match_at, Bool.and_eq_true, beq_iff_eq, List.cons_prefix_cons]
    rw [tl_match_at_spec cs ts]
    constructor
    · rintro ⟨h1, h2⟩
      exact ⟨h1.symm, h2⟩
    · rintro ⟨h1, h2⟩
      exact ⟨h1.symm, h2⟩

theorem tl_find_loop_range (t : List Char) :
    ∀ (n i : Nat) (rest : STxtLine),
      tl_find_loop t n i rest = -1 ∨ (i : Int) ≤ tl_find_loop t n i rest
  | 0, _, _ => by simp [tl_find_loop]
  | n + 1, i, rest => by
    simp only [tl_find_loop]
    split_ifs
    · right; exact le_refl _
    · rcases tl_find_loop_range t n (i + 1) rest.tail with h | h
      · left; exact h
      · right; push_cast at h; omega

/-- `tl_find` gives 0 exactly when the token is a prefix of the line. -/
theorem tl_find_eq_zero_iff (l : STxtLine) (tok : String) :
    tl_find l tok = 0 ↔ tok.toList <+: l := by
  rw [← tl_match_at_spec]
  unfold tl_find
  have hlen : tok.length = tok.toList.length := rfl
  cases hn : l.length + 1 - tok.length with
  | zero =>
    simp only [tl_find_loop]
    constructor
    · intro h; omega
    · intro h
      have := ((tl_match_at_spec l tok.toList).mp h).length_le
      omega
  | succ n =>
    simp only [tl_find_loop]
    by_cases hm : tl_match_at l tok.toList = true
    · rw [if_pos hm]
      exact ⟨fun _ => hm, fun _ => by simp⟩
    · rw [if_neg hm]
      constructor
      · intro h0
        exfalso
        rcases tl_find_loop_range tok.toList n (0 + 1) l.tail with h | h
        · rw [h] at h0; omega
        · rw [h0] at h; omega
      · intro h
        exact absurd h hm

theorem tl_find_mk_eq_zero_iff (l t : STxtLine) :
    tl_find l (String.mk t) = 0 ↔ t <+: l :=
  tl_find_eq_zero_iff l (String.mk t)

theorem tl_find_loop_none_of_head_not_mem (c : Char) (ts : List Char) :
    ∀ (n i : Nat) (rest : STxtLine), c ∉ rest → tl_find_loop (c :: ts) n i rest = -1
  | 0, _, _, _ => by simp [tl_find_loop]
  | n + 1, i, rest, h => by
    simp only [tl_find_loop]
    have hm : tl_match_at rest (c :: ts) = false := by
      cases rest with
      | nil => simp [tl_match_at]
      | cons a as =>
        simp only [tl_match_at, Bool.and_eq_false_imp, beq_iff_eq]
        intro hac
        exact absurd (by simp [hac]) h
    simp only [hm, Bool.false_eq_true, if_false]
    apply tl_find_loop_none_of_head_not_mem c ts n (i + 1) rest.tail
    intro hmem
    exact h (List.mem_of_mem_tail hmem)

/-- A token whose first character is not in the line is not found. -/
theorem tl_find_of_head_not_mem (l : STxtLine) (tok : String) (c : Char) (ts : List Char)
    (htok : tok.toList = c :: ts) (h : c ∉ l) : tl_find l tok = -1 := by
  unfold tl_find
  rw [htok]
  exact tl_find_loop_none_of_head_not_mem c ts _ 0 l h

/-- Blank characters of `tl_trim` and `tl_isempty`. -/
theorem tl_trim_eq_self :
    ∀ (l : STxtLine), (∀ c, l.head? = some c → c ≠ ' ' ∧ c ≠ '\t') →
      (∀ c, l.getLast? = some c → c ≠ ' ' ∧ c ≠ '\t') → tl_trim l = l := by
  intro l hh hl
  have hdrop : ∀ (m : STxtLine), (∀ c, m.head? = some c → c ≠ ' ' ∧ c ≠ '\t') →
      m.dropWhile (fun c => c == ' ' || c == '\t') = m := by
    intro m hm
    cases m with
    | nil => rfl
    | cons a as =>
      have := hm a rfl
      have hb : (a == ' ' || a == '\t') = false := by simp [this.1, this.2]
      rw [List.dropWhile, hb]
  unfold tl_trim
  rw [hdrop l hh, hdrop l.reverse (by simpa using hl)]
  simp

theorem tl_trim_cons_blank (l : STxtLine) : tl_trim (' ' :: l) = tl_trim l := by
  simp [tl_trim, List.dropWhile]

theorem cut_front_eq_drop (l : STxtLine) (n : Nat) (h : n ≤ l.length) :
    cut_front l n = l.drop n := by
  have : ¬ ((0 : Int) < 0 ∨ (n : Int) > l.length ∨ (n : Int) < 0) := by omega
  simp only [cut_front, tl_cut_out, this, if_false]
  simp

theorem tl_char_append_left (a b : STxtLine) (i : Nat) (h : i < a.length) :
    tl_char (a ++ b) i = tl_char a i := by
  simp [tl_char, List.getD_eq_getElem?_getD, List.getElem?_append_left h]

theorem tl_char_append_right (a b : STxtLine) (i : Nat) :
    tl_char (a ++ b) (a.length + i) = tl_char b i := by
  simp [tl_char, List.getD_eq_getElem?_getD, List.getElem?_append_right]

theorem tl_char_cons_zero (c : Char) (l : STxtLine) : tl_char (c :: l) 0 = c := rfl

theorem tl_char_cons_succ (c : Char) (l : STxtLine) (i : Nat) :
    tl_char (c :: l) (i + 1) = tl_char l i := by
  simp [tl_char]
theorem find?_congr_mem {α : Type} (p q : α → Bool) :
    ∀ (l : List α), (∀ a ∈ l, p a = q a) → l.find? p = l.find? q
  | [], _ => rfl
  | a :: l, h => by
    simp only [List.find?]
    rw [h a (List.mem_cons_self a l),
      find?_congr_mem p q l (fun b hb => h b (List.mem_cons_of_mem a hb))]

/-- Whether a keyword starts the line is settled by a start of the line that
is at least as long as the keyword or differs from it. -/
theorem first_keyword_append (pre rest : STxtLine) (kws : List String)
    (h : ∀ k ∈ kws, k.length ≤ pre.length ∨ tl_match_at k.toList pre = false) :
    first_keyword (pre ++ rest) kws = first_keyword pre kws := by
  unfold first_keyword
  apply find?_congr_mem
  intro k hk
  have hiff : tl_find (pre ++ rest) k = 0 ↔ tl_find pre k = 0 := by
    rw [tl_find_eq_zero_iff, tl_find_eq_zero_iff]
    constructor
    · intro hp
      have hpre : pre <+: pre ++ rest := List.prefix_append pre rest
      rcases h k hk with hlen | hne
      · exact List.prefix_of_prefix_length_le hp hpre hlen
      · rcases Nat.le_total k.toList.length pre.length with hle | hle
        · exact List.prefix_of_prefix_length_le hp hpre hle
        · have := List.prefix_of_prefix_length_le hpre hp hle
          rw [← tl_match_at_spec] at this
          rw [this] at hne
          exact absurd hne (by simp)
    · intro hp
      exact hp.trans (List.prefix_append pre rest)
  by_cases hz : tl_find pre k = 0
  · simp [hz, hiff.mpr hz]
  · have : ¬ tl_find (pre ++ rest) k = 0 := fun hc => hz (hiff.mp hc)
    simp [hz, this]

theorem ident_char_facts (c : Char) (h : is_ident_char c = true) :
    is_end_delim c = false ∧ c ≠ ' ' ∧ c ≠ '\t' ∧ c ≠ '(' ∧ c ≠ ':' ∧ c ≠ '*' ∧ c ≠ '&' ∧
      c ≠ '~' := by
  have key : ∀ d : Char, is_ident_char d = false → c ≠ d := by
    intro d hd hcd
    rw [hcd] at h
    rw [h] at hd
    exact absurd hd (by simp)
  have hdel : is_end_delim c = false := by
    simp only [is_end_delim, Bool.or_eq_false_iff, beq_eq_false_iff_ne, ne_eq]
    exact ⟨⟨⟨⟨key ' ' (by decide), key ',' (by decide)⟩, key '(' (by decide)⟩,
      key ')' (by decide)⟩, key ';' (by decide)⟩
  exact ⟨hdel, key ' ' (by decide), key '\t' (by decide), key '(' (by decide),
    key ':' (by decide), key '*' (by decide), key '&' (by decide), key '~' (by decide)⟩

theorem identifier_facts (n : STxtLine) (h : is_identifier n = true) :
    ∃ c rest, n = c :: rest ∧ is_ident_char c = true ∧ ∀ d ∈ n, is_ident_char d = true := by
  cases n with
  | nil => simp [is_identifier] at h
  | cons c rest =>
    simp only [is_identifier, Bool.and_eq_true, List.all_eq_true] at h
    refine ⟨c, rest, rfl, h.1.1, ?_⟩
    intro d hd
    rcases List.mem_cons.mp hd with hd | hd
    · rw [hd]; exact h.1.1
    · exact h.2 d hd

theorem first_delim_append (w : STxtLine) (d : Char) (r : STxtLine)
    (hw : ∀ c ∈ w, is_end_delim c = false) (hd : is_end_delim d = true) :
    first_delim (w ++ d :: r) = some w.length := by
  induction w with
  | nil => simp [first_delim, List.findIdx?, hd]
  | cons a w ih =>
    have ha := hw a (List.mem_cons_self a w)
    have := ih (fun c hc => hw c (List.mem_cons_of_mem a hc))
    simp only [first_delim] at this ⊢
    simp [List.findIdx?_cons, ha, this]

/-- The word extracted from a line that is a word of non-delimiters followed
by `;`. -/
theorem tl_extract_word_semicolon (w : STxtLine) (hne : w ≠ [])
    (hw : ∀ c ∈ w, is_end_delim c = false) :
    tl_extract_word (w ++ [';']) = (some w, [], some ';') := by
  have hfd := first_delim_append w ';' [] hw (by decide)
  have hempty : tl_isempty (w ++ [';']) = false := by
    simp [tl_isempty]
  have hpos : 0 < w.length := List.length_pos.mpr hne
  have hc : tl_char (w ++ [';']) w.length = ';' := by
    have := tl_char_append_right w [';'] 0
    simpa using this
  simp only [tl_extract_word, hempty, hfd, hc]
  simp [hpos]

theorem check_composite_funcname_none (n : STxtLine) (h : ':' ∉ n) :
    check_composite_funcname n = none := by
  have := tl_find_of_head_not_mem n "::" ':' [':'] rfl h
  simp [check_composite_funcname, this]

theorem check_var_type_for_ptrs_plain (k : STxtLine) (c : Char) (rest : STxtLine)
    (h1 : c ≠ '*') (h2 : c ≠ '&') :
    check_var_type_for_ptrs (k ++ ' ' :: c :: rest) k.length = ⟨k.length, false, false, false⟩ := by
  have hc0 : tl_char (k ++ ' ' :: c :: rest) k.length = ' ' := by
    have := tl_char_append_right k (' ' :: c :: rest) 0
    simpa using this
  have hc1 : tl_char (k ++ ' ' :: c :: rest) (k.length + 1) = c := by
    have := tl_char_append_right k (' ' :: c :: rest) 1
    simpa [tl_char] using this
  simp [check_var_type_for_ptrs, hc0, hc1, h1, h2]
/-! ## Declarations with a built-in type (C16) -/

theorem getLast?_snoc {α : Type} (l : List α) (a : α) : (l ++ [a]).getLast? = some a := by
  simp

/-- The name part of a declaration: what `extract_var` does with the line
once the type is cut off and an identifier followed by `;` is left. -/
theorem extract_name_identifier (n : STxtLine) (hn : is_identifier n = true) :
    tl_char (n ++ [';']) 0 ≠ '(' ∧ tl_extract_word (n ++ [';']) = (some n, [], some ';') ∧
      check_composite_funcname n = none ∧ tl_trim (n ++ [';']) = n ++ [';'] := by
  obtain ⟨c, rest, hcons, hc, hall⟩ := identifier_facts n hn
  have hfc := ident_char_facts c hc
  refine ⟨?_, ?_, ?_, ?_⟩
  · rw [hcons]
    simpa [tl_char] using hfc.2.2.2.1
  · exact tl_extract_word_semicolon n (by rw [hcons]; simp)
      (fun d hd => (ident_char_facts d (hall d hd)).1)
  · apply check_composite_funcname_none
    intro hmem
    exact (ident_char_facts ':' (hall ':' hmem)).2.2.2.2.1 rfl
  · apply tl_trim_eq_self
    · intro d hd
      rw [hcons] at hd
      simp only [List.cons_append, List.head?_cons, Option.some.injEq] at hd
      rw [← hd]
      exact ⟨hfc.2.1, hfc.2.2.1⟩
    · intro d hd
      rw [getLast?_snoc] at hd
      simp only [Option.some.injEq] at hd
      rw [← hd]
      decide

/-- The declaration `k n;` for a keyword `k` that is the first type keyword
starting the line and is started by no qualifier keyword. -/
theorem extract_var_keyword (k : String) (n : STxtLine) (pSymSet : SSymbolSet)
    (hq : first_keyword (k.toList ++ [' ']) qualifier_keywords = none)
    (hk : first_keyword (k.toList ++ [' ']) type_keywords = some k)
    (hdq : ∀ q ∈ qualifier_keywords, q.length ≤ (k.toList ++ [' ']).length ∨
      tl_match_at q.toList (k.toList ++ [' ']) = false)
    (hdk : ∀ q ∈ type_keywords, q.length ≤ (k.toList ++ [' ']).length ∨
      tl_match_at q.toList (k.toList ++ [' ']) = false)
    (hhead : ∀ c, k.toList.head? = some c → c ≠ ' ' ∧ c ≠ '\t') (hne : k.toList ≠ [])
    (hn : is_identifier n = true) :
    extract_var (k.toList ++ ' ' :: (n ++ [';'])) pSymSet =
      some ⟨true, [], .null, some n, some k.toList, some ';'⟩ := by
  obtain ⟨c, rest, hcons, hc, hall⟩ := identifier_facts n hn
  have hfc := ident_char_facts c hc
  obtain ⟨hparen, hword, hcomp, htrimn⟩ := extract_name_identifier n hn
  have hline : k.toList ++ ' ' :: (n ++ [';']) = (k.toList ++ [' ']) ++ (n ++ [';']) := by simp
  have htrim : tl_trim (k.toList ++ ' ' :: (n ++ [';'])) = k.toList ++ ' ' :: (n ++ [';']) := by
    apply tl_trim_eq_self
    · intro d hd
      cases hkl : k.toList with
      | nil => exact absurd hkl hne
      | cons a as =>
        rw [hkl] at hd
        simp only [List.cons_append, List.head?_cons, Option.some.injEq] at hd
        exact hhead d (by rw [hkl, ← hd]; rfl)
    · intro d hd
      have : (k.toList ++ ' ' :: (n ++ [';'])).getLast? = some ';' := by
        rw [show k.toList ++ ' ' :: (n ++ [';']) = (k.toList ++ ' ' :: n) ++ [';'] by simp]
        exact getLast?_snoc _ _
      rw [this] at hd
      simp only [Option.some.injEq] at hd
      rw [← hd]
      decide
  have hq1 : first_keyword (k.toList ++ ' ' :: (n ++ [';'])) qualifier_keywords = none := by
    rw [hline, first_keyword_append _ _ _ hdq, hq]
  have hk1 : first_keyword (k.toList ++ ' ' :: (n ++ [';'])) type_keywords = some k := by
    rw [hline, first_keyword_append _ _ _ hdk, hk]
  have hcheck : check_var_type_for_ptrs (k.toList ++ ' ' :: (n ++ [';'])) k.length =
      ⟨k.length, false, false, false⟩ := by
    rw [hcons]
    exact check_var_type_for_ptrs_plain k.toList c (rest ++ [';']) hfc.2.2.2.2.2.1
      hfc.2.2.2.2.2.2.1
  have hklen : k.length = k.toList.length := rfl
  have hcut : cut_front (k.toList ++ ' ' :: (n ++ [';'])) k.length = ' ' :: (n ++ [';']) := by
    rw [cut_front_eq_drop _ _ (by rw [hklen, List.length_append]; omega)]
    exact List.drop_left' rfl
  have htype : extract_var_type (k.toList ++ ' ' :: (n ++ [';'])) pSymSet =
      some (k.toList ++ ' ' :: (n ++ [';']),
        ⟨true, false, .null, none, some k.toList, k.length⟩) := by
    unfold extract_var_type
    simp only [hq1, Option.isSome_none, Bool.false_eq_true, if_false, hk1, hcheck]
    simp [add_to_type, ptr_suffix]
  unfold extract_var
  rw [htrim, htype]
  simp only [if_true, hcut, tl_trim_cons_blank, htrimn, Bool.not_false]
  simp [hparen, hword, hcomp]

/-- C16: for every built-in type keyword `k` and every identifier `n`,
`extract_var` on the line `k n;`, with any symbol set, returns found with the
type `k` (no pointer or reference marker), the name `n` and the separator
`;`; the line is used up and no class name is set. -/
theorem extract_var_builtin (k : String) (n : STxtLine) (pSymSet : SSymbolSet)
    (hk : k ∈ type_keywords) (hn : is_identifier n = true) :
    extract_var (k.toList ++ ' ' :: (n ++ [';'])) pSymSet =
      some ⟨true, [], .null, some n, some k.toList, some ';'⟩ := by
  simp only [type_keywords, List.mem_cons, List.mem_singleton, List.not_mem_nil,
    or_false] at hk
  rcases hk with rfl | rfl | rfl | rfl | rfl | rfl | rfl | rfl <;>
    exact extract_var_keyword _ n pSymSet (by decide) (by decide) (by decide) (by decide)
      (by decide) (by decide) hn

/-- C16 on the lines `int x;` and `unsigned char count_1;`. -/
theorem extract_var_builtin_witness :
    extract_var ("int".toList ++ ' ' :: ("x".toList ++ [';'])) no_symbols =
      some ⟨true, [], .null, some "x".toList, some "int".toList, some ';'⟩ ∧
    extract_var ("unsigned char".toList ++ ' ' :: ("count_1".toList ++ [';'])) deref_symbols =
      some ⟨true, [], .null, some "count_1".toList, some "unsigned char".toList, some ';'⟩ :=
  ⟨extract_var_builtin "int" "x".toList no_symbols (by decide) (by decide),
   extract_var_builtin "unsigned char" "count_1".toList deref_symbols (by decide) (by decide)⟩
/-! ## Facts about the searches of `extract_var` -/

theorem tl_find_loop_match (t : List Char) :
    ∀ (n i : Nat) (rest : STxtLine) (j : Nat), tl_find_loop t n i rest = (j : Int) →
      i ≤ j ∧ t <+: rest.drop (j - i)
  | 0, _, _, _, h => by simp only [tl_find_loop] at h; omega
  | n + 1, i, rest, j, h => by
    simp only [tl_find_loop] at h
    by_cases hm : tl_match_at rest t = true
    · rw [if_pos hm] at h
      have hij : i = j := by exact_mod_cast h
      subst hij
      simp only [le_refl, Nat.sub_self, List.drop_zero, true_and]
      exact (tl_match_at_spec rest t).mp hm
    · rw [if_neg hm] at h
      obtain ⟨h1, h2⟩ := tl_find_loop_match t n (i + 1) rest.tail j h
      refine ⟨by omega, ?_⟩
      have : j - i = (j - (i + 1)) + 1 := by omega
      rw [this, ← List.drop_tail]
      exact h2
termination_by n => n

/-- Where `tl_find` finds a token, the token starts. -/
theorem tl_find_match (l : STxtLine) (tok : String) (j : Nat) (h : tl_find l tok = (j : Int)) :
    tok.toList <+: l.drop j := by
  have := (tl_find_loop_match tok.toList _ 0 l j h).2
  simpa using this

theorem tl_find_loop_first (c : Char) :
    ∀ (a b : STxtLine) (n i : Nat), c ∉ a → a.length < n →
      tl_find_loop [c] n i (a ++ c :: b) = ((i + a.length : Nat) : Int)
  | [], b, n + 1, i, _, _ => by
    simp [tl_find_loop, tl_match_at]
  | x :: a, b, n + 1, i, hmem, hlen => by
    have hx : (x == c) = false := by
      simp only [beq_eq_false_iff_ne, ne_eq]
      intro h
      exact hmem (by simp [h])
    simp only [List.cons_append, tl_find_loop, tl_match_at, hx, Bool.false_and,
      Bool.false_eq_true, if_false, List.tail_cons]
    rw [tl_find_loop_first c a b n (i + 1) (fun h => hmem (List.mem_cons_of_mem x h))
      (by simp only [List.length_cons] at hlen; omega)]
    simp only [List.length_cons]
    congr 1
    omega

/-- `tl_find` for a one-character token gives the index of the first
occurrence of the character. -/
theorem tl_find_first_char (c : Char) (a b : STxtLine) (h : c ∉ a) :
    tl_find (a ++ c :: b) (String.singleton c) = (a.length : Int) := by
  have htok : (String.singleton c).toList = [c] := rfl
  have hlen : (String.singleton c).length = 1 := rfl
  unfold tl_find
  rw [htok, hlen, tl_find_loop_first c a b _ 0 h (by simp)]
  simp

theorem first_keyword_none (pLine : STxtLine) (kws : List String)
    (h : ∀ k ∈ kws, ¬ k.toList <+: pLine) : first_keyword pLine kws = none := by
  unfold first_keyword
  rw [List.find?_eq_none]
  intro k hk
  simp only [decide_eq_true_eq]
  rw [tl_find_eq_zero_iff]
  exact h k hk

theorem longest_prefix_name_bound (pLine : STxtLine) (m : Nat) :
    ∀ (names : List STxtLine) (best : Option STxtLine),
      (∀ n ∈ names, n <+: pLine → n.length ≤ m) →
      (∀ b, best = some b → b <+: pLine ∧ 0 < b.length ∧ b.length ≤ m) →
      (∀ r, longest_prefix_name pLine names best = some r →
        r <+: pLine ∧ 0 < r.length ∧ r.length ≤ m) ∧
      (((∃ n ∈ names, n <+: pLine ∧ n.length = m ∧ 0 < m) ∨
          (∃ b, best = some b ∧ b.length = m)) →
        ∃ r, longest_prefix_name pLine names best = some r ∧ r.length = m)
  | [], best, _, hbest => by
    simp only [longest_prefix_name]
    refine ⟨hbest, ?_⟩
    rintro (⟨n, hn, _⟩ | ⟨b, hb, hlen⟩)
    · simp at hn
    · exact ⟨b, hb, hlen⟩
  | name :: rest, best, hnames, hbest => by
    have hrest : ∀ n ∈ rest, n <+: pLine → n.length ≤ m :=
      fun n hn => hnames n (List.mem_cons_of_mem name hn)
    simp only [longest_prefix_name]
    by_cases hc : tl_find pLine (String.mk name) = 0 ∧
        name.length > (best.map List.length).getD 0
    · rw [if_pos hc]
      have hpre : name <+: pLine := (tl_find_mk_eq_zero_iff pLine name).mp hc.1
      have hle := hnames name (List.mem_cons_self name rest) hpre
      have hnew : ∀ b, some name = some b → b <+: pLine ∧ 0 < b.length ∧ b.length ≤ m := by
        intro b hb
        simp only [Option.some.injEq] at hb
        subst hb
        exact ⟨hpre, by omega, hle⟩
      obtain ⟨h1, h2⟩ := longest_prefix_name_bound pLine m rest (some name) hrest hnew
      refine ⟨h1, ?_⟩
      rintro (⟨n, hn, hnp, hnl, hm0⟩ | ⟨b, hb, hlen⟩)
      · rcases List.mem_cons.mp hn with hn | hn
        · subst hn
          exact h2 (Or.inr ⟨n, rfl, hnl⟩)
        · exact h2 (Or.inl ⟨n, hn, hnp, hnl, hm0⟩)
      · exfalso
        have := hc.2
        rw [hb] at this
        simp only [Option.map_some', Option.getD_some] at this
        omega
    · rw [if_neg hc]
      obtain ⟨h1, h2⟩ := longest_prefix_name_bound pLine m rest best hrest hbest
      refine ⟨h1, ?_⟩
      rintro (⟨n, hn, hnp, hnl, hm0⟩ | ⟨b, hb, hlen⟩)
      · rcases List.mem_cons.mp hn with hn | hn
        · subst hn
          have hfind := (tl_find_mk_eq_zero_iff pLine n).mpr hnp
          have hnot : ¬ n.length > (best.map List.length).getD 0 := fun hgt => hc ⟨hfind, hgt⟩
          rcases Option.eq_none_or_eq_some best with hb | ⟨b, hb⟩
          · rw [hb] at hnot
            simp only [Option.map_none', Option.getD_none] at hnot
            omega
          · rw [hb] at hnot
            simp only [Option.map_some', Option.getD_some] at hnot
            have := (hbest b hb).2.2
            exact h2 (Or.inr ⟨b, hb, by omega⟩)
        · exact h2 (Or.inl ⟨n, hn, hnp, hnl, hm0⟩)
      · exact h2 (Or.inr ⟨b, hb, hlen⟩)

/-- The longest registered name that starts the line is the name found. -/
theorem longest_prefix_name_eq (pLine : STxtLine) (names : List STxtLine) (T : STxtLine)
    (hT : T ∈ names) (hne : T ≠ []) (hpre : T <+: pLine)
    (hlongest : ∀ n ∈ names, n <+: pLine → n.length ≤ T.length) :
    longest_prefix_name pLine names none = some T := by
  obtain ⟨h1, h2⟩ := longest_prefix_name_bound pLine T.length names none hlongest
    (by intro b hb; simp at hb)
  obtain ⟨r, hr, hlen⟩ := h2 (Or.inl ⟨T, hT, hpre, rfl, List.length_pos.mpr hne⟩)
  rw [hr]
  have hrp := (h1 r hr).1
  have : r = T := by
    have := List.prefix_of_prefix_length_le hrp hpre (le_of_eq hlen)
    exact this.eq_of_length hlen
  rw [this]

/-- When no registered name other than the empty one starts the line, no
name is found. -/
theorem longest_prefix_name_none (pLine : STxtLine) :
    ∀ (names : List STxtLine), (∀ n ∈ names, n <+: pLine → n = []) →
      longest_prefix_name pLine names none = none
  | [], _ => rfl
  | name :: rest, h => by
    simp only [longest_prefix_name]
    have hc : ¬ (tl_find pLine (String.mk name) = 0 ∧
        name.length > ((none : Option STxtLine).map List.length).getD 0) := by
      rintro ⟨h1, h2⟩
      have := h name (List.mem_cons_self name rest) ((tl_find_mk_eq_zero_iff pLine name).mp h1)
      rw [this] at h2
      simp at h2
    rw [if_neg hc]
    exact longest_prefix_name_none pLine rest (fun n hn => h n (List.mem_cons_of_mem name hn))

theorem find?_eq_some_of_unique {α : Type} (p : α → Bool) (x : α) :
    ∀ (l : List α), x ∈ l → p x = true → (∀ y ∈ l, p y = true → y = x) → l.find? p = some x
  | [], h, _, _ => by simp at h
  | a :: l, hmem, hpx, huniq => by
    simp only [List.find?]
    cases hpa : p a with
    | true =>
      simp only
      rw [huniq a (List.mem_cons_self a l) hpa]
    | false =>
      simp only
      rcases List.mem_cons.mp hmem with h | h
      · rw [h, hpa] at hpx
        exact absurd hpx (by simp)
      · exact find?_eq_some_of_unique p x l h hpx
          (fun y hy => huniq y (List.mem_cons_of_mem a hy))
theorem tl_match_at_append_self (t b : STxtLine) : tl_match_at (t ++ b) t = true :=
  (tl_match_at_spec _ _).mpr (List.prefix_append t b)

theorem tl_find_loop_first_token (c : Char) (ts : List Char) :
    ∀ (a b : STxtLine) (n i : Nat), c ∉ a → a.length < n →
      tl_find_loop (c :: ts) n i (a ++ (c :: ts) ++ b) = ((i + a.length : Nat) : Int)
  | [], b, n + 1, i, _, _ => by
    have := tl_match_at_append_self (c :: ts) b
    simp only [List.nil_append, tl_find_loop, this, if_true, List.length_nil, Nat.add_zero]
  | x :: a, b, n + 1, i, hmem, hlen => by
    have hx : (x == c) = false := by
      simp only [beq_eq_false_iff_ne, ne_eq]
      intro h
      exact hmem (by simp [h])
    simp only [List.cons_append, tl_find_loop, tl_match_at, hx, Bool.false_and,
      Bool.false_eq_true, if_false, List.tail_cons]
    have := tl_find_loop_first_token c ts a b n (i + 1)
      (fun h => hmem (List.mem_cons_of_mem x h))
      (by simp only [List.length_cons] at hlen; omega)
    simp only [List.cons_append] at this
    rw [this]
    simp only [List.length_cons]
    congr 1
    omega

/-- `tl_find` gives the index of a token that follows a text without the
first character of the token. -/
theorem tl_find_first_token (tok : String) (c : Char) (ts a b : STxtLine)
    (htok : tok.toList = c :: ts) (h : c ∉ a) :
    tl_find (a ++ (c :: ts) ++ b) tok = (a.length : Int) := by
  have hlen : tok.length = (c :: ts).length := by rw [← htok]; rfl
  unfold tl_find
  rw [htok, hlen, tl_find_loop_first_token c ts a b _ 0 h
    (by simp only [List.length_append, List.length_cons]; omega)]
  simp

theorem tl_find_range (l : STxtLine) (tok : String) :
    tl_find l tok = -1 ∨ ∃ j : Nat, tl_find l tok = (j : Int) := by
  rcases tl_find_loop_range tok.toList (l.length + 1 - tok.length) 0 l with h | h
  · left; exact h
  · right
    refine ⟨(tl_find l tok).toNat, ?_⟩
    have : (0 : Int) ≤ tl_find l tok := by simpa [tl_find] using h
    omega

/-- The text before the first `::` of a line is not a start of the line that
is followed by another character than `:`. -/
theorem tl_before_first_ne (T r : STxtLine) (m : Char) (hm : m ≠ ':') :
    ((tl_before_first (T ++ m :: r) "::").1 == T) = false := by
  simp only [beq_eq_false_iff_ne, ne_eq]
  intro heq
  unfold tl_before_first at heq
  have h2 : ("::" : String).length ≠ 0 := by decide
  rw [if_neg h2] at heq
  rcases tl_find_range (T ++ m :: r) "::" with h | ⟨j, h⟩
  · simp only [h, if_true] at heq
    have := congrArg List.length heq
    simp at this
  · have hne : ¬ ((j : Int) = -1) := by omega
    simp only [h, hne, if_false, Int.toNat_ofNat] at heq
    have hlen := congrArg List.length heq
    simp only [List.length_take, List.length_append, List.length_cons] at hlen
    have hj : j = T.length := by omega
    subst hj
    have hmatch := tl_find_match _ _ _ h
    rw [List.drop_left' rfl] at hmatch
    have : ("::" : String).toList = [':', ':'] := rfl
    rw [this] at hmatch
    have := List.cons_prefix_cons.mp hmatch
    exact hm this.1.symm

/-- The word extracted from a line in which a word of non-delimiters is
followed by a delimiter other than the space. -/
theorem tl_extract_word_delim (w r : STxtLine) (d : Char) (hne : w ≠ [])
    (hw : ∀ c ∈ w, is_end_delim c = false) (hd : is_end_delim d = true)
    (hds : d ≠ ' ') (hdt : d ≠ '\t') :
    ∃ r', tl_extract_word (w ++ d :: r) = (some w, r', some d) := by
  have hfd := first_delim_append w d r hw hd
  have hempty : tl_isempty (w ++ d :: r) = false := by
    simp only [tl_isempty, List.all_eq_false, List.mem_append, List.mem_cons]
    refine ⟨d, Or.inr (Or.inl rfl), ?_⟩
    simp [hds, hdt]
  have hpos : 0 < w.length := List.length_pos.mpr hne
  have hc : tl_char (w ++ d :: r) w.length = d := by
    have := tl_char_append_right w (d :: r) 0
    simpa using this
  have hdb : (d == ' ') = false := by simp [hds]
  have hdn : (d != ' ') = true := by simp [hds]
  simp only [tl_extract_word, hempty, hfd, hc, hdb, hdn, Bool.not_false, if_true, hpos,
    gt_iff_lt, Bool.false_eq_true, if_false]
  rw [List.take_left' rfl]
  exact ⟨_, rfl⟩

/-- With no qualifier, no type keyword, no `wx` type and no struct name at the
start of the line, `extract_var` goes on to look for a class name. -/
theorem extract_var_type_class (pLine : STxtLine) (pSymSet : SSymbolSet)
    (hqual : ∀ q ∈ qualifier_keywords, ¬ q.toList <+: pLine)
    (htype : ∀ k ∈ type_keywords, ¬ k.toList <+: pLine)
    (hwx : ¬ "wx".toList <+: pLine ∨
      ∃ w r sep, tl_extract_word pLine = (some w, r, some sep) ∧ sep ≠ ' ')
    (hstruct : ∀ s ∈ pSymSet.pStructSet, s.pName <+: pLine → s.pName = []) :
    extract_var_type pLine pSymSet =
      some (pLine, extract_class_type pLine pSymSet false none) := by
  have hq := first_keyword_none pLine qualifier_keywords hqual
  have hk := first_keyword_none pLine type_keywords htype
  have hs : longest_prefix_name pLine (pSymSet.pStructSet.map (fun s => s.pName)) none =
      none := by
    apply longest_prefix_name_none
    intro n hn hp
    obtain ⟨s, hs, rfl⟩ := List.mem_map.mp hn
    exact hstruct s hs hp
  unfold extract_var_type
  simp only [hq, Option.isSome_none, Bool.false_eq_true, if_false, hk]
  rcases hwx with hwx | ⟨w, r, sep, hword, hsep⟩
  · have : ¬ tl_find pLine "wx" = 0 := by
      rw [tl_find_eq_zero_iff]
      exact hwx
    simp only [this, if_false, hs]
  · by_cases hf : tl_find pLine "wx" = 0
    · have hb : (sep == ' ') = false := by simp [hsep]
      simp only [hf, if_true, hword, hb, Bool.false_eq_true, if_false, hs]
    · simp only [hf, if_false, hs]
/-! ## Declarations with a class type (C17) -/

theorem line_trimmed (T rest : STxtLine) (last : Char) (hTne : T ≠ [])
    (hThead : ∀ c, T.head? = some c → c ≠ ' ' ∧ c ≠ '\t') (hl1 : last ≠ ' ')
    (hl2 : last ≠ '\t') : tl_trim (T ++ rest ++ [last]) = T ++ rest ++ [last] := by
  apply tl_trim_eq_self
  · intro d hd
    cases T with
    | nil => exact absurd rfl hTne
    | cons a as =>
      simp only [List.cons_append, List.head?_cons, Option.some.injEq] at hd
      exact hThead d (by rw [← hd]; rfl)
  · intro d hd
    rw [getLast?_snoc] at hd
    simp only [Option.some.injEq] at hd
    rw [← hd]
    exact ⟨hl1, hl2⟩

/-- The class branch of `extract_var` on a line that starts with the class
name `T` followed by the marker text `mid` and the rest `c :: rest`, where
`check` is what `check_var_type_for_ptrs` finds there. -/
theorem extract_class_type_member (pLine T : STxtLine) (m : Char) (r : STxtLine)
    (pSymSet : SSymbolSet) (hline : pLine = T ++ m :: r)
    (hm1 : m ≠ '(') (hm2 : m ≠ ':')
    (hT : T ∈ pSymSet.pClassSet.map (fun c => c.pName)) (hTne : T ≠ [])
    (hlongest : ∀ c ∈ pSymSet.pClassSet, c.pName <+: pLine → c.pName.length ≤ T.length) :
    extract_class_type pLine pSymSet false none =
      ⟨true, false, .line T, none,
        some (T ++ ptr_suffix (check_var_type_for_ptrs pLine T.length)),
        (check_var_type_for_ptrs pLine T.length).retVal⟩ := by
  have hlong : longest_prefix_name pLine (pSymSet.pClassSet.map (fun c => c.pName)) none =
      some T := by
    apply longest_prefix_name_eq _ _ _ hT hTne
    · rw [hline]; exact List.prefix_append T _
    · intro n hn hp
      obtain ⟨c, hc, rfl⟩ := List.mem_map.mp hn
      exact hlongest c hc hp
  have hchar : tl_char pLine T.length = m := by
    rw [hline]
    have := tl_char_append_right T (m :: r) 0
    simpa using this
  have hb : (m == '(') = false := by simp [hm1]
  have hbf : ((tl_before_first pLine "::").1 == T) = false := by
    rw [hline]
    exact tl_before_first_ne T r m hm2
  unfold extract_class_type
  simp only [hlong, hchar, hb, Bool.false_eq_true, if_false, hbf]

/-- C17: for a registered class name `T` that is the longest registered class
name starting the line, when no qualifier, built-in keyword, `wx` or
registered struct name starts the line, and for every identifier `p`,
`extract_var` on `T *p;` and on `T* p;` returns found with the type `T *` and
the name `p`, on `T **p;` with the type `T **` and on `T &p;` with the type
`T &`; the separator is `;`. -/
theorem extract_var_class_pointer (T p mid suffix : STxtLine) (pSymSet : SSymbolSet)
    (hform : (mid, suffix) ∈ [(" *".toList, " *".toList), ("* ".toList, " *".toList),
      (" **".toList, " **".toList), (" &".toList, " &".toList)])
    (hT : T ∈ pSymSet.pClassSet.map (fun c => c.pName)) (hTne : T ≠ [])
    (hThead : ∀ c, T.head? = some c → c ≠ ' ' ∧ c ≠ '\t')
    (hlongest : ∀ c ∈ pSymSet.pClassSet, c.pName <+: T ++ mid ++ (p ++ [';']) →
      c.pName.length ≤ T.length)
    (hqual : ∀ q ∈ qualifier_keywords, ¬ q.toList <+: T ++ mid ++ (p ++ [';']))
    (htype : ∀ k ∈ type_keywords, ¬ k.toList <+: T ++ mid ++ (p ++ [';']))
    (hwx : ¬ "wx".toList <+: T ++ mid ++ (p ++ [';']))
    (hstruct : ∀ s ∈ pSymSet.pStructSet, s.pName <+: T ++ mid ++ (p ++ [';']) → s.pName = [])
    (hp : is_identifier p = true) :
    extract_var (T ++ mid ++ (p ++ [';'])) pSymSet =
      some ⟨true, [], .line T, some p, some (T ++ suffix), some ';'⟩ := by
  obtain ⟨c, rest, hcons, hc, hall⟩ := identifier_facts p hp
  have hfc := ident_char_facts c hc
  obtain ⟨hparen, hword, hcomp, htrimn⟩ := extract_name_identifier p hp
  have htrim : tl_trim (T ++ mid ++ (p ++ [';'])) = T ++ mid ++ (p ++ [';']) := by
    have := line_trimmed T (mid ++ p) ';' hTne hThead (by decide) (by decide)
    simpa [List.append_assoc] using this
  have htype1 := extract_var_type_class _ pSymSet hqual htype (Or.inl hwx) hstruct
  have key : ∀ (m : Char) (r : STxtLine) (n : Nat), mid = m :: r → m ≠ '(' → m ≠ ':' →
      check_var_type_for_ptrs (T ++ mid ++ (p ++ [';'])) T.length =
        ⟨T.length + n, suffix == " *".toList || suffix == " **".toList,
          suffix == " **".toList, suffix == " &".toList⟩ →
      ptr_suffix ⟨T.length + n, suffix == " *".toList || suffix == " **".toList,
          suffix == " **".toList, suffix == " &".toList⟩ = suffix →
      tl_trim ((T ++ mid ++ (p ++ [';'])).drop (T.length + n)) = p ++ [';'] →
      T.length + n ≤ (T ++ mid ++ (p ++ [';'])).length →
      extract_var (T ++ mid ++ (p ++ [';'])) pSymSet =
        some ⟨true, [], .line T, some p, some (T ++ suffix), some ';'⟩ := by
    intro m r n hmid hm1 hm2 hcheck hsuf hdrop hle
    have hcls := extract_class_type_member (T ++ mid ++ (p ++ [';'])) T m (r ++ (p ++ [';']))
      pSymSet (by rw [hmid]; simp) hm1 hm2 hT hTne hlongest
    unfold extract_var
    rw [htrim, htype1, hcls, hcheck, hsuf]
    simp only [if_true, cut_front_eq_drop _ _ hle, hdrop, Bool.not_false]
    simp [hparen, hword, hcomp]
  have hlen : ∀ (k : Nat), (T ++ mid ++ (p ++ [';'])).length = T.length + mid.length +
      (rest.length + 1 + 1) := by
    intro _
    rw [hcons]
    simp only [List.length_append, List.length_cons, List.length_nil]
  have hch : ∀ (i : Nat), tl_char (T ++ mid ++ (p ++ [';'])) (T.length + i) =
      tl_char (mid ++ (p ++ [';'])) i := by
    intro i
    rw [List.append_assoc]
    exact tl_char_append_right T _ i
  have hc1 : c ≠ '*' := hfc.2.2.2.2.2.1
  have hdropT : ∀ (n : Nat) (l : STxtLine), mid ++ (p ++ [';']) = l →
      (T ++ mid ++ (p ++ [';'])).drop (T.length + n) = l.drop n := by
    intro n l hl
    rw [List.append_assoc, hl, ← List.drop_drop, List.drop_left' rfl]
  simp only [List.mem_cons, Prod.mk.injEq, List.mem_singleton, List.not_mem_nil,
    or_false] at hform
  rcases hform with ⟨rfl, rfl⟩ | ⟨rfl, rfl⟩ | ⟨rfl, rfl⟩ | ⟨rfl, rfl⟩
  · -- `T *p;`
    apply key ' ' ['*'] 2 rfl (by decide) (by decide)
    · have h0 := hch 0
      have h1 := hch 1
      have h2 := hch 2
      rw [hcons] at h0 h1 h2
      simp only [Nat.add_zero] at h0
      have hl := hlen 0
      simp only [check_var_type_for_ptrs]
      rw [hcons, h0, h1, h2]
      rw [hcons] at hl
      simp only [hl]
      simp [tl_char, hc1]
      repeat (first | rfl | omega | rw [if_pos (by omega)])
    · rfl
    · rw [hdropT 2 _ rfl]
      simpa using htrimn
    · rw [hlen 0]
      simp only [String.toList, List.length_cons, List.length_nil]
      omega
  · -- `T* p;`
    apply key '*' [' '] 1 rfl (by decide) (by decide)
    · have h0 := hch 0
      have h1 := hch 1
      rw [hcons] at h0 h1
      simp only [Nat.add_zero] at h0
      have hl := hlen 0
      simp only [check_var_type_for_ptrs]
      rw [hcons, h0, h1]
      rw [hcons] at hl
      simp only [hl]
      simp [tl_char]
      omega
    · rfl
    · rw [hdropT 1 _ rfl]
      simpa [tl_trim_cons_blank] using htrimn
    · rw [hlen 0]
      simp only [String.toList, List.length_cons, List.length_nil]
      omega
  · -- `T **p;`
    apply key ' ' ['*', '*'] 3 rfl (by decide) (by decide)
    · have h0 := hch 0
      have h1 := hch 1
      have h2 := hch 2
      rw [hcons] at h0 h1 h2
      simp only [Nat.add_zero] at h0
      have hl := hlen 0
      simp only [check_var_type_for_ptrs]
      rw [hcons, h0, h1, h2]
      rw [hcons] at hl
      simp only [hl]
      simp [tl_char]
      repeat (first | rfl | omega | rw [if_pos (by omega)])
    · rfl
    · rw [hdropT 3 _ rfl]
      simpa using htrimn
    · rw [hlen 0]
      simp only [String.toList, List.length_cons, List.length_nil]
      omega
  · -- `T &p;`
    apply key ' ' ['&'] 2 rfl (by decide) (by decide)
    · have h0 := hch 0
      have h1 := hch 1
      rw [hcons] at h0 h1
      simp only [Nat.add_zero] at h0
      have hl := hlen 0
      simp only [check_var_type_for_ptrs]
      rw [hcons, h0, h1]
      rw [hcons] at hl
      simp only [hl]
      simp [tl_char]
      repeat (first | rfl | omega | rw [if_pos (by omega)])
    · rfl
    · rw [hdropT 2 _ rfl]
      simpa using htrimn
    · rw [hlen 0]
      simp only [String.toList, List.length_cons, List.length_nil]
      omega
/-- C17 on the lines `Foo *p;`, `Foo* p;`, `Foo **p;` and `Foo &p;` with the
class `Foo` registered. -/
theorem extract_var_class_pointer_witness :
    extract_var ("Foo".toList ++ " *".toList ++ ("p".toList ++ [';'])) deref_symbols =
      some ⟨true, [], .line "Foo".toList, some "p".toList, some ("Foo".toList ++ " *".toList),
        some ';'⟩ ∧
    extract_var ("Foo".toList ++ "* ".toList ++ ("p".toList ++ [';'])) deref_symbols =
      some ⟨true, [], .line "Foo".toList, some "p".toList, some ("Foo".toList ++ " *".toList),
        some ';'⟩ ∧
    extract_var ("Foo".toList ++ " **".toList ++ ("p".toList ++ [';'])) deref_symbols =
      some ⟨true, [], .line "Foo".toList, some "p".toList, some ("Foo".toList ++ " **".toList),
        some ';'⟩ ∧
    extract_var ("Foo".toList ++ " &".toList ++ ("p".toList ++ [';'])) deref_symbols =
      some ⟨true, [], .line "Foo".toList, some "p".toList, some ("Foo".toList ++ " &".toList),
        some ';'⟩ :=
  ⟨extract_var_class_pointer "Foo".toList "p".toList " *".toList " *".toList deref_symbols
      (by decide) (by decide) (by decide) (fun _ h => Option.some.inj h ▸ by decide)
      (by decide) (by decide) (by decide) (by decide) (by decide) (by decide),
   extract_var_class_pointer "Foo".toList "p".toList "* ".toList " *".toList deref_symbols
      (by decide) (by decide) (by decide) (fun _ h => Option.some.inj h ▸ by decide)
      (by decide) (by decide) (by decide) (by decide) (by decide) (by decide),
   extract_var_class_pointer "Foo".toList "p".toList " **".toList " **".toList deref_symbols
      (by decide) (by decide) (by decide) (fun _ h => Option.some.inj h ▸ by decide)
      (by decide) (by decide) (by decide) (by decide) (by decide) (by decide),
   extract_var_class_pointer "Foo".toList "p".toList " &".toList " &".toList deref_symbols
      (by decide) (by decide) (by decide) (fun _ h => Option.some.inj h ▸ by decide)
      (by decide) (by decide) (by decide) (by decide) (by decide) (by decide)⟩
/-! ## Constructors and destructors (C18, C19) -/

/-- C18 as stated fails for a class whose name starts with a built-in type
keyword.  With the class `integer` registered (the only and so the longest
class name starting the line), `extract_var` on
`integer::integer(int a) {` finds the keyword `int` first: it returns the type
`int`, the name `integer` and the class qualifier `eger`, with the separator
`(`, not the constructor form. -/
theorem extract_var_constructor_counterexample :
    extract_var "integer::integer(int a) \x7b".toList
        ⟨[⟨none, none, [], [], "integer".toList, none⟩], [], []⟩ =
      some ⟨true, "int a) \x7b".toList, .line "eger".toList, some "integer".toList,
        some "int".toList, some '('⟩ ∧
    longest_prefix_name "integer::integer(int a) \x7b".toList ["integer".toList] none =
      some "integer".toList := by
  decide

theorem not_prefix_of_head_ne (t l : STxtLine) (c : Char) (hl : l.head? = some c)
    (ht : t.head? ≠ some c) (hne : t ≠ []) : ¬ t <+: l := by
  intro h
  cases t with
  | nil => exact hne rfl
  | cons a t =>
    cases l with
    | nil => simp at hl
    | cons b l =>
      have := (List.cons_prefix_cons.mp h).1
      simp only [List.head?_cons, Option.some.injEq] at hl
      simp only [List.head?_cons, ne_eq, Option.some.injEq] at ht
      exact ht (this.trans hl)

/-- C18 (amended): for a registered class name `C` that is an identifier and
the longest registered class name starting the line, when no qualifier
keyword, no built-in type keyword and no registered struct name starts the
line, `extract_var` on `C::C(<params>) {` returns found in constructor form:
the type `C`, the name `C` and the class qualifier `C`; the text after the
opening parenthesis, trimmed, is left in the line, and no separator is
written. -/
theorem extract_var_constructor (C params : STxtLine) (pSymSet : SSymbolSet)
    (hC : C ∈ pSymSet.pClassSet.map (fun c => c.pName)) (hCid : is_identifier C = true)
    (hlongest : ∀ c ∈ pSymSet.pClassSet,
      c.pName <+: C ++ "::".toList ++ C ++ '(' :: params ++ ") \x7b".toList →
        c.pName.length ≤ C.length)
    (hqual : ∀ q ∈ qualifier_keywords,
      ¬ q.toList <+: C ++ "::".toList ++ C ++ '(' :: params ++ ") \x7b".toList)
    (htype : ∀ k ∈ type_keywords,
      ¬ k.toList <+: C ++ "::".toList ++ C ++ '(' :: params ++ ") \x7b".toList)
    (hstruct : ∀ s ∈ pSymSet.pStructSet,
      s.pName <+: C ++ "::".toList ++ C ++ '(' :: params ++ ") \x7b".toList → s.pName = []) :
    extract_var (C ++ "::".toList ++ C ++ '(' :: params ++ ") \x7b".toList) pSymSet =
      some ⟨true, tl_trim (params ++ ") \x7b".toList), .line C, some C, some C, none⟩ := by
  obtain ⟨c, rest, hcons, hc, hall⟩ := identifier_facts C hCid
  have hfc := ident_char_facts c hc
  have hCne : C ≠ [] := by rw [hcons]; simp
  have hcolon : ':' ∉ C := fun hmem => (ident_char_facts ':' (hall ':' hmem)).2.2.2.2.1 rfl
  -- the shapes of the line
  have hshape1 : C ++ "::".toList ++ C ++ '(' :: params ++ ") \x7b".toList =
      C ++ [':', ':'] ++ (C ++ '(' :: (params ++ ") \x7b".toList)) := by
    simp [List.append_assoc]
  have hshape2 : C ++ "::".toList ++ C ++ '(' :: params ++ ") \x7b".toList =
      (C ++ ':' :: ':' :: C) ++ '(' :: (params ++ ") \x7b".toList) := by
    simp [List.append_assoc]
  have hshape3 : C ++ "::".toList ++ C ++ '(' :: params ++ ") \x7b".toList =
      C ++ ':' :: (':' :: (C ++ '(' :: (params ++ ") \x7b".toList))) := by
    simp [List.append_assoc]
  have hshape4 : C ++ "::".toList ++ C ++ '(' :: params ++ ") \x7b".toList =
      C ++ (':' :: ':' :: C ++ '(' :: params ++ [')', ' ']) ++ ['\x7b'] := by
    simp [List.append_assoc]
  have htrim : tl_trim (C ++ "::".toList ++ C ++ '(' :: params ++ ") \x7b".toList) =
      C ++ "::".toList ++ C ++ '(' :: params ++ ") \x7b".toList := by
    rw [hshape4]
    apply line_trimmed C _ '\x7b' hCne _ (by decide) (by decide)
    intro d hd
    rw [hcons] at hd
    simp only [List.head?_cons, Option.some.injEq] at hd
    rw [← hd]
    exact ⟨hfc.2.1, hfc.2.2.1⟩
  have hword : ∃ w r sep, tl_extract_word
      (C ++ "::".toList ++ C ++ '(' :: params ++ ") \x7b".toList) = (some w, r, some sep) ∧
        sep ≠ ' ' := by
    rw [hshape2]
    obtain ⟨r', hr'⟩ := tl_extract_word_delim (C ++ ':' :: ':' :: C)
      (params ++ ") \x7b".toList) '(' (by simp) (by
        intro d hd
        simp only [List.mem_append, List.mem_cons] at hd
        rcases hd with hd | hd | hd | hd
        · exact (ident_char_facts d (hall d hd)).1
        · rw [hd]; decide
        · rw [hd]; decide
        · exact (ident_char_facts d (hall d hd)).1) (by decide) (by decide) (by decide)
    exact ⟨_, _, _, hr', by decide⟩
  have htype1 := extract_var_type_class _ pSymSet hqual htype (Or.inr hword) hstruct
  have hlong : longest_prefix_name
      (C ++ "::".toList ++ C ++ '(' :: params ++ ") \x7b".toList)
      (pSymSet.pClassSet.map (fun c => c.pName)) none = some C := by
    apply longest_prefix_name_eq _ _ _ hC hCne
    · rw [hshape1, List.append_assoc]; exact List.prefix_append C _
    · intro n hn hp
      obtain ⟨k, hk, rfl⟩ := List.mem_map.mp hn
      exact hlongest k hk hp
  have hchar : tl_char (C ++ "::".toList ++ C ++ '(' :: params ++ ") \x7b".toList) C.length =
      ':' := by
    rw [hshape3]
    have := tl_char_append_right C (':' :: (':' :: (C ++ '(' :: (params ++ ") \x7b".toList)))) 0
    simpa using this
  have hfind : tl_find (C ++ "::".toList ++ C ++ '(' :: params ++ ") \x7b".toList) "::" =
      (C.length : Int) := by
    rw [hshape1]
    exact tl_find_first_token "::" ':' [':'] C _ rfl hcolon
  have hbf : tl_before_first (C ++ "::".toList ++ C ++ '(' :: params ++ ") \x7b".toList) "::" =
      (C, true) := by
    unfold tl_before_first
    have h2 : ("::" : String).length ≠ 0 := by decide
    have hne : ¬ ((C.length : Int) = -1) := by omega
    rw [if_neg h2]
    simp only [hfind, hne, if_false, Int.toNat_ofNat]
    rw [hshape3, List.take_left' rfl]
  have hlen : C.length + 2 + C.length + 1 ≤
      (C ++ "::".toList ++ C ++ '(' :: params ++ ") \x7b".toList).length := by
    simp only [List.length_append, List.length_cons, String.toList, List.length_nil]
    omega
  have hcut1 : cut_front (C ++ "::".toList ++ C ++ '(' :: params ++ ") \x7b".toList)
      (C.length + 2) = C ++ '(' :: (params ++ ") \x7b".toList) := by
    rw [cut_front_eq_drop _ _ (by omega), hshape1]
    exact List.drop_left' (by simp)
  have hcut2 : cut_front (C ++ "::".toList ++ C ++ '(' :: params ++ ") \x7b".toList)
      (C.length + 2 + C.length + 1) = params ++ ") \x7b".toList := by
    rw [cut_front_eq_drop _ _ hlen]
    have : C ++ "::".toList ++ C ++ '(' :: params ++ ") \x7b".toList =
        (C ++ [':', ':'] ++ C ++ ['(']) ++ (params ++ ") \x7b".toList) := by
      simp [List.append_assoc]
    rw [this]
    exact List.drop_left' (by simp; omega)
  have hfindC : tl_find (C ++ '(' :: (params ++ ") \x7b".toList)) (String.mk C) = 0 :=
    (tl_find_mk_eq_zero_iff _ _).mpr (List.prefix_append C _)
  have hcls : extract_class_type (C ++ "::".toList ++ C ++ '(' :: params ++ ") \x7b".toList)
      pSymSet false none = ⟨true, true, .line C, some C, some C, C.length + 2 + C.length + 1⟩ := by
    unfold extract_class_type
    simp only [hlong, hchar, hbf, hcut1, hfindC]
    simp
  unfold extract_var
  rw [htrim, htype1, hcls]
  simp only [if_true, hcut2]
  simp

/-- C18 (amended) on the line `Foo::Foo(int a) {` with the class `Foo`
registered. -/
theorem extract_var_constructor_witness :
    extract_var ("Foo".toList ++ "::".toList ++ "Foo".toList ++ '(' :: "int a".toList ++
        ") \x7b".toList) deref_symbols =
      some ⟨true, tl_trim ("int a".toList ++ ") \x7b".toList), .line "Foo".toList,
        some "Foo".toList, some "Foo".toList, none⟩ :=
  extract_var_constructor "Foo".toList "int a".toList deref_symbols (by decide) (by decide)
    (by decide) (by decide) (by decide) (by decide)

theorem paren_prefix_unique :
    ∀ (n C rest : STxtLine), n ++ ['('] <+: C ++ '(' :: rest → '(' ∉ n → '(' ∉ C → n = C
  | [], [], _, _, _, _ => rfl
  | [], c :: C, rest, h, _, hC => by
    have := (List.cons_prefix_cons.mp h).1
    exact absurd (List.mem_cons.mpr (Or.inl this)) hC
  | a :: n, [], rest, h, hn, _ => by
    have := (List.cons_prefix_cons.mp h).1
    exact absurd (List.mem_cons.mpr (Or.inl this.symm)) hn
  | a :: n, c :: C, rest, h, hn, hC => by
    have h' := List.cons_prefix_cons.mp h
    rw [h'.1, paren_prefix_unique n C rest h'.2 (fun hm => hn (List.mem_cons_of_mem a hm))
      (fun hm => hC (List.mem_cons_of_mem c hm))]

/-- C19: for a registered class name `C`, on a line `~C(<params>) {` that no
registered class or struct name starts (class names holding no opening
parenthesis), `extract_var` returns found in destructor form: the type `C`
and the name `~C`; the text after the opening parenthesis, trimmed, is left
in the line, no separator is written and `*ppClassName` is a line without
content. -/
theorem extract_var_destructor (C params : STxtLine) (pSymSet : SSymbolSet)
    (hC : C ∈ pSymSet.pClassSet.map (fun c => c.pName))
    (hparen : ∀ c ∈ pSymSet.pClassSet, '(' ∉ c.pName)
    (hclass : ∀ c ∈ pSymSet.pClassSet,
      c.pName <+: '~' :: C ++ '(' :: params ++ ") \x7b".toList → c.pName = [])
    (hstruct : ∀ s ∈ pSymSet.pStructSet,
      s.pName <+: '~' :: C ++ '(' :: params ++ ") \x7b".toList → s.pName = []) :
    extract_var ('~' :: C ++ '(' :: params ++ ") \x7b".toList) pSymSet =
      some ⟨true, tl_trim (params ++ ") \x7b".toList), .unset, some ('~' :: C), some C,
        none⟩ := by
  have hCp : '(' ∉ C := by
    obtain ⟨k, hk, rfl⟩ := List.mem_map.mp hC
    exact hparen k hk
  have hhead : ('~' :: C ++ '(' :: params ++ ") \x7b".toList).head? = some '~' := rfl
  have hshape : '~' :: C ++ '(' :: params ++ ") \x7b".toList =
      ['~'] ++ (C ++ '(' :: params ++ [')', ' ']) ++ ['\x7b'] := by
    simp [List.append_assoc]
  have htrim : tl_trim ('~' :: C ++ '(' :: params ++ ") \x7b".toList) =
      '~' :: C ++ '(' :: params ++ ") \x7b".toList := by
    rw [hshape]
    exact line_trimmed ['~'] _ '\x7b' (by simp) (by
      intro d hd
      simp only [List.head?_cons, Option.some.injEq] at hd
      rw [← hd]
      decide) (by decide) (by decide)
  have hqual : ∀ q ∈ qualifier_keywords,
      ¬ q.toList <+: '~' :: C ++ '(' :: params ++ ") \x7b".toList := by
    intro q hq
    have : q.toList.head? ≠ some '~' ∧ q.toList ≠ [] := by
      revert q
      decide
    exact not_prefix_of_head_ne _ _ '~' hhead this.1 this.2
  have htype : ∀ q ∈ type_keywords,
      ¬ q.toList <+: '~' :: C ++ '(' :: params ++ ") \x7b".toList := by
    intro q hq
    have : q.toList.head? ≠ some '~' ∧ q.toList ≠ [] := by
      revert q
      decide
    exact not_prefix_of_head_ne _ _ '~' hhead this.1 this.2
  have hwx : ¬ "wx".toList <+: '~' :: C ++ '(' :: params ++ ") \x7b".toList :=
    not_prefix_of_head_ne _ _ '~' hhead (by decide) (by decide)
  have htype1 := extract_var_type_class _ pSymSet hqual htype (Or.inl hwx) hstruct
  have hlong : longest_prefix_name ('~' :: C ++ '(' :: params ++ ") \x7b".toList)
      (pSymSet.pClassSet.map (fun c => c.pName)) none = none := by
    apply longest_prefix_name_none
    intro n hn hp
    obtain ⟨k, hk, rfl⟩ := List.mem_map.mp hn
    exact hclass k hk hp
  have hdestr : first_destructor ('~' :: C ++ '(' :: params ++ ") \x7b".toList)
      (pSymSet.pClassSet.map (fun c => c.pName)) = some C := by
    unfold first_destructor
    apply find?_eq_some_of_unique _ C _ hC
    · simp only [decide_eq_true_eq]
      rw [tl_find_mk_eq_zero_iff]
      have : '~' :: C ++ '(' :: params ++ ") \x7b".toList =
          ('~' :: C ++ ['(']) ++ (params ++ ") \x7b".toList) := by simp [List.append_assoc]
      rw [this]
      exact List.prefix_append _ _
    · intro n hn hpn
      simp only [decide_eq_true_eq] at hpn
      rw [tl_find_mk_eq_zero_iff] at hpn
      obtain ⟨k, hk, rfl⟩ := List.mem_map.mp hn
      have h1 : k.pName ++ ['('] <+: C ++ '(' :: (params ++ ") \x7b".toList) := by
        simpa [List.append_assoc] using hpn
      exact paren_prefix_unique _ _ _ h1 (hparen k hk) hCp
  have hrem : tl_remove ('~' :: C ++ ['(']) "(" = ('~' :: C, true) := by
    have hf : tl_find (('~' :: C) ++ '(' :: []) (String.singleton '(') =
        (('~' :: C).length : Int) := by
      apply tl_find_first_char
      intro hmem
      rcases List.mem_cons.mp hmem with h | h
      · exact absurd h (by decide)
      · exact hCp h
    have hs : String.singleton '(' = "(" := rfl
    rw [hs] at hf
    have hl : ("(" : String).length = 1 := rfl
    have hne : ¬ (((('~' :: C).length : Nat) : Int) = -1) := by omega
    unfold tl_remove
    simp only [hl, one_ne_zero, if_false]
    have hf' : tl_find ('~' :: C ++ ['(']) "(" = ((('~' :: C).length : Nat) : Int) := hf
    simp only [hf', hne, if_false, Int.toNat_ofNat]
    have h1 : ('~' :: C ++ ['(']).take ('~' :: C).length = '~' :: C :=
      List.take_left' rfl
    have h2 : ('~' :: C ++ ['(']).drop (('~' :: C).length + 1) = [] := by
      apply List.drop_of_length_le
      simp
    rw [h1, h2]
    simp
  have hcls : extract_class_type ('~' :: C ++ '(' :: params ++ ") \x7b".toList) pSymSet
      false none = ⟨true, true, .unset, some ('~' :: C), some C, ('~' :: C).length + 1⟩ := by
    unfold extract_class_type
    simp only [hlong, hdestr, hrem]
    simp
  have hcut : cut_front ('~' :: C ++ '(' :: params ++ ") \x7b".toList)
      (('~' :: C).length + 1) = params ++ ") \x7b".toList := by
    rw [cut_front_eq_drop _ _ (by
      simp only [List.length_append, List.length_cons, String.toList, List.length_nil]
      omega)]
    have : '~' :: C ++ '(' :: params ++ ") \x7b".toList =
        ('~' :: C ++ ['(']) ++ (params ++ ") \x7b".toList) := by simp [List.append_assoc]
    rw [this]
    exact List.drop_left' (by simp)
  unfold extract_var
  rw [htrim, htype1, hcls]
  simp only [if_true, hcut]
  simp

/-- C19 on the line `~Foo() {` with the class `Foo` registered. -/
theorem extract_var_destructor_witness :
    extract_var ('~' :: "Foo".toList ++ '(' :: [] ++ ") \x7b".toList) deref_symbols =
      some ⟨true, tl_trim ([] ++ ") \x7b".toList), .unset, some ('~' :: "Foo".toList),
        some "Foo".toList, none⟩ :=
  extract_var_destructor "Foo".toList [] deref_symbols (by decide) (by decide) (by decide)
    (by decide)

/-! ## The parse of a page (C13, C14, C15) -/

theorem findIdx?_lt {α : Type} (p : α → Bool) (l : List α) (i : Nat)
    (h : l.findIdx? p = some i) : i < l.length := by
  obtain ⟨h1, _⟩ := List.findIdx?_eq_some_iff_getElem.mp h
  exact h1

theorem find_line_with_bound (pPage : List STxtLine) (tok : String) (idx i : Nat)
    (h : find_line_with pPage tok idx = some i) : idx ≤ i ∧ i < pPage.length := by
  unfold find_line_with at h
  rw [Option.map_eq_some'] at h
  obtain ⟨j, hj, rfl⟩ := h
  have := findIdx?_lt _ _ _ hj
  rw [List.length_drop] at this
  omega

theorem comment_run_end_bound (pPage : List STxtLine) (idx i : Nat)
    (h : comment_run_end pPage idx = some i) : idx ≤ i ∧ i < pPage.length := by
  unfold comment_run_end at h
  rw [Option.map_eq_some'] at h
  obtain ⟨j, hj, rfl⟩ := h
  have := findIdx?_lt _ _ _ hj
  rw [List.length_drop] at this
  omega

/-- `add_single` returns exactly when the array of the section has room, and
then puts the line at the end of the element list. -/
theorem add_single_eq_some (s p : SCodeSection) (t : Nat) (l : STxtLine)
    (h : s.add_single t l = some p) :
    s.ppElements.length < MAX_ELEMENTS_IN_CS ∧
      p = { s with ppElements := s.ppElements ++ [.single t l] } := by
  unfold SCodeSection.add_single at h
  split at h
  · rename_i hc
    cases h
    exact ⟨hc, rfl⟩
  · cases h

theorem add_single_map_eq_some {α : Type} (s : SCodeSection) (t : Nat) (l : STxtLine)
    (f : SCodeSection → α) (r : α) (h : (s.add_single t l).map f = some r) :
    s.ppElements.length < MAX_ELEMENTS_IN_CS ∧
      r = f { s with ppElements := s.ppElements ++ [.single t l] } := by
  rw [Option.map_eq_some'] at h
  obtain ⟨p, hp, rfl⟩ := h
  obtain ⟨hc, rfl⟩ := add_single_eq_some s p t l hp
  exact ⟨hc, rfl⟩

theorem add_single_of_lt (s : SCodeSection) (t : Nat) (l : STxtLine)
    (h : s.ppElements.length < MAX_ELEMENTS_IN_CS) :
    s.add_single t l = some { s with ppElements := s.ppElements ++ [.single t l] } :=
  if_pos h

theorem add_single_of_ge (s : SCodeSection) (t : Nat) (l : STxtLine)
    (h : MAX_ELEMENTS_IN_CS ≤ s.ppElements.length) : s.add_single t l = none :=
  if_neg (by omega)

theorem add_comment_section_total (pThis : SCodeSection) (pPage : List STxtLine)
    (index length : Nat) (h : index < pPage.length) (hl : index + length ≤ pPage.length)
    (hn : length ≤ MAX_ELEMENTS_IN_CS)
    (hcap : pThis.ppElements.length < MAX_ELEMENTS_IN_CS) :
    ∃ e, add_comment_section pThis pPage index length =
      some { pThis with ppElements := pThis.ppElements ++ [e] } := by
  unfold add_comment_section
  rw [List.getElem?_eq_getElem h]
  simp only [if_pos hl, if_pos (And.intro hn hcap)]
  exact ⟨_, rfl⟩

/-- A comment section of more lines than its array holds is not added. -/
theorem add_comment_section_overrun (pThis : SCodeSection) (pPage : List STxtLine)
    (index length : Nat) (hn : MAX_ELEMENTS_IN_CS < length) :
    add_comment_section pThis pPage index length = none := by
  unfold add_comment_section
  cases pPage[index]? with
  | none => rfl
  | some first =>
    simp only
    split
    · rw [if_neg (fun h => absurd h.1 (by omega))]
    · rfl

/-- On a page of at most `MAX_ELEMENTS_IN_CS` lines `find_comment` returns on
every line, for a section whose array has room; it changes the element list
of the section only, by at most one element and by none when it finds
nothing, and a comment found has at least one line. -/
theorem find_comment_total (pThis : SCodeSection) (pPage : List STxtLine) (index : Nat)
    (h : index < pPage.length) (hpage : pPage.length ≤ MAX_ELEMENTS_IN_CS)
    (hcap : pThis.ppElements.length < MAX_ELEMENTS_IN_CS) :
    ∃ b n es, find_comment pThis pPage index = some (b, n, { pThis with ppElements := es }) ∧
      (b = true → 1 ≤ n) ∧ (b = false → es = pThis.ppElements) ∧
      es.length ≤ pThis.ppElements.length + 1 := by
  unfold find_comment
  rw [List.getElem?_eq_getElem h]
  simp only
  by_cases h1 : tl_find (tl_trim pPage[index]) "//" = 0
  · rw [if_pos h1]
    rcases hn : pPage[index + 1]? with _ | next
    · rw [add_single_of_lt _ _ _ hcap]
      exact ⟨true, 1, _, rfl, fun _ => le_refl _, (fun hb => by cases hb), by simp⟩
    · simp only
      by_cases h2 : tl_find (tl_trim next) "//" ≠ 0
      · rw [if_pos h2, add_single_of_lt _ _ _ hcap]
        exact ⟨true, 1, _, rfl, fun _ => le_refl _, (fun hb => by cases hb), by simp⟩
      · rw [if_neg h2]
        rcases hr : comment_run_end pPage (index + 1) with _ | idx
        · exact ⟨false, 0, pThis.ppElements, rfl, (fun hb => by cases hb), fun _ => rfl,
            by omega⟩
        · have hb := comment_run_end_bound _ _ _ hr
          obtain ⟨e, he⟩ := add_comment_section_total pThis pPage index (idx - index) h
            (by omega) (by omega) hcap
          simp only [he, Option.map_some']
          exact ⟨true, _, _, rfl, (fun _ => by omega), (fun hb => by cases hb), by simp⟩
  · rw [if_neg h1]
    by_cases h2 : tl_find (tl_trim pPage[index]) "/*" = 0
    · rw [if_pos h2]
      rcases hr : find_line_with pPage "*/" (index + 1) with _ | idx
      · exact ⟨false, 0, pThis.ppElements, rfl, (fun hb => by cases hb), fun _ => rfl,
          by omega⟩
      · have hb := find_line_with_bound _ _ _ _ hr
        obtain ⟨e, he⟩ := add_comment_section_total pThis pPage index (idx + 1 - index) h
          (by omega) (by omega) hcap
        simp only [he, Option.map_some']
        exact ⟨true, _, _, rfl, (fun _ => by omega), (fun hb => by cases hb), by simp⟩
    · rw [if_neg h2]
      exact ⟨false, 0, pThis.ppElements, rfl, (fun hb => by cases hb), fun _ => rfl, by omega⟩

/-- On a page of at most `MAX_ELEMENTS_IN_CS` lines the loop of
`parse_preamble` ends when the bound allows an iteration for every line left
and the section holds no more elements than lines were read; it changes the
element list only. -/
theorem parse_preamble_loop_total (pPage : List STxtLine) (index length : Nat)
    (hl : index + length ≤ pPage.length) (hpage : pPage.length ≤ MAX_ELEMENTS_IN_CS) :
    ∀ (n idx : Nat) (pThis : SCodeSection), index ≤ idx → 1 ≤ n → index + length < idx + n →
      pThis.ppElements.length ≤ idx - index →
      ∃ b es, parse_preamble_loop pPage index length n idx pThis =
        some (b, { pThis with ppElements := es }) := by
  intro n
  induction n with
  | zero => intro idx pThis h1 h0 h2; omega
  | succ n ih =>
    intro idx pThis h1 _ h2 hcount
    unfold parse_preamble_loop
    by_cases hc : idx - index < length
    · rw [if_pos hc]
      have hidx : idx < pPage.length := by omega
      have hcap : pThis.ppElements.length < MAX_ELEMENTS_IN_CS := by omega
      obtain ⟨b, k, es, hf, hk, hnone, hes⟩ := find_comment_total pThis pPage idx hidx hpage hcap
      rw [hf]
      cases b with
      | true =>
        simp only
        have := hk rfl
        obtain ⟨b2, es2, h2⟩ := ih (idx + k) { pThis with ppElements := es } (by omega) (by omega)
          (by omega) (by simp only; omega)
        exact ⟨b2, es2, h2⟩
      | false =>
        simp only
        rw [List.getElem?_eq_getElem hidx]
        simp only
        have hes0 := hnone rfl
        by_cases he : tl_isempty pPage[idx] = true
        · rw [if_pos he, add_single_of_lt _ _ _ (by simp only [hes0]; exact hcap)]
          simp only
          obtain ⟨b2, es2, h2⟩ := ih (idx + 1)
            { pThis with ppElements := es ++ [.single CDE_S_BLANK pPage[idx]] }
            (by omega) (by omega) (by omega)
            (by simp only [hes0, List.length_append, List.length_singleton]; omega)
          exact ⟨b2, es2, h2⟩
        · rw [if_neg he]
          exact ⟨true, es, rfl⟩
    · rw [if_neg hc]
      exact ⟨false, pThis.ppElements, rfl⟩

/-- On a page of at most `MAX_ELEMENTS_IN_CS` lines a preamble section is
added, to a section whose array has room, whatever its lines are:
`add_section` returns and appends one `CDE_PREAMBLE` section, unsummarized,
to the element list. -/
theorem add_section_preamble (pPage : List STxtLine) (f index length : Nat) (first : STxtLine)
    (st : SParse) (h0 : pPage[index]? = some first) (hl : index + length ≤ pPage.length)
    (hf : length < f) (hpage : pPage.length ≤ MAX_ELEMENTS_IN_CS)
    (hcap : st.pThis.ppElements.length < MAX_ELEMENTS_IN_CS) :
    ∃ b es, add_section pPage (f + 1) CDE_PREAMBLE index length true 0 (-1) st =
      some (b, ⟨{ st.pThis with ppElements := (st.pThis.ppElements ++
          [.sec CDE_PREAMBLE (summary_line first false) ⟨false, 0, -1, []⟩ es]) },
        st.pSymSet⟩) := by
  obtain ⟨b, es, hloop⟩ := parse_preamble_loop_total pPage index length hl hpage f index
    { type := CDE_PREAMBLE, pLine := summary_line first false, bSummarized := false,
      symLinkType := 0, symLinkIndex := -1, pVarSet := [], ppElements := [],
      handle := st.pThis.ppElements.length :: st.pThis.handle,
      fileOffset := st.pThis.fileOffset + st.pThis.get_length,
      containerType := st.pThis.type } (le_refl _) (by omega) (by omega) (by simp)
  refine ⟨!b, es, ?_⟩
  have hne : ¬ CDE_PREAMBLE = CDE_SUBBLOCK := by decide
  have hne2 : ¬ CDE_PREAMBLE = CDE_CODEBASE := by decide
  simp only [add_section, parse, parse_preamble, h0, hne, hne2, if_false, if_true,
    ne_eq, not_true_eq_false, decide_False, if_pos hcap]
  rw [hloop]
  rfl

/-- A block that is its marker line alone is added, to a section whose array
has room, as a summarized `CDE_BLOCK` section holding the marker. -/
theorem add_section_marker_block (pPage : List STxtLine) (f index : Nat) (l : STxtLine)
    (st : SParse) (h : pPage[index]? = some l)
    (hcap : st.pThis.ppElements.length < MAX_ELEMENTS_IN_CS) :
    add_section pPage (f + 2) CDE_BLOCK index 1 true 0 (-1) st =
      some (true, ⟨{ st.pThis with ppElements := (st.pThis.ppElements ++
          [.sec CDE_BLOCK (tl_remove (summary_line l false) "// BLOCK: ").1 ⟨true, 0, -1, []⟩
            [.single CDE_S_BLOCKSTART l]]) },
        st.pSymSet⟩) := by
  have hne : ¬ CDE_BLOCK = CDE_SUBBLOCK := by decide
  have hne2 : ¬ CDE_BLOCK = CDE_CODEBASE := by decide
  have hne3 : ¬ CDE_BLOCK = CDE_PREAMBLE := by decide
  have h0 : (0 : Nat) < MAX_ELEMENTS_IN_CS := by decide
  simp only [add_section, parse, parse_block, h, hne, hne2, hne3, if_false, if_true,
    parse_block_loop, Nat.add_sub_cancel_left, lt_self_iff_false, if_pos hcap,
    SCodeSection.add_single, List.length_nil, if_pos h0]
  rfl

/-- The loop of `parse_codebase` steps over lines that are no block marker. -/
theorem parse_codebase_loop_skip (add : AddSection) (pPage : List STxtLine) (length : Nat)
    (k : Nat) : ∀ (n offset offsetPrev numBlocks : Nat) (st : SParse),
      (∀ j, offset ≤ j → j < offset + k →
        ∃ l, pPage[j]? = some l ∧ tl_find l "// BLOCK:" ≠ 0) →
      offset + k < length →
      parse_codebase_loop add pPage 0 length (n + k) offsetPrev offset numBlocks st =
        parse_codebase_loop add pPage 0 length n offsetPrev (offset + k) numBlocks st := by
  induction k with
  | zero => intro n offset offsetPrev numBlocks st _ _; rfl
  | succ k ih =>
    intro n offset offsetPrev numBlocks st hlines hlen
    obtain ⟨l, hl, hm⟩ := hlines offset (le_refl _) (by omega)
    have hstep : parse_codebase_loop add pPage 0 length (n + k + 1) offsetPrev offset numBlocks st
        = parse_codebase_loop add pPage 0 length (n + k) offsetPrev (offset + 1) numBlocks st := by
      rw [parse_codebase_loop]
      simp only [Nat.zero_add, hl, if_neg hm]
      rw [if_neg (by omega)]
    rw [show n + (k + 1) = n + k + 1 from rfl, hstep,
      ih n (offset + 1) offsetPrev numBlocks st
        (fun j h1 h2 => hlines j (by omega) (by omega)) (by omega)]
    rw [show offset + 1 + k = offset + (k + 1) by omega]

/-- The loop of `parse_codebase` at a block marker that is not the last line:
the section before the marker is added (its return value is dropped) and the
loop goes on from the next line. -/
theorem parse_codebase_loop_marker (add : AddSection) (pPage : List STxtLine)
    (length n offsetPrev offset numBlocks : Nat) (st : SParse) (l : STxtLine)
    (r : Bool × SParse) (hl : pPage[offset]? = some l) (hm : tl_find l "// BLOCK:" = 0)
    (hne : offset + 1 ≠ length)
    (hadd : add (if numBlocks = 0 then CDE_PREAMBLE else CDE_BLOCK) offsetPrev
      (offset - offsetPrev) true 0 (-1) st = some r) :
    parse_codebase_loop add pPage 0 length (n + 1) offsetPrev offset numBlocks st =
      parse_codebase_loop add pPage 0 length n offset (offset + 1) (numBlocks + 1) r.2 := by
  rw [parse_codebase_loop]
  simp only [Nat.zero_add, hl, if_pos hm, hadd, Option.map_some', if_neg hne]

/-- The loop of `parse_codebase` at a block marker that is the last line: the
section before the marker and the last block are added, and the value
returned is that of the last block unless the number of markers is not
`MODAL_NUMBLOCKS`. -/
theorem parse_codebase_loop_last (add : AddSection) (pPage : List STxtLine)
    (length n offsetPrev offset numBlocks : Nat) (st : SParse) (l : STxtLine)
    (r r2 : Bool × SParse) (hl : pPage[offset]? = some l) (hm : tl_find l "// BLOCK:" = 0)
    (hlast : offset + 1 = length)
    (hadd : add (if numBlocks = 0 then CDE_PREAMBLE else CDE_BLOCK) offsetPrev
      (offset - offsetPrev) true 0 (-1) st = some r)
    (hadd2 : add CDE_BLOCK offset 1 true 0 (-1) r.2 = some r2) :
    parse_codebase_loop add pPage 0 length (n + 1) offsetPrev offset numBlocks st =
      some (if numBlocks + 1 ≠ MODAL_NUMBLOCKS then false else r2.1, r2.2) := by
  rw [parse_codebase_loop]
  simp only [Nat.zero_add, hl, if_pos hm, hadd, Option.map_some', if_pos hlast,
    Nat.add_sub_cancel_left, hadd2]

/-- The loop of `parse_codebase` at a block marker that follows a block made
of its marker line alone, and is not the last line: the block before is added
when the array of the section has room, and the loop goes on from the next
line. -/
theorem parse_codebase_loop_marker_block (add : AddSection) (pPage : List STxtLine)
    (hblk : ∀ (index : Nat) (l : STxtLine) (st : SParse), pPage[index]? = some l →
      st.pThis.ppElements.length < MAX_ELEMENTS_IN_CS →
      add CDE_BLOCK index 1 true 0 (-1) st =
        some (true, ⟨{ st.pThis with ppElements := (st.pThis.ppElements ++
          [.sec CDE_BLOCK (tl_remove (summary_line l false) "// BLOCK: ").1 ⟨true, 0, -1, []⟩
            [.single CDE_S_BLOCKSTART l]]) }, st.pSymSet⟩))
    (length n offsetPrev offset numBlocks : Nat) (st : SParse) (l0 l : STxtLine)
    (hl0 : pPage[offsetPrev]? = some l0) (hl : pPage[offset]? = some l)
    (hm : tl_find l "// BLOCK:" = 0) (hne : offset + 1 ≠ length) (hnb : numBlocks ≠ 0)
    (hone : offset - offsetPrev = 1)
    (hcap : st.pThis.ppElements.length < MAX_ELEMENTS_IN_CS) :
    parse_codebase_loop add pPage 0 length (n + 1) offsetPrev offset numBlocks st =
      parse_codebase_loop add pPage 0 length n offset (offset + 1) (numBlocks + 1)
        ⟨{ st.pThis with ppElements := (st.pThis.ppElements ++
          [.sec CDE_BLOCK (tl_remove (summary_line l0 false) "// BLOCK: ").1 ⟨true, 0, -1, []⟩
            [.single CDE_S_BLOCKSTART l0]]) }, st.pSymSet⟩ := by
  rw [parse_codebase_loop_marker add pPage length n offsetPrev offset numBlocks st l _ hl hm hne
    (by rw [if_neg hnb, hone]; exact hblk offsetPrev l0 st hl0 hcap)]

/-- The loop of `parse_codebase` at a block marker that follows a block made
of its marker line alone, and is the last line: the block before and the last
block are added when the array of the section has room for both. -/
theorem parse_codebase_loop_last_block (add : AddSection) (pPage : List STxtLine)
    (hblk : ∀ (index : Nat) (l : STxtLine) (st : SParse), pPage[index]? = some l →
      st.pThis.ppElements.length < MAX_ELEMENTS_IN_CS →
      add CDE_BLOCK index 1 true 0 (-1) st =
        some (true, ⟨{ st.pThis with ppElements := (st.pThis.ppElements ++
          [.sec CDE_BLOCK (tl_remove (summary_line l false) "// BLOCK: ").1 ⟨true, 0, -1, []⟩
            [.single CDE_S_BLOCKSTART l]]) }, st.pSymSet⟩))
    (length n offsetPrev offset numBlocks : Nat) (st : SParse) (l0 l : STxtLine)
    (hl0 : pPage[offsetPrev]? = some l0) (hl : pPage[offset]? = some l)
    (hm : tl_find l "// BLOCK:" = 0) (hlast : offset + 1 = length) (hnb : numBlocks ≠ 0)
    (hone : offset - offsetPrev = 1)
    (hcap : st.pThis.ppElements.length + 1 < MAX_ELEMENTS_IN_CS) :
    parse_codebase_loop add pPage 0 length (n + 1) offsetPrev offset numBlocks st =
      some (if numBlocks + 1 ≠ MODAL_NUMBLOCKS then false else true,
        ⟨{ st.pThis with ppElements := (st.pThis.ppElements ++
          [.sec CDE_BLOCK (tl_remove (summary_line l0 false) "// BLOCK: ").1 ⟨true, 0, -1, []⟩
            [.single CDE_S_BLOCKSTART l0]] ++
          [.sec CDE_BLOCK (tl_remove (summary_line l false) "// BLOCK: ").1 ⟨true, 0, -1, []⟩
            [.single CDE_S_BLOCKSTART l]]) }, st.pSymSet⟩) := by
  rw [parse_codebase_loop_last add pPage length n offsetPrev offset numBlocks st l _ _ hl hm
    hlast
    (by rw [if_neg hnb, hone]
        exact hblk offsetPrev l0 st hl0 (by omega))
    (hblk offset l _ hl
      (by simp only [List.length_append, List.length_singleton]; omega))]

/-- C13 within the capacity of the arrays: a page of at most
`MAX_ELEMENTS_IN_CS` lines made of a preamble whose first line starts with
`// PREAMBLE:` (none of its other lines starting with `// BLOCK:`) followed by
exactly six lines starting with `// BLOCK:` is parsed, within a bound of the
page length plus three, with return value true, and the root holds exactly
seven elements: one `CDE_PREAMBLE` section, then one `CDE_BLOCK` section for
each marker line, holding that line. -/
theorem parse_codebase_minimal (first : STxtLine) (rest B : List STxtLine) (fuel : Nat)
    (hpre : tl_find first "// PREAMBLE:" = 0)
    (hrest : ∀ l ∈ rest, tl_find l "// BLOCK:" ≠ 0)
    (hB : B.length = 6) (hmark : ∀ l ∈ B, tl_find l "// BLOCK:" = 0)
    (hsmall : rest.length + 7 ≤ MAX_ELEMENTS_IN_CS)
    (hfuel : rest.length + 10 ≤ fuel) :
    ∃ es bRoot, parse_page fuel (first :: rest ++ B) = some (true,
      .sec CDE_CODEBASE "The CodeBase".toList ⟨bRoot, 0, -1, []⟩
        (.sec CDE_PREAMBLE (summary_line first false) ⟨false, 0, -1, []⟩ es ::
          B.map (fun l => .sec CDE_BLOCK (tl_remove (summary_line l false) "// BLOCK: ").1
            ⟨true, 0, -1, []⟩ [.single CDE_S_BLOCKSTART l])),
      ⟨[], [], []⟩) := by
  obtain ⟨b1, b2, b3, b4, b5, b6, rfl⟩ : ∃ b1 b2 b3 b4 b5 b6, B = [b1, b2, b3, b4, b5, b6] := by
    match B, hB with
    | [b1, b2, b3, b4, b5, b6], _ => exact ⟨b1, b2, b3, b4, b5, b6, rfl⟩
  obtain ⟨f, rfl⟩ : ∃ f, fuel = f + 2 := ⟨fuel - 2, by omega⟩
  obtain ⟨n, hn⟩ : ∃ n, f + 2 = n + 6 + rest.length := ⟨f + 2 - 6 - rest.length, by omega⟩
  have hm1 := hmark b1 (by simp)
  have hm2 := hmark b2 (by simp)
  have hm3 := hmark b3 (by simp)
  have hm4 := hmark b4 (by simp)
  have hm5 := hmark b5 (by simp)
  have hm6 := hmark b6 (by simp)
  generalize hpage : first :: rest ++ [b1, b2, b3, b4, b5, b6] = page
  have hlen : page.length = rest.length + 7 := by rw [← hpage]; simp
  have h0 : page[0]? = some first := by rw [← hpage]; simp
  have hat : ∀ j, j < 6 → page[rest.length + 1 + j]? = [b1, b2, b3, b4, b5, b6][j]? := by
    intro j _
    rw [← hpage, List.cons_append, Nat.add_right_comm, List.getElem?_cons_succ,
      List.getElem?_append_right (by omega)]
    congr 1
    omega
  have hskip : ∀ j, 1 ≤ j → j < 1 + rest.length →
      ∃ l, page[j]? = some l ∧ tl_find l "// BLOCK:" ≠ 0 := by
    intro j h1 h2
    obtain ⟨i, rfl⟩ : ∃ i, j = i + 1 := ⟨j - 1, by omega⟩
    have hi : i < rest.length := by omega
    refine ⟨rest[i], ?_, hrest _ (List.getElem_mem _)⟩
    rw [← hpage, List.cons_append, List.getElem?_cons_succ, List.getElem?_append_left hi,
      List.getElem?_eq_getElem hi]
  have hk1 := hat 0 (by omega)
  have hk2 := hat 1 (by omega)
  have hk3 := hat 2 (by omega)
  have hk4 := hat 3 (by omega)
  have hk5 := hat 4 (by omega)
  have hk6 := hat 5 (by omega)
  simp only [List.getElem?_cons_zero, List.getElem?_cons_succ, Nat.add_zero] at hk1 hk2 hk3
  simp only [List.getElem?_cons_zero, List.getElem?_cons_succ] at hk4 hk5 hk6
  -- the sections added
  have hroot : new_base_section.pThis.ppElements = [] := rfl
  obtain ⟨bp, es, hp⟩ := add_section_preamble page (f + 1) 0 (rest.length + 1) first
    new_base_section h0 (by omega) (by omega) (by omega) (by decide)
  have hblk := add_section_marker_block page f
  refine ⟨es, false, ?_⟩
  have hcb : new_base_section.pThis.type = CDE_CODEBASE := rfl
  simp only [parse_page, parse, hcb, if_true, parse_codebase, h0, hpre, hlen]
  generalize add_section page (f + 2) = add at hp hblk ⊢
  rw [hn, parse_codebase_loop_skip add page (rest.length + 7) rest.length (n + 6) 1 0 0
    new_base_section hskip (by omega), Nat.add_comm 1 rest.length]
  rw [parse_codebase_loop_marker add page _ (n + 5) 0 _ 0 _ b1 _ hk1 hm1 (by omega)
    (by simpa using hp)]
  rw [parse_codebase_loop_marker_block add page hblk _ (n + 4) _ _ 1 _ b1 b2 hk1 hk2 hm2
    (by omega) (by decide) (by omega)]
  rw [parse_codebase_loop_marker_block add page hblk _ (n + 3) _ _ 2 _ b2 b3 hk2 hk3 hm3
    (by omega) (by decide) (by omega)]
  rw [parse_codebase_loop_marker_block add page hblk _ (n + 2) _ _ 3 _ b3 b4 hk3 hk4 hm4
    (by omega) (by decide) (by omega)]
  rw [parse_codebase_loop_marker_block add page hblk _ (n + 1) _ _ 4 _ b4 b5 hk4 hk5 hm5
    (by omega) (by decide) (by omega)]
  rw [parse_codebase_loop_last_block add page hblk _ n _ _ 5 _ b5 b6 hk5 hk6 hm6 (by omega)
    (by decide) (by omega)]
  · simp [new_base_section, SCodeSection.pBaseElem]
  all_goals simp [hroot, MAX_ELEMENTS_IN_CS]

/-- C13 within capacity, on a two-line preamble comment followed by six block
markers. -/
theorem parse_codebase_minimal_small :
    ∃ es bRoot, parse_page 11 ("// PREAMBLE: demo".toList :: ["// of a code base".toList] ++
        ["// BLOCK: 1".toList, "// BLOCK: 2".toList, "// BLOCK: 3".toList, "// BLOCK: 4".toList,
          "// BLOCK: 5".toList, "// BLOCK: 6".toList]) = some (true,
      .sec CDE_CODEBASE "The CodeBase".toList ⟨bRoot, 0, -1, []⟩
        (.sec CDE_PREAMBLE (summary_line "// PREAMBLE: demo".toList false) ⟨false, 0, -1, []⟩ es ::
          ["// BLOCK: 1".toList, "// BLOCK: 2".toList, "// BLOCK: 3".toList,
            "// BLOCK: 4".toList, "// BLOCK: 5".toList, "// BLOCK: 6".toList].map
            (fun l => .sec CDE_BLOCK (tl_remove (summary_line l false) "// BLOCK: ").1
              ⟨true, 0, -1, []⟩ [.single CDE_S_BLOCKSTART l])),
      ⟨[], [], []⟩) :=
  parse_codebase_minimal _ _ _ 11 (by decide) (by decide) rfl (by decide) (by decide)
    (by decide)

/-! ### A preamble longer than the array of its comment section (C13) -/

theorem dropWhile_append_of_head {α : Type} (p : α → Bool) (c : α) (ys : List α)
    (hc : p c = false) :
    ∀ (xs : List α), (xs ++ c :: ys).dropWhile p = xs.dropWhile p ++ c :: ys
  | [] => by simp [List.dropWhile, hc]
  | a :: xs => by
    cases h : p a with
    | true =>
      rw [List.cons_append, List.dropWhile_cons_of_pos h, List.dropWhile_cons_of_pos h]
      exact dropWhile_append_of_head p c ys hc xs
    | false =>
      rw [List.cons_append, List.dropWhile_cons_of_neg (by simp [h]),
        List.dropWhile_cons_of_neg (by simp [h])]
      rfl

/-- A token that starts and ends with a character other than space and tab,
when it starts a line, starts the trimmed line. -/
theorem tl_find_trim_zero (l : STxtLine) (tok : String) (a z : Char) (mid : List Char)
    (htok : tok.toList = a :: (mid ++ [z])) (ha1 : a ≠ ' ') (ha2 : a ≠ '\t')
    (hz1 : z ≠ ' ') (hz2 : z ≠ '\t') (h : tl_find l tok = 0) :
    tl_find (tl_trim l) tok = 0 := by
  rw [tl_find_eq_zero_iff] at h ⊢
  obtain ⟨r, rfl⟩ := h
  rw [htok]
  have ha : (a == ' ' || a == '\t') = false := by simp [ha1, ha2]
  have hz : (z == ' ' || z == '\t') = false := by simp [hz1, hz2]
  unfold tl_trim
  rw [List.cons_append, List.dropWhile_cons_of_neg (by simp [ha])]
  have hrev : (a :: (mid ++ [z] ++ r)).reverse = r.reverse ++ z :: (mid.reverse ++ [a]) := by
    simp
  rw [hrev, dropWhile_append_of_head _ z _ hz]
  refine ⟨(r.reverse.dropWhile (fun c => c == ' ' || c == '\t')).reverse, ?_⟩
  simp

/-- The comment run that `find_comment` measures from `idx` ends at the first
line that holds a block marker, when the lines before it are comment lines
without marker. -/
theorem comment_run_end_marker (pPage : List STxtLine) (idx k : Nat) (b : STxtLine)
    (hrun : ∀ j, idx ≤ j → j < idx + k → ∃ l, pPage[j]? = some l ∧
      tl_find (tl_trim l) "//" = 0 ∧ tl_find (tl_trim l) "// BLOCK:" = -1 ∧
      tl_find (tl_trim l) "// SUBBLOCK:" = -1)
    (hb : pPage[idx + k]? = some b) (hend : tl_find (tl_trim b) "// BLOCK:" ≠ -1) :
    comment_run_end pPage idx = some (idx + k) := by
  have hk : idx + k < pPage.length := by
    by_contra h
    rw [List.getElem?_eq_none (by omega)] at hb
    cases hb
  unfold comment_run_end
  have hfind : (pPage.drop idx).findIdx? (fun l =>
      !(decide (tl_find (tl_trim l) "//" = 0) && decide (tl_find (tl_trim l) "// BLOCK:" = -1) &&
        decide (tl_find (tl_trim l) "// SUBBLOCK:" = -1))) = some k := by
    rw [List.findIdx?_eq_some_iff_getElem]
    refine ⟨by rw [List.length_drop]; omega, ?_, ?_⟩
    · rw [List.getElem_drop]
      rw [List.getElem?_eq_getElem hk] at hb
      cases hb
      simp [hend]
    · intro j hj
      obtain ⟨l, hl, h1, h2, h3⟩ := hrun (idx + j) (by omega) (by omega)
      have hjlt : idx + j < pPage.length := by omega
      rw [List.getElem_drop]
      rw [List.getElem?_eq_getElem hjlt] at hl
      cases hl
      simp [h1, h2, h3]
  rw [hfind]
  simp [Nat.add_comm]

/-- At the first line of a run of more than `MAX_ELEMENTS_IN_CS` comment
lines that a block marker ends, `find_comment` does not return: the comment
section takes one `add_single` for each line of the run. -/
theorem find_comment_overrun (pThis : SCodeSection) (pPage : List STxtLine) (index k : Nat)
    (first b : STxtLine) (h0 : pPage[index]? = some first)
    (hfirst : tl_find (tl_trim first) "//" = 0)
    (hrun : ∀ j, index + 1 ≤ j → j < index + 1 + k → ∃ l, pPage[j]? = some l ∧
      tl_find (tl_trim l) "//" = 0 ∧ tl_find (tl_trim l) "// BLOCK:" = -1 ∧
      tl_find (tl_trim l) "// SUBBLOCK:" = -1)
    (hb : pPage[index + 1 + k]? = some b) (hend : tl_find (tl_trim b) "// BLOCK:" ≠ -1)
    (hlong : MAX_ELEMENTS_IN_CS ≤ k) : find_comment pThis pPage index = none := by
  obtain ⟨next, hnext, hn1, _, _⟩ := hrun (index + 1) (le_refl _) (by
    have : 0 < MAX_ELEMENTS_IN_CS := by decide
    omega)
  have hrun_end := comment_run_end_marker pPage (index + 1) k b hrun hb hend
  unfold find_comment
  simp only [h0, if_pos hfirst, hnext, hn1, ne_eq, not_true_eq_false, if_false, hrun_end]
  rw [add_comment_section_overrun pThis pPage index _ (by omega)]
  rfl

/-- The loop of `parse_codebase` does not return when the section it adds at
the first block marker it reaches is not added. -/
theorem parse_codebase_loop_none (add : AddSection) (pPage : List STxtLine)
    (length offsetPrev numBlocks : Nat) (st : SParse) :
    ∀ (k n offset : Nat),
      (∀ j, offset ≤ j → j < offset + k →
        ∃ l, pPage[j]? = some l ∧ tl_find l "// BLOCK:" ≠ 0) →
      (∃ l, pPage[offset + k]? = some l ∧ tl_find l "// BLOCK:" = 0) →
      offset + k < length →
      add (if numBlocks = 0 then CDE_PREAMBLE else CDE_BLOCK) offsetPrev
        (offset + k - offsetPrev) true 0 (-1) st = none →
      parse_codebase_loop add pPage 0 length n offsetPrev offset numBlocks st = none := by
  intro k
  induction k with
  | zero =>
    intro n offset _ hmark _ hadd
    obtain ⟨l, hl, hm⟩ := hmark
    cases n with
    | zero => rw [parse_codebase_loop]
    | succ n =>
      rw [parse_codebase_loop]
      simp only [Nat.zero_add, Nat.add_zero] at hl hadd ⊢
      simp only [hl, if_pos hm, hadd, Option.map_none']
  | succ k ih =>
    intro n offset hlines hmark hlen hadd
    cases n with
    | zero => rw [parse_codebase_loop]
    | succ n =>
      obtain ⟨l, hl, hm⟩ := hlines offset (le_refl _) (by omega)
      rw [parse_codebase_loop]
      simp only [Nat.zero_add, hl, if_neg hm]
      rw [if_neg (by omega)]
      exact ih n (offset + 1) (fun j h1 h2 => hlines j (by omega) (by omega))
        (by rw [show offset + 1 + k = offset + (k + 1) by omega]; exact hmark) (by omega)
        (by rw [show offset + 1 + k = offset + (k + 1) by omega]; exact hadd)

/-- A preamble section that begins with a run of more than
`MAX_ELEMENTS_IN_CS` comment lines is not added. -/
theorem add_section_preamble_overrun (pPage : List STxtLine) (length k : Nat)
    (first b : STxtLine) (h0 : pPage[0]? = some first)
    (hfirst : tl_find (tl_trim first) "//" = 0)
    (hrun : ∀ j, 0 + 1 ≤ j → j < 0 + 1 + k → ∃ l, pPage[j]? = some l ∧
      tl_find (tl_trim l) "//" = 0 ∧ tl_find (tl_trim l) "// BLOCK:" = -1 ∧
      tl_find (tl_trim l) "// SUBBLOCK:" = -1)
    (hb : pPage[0 + 1 + k]? = some b) (hend : tl_find (tl_trim b) "// BLOCK:" ≠ -1)
    (hlong : MAX_ELEMENTS_IN_CS ≤ k) (hlen : 0 < length) :
    ∀ (fuel : Nat) (st : SParse),
      add_section pPage fuel CDE_PREAMBLE 0 length true 0 (-1) st = none
  | 0, _ => rfl
  | f + 1, st => by
    have hne : ¬ CDE_PREAMBLE = CDE_SUBBLOCK := by decide
    have hne2 : ¬ CDE_PREAMBLE = CDE_CODEBASE := by decide
    have hloop : ∀ (pThis : SCodeSection),
        parse_preamble_loop pPage 0 length f 0 pThis = none := by
      intro pThis
      cases f with
      | zero => rw [parse_preamble_loop]
      | succ n =>
        rw [parse_preamble_loop, if_pos (by omega),
          find_comment_overrun pThis pPage 0 k first b h0 hfirst hrun hb hend hlong]
    simp only [add_section, parse, parse_preamble, h0, hne, hne2, if_false, if_true, hloop,
      Option.map_none', ite_self]

/-- C13, failing pages: on every page made of a first line starting with
`// PREAMBLE:`, then at least `MAX_ELEMENTS_IN_CS` more comment lines (lines
that, trimmed, start with `//` and hold no block or sub-block marker) and
then exactly six lines starting with `// BLOCK:`, the parse gives no result
within any bound: the preamble is one comment run of more than
`MAX_ELEMENTS_IN_CS` lines, and `find_comment` stores its lines one by one in
the array of a comment section, which has room for `MAX_ELEMENTS_IN_CS`
pointers only. -/
theorem parse_codebase_preamble_overrun (first : STxtLine) (rest B : List STxtLine)
    (fuel : Nat) (hpre : tl_find first "// PREAMBLE:" = 0)
    (hrest : ∀ l ∈ rest, tl_find (tl_trim l) "//" = 0 ∧
      tl_find (tl_trim l) "// BLOCK:" = -1 ∧ tl_find (tl_trim l) "// SUBBLOCK:" = -1)
    (hlong : MAX_ELEMENTS_IN_CS ≤ rest.length)
    (hB : B.length = 6) (hmark : ∀ l ∈ B, tl_find l "// BLOCK:" = 0) :
    parse_page fuel (first :: rest ++ B) = none := by
  obtain ⟨b1, bs, rfl⟩ : ∃ b1 bs, B = b1 :: bs := by
    cases B with
    | nil => cases hB
    | cons b1 bs => exact ⟨b1, bs, rfl⟩
  have hm1 := hmark b1 (by simp)
  have hfirst : tl_find (tl_trim first) "//" = 0 := by
    have h := tl_find_trim_zero first "// PREAMBLE:" '/' ':' "/ PREAMBLE".toList rfl
      (by decide) (by decide) (by decide) (by decide) hpre
    rw [tl_find_eq_zero_iff] at h ⊢
    exact (show "//".toList <+: "// PREAMBLE:".toList by decide).trans h
  have hend : tl_find (tl_trim b1) "// BLOCK:" ≠ -1 := by
    rw [tl_find_trim_zero b1 "// BLOCK:" '/' ':' "/ BLOCK".toList rfl
      (by decide) (by decide) (by decide) (by decide) hm1]
    decide
  generalize hpage : first :: rest ++ b1 :: bs = page
  have hlen : page.length = rest.length + bs.length + 2 := by rw [← hpage]; simp; omega
  have h0 : page[0]? = some first := by rw [← hpage]; simp
  have hb1 : page[0 + 1 + rest.length]? = some b1 := by
    rw [← hpage, Nat.zero_add, Nat.add_comm, List.cons_append, List.getElem?_cons_succ,
      List.getElem?_append_right (le_refl _)]
    simp
  have hat : ∀ j, 0 + 1 ≤ j → j < 0 + 1 + rest.length → ∃ l, page[j]? = some l ∧ l ∈ rest := by
    intro j h1 h2
    obtain ⟨i, rfl⟩ : ∃ i, j = i + 1 := ⟨j - 1, by omega⟩
    have hi : i < rest.length := by omega
    refine ⟨rest[i], ?_, List.getElem_mem _⟩
    rw [← hpage, List.cons_append, List.getElem?_cons_succ, List.getElem?_append_left hi,
      List.getElem?_eq_getElem hi]
  have hrun : ∀ j, 0 + 1 ≤ j → j < 0 + 1 + rest.length → ∃ l, page[j]? = some l ∧
      tl_find (tl_trim l) "//" = 0 ∧ tl_find (tl_trim l) "// BLOCK:" = -1 ∧
      tl_find (tl_trim l) "// SUBBLOCK:" = -1 := by
    intro j h1 h2
    obtain ⟨l, hl, hmem⟩ := hat j h1 h2
    exact ⟨l, hl, hrest l hmem⟩
  have hskip : ∀ j, 1 ≤ j → j < 1 + rest.length →
      ∃ l, page[j]? = some l ∧ tl_find l "// BLOCK:" ≠ 0 := by
    intro j h1 h2
    obtain ⟨l, hl, hmem⟩ := hat j (by omega) (by omega)
    refine ⟨l, hl, fun hz => ?_⟩
    have h := tl_find_trim_zero l "// BLOCK:" '/' ':' "/ BLOCK".toList rfl
      (by decide) (by decide) (by decide) (by decide) hz
    rw [(hrest l hmem).2.1] at h
    exact absurd h (by decide)
  have hadd := add_section_preamble_overrun page (1 + rest.length - 0) rest.length first b1 h0
    hfirst hrun hb1 hend hlong (by omega) fuel new_base_section
  have hcb : new_base_section.pThis.type = CDE_CODEBASE := rfl
  simp only [parse_page, parse, hcb, if_true, parse_codebase, h0, hpre]
  rw [parse_codebase_loop_none (add_section page fuel) page page.length 0 0 new_base_section
    rest.length fuel 1 hskip ⟨b1, by simpa using hb1, hm1⟩ (by omega) (by simpa using hadd)]
  rfl

/-- C13, a failing page: the preamble line, 200 comment lines and six block
markers. -/
theorem parse_codebase_preamble_overrun_witness :
    parse_page 1000 ("// PREAMBLE: p".toList :: List.replicate 200 "// c".toList ++
      ["// BLOCK: 1".toList, "// BLOCK: 2".toList, "// BLOCK: 3".toList, "// BLOCK: 4".toList,
        "// BLOCK: 5".toList, "// BLOCK: 6".toList]) = none :=
  parse_codebase_preamble_overrun _ _ _ 1000 (by decide)
    (fun l hl => by rw [List.eq_of_mem_replicate hl]; decide)
    (by rw [List.length_replicate]) rfl (by decide)

/-- The iteration of the loop of `parse_block` at a sub-block marker that is
the last line of the block: the inner loop is not entered, nothing is added
and the line index stays, so the next iteration starts from the same state. -/
theorem parse_block_loop_trailing_marker (add : AddSection) (fuel : Nat)
    (pPage : List STxtLine) (index length idx n : Nat) (b : Bool) (st : SParse)
    (l : STxtLine) (hl : pPage[idx]? = some l) (hm : tl_find l "// SUBBLOCK:" = 0)
    (hlast : idx - index + 1 = length) :
    parse_block_loop add fuel pPage index length (n + 1) idx b st =
      parse_block_loop add fuel pPage index length n idx true st := by
  rw [parse_block_loop]
  have h1 : idx - index < length := by omega
  have h2 : ¬ idx - index + 1 < length := by omega
  simp only [if_pos h1, hl, if_pos hm, subblock_length, if_neg h2]

theorem parse_block_loop_trailing_marker_none (add : AddSection) (fuel : Nat)
    (pPage : List STxtLine) (index length idx : Nat) (l : STxtLine)
    (hl : pPage[idx]? = some l) (hm : tl_find l "// SUBBLOCK:" = 0)
    (hlast : idx - index + 1 = length) :
    ∀ (n : Nat) (b : Bool) (st : SParse),
      parse_block_loop add fuel pPage index length n idx b st = none
  | 0, _, _ => by rw [parse_block_loop]
  | n + 1, b, st => by
    rw [parse_block_loop_trailing_marker add fuel pPage index length idx n b st l hl hm hlast]
    exact parse_block_loop_trailing_marker_none add fuel pPage index length idx l hl hm hlast
      n true st

/-- A block of two lines, the marker and a sub-block marker, is not added
within any bound. -/
theorem add_section_trailing_marker_none (pPage : List STxtLine) (index : Nat)
    (first l : STxtLine) (hf : pPage[index]? = some first)
    (hl : pPage[index + 1]? = some l) (hm : tl_find l "// SUBBLOCK:" = 0) :
    ∀ (fuel : Nat) (st : SParse),
      add_section pPage fuel CDE_BLOCK index 2 true 0 (-1) st = none
  | 0, _ => rfl
  | f + 1, st => by
    have hne : ¬ CDE_BLOCK = CDE_SUBBLOCK := by decide
    have hne2 : ¬ CDE_BLOCK = CDE_CODEBASE := by decide
    have hne3 : ¬ CDE_BLOCK = CDE_PREAMBLE := by decide
    have h0 : (0 : Nat) < MAX_ELEMENTS_IN_CS := by decide
    have hloop := parse_block_loop_trailing_marker_none (add_section pPage f) f pPage index 2
      (index + 1) l hl hm (by omega)
    simp only [add_section, parse, parse_block, hf, hne, hne2, hne3, if_false, if_true,
      SCodeSection.add_single, List.length_nil, if_pos h0, hloop, ite_self]

/-- C14 (parse_codebase, parse_block): on the dialect page `// PREAMBLE: demo`,
`// BLOCK: 1`, `// SUBBLOCK: a`, which has one block marker and not six, the
parse returns within no bound: the loop of `parse_block` comes back to the
sub-block marker in the state it left it in. -/
theorem parse_codebase_trailing_subblock_diverges :
    (∀ fuel, parse_page fuel trailing_subblock_page = none) ∧
      ∀ (add : AddSection) (fuel n : Nat) (b : Bool) (st : SParse),
        parse_block_loop add fuel trailing_subblock_page 1 2 (n + 1) 2 b st =
          parse_block_loop add fuel trailing_subblock_page 1 2 n 2 true st := by
  constructor
  · intro fuel
    have hblk := add_section_trailing_marker_none trailing_subblock_page 1
      "// BLOCK: 1".toList "// SUBBLOCK: a".toList rfl rfl (by decide) fuel
    have hcb : new_base_section.pThis.type = CDE_CODEBASE := rfl
    have h0 : trailing_subblock_page[0]? = some "// PREAMBLE: demo".toList := rfl
    have h1 : trailing_subblock_page[1]? = some "// BLOCK: 1".toList := rfl
    have h2 : trailing_subblock_page[2]? = some "// SUBBLOCK: a".toList := rfl
    have hp : tl_find "// PREAMBLE: demo".toList "// PREAMBLE:" = 0 := by decide
    have hm1 : tl_find "// BLOCK: 1".toList "// BLOCK:" = 0 := by decide
    have hm2 : ¬ tl_find "// SUBBLOCK: a".toList "// BLOCK:" = 0 := by decide
    have hlen : trailing_subblock_page.length = 3 := rfl
    simp only [parse_page, parse, hcb, if_true, parse_codebase, h0, hp, hlen]
    generalize add_section trailing_subblock_page fuel = add at hblk ⊢
    match fuel with
    | 0 => rfl
    | 1 =>
      simp only [parse_codebase_loop, h1, hm1, if_true]
      cases add CDE_PREAMBLE 0 1 true 0 (-1) new_base_section <;> rfl
    | n + 2 =>
      simp only [parse_codebase_loop, h1, hm1, if_true, h2, hm2, if_false]
      cases hadd : add CDE_PREAMBLE 0 1 true 0 (-1) new_base_section with
      | none => rfl
      | some r => simp [hblk]
  · intro add fuel n b st
    exact parse_block_loop_trailing_marker add fuel trailing_subblock_page 1 2 2 n b st
      "// SUBBLOCK: a".toList rfl (by decide) rfl

/-- Whenever the loop of `parse_codebase` returns, it returns false if the
markers counted so far and the markers left are not `MODAL_NUMBLOCKS`
together. -/
theorem parse_codebase_loop_reject (add : AddSection) (pPage : List STxtLine) :
    ∀ (n offsetPrev offset numBlocks : Nat) (st : SParse) (r : Bool × SParse),
      offset < pPage.length →
      parse_codebase_loop add pPage 0 pPage.length n offsetPrev offset numBlocks st = some r →
      numBlocks + (pPage.drop offset).countP (fun l => decide (tl_find l "// BLOCK:" = 0)) ≠
        MODAL_NUMBLOCKS →
      r.1 = false := by
  intro n
  induction n with
  | zero =>
    intro offsetPrev offset numBlocks st r _ h _
    rw [parse_codebase_loop] at h
    cases h
  | succ n ih =>
    intro offsetPrev offset numBlocks st r hlt h hcount
    rw [parse_codebase_loop] at h
    rw [List.drop_eq_getElem_cons hlt, List.countP_cons] at hcount
    simp only [Nat.zero_add, List.getElem?_eq_getElem hlt] at h
    by_cases hm : tl_find pPage[offset] "// BLOCK:" = 0
    · simp only [if_pos hm] at h
      simp only [hm, decide_True, if_true] at hcount
      cases hadd : add (if numBlocks = 0 then CDE_PREAMBLE else CDE_BLOCK) offsetPrev
          (offset - offsetPrev) true 0 (-1) st with
      | none => simp [hadd] at h
      | some r1 =>
        simp only [hadd, Option.map_some'] at h
        by_cases hlast : offset + 1 = pPage.length
        · simp only [if_pos hlast, Nat.add_sub_cancel_left] at h
          have hnil : List.drop (offset + 1) pPage = [] := List.drop_of_length_le (by omega)
          rw [hnil] at hcount
          cases hadd2 : add CDE_BLOCK offset 1 true 0 (-1) r1.2 with
          | none => simp [hadd2] at h
          | some r2 =>
            simp only [hadd2, Option.some.injEq] at h
            have hne : numBlocks + 1 ≠ MODAL_NUMBLOCKS := by simpa using hcount
            rw [← h]
            simp [hne]
        · simp only [if_neg hlast] at h
          exact ih _ _ _ _ r (by omega) h (by omega)
    · simp only [if_neg hm] at h
      simp only [hm, decide_False] at hcount
      by_cases hlast : offset + 1 = pPage.length
      · simp only [if_pos hlast] at h
        have hnil : List.drop (offset + 1) pPage = [] := List.drop_of_length_le (by omega)
        rw [hnil] at hcount
        cases hadd2 : add CDE_BLOCK offsetPrev (offset + 1 - offsetPrev) true 0 (-1) st with
        | none => simp [hadd2] at h
        | some r2 =>
          simp only [hadd2, Option.some.injEq] at h
          have hne : numBlocks ≠ MODAL_NUMBLOCKS := by simpa using hcount
          rw [← h]
          simp [hne]
      · simp only [if_neg hlast] at h
        exact ih _ _ _ _ r (by omega) h (by simpa using hcount)

/-- Whenever the parse of a dialect page returns, it returns false if the
number of lines after the first that start with `// BLOCK:` is not
`MODAL_NUMBLOCKS`.  (It need not return: see
`add_section_trailing_marker_none`.) -/
theorem parse_codebase_reject_of_returns (first : STxtLine) (rest : List STxtLine)
    (hpre : tl_find first "// PREAMBLE:" = 0)
    (hcount : rest.countP (fun l => decide (tl_find l "// BLOCK:" = 0)) ≠ MODAL_NUMBLOCKS)
    (fuel : Nat) (r : Bool × SCodeElement × SSymbolSet)
    (h : parse_page fuel (first :: rest) = some r) : r.1 = false := by
  have hcb : new_base_section.pThis.type = CDE_CODEBASE := rfl
  simp only [parse_page, parse, hcb, if_true, parse_codebase, List.getElem?_cons_zero, hpre,
    Option.map_eq_some'] at h
  obtain ⟨r1, h1, rfl⟩ := h
  by_cases hlen : 1 < (first :: rest).length
  · exact parse_codebase_loop_reject _ _ _ _ _ _ _ r1 hlen h1 (by simpa using hcount)
  · have hnil : rest = [] := by
      cases rest with
      | nil => rfl
      | cons a as => simp at hlen
    subst hnil
    cases fuel with
    | zero => rw [parse_codebase_loop] at h1; cases h1
    | succ n => rw [parse_codebase_loop] at h1; simp at h1

/-- The loop of `parse_codebase` returns on a run of marker lines that ends
the page, when the sections it adds are added, one element each, and the
array of the section has room for them. -/
theorem parse_codebase_loop_markers_total (add : AddSection) (pPage : List STxtLine)
    (hblk : ∀ (index : Nat) (st : SParse), index < pPage.length →
      st.pThis.ppElements.length < MAX_ELEMENTS_IN_CS →
      ∃ r, add CDE_BLOCK index 1 true 0 (-1) st = some r ∧
        r.2.pThis.ppElements.length = st.pThis.ppElements.length + 1) :
    ∀ (k n offsetPrev offset numBlocks : Nat) (st : SParse),
      (∀ j, offset ≤ j → j < pPage.length →
        ∃ l, pPage[j]? = some l ∧ tl_find l "// BLOCK:" = 0) →
      offset + k + 1 = pPage.length → k + 1 ≤ n →
      st.pThis.ppElements.length + k + 2 ≤ MAX_ELEMENTS_IN_CS →
      (∀ st1, st1.pThis.ppElements.length < MAX_ELEMENTS_IN_CS →
        ∃ r, add (if numBlocks = 0 then CDE_PREAMBLE else CDE_BLOCK) offsetPrev
          (offset - offsetPrev) true 0 (-1) st1 = some r ∧
          r.2.pThis.ppElements.length = st1.pThis.ppElements.length + 1) →
      ∃ r, parse_codebase_loop add pPage 0 pPage.length n offsetPrev offset numBlocks st =
        some r := by
  intro k
  induction k with
  | zero =>
    intro n offsetPrev offset numBlocks st hlines hlen hn hroom hfirst
    obtain ⟨m, rfl⟩ : ∃ m, n = m + 1 := ⟨n - 1, by omega⟩
    obtain ⟨l, hl, hm⟩ := hlines offset (le_refl _) (by omega)
    obtain ⟨r, hr, hr1⟩ := hfirst st (by omega)
    obtain ⟨r2, hr2, _⟩ := hblk offset r.2 (by omega) (by omega)
    exact ⟨_, parse_codebase_loop_last add pPage _ m offsetPrev offset numBlocks st l r r2 hl hm
      (by omega) hr hr2⟩
  | succ k ih =>
    intro n offsetPrev offset numBlocks st hlines hlen hn hroom hfirst
    obtain ⟨m, rfl⟩ : ∃ m, n = m + 1 := ⟨n - 1, by omega⟩
    obtain ⟨l, hl, hm⟩ := hlines offset (le_refl _) (by omega)
    obtain ⟨r, hr, hr1⟩ := hfirst st (by omega)
    rw [parse_codebase_loop_marker add pPage _ m offsetPrev offset numBlocks st l r hl hm
      (by omega) hr]
    apply ih m offset (offset + 1) (numBlocks + 1) r.2
      (fun j h1 h2 => hlines j (by omega) h2) (by omega) (by omega) (by omega)
    intro st1 hst1
    rw [if_neg (by omega), Nat.add_sub_cancel_left]
    exact hblk offset st1 (by omega) hst1

/-- The parse of a dialect page of at most `MAX_ELEMENTS_IN_CS` lines made of
a preamble and of marker lines alone (blocks with empty bodies) returns false,
within a bound of the page length plus two, when the number of markers is not
`MODAL_NUMBLOCKS`. -/
theorem parse_codebase_markers_reject (first : STxtLine) (rest B : List STxtLine) (fuel : Nat)
    (hpre : tl_find first "// PREAMBLE:" = 0)
    (hrest : ∀ l ∈ rest, tl_find l "// BLOCK:" ≠ 0)
    (hB : B.length ≠ MODAL_NUMBLOCKS) (hB0 : B ≠ [])
    (hmark : ∀ l ∈ B, tl_find l "// BLOCK:" = 0)
    (hsmall : rest.length + B.length + 1 ≤ MAX_ELEMENTS_IN_CS)
    (hfuel : rest.length + B.length + 3 ≤ fuel) :
    ∃ root syms, parse_page fuel (first :: rest ++ B) = some (false, root, syms) := by
  obtain ⟨f, rfl⟩ : ∃ f, fuel = f + 2 := ⟨fuel - 2, by omega⟩
  obtain ⟨n, hn⟩ : ∃ n, f + 2 = n + rest.length := ⟨f + 2 - rest.length, by omega⟩
  have hBpos : 0 < B.length := List.length_pos.mpr hB0
  have hcount : (rest ++ B).countP (fun l => decide (tl_find l "// BLOCK:" = 0)) ≠
      MODAL_NUMBLOCKS := by
    rw [List.countP_append, List.countP_eq_zero.mpr (by simpa using hrest),
      List.countP_eq_length.mpr (by simpa using hmark), Nat.zero_add]
    exact hB
  have hrej := parse_codebase_reject_of_returns first (rest ++ B) hpre hcount (f + 2)
  rw [← List.cons_append] at hrej
  generalize hpage : first :: rest ++ B = page at hrej ⊢
  have hlen : page.length = rest.length + B.length + 1 := by
    rw [← hpage]; simp
  have h0 : page[0]? = some first := by rw [← hpage]; simp
  have hskip : ∀ j, 1 ≤ j → j < 1 + rest.length →
      ∃ l, page[j]? = some l ∧ tl_find l "// BLOCK:" ≠ 0 := by
    intro j h1 h2
    obtain ⟨i, rfl⟩ : ∃ i, j = i + 1 := ⟨j - 1, by omega⟩
    have hi : i < rest.length := by omega
    refine ⟨rest[i], ?_, hrest _ (List.getElem_mem _)⟩
    rw [← hpage, List.cons_append, List.getElem?_cons_succ, List.getElem?_append_left hi,
      List.getElem?_eq_getElem hi]
  have hlines : ∀ j, 1 + rest.length ≤ j → j < page.length →
      ∃ l, page[j]? = some l ∧ tl_find l "// BLOCK:" = 0 := by
    intro j h1 h2
    obtain ⟨i, rfl⟩ : ∃ i, j = i + 1 := ⟨j - 1, by omega⟩
    have hi : i - rest.length < B.length := by omega
    refine ⟨B[i - rest.length], ?_, hmark _ (List.getElem_mem _)⟩
    rw [← hpage, List.cons_append, List.getElem?_cons_succ,
      List.getElem?_append_right (by omega), List.getElem?_eq_getElem hi]
  have htotal : ∃ r, parse_codebase_loop (add_section page (f + 2)) page 0 page.length (f + 2)
      0 1 0 new_base_section = some r := by
    have hblk : ∀ (index : Nat) (st : SParse), index < page.length →
        st.pThis.ppElements.length < MAX_ELEMENTS_IN_CS →
        ∃ r, add_section page (f + 2) CDE_BLOCK index 1 true 0 (-1) st = some r ∧
          r.2.pThis.ppElements.length = st.pThis.ppElements.length + 1 :=
      fun index st hi hc =>
        ⟨_, add_section_marker_block page f index page[index] st (List.getElem?_eq_getElem hi)
          hc, by simp⟩
    have hfirst : ∀ st1, st1.pThis.ppElements.length < MAX_ELEMENTS_IN_CS →
        ∃ r, add_section page (f + 2) (if 0 = 0 then CDE_PREAMBLE else CDE_BLOCK)
          0 (rest.length + 1 - 0) true 0 (-1) st1 = some r ∧
          r.2.pThis.ppElements.length = st1.pThis.ppElements.length + 1 := by
      intro st1 hc
      obtain ⟨b, es, h⟩ := add_section_preamble page (f + 1) 0 (rest.length + 1) first st1 h0
        (by omega) (by omega) (by omega) hc
      exact ⟨_, h, by simp⟩
    generalize add_section page (f + 2) = add at hblk hfirst ⊢
    rw [hn, parse_codebase_loop_skip add page page.length rest.length n 1 0 0
      new_base_section hskip (by omega), Nat.add_comm 1 rest.length]
    exact parse_codebase_loop_markers_total add page hblk (B.length - 1) n 0 (rest.length + 1) 0
      new_base_section (fun j h1 h2 => hlines j (by omega) h2) (by omega) (by omega)
      (by
        have hroot : new_base_section.pThis.ppElements.length = 0 := rfl
        omega) hfirst
  obtain ⟨r, hr⟩ := htotal
  have hcb : new_base_section.pThis.type = CDE_CODEBASE := rfl
  have hpp : parse_page (f + 2) page = some (r.1, r.2.pThis.pBaseElem, r.2.pSymSet) := by
    simp only [parse_page, parse, hcb, if_true, parse_codebase, h0, hpre, hr, Option.map_some']
  have hfalse := hrej _ hpp
  simp only at hfalse
  rw [hpp, hfalse]
  exact ⟨_, _, rfl⟩

theorem dropWhile_snoc_of_neg {α : Type} (p : α → Bool) (c : α) (hc : p c = false) :
    ∀ (xs : List α), (xs ++ [c]).dropWhile p = xs.dropWhile p ++ [c]
  | [] => by simp [List.dropWhile, hc]
  | a :: xs => by
    cases h : p a with
    | true =>
      rw [List.cons_append, List.dropWhile_cons_of_pos h, List.dropWhile_cons_of_pos h]
      exact dropWhile_snoc_of_neg p c hc xs
    | false =>
      rw [List.cons_append, List.dropWhile_cons_of_neg (by simp [h]),
        List.dropWhile_cons_of_neg (by simp [h])]
      rfl

/-- A line that starts with a character other than space and tab keeps it
when trimmed. -/
theorem tl_trim_cons_nonblank (c : Char) (r : STxtLine) (h1 : c ≠ ' ') (h2 : c ≠ '\t') :
    tl_trim (c :: r) =
      c :: ((r.reverse.dropWhile (fun c => c == ' ' || c == '\t')).reverse) := by
  have hb : (c == ' ' || c == '\t') = false := by simp [h1, h2]
  unfold tl_trim
  rw [List.dropWhile_cons_of_neg (by simp [hb]), List.reverse_cons,
    dropWhile_snoc_of_neg _ c hb, List.reverse_append]
  rfl

/-- Trimming a trimmed line changes nothing. -/
theorem tl_trim_idem (l : STxtLine) : tl_trim (tl_trim l) = tl_trim l := by
  apply tl_trim_eq_self
  · intro c hc
    unfold tl_trim at hc
    rcases hX : l.dropWhile (fun c => c == ' ' || c == '\t') with _ | ⟨a, r⟩
    · rw [hX] at hc
      simp at hc
    · have hnot := List.head?_dropWhile_not (fun c => c == ' ' || c == '\t') l
      rw [hX] at hnot hc
      simp only [List.head?_cons] at hnot
      rw [List.reverse_cons, dropWhile_snoc_of_neg _ a hnot, List.reverse_append] at hc
      simp only [List.reverse_cons, List.reverse_nil, List.nil_append, List.singleton_append,
        List.head?_cons, Option.some.injEq] at hc
      subst hc
      simpa using hnot
  · intro c hc
    unfold tl_trim at hc
    rw [List.getLast?_reverse] at hc
    have hnot := List.head?_dropWhile_not (fun c => c == ' ' || c == '\t')
      (l.dropWhile (fun c => c == ' ' || c == '\t')).reverse
    rw [hc] at hnot
    simpa using hnot

/-- A token that starts with another character than the line is not found at
index 0. -/
theorem tl_find_ne_zero_of_head (T : STxtLine) (c d : Char) (t ts : List Char) (tok : String)
    (hT : T = c :: t) (htok : tok.toList = d :: ts) (hne : d ≠ c) : tl_find T tok ≠ 0 := by
  rw [Ne, tl_find_eq_zero_iff, htok, hT]
  intro h
  exact hne (List.cons_prefix_cons.mp h).1

/-- A line that, trimmed, starts with a character that starts no start
string and holds no `#` is given up by the loop of `find_startstring_parse`:
nothing is found, the loop is left and the state is as it was. -/
theorem find_startstring_step_unrecognised (add : AddSection) (pPage : List STxtLine)
    (index idx : Nat) (prev : Int) (st : SParse) (L t : STxtLine) (c : Char)
    (hline : pPage[idx]? = some L) (hL : tl_trim L = c :: t)
    (hc : c ∉ ['#', '/', ' ', '\t', 'c', 'e', 's', 't', 'w']) (hhash : '#' ∉ t) :
    find_startstring_step add pPage index idx prev st = some (false, true, 0, idx, st) := by
  simp only [List.mem_cons, List.mem_singleton, List.not_mem_nil, or_false, not_or] at hc
  obtain ⟨c1, c2, c3, c4, c5, c6, c7, c8, c9⟩ := hc
  have hne := fun (tok : String) (d : Char) (ts : List Char) (h1 : tok.toList = d :: ts)
    (h2 : d ≠ c) => tl_find_ne_zero_of_head (c :: t) c d t ts tok rfl h1 h2
  have hmem : '#' ∉ c :: t := by
    intro h
    rcases List.mem_cons.mp h with h | h
    · exact c1 h.symm
    · exact hhash h
  have k1 := hne "#include" '#' _ rfl (Ne.symm c1)
  have k2 := hne "class" 'c' _ rfl (Ne.symm c5)
  have k3 := hne "struct" 's' _ rfl (Ne.symm c7)
  have k4 := hne "enum" 'e' _ rfl (Ne.symm c6)
  have k5 := hne "typedef struct" 't' _ rfl (Ne.symm c8)
  have k6 := hne "typedef union" 't' _ rfl (Ne.symm c8)
  have k7 := hne "#define" '#' _ rfl (Ne.symm c1)
  have k8 := hne "//" '/' _ rfl (Ne.symm c2)
  have k9 := hne "/*" '/' _ rfl (Ne.symm c2)
  have k10 := hne "wxBEGIN" 'w' _ rfl (Ne.symm c9)
  have k11 := hne "wxIMPLEMENT" 'w' _ rfl (Ne.symm c9)
  have k12 := hne "#ifdef" '#' _ rfl (Ne.symm c1)
  have k13 := hne "#ifndef" '#' _ rfl (Ne.symm c1)
  have k14 := hne "#if" '#' _ rfl (Ne.symm c1)
  have k15 := tl_find_of_head_not_mem (c :: t) "#endif" '#' _ rfl hmem
  have k16 := tl_find_of_head_not_mem (c :: t) "#error" '#' _ rfl hmem
  have k17 : tl_isempty (c :: t) = false := by
    simp [tl_isempty, c3, c4]
  simp only [find_startstring_step, hline, hL, k1, if_false, find_class, k2, k3, find_enum, k4,
    find_typedef_struct, k5, k6, or_self, k7, find_comment, k8, k9, k10, k11, find_ifdef, k12,
    k13, k14, k15, k16, ne_eq, not_true_eq_false, k17, Bool.false_eq_true]

/-- On a trimmed line whose first character starts no keyword of `extract_var`
and no name of the symbol set, `extract_var` finds no declaration. -/
theorem extract_var_unrecognised (t : STxtLine) (c : Char) (pSymSet : SSymbolSet)
    (hT : tl_trim (c :: t) = c :: t)
    (hc : c ∉ ['~', 'b', 'c', 'd', 'e', 'f', 'i', 's', 'u', 'v', 'w'])
    (hS : ∀ s ∈ pSymSet.pStructSet, s.pName.head? ≠ some c)
    (hC : ∀ k ∈ pSymSet.pClassSet, k.pName.head? ≠ some c) :
    extract_var (c :: t) pSymSet = some ⟨false, c :: t, .unset, none, none, none⟩ := by
  simp only [List.mem_cons, List.mem_singleton, List.not_mem_nil, or_false, not_or] at hc
  obtain ⟨c1, c2, c3, c4, c5, c6, c7, c8, c9, c10, c11⟩ := hc
  have hne := fun (tok : String) (d : Char) (ts : List Char) (h1 : tok.toList = d :: ts)
    (h2 : d ≠ c) => tl_find_ne_zero_of_head (c :: t) c d t ts tok rfl h1 h2
  have k1 := hne "virtual" 'v' _ rfl (Ne.symm c10)
  have k2 := hne "static" 's' _ rfl (Ne.symm c8)
  have k3 := hne "explicit" 'e' _ rfl (Ne.symm c5)
  have k4 := hne "const" 'c' _ rfl (Ne.symm c3)
  have k5 := hne "void" 'v' _ rfl (Ne.symm c10)
  have k6 := hne "bool" 'b' _ rfl (Ne.symm c2)
  have k7 := hne "int" 'i' _ rfl (Ne.symm c7)
  have k8 := hne "unsigned int" 'u' _ rfl (Ne.symm c9)
  have k9 := hne "char" 'c' _ rfl (Ne.symm c3)
  have k10 := hne "unsigned char" 'u' _ rfl (Ne.symm c9)
  have k11 := hne "float" 'f' _ rfl (Ne.symm c6)
  have k12 := hne "double" 'd' _ rfl (Ne.symm c4)
  have k13 := hne "wx" 'w' _ rfl (Ne.symm c11)
  have hnames : ∀ (names : List STxtLine), (∀ n ∈ names, n.head? ≠ some c) →
      longest_prefix_name (c :: t) names none = none := by
    intro names h
    apply longest_prefix_name_none
    intro n hn hp
    cases n with
    | nil => rfl
    | cons a as => exact absurd (by rw [(List.cons_prefix_cons.mp hp).1]; rfl) (h _ hn)
  have hcl := hnames (pSymSet.pClassSet.map (fun k => k.pName)) (by
    intro n hn
    obtain ⟨s, hs, rfl⟩ := List.mem_map.mp hn
    exact hC s hs)
  have hde : first_destructor (c :: t) (pSymSet.pClassSet.map (fun k => k.pName)) = none := by
    unfold first_destructor
    rw [List.find?_eq_none]
    intro n _
    simp only [decide_eq_true_eq]
    rw [tl_find_mk_eq_zero_iff]
    intro hp
    exact c1 (List.cons_prefix_cons.mp hp).1.symm
  have hpre : ∀ (tok : String), ¬ tl_find (c :: t) tok = 0 → ¬ tok.toList <+: c :: t :=
    fun tok h hp => h ((tl_find_eq_zero_iff _ _).mpr hp)
  have htype := extract_var_type_class (c :: t) pSymSet
    (by
      intro q hq
      simp only [qualifier_keywords, List.mem_cons, List.mem_singleton, List.not_mem_nil,
        or_false] at hq
      rcases hq with rfl | rfl | rfl | rfl
      · exact hpre _ k1
      · exact hpre _ k2
      · exact hpre _ k3
      · exact hpre _ k4)
    (by
      intro q hq
      simp only [type_keywords, List.mem_cons, List.mem_singleton, List.not_mem_nil,
        or_false] at hq
      rcases hq with rfl | rfl | rfl | rfl | rfl | rfl | rfl | rfl
      · exact hpre _ k5
      · exact hpre _ k6
      · exact hpre _ k7
      · exact hpre _ k8
      · exact hpre _ k9
      · exact hpre _ k10
      · exact hpre _ k11
      · exact hpre _ k12)
    (Or.inl (hpre _ k13))
    (by
      intro s hs hp
      cases hn : s.pName with
      | nil => rfl
      | cons a as =>
        rw [hn] at hp
        exact absurd (by rw [hn, (List.cons_prefix_cons.mp hp).1]; rfl) (hS s hs))
  have hclass : extract_class_type (c :: t) pSymSet false none =
      ⟨false, false, .unset, none, none, 0⟩ := by
    unfold extract_class_type
    rw [hcl]
    simp only
    rw [hde]
  unfold extract_var
  rw [hT, htype, hclass]
  rfl

/-- On a line that, trimmed, starts with a character that starts no keyword of
`extract_var` and no name of the symbol set, `find_var_decl` finds nothing
and leaves the state as it was. -/
theorem find_var_decl_unrecognised (add : AddSection) (fuel : Nat) (pPage : List STxtLine)
    (idx : Nat) (st : SParse) (L t : STxtLine) (c : Char)
    (hline : pPage[idx]? = some L) (hL : tl_trim L = c :: t)
    (hc : c ∉ ['~', 'b', 'c', 'd', 'e', 'f', 'i', 's', 'u', 'v', 'w'])
    (hS : ∀ s ∈ st.pSymSet.pStructSet, s.pName.head? ≠ some c)
    (hC : ∀ k ∈ st.pSymSet.pClassSet, k.pName.head? ≠ some c) :
    find_var_decl add fuel pPage idx st = some (false, 0, st) := by
  have hT : tl_trim (c :: t) = c :: t := by
    have := tl_trim_idem L
    rwa [hL] at this
  unfold find_var_decl
  rw [hline]
  simp only
  rw [hL, extract_var_unrecognised t c st.pSymSet hT hc hS hC]
  rfl

/-- At a line that no classifier recognises the loop of `parse_nm_codebase`
fails and exits: it returns false with the state as it was, whatever lines
follow. -/
theorem parse_nm_codebase_loop_unrecognised (add : AddSection) (f n : Nat)
    (pPage : List STxtLine) (index length idx : Nat) (st : SParse) (L t : STxtLine) (c : Char)
    (hidx : idx - index < length)
    (hline : pPage[idx]? = some L) (hL : tl_trim L = c :: t)
    (hc : c ∉ ['#', '/', '~', ' ', '\t', 'b', 'c', 'd', 'e', 'f', 'i', 's', 't', 'u', 'v', 'w'])
    (hhash : '#' ∉ t)
    (hS : ∀ s ∈ st.pSymSet.pStructSet, s.pName.head? ≠ some c)
    (hC : ∀ k ∈ st.pSymSet.pClassSet, k.pName.head? ≠ some c) :
    parse_nm_codebase_loop add (f + 1) pPage index length (n + 1) idx st = some (false, st) := by
  have hlt : idx < pPage.length := by
    by_contra h
    rw [List.getElem?_eq_none (by omega)] at hline
    cases hline
  have hstep := find_startstring_step_unrecognised add pPage idx idx st.pThis.get_length st L t c
    hline hL (fun h => hc (by
      simp only [List.mem_cons, List.mem_singleton, List.not_mem_nil, or_false] at h ⊢
      tauto)) hhash
  have hvar := find_var_decl_unrecognised add (f + 1) pPage idx st L t c hline hL
    (fun h => hc (by
      simp only [List.mem_cons, List.mem_singleton, List.not_mem_nil, or_false] at h ⊢
      tauto)) hS hC
  rw [parse_nm_codebase_loop, if_pos hidx]
  simp only [find_startstring_parse, find_startstring_loop, if_pos hlt, hstep, or_true, if_true,
    Bool.false_eq_true, false_or, hvar]

theorem get_length_list_singles (type : Nat) :
    ∀ (ls : List STxtLine), get_length_list (ls.map (.single type)) = ls.length
  | [] => rfl
  | l :: ls => by
    have := get_length_list_singles type ls
    simp only [List.map_cons, get_length_list, ce_length, List.length_cons, this]
    push_cast
    ring

/-- A line that, trimmed, starts with `#include` is added by
`find_startstring_parse` as one `CDE_S_INCLUDE` line, when the array of the
section has room. -/
theorem find_startstring_parse_include (add : AddSection) (f : Nat) (pPage : List STxtLine)
    (idx : Nat) (st : SParse) (l : STxtLine) (hline : pPage[idx]? = some l)
    (hinc : tl_find (tl_trim l) "#include" = 0)
    (hcap : st.pThis.ppElements.length < MAX_ELEMENTS_IN_CS) :
    find_startstring_parse add (f + 1) pPage idx st =
      some (true, 1, { st with pThis := { st.pThis with
        ppElements := st.pThis.ppElements ++ [.single CDE_S_INCLUDE l] } }) := by
  have hlt : idx < pPage.length := by
    by_contra h
    rw [List.getElem?_eq_none (by omega)] at hline
    cases hline
  simp only [find_startstring_parse, find_startstring_loop, if_pos hlt, find_startstring_step,
    hline, hinc, if_true, add_single_of_lt _ _ _ hcap, Option.map_some', true_or]

/-- The loop of `parse_nm_codebase` adds a run of `#include` lines line by
line, as long as the array of the section has room for them. -/
theorem parse_nm_codebase_loop_includes (add : AddSection) (f : Nat) (pPage : List STxtLine)
    (length : Nat) : ∀ (ls : List STxtLine) (n idx : Nat) (st : SParse),
      (∀ j, j < ls.length → pPage[idx + j]? = ls[j]?) →
      (∀ l ∈ ls, tl_find (tl_trim l) "#include" = 0) → idx + ls.length ≤ length →
      st.pThis.ppElements.length + ls.length ≤ MAX_ELEMENTS_IN_CS →
      parse_nm_codebase_loop add (f + 1) pPage 0 length (n + ls.length) idx st =
        parse_nm_codebase_loop add (f + 1) pPage 0 length n (idx + ls.length)
          { st with pThis := { st.pThis with
              ppElements := (st.pThis.ppElements ++ ls.map (.single CDE_S_INCLUDE)) } }
  | [], n, idx, st, _, _, _, _ => by simp
  | l :: ls, n, idx, st, hat, hinc, hlen, hroom => by
    have hl : pPage[idx]? = some l := by simpa using hat 0 (by simp)
    simp only [List.length_cons] at hlen hroom ⊢
    have hstep := find_startstring_parse_include add f pPage idx st l hl
      (hinc l (List.mem_cons_self _ _)) (by omega)
    rw [show n + (ls.length + 1) = n + ls.length + 1 from rfl, parse_nm_codebase_loop,
      if_pos (by omega), hstep]
    simp only
    rw [parse_nm_codebase_loop_includes add f pPage length ls n (idx + 1) _
      (fun j hj => by
        have := hat (j + 1) (by simp; omega)
        simpa [Nat.add_assoc, Nat.add_comm 1 j] using this)
      (fun l hl => hinc l (List.mem_cons_of_mem _ hl)) (by omega)
      (by simp only [List.length_append, List.length_singleton]; omega)]
    simp [Nat.add_assoc, Nat.add_comm 1 ls.length]

/-- A line that starts with `// PREAMBLE:` starts, trimmed, with `/`. -/
theorem not_dialect_of_trim_head (l t : STxtLine) (c : Char) (hl : tl_trim l = c :: t)
    (hc : c ≠ '/') : tl_find l "// PREAMBLE:" ≠ 0 := by
  intro h
  rw [tl_find_eq_zero_iff] at h
  cases l with
  | nil => simp at h
  | cons a r =>
    have ha : a = '/' := (List.cons_prefix_cons.mp h).1.symm
    subst ha
    rw [tl_trim_cons_nonblank '/' r (by decide) (by decide)] at hl
    exact hc (List.cons.inj hl).1.symm

/-- C15 (amended; parse_nm_codebase): on a page without preamble marker that
begins with lines starting with `#include`, at most `MAX_ELEMENTS_IN_CS` of
them (the room of the array of the root), and goes on with a line that no
classifier recognises (trimmed, it starts with a character that starts no
start string, no type keyword and no qualifier, and holds no `#`), the root
parse fails and exits at that line: within a bound of two more than the
number of lines before it, it returns false and the root holds the lines
before that line only, whatever lines follow; its logical length is their
number. -/
theorem parse_nm_codebase_stops (pre rest : List STxtLine) (L t : STxtLine) (c : Char)
    (fuel : Nat)
    (hpre : ∀ l ∈ pre, tl_find (tl_trim l) "#include" = 0)
    (hroom : pre.length ≤ MAX_ELEMENTS_IN_CS)
    (hL : tl_trim L = c :: t)
    (hc : c ∉ ['#', '/', '~', ' ', '\t', 'b', 'c', 'd', 'e', 'f', 'i', 's', 't', 'u', 'v', 'w'])
    (hhash : '#' ∉ t) (hfuel : pre.length + 2 ≤ fuel) :
    ∃ bRoot, parse_page fuel (pre ++ L :: rest) = some (false,
        .sec CDE_CODEBASE "The CodeBase".toList ⟨bRoot, 0, -1, []⟩
          (pre.map (.single CDE_S_INCLUDE)), ⟨[], [], []⟩) ∧
      ce_length (.sec CDE_CODEBASE "The CodeBase".toList ⟨bRoot, 0, -1, []⟩
        (pre.map (.single CDE_S_INCLUDE))) = pre.length := by
  refine ⟨false, ?_, ?_⟩
  · obtain ⟨f, rfl⟩ : ∃ f, fuel = f + 1 := ⟨fuel - 1, by omega⟩
    obtain ⟨n, hn⟩ : ∃ n, f + 1 = n + 1 + pre.length := ⟨f - pre.length, by omega⟩
    have hc1 : c ≠ '/' := fun h => hc (by rw [h]; decide)
    generalize hpage : pre ++ L :: rest = page
    have hlen : page.length = pre.length + rest.length + 1 := by
      rw [← hpage]; simp; omega
    have hat : ∀ j, j < pre.length → page[0 + j]? = pre[j]? := by
      intro j hj
      rw [← hpage, Nat.zero_add, List.getElem?_append_left hj]
    have hLat : page[0 + pre.length]? = some L := by
      rw [← hpage, Nat.zero_add, List.getElem?_append_right (le_refl _)]
      simp
    obtain ⟨first, h0, hnd⟩ : ∃ first, page[0]? = some first ∧
        tl_find first "// PREAMBLE:" ≠ 0 := by
      cases pre with
      | nil =>
        refine ⟨L, by simpa using hLat, not_dialect_of_trim_head L t c hL hc1⟩
      | cons a as =>
        refine ⟨a, by simpa using hat 0 (by simp), ?_⟩
        have ha := hpre a (List.mem_cons_self _ _)
        rw [tl_find_eq_zero_iff] at ha
        cases hta : tl_trim a with
        | nil => rw [hta] at ha; simp at ha
        | cons d ds =>
          rw [hta] at ha
          exact not_dialect_of_trim_head a ds d hta
            (by rw [← (List.cons_prefix_cons.mp ha).1]; decide)
    have hcb : new_base_section.pThis.type = CDE_CODEBASE := rfl
    simp only [parse_page, parse, hcb, if_true, parse_codebase, h0, if_neg hnd,
      parse_nm_codebase]
    generalize add_section page (f + 1) = add
    rw [show parse_nm_codebase_loop add (f + 1) page 0 page.length (f + 1) 0 new_base_section =
        parse_nm_codebase_loop add (f + 1) page 0 page.length (n + 1 + pre.length) 0
          new_base_section by rw [← hn],
      parse_nm_codebase_loop_includes add f page page.length pre (n + 1) 0 new_base_section
        hat hpre (by omega) (by
          have hroot : new_base_section.pThis.ppElements.length = 0 := rfl
          omega),
      parse_nm_codebase_loop_unrecognised add f n page 0 page.length (0 + pre.length) _ L t c
        (by omega) hLat hL hc hhash (by intro s hs; cases hs) (by intro s hs; cases hs)]
    rfl
  · simp only [ce_length]
    exact get_length_list_singles CDE_S_INCLUDE pre

/-- C15 refuted: on the page `x = 1;`, `int y;` the root parse stops at the
first line, which no classifier recognises; it returns false and the root
stays empty, its logical length being 0 and not 2. -/
theorem parse_nm_codebase_consumes_counterexample :
    parse_page 2 ["x = 1;".toList, "int y;".toList] = some (false,
        .sec CDE_CODEBASE "The CodeBase".toList ⟨false, 0, -1, []⟩ [], ⟨[], [], []⟩) ∧
      ce_length (.sec CDE_CODEBASE "The CodeBase".toList ⟨false, 0, -1, []⟩ []) ≠
        (["x = 1;".toList, "int y;".toList] : List STxtLine).length := by
  constructor
  · rfl
  · decide

/-- C15 (amended) on the page `#include <a.h>`, `x = 1;`, `int y;`. -/
theorem parse_nm_codebase_stops_witness :
    ∃ bRoot, parse_page 3 (["#include <a.h>".toList] ++ "x = 1;".toList ::
          ["int y;".toList]) = some (false,
        .sec CDE_CODEBASE "The CodeBase".toList ⟨bRoot, 0, -1, []⟩
          (["#include <a.h>".toList].map (.single CDE_S_INCLUDE)), ⟨[], [], []⟩) ∧
      ce_length (.sec CDE_CODEBASE "The CodeBase".toList ⟨bRoot, 0, -1, []⟩
        (["#include <a.h>".toList].map (.single CDE_S_INCLUDE))) =
          (["#include <a.h>".toList] : List STxtLine).length :=
  parse_nm_codebase_stops _ _ "x = 1;".toList " = 1;".toList 'x' 3 (by decide) (by decide)
    (by decide) (by decide) (by decide) (by decide)

/-! ## Brace matching by lines (C21, C22) -/

/-- The presence test of `find_end_brace`: `tl_find` finds a one-character
token exactly in the lines that hold the character. -/
theorem tl_find_singleton_iff (c : Char) (pLine : STxtLine) :
    tl_find pLine (String.singleton c) ≠ -1 ↔ c ∈ pLine := by
  constructor
  · intro h
    by_contra hm
    exact h (tl_find_of_head_not_mem pLine (String.singleton c) c [] rfl hm)
  · exact tl_find_singleton_of_mem c pLine

theorem spec_line_depth_zero (pPage : List STxtLine) (index : Nat) :
    spec_line_depth pPage index 0 = 1 := by
  simp [spec_line_depth]

theorem spec_line_depth_succ (pPage : List STxtLine) (index k : Nat) (l : STxtLine)
    (hl : pPage[index + k + 1]? = some l) :
    spec_line_depth pPage index (k + 1) = spec_line_depth pPage index k +
      (if '\x7b' ∈ l then 1 else 0) - (if '\x7d' ∈ l then 1 else 0) := by
  have hk : (pPage.drop (index + 1))[k]? = some l := by
    rw [List.getElem?_drop]
    rw [← hl]
    congr 1
    omega
  have hlt : k < (pPage.drop (index + 1)).length := by
    by_contra h
    rw [List.getElem?_eq_none (by omega)] at hk
    cases hk
  have htake : (pPage.drop (index + 1)).take (k + 1) =
      (pPage.drop (index + 1)).take k ++ [l] := by
    rw [List.take_succ, hk]
    rfl
  unfold spec_line_depth
  rw [htake, List.countP_append, List.countP_append]
  simp only [List.countP_cons, List.countP_nil, decide_eq_true_eq]
  split_ifs <;> push_cast <;> ring

/-- The loop of `find_end_brace` from the line `index + k` on, with the depth
by lines as its count: it stops at the first line at which the depth is 0, or
at the last line of the page, and the bound of the model is not what stops
it. -/
theorem find_end_brace_loop_spec (pPage : List STxtLine) (index : Nat) :
    ∀ (n k nb : Nat), index + k < pPage.length → pPage.length ≤ n + (index + k) + 1 →
      (nb : Int) = spec_line_depth pPage index k →
      (∀ j, j < k → 0 < spec_line_depth pPage index j) →
      ∃ k', k ≤ k' ∧ index + k' < pPage.length ∧
        find_end_brace_loop pPage n (index + k) nb =
          (index + k', (spec_line_depth pPage index k').toNat) ∧
        (∀ j, j < k' → 0 < spec_line_depth pPage index j) ∧
        0 ≤ spec_line_depth pPage index k' ∧
        (spec_line_depth pPage index k' = 0 ∨ index + k' + 1 = pPage.length) := by
  intro n
  induction n with
  | zero =>
    intro k nb hk hn hnb hpos
    refine ⟨k, le_refl _, hk, ?_, hpos, by omega, Or.inr (by omega)⟩
    simp only [find_end_brace_loop, ← hnb, Int.toNat_ofNat]
  | succ n ih =>
    intro k nb hk hn hnb hpos
    rw [find_end_brace_loop]
    by_cases hc : nb > 0 ∧ index + k + 1 < pPage.length
    · rw [if_pos hc]
      have hl : pPage[index + k + 1]? = some pPage[index + k + 1] :=
        List.getElem?_eq_getElem hc.2
      have hget : pPage.getD (index + k + 1) [] = pPage[index + k + 1] := by
        rw [List.getD_eq_getElem?_getD, hl]
        rfl
      have hsucc := spec_line_depth_succ pPage index k _ hl
      have ho := tl_find_singleton_iff '\x7b' pPage[index + k + 1]
      have hcl := tl_find_singleton_iff '\x7d' pPage[index + k + 1]
      have hs1 : String.singleton '\x7b' = "\x7b" := rfl
      have hs2 : String.singleton '\x7d' = "\x7d" := rfl
      rw [hs1] at ho
      rw [hs2] at hcl
      simp only [hget]
      have hpos' : ∀ j, j < k + 1 → 0 < spec_line_depth pPage index j := by
        intro j hj
        by_cases hjk : j < k
        · exact hpos j hjk
        · have : j = k := by omega
          subst this
          omega
      generalize hnb2 : (if tl_find pPage[index + k + 1] "\x7d" ≠ -1 then
          (if tl_find pPage[index + k + 1] "\x7b" ≠ -1 then nb + 1 else nb) - 1
        else (if tl_find pPage[index + k + 1] "\x7b" ≠ -1 then nb + 1 else nb)) = nb2
      have hdepth : (nb2 : Int) = spec_line_depth pPage index (k + 1) := by
        rw [hsucc, ← hnb2]
        by_cases hA : '\x7b' ∈ pPage[index + k + 1]
        · by_cases hB : '\x7d' ∈ pPage[index + k + 1]
          · rw [if_pos (hcl.mpr hB), if_pos (ho.mpr hA), if_pos hA, if_pos hB]
            omega
          · rw [if_neg (fun h => hB (hcl.mp h)), if_pos (ho.mpr hA), if_pos hA, if_neg hB]
            omega
        · by_cases hB : '\x7d' ∈ pPage[index + k + 1]
          · rw [if_pos (hcl.mpr hB), if_neg (fun h => hA (ho.mp h)), if_neg hA, if_pos hB]
            omega
          · rw [if_neg (fun h => hB (hcl.mp h)), if_neg (fun h => hA (ho.mp h)), if_neg hA,
              if_neg hB]
            omega
      obtain ⟨k', h1, h2, h3, h4, h5, h6⟩ := ih (k + 1) nb2 (by omega) (by omega) hdepth hpos'
      exact ⟨k', by omega, h2, h3, h4, h5, h6⟩
    · rw [if_neg hc]
      refine ⟨k, le_refl _, hk, ?_, hpos, by omega, ?_⟩
      · rw [← hnb, Int.toNat_ofNat]
      · by_cases h0 : nb > 0
        · exact Or.inr (by omega)
        · exact Or.inl (by omega)

/-- What `find_end_brace` returns when the line at `index` holds no closing
brace: the loop stops after `k` lines, the first `k` at which the depth by
lines is 0 or else the number of lines left, and the function returns true
with `k + 1` in the first case and false in the second. -/
theorem find_end_brace_spec (pPage : List STxtLine) (index : Nat) (pLine : STxtLine)
    (hline : pPage[index]? = some pLine) (hno : '\x7d' ∉ pLine) :
    ∃ k, index + k < pPage.length ∧ (∀ j, j < k → 0 < spec_line_depth pPage index j) ∧
      (∀ n, pPage.length - 1 - index ≤ n → find_end_brace_loop pPage n index 1 =
        (index + k, (spec_line_depth pPage index k).toNat)) ∧
      ((spec_line_depth pPage index k = 0 ∧ find_end_brace pPage index = some (some (k + 1))) ∨
        (0 < spec_line_depth pPage index k ∧ index + k + 1 = pPage.length ∧
          find_end_brace pPage index = some none)) := by
  have hlt : index < pPage.length := by
    by_contra h
    rw [List.getElem?_eq_none (by omega)] at hline
    cases hline
  have hloop := fun n (hn : pPage.length - 1 - index ≤ n) =>
    find_end_brace_loop_spec pPage index n 0 1 (by omega) (by omega)
      (by rw [spec_line_depth_zero]; rfl) (fun j hj => by omega)
  obtain ⟨k, _, hk, hr, hpos, hnn, hend⟩ := hloop (pPage.length - 1 - index) (le_refl _)
  have hall : ∀ n, pPage.length - 1 - index ≤ n → find_end_brace_loop pPage n index 1 =
      (index + k, (spec_line_depth pPage index k).toNat) := by
    intro n hn
    obtain ⟨k2, _, hk2, hr2, hpos2, hnn2, hend2⟩ := hloop n hn
    have hkk : k2 = k := by
      rcases Nat.lt_trichotomy k2 k with h | h | h
      · have := hpos k2 h
        rcases hend2 with h0 | h0 <;> omega
      · exact h
      · have := hpos2 k h
        rcases hend with h0 | h0 <;> omega
    rw [← hkk]
    exact hr2
  refine ⟨k, hk, hpos, hall, ?_⟩
  have hfind : tl_find pLine "\x7d" = -1 := by
    by_contra h
    exact hno ((tl_find_singleton_iff '\x7d' pLine).mp h)
  have hr' : find_end_brace_loop pPage (pPage.length - 1 - index) index 1 =
      (index + k, (spec_line_depth pPage index k).toNat) := hr
  by_cases h0 : spec_line_depth pPage index k = 0
  · left
    refine ⟨h0, ?_⟩
    simp only [find_end_brace, hline, hfind, ne_eq, not_true_eq_false, if_false, hr', h0,
      Int.toNat_zero, gt_iff_lt, lt_self_iff_false]
    congr 2
    omega
  · right
    have hp : 0 < spec_line_depth pPage index k := by omega
    refine ⟨hp, by rcases hend with h | h; exact absurd h h0; exact h, ?_⟩
    have : (spec_line_depth pPage index k).toNat > 0 := by omega
    simp only [find_end_brace, hline, hfind, ne_eq, not_true_eq_false, if_false, hr', this,
      if_true]

/-- What `find_end_brace` computes is a depth by lines.  When the line at
`index` holds a closing brace it returns true with 1.  Otherwise, with the
depth by lines (1 at the start, one up for each later line that holds an
opening brace, one down for each that holds a closing brace, however many
braces the line holds), it returns true with `n` exactly when `n - 1` is the
least number of later lines after which the depth is 0, and false exactly
when the depth is above 0 after every later line of the page. -/
theorem find_end_brace_line_depth (pPage : List STxtLine) (index : Nat) (pLine : STxtLine)
    (hline : pPage[index]? = some pLine) :
    ('\x7d' ∈ pLine → find_end_brace pPage index = some (some 1)) ∧
    ('\x7d' ∉ pLine →
      (∀ n, find_end_brace pPage index = some (some n) ↔
        (2 ≤ n ∧ index + n ≤ pPage.length ∧ spec_line_depth pPage index (n - 1) = 0 ∧
          ∀ j, j < n - 1 → 0 < spec_line_depth pPage index j)) ∧
      (find_end_brace pPage index = some none ↔
        ∀ k, index + k < pPage.length → 0 < spec_line_depth pPage index k)) := by
  constructor
  · intro hmem
    have h := tl_find_singleton_of_mem '\x7d' pLine hmem
    have hs : String.singleton '\x7d' = "\x7d" := rfl
    rw [hs] at h
    simp [find_end_brace, hline, h]
  · intro hno
    obtain ⟨k, hk, hpos, _, hcase⟩ := find_end_brace_spec pPage index pLine hline hno
    have h1 := spec_line_depth_zero pPage index
    constructor
    · intro n
      constructor
      · intro hres
        rcases hcase with ⟨h0, hr⟩ | ⟨_, _, hr⟩
        · rw [hr] at hres
          have hn : n = k + 1 := by
            simp only [Option.some.injEq] at hres
            exact hres.symm
          subst hn
          have hk0 : k ≠ 0 := by
            intro h
            subst h
            omega
          exact ⟨by omega, by omega, by simpa using h0, fun j hj => hpos j (by omega)⟩
        · rw [hr] at hres
          simp at hres
      · rintro ⟨hn2, hlen, hz, hp⟩
        have hkn : k = n - 1 := by
          rcases Nat.lt_trichotomy k (n - 1) with h | h | h
          · have := hp k h
            rcases hcase with ⟨h0, _⟩ | ⟨_, hend, _⟩ <;> omega
          · exact h
          · have := hpos (n - 1) h
            omega
        rcases hcase with ⟨_, hr⟩ | ⟨hp0, _, _⟩
        · rw [hr, hkn]
          congr 2
          omega
        · rw [hkn] at hp0
          omega
    · constructor
      · intro hres k2 hk2
        rcases hcase with ⟨_, hr⟩ | ⟨hp0, hend, _⟩
        · rw [hr] at hres
          simp at hres
        · by_cases h : k2 < k
          · exact hpos k2 h
          · have : k2 = k := by omega
            rw [this]
            exact hp0
      · intro hall
        rcases hcase with ⟨h0, _⟩ | ⟨_, _, hr⟩
        · have := hall k hk
          omega
        · exact hr

/-- C22, failing cases: the loop of `find_end_brace` stops with braces
unpaired.  On the page `void f() {`, `if (a) {{`, `}`, `}`, `}` the function
returns true with 4 lines, the line that opens two braces having counted for
one; on the page `void f() {`, `if (a) { b(); } else {`, `c();`, `}`, `}` it
returns true with 4 lines, the line that closes one brace and opens two
having counted for none.  On both pages one brace more is opened than closed
over these 4 lines, and the least number of lines over which as many braces
are closed as opened is 5. -/
theorem find_end_brace_stops_unpaired :
    (find_end_brace two_brace_page 0 = some (some 4) ∧
      spec_brace_balance two_brace_page 0 4 = 1 ∧
      spec_brace_balance two_brace_page 0 5 = 0 ∧
      ∀ n, 1 ≤ n → n < 5 → spec_brace_balance two_brace_page 0 n ≠ 0) ∧
    (find_end_brace else_brace_page 0 = some (some 4) ∧
      spec_brace_balance else_brace_page 0 4 = 1 ∧
      spec_brace_balance else_brace_page 0 5 = 0 ∧
      ∀ n, 1 ≤ n → n < 5 → spec_brace_balance else_brace_page 0 n ≠ 0) := by
  refine ⟨⟨by decide, by decide, by decide, ?_⟩, ⟨by decide, by decide, by decide, ?_⟩⟩
  · intro n h1 h5
    interval_cases n <;> decide
  · intro n h1 h5
    interval_cases n <;> decide

/-! ## Insertion into the symbol sets (C23, C24) -/

theorem tl_equals_iff (a b : STxtLine) : tl_equals a b = true ↔ a = b := by
  simp [tl_equals]

theorem find?_set_first {α : Type} (p : α → Bool) (a : α) (ha : p a = true) :
    ∀ (l : List α) (i : Nat), l.findIdx? p = some i → (l.set i a).find? p = some a
  | [], _, h => by simp at h
  | x :: xs, i, h => by
    by_cases hx : p x = true
    · simp only [List.findIdx?_cons, hx, if_true, Option.some.injEq] at h
      subst h
      simp [ha]
    · simp only [List.findIdx?_cons, hx, Bool.false_eq_true, if_false, List.findIdx?_succ,
        Nat.zero_add, Option.map_eq_some'] at h
      obtain ⟨j, hj, rfl⟩ := h
      simp only [List.set_cons_succ, List.find?_cons, hx]
      exact find?_set_first p a ha xs j hj

theorem find?_append_new {α : Type} (p : α → Bool) (a : α) (ha : p a = true) :
    ∀ (l : List α), l.findIdx? p = none → (l ++ [a]).find? p = some a
  | [], _ => by simp [ha]
  | x :: xs, h => by
    by_cases hx : p x = true
    · simp [List.findIdx?_cons, hx] at h
    · simp only [List.findIdx?_cons, hx, Bool.false_eq_true, if_false, List.findIdx?_succ,
        Nat.zero_add, Option.map_eq_none'] at h
      simp only [List.cons_append, List.find?_cons, hx]
      exact find?_append_new p a ha xs h

theorem map_set_same {α β : Type} (f : α → β) (a : α) :
    ∀ (l : List α) (i : Nat) (x : α), l[i]? = some x → f x = f a →
      (l.set i a).map f = l.map f
  | [], _, _, h, _ => by simp at h
  | y :: ys, 0, x, h, hf => by
    simp only [List.getElem?_cons_zero, Option.some.injEq] at h
    subst h
    simp [hf]
  | y :: ys, i + 1, x, h, hf => by
    simp only [List.getElem?_cons_succ] at h
    simp only [List.set_cons_succ, List.map_cons]
    rw [map_set_same f a ys i x h hf]

theorem findIdx?_some_getElem {α : Type} (p : α → Bool) (l : List α) (i : Nat)
    (h : l.findIdx? p = some i) : ∃ x, l[i]? = some x ∧ p x = true := by
  have := List.findIdx?_of_eq_some h
  cases hx : l[i]? with
  | none => rw [hx] at this; simp at this
  | some x => rw [hx] at this; exact ⟨x, rfl, this⟩

theorem findIdx?_none_forall {α : Type} (p : α → Bool) (l : List α)
    (h : l.findIdx? p = none) : ∀ x ∈ l, p x = false := by
  intro x hx
  have := List.findIdx?_eq_none_iff.mp h x hx
  simpa using this

/-- What replacing the first entry of a name or appending does to a list, in
the terms of C23: the place, the count, the lookup and the names. -/
theorem replace_or_append_facts {α : Type} (name : α → STxtLine) (l l' : List α) (a : α)
    (idx : Nat)
    (hspec : match l.findIdx? (fun x => tl_equals (name x) (name a)) with
      | some i => l' = l.set i a ∧ idx = i
      | none => l' = l ++ [a] ∧ idx = l.length) :
    l'[idx]? = some a ∧
    ((∃ x ∈ l, name x = name a) → l'.length = l.length ∧
      (∃ x, l[idx]? = some x ∧ name x = name a) ∧ ∀ j, j ≠ idx → l'[j]? = l[j]?) ∧
    ((∀ x ∈ l, name x ≠ name a) → l' = l ++ [a] ∧ idx = l.length) ∧
    l'.find? (fun x => tl_equals (name x) (name a)) = some a ∧
    ((l.map name).Nodup → (l'.map name).Nodup) := by
  have hpa : (fun x => tl_equals (name x) (name a)) a = true := by simp [tl_equals]
  cases hf : l.findIdx? (fun x => tl_equals (name x) (name a)) with
  | some i =>
    rw [hf] at hspec
    obtain ⟨rfl, rfl⟩ := hspec
    obtain ⟨x, hx, hpx⟩ := findIdx?_some_getElem _ l idx hf
    have hlt : idx < l.length := by
      by_contra h
      rw [List.getElem?_eq_none (by omega)] at hx
      cases hx
    have hname : name x = name a := (tl_equals_iff _ _).mp hpx
    refine ⟨by simp [List.getElem?_set, hlt], ?_, ?_, find?_set_first _ a hpa l idx hf, ?_⟩
    · intro _
      refine ⟨by simp, ⟨x, hx, hname⟩, ?_⟩
      intro j hj
      rw [List.getElem?_set_ne (Ne.symm hj)]
    · intro hall
      exact absurd hname (hall x (List.getElem?_mem hx))
    · intro hnd
      rw [map_set_same name a l idx x hx hname]
      exact hnd
  | none =>
    rw [hf] at hspec
    obtain ⟨rfl, rfl⟩ := hspec
    have hall := findIdx?_none_forall _ l hf
    refine ⟨by simp, ?_, fun _ => ⟨rfl, rfl⟩, find?_append_new _ a hpa l hf, ?_⟩
    · rintro ⟨x, hx, hn⟩
      have := hall x hx
      simp [tl_equals, hn] at this
    · intro hnd
      rw [List.map_append, List.nodup_append]
      refine ⟨hnd, by simp, ?_⟩
      intro n hn hn2
      simp only [List.map_cons, List.map_nil, List.mem_singleton] at hn2
      obtain ⟨x, hx, rfl⟩ := List.mem_map.mp hn
      have := hall x hx
      simp [tl_equals, hn2] at this

/-- `add_class`: the class replaces the first one of its name, at its index,
or is put at the end. -/
theorem add_class_spec : ∀ (cs : List SClass) (pAdd : SClass),
    match cs.findIdx? (fun c => tl_equals c.pName pAdd.pName) with
    | some i => (add_class cs pAdd).1 = cs.set i pAdd ∧ (add_class cs pAdd).2 = i
    | none => (add_class cs pAdd).1 = cs ++ [pAdd] ∧ (add_class cs pAdd).2 = cs.length
  | [], pAdd => by simp [add_class]
  | c :: cs, pAdd => by
    have ih := add_class_spec cs pAdd
    by_cases h : tl_equals c.pName pAdd.pName = true
    · simp only [List.findIdx?_cons, h, if_true, add_class, List.set_cons_zero, and_self]
    · simp only [List.findIdx?_cons, h, Bool.false_eq_true, if_false, add_class,
        List.findIdx?_succ, Nat.zero_add]
      cases hf : List.findIdx? (fun c => tl_equals c.pName pAdd.pName) cs with
      | none =>
        rw [hf] at ih
        simp only [Option.map_none', ih, List.cons_append, List.length_cons, and_self]
      | some i =>
        rw [hf] at ih
        simp only [Option.map_some', ih, List.set_cons_succ, and_self]

/-- `add_struct`: as `add_class`. -/
theorem add_struct_spec : ∀ (ss : List SStruct) (pAdd : SStruct),
    match ss.findIdx? (fun s => tl_equals s.pName pAdd.pName) with
    | some i => (add_struct ss pAdd).1 = ss.set i pAdd ∧ (add_struct ss pAdd).2 = i
    | none => (add_struct ss pAdd).1 = ss ++ [pAdd] ∧ (add_struct ss pAdd).2 = ss.length
  | [], pAdd => by simp [add_struct]
  | c :: cs, pAdd => by
    have ih := add_struct_spec cs pAdd
    by_cases h : tl_equals c.pName pAdd.pName = true
    · simp only [List.findIdx?_cons, h, if_true, add_struct, List.set_cons_zero, and_self]
    · simp only [List.findIdx?_cons, h, Bool.false_eq_true, if_false, add_struct,
        List.findIdx?_succ, Nat.zero_add]
      cases hf : List.findIdx? (fun s => tl_equals s.pName pAdd.pName) cs with
      | none =>
        rw [hf] at ih
        simp only [Option.map_none', ih, List.cons_append, List.length_cons, and_self]
      | some i =>
        rw [hf] at ih
        simp only [Option.map_some', ih, List.set_cons_succ, and_self]

theorem get_func_eq_find : ∀ (fs : List SSymFunc) (n : STxtLine),
    (∀ f ∈ fs, f.pName ≠ none) →
      get_func fs n = some (fs.find? (fun f => tl_equals (f.pName.getD []) n))
  | [], _, _ => rfl
  | f :: fs, n, h => by
    have ih := get_func_eq_find fs n (fun g hg => h g (List.mem_cons_of_mem _ hg))
    have hf := h f (List.mem_cons_self _ _)
    cases hn : f.pName with
    | none => exact absurd hn hf
    | some m =>
      simp only [get_func, hn, tl_equals_ptr, List.find?_cons, Option.getD_some]
      cases tl_equals m n with
      | true => rfl
      | false => exact ih

/-- `add_func` on a set whose functions have names, for a function with a
name: the function replaces the first one of its name, at its index, or is
put at the end. -/
theorem add_func_spec : ∀ (fs : List SSymFunc) (pAdd : SSymFunc) (n : STxtLine),
    (∀ f ∈ fs, f.pName ≠ none) → pAdd.pName = some n →
    ∃ fs' idx, add_func fs pAdd = some (fs', idx) ∧
      match fs.findIdx? (fun f => tl_equals (f.pName.getD []) (pAdd.pName.getD [])) with
      | some i => fs' = fs.set i pAdd ∧ idx = i
      | none => fs' = fs ++ [pAdd] ∧ idx = fs.length
  | [], pAdd, n, _, _ => ⟨[pAdd], 0, rfl, by simp⟩
  | f :: fs, pAdd, n, h, hn => by
    obtain ⟨fs', idx, hadd, ih⟩ := add_func_spec fs pAdd n
      (fun g hg => h g (List.mem_cons_of_mem _ hg)) hn
    have hf := h f (List.mem_cons_self _ _)
    cases hm : f.pName with
    | none => exact absurd hm hf
    | some m =>
      simp only [add_func, hm, hn, tl_equals_ptr, List.findIdx?_cons, Option.getD_some]
      by_cases he : tl_equals m n = true
      · refine ⟨pAdd :: fs, 0, by simp [he], by simp [he]⟩
      · have he' : tl_equals m n = false := by simpa using he
        refine ⟨f :: fs', idx + 1, by simp [he', hadd], ?_⟩
        simp only [he', Bool.false_eq_true, if_false, List.findIdx?_succ, Nat.zero_add]
        rw [hn] at ih
        simp only [Option.getD_some] at ih
        cases hfi : List.findIdx? (fun f => tl_equals (f.pName.getD []) n) fs with
        | none =>
          rw [hfi] at ih
          simp only [Option.map_none', ih, List.cons_append, List.length_cons, and_self]
        | some i =>
          rw [hfi] at ih
          simp only [Option.map_some', ih, List.set_cons_succ, and_self]

/-- C23: `SFuncSet::add_func` (on a set of named functions, for a function
with a name), `SClassSet::add_class` and `SStructSet::add_struct` put the
entry at the index they report: when an entry of the same name exists, at the
index of the first such entry, with the count and every other index
unchanged; otherwise at the end, at index count.  Afterwards the lookup by the
name (`get_func`, `get_class_from_name`, the struct search of
`verify_var_isstruct`) returns the entry added, and a set in which no two
entries share a name stays one. -/
theorem add_symbol_replaces (fs : List SSymFunc) (pFunc : SSymFunc) (n : STxtLine)
    (hstored : ∀ f ∈ fs, f.pName ≠ none) (hname : pFunc.pName = some n)
    (cs : List SClass) (pClass : SClass) (ss : List SStruct) (pStruct : SStruct) :
    (∃ fs' idx, add_func fs pFunc = some (fs', idx) ∧ fs'[idx]? = some pFunc ∧
      ((∃ f ∈ fs, f.pName = some n) → fs'.length = fs.length ∧
        (∃ f, fs[idx]? = some f ∧ f.pName = some n) ∧ ∀ j, j ≠ idx → fs'[j]? = fs[j]?) ∧
      ((∀ f ∈ fs, f.pName ≠ some n) → fs' = fs ++ [pFunc] ∧ idx = fs.length) ∧
      get_func fs' n = some (some pFunc) ∧
      ((fs.map (fun f => f.pName)).Nodup → (fs'.map (fun f => f.pName)).Nodup)) ∧
    ((add_class cs pClass).1[(add_class cs pClass).2]? = some pClass ∧
      ((∃ c ∈ cs, c.pName = pClass.pName) → (add_class cs pClass).1.length = cs.length ∧
        (∃ c, cs[(add_class cs pClass).2]? = some c ∧ c.pName = pClass.pName) ∧
        ∀ j, j ≠ (add_class cs pClass).2 → (add_class cs pClass).1[j]? = cs[j]?) ∧
      ((∀ c ∈ cs, c.pName ≠ pClass.pName) →
        (add_class cs pClass).1 = cs ++ [pClass] ∧ (add_class cs pClass).2 = cs.length) ∧
      get_class_from_name (add_class cs pClass).1 pClass.pName = some pClass ∧
      ((cs.map (fun c => c.pName)).Nodup →
        ((add_class cs pClass).1.map (fun c => c.pName)).Nodup)) ∧
    ((add_struct ss pStruct).1[(add_struct ss pStruct).2]? = some pStruct ∧
      ((∃ s ∈ ss, s.pName = pStruct.pName) → (add_struct ss pStruct).1.length = ss.length ∧
        (∃ s, ss[(add_struct ss pStruct).2]? = some s ∧ s.pName = pStruct.pName) ∧
        ∀ j, j ≠ (add_struct ss pStruct).2 → (add_struct ss pStruct).1[j]? = ss[j]?) ∧
      ((∀ s ∈ ss, s.pName ≠ pStruct.pName) →
        (add_struct ss pStruct).1 = ss ++ [pStruct] ∧ (add_struct ss pStruct).2 = ss.length) ∧
      (verify_var_isstruct (some pStruct.pName) ⟨cs, (add_struct ss pStruct).1, fs⟩).2.1 =
        some pStruct ∧
      ((ss.map (fun s => s.pName)).Nodup →
        ((add_struct ss pStruct).1.map (fun s => s.pName)).Nodup)) := by
  refine ⟨?_, ?_, ?_⟩
  · obtain ⟨fs', idx, hadd, hspec⟩ := add_func_spec fs pFunc n hstored hname
    obtain ⟨h1, h2, h3, h4, h5⟩ := replace_or_append_facts (fun f => f.pName.getD []) fs fs'
      pFunc idx hspec
    have hnm : ∀ f ∈ fs, ∀ m, f.pName = some m ↔ f.pName.getD [] = m := by
      intro f hf m
      cases hp : f.pName with
      | none => exact absurd hp (hstored f hf)
      | some k => simp
    have hpn : pFunc.pName.getD [] = n := by rw [hname]; rfl
    have hstored' : ∀ f ∈ fs', f.pName ≠ none := by
      intro f hf
      cases hfi : fs.findIdx? (fun f => tl_equals (f.pName.getD []) (pFunc.pName.getD []))
        with
      | none =>
        rw [hfi] at hspec
        rw [hspec.1] at hf
        rcases List.mem_append.mp hf with h | h
        · exact hstored f h
        · simp only [List.mem_singleton] at h
          rw [h, hname]
          simp
      | some i =>
        rw [hfi] at hspec
        rw [hspec.1] at hf
        rcases List.mem_or_eq_of_mem_set hf with h | h
        · exact hstored f h
        · rw [h, hname]
          simp
    refine ⟨fs', idx, hadd, h1, ?_, ?_, ?_, ?_⟩
    · rintro ⟨f, hf, hfn⟩
      obtain ⟨hl, ⟨x, hx, hxn⟩, hrest⟩ := h2 ⟨f, hf, by
        show f.pName.getD [] = pFunc.pName.getD []
        rw [hpn]; exact (hnm f hf n).mp hfn⟩
      exact ⟨hl, ⟨x, hx, (hnm x (List.getElem?_mem hx) n).mpr (by
        show x.pName.getD [] = n
        rw [← hpn]; exact hxn)⟩, hrest⟩
    · intro hall
      exact h3 (fun x hx hxn => hall x hx ((hnm x hx n).mpr (by
        show x.pName.getD [] = n
        rw [← hpn]; exact hxn)))
    · rw [get_func_eq_find fs' n hstored', ← hpn]
      exact congrArg some h4
    · intro hnd
      have hinj : ∀ (l : List SSymFunc), (∀ f ∈ l, f.pName ≠ none) →
          ((l.map (fun f => f.pName)).Nodup ↔ (l.map (fun f => f.pName.getD [])).Nodup) := by
        intro l hl
        have : l.map (fun f => f.pName.getD []) =
            (l.map (fun f => f.pName)).map (fun o => o.getD []) := by
          rw [List.map_map]; rfl
        rw [this]
        constructor
        · intro h
          apply List.Nodup.map_on _ h
          intro a ha b hb hab
          obtain ⟨fa, hfa, rfl⟩ := List.mem_map.mp ha
          obtain ⟨fb, hfb, rfl⟩ := List.mem_map.mp hb
          cases h1 : fa.pName with
          | none => exact absurd h1 (hl fa hfa)
          | some x =>
            cases h2 : fb.pName with
            | none => exact absurd h2 (hl fb hfb)
            | some y =>
              simp only [h1, h2, Option.getD_some] at hab
              rw [hab]
        · exact List.Nodup.of_map _
      exact (hinj fs' hstored').mpr (h5 ((hinj fs hstored).mp hnd))
  · obtain ⟨h1, h2, h3, h4, h5⟩ := replace_or_append_facts (fun c : SClass => c.pName) cs
      (add_class cs pClass).1 pClass (add_class cs pClass).2 (add_class_spec cs pClass)
    exact ⟨h1, h2, h3, h4, h5⟩
  · obtain ⟨h1, h2, h3, h4, h5⟩ := replace_or_append_facts (fun s : SStruct => s.pName) ss
      (add_struct ss pStruct).1 pStruct (add_struct ss pStruct).2 (add_struct_spec ss pStruct)
    refine ⟨h1, h2, h3, ?_, h5⟩
    have hsym : (fun s : SStruct => tl_equals pStruct.pName s.pName) =
        (fun s : SStruct => tl_equals s.pName pStruct.pName) := by
      funext s
      simp only [tl_equals]
      rw [Bool.eq_iff_iff, beq_iff_eq, beq_iff_eq]
      exact eq_comm
    simp only [verify_var_isstruct, hsym, h4]

/-- C23 on a function set that holds a function `f`, to which another function
`f` is added. -/
theorem add_symbol_replaces_witness :
    ∃ fs' idx, add_func [⟨[], some "int".toList, none, some "f".toList⟩,
        ⟨[], some "int".toList, none, some "g".toList⟩]
        ⟨[], some "void".toList, none, some "f".toList⟩ = some (fs', idx) ∧
      fs'[idx]? = some ⟨[], some "void".toList, none, some "f".toList⟩ ∧
      fs'.length = 2 ∧ idx = 0 ∧
      get_func fs' "f".toList = some (some ⟨[], some "void".toList, none, some "f".toList⟩) := by
  obtain ⟨⟨fs', idx, h1, h2, h3, _, h5, _⟩, _⟩ := add_symbol_replaces
    [⟨[], some "int".toList, none, some "f".toList⟩,
      ⟨[], some "int".toList, none, some "g".toList⟩]
    ⟨[], some "void".toList, none, some "f".toList⟩ "f".toList (by decide) rfl [] (new_class [] none)
    [] (new_struct [] none)
  obtain ⟨hl, ⟨f, hf, hfn⟩, _⟩ := h3 ⟨_, List.mem_cons_self _ _, rfl⟩
  refine ⟨fs', idx, h1, h2, hl, ?_, h5⟩
  have hdec : add_func [⟨[], some "int".toList, none, some "f".toList⟩,
        ⟨[], some "int".toList, none, some "g".toList⟩]
        ⟨[], some "void".toList, none, some "f".toList⟩ =
      some ([⟨[], some "void".toList, none, some "f".toList⟩,
        ⟨[], some "int".toList, none, some "g".toList⟩], 0) := by decide
  rw [hdec] at h1
  simp only [Option.some.injEq, Prod.mk.injEq] at h1
  exact h1.2.symm

/-- `get_var` on a set with a variable appended: an earlier variable of the
name is still the one returned; the appended one is returned when the set had
none of the name. -/
theorem get_var_append (v : SVar) (n : STxtLine) : ∀ (vs : List SVar),
    (∀ u, get_var vs n = some (some u) → get_var (vs ++ [v]) n = some (some u)) ∧
    (get_var vs n = some none → v.pName = some n → get_var (vs ++ [v]) n = some (some v))
  | [] => by
    refine ⟨fun u h => by simp [get_var] at h, fun _ hv => ?_⟩
    simp [get_var, hv, tl_equals_ptr, tl_equals]
  | w :: vs => by
    obtain ⟨ih1, ih2⟩ := get_var_append v n vs
    simp only [List.cons_append, get_var]
    cases tl_equals_ptr w.pName (some n) with
    | none => exact ⟨fun u h => by simp at h, fun h => by simp at h⟩
    | some b =>
      cases b with
      | true => exact ⟨fun u h => h, fun h => by simp at h⟩
      | false => exact ⟨ih1, ih2⟩

/-- C24 (amended): `SVarSet::add_var` appends: the count grows by one and
every variable held before keeps its index, also one of the same name.
`get_var` returns the first variable of a name, so after the addition it
still returns the earlier variable of that name when there is one, and the
variable added only when the set held none of its name. -/
theorem add_var_appends (vs : List SVar) (v : SVar) (n : STxtLine) :
    (add_var vs v).length = vs.length + 1 ∧
    (∀ j, j < vs.length → (add_var vs v)[j]? = vs[j]?) ∧
    (add_var vs v)[vs.length]? = some v ∧
    (∀ u, get_var vs n = some (some u) → get_var (add_var vs v) n = some (some u)) ∧
    (get_var vs n = some none → v.pName = some n →
      get_var (add_var vs v) n = some (some v)) := by
  refine ⟨by simp [add_var], ?_, by simp [add_var], (get_var_append v n vs).1,
    (get_var_append v n vs).2⟩
  intro j hj
  simp only [add_var]
  rw [List.getElem?_append_left hj]

/-- C24 (amended) on a set that holds `int a`, to which `char a` is added. -/
theorem add_var_appends_witness :
    (add_var [⟨some "int".toList, some "a".toList, none⟩]
      ⟨some "char".toList, some "a".toList, none⟩).length = 2 ∧
    get_var (add_var [⟨some "int".toList, some "a".toList, none⟩]
      ⟨some "char".toList, some "a".toList, none⟩) "a".toList =
        some (some ⟨some "int".toList, some "a".toList, none⟩) :=
  ⟨(add_var_appends [⟨some "int".toList, some "a".toList, none⟩]
      ⟨some "char".toList, some "a".toList, none⟩ "a".toList).1,
    (add_var_appends [⟨some "int".toList, some "a".toList, none⟩]
      ⟨some "char".toList, some "a".toList, none⟩ "a".toList).2.2.2.1 _ (by decide)⟩

/-- C24 refuted: adding `char a` to a variable set that holds `int a` leaves
two variables, and `get_var` of `a` returns the one held before, not the one
added. -/
theorem add_var_replaces_counterexample :
    (add_var [⟨some "int".toList, some "a".toList, none⟩]
      ⟨some "char".toList, some "a".toList, none⟩).length ≠
        ([⟨some "int".toList, some "a".toList, none⟩] : List SVar).length ∧
    get_var (add_var [⟨some "int".toList, some "a".toList, none⟩]
      ⟨some "char".toList, some "a".toList, none⟩) "a".toList ≠
        some (some ⟨some "char".toList, some "a".toList, none⟩) := by
  decide

/-! ## Constructors and destructors of a class (C25) -/

/-- `SClass::add_func` stores a function named as its return type in the
constructor slot and one named `~` and its return type in the destructor
slot, leaving the function set as it is; it compares the name with the whole
return type. -/
theorem class_add_func_slots (c : SClass) (vars : List SVar) (loc : Option SLocation)
    (ty : STxtLine) :
    SClass.add_func c ⟨vars, some ty, loc, some ty⟩ =
      some ({ c with pConstr := some ⟨vars, some ty, loc, some ty⟩ }, some (none, true)) ∧
    SClass.add_func c ⟨vars, some ty, loc, some ('~' :: ty)⟩ =
      some ({ c with pDestr := some ⟨vars, some ty, loc, some ('~' :: ty)⟩ },
        some (none, false)) := by
  constructor
  · simp [SClass.add_func, tl_equals_ptr, tl_equals]
  · have hne : ('~' :: ty == ty) = false := by
      rw [beq_eq_false_iff_ne]
      intro h
      have := congrArg List.length h
      simp at this
    simp [SClass.add_func, tl_equals_ptr, tl_equals, hne, tl_insert]

/-- C25, the failing case: the destructor of the page `class Foo {`,
`virtual ~Foo();`, `};` is registered with the return type `virtual Foo`, which
`SClass::add_func` compares with the name `~Foo`; the parse returns true, the
destructor slot of `Foo` stays empty and the function set of `Foo` holds the
function `~Foo`. -/
theorem virtual_destructor_in_func_set :
    (parse_page 4 virtual_destructor_page).map (fun r => (r.1, r.2.2)) =
      some (true, ⟨[⟨none, none,
        [⟨[], some "virtual Foo".toList, some ⟨some [1, 0], 1⟩, some "~Foo".toList⟩],
        [], "Foo".toList, some ⟨some [0], 0⟩⟩], [], []⟩) := by
  decide!

/-! ## Conditional sections (C28) -/

/-- The scan of `find_ifdef` stops at the first line from `idx` on that,
trimmed, starts with `#endif`, or with `#else` when that is looked for; lines
that start another conditional are stepped over like any other line. -/
theorem find_endif_first (pPage : List STxtLine) (index : Nat) (bElse : Bool) (j : Nat)
    (lj : STxtLine) (hj : pPage[j]? = some lj)
    (hstop : tl_find (tl_trim lj) "#endif" = 0 ∨
      (bElse = true ∧ tl_find (tl_trim lj) "#else" = 0)) :
    ∀ (n idx : Nat), idx ≤ j → j - idx < n →
      (∀ k l, idx ≤ k → k < j → pPage[k]? = some l →
        tl_find (tl_trim l) "#endif" ≠ 0 ∧ (bElse = true → tl_find (tl_trim l) "#else" ≠ 0)) →
      find_endif pPage index bElse n idx =
        some (some (j, decide (tl_find (tl_trim lj) "#endif" = 0))) := by
  have hjlt : j < pPage.length := by
    by_contra h
    rw [List.getElem?_eq_none (by omega)] at hj
    cases hj
  intro n
  induction n with
  | zero => intro idx _ h; omega
  | succ n ih =>
    intro idx hle hn hbefore
    rw [find_endif, if_pos (by omega)]
    by_cases hidx : idx = j
    · subst hidx
      rw [hj]
      simp only
      by_cases he : tl_find (tl_trim lj) "#endif" = 0
      · simp [he]
      · rcases hstop with h | ⟨hb, h⟩
        · exact absurd h he
        · simp [he, hb, h]
    · have hlt : idx < j := by omega
      have hl : pPage[idx]? = some pPage[idx] := List.getElem?_eq_getElem (by omega)
      obtain ⟨h1, h2⟩ := hbefore idx _ (le_refl _) hlt hl
      rw [hl]
      simp only [if_neg h1]
      have h3 : ¬ (bElse = true ∧ tl_find (tl_trim pPage[idx]) "#else" = 0) :=
        fun hc => h2 hc.1 hc.2
      rw [if_neg h3]
      exact ih (idx + 1) (by omega) (by omega)
        (fun k l hk1 hk2 hkl => hbefore k l (by omega) hk2 hkl)

/-- C28 (amended): `find_ifdef` at a line `i` that starts a conditional ends
the first arm at the first later line `j` that, trimmed, starts with `#endif`
or `#else`, whatever lines starting a nested conditional lie between: when
line `j` starts with `#endif` one `CDE_IFDEF` section of the lines `i .. j` is
added; when it starts with `#else`, one of the lines `i .. j - 1` and then one
of the lines from `j` to the first later line `j2` starting with `#endif`.
The sections are added with `add_section`, which folds them; the value
returned is that of the last section added. -/
theorem find_ifdef_first_end (add : AddSection) (pPage : List STxtLine) (i j : Nat)
    (li lj : STxtLine) (st : SParse) (hi : pPage[i]? = some li)
    (hstart : tl_find (tl_trim li) "#ifdef" = 0 ∨ tl_find (tl_trim li) "#ifndef" = 0 ∨
      tl_find (tl_trim li) "#if" = 0)
    (hij : i < j) (hj : pPage[j]? = some lj)
    (hbetween : ∀ k l, i < k → k < j → pPage[k]? = some l →
      tl_find (tl_trim l) "#endif" ≠ 0 ∧ tl_find (tl_trim l) "#else" ≠ 0) :
    (tl_find (tl_trim lj) "#endif" = 0 →
      ∀ r, add CDE_IFDEF i (j + 1 - i) false 0 (-1) st = some r →
        find_ifdef add pPage i st = some (r.1, j + 1 - i, r.2)) ∧
    (tl_find (tl_trim lj) "#endif" ≠ 0 → tl_find (tl_trim lj) "#else" = 0 →
      ∀ (j2 : Nat) (l2 : STxtLine) (r r2 : Bool × SParse), j < j2 → pPage[j2]? = some l2 →
        tl_find (tl_trim l2) "#endif" = 0 →
        (∀ k l, j < k → k < j2 → pPage[k]? = some l → tl_find (tl_trim l) "#endif" ≠ 0) →
        add CDE_IFDEF i (j - i) false 0 (-1) st = some r →
        add CDE_IFDEF j (j2 + 1 - j) false 0 (-1) r.2 = some r2 →
        find_ifdef add pPage i st = some (r2.1, (j - i) + (j2 + 1 - j), r2.2)) := by
  have hjlt : j < pPage.length := by
    by_contra h
    rw [List.getElem?_eq_none (by omega)] at hj
    cases hj
  constructor
  · intro hend r hr
    have hscan := find_endif_first pPage i true j lj hj (Or.inl hend) (pPage.length + 1) (i + 1)
      (by omega) (by omega)
      (fun k l h1 h2 hl => ⟨(hbetween k l (by omega) h2 hl).1,
        fun _ => (hbetween k l (by omega) h2 hl).2⟩)
    simp only [find_ifdef, hi, hstart, if_true, hscan, hend, decide_True, hr]
  · intro hnend helse j2 l2 r r2 hj2 hl2 hend2 hbetween2 hr hr2
    have hj2lt : j2 < pPage.length := by
      by_contra h
      rw [List.getElem?_eq_none (by omega)] at hl2
      cases hl2
    have hscan := find_endif_first pPage i true j lj hj (Or.inr ⟨rfl, helse⟩)
      (pPage.length + 1) (i + 1) (by omega) (by omega)
      (fun k l h1 h2 hl => ⟨(hbetween k l (by omega) h2 hl).1,
        fun _ => (hbetween k l (by omega) h2 hl).2⟩)
    have hscan2 := find_endif_first pPage i false j2 l2 hl2 (Or.inl hend2)
      (pPage.length + 1) (j + 1) (by omega) (by omega)
      (fun k l h1 h2 hl => ⟨hbetween2 k l (by omega) h2 hl, fun h => by cases h⟩)
    simp only [find_ifdef, hi, hstart, if_true, hscan, hnend, decide_False, hr,
      Bool.false_eq_true, if_false, hscan2]
    rw [hr2]

/-- C28 (amended) on the page with a nested conditional, at its first line. -/
theorem find_ifdef_first_end_witness :
    (tl_find (tl_trim "#endif".toList) "#endif" = 0 →
      ∀ r, add_section nested_ifdef_page 5 CDE_IFDEF 0 (3 + 1 - 0) false 0 (-1)
          new_base_section = some r →
        find_ifdef (add_section nested_ifdef_page 5) nested_ifdef_page 0 new_base_section =
          some (r.1, 3 + 1 - 0, r.2)) ∧
    (tl_find (tl_trim "#endif".toList) "#endif" ≠ 0 →
      tl_find (tl_trim "#endif".toList) "#else" = 0 →
      ∀ (j2 : Nat) (l2 : STxtLine) (r r2 : Bool × SParse), 3 < j2 →
        nested_ifdef_page[j2]? = some l2 →
        tl_find (tl_trim l2) "#endif" = 0 →
        (∀ k l, 3 < k → k < j2 → nested_ifdef_page[k]? = some l →
          tl_find (tl_trim l) "#endif" ≠ 0) →
        add_section nested_ifdef_page 5 CDE_IFDEF 0 (3 - 0) false 0 (-1) new_base_section =
          some r →
        add_section nested_ifdef_page 5 CDE_IFDEF 3 (j2 + 1 - 3) false 0 (-1) r.2 = some r2 →
        find_ifdef (add_section nested_ifdef_page 5) nested_ifdef_page 0 new_base_section =
          some (r2.1, (3 - 0) + (j2 + 1 - 3), r2.2)) :=
  find_ifdef_first_end (add_section nested_ifdef_page 5) nested_ifdef_page 0 3
    "#ifdef A".toList "#endif".toList new_base_section rfl (by decide) (by decide) rfl
    (by
      intro k l h1 h2 hl
      interval_cases k
      · have : l = "#ifdef B".toList := by
          have h : nested_ifdef_page[1]? = some "#ifdef B".toList := rfl
          rw [h] at hl
          exact (Option.some.inj hl).symm
        subst this
        decide
      · have : l = "int x;".toList := by
          have h : nested_ifdef_page[2]? = some "int x;".toList := rfl
          rw [h] at hl
          exact (Option.some.inj hl).symm
        subst this
        decide)

/-- C28 refuted: on the page `#ifdef A`, `#ifdef B`, `int x;`, `#endif`,
`int y;`, `#endif` the section `find_ifdef` adds for line 0 has 4 lines: it
ends at the `#endif` of the nested conditional (line 3), not at the matching
one (line 5); in the parsed page the root holds that section, then `int y;`
and the last `#endif` as lines of their own. -/
theorem find_ifdef_nested_counterexample :
    (find_ifdef (add_section nested_ifdef_page 5) nested_ifdef_page 0 new_base_section).map
      (fun r => (r.1, r.2.1, r.2.2.pThis.ppElements.map (fun e => (e.type, ce_length e)))) =
      some (true, 4, [(CDE_IFDEF, 4)]) ∧
    (parse_page 6 nested_ifdef_page).map
      (fun r => (r.1, r.2.1.ppElements.map (fun e => (e.type, ce_length e, e.pLine)))) =
      some (true, [(CDE_IFDEF, 4, "#ifdef A \x7b...\x7d".toList),
        (CDE_S_VARDECL, 1, "int y;".toList), (CDE_S_CODELINE, 1, "#endif".toList)]) := by
  constructor <;> decide!

/-! ## Collapse climbs (C29) -/

/-- The ancestor `k` levels above the section `h` is on the fold path of `h`
when `h` and every section between them is no block, sub-block or codebase. -/
theorem drop_mem_fold_path (root : SCodeElement) :
    ∀ (h : Handle) (k : Nat), k ≤ h.length →
      (∀ j, j < k → ∃ s, ce_at root (h.drop j) = some s ∧ is_stop_type s.type = false) →
      (∃ s, ce_at root (h.drop k) = some s) →
      h.drop k ∈ fold_path root h
  | [], k, _, _, _ => by simp [fold_path]
  | i :: h, 0, _, _, hex => by
    obtain ⟨s, hs⟩ := hex
    simp only [List.drop_zero] at hs ⊢
    simp only [fold_path, hs]
    split_ifs <;> simp
  | i :: h, k + 1, hk, hall, hex => by
    obtain ⟨s, hs, hst⟩ := hall 0 (by omega)
    simp only [List.drop_zero] at hs
    simp only [fold_path, hs, hst, Bool.false_eq_true, if_false, List.drop_succ_cons,
      List.mem_cons]
    right
    apply drop_mem_fold_path root h k (by simpa using hk)
    · intro j hj
      have := hall (j + 1) (by omega)
      simpa using this
    · simpa using hex

/-- C29 (amended): `ce_collapse(e)` climbs as far as the nearest block,
sub-block or codebase section: the section holding `e` and every ancestor
section, however many levels up, are folded as long as no block, sub-block or
codebase section has been met on the way; the flags that may change are those
of `e` itself and of the sections of that path (`fold_path`), every other
section keeping its flag. -/
theorem ce_collapse_climbs (root : SCodeElement) (hroot : well_formed root = true)
    (i : Nat) (h : Handle) (e : SCodeElement) (he : ce_at root (i :: h) = some e) :
    ∃ r pElemRoot, ce_collapse root (i :: h) = some (r, pElemRoot) ∧
      (∀ k, k ≤ h.length →
        (∀ j, j ≤ k → ∃ s, ce_at root (h.drop j) = some s ∧ is_stop_type s.type = false) →
        ∃ s', ce_at r (h.drop k) = some s' ∧ s'.bSummarized = true) ∧
      (∀ (g : Handle) (s : SCodeElement), ce_at root g = some s → g ∉ fold_path root h →
        g ≠ i :: h → ∃ s', ce_at r g = some s' ∧ s'.bSummarized = s.bSummarized) := by
  obtain ⟨r1, hr1, hre1⟩ :=
    collapse_total_erase h root (type_of_well_formed hroot) (is_sec_at_container he)
  have hflags : ∃ r, ce_collapse root (i :: h) = some (r, r1.2) ∧
      ∀ (g : Handle) (s : SCodeElement), ce_at root g = some s →
        ∃ s', ce_at r g = some s' ∧
          ((g ∈ fold_path root h ∧ collapse_folds s = true) → s'.bSummarized = true) ∧
          (g ∉ fold_path root h → g ≠ i :: h → s'.bSummarized = s.bSummarized) := by
    by_cases hb : e.bSingle = true
    · refine ⟨r1.1, by simp [ce_collapse, he, hr1, hb], ?_⟩
      intro g s hs
      obtain ⟨s', hs', _, hf⟩ := collapse_flags h root r1 hr1 g s hs
      refine ⟨s', hs', ?_, ?_⟩
      · intro hg
        rw [hf, if_pos hg]
      · intro hg _
        rw [hf, if_neg (fun hc => hg hc.1)]
    · refine ⟨set_summarized r1.1 (i :: h) true, by simp [ce_collapse, he, hr1, hb], ?_⟩
      intro g s hs
      obtain ⟨s1, hs1, he1, hf1⟩ := collapse_flags h root r1 hr1 g s hs
      obtain ⟨s2, hs2, hf2, _⟩ := ce_at_set_summarized (i :: h) true hs1
      refine ⟨s2, hs2, ?_, ?_⟩
      · intro hg
        rw [hf2, hf1, if_pos hg]
        split_ifs <;> rfl
      · intro hg hne
        rw [hf2, if_neg (fun hc => hne hc.1), hf1, if_neg (fun hc => hg hc.1)]
  obtain ⟨r, hr, hall⟩ := hflags
  refine ⟨r, r1.2, hr, ?_, ?_⟩
  · intro k hk hpath
    obtain ⟨s, hs, hst⟩ := hpath k (le_refl _)
    obtain ⟨s', hs', hfold, _⟩ := hall (h.drop k) s hs
    refine ⟨s', hs', hfold ⟨?_, ?_⟩⟩
    · exact drop_mem_fold_path root h k hk (fun j hj => hpath j (by omega)) ⟨s, hs⟩
    · simp [collapse_folds, hst]
  · intro g s hs hg hne
    obtain ⟨s', hs', _, hframe⟩ := hall g s hs
    exact ⟨s', hs', hframe hg hne⟩

/-- C29 (amended) on `sample_tree` with the first sub-block, the function and
the inner section unfolded: collapsing the line `g();` folds the inner
section, the function above it and the sub-block above that. -/
theorem ce_collapse_climbs_witness :
    ∃ r pElemRoot, ce_collapse sample_tree [1, 1, 1, 0, 1] = some (r, pElemRoot) ∧
      (∀ k, k ≤ ([1, 1, 0, 1] : Handle).length →
        (∀ j, j ≤ k → ∃ s, ce_at sample_tree (([1, 1, 0, 1] : Handle).drop j) = some s ∧
          is_stop_type s.type = false) →
        ∃ s', ce_at r (([1, 1, 0, 1] : Handle).drop k) = some s' ∧ s'.bSummarized = true) ∧
      (∀ (g : Handle) (s : SCodeElement), ce_at sample_tree g = some s →
        g ∉ fold_path sample_tree [1, 1, 0, 1] → g ≠ [1, 1, 1, 0, 1] →
        ∃ s', ce_at r g = some s' ∧ s'.bSummarized = s.bSummarized) :=
  ce_collapse_climbs sample_tree (by decide) 1 [1, 1, 0, 1]
    (.single CDE_S_CODELINE "g();".toList) (by rfl)

/-- C29 refuted: on `sample_tree` (function and first sub-block unfolded),
`ce_collapse` of the line `g();` folds the inner section holding the line, the
function that is its parent and also the sub-block above the function, which
is neither the containing section nor its parent and which holds the function
and a comment. -/
theorem ce_collapse_one_level_counterexample :
    (ce_at sample_tree [0, 1]).map (fun s => (s.type, s.bSummarized)) =
      some (CDE_SUBBLOCK, false) ∧
    (ce_at sample_tree [1, 0, 1]).map (fun s => (s.type, s.bSummarized)) =
      some (CDE_FNDEFN, false) ∧
    ∃ r pElemRoot, ce_collapse sample_tree [1, 1, 1, 0, 1] = some (r, pElemRoot) ∧
      (ce_at r [1, 1, 0, 1]).map (fun s => s.bSummarized) = some true ∧
      (ce_at r [1, 0, 1]).map (fun s => s.bSummarized) = some true ∧
      (ce_at r [0, 1]).map (fun s => s.bSummarized) = some true :=
  ⟨by rfl, by rfl, _, _, by rfl, by rfl, by rfl, by rfl⟩

/-! ## The sub-blocks of a block (C27) -/

theorem spec_is_marker_true (pPage : List STxtLine) (k : Nat)
    (h : spec_is_marker pPage k = true) :
    ∃ l, pPage[k]? = some l ∧ tl_find l "// SUBBLOCK:" = 0 := by
  unfold spec_is_marker at h
  cases hl : pPage[k]? with
  | none => rw [hl] at h; cases h
  | some l =>
    rw [hl] at h
    exact ⟨l, rfl, by simpa using h⟩

theorem spec_is_marker_false (pPage : List STxtLine) (k : Nat) (hk : k < pPage.length)
    (h : spec_is_marker pPage k = false) :
    ∃ l, pPage[k]? = some l ∧ tl_find l "// SUBBLOCK:" ≠ 0 := by
  unfold spec_is_marker at h
  rw [List.getElem?_eq_getElem hk] at h
  exact ⟨_, List.getElem?_eq_getElem hk, by simpa using h⟩

/-- The inner loop of `parse_block` finds the next marker line `m'`. -/
theorem subblock_length_next (pPage : List STxtLine) (index length idx m' : Nat)
    (hidx : index ≤ idx) (hm : spec_is_marker pPage m' = true) (hlt : m' < index + length) :
    ∀ (n s : Nat), 1 ≤ s → idx + s ≤ m' → m' - (idx + s) < n →
      (∀ k, idx + s ≤ k → k < m' → spec_is_marker pPage k = false) →
      subblock_length pPage index length idx n s = some (some (m' - idx)) := by
  obtain ⟨lm, hlm, hmark⟩ := spec_is_marker_true pPage m' hm
  have hmlt : m' < pPage.length := by
    by_contra h
    rw [List.getElem?_eq_none (by omega)] at hlm
    cases hlm
  intro n
  induction n with
  | zero => intro s _ _ h; omega
  | succ n ih =>
    intro s hs hle hn hno
    rw [subblock_length, if_pos (by omega)]
    by_cases heq : idx + s = m'
    · rw [heq, hlm]
      simp only [if_pos hmark]
      congr 2
      omega
    · obtain ⟨l, hl, hnm⟩ := spec_is_marker_false pPage (idx + s) (by omega)
        (hno (idx + s) (le_refl _) (by omega))
      rw [hl]
      simp only [if_neg hnm]
      rw [if_neg (by omega)]
      exact ih (s + 1) (by omega) (by omega) (by omega)
        (fun k h1 h2 => hno k (by omega) h2)

/-- The inner loop of `parse_block` runs to the end of the block when no
marker line follows and a line does. -/
theorem subblock_length_end (pPage : List STxtLine) (index length idx : Nat)
    (hidx : index ≤ idx) (hlen : index + length ≤ pPage.length) :
    ∀ (n s : Nat), 1 ≤ s → idx + s < index + length → index + length - (idx + s) ≤ n →
      (∀ k, idx + s ≤ k → k < index + length → spec_is_marker pPage k = false) →
      subblock_length pPage index length idx n s = some (some (index + length - idx)) := by
  intro n
  induction n with
  | zero => intro s _ _ h; omega
  | succ n ih =>
    intro s hs hlt hn hno
    rw [subblock_length, if_pos (by omega)]
    obtain ⟨l, hl, hnm⟩ := spec_is_marker_false pPage (idx + s) (by omega)
      (hno (idx + s) (le_refl _) hlt)
    rw [hl]
    simp only [if_neg hnm]
    by_cases hend : idx - index + (s + 1) = length
    · rw [if_pos hend]
      congr 2
      omega
    · rw [if_neg hend]
      exact ih (s + 1) (by omega) (by omega) (by omega)
        (fun k h1 h2 => hno k (by omega) h2)

theorem spec_markers_from_lt (pPage : List STxtLine) (e : Nat) :
    ∀ (ms : List Nat) (m : Nat), spec_markers_from pPage e m ms → m + 1 < e := by
  intro ms
  induction ms with
  | nil => intro m h; exact h.2.1
  | cons a as ih =>
    intro m h
    have := ih a h.2.2.2
    have := h.2.1
    omega

/-- The loop of `parse_block` from a marker line on, in a block whose last
line is no marker: it adds the sub-blocks the claim describes, one from each
marker to the next and one from the last marker to the end of the block, and
then ends with `bParsed` true. -/
theorem parse_block_loop_split (add : AddSection) (fuel : Nat) (pPage : List STxtLine)
    (index length : Nat) (hlen : index + length ≤ pPage.length) :
    ∀ (ms : List Nat) (m n : Nat) (b : Bool) (st : SParse), index < m → m < index + length →
      spec_markers_from pPage (index + length) m ms → ms.length + 2 ≤ n →
      parse_block_loop add fuel pPage index length n m b st =
        (spec_add_subblocks add (spec_subblock_ranges m ms (index + length)) st).map
          (fun st1 => (true, true, st1)) := by
  intro ms
  induction ms with
  | nil =>
    intro m n b st him hme hmk hn
    obtain ⟨hm, hlast, hno⟩ := hmk
    obtain ⟨l, hl, hmark⟩ := spec_is_marker_true pPage m hm
    obtain ⟨n1, rfl⟩ : ∃ n1, n = n1 + 2 := ⟨n - 2, by simp at hn; omega⟩
    rw [parse_block_loop, if_pos (by omega), hl]
    simp only [if_pos hmark]
    rw [subblock_length_end pPage index length m (by omega) hlen (length + 1) 1 (le_refl _)
      (by omega) (by omega) (fun k h1 h2 => hno k (by omega) h2)]
    simp only [spec_subblock_ranges, spec_add_subblocks]
    cases add CDE_SUBBLOCK m (index + length - m) true 0 (-1) st with
    | none => rfl
    | some r =>
      simp only [Option.map_some']
      rw [parse_block_loop, if_neg (by omega)]
  | cons m' ms ih =>
    intro m n b st him hme hmk hn
    obtain ⟨hm, hlt, hno, hrest⟩ := hmk
    obtain ⟨l, hl, hmark⟩ := spec_is_marker_true pPage m hm
    have hm' : spec_is_marker pPage m' = true := by
      cases ms with
      | nil => exact hrest.1
      | cons a as => exact hrest.1
    have hm'lt : m' < index + length := by
      have := spec_markers_from_lt pPage (index + length) ms m' hrest
      omega
    obtain ⟨n1, rfl⟩ : ∃ n1, n = n1 + 1 := ⟨n - 1, by simp at hn; omega⟩
    rw [parse_block_loop, if_pos (by omega), hl]
    simp only [if_pos hmark]
    rw [subblock_length_next pPage index length m m' (by omega) hm' hm'lt (length + 1) 1
      (le_refl _) (by omega) (by omega) (fun k h1 h2 => hno k (by omega) h2)]
    simp only [spec_subblock_ranges, spec_add_subblocks]
    cases add CDE_SUBBLOCK m (m' - m) true 0 (-1) st with
    | none => rfl
    | some r =>
      simp only
      rw [show m + (m' - m) = m' by omega]
      exact ih m' n1 true r.2 (by omega) hm'lt hrest (by simp at hn ⊢; omega)

/-- The loop of `parse_block` reports no sub-block when no line it can reach
is a marker line. -/
theorem parse_block_loop_no_marker (add : AddSection) (fuel : Nat) (pPage : List STxtLine)
    (index length : Nat)
    (hno : ∀ k, index < k → k < index + length → spec_is_marker pPage k = false) :
    ∀ (n idx : Nat) (st : SParse) (r : Bool × Bool × SParse), index < idx →
      parse_block_loop add fuel pPage index length n idx false st = some r → r.2.1 = false := by
  intro n
  induction n with
  | zero => intro idx st r _ h; simp [parse_block_loop] at h
  | succ n ih =>
    intro idx st r hidx h
    rw [parse_block_loop] at h
    by_cases hin : idx - index < length
    · rw [if_pos hin] at h
      cases hl : pPage[idx]? with
      | none => rw [hl] at h; cases h
      | some l =>
        rw [hl] at h
        have hnm : ¬ tl_find l "// SUBBLOCK:" = 0 := by
          have := hno idx hidx (by omega)
          unfold spec_is_marker at this
          rw [hl] at this
          simpa using this
        simp only [if_neg hnm] at h
        cases hf : find_startstring_parse add fuel pPage idx st with
        | none => rw [hf] at h; cases h
        | some q =>
          obtain ⟨b1, numLines, st1⟩ := q
          rw [hf] at h
          cases b1 with
          | true => exact ih (idx + numLines) st1 r (by omega) h
          | false =>
            simp only at h
            cases hv : find_var_decl add fuel pPage idx st1 with
            | none => rw [hv] at h; cases h
            | some q2 =>
              obtain ⟨b2, numLines2, st2⟩ := q2
              rw [hv] at h
              cases b2 with
              | true => exact ih (idx + numLines2) st2 r (by omega) h
              | false =>
                cases h
                rfl
    · rw [if_neg hin] at h
      cases h
      rfl

/-- A block none of whose lines after the first is a marker line is folded:
when `parse_block` returns, the section it filled has the summarized flag set. -/
theorem parse_block_no_marker_folded (add : AddSection) (fuel : Nat) (pPage : List STxtLine)
    (index length : Nat) (st : SParse) (r : Bool × SParse)
    (hno : ∀ k, index < k → k < index + length → spec_is_marker pPage k = false)
    (h : parse_block add fuel pPage index length st = some r) :
    r.2.pThis.bSummarized = true := by
  unfold parse_block at h
  cases hl : pPage[index]? with
  | none => rw [hl] at h; cases h
  | some first =>
    rw [hl] at h
    simp only at h
    cases hadd : ({ st.pThis with
        pLine := (tl_remove (summary_line first false) "// BLOCK: ").1 }).add_single
        CDE_S_BLOCKSTART first with
    | none => rw [hadd] at h; cases h
    | some pThis1 =>
      rw [hadd] at h
      simp only at h
      generalize hst : ({ st with pThis := pThis1 } : SParse) = st0 at h
      cases hp : parse_block_loop add fuel pPage index length fuel (index + 1) false st0 with
      | none => rw [hp] at h; cases h
      | some q =>
        have hb := parse_block_loop_no_marker add fuel pPage index length hno fuel (index + 1)
          st0 q (by omega) hp
        obtain ⟨bParsed, bSub, st1⟩ := q
        rw [hp] at h
        simp only at hb
        subst hb
        simp only at h
        cases h
        rfl

/-- The loop of `parse_block` never ends on the block whose second marker is
its last line. -/
theorem parse_block_loop_trailing_marker_block (add : AddSection) (fuel : Nat) (n : Nat)
    (st : SParse) :
    parse_block_loop add fuel trailing_marker_block 0 4 n 1 false st = none := by
  cases n with
  | zero => rfl
  | succ n =>
    rw [parse_block_loop, if_pos (by decide)]
    have hl : trailing_marker_block[1]? = some "// SUBBLOCK: a".toList := rfl
    rw [hl]
    have hm : tl_find "// SUBBLOCK: a".toList "// SUBBLOCK:" = 0 := by decide
    simp only [if_pos hm]
    have hs : subblock_length trailing_marker_block 0 4 1 (4 + 1) 1 = some (some 2) := by decide
    rw [hs]
    simp only
    cases add CDE_SUBBLOCK 1 2 true 0 (-1) st with
    | none => rfl
    | some q =>
      simp only
      exact parse_block_loop_trailing_marker_none add fuel trailing_marker_block 0 4 3
        "// SUBBLOCK: c".toList rfl (by decide) (by decide) n true q.2

/-- C27 (parse_block): the block `// BLOCK: b`, `// SUBBLOCK: a`, `int x;`,
`// SUBBLOCK: c` has its markers on the lines 1 and 3, and is not added within
any bound: after the first sub-block (lines 1 and 2) the loop of `parse_block`
reaches the marker on the last line, adds nothing and comes back to the same
line in the state it left it in, so the second sub-block is never created. -/
theorem parse_block_trailing_marker_diverges :
    (spec_is_marker trailing_marker_block 1 = true ∧
      spec_is_marker trailing_marker_block 2 = false ∧
      spec_is_marker trailing_marker_block 3 = true) ∧
    (∀ (fuel : Nat) (st : SParse),
      add_section trailing_marker_block fuel CDE_BLOCK 0 4 true 0 (-1) st = none) ∧
    (∀ (add : AddSection) (fuel n : Nat) (st : SParse),
      parse_block_loop add fuel trailing_marker_block 0 4 n 1 false st = none) ∧
    ∀ (add : AddSection) (fuel n : Nat) (b : Bool) (st : SParse),
      parse_block_loop add fuel trailing_marker_block 0 4 (n + 1) 3 b st =
        parse_block_loop add fuel trailing_marker_block 0 4 n 3 true st := by
  refine ⟨⟨by decide, by decide, by decide⟩, ?_, ?_, ?_⟩
  · intro fuel st
    cases fuel with
    | zero => rfl
    | succ f =>
      have hne : ¬ CDE_BLOCK = CDE_SUBBLOCK := by decide
      have hne2 : ¬ CDE_BLOCK = CDE_CODEBASE := by decide
      have hne3 : ¬ CDE_BLOCK = CDE_PREAMBLE := by decide
      have hf : trailing_marker_block[0]? = some "// BLOCK: b".toList := rfl
      have h0 : (0 : Nat) < MAX_ELEMENTS_IN_CS := by decide
      simp only [add_section, parse, parse_block, hf, hne, hne2, hne3, if_false, if_true,
        SCodeSection.add_single, List.length_nil, if_pos h0]
      rw [parse_block_loop_trailing_marker_block]
      split <;> rfl
  · intro add fuel n st
    exact parse_block_loop_trailing_marker_block add fuel n st
  · intro add fuel n b st
    exact parse_block_loop_trailing_marker add fuel trailing_marker_block 0 4 3 n b st
      "// SUBBLOCK: c".toList rfl (by decide) (by decide)

/-! ## Summary lines (C30) -/

theorem spec_summaries_ok_list_append (pPage : List STxtLine) (a b : List SCodeElement) :
    spec_summaries_ok_list pPage (a ++ b) =
      (spec_summaries_ok_list pPage a && spec_summaries_ok_list pPage b) := by
  induction a with
  | nil => simp [spec_summaries_ok_list]
  | cons e es ih => simp [spec_summaries_ok_list, ih, Bool.and_assoc]

theorem spec_first_line_list_append (a b : List SCodeElement) (h : a ≠ []) :
    spec_first_line_list (a ++ b) = spec_first_line_list a := by
  cases a with
  | nil => exact absurd rfl h
  | cons e es => simp [spec_first_line_list]

theorem spec_summaries_ok_list_singles (pPage : List STxtLine) (t : Nat) (ls : List STxtLine) :
    spec_summaries_ok_list pPage (ls.map (fun l => SCodeElement.single t l)) = true := by
  induction ls with
  | nil => simp [spec_summaries_ok_list]
  | cons l ls ih => simp [spec_summaries_ok_list, spec_summaries_ok, ih]

theorem spec_summaries_ok_sec (pPage : List STxtLine) (t : Nat) (l : STxtLine) (info : SSecInfo)
    (es : List SCodeElement) (first : STxtLine) (hmem : first ∈ pPage)
    (hl : l = spec_summary t first)
    (hes : es = [] ∨ spec_first_line_list es = some first)
    (hok : spec_summaries_ok_list pPage es = true) :
    spec_summaries_ok pPage (.sec t l info es) = true := by
  rw [spec_summaries_ok, hok, Bool.and_true, List.any_eq_true]
  refine ⟨first, hmem, ?_⟩
  rcases hes with h | h
  · simp [hl, h]
  · simp [hl, h]

theorem spec_step_ok_refl (pPage : List STxtLine) (s : SCodeSection) :
    spec_step_ok pPage s s :=
  ⟨rfl, fun h => h, fun h => ⟨h, rfl⟩⟩

theorem spec_step_ok_trans (pPage : List STxtLine) (a b c : SCodeSection)
    (h1 : spec_step_ok pPage a b) (h2 : spec_step_ok pPage b c) : spec_step_ok pPage a c :=
  ⟨h2.1.trans h1.1, fun h => h2.2.1 (h1.2.1 h),
    fun h => ⟨(h2.2.2 (h1.2.2 h).1).1, (h2.2.2 (h1.2.2 h).1).2.trans (h1.2.2 h).2⟩⟩

/-- Appending elements with right summaries is a step. -/
theorem spec_step_ok_append (pPage : List STxtLine) (s s1 : SCodeSection)
    (es : List SCodeElement) (hk : s1.kind = s.kind)
    (he : s1.ppElements = s.ppElements ++ es)
    (hok : spec_summaries_ok_list pPage es = true) : spec_step_ok pPage s s1 := by
  refine ⟨hk, fun h => ?_, fun h => ?_⟩
  · rw [he, spec_summaries_ok_list_append, h, hok]; rfl
  · rw [he]
    exact ⟨by simp [h], spec_first_line_list_append _ _ h⟩

/-- Storing a line at the end of the element list is a step. -/
theorem spec_step_ok_single (pPage : List STxtLine) (s : SCodeSection) (t : Nat)
    (l : STxtLine) :
    spec_step_ok pPage s { s with ppElements := s.ppElements ++ [.single t l] } :=
  spec_step_ok_append pPage s _ [.single t l] rfl rfl
    (by simp [spec_summaries_ok_list, spec_summaries_ok])

theorem spec_step_ok_add_single (pPage : List STxtLine) (s p : SCodeSection) (t : Nat)
    (l : STxtLine) (h : s.add_single t l = some p) : spec_step_ok pPage s p := by
  obtain ⟨_, rfl⟩ := add_single_eq_some s p t l h
  exact spec_step_ok_single pPage s t l

theorem spec_step_ok_of_add (pPage : List STxtLine) (add : AddSection)
    (hadd : spec_add_ok pPage add) (type index length : Nat) (b : Bool) (lt li : Int)
    (st : SParse) (r : Bool × SParse) (h : add type index length b lt li st = some r)
    (hf : spec_flag_ok pPage type index b) : spec_step_ok pPage st.pThis r.2.pThis := by
  obtain ⟨hk, child, he, hok⟩ := hadd type index length b lt li st r h
  exact spec_step_ok_append pPage _ _ [child] hk he
    (by simp [spec_summaries_ok_list, hok hf])

theorem spec_summary_plain (type : Nat) (first : STxtLine) (hb : spec_brace_type type = false)
    (h1 : type ≠ CDE_BLOCK) (h2 : type ≠ CDE_SUBBLOCK) :
    spec_summary type first = summary_line first false := by
  simp [spec_summary, hb, h1, h2]

theorem spec_summary_brace (type : Nat) (first : STxtLine) (hb : spec_brace_type type = true) :
    spec_summary type first = summary_line first (decide (tl_find first "\x7b" ≠ -1)) := by
  have h1 : type ≠ CDE_BLOCK := by
    intro h; rw [h] at hb; revert hb; decide
  have h2 : type ≠ CDE_SUBBLOCK := by
    intro h; rw [h] at hb; revert hb; decide
  simp [spec_summary, hb, h1, h2]

theorem take_drop_first (pPage : List STxtLine) (index n : Nat) (first : STxtLine)
    (h : pPage[index]? = some first) :
    (pPage.drop index).take (n + 1) = first :: (pPage.drop (index + 1)).take n := by
  have hlt : index < pPage.length := by
    by_contra hc
    rw [List.getElem?_eq_none (by omega)] at h
    cases h
  rw [List.drop_eq_getElem_cons hlt, List.take_succ_cons]
  rw [List.getElem?_eq_getElem hlt] at h
  cases h
  rfl

theorem add_comment_section_step (pThis : SCodeSection) (pPage : List STxtLine)
    (index length : Nat) (s : SCodeSection)
    (h : add_comment_section pThis pPage index length = some s) :
    spec_step_ok pPage pThis s ∧
      ∃ e, s.ppElements = pThis.ppElements ++ [e] ∧
        (0 < length → spec_first_line e = pPage[index]?) := by
  unfold add_comment_section at h
  cases hf : pPage[index]? with
  | none => rw [hf] at h; cases h
  | some first =>
    rw [hf] at h
    simp only at h
    split at h
    · split at h
      · cases h
        have hmem : first ∈ pPage := List.getElem?_mem hf
        have hlines : (length = 0 ∧ (pPage.drop index).take length = []) ∨
            ∃ rest, (pPage.drop index).take length = first :: rest := by
          cases length with
          | zero => left; simp
          | succ n => right; exact ⟨_, take_drop_first pPage index n first hf⟩
        refine ⟨spec_step_ok_append pPage _ _ _ rfl rfl ?_, _, rfl, ?_⟩
        · simp only [spec_summaries_ok_list, Bool.and_true]
          refine spec_summaries_ok_sec pPage _ _ _ _ first hmem
            (spec_summary_plain _ _ (by decide) (by decide) (by decide)).symm ?_
            (spec_summaries_ok_list_singles pPage _ _)
          rcases hlines with ⟨_, h0⟩ | ⟨rest, hr⟩
          · left; rw [h0]; rfl
          · right; rw [hr]; simp [spec_first_line_list, spec_first_line]
        · intro hpos
          rcases hlines with ⟨h0, _⟩ | ⟨rest, hr⟩
          · omega
          · rw [spec_first_line, hr]; simp [spec_first_line_list, spec_first_line]
      · cases h
    · cases h

theorem comment_run_end_gt (pPage : List STxtLine) (idx e : Nat)
    (h : comment_run_end pPage idx = some e) : idx ≤ e := by
  unfold comment_run_end at h
  cases hf : (pPage.drop idx).findIdx? _ with
  | none => rw [hf] at h; cases h
  | some i => rw [hf] at h; cases h; simp only; omega

theorem find_line_with_ge (pPage : List STxtLine) (tok : String) (idx e : Nat)
    (h : find_line_with pPage tok idx = some e) : idx ≤ e := by
  unfold find_line_with at h
  cases hf : (pPage.drop idx).findIdx? _ with
  | none => rw [hf] at h; cases h
  | some i => rw [hf] at h; cases h; simp only; omega

/-- `find_comment` is a step; when it finds a comment it adds one element,
whose first line is the line it was called at. -/
theorem find_comment_step (pThis : SCodeSection) (pPage : List STxtLine) (index : Nat)
    (r : Bool × Nat × SCodeSection) (h : find_comment pThis pPage index = some r) :
    spec_step_ok pPage pThis r.2.2 ∧
      (r.1 = true → ∃ e, r.2.2.ppElements = pThis.ppElements ++ [e] ∧
        spec_first_line e = pPage[index]?) ∧
      (r.1 = false → r.2.2 = pThis) := by
  unfold find_comment at h
  cases hf : pPage[index]? with
  | none => rw [hf] at h; cases h
  | some line =>
    rw [hf] at h
    simp only at h
    have hsingle : ∀ r : Bool × Nat × SCodeSection,
        (pThis.add_single CDE_S_COMMENT line).map (fun s => (true, 1, s)) = some r →
        spec_step_ok pPage pThis r.2.2 ∧
        (r.1 = true → ∃ e, r.2.2.ppElements = pThis.ppElements ++ [e] ∧
          spec_first_line e = some line) ∧
        (r.1 = false → r.2.2 = pThis) := by
      intro r hr
      rw [Option.map_eq_some'] at hr
      obtain ⟨p, hp, rfl⟩ := hr
      obtain ⟨_, hpe⟩ := add_single_eq_some _ _ _ _ hp
      exact ⟨spec_step_ok_add_single _ _ _ _ _ hp,
        fun _ => ⟨.single CDE_S_COMMENT line, by rw [hpe], rfl⟩,
        fun hc => Bool.noConfusion hc⟩
    have hnone : spec_step_ok pPage pThis pThis ∧
        (false = true → ∃ e, pThis.ppElements = pThis.ppElements ++ [e] ∧
          spec_first_line e = some line) ∧ (false = false → pThis = pThis) :=
      ⟨spec_step_ok_refl _ _, fun hc => Bool.noConfusion hc, fun _ => rfl⟩
    split at h
    · split at h
      · split at h
        · exact hsingle _ h
        · split at h
          · rename_i idx hrun
            cases ha : add_comment_section pThis pPage index (idx - index) with
            | none => rw [ha] at h; cases h
            | some s =>
              rw [ha] at h
              cases h
              have hge := comment_run_end_gt pPage (index + 1) idx hrun
              obtain ⟨hs, e, he, hfl⟩ := add_comment_section_step pThis pPage index _ s ha
              exact ⟨hs, fun _ => ⟨e, he, by rw [hfl (by omega), hf]⟩, fun hc => Bool.noConfusion hc⟩
          · cases h; exact hnone
      · exact hsingle _ h
    · split at h
      · split at h
        · rename_i idx hrun
          cases ha : add_comment_section pThis pPage index (idx + 1 - index) with
          | none => rw [ha] at h; cases h
          | some s =>
            rw [ha] at h
            cases h
            have hge := find_line_with_ge pPage _ (index + 1) idx hrun
            obtain ⟨hs, e, he, hfl⟩ := add_comment_section_step pThis pPage index _ s ha
            exact ⟨hs, fun _ => ⟨e, he, by rw [hfl (by omega), hf]⟩, fun hc => Bool.noConfusion hc⟩
        · cases h; exact hnone
      · cases h; exact hnone

theorem find_line_with_first (pPage : List STxtLine) (tok : String) (index idx : Nat)
    (first : STxtLine) (hf : pPage[index]? = some first)
    (h : find_line_with pPage tok index = some idx) :
    decide (idx = index) = decide (tl_find first tok ≠ -1) := by
  have hlt : index < pPage.length := by
    by_contra hc
    rw [List.getElem?_eq_none (by omega)] at hf
    cases hf
  have hfirst : pPage[index] = first := by
    rw [List.getElem?_eq_getElem hlt] at hf
    exact Option.some.inj hf
  unfold find_line_with at h
  rw [List.drop_eq_getElem_cons hlt, hfirst, List.findIdx?_cons] at h
  by_cases hp : tl_find first tok ≠ -1
  · rw [if_pos (by simpa using hp)] at h
    cases h
    simp [hp]
  · rw [if_neg (by simpa using hp), List.findIdx?_succ] at h
    cases hr : List.findIdx? (fun l => decide (tl_find l tok ≠ -1)) (pPage.drop (index + 1)) with
    | none => rw [hr] at h; cases h
    | some j =>
      rw [hr] at h
      cases h
      have : ¬ (j + 1 + index = index) := by omega
      simp [hp, this]

theorem find_brace_pair_flag (pPage : List STxtLine) (index : Nat) (first : STxtLine)
    (b : Bool) (len : Nat) (hf : pPage[index]? = some first)
    (h : find_brace_pair pPage index = some (some (b, len))) :
    b = decide (tl_find first "\x7b" ≠ -1) := by
  unfold find_brace_pair at h
  split at h
  · cases h
  · rename_i idx hl
    split at h
    · cases h
    · cases h
    · cases h
      exact find_line_with_first pPage _ index idx first hf hl

theorem spec_flag_ok_brace (pPage : List STxtLine) (type index : Nat) (first : STxtLine)
    (hb : spec_brace_type type = true) (hf : pPage[index]? = some first) :
    spec_flag_ok pPage type index (decide (tl_find first "\x7b" ≠ -1)) := by
  refine ⟨fun _ => ⟨first, hf, rfl⟩, fun h => ?_, Or.inl hb⟩
  rcases h with h | h <;> (rw [h] at hb; exact absurd hb (by decide))

theorem spec_flag_ok_ifdef (pPage : List STxtLine) (index : Nat) :
    spec_flag_ok pPage CDE_IFDEF index false :=
  ⟨fun h => absurd h (by decide), fun _ => rfl, by decide⟩

theorem spec_flag_ok_wx (pPage : List STxtLine) (index : Nat) :
    spec_flag_ok pPage CDE_WX index false :=
  ⟨fun h => absurd h (by decide), fun _ => rfl, by decide⟩

theorem spec_flag_ok_marker (pPage : List STxtLine) (type index : Nat) (b : Bool)
    (h : type = CDE_SUBBLOCK ∨ type = CDE_BLOCK ∨ type = CDE_PREAMBLE) :
    spec_flag_ok pPage type index b := by
  rcases h with h | h | h <;> subst h <;>
    exact ⟨fun h => absurd h (by decide), fun h => absurd h (by decide), by decide⟩

theorem find_enum_step (pPage : List STxtLine) (add : AddSection)
    (hadd : spec_add_ok pPage add) (index : Nat) (st : SParse) (r : Bool × Nat × SParse)
    (h : find_enum add pPage index st = some r) : spec_step_ok pPage st.pThis r.2.2.pThis := by
  unfold find_enum at h
  cases hf : pPage[index]? with
  | none => rw [hf] at h; cases h
  | some line =>
    rw [hf] at h
    simp only at h
    split at h
    · split at h
      · cases h
      · cases h; exact spec_step_ok_refl _ _
      · rename_i b len hbp
        have hb := find_brace_pair_flag pPage index line b len hf hbp
        split at h
        · cases h
        · rename_i b1 st1 ha
          cases h
          subst hb
          exact spec_step_ok_of_add pPage add hadd _ _ _ _ _ _ st _ ha
            (spec_flag_ok_brace pPage _ index line (by decide) hf)
    · cases h; exact spec_step_ok_refl _ _

theorem find_typedef_struct_step (pPage : List STxtLine) (add : AddSection)
    (hadd : spec_add_ok pPage add) (index : Nat) (st : SParse) (r : Bool × Nat × SParse)
    (h : find_typedef_struct add pPage index st = some r) :
    spec_step_ok pPage st.pThis r.2.2.pThis := by
  unfold find_typedef_struct at h
  cases hf : pPage[index]? with
  | none => rw [hf] at h; cases h
  | some line =>
    rw [hf] at h
    simp only at h
    split at h
    · split at h
      · cases h
      · cases h; exact spec_step_ok_refl _ _
      · rename_i b len hbp
        have hb := find_brace_pair_flag pPage index line b len hf hbp
        split at h
        · cases h
        · rename_i b1 st1 ha
          subst hb
          have hs := spec_step_ok_of_add pPage add hadd _ _ _ _ _ _ _ _ ha
            (spec_flag_ok_brace pPage _ index line (by decide) hf)
          split at h
          · cases h
          · cases h; exact hs
    · cases h; exact spec_step_ok_refl _ _

theorem find_class_step (pPage : List STxtLine) (add : AddSection)
    (hadd : spec_add_ok pPage add) (index : Nat) (st : SParse) (r : Bool × Nat × SParse)
    (h : find_class add pPage index st = some r) :
    spec_step_ok pPage st.pThis r.2.2.pThis := by
  unfold find_class at h
  cases hf : pPage[index]? with
  | none => rw [hf] at h; cases h
  | some line =>
    rw [hf] at h
    simp only at h
    split at h
    · split at h
      · split at h
        · cases h
        · rename_i pThis1 hadd1
          split at h
          · cases h
          · cases h; exact spec_step_ok_add_single _ _ _ _ _ hadd1
      · split at h
        · cases h
        · cases h; exact spec_step_ok_refl _ _
        · rename_i b len hbp
          have hb := find_brace_pair_flag pPage index line b len hf hbp
          split at h
          · cases h
          · rename_i b1 st1 ha
            subst hb
            have hs := spec_step_ok_of_add pPage add hadd _ _ _ _ _ _ _ _ ha
              (spec_flag_ok_brace pPage _ index line (by decide) hf)
            split at h
            · cases h
            · cases h; exact hs
    · cases h; exact spec_step_ok_refl _ _

theorem find_ifdef_step (pPage : List STxtLine) (add : AddSection)
    (hadd : spec_add_ok pPage add) (index : Nat) (st : SParse) (r : Bool × Nat × SParse)
    (h : find_ifdef add pPage index st = some r) :
    spec_step_ok pPage st.pThis r.2.2.pThis := by
  unfold find_ifdef at h
  cases hf : pPage[index]? with
  | none => rw [hf] at h; cases h
  | some line =>
    rw [hf] at h
    simp only at h
    split at h
    · split at h
      · cases h
      · cases h; exact spec_step_ok_refl _ _
      · rename_i idx bEnd hfe
        split at h
        · cases h
        · rename_i bFound st1 ha
          have hs := spec_step_ok_of_add pPage add hadd _ _ _ _ _ _ _ _ ha
            (spec_flag_ok_ifdef pPage _)
          split at h
          · cases h; exact hs
          · split at h
            · cases h
            · cases h; exact hs
            · split at h
              · cases h
              · rename_i bFound2 st2 ha2
                cases h
                exact spec_step_ok_trans _ _ _ _ hs
                  (spec_step_ok_of_add pPage add hadd _ _ _ _ _ _ _ _ ha2
                    (spec_flag_ok_ifdef pPage _))
    · cases h; exact spec_step_ok_refl _ _

theorem find_L1L2_step (pPage : List STxtLine) (add : AddSection)
    (hadd : spec_add_ok pPage add) (index : Nat) (st : SParse) (r : Bool × Nat × SParse)
    (h : find_L1L2 add pPage index st = some r) :
    spec_step_ok pPage st.pThis r.2.2.pThis := by
  unfold find_L1L2 at h
  cases hf : pPage[index]? with
  | none => rw [hf] at h; cases h
  | some line =>
    rw [hf] at h
    simp only at h
    split at h
    · split at h
      · cases h
      · cases h; exact spec_step_ok_refl _ _
      · rename_i idx hbr
        have hflag : decide (idx = index) = decide (tl_find line "\x7b" ≠ -1) := by
          by_cases hp : tl_find line "\x7b" ≠ -1
          · rw [if_pos hp] at hbr
            cases hbr
            simp [hp]
          · rw [if_neg hp] at hbr
            have : idx = index + 1 := by
              split at hbr
              · split at hbr
                · cases hbr; rfl
                · cases hbr
              · cases hbr
            subst this
            simp [hp]
        split at h
        · cases h
        · cases h; exact spec_step_ok_refl _ _
        · split at h
          · cases h
          · rename_i b1 st1 ha
            cases h
            rw [hflag] at ha
            refine spec_step_ok_of_add pPage add hadd _ _ _ _ _ _ _ _ ha
              (spec_flag_ok_brace pPage _ index line ?_ hf)
            split <;> [rfl; split <;> [rfl; split <;> rfl]]
    · cases h; exact spec_step_ok_refl _ _

theorem register_var_step (pPage : List STxtLine) (st st1 : SParse) (b : Bool) (v : SVar)
    (h : register_var st b v = some st1) : spec_step_ok pPage st.pThis st1.pThis := by
  unfold register_var at h
  split at h
  · split at h
    · cases h
    · cases h; exact spec_step_ok_refl _ _
  · split at h
    · split at h
      · cases h
      · cases h; exact spec_step_ok_refl _ _
    · cases h
      exact spec_step_ok_append pPage _ _ [] rfl (by simp) rfl

theorem add_params_to_last_step (pPage : List STxtLine) (p p1 : SCodeSection) (vars : List SVar)
    (h : add_params_to_last p vars = some p1) : spec_step_ok pPage p p1 := by
  unfold add_params_to_last at h
  split at h
  · cases h; exact spec_step_ok_refl _ _
  · split at h
    · rename_i t l info es hlast
      cases h
      have hsplit := List.dropLast_append_getLast? _ (Option.mem_def.mpr hlast)
      refine ⟨rfl, fun hok => ?_, fun hne => ⟨by simp, ?_⟩⟩
      · rw [← hsplit, spec_summaries_ok_list_append] at hok
        simp only [spec_summaries_ok_list_append]
        simp only [spec_summaries_ok_list, spec_summaries_ok, Bool.and_true,
          Bool.and_eq_true] at hok ⊢
        exact hok
      · simp only
        by_cases hd : p.ppElements.dropLast = []
        · rw [hd] at hsplit ⊢
          rw [← hsplit]
          simp [spec_first_line_list, spec_first_line]
        · rw [spec_first_line_list_append _ _ hd]
          conv_rhs => rw [← hsplit]
          rw [spec_first_line_list_append _ _ hd]
    · cases h

/-- The ways `find_var_decl` returns: nothing found and the state as it was;
a variable declaration, registered by `register_var` after the line is added;
or a function, registered by `register_func`, for which the line is added as
a forward declaration, or a section is added with the brace flag of its first
line and given the parameters, or nothing is added. -/
theorem find_var_decl_cases (add : AddSection) (fuel : Nat) (pPage : List STxtLine)
    (index : Nat) (st : SParse) (r : Bool × Nat × SParse) (line : STxtLine)
    (hf : pPage[index]? = some line) (h : find_var_decl add fuel pPage index st = some r) :
    (r.1 = false ∧ r.2.2 = st) ∨
    (r.1 = true ∧ ∃ (ev : SExtractVar) (bGlobal : Bool) (loc : SLocation),
      extract_var (tl_trim line) st.pSymSet = some ev ∧
      (bGlobal = (st.pThis.type == CDE_CODEBASE || st.pThis.type == CDE_BLOCK ||
          st.pThis.type == CDE_SUBBLOCK) ∨
        (bGlobal = false ∧ st.pThis.type ≠ CDE_CLASSDECL)) ∧
      register_var { st with pThis := { st.pThis with
          ppElements := st.pThis.ppElements ++ [.single CDE_S_VARDECL line] } } bGlobal
        (new_var ev.pVarName ev.pVarType (some loc)) = some r.2.2) ∨
    (r.1 = true ∧ ∃ (ev ev2 : SExtractVar) (vars : List SVar) (syms1 : SSymbolSet)
        (slot : SFuncSlot) (st2 : SParse) (p : SCodeSection) (loc : SLocation),
      extract_var (tl_trim line) st.pSymSet = some ev ∧
      extract_var line st.pSymSet = some ev2 ∧
      register_func st (st.pThis.type == CDE_CODEBASE || st.pThis.type == CDE_BLOCK ||
          st.pThis.type == CDE_SUBBLOCK) ev.pClassName
        ⟨vars, ev2.pVarType, none, ev2.pVarName⟩ = some (syms1, slot) ∧
      ((st2 = ⟨{ st.pThis with
            ppElements := st.pThis.ppElements ++ [.single CDE_S_FWDDECL_FN line] }, syms1⟩ ∧
          p = st2.pThis) ∨
        (∃ (t len : Nat) (lt li : Int) (rr : Bool × SParse),
          (t = CDE_FNDEFN ∨ t = CDE_CLASS_FNDEFN) ∧
          add t index len (decide (tl_find line "\x7b" ≠ -1)) lt li ⟨st.pThis, syms1⟩ = some rr ∧
          st2 = rr.2 ∧ add_params_to_last st2.pThis vars = some p) ∨
        (st2 = ⟨st.pThis, syms1⟩ ∧ add_params_to_last st2.pThis vars = some p)) ∧
      r.2.2 = ⟨p, set_func_location st2.pSymSet slot loc⟩) := by
  have hvar : ∀ (b : Bool) (ev : SExtractVar) (r : Bool × Nat × SParse),
      (match st.pThis.add_single CDE_S_VARDECL line with
        | none => none
        | some pThis1 =>
          match pThis1.last_location with
          | none => none
          | some loc =>
            (register_var { st with pThis := pThis1 } b
              (new_var ev.pVarName ev.pVarType (some loc))).map (fun st1 => (true, 1, st1))) =
        some r → r.1 = true ∧ ∃ loc,
          register_var { st with pThis := { st.pThis with
              ppElements := st.pThis.ppElements ++ [.single CDE_S_VARDECL line] } } b
            (new_var ev.pVarName ev.pVarType (some loc)) = some r.2.2 := by
    intro b ev r h
    split at h
    · cases h
    · rename_i pThis1 hadd1
      obtain ⟨_, rfl⟩ := add_single_eq_some _ _ _ _ hadd1
      split at h
      · cases h
      · rename_i loc hloc
        cases hr : register_var { st with pThis := { st.pThis with
            ppElements := st.pThis.ppElements ++ [.single CDE_S_VARDECL line] } } b
            (new_var ev.pVarName ev.pVarType (some loc)) with
        | none => rw [hr] at h; cases h
        | some st1 =>
          rw [hr] at h
          cases h
          exact ⟨rfl, loc, hr⟩
  have hfunc : ∀ (ev : SExtractVar) (bFnDecl : Bool) (fnDefnLength nLength : Nat)
      (bInlineBrace : Bool) (r : Bool × Nat × SParse),
      bInlineBrace = decide (tl_find line "\x7b" ≠ -1) ∨ bFnDecl = true →
      (match extract_var line st.pSymSet with
        | none => none
        | some ev2 =>
          if ev2.bFound then
            match extract_params pPage st.pSymSet index fnDefnLength fuel ev2.pLine index []
              with
            | none => none
            | some vars =>
              let pFunc : SSymFunc := ⟨vars, ev2.pVarType, none, ev2.pVarName⟩
              match register_func st (st.pThis.type == CDE_CODEBASE ||
                  st.pThis.type == CDE_BLOCK || st.pThis.type == CDE_SUBBLOCK)
                  ev.pClassName pFunc with
              | none => none
              | some (syms1, slot) =>
                let st1 : SParse := { st with pSymSet := syms1 }
                let added : Option SParse :=
                  if bFnDecl then
                    (st1.pThis.add_single CDE_S_FWDDECL_FN line).map
                      (fun p => { st1 with pThis := p })
                  else
                    let sec : Option SParse :=
                      if ev.pClassName ≠ .null then
                        match syms1.pClassSet.findIdx?
                            (fun c => class_name_equals ev.pClassName c.pName) with
                        | some i =>
                          (add CDE_CLASS_FNDEFN index nLength bInlineBrace 2 i st1).map
                            (fun r => r.2)
                        | none => some st1
                      else
                        (add CDE_FNDEFN index nLength bInlineBrace 0 (-1) st1).map
                          (fun r => r.2)
                    match sec with
                    | none => none
                    | some st2 =>
                      (add_params_to_last st2.pThis vars).map
                        (fun p => { st2 with pThis := p })
                match added with
                | none => none
                | some st3 =>
                  match st3.pThis.last_location with
                  | none => none
                  | some loc =>
                    some (true, nLength,
                      { st3 with pSymSet := set_func_location st3.pSymSet slot loc })
          else some (false, nLength, st)) = some r →
      (r.1 = false ∧ r.2.2 = st) ∨
      (r.1 = true ∧ ∃ (ev2 : SExtractVar) (vars : List SVar) (syms1 : SSymbolSet)
          (slot : SFuncSlot) (st2 : SParse) (p : SCodeSection) (loc : SLocation),
        extract_var line st.pSymSet = some ev2 ∧
        register_func st (st.pThis.type == CDE_CODEBASE || st.pThis.type == CDE_BLOCK ||
            st.pThis.type == CDE_SUBBLOCK) ev.pClassName
          ⟨vars, ev2.pVarType, none, ev2.pVarName⟩ = some (syms1, slot) ∧
        ((st2 = ⟨{ st.pThis with
              ppElements := st.pThis.ppElements ++ [.single CDE_S_FWDDECL_FN line] }, syms1⟩ ∧
            p = st2.pThis) ∨
          (∃ (t len : Nat) (lt li : Int) (rr : Bool × SParse),
            (t = CDE_FNDEFN ∨ t = CDE_CLASS_FNDEFN) ∧
            add t index len (decide (tl_find line "\x7b" ≠ -1)) lt li ⟨st.pThis, syms1⟩ =
              some rr ∧
            st2 = rr.2 ∧ add_params_to_last st2.pThis vars = some p) ∨
          (st2 = ⟨st.pThis, syms1⟩ ∧ add_params_to_last st2.pThis vars = some p)) ∧
        r.2.2 = ⟨p, set_func_location st2.pSymSet slot loc⟩) := by
    intro ev bFnDecl fnDefnLength nLength bInlineBrace r hflag h
    cases hev2 : extract_var line st.pSymSet with
    | none => rw [hev2] at h; cases h
    | some ev2 =>
      rw [hev2] at h
      dsimp only at h
      split at h
      · split at h
        · cases h
        · rename_i vars hvars
          split at h
          · cases h
          · rename_i syms1 slot hreg
            cases bFnDecl with
            | true =>
              rw [if_pos rfl] at h
              split at h
              · cases h
              · rename_i st3 hadded
                rw [Option.map_eq_some'] at hadded
                obtain ⟨p1, hp1, rfl⟩ := hadded
                obtain ⟨_, rfl⟩ := add_single_eq_some _ _ _ _ hp1
                split at h
                · cases h
                · rename_i loc hloc
                  cases h
                  exact Or.inr ⟨rfl, ev2, vars, syms1, slot, _, _, loc, rfl, hreg,
                    Or.inl ⟨rfl, rfl⟩, rfl⟩
            | false =>
              have hb : bInlineBrace = decide (tl_find line "\x7b" ≠ -1) := by
                rcases hflag with h1 | h1
                · exact h1
                · cases h1
              subst hb
              rw [if_neg (by decide)] at h
              split at h
              · cases h
              · rename_i st3 hadded
                split at h
                · cases h
                · rename_i loc hloc
                  cases h
                  refine Or.inr ⟨rfl, ev2, vars, syms1, slot, ?_⟩
                  split at hadded
                  · cases hadded
                  · rename_i st2 hsec
                    cases hp : add_params_to_last st2.pThis vars with
                    | none => rw [hp] at hadded; cases hadded
                    | some p =>
                      rw [hp] at hadded
                      cases hadded
                      refine ⟨st2, p, loc, rfl, hreg, ?_, rfl⟩
                      split at hsec
                      · split at hsec
                        · rename_i i hi
                          cases ha : add CDE_CLASS_FNDEFN index nLength
                              (decide (tl_find line "\x7b" ≠ -1)) 2 i ⟨st.pThis, syms1⟩ with
                          | none => rw [ha] at hsec; cases hsec
                          | some rr =>
                            rw [ha] at hsec
                            cases hsec
                            exact Or.inr (Or.inl ⟨_, _, _, _, rr, Or.inr rfl, ha, rfl, hp⟩)
                        · cases hsec
                          exact Or.inr (Or.inr ⟨rfl, hp⟩)
                      · cases ha : add CDE_FNDEFN index nLength
                            (decide (tl_find line "\x7b" ≠ -1)) 0 (-1) ⟨st.pThis, syms1⟩ with
                        | none => rw [ha] at hsec; cases hsec
                        | some rr =>
                          rw [ha] at hsec
                          cases hsec
                          exact Or.inr (Or.inl ⟨_, _, _, _, rr, Or.inl rfl, ha, rfl, hp⟩)
      · cases h
        exact Or.inl ⟨rfl, rfl⟩
  unfold find_var_decl at h
  rw [hf] at h
  dsimp only at h
  cases hev : extract_var (tl_trim line) st.pSymSet with
  | none => rw [hev] at h; cases h
  | some ev =>
    rw [hev] at h
    dsimp only at h
    split at h
    · split at h
      · obtain ⟨h1, loc, h2⟩ := hvar _ ev r h
        exact Or.inr (Or.inl ⟨h1, ev, _, loc, rfl, Or.inl rfl, h2⟩)
      · split at h
        · split at h
          · rename_i hty
            obtain ⟨h1, loc, h2⟩ := hvar _ ev r h
            refine Or.inr (Or.inl ⟨h1, ev, _, loc, rfl, Or.inr ⟨rfl, ?_⟩, h2⟩)
            intro hc
            rw [hc] at hty
            revert hty
            decide
          · rcases hfunc ev true 1 1 true r (Or.inr rfl) h with h1 | ⟨h1, ev2, vars, syms1,
              slot, st2, p, loc, h2, h3, h4, h5⟩
            · exact Or.inl h1
            · exact Or.inr (Or.inr ⟨h1, ev, ev2, vars, syms1, slot, st2, p, loc, rfl, h2, h3,
                h4, h5⟩)
        · split at h
          · cases h; exact Or.inl ⟨rfl, rfl⟩
          · rename_i idx hidx
            split at h
            · cases h
            · cases h; exact Or.inl ⟨rfl, rfl⟩
            · rename_i secLength hsl
              rcases hfunc ev false (idx - index + 1) (idx + secLength - index)
                (decide (idx = index)) r
                (Or.inl (find_line_with_first pPage _ index idx line hf hidx)) h with
                h1 | ⟨h1, ev2, vars, syms1, slot, st2, p, loc, h2, h3, h4, h5⟩
              · exact Or.inl h1
              · exact Or.inr (Or.inr ⟨h1, ev, ev2, vars, syms1, slot, st2, p, loc, rfl, h2,
                  h3, h4, h5⟩)
    · cases h; exact Or.inl ⟨rfl, rfl⟩

theorem find_var_decl_step (pPage : List STxtLine) (add : AddSection)
    (hadd : spec_add_ok pPage add) (fuel index : Nat) (st : SParse) (r : Bool × Nat × SParse)
    (h : find_var_decl add fuel pPage index st = some r) :
    spec_step_ok pPage st.pThis r.2.2.pThis := by
  cases hf : pPage[index]? with
  | none => simp [find_var_decl, hf] at h
  | some line =>
    rcases find_var_decl_cases add fuel pPage index st r line hf h with
      ⟨_, h2⟩ | ⟨_, ev, b, loc, _, _, hreg⟩ |
      ⟨_, ev, ev2, vars, syms1, slot, st2, p, loc, _, _, _, hcase, hr⟩
    · rw [h2]; exact spec_step_ok_refl _ _
    · exact spec_step_ok_trans _ _ _ _ (spec_step_ok_single _ _ _ _)
        (register_var_step pPage _ _ _ _ hreg)
    · rw [hr]
      rcases hcase with ⟨h1, h2⟩ | ⟨t, len, lt, li, rr, ht, ha, h1, hp⟩ | ⟨h1, hp⟩
      · rw [h2, h1]; exact spec_step_ok_single _ _ _ _
      · have hb : spec_brace_type t = true := by
          rcases ht with ht | ht <;> (rw [ht]; decide)
        have hs := spec_step_ok_of_add pPage add hadd _ _ _ _ _ _ _ _ ha
          (spec_flag_ok_brace pPage t index line hb hf)
        rw [h1] at hp
        exact spec_step_ok_trans _ _ _ _ hs (add_params_to_last_step pPage _ _ _ hp)
      · rw [h1] at hp
        exact add_params_to_last_step pPage _ _ _ hp

theorem find_startstring_step_step (pPage : List STxtLine) (add : AddSection)
    (hadd : spec_add_ok pPage add) (index idx : Nat) (prev : Int) (st : SParse)
    (r : Bool × Bool × Nat × Nat × SParse)
    (h : find_startstring_step add pPage index idx prev st = some r) :
    spec_step_ok pPage st.pThis r.2.2.2.2.pThis := by
  unfold find_startstring_step at h
  cases hf : pPage[idx]? with
  | none => rw [hf] at h; cases h
  | some line =>
    rw [hf] at h
    dsimp only at h
    split at h
    · obtain ⟨_, rfl⟩ := add_single_map_eq_some _ _ _ _ _ h
      exact spec_step_ok_single _ _ _ _
    · cases hc : find_class add pPage idx st with
      | none => rw [hc] at h; cases h
      | some rc =>
        obtain ⟨bc, lc, st1⟩ := rc
        have hs1 := find_class_step pPage add hadd idx st _ hc
        rw [hc] at h
        cases bc with
        | true => cases h; exact hs1
        | false =>
          dsimp only at h
          split at h
          · split at h
            · cases h
            · rename_i pThis1 hadd1
              obtain ⟨_, rfl⟩ := add_single_eq_some _ _ _ _ hadd1
              split at h
              · cases h
              · cases h
                exact spec_step_ok_trans _ _ _ _ hs1 (spec_step_ok_single _ _ _ _)
          · cases he : find_enum add pPage idx st1 with
            | none => rw [he] at h; cases h
            | some re =>
              obtain ⟨be, le, st2⟩ := re
              have hs2 := spec_step_ok_trans _ _ _ _ hs1 (find_enum_step pPage add hadd idx st1 _ he)
              rw [he] at h
              cases be with
              | true => cases h; exact hs2
              | false =>
                dsimp only at h
                cases ht : find_typedef_struct add pPage idx st2 with
                | none => rw [ht] at h; cases h
                | some rt =>
                  obtain ⟨bt, lt, st3⟩ := rt
                  have hs3 := spec_step_ok_trans _ _ _ _ hs2
                    (find_typedef_struct_step pPage add hadd idx st2 _ ht)
                  rw [ht] at h
                  cases bt with
                  | true => cases h; exact hs3
                  | false =>
                    dsimp only at h
                    split at h
                    · obtain ⟨_, rfl⟩ := add_single_map_eq_some _ _ _ _ _ h
                      exact spec_step_ok_trans _ _ _ _ hs3 (spec_step_ok_single _ _ _ _)
                    · cases hcm : find_comment st3.pThis pPage idx with
                      | none => rw [hcm] at h; cases h
                      | some rcm =>
                        obtain ⟨bcm, lcm, p4⟩ := rcm
                        have hs4 := (find_comment_step st3.pThis pPage idx _ hcm).1
                        have hp4 := (find_comment_step st3.pThis pPage idx _ hcm).2.2
                        rw [hcm] at h
                        cases bcm with
                        | true => cases h; exact spec_step_ok_trans _ _ _ _ hs3 hs4
                        | false =>
                          dsimp only at h
                          split at h
                          · split at h
                            · cases h; exact hs3
                            · split at h
                              · cases h
                              · rename_i b4 st4 ha
                                cases h
                                exact spec_step_ok_trans _ _ _ _ hs3
                                  (spec_step_ok_of_add pPage add hadd _ _ _ _ _ _ _ _ ha
                                    (spec_flag_ok_wx pPage _))
                          · split at h
                            · obtain ⟨_, rfl⟩ := add_single_map_eq_some _ _ _ _ _ h
                              exact spec_step_ok_trans _ _ _ _ hs3 (spec_step_ok_single _ _ _ _)
                            · cases hi : find_ifdef add pPage idx st3 with
                              | none => rw [hi] at h; cases h
                              | some ri =>
                                obtain ⟨bi, li, st4⟩ := ri
                                have hs5 := spec_step_ok_trans _ _ _ _ hs3
                                  (find_ifdef_step pPage add hadd idx st3 _ hi)
                                rw [hi] at h
                                cases bi with
                                | true => cases h; exact hs5
                                | false =>
                                  dsimp only at h
                                  split at h
                                  · obtain ⟨_, rfl⟩ := add_single_map_eq_some _ _ _ _ _ h
                                    exact spec_step_ok_trans _ _ _ _ hs5 (spec_step_ok_single _ _ _ _)
                                  · split at h
                                    · obtain ⟨_, rfl⟩ := add_single_map_eq_some _ _ _ _ _ h
                                      exact spec_step_ok_trans _ _ _ _ hs5 (spec_step_ok_single _ _ _ _)
                                    · cases h; exact hs5

theorem find_startstring_loop_step (pPage : List STxtLine) (add : AddSection)
    (hadd : spec_add_ok pPage add) (index : Nat) (prev : Int) :
    ∀ (n idx : Nat) (st : SParse) (r : Bool × Nat × SParse),
      find_startstring_loop add pPage index prev n idx st = some r →
      spec_step_ok pPage st.pThis r.2.2.pThis := by
  intro n
  induction n with
  | zero => intro idx st r h; simp [find_startstring_loop] at h
  | succ n ih =>
    intro idx st r h
    rw [find_startstring_loop] at h
    split at h
    · cases hs : find_startstring_step add pPage index idx prev st with
      | none => rw [hs] at h; cases h
      | some q =>
        obtain ⟨bFound, bExit, nLength, idx1, st1⟩ := q
        have h1 := find_startstring_step_step pPage add hadd index idx prev st _ hs
        rw [hs] at h
        dsimp only at h
        split at h
        · cases h; exact h1
        · exact spec_step_ok_trans _ _ _ _ h1 (ih idx1 st1 r h)
    · cases h; exact spec_step_ok_refl _ _

theorem find_startstring_parse_step (pPage : List STxtLine) (add : AddSection)
    (hadd : spec_add_ok pPage add) (fuel index : Nat) (st : SParse) (r : Bool × Nat × SParse)
    (h : find_startstring_parse add fuel pPage index st = some r) :
    spec_step_ok pPage st.pThis r.2.2.pThis :=
  find_startstring_loop_step pPage add hadd index _ fuel index st r h

theorem parse_not_loop_step (pPage : List STxtLine) (index length : Nat) :
    ∀ (n idx : Nat) (p p1 : SCodeSection),
      parse_not_loop pPage index length n idx p = some p1 → spec_step_ok pPage p p1 := by
  intro n
  induction n with
  | zero => intro idx p p1 h; simp [parse_not_loop] at h
  | succ n ih =>
    intro idx p p1 h
    rw [parse_not_loop] at h
    split at h
    · cases hc : find_comment p pPage idx with
      | none => rw [hc] at h; cases h
      | some q =>
        obtain ⟨b, len, p2⟩ := q
        have hs := (find_comment_step p pPage idx _ hc).1
        rw [hc] at h
        cases b with
        | true => exact spec_step_ok_trans _ _ _ _ hs (ih _ _ _ h)
        | false =>
          dsimp only at h
          split at h
          · cases h
          · split at h
            · cases h
            · rename_i pA hpA
              exact spec_step_ok_trans _ _ _ _ hs
                (spec_step_ok_trans _ _ _ _ (spec_step_ok_add_single _ _ _ _ _ hpA) (ih _ _ _ h))
    · cases h; exact spec_step_ok_refl _ _

/-- Started on a section without elements, the loop of `parse_not` leaves it
so or makes the line it started at its first line. -/
theorem parse_not_loop_first (pPage : List STxtLine) (index length n idx : Nat)
    (p p1 : SCodeSection) (hp : p.ppElements = [])
    (h : parse_not_loop pPage index length n idx p = some p1) :
    p1.ppElements = [] ∨ spec_first_line_list p1.ppElements = pPage[idx]? := by
  cases n with
  | zero => simp [parse_not_loop] at h
  | succ n =>
    rw [parse_not_loop] at h
    split at h
    · cases hc : find_comment p pPage idx with
      | none => rw [hc] at h; cases h
      | some q =>
        obtain ⟨b, len, p2⟩ := q
        have hfc := find_comment_step p pPage idx _ hc
        rw [hc] at h
        cases b with
        | true =>
          obtain ⟨e, he, hfl⟩ := hfc.2.1 rfl
          have hs := parse_not_loop_step pPage index length n _ _ _ h
          have hne : p2.ppElements ≠ [] := by rw [he]; simp
          right
          rw [(hs.2.2 hne).2, he, hp]
          exact hfl
        | false =>
          dsimp only at h
          have hp2 : p2 = p := hfc.2.2 rfl
          subst hp2
          split at h
          · cases h
          · rename_i line hl
            split at h
            · cases h
            · rename_i pA hpA
              obtain ⟨_, rfl⟩ := add_single_eq_some _ _ _ _ hpA
              have hs := parse_not_loop_step pPage index length n _ _ _ h
              have hne : (p2.ppElements ++ [SCodeElement.single CDE_S_CODELINE line]) ≠ [] := by
                simp
              right
              rw [(hs.2.2 hne).2, hl]
              simp [hp, spec_first_line_list, spec_first_line]
    · cases h; left; exact hp

theorem parse_preamble_loop_step (pPage : List STxtLine) (index length : Nat) :
    ∀ (n idx : Nat) (p : SCodeSection) (r : Bool × SCodeSection),
      parse_preamble_loop pPage index length n idx p = some r → spec_step_ok pPage p r.2 := by
  intro n
  induction n with
  | zero => intro idx p r h; simp [parse_preamble_loop] at h
  | succ n ih =>
    intro idx p r h
    rw [parse_preamble_loop] at h
    split at h
    · cases hc : find_comment p pPage idx with
      | none => rw [hc] at h; cases h
      | some q =>
        obtain ⟨b, len, p2⟩ := q
        have hs := (find_comment_step p pPage idx _ hc).1
        rw [hc] at h
        cases b with
        | true => exact spec_step_ok_trans _ _ _ _ hs (ih _ _ _ h)
        | false =>
          dsimp only at h
          split at h
          · cases h
          · split at h
            · split at h
              · cases h
              · rename_i pA hpA
                exact spec_step_ok_trans _ _ _ _ hs
                  (spec_step_ok_trans _ _ _ _ (spec_step_ok_add_single _ _ _ _ _ hpA) (ih _ _ _ h))
            · cases h; exact hs
    · cases h; exact spec_step_ok_refl _ _

theorem parse_preamble_loop_first (pPage : List STxtLine) (index length n idx : Nat)
    (p : SCodeSection) (r : Bool × SCodeSection) (hp : p.ppElements = [])
    (h : parse_preamble_loop pPage index length n idx p = some r) :
    r.2.ppElements = [] ∨ spec_first_line_list r.2.ppElements = pPage[idx]? := by
  cases n with
  | zero => simp [parse_preamble_loop] at h
  | succ n =>
    rw [parse_preamble_loop] at h
    split at h
    · cases hc : find_comment p pPage idx with
      | none => rw [hc] at h; cases h
      | some q =>
        obtain ⟨b, len, p2⟩ := q
        have hfc := find_comment_step p pPage idx _ hc
        rw [hc] at h
        cases b with
        | true =>
          obtain ⟨e, he, hfl⟩ := hfc.2.1 rfl
          have hs := parse_preamble_loop_step pPage index length n _ _ _ h
          have hne : p2.ppElements ≠ [] := by rw [he]; simp
          right
          rw [(hs.2.2 hne).2, he, hp]
          exact hfl
        | false =>
          dsimp only at h
          have hp2 : p2 = p := hfc.2.2 rfl
          subst hp2
          split at h
          · cases h
          · rename_i line hl
            split at h
            · split at h
              · cases h
              · rename_i pA hpA
                obtain ⟨_, rfl⟩ := add_single_eq_some _ _ _ _ hpA
                have hs := parse_preamble_loop_step pPage index length n _ _ _ h
                have hne : (p2.ppElements ++ [SCodeElement.single CDE_S_BLANK line]) ≠ [] := by
                  simp
                right
                rw [(hs.2.2 hne).2, hl]
                simp [hp, spec_first_line_list, spec_first_line]
            · cases h; left; exact hp
    · cases h; left; exact hp

theorem parse_local_scope_loop_step (pPage : List STxtLine) (add : AddSection)
    (hadd : spec_add_ok pPage add) (fuel index length : Nat) :
    ∀ (n idx : Nat) (st st1 : SParse),
      parse_local_scope_loop add fuel pPage index length n idx st = some st1 →
      spec_step_ok pPage st.pThis st1.pThis := by
  intro n
  induction n with
  | zero => intro idx st st1 h; simp [parse_local_scope_loop] at h
  | succ n ih =>
    intro idx st st1 h
    rw [parse_local_scope_loop] at h
    split at h
    · cases h1 : find_L1L2 add pPage idx st with
      | none => rw [h1] at h; cases h
      | some q =>
        obtain ⟨b, len, s1⟩ := q
        have hs1 := find_L1L2_step pPage add hadd idx st _ h1
        rw [h1] at h
        cases b with
        | true => exact spec_step_ok_trans _ _ _ _ hs1 (ih _ _ _ h)
        | false =>
          dsimp only at h
          cases h2 : find_ifdef add pPage idx s1 with
          | none => rw [h2] at h; cases h
          | some q2 =>
            obtain ⟨b2, len2, s2⟩ := q2
            have hs2 := spec_step_ok_trans _ _ _ _ hs1 (find_ifdef_step pPage add hadd idx s1 _ h2)
            rw [h2] at h
            cases b2 with
            | true => exact spec_step_ok_trans _ _ _ _ hs2 (ih _ _ _ h)
            | false =>
              dsimp only at h
              cases h3 : find_comment s2.pThis pPage idx with
              | none => rw [h3] at h; cases h
              | some q3 =>
                obtain ⟨b3, len3, p3⟩ := q3
                have hs3 := spec_step_ok_trans _ _ _ _ hs2 (find_comment_step _ pPage idx _ h3).1
                rw [h3] at h
                cases b3 with
                | true => exact spec_step_ok_trans _ _ _ _ hs3 (ih _ _ _ h)
                | false =>
                  dsimp only at h
                  split at h
                  · cases h
                  · split at h
                    · split at h
                      · cases h
                      · rename_i pA hpA
                        exact spec_step_ok_trans _ _ _ _ hs3
                          (spec_step_ok_trans _ _ _ _ (spec_step_ok_add_single _ _ _ _ _ hpA)
                            (ih _ _ _ h))
                    · cases h4 : find_var_decl add fuel pPage idx { s2 with pThis := p3 } with
                      | none => rw [h4] at h; cases h
                      | some q4 =>
                        obtain ⟨b4, len4, s4⟩ := q4
                        have hs4 := spec_step_ok_trans _ _ _ _ hs3
                          (find_var_decl_step pPage add hadd fuel idx _ _ h4)
                        rw [h4] at h
                        cases b4 with
                        | true => exact spec_step_ok_trans _ _ _ _ hs4 (ih _ _ _ h)
                        | false =>
                          dsimp only at h
                          split at h
                          · cases h
                          · rename_i pA hpA
                            exact spec_step_ok_trans _ _ _ _ hs4
                              (spec_step_ok_trans _ _ _ _ (spec_step_ok_add_single _ _ _ _ _ hpA)
                                (ih _ _ _ h))
    · cases h; exact spec_step_ok_refl _ _

theorem parse_struct_loop_step (pPage : List STxtLine) (add : AddSection)
    (hadd : spec_add_ok pPage add) (fuel index length : Nat) :
    ∀ (n idx : Nat) (st st1 : SParse),
      parse_struct_loop add fuel pPage index length n idx st = some st1 →
      spec_step_ok pPage st.pThis st1.pThis := by
  intro n
  induction n with
  | zero => intro idx st st1 h; simp [parse_struct_loop] at h
  | succ n ih =>
    intro idx st st1 h
    rw [parse_struct_loop] at h
    split at h
    · split at h
      · cases h
      · rename_i line hl
        cases h3 : find_comment st.pThis pPage idx with
        | none => rw [h3] at h; cases h
        | some q3 =>
          obtain ⟨b3, len3, p3⟩ := q3
          have hs3 := (find_comment_step _ pPage idx _ h3).1
          rw [h3] at h
          cases b3 with
          | true => exact spec_step_ok_trans _ _ _ _ hs3 (ih _ _ _ h)
          | false =>
            dsimp only at h
            split at h
            · split at h
              · cases h
              · rename_i pA hpA
                exact spec_step_ok_trans _ _ _ _ hs3
                  (spec_step_ok_trans _ _ _ _ (spec_step_ok_add_single _ _ _ _ _ hpA) (ih _ _ _ h))
            · cases h4 : find_var_decl add fuel pPage idx { st with pThis := p3 } with
              | none => rw [h4] at h; cases h
              | some q4 =>
                obtain ⟨b4, len4, s4⟩ := q4
                have hs4 := spec_step_ok_trans _ _ _ _ hs3
                  (find_var_decl_step pPage add hadd fuel idx _ _ h4)
                rw [h4] at h
                cases b4 with
                | true => exact spec_step_ok_trans _ _ _ _ hs4 (ih _ _ _ h)
                | false =>
                  dsimp only at h
                  cases h5 : find_enum add pPage idx s4 with
                  | none => rw [h5] at h; cases h
                  | some q5 =>
                    obtain ⟨b5, len5, s5⟩ := q5
                    have hs5 := spec_step_ok_trans _ _ _ _ hs4
                      (find_enum_step pPage add hadd idx _ _ h5)
                    rw [h5] at h
                    cases b5 with
                    | true => exact spec_step_ok_trans _ _ _ _ hs5 (ih _ _ _ h)
                    | false =>
                      dsimp only at h
                      cases h6 : find_ifdef add pPage idx s5 with
                      | none => rw [h6] at h; cases h
                      | some q6 =>
                        obtain ⟨b6, len6, s6⟩ := q6
                        have hs6 := spec_step_ok_trans _ _ _ _ hs5
                          (find_ifdef_step pPage add hadd idx _ _ h6)
                        rw [h6] at h
                        cases b6 with
                        | true => exact spec_step_ok_trans _ _ _ _ hs6 (ih _ _ _ h)
                        | false =>
                          dsimp only at h
                          split at h
                          · cases h
                          · rename_i pA hpA
                            exact spec_step_ok_trans _ _ _ _ hs6
                              (spec_step_ok_trans _ _ _ _ (spec_step_ok_add_single _ _ _ _ _ hpA)
                                (ih _ _ _ h))
    · cases h; exact spec_step_ok_refl _ _

theorem parse_global_scope_loop_step (pPage : List STxtLine) (add : AddSection)
    (hadd : spec_add_ok pPage add) (fuel index length : Nat) :
    ∀ (n idx : Nat) (st st1 : SParse),
      parse_global_scope_loop add fuel pPage index length n idx st = some st1 →
      spec_step_ok pPage st.pThis st1.pThis := by
  intro n
  induction n with
  | zero => intro idx st st1 h; simp [parse_global_scope_loop] at h
  | succ n ih =>
    intro idx st st1 h
    rw [parse_global_scope_loop] at h
    split at h
    · cases h1 : find_startstring_parse add fuel pPage idx st with
      | none => rw [h1] at h; cases h
      | some q =>
        obtain ⟨b, len, s1⟩ := q
        have hs1 := find_startstring_parse_step pPage add hadd fuel idx st _ h1
        rw [h1] at h
        cases b with
        | true => exact spec_step_ok_trans _ _ _ _ hs1 (ih _ _ _ h)
        | false =>
          dsimp only at h
          cases h4 : find_var_decl add fuel pPage idx s1 with
          | none => rw [h4] at h; cases h
          | some q4 =>
            obtain ⟨b4, len4, s4⟩ := q4
            have hs4 := spec_step_ok_trans _ _ _ _ hs1
              (find_var_decl_step pPage add hadd fuel idx _ _ h4)
            rw [h4] at h
            cases b4 with
            | true => exact spec_step_ok_trans _ _ _ _ hs4 (ih _ _ _ h)
            | false =>
              dsimp only at h
              split at h
              · cases h
              · split at h
                · cases h
                · rename_i pA hpA
                  exact spec_step_ok_trans _ _ _ _ hs4
                    (spec_step_ok_trans _ _ _ _ (spec_step_ok_add_single _ _ _ _ _ hpA) (ih _ _ _ h))
    · cases h; exact spec_step_ok_refl _ _

theorem parse_block_loop_step (pPage : List STxtLine) (add : AddSection)
    (hadd : spec_add_ok pPage add) (fuel index length : Nat) :
    ∀ (n idx : Nat) (b : Bool) (st : SParse) (r : Bool × Bool × SParse),
      parse_block_loop add fuel pPage index length n idx b st = some r →
      spec_step_ok pPage st.pThis r.2.2.pThis := by
  intro n
  induction n with
  | zero => intro idx b st r h; simp [parse_block_loop] at h
  | succ n ih =>
    intro idx b st r h
    rw [parse_block_loop] at h
    split at h
    · split at h
      · cases h
      · split at h
        · split at h
          · cases h
          · exact ih _ _ _ _ h
          · split at h
            · cases h
            · rename_i b1 s1 ha
              exact spec_step_ok_trans _ _ _ _
                (spec_step_ok_of_add pPage add hadd _ _ _ _ _ _ _ _ ha
                  (spec_flag_ok_marker pPage _ _ _ (Or.inl rfl)))
                (ih _ _ _ _ h)
        · cases h1 : find_startstring_parse add fuel pPage idx st with
          | none => rw [h1] at h; cases h
          | some q =>
            obtain ⟨b1, len, s1⟩ := q
            have hs1 := find_startstring_parse_step pPage add hadd fuel idx st _ h1
            rw [h1] at h
            cases b1 with
            | true => exact spec_step_ok_trans _ _ _ _ hs1 (ih _ _ _ _ h)
            | false =>
              dsimp only at h
              cases h4 : find_var_decl add fuel pPage idx s1 with
              | none => rw [h4] at h; cases h
              | some q4 =>
                obtain ⟨b4, len4, s4⟩ := q4
                have hs4 := spec_step_ok_trans _ _ _ _ hs1
                  (find_var_decl_step pPage add hadd fuel idx _ _ h4)
                rw [h4] at h
                cases b4 with
                | true => exact spec_step_ok_trans _ _ _ _ hs4 (ih _ _ _ _ h)
                | false => cases h; exact hs4
    · cases h; exact spec_step_ok_refl _ _

theorem parse_nm_codebase_loop_step (pPage : List STxtLine) (add : AddSection)
    (hadd : spec_add_ok pPage add) (fuel index length : Nat) :
    ∀ (n idx : Nat) (st : SParse) (r : Bool × SParse),
      parse_nm_codebase_loop add fuel pPage index length n idx st = some r →
      spec_step_ok pPage st.pThis r.2.pThis := by
  intro n
  induction n with
  | zero => intro idx st r h; simp [parse_nm_codebase_loop] at h
  | succ n ih =>
    intro idx st r h
    rw [parse_nm_codebase_loop] at h
    split at h
    · cases h1 : find_startstring_parse add fuel pPage idx st with
      | none => rw [h1] at h; cases h
      | some q =>
        obtain ⟨b1, len, s1⟩ := q
        have hs1 := find_startstring_parse_step pPage add hadd fuel idx st _ h1
        rw [h1] at h
        cases b1 with
        | true => exact spec_step_ok_trans _ _ _ _ hs1 (ih _ _ _ h)
        | false =>
          dsimp only at h
          cases h4 : find_var_decl add fuel pPage idx s1 with
          | none => rw [h4] at h; cases h
          | some q4 =>
            obtain ⟨b4, len4, s4⟩ := q4
            have hs4 := spec_step_ok_trans _ _ _ _ hs1
              (find_var_decl_step pPage add hadd fuel idx _ _ h4)
            rw [h4] at h
            cases b4 with
            | true => exact spec_step_ok_trans _ _ _ _ hs4 (ih _ _ _ h)
            | false => cases h; exact hs4
    · cases h; exact spec_step_ok_refl _ _

theorem parse_codebase_loop_step (pPage : List STxtLine) (add : AddSection)
    (hadd : spec_add_ok pPage add) (index length : Nat) :
    ∀ (n offsetPrev offset numBlocks : Nat) (st : SParse) (r : Bool × SParse),
      parse_codebase_loop add pPage index length n offsetPrev offset numBlocks st = some r →
      spec_step_ok pPage st.pThis r.2.pThis := by
  intro n
  induction n with
  | zero => intro a b c st r h; simp [parse_codebase_loop] at h
  | succ n ih =>
    intro offsetPrev offset numBlocks st r h
    rw [parse_codebase_loop] at h
    split at h
    · cases h
    · rename_i pLine hl
      dsimp only at h
      split at h
      · cases h
      · rename_i offsetPrev1 numBlocks1 st1 hmarked
        have hs1 : spec_step_ok pPage st.pThis st1.pThis := by
          split at hmarked
          · cases ha : add (if numBlocks = 0 then CDE_PREAMBLE else CDE_BLOCK)
                (index + offsetPrev) (offset - offsetPrev) true 0 (-1) st with
            | none => rw [ha] at hmarked; cases hmarked
            | some rr =>
              rw [ha] at hmarked
              cases hmarked
              refine spec_step_ok_of_add pPage add hadd _ _ _ _ _ _ _ _ ha
                (spec_flag_ok_marker pPage _ _ _ ?_)
              split
              · exact Or.inr (Or.inr rfl)
              · exact Or.inr (Or.inl rfl)
          · cases hmarked; exact spec_step_ok_refl _ _
        split at h
        · split at h
          · cases h
          · rename_i bParsed st2 ha
            cases h
            exact spec_step_ok_trans _ _ _ _ hs1
              (spec_step_ok_of_add pPage add hadd _ _ _ _ _ _ _ (bParsed, st2) ha
                (spec_flag_ok_marker pPage _ _ _ (Or.inr (Or.inl rfl))))
        · exact spec_step_ok_trans _ _ _ _ hs1 (ih _ _ _ _ _ h)

theorem spec_summary_of_flag (pPage : List STxtLine) (t index : Nat) (b : Bool)
    (first : STxtLine) (hflag : spec_flag_ok pPage t index b) (hf : pPage[index]? = some first)
    (ht : spec_brace_type t = true ∨ t = CDE_WX ∨ t = CDE_IFDEF) :
    spec_summary t first = summary_line first b := by
  by_cases hb : spec_brace_type t = true
  · obtain ⟨f, hf2, hbf⟩ := hflag.1 hb
    rw [hf] at hf2
    cases hf2
    rw [spec_summary_brace t first hb, hbf]
  · have ht2 : t = CDE_WX ∨ t = CDE_IFDEF := by
      rcases ht with h | h
      · exact absurd h hb
      · exact h
    rw [hflag.2.1 ht2]
    rcases ht2 with h | h <;> subst h <;> rfl

/-- The base element of a section is right when its parser has set the line
to the summary of the first line, and from there only steps were made that
leave the first line first. -/
theorem base_elem_ok (pPage : List STxtLine) (p0 p1 : SCodeSection) (first : STxtLine)
    (hs : spec_step_ok pPage p0 p1) (hmem : first ∈ pPage)
    (hl : p0.pLine = spec_summary p0.type first)
    (hok : spec_summaries_ok_list pPage p0.ppElements = true)
    (h1 : p0.ppElements ≠ [] → spec_first_line_list p0.ppElements = some first)
    (h2 : p0.ppElements = [] →
      p1.ppElements = [] ∨ spec_first_line_list p1.ppElements = some first) :
    spec_summaries_ok pPage p1.pBaseElem = true := by
  have hk := hs.1
  have hty : p1.type = p0.type := congrArg (fun k => k.1) hk
  have hpl : p1.pLine = p0.pLine := congrArg (fun k => k.2.1) hk
  unfold SCodeSection.pBaseElem
  refine spec_summaries_ok_sec pPage _ _ _ _ first hmem (by rw [hpl, hty, hl]) ?_ (hs.2.1 hok)
  by_cases he : p0.ppElements = []
  · exact h2 he
  · right
    rw [(hs.2.2 he).2]
    exact h1 he

theorem parse_not_ok (pPage : List STxtLine) (fuel index length : Nat) (b : Bool)
    (st : SParse) (r : Bool × SParse) (he : st.pThis.ppElements = [])
    (hflag : spec_flag_ok pPage st.pThis.type index b)
    (ht : spec_brace_type st.pThis.type = true ∨ st.pThis.type = CDE_WX ∨
      st.pThis.type = CDE_IFDEF)
    (h : parse_not fuel pPage index length b st = some r) :
    spec_summaries_ok pPage r.2.pThis.pBaseElem = true := by
  unfold parse_not at h
  cases hf : pPage[index]? with
  | none => rw [hf] at h; cases h
  | some first =>
    rw [hf] at h
    dsimp only at h
    cases hl : parse_not_loop pPage index length fuel index
        { st.pThis with pLine := summary_line first b } with
    | none => rw [hl] at h; cases h
    | some p =>
      rw [hl] at h
      cases h
      refine base_elem_ok pPage _ p first (parse_not_loop_step pPage index length _ _ _ _ hl)
        (List.getElem?_mem hf) (spec_summary_of_flag pPage _ index b first hflag hf ht).symm
        (by rw [he]; rfl) (fun hne => absurd he hne) (fun _ => ?_)
      rw [← hf]
      exact parse_not_loop_first pPage index length fuel index _ p (by exact he) hl

theorem parse_preamble_ok (pPage : List STxtLine) (fuel index length : Nat)
    (st : SParse) (r : Bool × SParse) (he : st.pThis.ppElements = [])
    (ht : st.pThis.type = CDE_PREAMBLE)
    (h : parse_preamble fuel pPage index length st = some r) :
    spec_summaries_ok pPage r.2.pThis.pBaseElem = true := by
  unfold parse_preamble at h
  cases hf : pPage[index]? with
  | none => rw [hf] at h; cases h
  | some first =>
    rw [hf] at h
    dsimp only at h
    cases hl : parse_preamble_loop pPage index length fuel index
        { st.pThis with pLine := summary_line first false } with
    | none => rw [hl] at h; cases h
    | some p =>
      rw [hl] at h
      cases h
      refine base_elem_ok pPage _ p.2 first
        (parse_preamble_loop_step pPage index length _ _ _ _ hl)
        (List.getElem?_mem hf) ?_ (by rw [he]; rfl) (fun hne => absurd he hne) (fun _ => ?_)
      · show summary_line first false = spec_summary st.pThis.type first
        rw [ht]; rfl
      · rw [← hf]
        exact parse_preamble_loop_first pPage index length fuel index _ p (by exact he) hl

theorem first_single_facts (pPage : List STxtLine) (p : SCodeSection) (t : Nat)
    (first : STxtLine) (he : p.ppElements = []) :
    spec_summaries_ok_list pPage (p.ppElements ++ [.single t first]) = true ∧
      spec_first_line_list (p.ppElements ++ [.single t first]) = some first ∧
      (p.ppElements ++ [.single t first]) ≠ [] := by
  simp [he, spec_summaries_ok_list, spec_summaries_ok, spec_first_line_list, spec_first_line]

theorem parse_local_scope_ok (pPage : List STxtLine) (add : AddSection)
    (hadd : spec_add_ok pPage add) (fuel index length : Nat) (b : Bool)
    (st : SParse) (r : Bool × SParse) (he : st.pThis.ppElements = [])
    (hflag : spec_flag_ok pPage st.pThis.type index b)
    (ht : spec_brace_type st.pThis.type = true ∨ st.pThis.type = CDE_WX ∨
      st.pThis.type = CDE_IFDEF)
    (h : parse_local_scope add fuel pPage index length b st = some r) :
    spec_summaries_ok pPage r.2.pThis.pBaseElem = true := by
  unfold parse_local_scope at h
  cases hf : pPage[index]? with
  | none => rw [hf] at h; cases h
  | some first =>
    rw [hf] at h
    dsimp only at h
    split at h
    · cases h
    · rename_i pThis1 hadd1
      obtain ⟨_, rfl⟩ := add_single_eq_some _ _ _ _ hadd1
      rw [Option.map_eq_some'] at h
      obtain ⟨st1, hl, hr⟩ := h
      cases hr
      have hs := parse_local_scope_loop_step pPage add hadd fuel index length _ _ _ _ hl
      have hfacts := first_single_facts pPage { st.pThis with pLine := summary_line first b }
        CDE_S_CODELINE first he
      exact base_elem_ok pPage _ st1.pThis first hs (List.getElem?_mem hf)
        (spec_summary_of_flag pPage _ index b first hflag hf ht).symm hfacts.1
        (fun _ => hfacts.2.1) (fun hc => absurd hc hfacts.2.2)

theorem parse_struct_ok (pPage : List STxtLine) (add : AddSection)
    (hadd : spec_add_ok pPage add) (fuel index length : Nat) (b : Bool)
    (st : SParse) (r : Bool × SParse) (he : st.pThis.ppElements = [])
    (hflag : spec_flag_ok pPage st.pThis.type index b)
    (ht : spec_brace_type st.pThis.type = true)
    (h : parse_struct add fuel pPage index length b st = some r) :
    spec_summaries_ok pPage r.2.pThis.pBaseElem = true := by
  unfold parse_struct at h
  cases hf : pPage[index]? with
  | none => rw [hf] at h; cases h
  | some first =>
    rw [hf] at h
    dsimp only at h
    split at h
    · cases h
    · rename_i pThis1 hadd1
      obtain ⟨_, rfl⟩ := add_single_eq_some _ _ _ _ hadd1
      split at h
      · cases h
      · rename_i st1 hl
        split at h
        · cases h
        · split at h
          · cases h
          · rename_i last hlast
            obtain ⟨_, rfl⟩ := add_single_map_eq_some _ _ _ _ _ h
            have hs := spec_step_ok_trans _ _ _ _
              (parse_struct_loop_step pPage add hadd fuel index length _ _ _ _ hl)
              (spec_step_ok_single pPage st1.pThis CDE_S_CODELINE last)
            have hfacts := first_single_facts pPage
              { st.pThis with pLine := summary_line first b } CDE_S_CODELINE first he
            exact base_elem_ok pPage _ _ first hs (List.getElem?_mem hf)
              (spec_summary_of_flag pPage _ index b first hflag hf (Or.inl ht)).symm hfacts.1
              (fun _ => hfacts.2.1) (fun hc => absurd hc hfacts.2.2)

theorem parse_global_scope_ok (pPage : List STxtLine) (add : AddSection)
    (hadd : spec_add_ok pPage add) (fuel index length : Nat)
    (st : SParse) (r : Bool × SParse) (he : st.pThis.ppElements = [])
    (ht : st.pThis.type = CDE_SUBBLOCK ∨ st.pThis.type = CDE_IFDEF)
    (h : parse_global_scope add fuel pPage index length st = some r) :
    spec_summaries_ok pPage r.2.pThis.pBaseElem = true := by
  unfold parse_global_scope at h
  cases hf : pPage[index]? with
  | none => rw [hf] at h; cases h
  | some first =>
    rw [hf] at h
    dsimp only at h
    rcases ht with ht | ht
    · rw [if_pos ht] at h
      split at h
      · cases h
      · rename_i pThis1 hadd1
        obtain ⟨_, rfl⟩ := add_single_eq_some _ _ _ _ hadd1
        rw [Option.map_eq_some'] at h
        obtain ⟨st1, hl, hr⟩ := h
        cases hr
        have hs := parse_global_scope_loop_step pPage add hadd fuel index length _ _ _ _ hl
        have hfacts := first_single_facts pPage
          { st.pThis with pLine := (tl_remove (summary_line first false) "// SUBBLOCK: ").1 }
          CDE_S_SUBBLOCKSTART first he
        refine base_elem_ok pPage _ st1.pThis first hs (List.getElem?_mem hf) ?_ hfacts.1
          (fun _ => hfacts.2.1) (fun hc => absurd hc hfacts.2.2)
        show (tl_remove (summary_line first false) "// SUBBLOCK: ").1 =
          spec_summary st.pThis.type first
        rw [ht]; rfl
    · rw [if_neg (by rw [ht]; decide)] at h
      split at h
      · cases h
      · rename_i pThis1 hadd1
        obtain ⟨_, rfl⟩ := add_single_eq_some _ _ _ _ hadd1
        rw [Option.map_eq_some'] at h
        obtain ⟨st1, hl, hr⟩ := h
        cases hr
        have hs := parse_global_scope_loop_step pPage add hadd fuel index length _ _ _ _ hl
        have hfacts := first_single_facts pPage
          { st.pThis with pLine := summary_line first false } CDE_S_CODELINE first he
        refine base_elem_ok pPage _ st1.pThis first hs (List.getElem?_mem hf) ?_ hfacts.1
          (fun _ => hfacts.2.1) (fun hc => absurd hc hfacts.2.2)
        show summary_line first false = spec_summary st.pThis.type first
        rw [ht]; rfl

theorem parse_block_ok (pPage : List STxtLine) (add : AddSection)
    (hadd : spec_add_ok pPage add) (fuel index length : Nat)
    (st : SParse) (r : Bool × SParse) (he : st.pThis.ppElements = [])
    (ht : st.pThis.type = CDE_BLOCK)
    (h : parse_block add fuel pPage index length st = some r) :
    spec_summaries_ok pPage r.2.pThis.pBaseElem = true := by
  unfold parse_block at h
  cases hf : pPage[index]? with
  | none => rw [hf] at h; cases h
  | some first =>
    rw [hf] at h
    dsimp only at h
    split at h
    · cases h
    · rename_i pThis1 hadd1
      obtain ⟨_, rfl⟩ := add_single_eq_some _ _ _ _ hadd1
      split at h
      · cases h
      · rename_i bParsed bSub st1 hl
        cases h
        have hs := parse_block_loop_step pPage add hadd fuel index length _ _ _ _ _ hl
        have hfacts := first_single_facts pPage
          { st.pThis with pLine := (tl_remove (summary_line first false) "// BLOCK: ").1 }
          CDE_S_BLOCKSTART first he
        have hbase : spec_summaries_ok pPage st1.pThis.pBaseElem = true := by
          refine base_elem_ok pPage _ st1.pThis first hs (List.getElem?_mem hf) ?_ hfacts.1
            (fun _ => hfacts.2.1) (fun hc => absurd hc hfacts.2.2)
          show (tl_remove (summary_line first false) "// BLOCK: ").1 =
            spec_summary st.pThis.type first
          rw [ht]; rfl
        cases bSub with
        | true => exact hbase
        | false =>
          unfold SCodeSection.pBaseElem at hbase ⊢
          rw [spec_summaries_ok] at hbase ⊢
          exact hbase

/-- The section `SCodeSection::parse` fills, started without elements, comes
out with right summaries when `bInlineBrace` is as in `spec_flag_ok`. -/
theorem parse_ok (pPage : List STxtLine) (add : AddSection)
    (hadd : spec_add_ok pPage add) (fuel index length : Nat) (b : Bool)
    (st : SParse) (r : Bool × SParse) (he : st.pThis.ppElements = [])
    (hflag : spec_flag_ok pPage st.pThis.type index b)
    (h : parse add fuel pPage index length b st = some r) :
    spec_summaries_ok pPage r.2.pThis.pBaseElem = true := by
  unfold parse at h
  dsimp only at h
  have htypes := hflag.2.2
  split at h
  · rename_i hc
    rw [hc] at htypes
    exact absurd htypes (by decide)
  · split at h
    · rename_i hc
      exact parse_preamble_ok pPage fuel index length st r he hc h
    · split at h
      · rename_i hc
        exact parse_block_ok pPage add hadd fuel index length st r he hc h
      · split at h
        · rename_i hc
          split at h
          · exact parse_global_scope_ok pPage add hadd fuel index length st r he (Or.inr hc) h
          · exact parse_local_scope_ok pPage add hadd fuel index length b st r he hflag
              (Or.inr (Or.inr hc)) h
        · split at h
          · rename_i hc
            exact parse_global_scope_ok pPage add hadd fuel index length st r he (Or.inl hc) h
          · split at h
            · rename_i hc
              refine parse_not_ok pPage fuel index length b st r he hflag ?_ h
              rcases hc with hc | hc | hc
              · exact Or.inr (Or.inl hc)
              · left; rw [hc]; rfl
              · left; rw [hc]; rfl
            · split at h
              · rename_i hc
                refine parse_local_scope_ok pPage add hadd fuel index length b st r he hflag
                  (Or.inl ?_) h
                rcases hc with hc | hc | hc | hc | hc <;> (rw [hc]; rfl)
              · split at h
                · rename_i hc
                  refine parse_struct_ok pPage add hadd fuel index length b st r he hflag ?_ h
                  rcases hc with hc | hc <;> (rw [hc]; rfl)
                · rename_i h1 h2 h3 h4 h5 h6 h7 h8
                  exfalso
                  rcases htypes with hb | hw | hi | hsb | hbl | hp
                  · simp only [spec_brace_type, decide_eq_true_eq] at hb
                    rcases hb with hb | hb | hb | hb | hb | hb | hb | hb | hb
                    · exact h6 (Or.inr (Or.inl hb))
                    · exact h7 (Or.inr (Or.inr (Or.inl hb)))
                    · exact h7 (Or.inr (Or.inr (Or.inr (Or.inl hb))))
                    · exact h7 (Or.inr (Or.inr (Or.inr (Or.inr hb))))
                    · exact h6 (Or.inr (Or.inr hb))
                    · exact h8 (Or.inr hb)
                    · exact h8 (Or.inl hb)
                    · exact h7 (Or.inl hb)
                    · exact h7 (Or.inr (Or.inl hb))
                  · exact h6 (Or.inl hw)
                  · exact h4 hi
                  · exact h5 hsb
                  · exact h3 hbl
                  · exact h2 hp

/-- Every bound: `SCodeSection::add_section` adds one element with right
summaries and leaves type, line and link of the section it adds to. -/
theorem add_section_ok (pPage : List STxtLine) :
    ∀ (fuel : Nat), spec_add_ok pPage (add_section pPage fuel) := by
  intro fuel
  induction fuel with
  | zero =>
    intro type index length b lt li st r h
    simp [add_section] at h
  | succ f ih =>
    intro type index length b lt li st r h
    rw [add_section] at h
    dsimp only at h
    split at h
    · split at h
      · cases h
      · rename_i bParsed st1 hp
        cases h
        refine ⟨?_, st1.pThis.pBaseElem, ?_, fun hflag => ?_⟩
        · dsimp only [SCodeSection.kind]
          split <;> rfl
        · dsimp only
          split <;> rfl
        · exact parse_ok pPage (add_section pPage f) ih f index length b _ _ rfl hflag hp
    · cases h

theorem summary_line_append (l : STxtLine) (b : Bool) :
    summary_line l b = l ++ (if b then "...\x7d".toList else " \x7b...\x7d".toList) := by
  unfold summary_line tl_insert
  cases b <;> simp

/-- Removing the marker from the first line before the suffix is appended
gives the same line as removing it after, for the sections that are no block
or sub-block, and for a block or sub-block whose first line starts with the
marker and its blank. -/
theorem spec_summary_marker_agree (type : Nat) (first rest : STxtLine) :
    (type ≠ CDE_BLOCK → type ≠ CDE_SUBBLOCK →
      spec_summary type first = spec_summary_marker_first type first) ∧
    spec_summary CDE_BLOCK ("// BLOCK: ".toList ++ rest) =
      spec_summary_marker_first CDE_BLOCK ("// BLOCK: ".toList ++ rest) ∧
    spec_summary CDE_SUBBLOCK ("// SUBBLOCK: ".toList ++ rest) =
      spec_summary_marker_first CDE_SUBBLOCK ("// SUBBLOCK: ".toList ++ rest) := by
  refine ⟨fun h1 h2 => by simp [spec_summary, spec_summary_marker_first, h1, h2], ?_, ?_⟩
  · have h0 : ∀ (s : STxtLine), tl_find ("// BLOCK: ".toList ++ rest ++ s) "// BLOCK: " = 0 :=
      fun s => (tl_find_eq_zero_iff _ _).mpr ⟨rest ++ s, by simp⟩
    have hr : ∀ (s : STxtLine),
        (tl_remove ("// BLOCK: ".toList ++ rest ++ s) "// BLOCK: ").1 = rest ++ s := by
      intro s
      unfold tl_remove
      rw [if_neg (by decide)]
      simp only [h0 s]
      rw [if_neg (by decide)]
      simp
      rfl
    have hb : spec_brace_type CDE_BLOCK = false := by decide
    simp only [spec_summary, spec_summary_marker_first, hb, Bool.false_and, if_true,
      summary_line_append, Bool.false_eq_true, if_false]
    have := hr []
    simp only [List.append_nil] at this
    rw [hr, this]
  · have h0 : ∀ (s : STxtLine),
        tl_find ("// SUBBLOCK: ".toList ++ rest ++ s) "// SUBBLOCK: " = 0 :=
      fun s => (tl_find_eq_zero_iff _ _).mpr ⟨rest ++ s, by simp⟩
    have hr : ∀ (s : STxtLine),
        (tl_remove ("// SUBBLOCK: ".toList ++ rest ++ s) "// SUBBLOCK: ").1 = rest ++ s := by
      intro s
      unfold tl_remove
      rw [if_neg (by decide)]
      simp only [h0 s]
      rw [if_neg (by decide)]
      simp
      rfl
    have hb : spec_brace_type CDE_SUBBLOCK = false := by decide
    have hne : ¬ CDE_SUBBLOCK = CDE_BLOCK := by decide
    simp only [spec_summary, spec_summary_marker_first, hb, Bool.false_and, if_true, hne,
      summary_line_append, Bool.false_eq_true, if_false]
    have := hr []
    simp only [List.append_nil] at this
    rw [hr, this]

/-- C30 (parse_local_scope, parse_block, find_comment and the other parsers):
in the tree a parse of a page returns, every section below the root carries
the summary of a line of the page, which is the first line the section shows
when it has an element: that line followed by `...\x7d` when the section is
an enumeration, nesting level, struct, class or function whose first line
holds an opening brace and by ` \x7b...\x7d` otherwise, from which the first
occurrence of the block or sub-block marker is then removed for a block or a
sub-block. -/
theorem parse_page_summaries (fuel : Nat) (pPage : List STxtLine)
    (r : Bool × SCodeElement × SSymbolSet) (h : parse_page fuel pPage = some r) :
    spec_summaries_ok_list pPage r.2.1.ppElements = true := by
  unfold parse_page at h
  rw [Option.map_eq_some'] at h
  obtain ⟨q, hq, hr⟩ := h
  cases hr
  have hadd := add_section_ok pPage fuel
  have hstep : spec_step_ok pPage new_base_section.pThis q.2.pThis := by
    unfold parse at hq
    dsimp only at hq
    rw [if_pos (show new_base_section.pThis.type = CDE_CODEBASE from rfl)] at hq
    unfold parse_codebase at hq
    split at hq
    · cases hq
    · split at hq
      · exact parse_codebase_loop_step pPage _ hadd _ _ _ _ _ _ _ _ hq
      · exact parse_nm_codebase_loop_step pPage _ hadd _ _ _ _ _ _ _ hq
  exact hstep.2.1 rfl

/-- C30 on a page with a comment run, a function whose brace is on its second
line and a conditional whose brace is on its first line. -/
theorem parse_page_summaries_witness :
    ∃ r, parse_page 8 summary_page = some r ∧
      spec_summaries_ok_list summary_page r.2.1.ppElements = true :=
  ⟨(parse_page 8 summary_page).get (by decide!), (Option.some_get _).symm,
    parse_page_summaries 8 summary_page _ (Option.some_get _).symm⟩

/-- C30, the case the claim words differently: the block whose first line is
`// BLOCK:` gets the summary `\x7b...\x7d`, the marker being removed after the
suffix is appended; removed from the first line before, nothing is found and
the summary would be `// BLOCK: \x7b...\x7d`. -/
theorem parse_page_summary_marker_counterexample :
    ∃ r info es, parse_page 5 bare_block_page = some r ∧
      r.2.1.ppElements[1]? = some (.sec CDE_BLOCK "\x7b...\x7d".toList info
        (.single CDE_S_BLOCKSTART "// BLOCK:".toList :: es)) ∧
      spec_summary_marker_first CDE_BLOCK "// BLOCK:".toList = "// BLOCK: \x7b...\x7d".toList ∧
      spec_summary CDE_BLOCK "// BLOCK:".toList = "\x7b...\x7d".toList :=
  ⟨(parse_page 5 bare_block_page).get rfl, _, _, (Option.some_get _).symm, rfl, by decide,
    by decide⟩

/-! ## Members of classes and structs (C26) -/

theorem spec_local_section_not_global (t c : Nat) (h : spec_local_section t c) :
    (t == CDE_CODEBASE || t == CDE_BLOCK || t == CDE_SUBBLOCK) = false ∧
      t ≠ CDE_CLASSDECL ∧ t ≠ CDE_TYPEDEF ∧ t ≠ CDE_CODEBASE ∧ t ≠ CDE_BLOCK ∧
      t ≠ CDE_SUBBLOCK ∧ t ≠ CDE_PREAMBLE := by
  rcases h with h | h | h | h | h | h | ⟨h, _⟩ <;> subst h <;> decide

theorem kind_type (a b : SCodeSection) (h : a.kind = b.kind) :
    a.type = b.type ∧ a.containerType = b.containerType :=
  ⟨congrArg (fun k => k.1) h, congrArg (fun k => k.2.2.1) h⟩

theorem find_L1L2_local (add : AddSection) (hloc : spec_add_local add)
    (pPage : List STxtLine) (index : Nat) (st : SParse) (r : Bool × Nat × SParse)
    (h : find_L1L2 add pPage index st = some r) : r.2.2.pSymSet = st.pSymSet := by
  unfold find_L1L2 at h
  split at h
  · cases h
  · dsimp only at h
    split at h
    · split at h
      · cases h
      · cases h; rfl
      · split at h
        · cases h
        · cases h; rfl
        · split at h
          · cases h
          · rename_i b1 st1 ha
            cases h
            refine hloc _ _ _ _ _ _ _ _ ha ?_
            unfold spec_local_section
            split
            · exact Or.inr (Or.inr (Or.inr (Or.inr (Or.inr (Or.inl rfl)))))
            · split
              · exact Or.inr (Or.inr (Or.inr (Or.inr (Or.inl rfl))))
              · split
                · exact Or.inr (Or.inr (Or.inr (Or.inl rfl)))
                · exact Or.inr (Or.inr (Or.inl rfl))
    · cases h; rfl

theorem find_ifdef_local (pPage : List STxtLine) (add : AddSection)
    (hadd : spec_add_ok pPage add) (hloc : spec_add_local add)
    (index : Nat) (st : SParse) (r : Bool × Nat × SParse)
    (hst : spec_local_section st.pThis.type st.pThis.containerType)
    (h : find_ifdef add pPage index st = some r) : r.2.2.pSymSet = st.pSymSet := by
  have hng := spec_local_section_not_global _ _ hst
  have hcall : ∀ t, t = st.pThis.type → spec_local_section CDE_IFDEF t := by
    intro t ht
    subst ht
    refine Or.inr (Or.inr (Or.inr (Or.inr (Or.inr (Or.inr ⟨rfl, ?_⟩)))))
    rintro (hc | hc | hc)
    · exact hng.2.2.2.1 hc
    · exact hng.2.2.2.2.1 hc
    · exact hng.2.2.2.2.2.1 hc
  unfold find_ifdef at h
  split at h
  · cases h
  · dsimp only at h
    split at h
    · split at h
      · cases h
      · cases h; rfl
      · split at h
        · cases h
        · rename_i bFound st1 ha
          have h1 := hloc _ _ _ _ _ _ _ _ ha (hcall _ rfl)
          have hk := (kind_type _ _ (hadd _ _ _ _ _ _ _ _ ha).1).1
          split at h
          · cases h; exact h1
          · split at h
            · cases h
            · cases h; exact h1
            · split at h
              · cases h
              · rename_i bFound2 st2 ha2
                cases h
                exact (hloc _ _ _ _ _ _ _ _ ha2 (hcall _ hk)).trans h1
    · cases h; rfl

theorem set_func_location_nowhere (syms : SSymbolSet) (loc : SLocation) :
    set_func_location syms .nowhere loc = syms := rfl

theorem find_var_decl_local (pPage : List STxtLine) (add : AddSection)
    (hloc : spec_add_local add) (fuel index : Nat) (st : SParse) (r : Bool × Nat × SParse)
    (hst : spec_local_section st.pThis.type st.pThis.containerType)
    (h : find_var_decl add fuel pPage index st = some r) : r.2.2.pSymSet = st.pSymSet := by
  have hng := spec_local_section_not_global _ _ hst
  cases hf : pPage[index]? with
  | none => simp [find_var_decl, hf] at h
  | some line =>
    rcases find_var_decl_cases add fuel pPage index st r line hf h with
      ⟨_, h2⟩ | ⟨_, ev, b, loc, _, hb, hreg⟩ |
      ⟨_, ev, ev2, vars, syms1, slot, st2, p, loc, _, _, hregf, hcase, hr⟩
    · rw [h2]
    · have hbf : b = false := by
        rcases hb with hb | hb
        · rw [hb]; exact hng.1
        · exact hb.1
      subst hbf
      unfold register_var at hreg
      rw [if_neg (fun hc => hng.2.1 hc.2), if_neg (fun hc => hng.2.2.1 hc.2)] at hreg
      rw [← Option.some.inj hreg]
    · unfold register_func at hregf
      rw [hng.1] at hregf
      dsimp only at hregf
      rw [if_neg (by decide), if_neg hng.2.1, if_neg hng.2.2.1] at hregf
      cases hregf
      rw [hr]
      dsimp only
      rw [set_func_location_nowhere]
      rcases hcase with ⟨h1, _⟩ | ⟨t, len, lt, li, rr, ht, ha, h1, _⟩ | ⟨h1, _⟩
      · rw [h1]
      · rw [h1]
        refine hloc _ _ _ _ _ _ _ _ ha ?_
        rcases ht with ht | ht
        · exact Or.inl ht
        · exact Or.inr (Or.inl ht)
      · rw [h1]

theorem spec_local_section_of_kind (a b : SCodeSection) (h : a.kind = b.kind)
    (hb : spec_local_section b.type b.containerType) :
    spec_local_section a.type a.containerType := by
  rw [(kind_type a b h).1, (kind_type a b h).2]
  exact hb

theorem parse_local_scope_loop_local (pPage : List STxtLine) (add : AddSection)
    (hadd : spec_add_ok pPage add) (hloc : spec_add_local add) (fuel index length : Nat) :
    ∀ (n idx : Nat) (st st1 : SParse),
      spec_local_section st.pThis.type st.pThis.containerType →
      parse_local_scope_loop add fuel pPage index length n idx st = some st1 →
      st1.pSymSet = st.pSymSet := by
  intro n
  induction n with
  | zero => intro idx st st1 _ h; simp [parse_local_scope_loop] at h
  | succ n ih =>
    intro idx st st1 hst h
    rw [parse_local_scope_loop] at h
    split at h
    · cases h1 : find_L1L2 add pPage idx st with
      | none => rw [h1] at h; cases h
      | some q =>
        obtain ⟨b, len, s1⟩ := q
        have hs1 := find_L1L2_step pPage add hadd idx st _ h1
        have hy1 := find_L1L2_local add hloc pPage idx st _ h1
        have hl1 := spec_local_section_of_kind _ _ hs1.1 hst
        rw [h1] at h
        cases b with
        | true => exact (ih _ _ _ hl1 h).trans hy1
        | false =>
          dsimp only at h
          cases h2 : find_ifdef add pPage idx s1 with
          | none => rw [h2] at h; cases h
          | some q2 =>
            obtain ⟨b2, len2, s2⟩ := q2
            have hs2 := find_ifdef_step pPage add hadd idx s1 _ h2
            have hy2 := (find_ifdef_local pPage add hadd hloc idx s1 _ hl1 h2).trans hy1
            have hl2 := spec_local_section_of_kind _ _ hs2.1 hl1
            rw [h2] at h
            cases b2 with
            | true => exact (ih _ _ _ hl2 h).trans hy2
            | false =>
              dsimp only at h
              cases h3 : find_comment s2.pThis pPage idx with
              | none => rw [h3] at h; cases h
              | some q3 =>
                obtain ⟨b3, len3, p3⟩ := q3
                have hs3 := (find_comment_step _ pPage idx _ h3).1
                have hl3 : spec_local_section p3.type p3.containerType :=
                  spec_local_section_of_kind _ _ hs3.1 hl2
                rw [h3] at h
                cases b3 with
                | true => exact (ih _ _ _ hl3 h).trans hy2
                | false =>
                  dsimp only at h
                  split at h
                  · cases h
                  · split at h
                    · split at h
                      · cases h
                      · rename_i pA hpA
                        obtain ⟨_, rfl⟩ := add_single_eq_some _ _ _ _ hpA
                        exact (ih _ _ _ hl3 h).trans hy2
                    · cases h4 : find_var_decl add fuel pPage idx { s2 with pThis := p3 } with
                      | none => rw [h4] at h; cases h
                      | some q4 =>
                        obtain ⟨b4, len4, s4⟩ := q4
                        have hs4 := find_var_decl_step pPage add hadd fuel idx _ _ h4
                        have hy4 := (find_var_decl_local pPage add hloc fuel idx _ _ hl3 h4).trans
                          hy2
                        have hl4 := spec_local_section_of_kind _ _ hs4.1 hl3
                        rw [h4] at h
                        cases b4 with
                        | true => exact (ih _ _ _ hl4 h).trans hy4
                        | false =>
                          dsimp only at h
                          split at h
                          · cases h
                          · rename_i pA hpA
                            obtain ⟨_, rfl⟩ := add_single_eq_some _ _ _ _ hpA
                            exact (ih _ _ _ (by exact hl4) h).trans hy4
    · cases h; rfl

/-- The parse of a section that is parsed as local scope leaves the symbol
set as it is. -/
theorem parse_local (pPage : List STxtLine) (add : AddSection)
    (hadd : spec_add_ok pPage add) (hloc : spec_add_local add) (fuel index length : Nat)
    (b : Bool) (st : SParse) (r : Bool × SParse)
    (hst : spec_local_section st.pThis.type st.pThis.containerType)
    (h : parse add fuel pPage index length b st = some r) : r.2.pSymSet = st.pSymSet := by
  have hng := spec_local_section_not_global _ _ hst
  have hls : parse_local_scope add fuel pPage index length b st = some r →
      r.2.pSymSet = st.pSymSet := by
    intro h
    unfold parse_local_scope at h
    split at h
    · cases h
    · dsimp only at h
      split at h
      · cases h
      · rename_i pThis1 hadd1
        obtain ⟨_, rfl⟩ := add_single_eq_some _ _ _ _ hadd1
        rw [Option.map_eq_some'] at h
        obtain ⟨st1, hl, hr⟩ := h
        cases hr
        have h2 := parse_local_scope_loop_local pPage add hadd hloc fuel index length _ _ _ _
          (by exact hst) hl
        exact h2
  have hnot : parse_not fuel pPage index length b st = some r → r.2.pSymSet = st.pSymSet := by
    intro h
    unfold parse_not at h
    split at h
    · cases h
    · dsimp only at h
      rw [Option.map_eq_some'] at h
      obtain ⟨p, hl, hr⟩ := h
      cases hr
      rfl
  unfold parse at h
  dsimp only at h
  rw [if_neg hng.2.2.2.1, if_neg hng.2.2.2.2.2.2, if_neg hng.2.2.2.2.1] at h
  split at h
  · rename_i hi
    have hc : ¬ (st.pThis.containerType = CDE_CODEBASE ∨ st.pThis.containerType = CDE_BLOCK ∨
        st.pThis.containerType = CDE_SUBBLOCK) := by
      rcases hst with hc | hc | hc | hc | hc | hc | ⟨_, hc⟩
      all_goals first | exact hc | (rw [hc] at hi; exact absurd hi (by decide))
    rw [if_neg hc] at h
    exact hls h
  · rw [if_neg hng.2.2.2.2.2.1] at h
    split at h
    · exact hnot h
    · split at h
      · exact hls h
      · rename_i hi h6 h7
        exfalso
        rcases hst with hc | hc | hc | hc | hc | hc | ⟨hc, _⟩
        · exact h7 (Or.inl hc)
        · exact h7 (Or.inr (Or.inl hc))
        · exact h7 (Or.inr (Or.inr (Or.inl hc)))
        · exact h7 (Or.inr (Or.inr (Or.inr (Or.inl hc))))
        · exact h7 (Or.inr (Or.inr (Or.inr (Or.inr hc))))
        · exact h6 (Or.inr (Or.inr hc))
        · exact hi hc

/-- Every bound: `SCodeSection::add_section` of a section parsed as local
scope leaves the symbol set as it is. -/
theorem add_section_local (pPage : List STxtLine) :
    ∀ (fuel : Nat), spec_add_local (add_section pPage fuel) := by
  intro fuel
  induction fuel with
  | zero =>
    intro type index length b lt li st r h
    simp [add_section] at h
  | succ f ih =>
    intro type index length b lt li st r h hl
    rw [add_section] at h
    dsimp only at h
    split at h
    · split at h
      · cases h
      · rename_i bParsed st1 hp
        cases h
        have h2 := parse_local pPage (add_section pPage f) (add_section_ok pPage f) ih f index
          length b _ (bParsed, st1) (by exact hl) hp
        exact h2
    · cases h

theorem modify_eq_set {α : Type} (f : α → α) (i : Nat) (l : List α) (a : α)
    (h : l[i]? = some a) : List.modify f i l = l.set i (f a) := by
  rw [List.modify_eq_set_get?, List.get?_eq_getElem?, h]
  rfl

theorem modify_set {α : Type} (f : α → α) (i : Nat) (l : List α) (a : α)
    (hi : i < l.length) : List.modify f i (l.set i a) = l.set i (f a) := by
  rw [modify_eq_set f i (l.set i a) a (by simp [List.getElem?_set, hi]), List.set_set]

theorem lt_length_of_getElem?_some {α : Type} (l : List α) (i : Nat) (a : α)
    (h : l[i]? = some a) : i < l.length := by
  by_contra hc
  rw [List.getElem?_eq_none (by omega)] at h
  cases h

theorem add_func_getElem : ∀ (fs : List SSymFunc) (f : SSymFunc) (fs1 : List SSymFunc)
    (j : Nat), add_func fs f = some (fs1, j) → fs1[j]? = some f
  | [], f, fs1, j, h => by
    simp only [add_func, Option.some.injEq, Prod.mk.injEq] at h
    obtain ⟨h1, h2⟩ := h
    subst h1 h2
    rfl
  | g :: rest, f, fs1, j, h => by
    rw [add_func] at h
    split at h
    · cases h
    · cases h; simp
    · split at h
      · cases h
      · rename_i fs2 i hrec
        cases h
        simpa using add_func_getElem rest f fs2 i hrec

theorem mem_modify_of_getElem? {α : Type} (g : α → α) (l : List α) (j : Nat) (a : α)
    (h : l[j]? = some a) : g a ∈ List.modify g j l := by
  have := List.getElem?_modify_eq g j l
  rw [h] at this
  exact List.getElem?_mem this

theorem add_section_pVarSet (pPage : List STxtLine) (fuel type index length : Nat) (b : Bool)
    (lt li : Int) (st : SParse) (r : Bool × SParse)
    (h : add_section pPage fuel type index length b lt li st = some r) :
    r.2.pThis.pVarSet = st.pThis.pVarSet := by
  cases fuel with
  | zero => simp [add_section] at h
  | succ f =>
    rw [add_section] at h
    dsimp only at h
    split at h
    · split at h
      · cases h
      · cases h
        dsimp only
        split <;> rfl
    · cases h

theorem add_params_to_last_pVarSet (p p1 : SCodeSection) (vars : List SVar)
    (h : add_params_to_last p vars = some p1) : p1.pVarSet = p.pVarSet := by
  unfold add_params_to_last at h
  split at h
  · cases h; rfl
  · split at h
    · cases h; rfl
    · cases h

/-- The class a function is added to by `SClass::add_func`, with the location
of the function set afterwards, has the function recorded. -/
theorem class_add_func_records (c c1 : SClass) (f : SSymFunc) (loc : SLocation)
    (slot : Option (Option Nat × Bool)) (h : c.add_func f = some (c1, slot)) :
    (∃ j, slot = some (some j, false) ∧ spec_class_records_func c
      { c1 with pFuncSet := List.modify (fun g => { g with pLocation := some loc }) j c1.pFuncSet }
      { f with pLocation := some loc }) ∨
    (slot = some (none, true) ∧ spec_class_records_func c
      { c1 with pConstr := c1.pConstr.map (fun g => { g with pLocation := some loc }) }
      { f with pLocation := some loc }) ∨
    (slot = some (none, false) ∧ spec_class_records_func c
      { c1 with pDestr := c1.pDestr.map (fun g => { g with pLocation := some loc }) }
      { f with pLocation := some loc }) := by
  unfold SClass.add_func at h
  split at h
  · cases h
  · cases h
    exact Or.inr (Or.inl ⟨rfl, rfl, rfl, rfl, Or.inl ⟨rfl, rfl, rfl⟩⟩)
  · split at h
    · cases h
    · split at h
      · cases h
      · cases h
        exact Or.inr (Or.inr ⟨rfl, rfl, rfl, rfl, Or.inr (Or.inl ⟨rfl, rfl, rfl⟩)⟩)
      · split at h
        · cases h
        · rename_i fs j hadd
          cases h
          refine Or.inl ⟨j, rfl, rfl, rfl, rfl, Or.inr (Or.inr ⟨?_, rfl, rfl⟩)⟩
          exact mem_modify_of_getElem? (fun g => { g with pLocation := some loc }) fs j f
            (add_func_getElem _ _ _ _ hadd)

theorem int_eq_toNat (z : Int) (h : ¬ z < 0) : z = (z.toNat : Int) := by
  omega

theorem register_var_class (st st1 : SParse) (v : SVar) (hty : st.pThis.type = CDE_CLASSDECL)
    (h : register_var st false v = some st1) :
    st1.pThis = st.pThis ∧ st1.pSymSet.pStructSet = st.pSymSet.pStructSet ∧
      st1.pSymSet.pFuncSet = st.pSymSet.pFuncSet ∧
      ∃ (i : Nat) (c : SClass), st.pThis.symLinkIndex = (i : Int) ∧
        st.pSymSet.pClassSet[i]? = some c ∧
        st1.pSymSet.pClassSet = st.pSymSet.pClassSet.set i { c with pVarSet := c.pVarSet ++ [v] } := by
  unfold register_var at h
  rw [if_pos ⟨rfl, hty⟩] at h
  split at h
  · cases h
  · rename_i c hc
    cases h
    unfold class_at at hc
    split at hc
    · cases hc
    · rename_i hneg
      exact ⟨rfl, rfl, rfl, st.pThis.symLinkIndex.toNat, c, int_eq_toNat _ hneg, hc,
        modify_eq_set _ _ _ c hc⟩

theorem register_var_struct (st st1 : SParse) (v : SVar) (hty : st.pThis.type = CDE_TYPEDEF)
    (h : register_var st false v = some st1) :
    st1.pThis = st.pThis ∧ st1.pSymSet.pClassSet = st.pSymSet.pClassSet ∧
      st1.pSymSet.pFuncSet = st.pSymSet.pFuncSet ∧
      ∃ (i : Nat) (s : SStruct), st.pThis.symLinkIndex = (i : Int) ∧
        st.pSymSet.pStructSet[i]? = some s ∧
        st1.pSymSet.pStructSet =
          st.pSymSet.pStructSet.set i { s with pVarSet := s.pVarSet ++ [v] } := by
  unfold register_var at h
  rw [if_neg (fun hc => absurd (hty.symm.trans hc.2) (by decide)), if_pos ⟨rfl, hty⟩] at h
  split at h
  · cases h
  · rename_i s hs
    cases h
    unfold struct_at at hs
    split at hs
    · cases hs
    · rename_i hneg
      exact ⟨rfl, rfl, rfl, st.pThis.symLinkIndex.toNat, s, int_eq_toNat _ hneg, hs,
        modify_eq_set _ _ _ s hs⟩

/-- In a class body `register_func` followed by the update of the location
records the function in the class the section is linked to. -/
theorem register_func_class (st : SParse) (cn : TxtLinePtr) (f : SSymFunc)
    (syms1 : SSymbolSet) (slot : SFuncSlot) (loc : SLocation)
    (hty : st.pThis.type = CDE_CLASSDECL)
    (h : register_func st false cn f = some (syms1, slot)) :
    (set_func_location syms1 slot loc).pStructSet = st.pSymSet.pStructSet ∧
      (set_func_location syms1 slot loc).pFuncSet = st.pSymSet.pFuncSet ∧
      ∃ (i : Nat) (c c1 : SClass), st.pThis.symLinkIndex = (i : Int) ∧
        st.pSymSet.pClassSet[i]? = some c ∧
        (set_func_location syms1 slot loc).pClassSet = st.pSymSet.pClassSet.set i c1 ∧
        spec_class_records_func c c1 { f with pLocation := some loc } := by
  unfold register_func at h
  dsimp only at h
  rw [if_neg (by decide), if_pos hty] at h
  split at h
  · cases h
  · rename_i hneg
    split at h
    · cases h
    · rename_i c hc
      split at h
      · cases h
      · rename_i c1 sl hadd
        have hlt := lt_length_of_getElem?_some _ _ _ hc
        cases h
        rcases class_add_func_records c c1 f loc sl hadd with ⟨j, hs, hrec⟩ | ⟨hs, hrec⟩ |
          ⟨hs, hrec⟩
        · subst hs
          exact ⟨rfl, rfl, _, c, _, int_eq_toNat _ hneg, hc, modify_set _ _ _ _ hlt, hrec⟩
        · subst hs
          exact ⟨rfl, rfl, _, c, _, int_eq_toNat _ hneg, hc, modify_set _ _ _ _ hlt, hrec⟩
        · subst hs
          exact ⟨rfl, rfl, _, c, _, int_eq_toNat _ hneg, hc, modify_set _ _ _ _ hlt, hrec⟩

theorem register_func_struct (st : SParse) (cn : TxtLinePtr) (f : SSymFunc)
    (syms1 : SSymbolSet) (slot : SFuncSlot) (loc : SLocation)
    (hty : st.pThis.type = CDE_TYPEDEF)
    (h : register_func st false cn f = some (syms1, slot)) :
    (set_func_location syms1 slot loc).pClassSet = st.pSymSet.pClassSet ∧
      (set_func_location syms1 slot loc).pFuncSet = st.pSymSet.pFuncSet ∧
      ∃ (i : Nat) (s s1 : SStruct), st.pThis.symLinkIndex = (i : Int) ∧
        st.pSymSet.pStructSet[i]? = some s ∧
        (set_func_location syms1 slot loc).pStructSet = st.pSymSet.pStructSet.set i s1 ∧
        spec_struct_records_func s s1 { f with pLocation := some loc } := by
  unfold register_func at h
  dsimp only at h
  rw [if_neg (by decide), if_neg (by rw [hty]; decide), if_pos hty] at h
  split at h
  · cases h
  · rename_i s hs
    split at h
    · cases h
    · rename_i fs j hadd
      cases h
      unfold struct_at at hs
      split at hs
      · cases hs
      · rename_i hneg
        have hlt := lt_length_of_getElem?_some _ _ _ hs
        refine ⟨rfl, rfl, _, s, _, int_eq_toNat _ hneg, hs, modify_set _ _ _ _ hlt, rfl, rfl,
          rfl, ?_⟩
        exact mem_modify_of_getElem? (fun g => { g with pLocation := some loc }) fs j f
          (add_func_getElem _ _ _ _ hadd)

/-- The section and the symbol set before the update of the location, for a
function `find_var_decl` has registered in a class or struct body: the symbol
set is the one `register_func` gave and the variable set of the section is as
it was. -/
theorem find_var_decl_func_frame (pPage : List STxtLine) (fuel index : Nat) (line : STxtLine)
    (st st2 : SParse) (syms1 : SSymbolSet) (vars : List SVar) (p : SCodeSection)
    (hcase : (st2 = ⟨{ st.pThis with
          ppElements := st.pThis.ppElements ++ [.single CDE_S_FWDDECL_FN line] }, syms1⟩ ∧
        p = st2.pThis) ∨
      (∃ (t len : Nat) (lt li : Int) (rr : Bool × SParse),
        (t = CDE_FNDEFN ∨ t = CDE_CLASS_FNDEFN) ∧
        add_section pPage fuel t index len (decide (tl_find line "\x7b" ≠ -1)) lt li
          ⟨st.pThis, syms1⟩ = some rr ∧
        st2 = rr.2 ∧ add_params_to_last st2.pThis vars = some p) ∨
      (st2 = ⟨st.pThis, syms1⟩ ∧ add_params_to_last st2.pThis vars = some p)) :
    st2.pSymSet = syms1 ∧ p.pVarSet = st.pThis.pVarSet := by
  rcases hcase with ⟨h1, h2⟩ | ⟨t, len, lt, li, rr, ht, ha, h1, hp⟩ | ⟨h1, hp⟩
  · subst h1; subst h2; exact ⟨rfl, rfl⟩
  · subst h1
    refine ⟨add_section_local pPage fuel _ _ _ _ _ _ _ _ ha ?_, ?_⟩
    · rcases ht with ht | ht
      · exact Or.inl ht
      · exact Or.inr (Or.inl ht)
    · rw [add_params_to_last_pVarSet _ _ _ hp]
      have h2 := add_section_pVarSet pPage fuel _ _ _ _ _ _ _ _ ha
      exact h2
  · subst h1
    exact ⟨rfl, add_params_to_last_pVarSet _ _ _ hp⟩

/-- C26 (find_var_decl, parse_struct): run on a section of type
`CDE_CLASSDECL` or `CDE_TYPEDEF`, `find_var_decl` leaves the function set of
the file and the variable set of the section as they are; when it returns
false it changes nothing, and when it returns true the link index of the
section is an index `i` of the class set (of the struct set for a typedef)
and only the entry `i` of that set changes: the variable of the line is put
at the end of its variable set, or the function of the line is recorded as
its constructor, its destructor or in its function set (in the function set
for a struct), with its location. -/
theorem find_var_decl_member (pPage : List STxtLine) (fuel n index : Nat) (st : SParse)
    (r : Bool × Nat × SParse)
    (hty : st.pThis.type = CDE_CLASSDECL ∨ st.pThis.type = CDE_TYPEDEF)
    (h : find_var_decl (add_section pPage fuel) n pPage index st = some r) :
    r.2.2.pSymSet.pFuncSet = st.pSymSet.pFuncSet ∧
    r.2.2.pThis.pVarSet = st.pThis.pVarSet ∧
    (r.1 = false → r.2.2 = st) ∧
    (r.1 = true → ∃ (line : STxtLine) (i : Nat), pPage[index]? = some line ∧
      st.pThis.symLinkIndex = (i : Int) ∧
      (st.pThis.type = CDE_CLASSDECL →
        r.2.2.pSymSet.pStructSet = st.pSymSet.pStructSet ∧
        ∃ c c1, st.pSymSet.pClassSet[i]? = some c ∧
          r.2.2.pSymSet.pClassSet = st.pSymSet.pClassSet.set i c1 ∧
          ((∃ ev loc, extract_var (tl_trim line) st.pSymSet = some ev ∧
              spec_class_records_var c c1 (new_var ev.pVarName ev.pVarType (some loc))) ∨
            (∃ ev2 vars loc, extract_var line st.pSymSet = some ev2 ∧
              spec_class_records_func c c1 ⟨vars, ev2.pVarType, some loc, ev2.pVarName⟩))) ∧
      (st.pThis.type = CDE_TYPEDEF →
        r.2.2.pSymSet.pClassSet = st.pSymSet.pClassSet ∧
        ∃ s s1, st.pSymSet.pStructSet[i]? = some s ∧
          r.2.2.pSymSet.pStructSet = st.pSymSet.pStructSet.set i s1 ∧
          ((∃ ev loc, extract_var (tl_trim line) st.pSymSet = some ev ∧
              spec_struct_records_var s s1 (new_var ev.pVarName ev.pVarType (some loc))) ∨
            (∃ ev2 vars loc, extract_var line st.pSymSet = some ev2 ∧
              spec_struct_records_func s s1 ⟨vars, ev2.pVarType, some loc, ev2.pVarName⟩)))) := by
  have hbg : (st.pThis.type == CDE_CODEBASE || st.pThis.type == CDE_BLOCK ||
      st.pThis.type == CDE_SUBBLOCK) = false := by
    rcases hty with hty | hty <;> (rw [hty]; decide)
  have hne : ¬ (CDE_CLASSDECL = CDE_TYPEDEF) := by decide
  cases hf : pPage[index]? with
  | none => simp [find_var_decl, hf] at h
  | some line =>
    rcases find_var_decl_cases _ n pPage index st r line hf h with
      ⟨h1, h2⟩ | ⟨h1, ev, b, loc, hev, hb, hreg⟩ |
      ⟨h1, ev, ev2, vars, syms1, slot, st2, p, loc, hev, hev2, hregf, hcase, hr⟩
    · rw [h2]
      exact ⟨rfl, rfl, fun _ => rfl, fun hc => (by rw [h1] at hc; cases hc)⟩
    · have hbf : b = false := by
        rcases hb with hb | hb
        · rw [hb]; exact hbg
        · exact hb.1
      subst hbf
      rcases hty with hty | hty
      · obtain ⟨hp, hs, hfs, i, c, hi, hc, hcs⟩ := register_var_class _ _ _ (by exact hty) hreg
        refine ⟨hfs, (by rw [hp]), fun hc2 => (by rw [h1] at hc2; cases hc2), fun _ => ?_⟩
        refine ⟨line, i, rfl, hi, fun _ => ⟨hs, c, _, hc, hcs, Or.inl ⟨ev, loc, hev, rfl⟩⟩,
          fun hc2 => ?_⟩
        rw [hty] at hc2
        exact absurd hc2 hne
      · obtain ⟨hp, hs, hfs, i, s, hi, hc, hcs⟩ := register_var_struct _ _ _ (by exact hty) hreg
        refine ⟨hfs, (by rw [hp]), fun hc2 => (by rw [h1] at hc2; cases hc2), fun _ => ?_⟩
        refine ⟨line, i, rfl, hi, fun hc2 => ?_,
          fun _ => ⟨hs, s, _, hc, hcs, Or.inl ⟨ev, loc, hev, rfl⟩⟩⟩
        rw [hty] at hc2
        exact absurd hc2.symm hne
    · obtain ⟨hsy, hpv⟩ := find_var_decl_func_frame pPage fuel index line st st2 syms1 vars p
        hcase
      rw [hbg] at hregf
      rw [hr, hsy]
      rcases hty with hty | hty
      · obtain ⟨hs, hfs, i, c, c1, hi, hc, hcs, hrec⟩ :=
          register_func_class st _ _ syms1 slot loc hty hregf
        refine ⟨hfs, hpv, fun hc2 => (by rw [h1] at hc2; cases hc2), fun _ => ?_⟩
        refine ⟨line, i, rfl, hi,
          fun _ => ⟨hs, c, c1, hc, hcs, Or.inr ⟨ev2, vars, loc, hev2, hrec⟩⟩, fun hc2 => ?_⟩
        rw [hty] at hc2
        exact absurd hc2 hne
      · obtain ⟨hs, hfs, i, s, s1, hi, hc, hcs, hrec⟩ :=
          register_func_struct st _ _ syms1 slot loc hty hregf
        refine ⟨hfs, hpv, fun hc2 => (by rw [h1] at hc2; cases hc2), fun _ => ?_⟩
        refine ⟨line, i, rfl, hi, fun hc2 => ?_,
          fun _ => ⟨hs, s, s1, hc, hcs, Or.inr ⟨ev2, vars, loc, hev2, hrec⟩⟩⟩
        rw [hty] at hc2
        exact absurd hc2.symm hne

/-- C26 on the method `int get()` defined in the body of the class `Foo`. -/
theorem find_var_decl_member_witness :
    (member_state.pThis.type = CDE_CLASSDECL ∨ member_state.pThis.type = CDE_TYPEDEF) ∧
    ∃ r, find_var_decl (add_section member_page 4) 4 member_page 3 member_state = some r ∧
      r.1 = true ∧
      r.2.2.pSymSet.pFuncSet = member_state.pSymSet.pFuncSet ∧
      r.2.2.pThis.pVarSet = member_state.pThis.pVarSet :=
  ⟨Or.inl rfl,
    (find_var_decl (add_section member_page 4) 4 member_page 3 member_state).get (by decide!),
    (Option.some_get _).symm, by decide!,
    (find_var_decl_member member_page 4 4 3 member_state _ (Or.inl rfl)
      (Option.some_get _).symm).1,
    (find_var_decl_member member_page 4 4 3 member_state _ (Or.inl rfl)
      (Option.some_get _).symm).2.1⟩

/-! ## The word at an index (C31) -/

theorem word_start_spec (pLine : STxtLine) :
    ∀ (i : Nat), word_start pLine i ≤ i + 1 ∧
      (∀ j, word_start pLine i ≤ j → j ≤ i → is_start_delim (tl_char pLine j) = false) ∧
      (word_start pLine i = 0 ∨
        is_start_delim (tl_char pLine (word_start pLine i - 1)) = true) := by
  intro i
  induction i with
  | zero =>
    rw [word_start]
    by_cases h : is_start_delim (tl_char pLine 0) = true
    · rw [if_pos h]
      exact ⟨by omega, fun j h1 h2 => by omega, Or.inr h⟩
    · rw [if_neg h]
      refine ⟨by omega, fun j h1 h2 => ?_, Or.inl rfl⟩
      have : j = 0 := by omega
      subst this
      simpa using h
  | succ i ih =>
    rw [word_start]
    by_cases h : is_start_delim (tl_char pLine (i + 1)) = true
    · rw [if_pos h]
      exact ⟨by omega, fun j h1 h2 => by omega, Or.inr h⟩
    · rw [if_neg h]
      refine ⟨by omega, fun j h1 h2 => ?_, ih.2.2⟩
      by_cases hj : j = i + 1
      · subst hj; simpa using h
      · exact ih.2.1 j h1 (by omega)

theorem word_end_spec (pLine : STxtLine) :
    ∀ (n i : Nat), i ≤ pLine.length → pLine.length ≤ i + n →
      i ≤ word_end pLine n i ∧ word_end pLine n i ≤ pLine.length ∧
      (∀ j, i ≤ j → j < word_end pLine n i → is_end_delim (tl_char pLine j) = false) ∧
      (word_end pLine n i = pLine.length ∨
        is_end_delim (tl_char pLine (word_end pLine n i)) = true) := by
  intro n
  induction n with
  | zero =>
    intro i h1 h2
    rw [word_end]
    have : i = pLine.length := by omega
    subst this
    exact ⟨le_refl _, le_refl _, fun j h3 h4 => by omega, Or.inl rfl⟩
  | succ n ih =>
    intro i h1 h2
    rw [word_end]
    by_cases hlt : i < pLine.length
    · rw [if_pos hlt]
      by_cases hd : is_end_delim (tl_char pLine i) = true
      · rw [if_pos hd]
        exact ⟨le_refl _, by omega, fun j h3 h4 => by omega, Or.inr hd⟩
      · rw [if_neg hd]
        obtain ⟨a, b, c, d⟩ := ih (i + 1) (by omega) (by omega)
        refine ⟨by omega, b, fun j h3 h4 => ?_, d⟩
        by_cases hj : j = i
        · subst hj; simpa using hd
        · exact c j (by omega) h4
    · rw [if_neg hlt]
      exact ⟨h1, le_refl _, fun j h3 h4 => by omega, Or.inl rfl⟩

theorem start_delim_is_end_delim (c : Char) (h : is_start_delim c = true) :
    is_end_delim c = true := by
  unfold is_start_delim at h
  unfold is_end_delim
  rw [h]
  rfl

theorem tl_cut_out_nat (pLine : STxtLine) (s e : Nat) (hse : s ≤ e) (he : e ≤ pLine.length) :
    tl_cut_out pLine s e = some ((pLine.drop s).take (e - s), pLine.take s ++ pLine.drop e) := by
  unfold tl_cut_out
  rw [if_neg (by omega)]
  have h1 : ((s : Int)).toNat = s := by omega
  have h2 : ((e : Int) - (s : Int)).toNat = e - s := by omega
  have h3 : ((e : Int)).toNat = e := by omega
  rw [h1, h2, h3]

theorem tl_cut_out_rejected (pLine : STxtLine) (s e : Nat) (hse : e < s) :
    tl_cut_out pLine s e = none := by
  unfold tl_cut_out
  rw [if_pos (by omega)]

/-- C31 (amended): for an index `i` inside the line, `tl_get_word_at` looks back
from `i` for the nearest of the four characters space, `,`, `(`, `)` and
forward from `i` for the nearest of the five characters space, `,`, `(`, `)`,
`;`.  When the character at `i` is none of the five, the word returned is the
text from `s` up to `e`, with `s <= i < e`, which holds none of the four
characters, holds none of the five from `i` on, starts at the line start or
after one of the four, and ends at the line end or before one of the five; a
`;` left of `i` is part of the word.  When the character at `i` is a `;` the
word is the text between such an `s` and `i`, and when it is one of the four
no word is returned. -/
theorem tl_get_word_at_spec (pLine : STxtLine) (i : Nat) (hi : i < pLine.length) :
    (is_end_delim (tl_char pLine i) = false →
      ∃ s e, s ≤ i ∧ i < e ∧ e ≤ pLine.length ∧
        tl_get_word_at pLine i = some ((pLine.drop s).take (e - s)) ∧
        (∀ j, s ≤ j → j < e → is_start_delim (tl_char pLine j) = false) ∧
        (∀ j, i ≤ j → j < e → is_end_delim (tl_char pLine j) = false) ∧
        (s = 0 ∨ is_start_delim (tl_char pLine (s - 1)) = true) ∧
        (e = pLine.length ∨ is_end_delim (tl_char pLine e) = true)) ∧
    (tl_char pLine i = ';' →
      ∃ s, s ≤ i ∧ tl_get_word_at pLine i = some ((pLine.drop s).take (i - s)) ∧
        (∀ j, s ≤ j → j < i → is_start_delim (tl_char pLine j) = false) ∧
        (s = 0 ∨ is_start_delim (tl_char pLine (s - 1)) = true)) ∧
    (is_start_delim (tl_char pLine i) = true → tl_get_word_at pLine i = none) := by
  obtain ⟨hs1, hs2, hs3⟩ := word_start_spec pLine i
  obtain ⟨he1, he2, he3, he4⟩ := word_end_spec pLine pLine.length i (by omega) (by omega)
  have hget : tl_get_word_at pLine i =
      match tl_cut_out pLine (word_start pLine i) (word_end pLine pLine.length i) with
      | some (szWord, _) => some szWord
      | none => none := by
    unfold tl_get_word_at
    rw [if_neg (by omega)]
    try rfl
  refine ⟨fun hnd => ?_, fun hsemi => ?_, fun hsd => ?_⟩
  · have hns : is_start_delim (tl_char pLine i) = false := by
      cases hc : is_start_delim (tl_char pLine i) with
      | false => rfl
      | true => rw [start_delim_is_end_delim _ hc] at hnd; cases hnd
    have hsi : word_start pLine i ≤ i := by
      by_contra hc
      have heq : word_start pLine i = i + 1 := by omega
      rcases hs3 with h0 | h1
      · omega
      · rw [heq] at h1
        simp only [Nat.add_sub_cancel] at h1
        rw [hns] at h1
        cases h1
    have hie : i < word_end pLine pLine.length i := by
      by_contra hc
      have heq : word_end pLine pLine.length i = i := by omega
      rcases he4 with h0 | h1
      · omega
      · rw [heq, hnd] at h1
        cases h1
    refine ⟨_, _, hsi, hie, he2, ?_, ?_, he3, hs3, he4⟩
    · rw [hget, tl_cut_out_nat pLine _ _ (by omega) he2]
    · intro j h1 h2
      by_cases hj : j ≤ i
      · exact hs2 j h1 hj
      · cases hc : is_start_delim (tl_char pLine j) with
        | false => rfl
        | true =>
          have := he3 j (by omega) h2
          rw [start_delim_is_end_delim _ hc] at this
          cases this
  · have hd : is_end_delim (tl_char pLine i) = true := by rw [hsemi]; decide
    have hns : is_start_delim (tl_char pLine i) = false := by rw [hsemi]; decide
    have hsi : word_start pLine i ≤ i := by
      by_contra hc
      have heq : word_start pLine i = i + 1 := by omega
      rcases hs3 with h0 | h1
      · omega
      · rw [heq] at h1
        simp only [Nat.add_sub_cancel] at h1
        rw [hns] at h1
        cases h1
    have hei : word_end pLine pLine.length i = i := by
      by_contra hc
      have := he3 i (le_refl _) (by omega)
      rw [hd] at this
      cases this
    refine ⟨_, hsi, ?_, fun j h1 h2 => hs2 j h1 (by omega), hs3⟩
    rw [hget, hei, tl_cut_out_nat pLine _ _ hsi (by omega)]
  · have hd := start_delim_is_end_delim _ hsd
    have hsi : word_start pLine i = i + 1 := by
      by_contra hc
      have := hs2 i (by omega) (le_refl _)
      rw [hsd] at this
      cases this
    have hei : word_end pLine pLine.length i = i := by
      by_contra hc
      have := he3 i (le_refl _) (by omega)
      rw [hd] at this
      cases this
    rw [hget, hsi, hei, tl_cut_out_rejected pLine _ _ (by omega)]

/-- C31 on the word `bar` of the line `foo(bar, 2);`, at the index of `a`. -/
theorem tl_get_word_at_spec_witness :
    is_end_delim (tl_char "foo(bar, 2);".toList 5) = false ∧
    ∃ s e, s ≤ 5 ∧ 5 < e ∧ e ≤ "foo(bar, 2);".toList.length ∧
      tl_get_word_at "foo(bar, 2);".toList 5 =
        some (("foo(bar, 2);".toList.drop s).take (e - s)) ∧
      (∀ j, s ≤ j → j < e → is_start_delim (tl_char "foo(bar, 2);".toList j) = false) ∧
      (∀ j, 5 ≤ j → j < e → is_end_delim (tl_char "foo(bar, 2);".toList j) = false) ∧
      (s = 0 ∨ is_start_delim (tl_char "foo(bar, 2);".toList (s - 1)) = true) ∧
      (e = "foo(bar, 2);".toList.length ∨
        is_end_delim (tl_char "foo(bar, 2);".toList e) = true) :=
  ⟨by decide, (tl_get_word_at_spec "foo(bar, 2);".toList 5 (by decide)).1 (by decide)⟩

/-- C31 refuted: at index 2 of the line `a;b` the word returned is `a;b`,
which holds a `;`; the longest text around index 2 without any of the five
characters is `b`. -/
theorem tl_get_word_at_semicolon_counterexample :
    tl_get_word_at "a;b".toList 2 = some "a;b".toList ∧ ';' ∈ "a;b".toList ∧
      is_end_delim ';' = true ∧ is_start_delim ';' = false := by
  decide

/-! ## The leading word (C32) -/

theorem first_delim_spec (pThis : STxtLine) (k : Nat) (h : first_delim pThis = some k) :
    k < pThis.length ∧ is_end_delim (tl_char pThis k) = true ∧
      ∀ c ∈ pThis.take k, is_end_delim c = false := by
  unfold first_delim at h
  have h1 := List.findIdx?_eq_some_iff_getElem.mp h
  obtain ⟨hlt, hk, hbefore⟩ := h1
  refine ⟨hlt, ?_, ?_⟩
  · simp only [tl_char, List.getD_eq_getElem?_getD, List.getElem?_eq_getElem hlt,
      Option.getD_some]
    exact hk
  · intro c hc
    obtain ⟨j, hj, hcj⟩ := List.getElem_of_mem hc
    have hjk : j < k := by
      have := hj
      simp at this
      exact this.1
    have := hbefore j hjk
    rw [List.getElem_take] at hcj
    rw [← hcj]
    simpa using this

/-- C32 (amended): for a line that does not consist of spaces and tabs only.
When the first of the delimiters space, `,`, `(`, `)`, `;` is at an index
`k > 0`, `tl_extract_word` returns the `k` leading characters, which hold no
delimiter, and removes them with `n` more characters: 2 when the delimiter
and the character after it are a space and another delimiter, in either
order, else 1; the word, the characters removed with it and the line left make
up the line.  The separator reported is the delimiter at `k` when it is no
space, else the delimiter after it when two are removed, else the space.
When the line holds no delimiter the whole line is returned, the line is left
empty and the separator reported is 0. -/
theorem tl_extract_word_spec (pThis : STxtLine) (hne : tl_isempty pThis = false) :
    (∀ k, first_delim pThis = some k → 0 < k →
      ∃ n sep, tl_extract_word pThis = (some (pThis.take k), pThis.drop (k + n), some sep) ∧
        (∀ c ∈ pThis.take k, is_end_delim c = false) ∧
        pThis = pThis.take k ++ (pThis.drop k).take n ++ pThis.drop (k + n) ∧
        n = (if spec_two_delims pThis k then 2 else 1) ∧
        (tl_char pThis k ≠ ' ' → sep = tl_char pThis k) ∧
        (tl_char pThis k = ' ' → spec_two_delims pThis k = true →
          sep = tl_char pThis (k + 1)) ∧
        (tl_char pThis k = ' ' → spec_two_delims pThis k = false → sep = ' ')) ∧
    (first_delim pThis = none →
      tl_extract_word pThis = (some pThis, [], some (Char.ofNat 0))) := by
  constructor
  · intro k hk hpos
    obtain ⟨hlt, hdel, hword⟩ := first_delim_spec pThis k hk
    have hsplit : ∀ n, pThis = pThis.take k ++ (pThis.drop k).take n ++ pThis.drop (k + n) := by
      intro n
      rw [List.append_assoc, ← List.drop_drop, List.take_append_drop, List.take_append_drop]
    by_cases hsp : tl_char pThis k = ' '
    · -- a space first
      by_cases htwo : spec_two_delims pThis k = true
      · have hnext : decide (k + 1 < pThis.length) = true ∧
            (tl_char pThis (k + 1) == ',' || tl_char pThis (k + 1) == '(' ||
              tl_char pThis (k + 1) == ')' || tl_char pThis (k + 1) == ';') = true := by
          simp only [spec_two_delims, hsp, is_end_delim, Bool.and_eq_true, Bool.or_eq_true,
            decide_eq_true_eq, beq_iff_eq, bne_iff_ne, ne_eq] at htwo ⊢
          rcases htwo with ⟨h1, (⟨⟨_, h2⟩, h3⟩ | ⟨h2, _⟩)⟩
          · refine ⟨h1, ?_⟩
            rcases h2 with (((h2 | h2) | h2) | h2) | h2
            · exact absurd h2 h3
            · exact Or.inl (Or.inl (Or.inl h2))
            · exact Or.inl (Or.inl (Or.inr h2))
            · exact Or.inl (Or.inr h2)
            · exact Or.inr h2
          · exact absurd trivial h2
        refine ⟨2, tl_char pThis (k + 1), ?_, hword, hsplit 2, by rw [if_pos htwo],
          fun h => absurd hsp h, fun _ _ => rfl, fun _ h => by rw [htwo] at h; cases h⟩
        simp only [tl_extract_word, hne, hk, hsp, hnext.1, hnext.2, hpos]
        simp
      · have htwo2 : spec_two_delims pThis k = false := by simpa using htwo
        have hnext : (decide (k + 1 < pThis.length) &&
            (tl_char pThis (k + 1) == ',' || tl_char pThis (k + 1) == '(' ||
              tl_char pThis (k + 1) == ')' || tl_char pThis (k + 1) == ';')) = false := by
          cases hc : (decide (k + 1 < pThis.length) &&
            (tl_char pThis (k + 1) == ',' || tl_char pThis (k + 1) == '(' ||
              tl_char pThis (k + 1) == ')' || tl_char pThis (k + 1) == ';')) with
          | false => rfl
          | true =>
            exfalso
            apply htwo
            simp only [Bool.and_eq_true, Bool.or_eq_true, decide_eq_true_eq, beq_iff_eq] at hc
            simp only [spec_two_delims, hsp, is_end_delim, Bool.and_eq_true, Bool.or_eq_true,
              decide_eq_true_eq, beq_iff_eq, bne_iff_ne, ne_eq]
            refine ⟨hc.1, Or.inl ⟨⟨trivial, ?_⟩, ?_⟩⟩
            · rcases hc.2 with ((h | h) | h) | h
              · exact Or.inl (Or.inl (Or.inl (Or.inr h)))
              · exact Or.inl (Or.inl (Or.inr h))
              · exact Or.inl (Or.inr h)
              · exact Or.inr h
            · rcases hc.2 with ((h | h) | h) | h <;> (rw [h]; decide)
        refine ⟨1, ' ', ?_, hword, hsplit 1, by rw [if_neg htwo],
          fun h => absurd hsp h, fun _ h => absurd h htwo, fun _ _ => rfl⟩
        simp only [tl_extract_word, hne, hk, hsp, hnext, hpos]
        simp
    · -- another delimiter first
      have hb : (tl_char pThis k == ' ') = false := by simpa using hsp
      have hnb : (tl_char pThis k != ' ') = true := by simpa using hsp
      by_cases htwo : spec_two_delims pThis k = true
      · have hnext : (decide (k + 1 < pThis.length) && tl_char pThis (k + 1) == ' ') = true := by
          simp only [spec_two_delims, hb, hnb, Bool.false_and, Bool.true_and, Bool.false_or,
            Bool.and_eq_true, decide_eq_true_eq, beq_iff_eq] at htwo ⊢
          exact htwo
        refine ⟨2, tl_char pThis k, ?_, hword, hsplit 2, by rw [if_pos htwo],
          fun _ => rfl, fun h => absurd h hsp, fun h => absurd h hsp⟩
        simp only [tl_extract_word, hne, hk, hb, hnb, hnext, hpos]
        simp
      · have hnext : (decide (k + 1 < pThis.length) && tl_char pThis (k + 1) == ' ') = false := by
          cases hc : (decide (k + 1 < pThis.length) && tl_char pThis (k + 1) == ' ') with
          | false => rfl
          | true =>
            exfalso
            apply htwo
            simp only [spec_two_delims, hb, hnb, Bool.false_and, Bool.true_and, Bool.false_or]
            exact hc
        refine ⟨1, tl_char pThis k, ?_, hword, hsplit 1, by rw [if_neg htwo],
          fun _ => rfl, fun h => absurd h hsp, fun h => absurd h hsp⟩
        simp only [tl_extract_word, hne, hk, hb, hnb, hnext, hpos]
        simp
  · intro hk
    simp [tl_extract_word, hne, hk]

/-- C32 on the line `a ,b`: the word `a`, the separator `,`, and `b` left. -/
theorem tl_extract_word_spec_witness :
    tl_isempty "a ,b".toList = false ∧ first_delim "a ,b".toList = some 1 ∧
    ∃ n sep, tl_extract_word "a ,b".toList =
        (some ("a ,b".toList.take 1), "a ,b".toList.drop (1 + n), some sep) ∧
      (∀ c ∈ "a ,b".toList.take 1, is_end_delim c = false) ∧
      "a ,b".toList = "a ,b".toList.take 1 ++ ("a ,b".toList.drop 1).take n ++
        "a ,b".toList.drop (1 + n) ∧
      n = (if spec_two_delims "a ,b".toList 1 then 2 else 1) ∧
      (tl_char "a ,b".toList 1 ≠ ' ' → sep = tl_char "a ,b".toList 1) ∧
      (tl_char "a ,b".toList 1 = ' ' → spec_two_delims "a ,b".toList 1 = true →
        sep = tl_char "a ,b".toList (1 + 1)) ∧
      (tl_char "a ,b".toList 1 = ' ' → spec_two_delims "a ,b".toList 1 = false → sep = ' ') :=
  ⟨by decide, by decide,
    (tl_extract_word_spec "a ,b".toList (by decide)).1 1 (by decide) (by decide)⟩

/-- C32 refuted: in the line of a tab and a space the first delimiter is at
index 1, but the line counts as empty, so no word is returned, nothing is
removed and no separator is reported. -/
theorem tl_extract_word_blank_counterexample :
    first_delim ['\t', ' '] = some 1 ∧ tl_extract_word ['\t', ' '] = (none, ['\t', ' '], none) := by
  decide

/-! ## The name looked for by `extract_var` (C38) -/

/-- C38, failing cases: on the lines `int`, `int);` and `void) \x7b`, with any
symbol set, `extract_var` matches the type, is in no constructor or
destructor form, and `tl_extract_word` returns `NULL` for the name (the line
left is empty or starts with a delimiter), which is then passed to
`check_composite_funcname`; the assertion before it fails.  The parse of a
page holding the declaration `int f(int);`, whose parameter has no name,
reaches this within every bound. -/
theorem extract_var_null_name (pSymSet : SSymbolSet) :
    ((extract_var_type "int".toList pSymSet).map (fun r => (r.2.bFound, r.2.bConstr)) =
        some (true, false) ∧
      (tl_extract_word []).1 = none ∧ extract_var "int".toList pSymSet = none) ∧
    ((extract_var_type "int);".toList pSymSet).map (fun r => (r.2.bFound, r.2.bConstr)) =
        some (true, false) ∧
      (tl_extract_word ");".toList).1 = none ∧ extract_var "int);".toList pSymSet = none) ∧
    ((extract_var_type "void) \x7b".toList pSymSet).map (fun r => (r.2.bFound, r.2.bConstr)) =
        some (true, false) ∧
      (tl_extract_word ") \x7b".toList).1 = none ∧
      extract_var "void) \x7b".toList pSymSet = none) ∧
    ∀ fuel, parse_page fuel ["int f(int);".toList] = none := by
  refine ⟨⟨rfl, rfl, rfl⟩, ⟨rfl, rfl, rfl⟩, ⟨rfl, rfl, rfl⟩, fun fuel => ?_⟩
  cases fuel with
  | zero => rfl
  | succ f => rfl

/-! ## Keywords as raw starts of the line (C40) -/

theorem dropWhile_append_of_neg {α : Type} (p : α → Bool) (c : α) (ys : List α)
    (hc : p c = false) :
    ∀ (xs : List α), (xs ++ c :: ys).dropWhile p = xs.dropWhile p ++ c :: ys
  | [] => by simp [List.dropWhile, hc]
  | a :: xs => by
    cases h : p a with
    | true =>
      rw [List.cons_append, List.dropWhile_cons_of_pos h, List.dropWhile_cons_of_pos h]
      exact dropWhile_append_of_neg p c ys hc xs
    | false =>
      rw [List.cons_append, List.dropWhile_cons_of_neg (by simp [h]),
        List.dropWhile_cons_of_neg (by simp [h])]
      rfl

/-- Trimming a line that starts with a non-blank text followed by a non-blank
character trims what follows the text. -/
theorem tl_trim_append (a : Char) (k : STxtLine) (c : Char) (rest : STxtLine)
    (ha1 : a ≠ ' ') (ha2 : a ≠ '\t') (hc1 : c ≠ ' ') (hc2 : c ≠ '\t') :
    tl_trim (a :: k ++ c :: rest) = a :: k ++ tl_trim (c :: rest) := by
  have hb : (c == ' ' || c == '\t') = false := by simp [hc1, hc2]
  rw [tl_trim_cons_nonblank c rest hc1 hc2, List.cons_append,
    tl_trim_cons_nonblank a (k ++ c :: rest) ha1 ha2, List.reverse_append, List.reverse_cons,
    List.append_assoc, List.singleton_append,
    dropWhile_append_of_neg _ c k.reverse hb, List.reverse_append, List.reverse_cons,
    List.reverse_reverse]
  simp

theorem tl_trim_keyword (k : STxtLine) (c : Char) (rest : STxtLine)
    (hhead : ∀ d, k.head? = some d → d ≠ ' ' ∧ d ≠ '\t') (hne : k ≠ [])
    (hc1 : c ≠ ' ') (hc2 : c ≠ '\t') :
    tl_trim (k ++ c :: rest) = k ++ tl_trim (c :: rest) := by
  cases k with
  | nil => exact absurd rfl hne
  | cons a k1 =>
    have := hhead a rfl
    exact tl_trim_append a k1 c rest this.1 this.2 hc1 hc2

theorem take_findIdx_takeWhile {α : Type} (p : α → Bool) :
    ∀ (l : List α),
      match l.findIdx? p with
      | some i => l.take i = l.takeWhile (fun d => !p d)
      | none => l.takeWhile (fun d => !p d) = l
  | [] => by simp
  | a :: l => by
    have ih := take_findIdx_takeWhile p l
    rw [List.findIdx?_cons]
    cases h : p a with
    | true => simp [List.takeWhile, h]
    | false =>
      simp only [Bool.false_eq_true, if_false, List.findIdx?_succ]
      cases hf : l.findIdx? p with
      | none =>
        rw [hf] at ih
        simp only [Option.map_none'] 
        simp only [List.takeWhile, h, Bool.not_false]
        exact congrArg _ ih
      | some i =>
        rw [hf] at ih
        simp only [Option.map_some']
        simp only [List.takeWhile, h, Bool.not_false, List.take_succ_cons]
        exact congrArg _ ih

/-- The word `tl_extract_word` returns for a line that starts with a character
that is no delimiter and no tab: the characters before the first delimiter. -/
theorem tl_extract_word_leading (c : Char) (t : STxtLine) (hc : is_end_delim c = false)
    (ht : c ≠ '\t') :
    ∃ r sep, tl_extract_word (c :: t) =
      (some ((c :: t).takeWhile (fun d => !is_end_delim d)), r, sep) := by
  have hcs : c ≠ ' ' := by
    intro h; rw [h] at hc; revert hc; decide
  have hempty : tl_isempty (c :: t) = false := by
    simp [tl_isempty, hcs, ht]
  have htw := take_findIdx_takeWhile is_end_delim (c :: t)
  cases hf : first_delim (c :: t) with
  | none =>
    unfold first_delim at hf
    rw [hf] at htw
    refine ⟨[], some (Char.ofNat 0), ?_⟩
    simp only [tl_extract_word, hempty, first_delim, hf]
    rw [htw]
    rfl
  | some idx =>
    unfold first_delim at hf
    rw [hf] at htw
    have hpos : 0 < idx := by
      rcases Nat.eq_zero_or_pos idx with h0 | h0
      · subst h0
        have := (List.findIdx?_eq_some_iff_getElem.mp hf).2.1
        simp only [List.getElem_cons_zero] at this
        rw [hc] at this
        cases this
      · exact h0
    simp only [tl_extract_word, hempty, first_delim, hf]
    simp only [hpos, gt_iff_lt, if_true, Bool.not_false]
    rw [htw]
    exact ⟨_, _, rfl⟩

theorem check_var_type_for_ptrs_ident (k : STxtLine) (c : Char) (t : STxtLine)
    (hc : is_ident_char c = true) :
    check_var_type_for_ptrs (k ++ c :: t) k.length = ⟨k.length, false, false, false⟩ := by
  have hfc := ident_char_facts c hc
  have hc0 : tl_char (k ++ c :: t) k.length = c := by
    have := tl_char_append_right k (c :: t) 0
    simpa using this
  have h1 : (c == '*') = false := by simpa using hfc.2.2.2.2.2.1
  have h2 : (c == '&') = false := by simpa using hfc.2.2.2.2.2.2.1
  have h3 : (c == ' ') = false := by simpa using hfc.2.1
  simp [check_var_type_for_ptrs, hc0, h1, h2, h3]

/-- The line `k` followed directly by a trimmed text that starts with an
identifier character, for a keyword `k` that is the first type keyword
starting the line and is started by no qualifier keyword. -/
theorem extract_var_keyword_joined (k : String) (c : Char) (t : STxtLine)
    (pSymSet : SSymbolSet)
    (hhead : ∀ d, k.toList.head? = some d → d ≠ ' ' ∧ d ≠ '\t') (hne : k.toList ≠ [])
    (hq : first_keyword k.toList qualifier_keywords = none)
    (hk : first_keyword k.toList type_keywords = some k)
    (hdq : ∀ q ∈ qualifier_keywords, q.length ≤ k.toList.length ∨
      tl_match_at q.toList k.toList = false)
    (hdk : ∀ q ∈ type_keywords, q.length ≤ k.toList.length ∨
      tl_match_at q.toList k.toList = false)
    (hc : is_ident_char c = true) (htrim : tl_trim (c :: t) = c :: t) :
    ∃ ev, extract_var (k.toList ++ c :: t) pSymSet = some ev ∧ ev.bFound = true ∧
      ev.pVarType = some k.toList ∧
      ev.pVarName = some
        (match check_composite_funcname ((c :: t).takeWhile (fun d => !is_end_delim d)) with
          | some p => p.2
          | none => (c :: t).takeWhile (fun d => !is_end_delim d)) := by
  have hfc := ident_char_facts c hc
  have hline : tl_trim (k.toList ++ c :: t) = k.toList ++ c :: t := by
    rw [tl_trim_keyword k.toList c t hhead hne hfc.2.1 hfc.2.2.1, htrim]
  have hq2 : first_keyword (k.toList ++ c :: t) qualifier_keywords = none := by
    rw [first_keyword_append k.toList (c :: t) qualifier_keywords hdq]
    exact hq
  have hk2 : first_keyword (k.toList ++ c :: t) type_keywords = some k := by
    rw [first_keyword_append k.toList (c :: t) type_keywords hdk]
    exact hk
  have hlen : k.length = k.toList.length := rfl
  have hcheck : check_var_type_for_ptrs (k.toList ++ c :: t) k.length =
      ⟨k.length, false, false, false⟩ := check_var_type_for_ptrs_ident k.toList c t hc
  have hty : extract_var_type (k.toList ++ c :: t) pSymSet =
      some (k.toList ++ c :: t, ⟨true, false, .null, none, some k.toList, k.length⟩) := by
    unfold extract_var_type
    simp only [hq2, Option.isSome_none, Bool.false_eq_true, if_false, hk2, hcheck]
    simp [add_to_type, ptr_suffix]
  have hcut : cut_front (k.toList ++ c :: t) k.length = c :: t := by
    rw [cut_front_eq_drop _ _ (by rw [hlen, List.length_append]; omega)]
    exact List.drop_left' rfl
  have hparen : (tl_char (c :: t) 0 == '(') = false := by
    simpa [tl_char] using hfc.2.2.2.1
  obtain ⟨r, sep, hword⟩ := tl_extract_word_leading c t hfc.1 hfc.2.2.1
  unfold extract_var
  rw [hline, hty]
  simp only [if_true, Bool.not_false, hcut, htrim, hparen, Bool.false_eq_true, if_false, hword]
  cases hcomp : check_composite_funcname ((c :: t).takeWhile (fun d => !is_end_delim d)) with
  | none => exact ⟨_, rfl, rfl, rfl, rfl⟩
  | some p => exact ⟨_, rfl, rfl, rfl, rfl⟩

/-- C40: for every built-in type keyword `k` and every text that starts with
an identifier character, `extract_var` on the line made of `k` directly
followed by the text, with any symbol set, reports found with the type `k`:
the keyword is matched as a raw start of the line.  The name is taken from
what follows the keyword: its characters (trimmed) before the first of the
delimiters space, `,`, `(`, `)`, `;`, or the part of them after `::` when they
hold one. -/
theorem extract_var_keyword_raw (k : String) (hk : k ∈ type_keywords) (c : Char)
    (rest : STxtLine) (hc : is_ident_char c = true) (pSymSet : SSymbolSet) :
    ∃ ev t, tl_trim (c :: rest) = c :: t ∧
      extract_var (k.toList ++ c :: rest) pSymSet = some ev ∧ ev.bFound = true ∧
      ev.pVarType = some k.toList ∧
      ev.pVarName = some
        (match check_composite_funcname ((c :: t).takeWhile (fun d => !is_end_delim d)) with
          | some p => p.2
          | none => (c :: t).takeWhile (fun d => !is_end_delim d)) := by
  have hfc := ident_char_facts c hc
  have htr := tl_trim_cons_nonblank c rest hfc.2.1 hfc.2.2.1
  have hidem : tl_trim (c :: (rest.reverse.dropWhile (fun c => c == ' ' || c == '\t')).reverse) =
      c :: (rest.reverse.dropWhile (fun c => c == ' ' || c == '\t')).reverse := by
    rw [← htr]
    exact tl_trim_idem _
  have hsame : ∀ (k : String), (∀ d, k.toList.head? = some d → d ≠ ' ' ∧ d ≠ '\t') →
      k.toList ≠ [] →
      extract_var (k.toList ++ c :: rest) pSymSet =
        extract_var (k.toList ++
          c :: (rest.reverse.dropWhile (fun c => c == ' ' || c == '\t')).reverse) pSymSet := by
    intro k h1 h2
    unfold extract_var
    rw [tl_trim_keyword k.toList c rest h1 h2 hfc.2.1 hfc.2.2.1,
      tl_trim_keyword k.toList c _ h1 h2 hfc.2.1 hfc.2.2.1, hidem, htr]
  have key : ∀ (k : String), (∀ d, k.toList.head? = some d → d ≠ ' ' ∧ d ≠ '\t') →
      k.toList ≠ [] → first_keyword k.toList qualifier_keywords = none →
      first_keyword k.toList type_keywords = some k →
      (∀ q ∈ qualifier_keywords, q.length ≤ k.toList.length ∨
        tl_match_at q.toList k.toList = false) →
      (∀ q ∈ type_keywords, q.length ≤ k.toList.length ∨
        tl_match_at q.toList k.toList = false) →
      ∃ ev t, tl_trim (c :: rest) = c :: t ∧
        extract_var (k.toList ++ c :: rest) pSymSet = some ev ∧ ev.bFound = true ∧
        ev.pVarType = some k.toList ∧
        ev.pVarName = some
          (match check_composite_funcname ((c :: t).takeWhile (fun d => !is_end_delim d)) with
            | some p => p.2
            | none => (c :: t).takeWhile (fun d => !is_end_delim d)) := by
    intro k h1 h2 h3 h4 h5 h6
    obtain ⟨ev, e1, e2, e3, e4⟩ :=
      extract_var_keyword_joined k c _ pSymSet h1 h2 h3 h4 h5 h6 hc hidem
    exact ⟨ev, _, htr, (hsame k h1 h2).trans e1, e2, e3, e4⟩
  simp only [type_keywords, List.mem_cons, List.mem_singleton, List.not_mem_nil,
    or_false] at hk
  rcases hk with rfl | rfl | rfl | rfl | rfl | rfl | rfl | rfl <;>
    exact key _ (by decide) (by decide) (by decide) (by decide) (by decide) (by decide)

/-- C40 on the lines `interval = 3;` and `voidx::y(`: the type is `int` with
the name `erval`, and `void` with the name `y`. -/
theorem extract_var_keyword_raw_witness :
    (is_ident_char 'e' = true ∧ "int" ∈ type_keywords ∧
      extract_var "interval = 3;".toList no_symbols =
        some ⟨true, "= 3;".toList, .null, some "erval".toList, some "int".toList, some ' '⟩ ∧
      (extract_var "voidx::y(".toList deref_symbols).map (fun ev => ev.pVarName) =
        some (some "y".toList)) ∧
    ∃ ev t, tl_trim ('x' :: "::y(".toList) = 'x' :: t ∧
      extract_var ("void".toList ++ 'x' :: "::y(".toList) deref_symbols = some ev ∧
      ev.bFound = true ∧ ev.pVarType = some "void".toList ∧
      ev.pVarName = some
        (match check_composite_funcname (('x' :: t).takeWhile (fun d => !is_end_delim d)) with
          | some p => p.2
          | none => ('x' :: t).takeWhile (fun d => !is_end_delim d)) :=
  ⟨⟨by decide, by decide, by decide, by decide⟩,
   extract_var_keyword_raw "void" (by decide) 'x' "::y(".toList (by decide) deref_symbols⟩

/-! ## The call counter of the resolver (C39) -/

/-- The chain `this->next->bar` resolved in the scope of class `Foo`: for
every value `callCount` has on entry (not negative), `find_deref_varfunc`
finds `bar` and leaves `callCount` one higher. -/
theorem find_deref_varfunc_this_chain (cc : Int) (h : 0 ≤ cc) :
    find_deref_varfunc this_symbols 3 "this->next->bar".toList class_foo_next.pVarSet
        none none none cc =
      some (true, some ⟨some [1, 1], 5⟩, [], cc + 1) := by
  have h1 : tl_before_first_deref (tl_trim "this->next->bar".toList) =
      (some "this".toList, "next->bar".toList) := by decide
  have h2 : tl_before_first_deref "next->bar".toList = (some "next".toList, "bar".toList) := by
    decide
  have h3 : tl_equals_sz "this".toList "this" = true := by decide
  have h4 : get_var class_foo_next.pVarSet "next".toList =
      some (some ⟨some "Foo *".toList, some "next".toList, some ⟨some [2, 1], 6⟩⟩) := by decide
  have h5 : verify_var_isstruct (some (strip_type_markers "Foo *".toList)) this_symbols =
      (some class_foo_next, none, true) := by decide
  have h6 : tl_before_first_deref (tl_trim "bar".toList) = (none, "bar".toList) := by decide
  have h7 : tl_extract_word "bar".toList = (some "bar".toList, [], some (Char.ofNat 0)) := by
    decide
  have h8 : get_var class_foo_next.pVarSet "bar".toList = some none := by decide
  have h9 : get_func class_foo_next.pFuncSet "bar".toList =
      some (some ⟨[], some "void".toList, some ⟨some [1, 1], 5⟩, some "bar".toList⟩) := by decide
  have hpos : cc + 1 + 1 > 0 := by omega
  simp only [find_deref_varfunc, h1, h2, h3, h4, h5, h6, h7, h8, h9, if_true, hpos,
    Option.map_some']
  simp

/-- C39, failing case: in the member function `Foo::run` of `this_tree`, for
every value `n` of the static `callCount` on entry, `find_deref_varfunc` on
the chain `this->next->bar` returns with `callCount = n + 1` (the increment
made for `this` is never undone).  So `get_requested_element` on the line
`this->next->bar();` started with `callCount = 0` finds `bar` and leaves
`callCount = 1`; on the line `stop();` it finds the free function `stop` when
`callCount = 0`, and with `callCount = 1` it reads `pClass->pVarSet` with
`pClass` and `pStruct` null. -/
theorem get_requested_element_call_count :
    (∀ n : Nat, find_deref_varfunc this_symbols 3 "this->next->bar".toList
        class_foo_next.pVarSet none none none (n : Int) =
      some (true, some ⟨some [1, 1], 5⟩, [], (n : Int) + 1)) ∧
    get_requested_element this_tree [1, 0] 4 this_symbols 0 =
      some (some ⟨some [1, 1], 5⟩, 1) ∧
    get_requested_element this_tree [2, 0] 3 this_symbols 0 = some (some ⟨some [2], 8⟩, 0) ∧
    get_requested_element this_tree [2, 0] 3 this_symbols 1 = none :=
  ⟨fun n => find_deref_varfunc_this_chain n (Int.ofNat_nonneg n), by decide, by decide,
    by decide⟩

/-! ## The kind of the elements returned by the walk (C33) -/

theorem ce_at_cons_sec {root : SCodeElement} {h : Handle} {t : Nat} {l : STxtLine}
    {info : SSecInfo} {es : List SCodeElement} (hc : ce_at root h = some (.sec t l info es))
    (i : Nat) : ce_at root (i :: h) = es[i]? := by
  simp only [ce_at, hc]

theorem single_or_folded_single {root : SCodeElement} {q : Handle} {t : Nat} {l : STxtLine}
    (h : ce_at root q = some (.single t l)) : spec_single_or_folded root q = true := by
  simp [spec_single_or_folded, h, SCodeElement.bSingle]

theorem single_or_folded_sec {root : SCodeElement} {q : Handle} {t : Nat} {l : STxtLine}
    {info : SSecInfo} {es : List SCodeElement} (h : ce_at root q = some (.sec t l info es))
    (hb : info.bSummarized = true) : spec_single_or_folded root q = true := by
  simp [spec_single_or_folded, h, SCodeElement.bSummarized, hb]

mutual
theorem null_single_or_folded (root : SCodeElement) :
    ∀ (c : SCodeElement) (h : Handle) (b : Bool), ce_at root h = some c →
      ∀ w, get_next_element_null c h b = some w → spec_single_or_folded root w = true
  | .single _ _, _, _, _, w, hw => by simp [get_next_element_null] at hw
  | .sec _ _ _ es, h, true, hc, w, hw => by
    simp only [get_next_element_null] at hw
    exact first_single_or_folded root es h (fun e he => by rw [ce_at_cons_sec hc]; exact he)
      w hw
  | .sec _ _ _ es, h, false, hc, w, hw => by
    simp only [get_next_element_null] at hw
    exact last_single_or_folded root es 0 h
      (fun e he => by
        rw [ce_at_cons_sec hc, ← he, List.getLast?_eq_getElem?]
        simp) w hw
theorem first_single_or_folded (root : SCodeElement) :
    ∀ (es : List SCodeElement) (h : Handle),
      (∀ e, es[0]? = some e → ce_at root (0 :: h) = some e) →
      ∀ w, first_element es h = some w → spec_single_or_folded root w = true
  | [], _, _, w, hw => by simp [first_element] at hw
  | .single t l :: _, h, hc, w, hw => by
    simp only [first_element, Option.some.injEq] at hw
    rw [← hw]
    exact single_or_folded_single (hc (.single t l) (by simp))
  | .sec t l info cs :: _, h, hc, w, hw => by
    simp only [first_element] at hw
    have hat := hc (.sec t l info cs) (by simp)
    by_cases hb : info.bSummarized = true
    · simp only [hb, if_true, Option.some.injEq] at hw
      rw [← hw]
      exact single_or_folded_sec hat hb
    · simp only [hb, if_false, Bool.false_eq_true] at hw
      exact null_single_or_folded root (.sec t l info cs) (0 :: h) true hat w hw
theorem last_single_or_folded (root : SCodeElement) :
    ∀ (es : List SCodeElement) (i : Nat) (h : Handle),
      (∀ e, es.getLast? = some e → ce_at root ((i + es.length - 1) :: h) = some e) →
      ∀ w, last_element es i h = some w → spec_single_or_folded root w = true
  | [], _, _, _, w, hw => by simp [last_element] at hw
  | [.single t l], i, h, hc, w, hw => by
    simp only [last_element, Option.some.injEq] at hw
    rw [← hw]
    have := hc (.single t l) (by simp)
    simp only [List.length_singleton, Nat.add_sub_cancel] at this
    exact single_or_folded_single this
  | [.sec t l info cs], i, h, hc, w, hw => by
    simp only [last_element] at hw
    have hat := hc (.sec t l info cs) (by simp)
    simp only [List.length_singleton, Nat.add_sub_cancel] at hat
    by_cases hb : info.bSummarized = true
    · simp only [hb, if_true, Option.some.injEq] at hw
      rw [← hw]
      exact single_or_folded_sec hat hb
    · simp only [hb, if_false, Bool.false_eq_true] at hw
      exact null_single_or_folded root (.sec t l info cs) (i :: h) false hat w hw
  | _ :: e :: es, i, h, hc, w, hw => by
    simp only [last_element] at hw
    refine last_single_or_folded root (e :: es) (i + 1) h (fun e2 he2 => ?_) w hw
    have := hc e2 (by rw [List.getLast?_cons_cons]; exact he2)
    simp only [List.length_cons] at this ⊢
    have heq : i + (es.length + 1 + 1) - 1 = i + 1 + (es.length + 1) - 1 := by omega
    rw [← heq]
    exact this
end

theorem from_single_or_folded (root : SCodeElement) :
    ∀ (p : Handle) (b : Bool) (q : Handle), get_next_element_from root p b = some (some q) →
      spec_single_or_folded root q = true
  | [], _, q, hq => by simp [get_next_element_from] at hq
  | i :: h, true, q, hq => by
    simp only [get_next_element_from] at hq
    cases hc : ce_at root h with
    | none => simp [hc] at hq
    | some c =>
      cases c with
      | single t l => simp [hc] at hq
      | sec t l info es =>
        simp only [hc] at hq
        by_cases hlt : i + 1 < es.length
        · simp only [hlt, if_true] at hq
          cases he : es[i + 1]? with
          | none => simp [he] at hq
          | some e =>
            have hat : ce_at root ((i + 1) :: h) = some e := by
              rw [ce_at_cons_sec hc]; exact he
            cases e with
            | single t2 l2 =>
              simp only [he, Option.some.injEq] at hq
              rw [← hq]
              exact single_or_folded_single hat
            | sec t2 l2 info2 cs =>
              simp only [he] at hq
              by_cases hb : info2.bSummarized = true
              · simp only [hb, Bool.not_true, Bool.false_eq_true, if_false,
                  Option.some.injEq] at hq
                rw [← hq]
                exact single_or_folded_sec hat hb
              · simp only [hb, Bool.not_false, if_true, Option.map_eq_some',
                  Option.some.injEq] at hq
                obtain ⟨w, hw, hwq⟩ := hq
                rw [← hwq]
                exact null_single_or_folded root _ _ true hat w hw
        · simp only [hlt, if_false] at hq
          exact from_single_or_folded root h true q hq
  | i :: h, false, q, hq => by
    simp only [get_next_element_from] at hq
    cases hc : ce_at root h with
    | none => simp [hc] at hq
    | some c =>
      cases c with
      | single t l => simp [hc] at hq
      | sec t l info es =>
        simp only [hc] at hq
        by_cases hlt : i > 0
        · simp only [hlt, if_true] at hq
          cases he : es[i - 1]? with
          | none => simp [he] at hq
          | some e =>
            have hat : ce_at root ((i - 1) :: h) = some e := by
              rw [ce_at_cons_sec hc]; exact he
            cases e with
            | single t2 l2 =>
              simp only [he, Option.some.injEq] at hq
              rw [← hq]
              exact single_or_folded_single hat
            | sec t2 l2 info2 cs =>
              simp only [he] at hq
              by_cases hb : info2.bSummarized = true
              · simp only [hb, Bool.not_true, Bool.false_eq_true, if_false,
                  Option.some.injEq] at hq
                rw [← hq]
                exact single_or_folded_sec hat hb
              · simp only [hb, Bool.not_false, if_true, Option.map_eq_some',
                  Option.some.injEq] at hq
                obtain ⟨w, hw, hwq⟩ := hq
                rw [← hwq]
                exact null_single_or_folded root _ _ false hat w hw
        · simp only [hlt, if_false] at hq
          exact from_single_or_folded root h false q hq

theorem get_next_element_single_or_folded (root : SCodeElement) (this : Handle)
    (pElemFrom : Option Handle) (b : Bool) (q : Handle)
    (hq : get_next_element root this pElemFrom b = some (some q)) :
    spec_single_or_folded root q = true := by
  cases pElemFrom with
  | some p => exact from_single_or_folded root p b q hq
  | none =>
    simp only [get_next_element] at hq
    cases hc : ce_at root this with
    | none => simp [hc] at hq
    | some s =>
      simp only [hc, Option.map_eq_some', Option.some.injEq] at hq
      obtain ⟨w, hw, hwq⟩ := hq
      rw [← hwq]
      exact null_single_or_folded root s this b hc w hw

theorem seek_loop_single_or_folded (root : SCodeElement) (loc : Int) :
    ∀ (fuel : Nat) (p : Handle) (accum : Int) (r : Handle × Int × Bool),
      spec_single_or_folded root p = true → seek_loop root loc fuel p accum = some r →
      spec_single_or_folded root r.1 = true
  | fuel, p, accum, r, hp, hr => by
    unfold seek_loop at hr
    by_cases hlt : accum < loc
    · simp only [hlt, if_true] at hr
      cases fuel with
      | zero => simp at hr
      | succ fuel =>
        simp only at hr
        cases hn : get_next_element_from root p true with
        | none => simp [hn] at hr
        | some o =>
          cases o with
          | none =>
            simp only [hn, Option.some.injEq] at hr
            rw [← hr]; exact hp
          | some q =>
            simp only [hn] at hr
            cases hl : elem_length root q with
            | none => simp [hl] at hr
            | some n =>
              simp only [hl] at hr
              exact seek_loop_single_or_folded root loc fuel q _ r
                (from_single_or_folded root p true q hn) hr
    · simp only [hlt, if_false, Option.some.injEq] at hr
      rw [← hr]; exact hp

theorem walk_forward_single_or_folded (root : SCodeElement) (this : Handle) (loc : Int) :
    ∀ (n : Nat) (pElem : Option Handle) (off : Int) (q : Handle) (d : Int),
      (∀ p, pElem = some p → spec_single_or_folded root p = true) →
      walk_forward root this loc n pElem off = some (some q, d) →
      spec_single_or_folded root q = true
  | 0, pElem, off, q, d, hp, hr => by
    simp only [walk_forward, Option.some.injEq, Prod.mk.injEq] at hr
    exact hp q hr.1
  | n + 1, pElem, off, q, d, hp, hr => by
    cases pElem with
    | none => simp [walk_forward] at hr
    | some p =>
      simp only [walk_forward] at hr
      cases hl : elem_length root p with
      | none => simp [hl] at hr
      | some len =>
        cases hn : get_next_element_from root p true with
        | none => simp [hl, hn] at hr
        | some o =>
          cases o with
          | none =>
            simp only [hl, hn] at hr
            cases ht : elem_length root this with
            | none => simp [ht] at hr
            | some total =>
              simp only [ht, Option.some.injEq, Prod.mk.injEq] at hr
              rw [← hr.1]; exact hp p rfl
          | some q2 =>
            simp only [hl, hn] at hr
            exact walk_forward_single_or_folded root this loc n (some q2) _ q d
              (fun p2 hp2 => by
                rw [← Option.some.inj hp2]
                exact from_single_or_folded root p true q2 hn) hr

theorem walk_backward_single_or_folded (root : SCodeElement) (loc : Int) :
    ∀ (n : Nat) (pElem : Option Handle) (off : Int) (q : Handle) (d : Int),
      (∀ p, pElem = some p → spec_single_or_folded root p = true) →
      walk_backward root loc n pElem off = some (some q, d) →
      spec_single_or_folded root q = true
  | 0, pElem, off, q, d, hp, hr => by
    simp only [walk_backward, Option.some.injEq, Prod.mk.injEq] at hr
    exact hp q hr.1
  | n + 1, pElem, off, q, d, hp, hr => by
    cases pElem with
    | none => simp [walk_backward] at hr
    | some p =>
      simp only [walk_backward] at hr
      cases hl : elem_length root p with
      | none => simp [hl] at hr
      | some len =>
        cases hn : get_next_element_from root p false with
        | none => simp [hl, hn] at hr
        | some o =>
          cases o with
          | none =>
            simp only [hl, hn, Option.some.injEq, Prod.mk.injEq] at hr
            rw [← hr.1]; exact hp p rfl
          | some q2 =>
            simp only [hl, hn] at hr
            exact walk_backward_single_or_folded root loc n (some q2) _ q d
              (fun p2 hp2 => by
                rw [← Option.some.inj hp2]
                exact from_single_or_folded root p false q2 hn) hr

theorem seek_start_single_or_folded (root : SCodeElement) (this : Handle) (loc steps : Int)
    (pElem : Option Handle) (off : Int)
    (hr : seek_start root this loc steps = some (pElem, off)) :
    ∀ p, pElem = some p → spec_single_or_folded root p = true := by
  intro p hp
  subst hp
  unfold seek_start at hr
  cases hf : get_next_element root this none true with
  | none => simp [hf] at hr
  | some o =>
    cases o with
    | none => simp [hf] at hr
    | some first =>
      have hfirst := get_next_element_single_or_folded root this none true first hf
      simp only [hf] at hr
      by_cases hloc : loc > 0
      · simp only [hloc, if_true] at hr
        cases hl : elem_length root first with
        | none => simp [hl] at hr
        | some n =>
          simp only [hl] at hr
          cases hs : seek_loop root loc (ce_count root) first n with
          | none => simp [hs] at hr
          | some r =>
            obtain ⟨pE, accum, bEOSec⟩ := r
            have hpE := seek_loop_single_or_folded root loc _ first n _ hfirst hs
            simp only at hpE
            simp only [hs] at hr
            by_cases h1 : accum > loc
            · simp only [h1, if_true] at hr
              by_cases h2 : steps ≥ 0
              · simp only [h2, if_true] at hr
                cases hc : ce_at root pE with
                | none => simp [hc] at hr
                | some c =>
                  cases c with
                  | single t l => simp [hc] at hr
                  | sec t l info es =>
                    simp only [hc, Option.some.injEq, Prod.mk.injEq] at hr
                    rw [← hr.1]; exact hpE
              · simp only [h2, if_false, Option.some.injEq, Prod.mk.injEq] at hr
                rw [← hr.1]; exact hpE
            · simp only [h1, if_false] at hr
              cases hb : bEOSec with
              | true =>
                simp only [hb, Bool.not_true, Bool.false_eq_true, if_false, Option.some.injEq,
                  Prod.mk.injEq] at hr
                rw [← hr.1]; exact hpE
              | false =>
                simp only [hb, Bool.not_false, if_true] at hr
                by_cases h2 : steps ≥ 0
                · simp only [h2, if_true] at hr
                  cases hn : get_next_element_from root pE true with
                  | none => simp [hn] at hr
                  | some o2 =>
                    simp only [hn, Option.some.injEq, Prod.mk.injEq] at hr
                    exact from_single_or_folded root pE true p (by rw [hn, hr.1])
                · simp only [h2, if_false, Option.some.injEq, Prod.mk.injEq] at hr
                  rw [← hr.1]; exact hpE
      · simp only [hloc, if_false, Option.some.injEq, Prod.mk.injEq] at hr
        rw [← hr.1]; exact hfirst

theorem get_element_at_single_or_folded (root : SCodeElement) (this : Handle)
    (loc steps : Int) (q : Handle) (d : Int)
    (hr : get_element_at root this loc steps = some (some q, d)) :
    spec_single_or_folded root q = true := by
  unfold get_element_at at hr
  cases hs : seek_start root this loc steps with
  | none => simp [hs] at hr
  | some r =>
    obtain ⟨pElem, off⟩ := r
    have hp := seek_start_single_or_folded root this loc steps pElem off hs
    simp only [hs] at hr
    by_cases h1 : steps > 0
    · simp only [h1, if_true] at hr
      exact walk_forward_single_or_folded root this loc _ pElem off q d hp hr
    · simp only [h1, if_false] at hr
      by_cases h2 : steps < 0
      · simp only [h2, if_true] at hr
        exact walk_backward_single_or_folded root loc _ pElem off q d hp hr
      · simp only [h2, if_false, Option.some.injEq, Prod.mk.injEq] at hr
        exact hp q hr.1

theorem single_or_folded_iff (root : SCodeElement) (q : Handle) :
    spec_single_or_folded root q = true ↔
      ∃ e, ce_at root q = some e ∧ (e.bSingle = true ∨ e.bSummarized = true) := by
  unfold spec_single_or_folded
  cases ce_at root q with
  | none => simp
  | some e => simp

/-- C33: on every well-formed tree (sections non-empty), every non-null
element returned by `get_next_element` (called on any section, from any
element or from `NULL`, in either direction) and by `get_element_at` (any
section, line and step count) exists in the tree and is a single-line element
or a section whose `bSummarized` flag is set.  Such elements are returned:
`get_next_element(NULL, true)` on the root returns one, and so does
`get_element_at` on the root for every line of the file and every step
count. -/
theorem returned_element_single_or_folded (root : SCodeElement)
    (hwf : well_formed root = true) :
    (∀ (this : Handle) (pElemFrom : Option Handle) (b : Bool) (q : Handle),
      get_next_element root this pElemFrom b = some (some q) →
      ∃ e, ce_at root q = some e ∧ (e.bSingle = true ∨ e.bSummarized = true)) ∧
    (∀ (this : Handle) (lineLocation steps : Int) (q : Handle) (d : Int),
      get_element_at root this lineLocation steps = some (some q, d) →
      ∃ e, ce_at root q = some e ∧ (e.bSingle = true ∨ e.bSummarized = true)) ∧
    (∃ q, get_next_element root [] none true = some (some q)) ∧
    (∀ (lineLocation steps : Int), 0 ≤ lineLocation → lineLocation < get_length root →
      ∃ q d, get_element_at root [] lineLocation steps = some (some q, d)) := by
  have f := walk_facts_of_well_formed hwf
  have hlen := ce_length_eq_get_length hwf
  refine ⟨?_, ?_, ?_, ?_⟩
  · intro this pElemFrom b q hq
    exact (single_or_folded_iff root q).1
      (get_next_element_single_or_folded root this pElemFrom b q hq)
  · intro this loc steps q d hq
    exact (single_or_folded_iff root q).1
      (get_element_at_single_or_folded root this loc steps q d hq)
  · obtain ⟨v, _, hv⟩ := f.first
    exact ⟨v, hv⟩
  · intro base steps h0 h1
    rw [← hlen] at h1
    by_cases hs : 0 ≤ steps
    · obtain ⟨r, d, hget, _⟩ := get_element_at_total f h1 hs
      exact ⟨r, d, hget⟩
    · obtain ⟨j, v, d, hv, _, hget⟩ := get_element_at_backward f h0 h1 (by omega : steps < 0)
      have hj := lt_length_of_getElem? hv
      by_cases hn : (-steps).toNat ≤ j
      · simp only [hn, if_true] at hget
        have hlt : j - (-steps).toNat < (addressable root).length := by omega
        rw [List.getElem?_eq_getElem hlt] at hget
        exact ⟨_, _, hget⟩
      · simp only [hn, if_false] at hget
        have hlt : 0 < (addressable root).length := by omega
        rw [List.getElem?_eq_getElem hlt] at hget
        exact ⟨_, _, hget⟩

/-- C33 on `sample_tree`: the element after the last line of the
function `f` is the folded sub-block `S2`, not a line inside it; three steps forward
from line 3 end on a single line. -/
theorem returned_element_single_or_folded_witness :
    well_formed sample_tree = true ∧
    get_next_element sample_tree [] (some [2, 1, 0, 1]) true = some (some [1, 1]) ∧
    (∃ e, ce_at sample_tree [1, 1] = some e ∧ (e.bSingle = true ∨ e.bSummarized = true)) ∧
    ∃ q d, get_element_at sample_tree [] 3 3 = some (some q, d) ∧
      ∃ e, ce_at sample_tree q = some e ∧ (e.bSingle = true ∨ e.bSummarized = true) :=
  ⟨by decide,
   by decide,
   (returned_element_single_or_folded sample_tree (by decide)).1 [] (some [2, 1, 0, 1]) true [1, 1]
     (by decide),
   by
     obtain ⟨q, d, h⟩ := (returned_element_single_or_folded sample_tree (by decide)).2.2.2 3 3
       (by decide) (by decide)
     exact ⟨q, d, h,
       (returned_element_single_or_folded sample_tree (by decide)).2.1 [] 3 3 q d h⟩⟩

/-! ## Stepping forward and back (C34) -/

/-- What the element at index `j` of a list of siblings contributes to the
addressable elements of the list. -/
theorem addressable_list_mem :
    ∀ (es : List SCodeElement) (i : Nat) (h : Handle) (j : Nat) (c : SCodeElement),
      es[j]? = some c →
      ∀ v, v ∈ (if c.bSingle = true ∨ c.bSummarized = true then [(i + j) :: h]
          else addressable_in c ((i + j) :: h)) → v ∈ addressable_list es i h
  | [], _, _, _, _, hc, _, _ => by simp at hc
  | e :: es, i, h, 0, c, hc, v, hv => by
    simp only [List.getElem?_cons_zero, Option.some.injEq] at hc
    rw [addressable_list_cons, hc]
    exact List.mem_append_left _ hv
  | e :: es, i, h, j + 1, c, hc, v, hv => by
    simp only [List.getElem?_cons_succ] at hc
    rw [addressable_list_cons]
    apply List.mem_append_right
    apply addressable_list_mem es (i + 1) h j c hc v
    rw [show i + 1 + j = i + (j + 1) by omega]
    exact hv

/-- The addressable elements of an unfolded section whose ancestors are
unfolded are addressable elements of the tree. -/
theorem addressable_in_mem (root : SCodeElement) :
    ∀ (h : Handle) (c : SCodeElement), ce_at root h = some c →
      spec_all_unfolded root h = true →
      ∀ v, v ∈ addressable_in c h → v ∈ addressable root
  | [], c, hc, _, v, hv => by
    simp only [ce_at, Option.some.injEq] at hc
    rw [← hc] at hv
    exact hv
  | j :: h, c, hc, hu, v, hv => by
    simp only [spec_all_unfolded, hc, Bool.and_eq_true] at hu
    cases c with
    | single t l => simp [addressable_in] at hv
    | sec t l info cs =>
      simp only [Bool.not_eq_true'] at hu
      cases hp : ce_at root h with
      | none => simp [ce_at, hp] at hc
      | some p =>
        cases p with
        | single t2 l2 => simp [ce_at, hp] at hc
        | sec t2 l2 info2 es =>
          have hj : es[j]? = some (.sec t l info cs) := by
            rw [← ce_at_cons_sec hp]; exact hc
          apply addressable_in_mem root h _ hp hu.2 v
          simp only [addressable_in]
          apply addressable_list_mem es 0 h j _ hj v
          simp only [SCodeElement.bSingle, SCodeElement.bSummarized, hu.1, Nat.zero_add]
          simpa using hv

theorem addressable_of_spec (root : SCodeElement) (i : Nat) (h : Handle)
    (he : spec_addressable root (i :: h) = true) : (i :: h) ∈ addressable root := by
  simp only [spec_addressable, Bool.and_eq_true] at he
  obtain ⟨hk, hu⟩ := he
  cases hp : ce_at root h with
  | none => simp [ce_at, hp] at hk
  | some p =>
    cases p with
    | single t l => simp [ce_at, hp] at hk
    | sec t l info es =>
      cases hc : es[i]? with
      | none => simp [ce_at, hp, hc] at hk
      | some c =>
        have hat : ce_at root (i :: h) = some c := by rw [ce_at_cons_sec hp]; exact hc
        simp only [hat, Bool.or_eq_true] at hk
        apply addressable_in_mem root h _ hp hu
        simp only [addressable_in]
        apply addressable_list_mem es 0 h i c hc
        simp [hk]

/-- C34: on every well-formed tree, in every fold state, for every
addressable element `e` (a single-line element or folded section all of whose
ancestor sections are unfolded) and the calls made on any section `this`:
`get_next_element(e, true)` and `get_next_element(e, false)` return; if
`get_next_element(e, true)` returns `f != NULL` then
`get_next_element(f, false)` returns `e`; and if `get_next_element(e, false)`
returns `f != NULL` then `get_next_element(f, true)` returns `e`. -/
theorem get_next_element_inverse (root : SCodeElement) (hwf : well_formed root = true)
    (this e : Handle) (he : spec_addressable root e = true) :
    (∃ r, get_next_element root this (some e) true = some r) ∧
    (∃ r, get_next_element root this (some e) false = some r) ∧
    (∀ f, get_next_element root this (some e) true = some (some f) →
      get_next_element root this (some f) false = some (some e)) ∧
    (∀ f, get_next_element root this (some e) false = some (some f) →
      get_next_element root this (some f) true = some (some e)) := by
  have w := walk_facts_of_well_formed hwf
  simp only [get_next_element]
  cases e with
  | nil =>
    refine ⟨⟨_, rfl⟩, ⟨_, rfl⟩, ?_, ?_⟩ <;>
      (intro f hf; simp [get_next_element_from] at hf)
  | cons i h =>
    have hmem := addressable_of_spec root i h he
    obtain ⟨k, hk⟩ := List.mem_iff_getElem?.1 hmem
    have hnext := w.next k (i :: h) hk
    have hprev := w.prev k (i :: h) hk
    refine ⟨⟨_, hnext⟩, ⟨_, hprev⟩, ?_, ?_⟩
    · intro f hf
      rw [hnext] at hf
      have hf2 : (addressable root)[k + 1]? = some f := Option.some.inj hf
      rw [w.prev (k + 1) f hf2]
      simp [hk]
    · intro f hf
      rw [hprev] at hf
      by_cases hk0 : k = 0
      · simp [hk0] at hf
      · simp only [hk0, if_false] at hf
        have hf2 : (addressable root)[k - 1]? = some f := Option.some.inj hf
        rw [w.next (k - 1) f hf2, show k - 1 + 1 = k by omega, hk]

/-- C34 on `sample_tree`, at the closing line of the function `f`: the next
element is the folded sub-block `S2` and the previous one the folded inner
section, and stepping back from either returns the closing line. -/
theorem get_next_element_inverse_witness :
    well_formed sample_tree = true ∧ spec_addressable sample_tree [2, 1, 0, 1] = true ∧
    get_next_element sample_tree [] (some [2, 1, 0, 1]) true = some (some [1, 1]) ∧
    get_next_element sample_tree [] (some [1, 1]) false = some (some [2, 1, 0, 1]) ∧
    get_next_element sample_tree [] (some [2, 1, 0, 1]) false = some (some [1, 1, 0, 1]) ∧
    get_next_element sample_tree [] (some [1, 1, 0, 1]) true = some (some [2, 1, 0, 1]) :=
  ⟨by decide, by decide, by decide,
   (get_next_element_inverse sample_tree (by decide) [] [2, 1, 0, 1] (by decide)).2.2.1 [1, 1]
     (by decide),
   by decide,
   (get_next_element_inverse sample_tree (by decide) [] [2, 1, 0, 1] (by decide)).2.2.2
     [1, 1, 0, 1] (by decide)⟩

/-! ## The lines of the page and the lines of the tree (C35) -/

/-- C35, failing cases: the parse of `preamble_code_page` returns true and the
tree holds seven lines, the line `int a;` of the preamble being lost
(`parse_preamble` stops at it and returns false, which `parse_codebase`
overwrites with the result of the last block); the parse of
`ifdef_across_page` returns true and the tree holds five lines, the line
`#endif` twice (once in the `#ifdef` section that `find_ifdef` adds inside the
function, reaching past the end of the function, and once at the top level). -/
theorem parse_page_lines_differ :
    (parse_page 12 preamble_code_page).map (fun r => (r.1, write_source r.2.1)) =
      some (true, ["// PREAMBLE: p".toList, "// BLOCK: 1".toList, "// BLOCK: 2".toList,
        "// BLOCK: 3".toList, "// BLOCK: 4".toList, "// BLOCK: 5".toList,
        "// BLOCK: 6".toList]) ∧
    (parse_page 12 ifdef_across_page).map (fun r => (r.1, write_source r.2.1)) =
      some (true, ["void f() \x7b".toList, "#ifdef X".toList, "\x7d".toList, "#endif".toList,
        "#endif".toList]) ∧
    (∀ r, parse_page 12 preamble_code_page = some r → write_source r.2.1 ≠ preamble_code_page) ∧
    (∀ r, parse_page 12 ifdef_across_page = some r → write_source r.2.1 ≠ ifdef_across_page) := by
  have h1 : (parse_page 12 preamble_code_page).map (fun r => (r.1, write_source r.2.1)) =
      some (true, ["// PREAMBLE: p".toList, "// BLOCK: 1".toList, "// BLOCK: 2".toList,
        "// BLOCK: 3".toList, "// BLOCK: 4".toList, "// BLOCK: 5".toList,
        "// BLOCK: 6".toList]) := by decide!
  have h2 : (parse_page 12 ifdef_across_page).map (fun r => (r.1, write_source r.2.1)) =
      some (true, ["void f() \x7b".toList, "#ifdef X".toList, "\x7d".toList, "#endif".toList,
        "#endif".toList]) := by decide!
  refine ⟨h1, h2, ?_, ?_⟩
  · intro r hr heq
    rw [hr] at h1
    simp only [Option.map_some', Option.some.injEq, Prod.mk.injEq] at h1
    rw [heq] at h1
    exact absurd h1.2 (by decide)
  · intro r hr heq
    rw [hr] at h2
    simp only [Option.map_some', Option.some.injEq, Prod.mk.injEq] at h2
    rw [heq] at h2
    exact absurd h2.2 (by decide)

/-! ## Pages on which the parse does not return (C37) -/

/-- The loop of `parse_codebase` does not return when the block from the last
block marker to the end of the page is never added. -/
theorem parse_codebase_loop_last_block_none (add : AddSection) (pPage : List STxtLine)
    (length m : Nat) (hm : m < length)
    (hmk : ∃ l, pPage[m]? = some l ∧ tl_find l "// BLOCK:" = 0)
    (hafter : ∀ j l, m < j → j < length → pPage[j]? = some l → ¬ tl_find l "// BLOCK:" = 0)
    (hadd : ∀ st, add CDE_BLOCK m (length - m) true 0 (-1) st = none) :
    ∀ (n offsetPrev offset numBlocks : Nat) (st : SParse), offset < length →
      (offset ≤ m ∨ offsetPrev = m) →
      parse_codebase_loop add pPage 0 length n offsetPrev offset numBlocks st = none
  | 0, _, _, _, _, _, _ => by rw [parse_codebase_loop]
  | n + 1, offsetPrev, offset, numBlocks, st, hlt, hinv => by
    rw [parse_codebase_loop]
    simp only [Nat.zero_add]
    cases hline : pPage[offset]? with
    | none => rfl
    | some pLine =>
      simp only
      by_cases hmark : tl_find pLine "// BLOCK:" = 0
      · have hle : offset ≤ m := by
          by_contra hgt
          exact hafter offset pLine (by omega) hlt hline hmark
        simp only [if_pos hmark]
        cases hprev : add (if numBlocks = 0 then CDE_PREAMBLE else CDE_BLOCK) offsetPrev
            (offset - offsetPrev) true 0 (-1) st with
        | none => rfl
        | some r =>
          simp only [Option.map_some']
          by_cases hend : offset + 1 = length
          · have heq : offset = m := by omega
            simp only [if_pos hend]
            rw [show offset + 1 - offset = length - m by omega, heq, hadd]
          · simp only [if_neg hend]
            exact parse_codebase_loop_last_block_none add pPage length m hm hmk hafter hadd n
              offset (offset + 1) (numBlocks + 1) r.2 (by omega)
              (by
                rcases Nat.lt_or_ge offset m with h | h
                · exact Or.inl (by omega)
                · exact Or.inr (by omega))
      · have hne : offset ≠ m := by
          intro heq
          obtain ⟨l, hl, hlm⟩ := hmk
          rw [← heq, hline] at hl
          rw [Option.some.inj hl] at hmark
          exact hmark hlm
        simp only [if_neg hmark]
        by_cases hend : offset + 1 = length
        · have hp : offsetPrev = m := by
            rcases hinv with h | h
            · omega
            · exact h
          simp only [if_pos hend]
          rw [hp, show offset + 1 - m = length - m by omega, hadd]
        · simp only [if_neg hend]
          exact parse_codebase_loop_last_block_none add pPage length m hm hmk hafter hadd n
            offsetPrev (offset + 1) numBlocks st (by omega)
            (by
              rcases hinv with h | h
              · exact Or.inl (by omega)
              · exact Or.inr h)

/-- A line that starts with `// SUBBLOCK:` does not start with `// BLOCK:`. -/
theorem subblock_marker_not_block (s : STxtLine) (hs : tl_find s "// SUBBLOCK:" = 0) :
    ¬ tl_find s "// BLOCK:" = 0 := by
  intro hb
  rw [tl_find_eq_zero_iff] at hs hb
  have h := List.prefix_of_prefix_length_le hb hs (by decide)
  revert h
  decide

/-- C37, failing pages: on every dialect page whose last two lines are a
`// BLOCK:` marker and a `// SUBBLOCK:` marker, whatever its length and the
lines in between, the root parse returns within no bound: the last block is a
block range of two lines ending with a sub-block marker, on which the loop of
`parse_block` comes back to the same line in the same state (third part), so
neither `parse_block` (second part) nor `parse_codebase` (first part)
returns. -/
theorem parse_page_trailing_subblock_diverges (p b s : STxtLine) (mid : List STxtLine)
    (hp : tl_find p "// PREAMBLE:" = 0) (hb : tl_find b "// BLOCK:" = 0)
    (hs : tl_find s "// SUBBLOCK:" = 0) :
    (∀ fuel, parse_page fuel (p :: mid ++ [b, s]) = none) ∧
    (∀ (add : AddSection) (fuel : Nat) (st : SParse),
      parse_block add fuel (p :: mid ++ [b, s]) (mid.length + 1) 2 st = none) ∧
    (∀ (add : AddSection) (fuel n : Nat) (bSub : Bool) (st : SParse),
      parse_block_loop add fuel (p :: mid ++ [b, s]) (mid.length + 1) 2 (n + 1)
          (mid.length + 1 + 1) bSub st =
        parse_block_loop add fuel (p :: mid ++ [b, s]) (mid.length + 1) 2 n
          (mid.length + 1 + 1) true st) := by
  have hb1 : (p :: mid ++ [b, s])[mid.length + 1]? = some b := by
    rw [List.getElem?_append_right (by simp)]
    simp
  have hs1 : (p :: mid ++ [b, s])[mid.length + 1 + 1]? = some s := by
    rw [List.getElem?_append_right (by simp)]
    simp
  have hlen : (p :: mid ++ [b, s]).length = mid.length + 3 := by simp
  refine ⟨?_, ?_, ?_⟩
  · intro fuel
    have hblk := add_section_trailing_marker_none (p :: mid ++ [b, s]) (mid.length + 1) b s
      hb1 hs1 hs fuel
    have hcb : new_base_section.pThis.type = CDE_CODEBASE := rfl
    have h0 : (p :: mid ++ [b, s])[0]? = some p := by simp
    simp only [parse_page, parse, hcb, if_true, parse_codebase, h0, hp, hlen]
    rw [parse_codebase_loop_last_block_none (add_section (p :: mid ++ [b, s]) fuel)
      (p :: mid ++ [b, s]) (mid.length + 3) (mid.length + 1) (by omega) ⟨b, hb1, hb⟩ ?_ ?_
      fuel 0 1 0 new_base_section (by omega) (Or.inl (by omega))]
    · rfl
    · intro j l hj1 hj2 hl
      have hj : j = mid.length + 1 + 1 := by omega
      rw [hj, hs1] at hl
      rw [← Option.some.inj hl]
      exact subblock_marker_not_block s hs
    · intro st
      rw [show mid.length + 3 - (mid.length + 1) = 2 by omega]
      exact hblk st
  · intro add fuel st
    simp only [parse_block, hb1]
    split
    · rfl
    · rw [parse_block_loop_trailing_marker_none add fuel (p :: mid ++ [b, s]) (mid.length + 1)
        2 (mid.length + 1 + 1) s hs1 hs (by omega)]
  · intro add fuel n bSub st
    exact parse_block_loop_trailing_marker add fuel (p :: mid ++ [b, s]) (mid.length + 1) 2
      (mid.length + 1 + 1) n bSub st s hs1 hs (by omega)

/-- C37 on the page of a preamble line and six block markers whose last block
ends with `// SUBBLOCK: a`. -/
theorem parse_page_trailing_subblock_diverges_witness :
    (tl_find "// PREAMBLE: p".toList "// PREAMBLE:" = 0 ∧
      tl_find "// BLOCK: 6".toList "// BLOCK:" = 0 ∧
      tl_find "// SUBBLOCK: a".toList "// SUBBLOCK:" = 0) ∧
    (∀ fuel, parse_page fuel six_block_trailing_page = none) ∧
    (∀ (add : AddSection) (fuel : Nat) (st : SParse),
      parse_block add fuel six_block_trailing_page 6 2 st = none) ∧
    (∀ (add : AddSection) (fuel n : Nat) (bSub : Bool) (st : SParse),
      parse_block_loop add fuel six_block_trailing_page 6 2 (n + 1) 7 bSub st =
        parse_block_loop add fuel six_block_trailing_page 6 2 n 7 true st) :=
  ⟨⟨by decide, by decide, by decide⟩,
   parse_page_trailing_subblock_diverges "// PREAMBLE: p".toList "// BLOCK: 6".toList
     "// SUBBLOCK: a".toList
     ["// BLOCK: 1".toList, "// BLOCK: 2".toList, "// BLOCK: 3".toList, "// BLOCK: 4".toList,
      "// BLOCK: 5".toList] (by decide) (by decide) (by decide)⟩

/-! ## Symbol locations and file offsets (C36) -/

theorem spec_rel_sec_cons (es : List SCodeElement) (i : Nat) (q : Handle) :
    spec_rel_sec es (i :: q) =
      match spec_rel_sec es q with
      | some cs =>
        match cs[i]? with
        | some (.sec _ _ _ ds) => some ds
        | _ => none
      | none => none := rfl

theorem spec_rel_offset_cons (es : List SCodeElement) (i : Nat) (q : Handle) :
    spec_rel_offset es (i :: q) =
      match spec_rel_sec es q, spec_rel_offset es q with
      | some cs, some o =>
        match cs[i]? with
        | some e =>
          if e.type ≠ CDE_CODEBASE then some (o + get_length_list (cs.take i)) else none
        | none => none
      | _, _ => none := rfl

theorem getElem?_lt_of_some {α : Type} (l : List α) (i : Nat) (a : α) (h : l[i]? = some a) :
    i < l.length := by
  by_contra hc
  rw [List.getElem?_eq_none (by omega)] at h
  cases h

theorem spec_rel_sec_append (es ext : List SCodeElement) :
    ∀ (q : Handle) (cs : List SCodeElement), q ≠ [] → spec_rel_sec es q = some cs →
      spec_rel_sec (es ++ ext) q = some cs
  | [], _, hq, _ => absurd rfl hq
  | [i], cs, _, h => by
    rw [spec_rel_sec_cons] at h ⊢
    simp only [spec_rel_sec] at h ⊢
    cases hi : es[i]? with
    | none => simp [hi] at h
    | some e =>
      rw [List.getElem?_append_left (getElem?_lt_of_some es i e hi), hi]
      rw [hi] at h
      exact h
  | i :: j :: q, cs, _, h => by
    rw [spec_rel_sec_cons] at h ⊢
    cases hq : spec_rel_sec es (j :: q) with
    | none => simp [hq] at h
    | some ds =>
      rw [hq] at h
      rw [spec_rel_sec_append es ext (j :: q) ds (by simp) hq]
      exact h

/-- Elements appended to the section leave the anchors as they are. -/
theorem spec_rel_offset_append (es ext : List SCodeElement) :
    ∀ (p : Handle) (o : Int), p ≠ [] → spec_rel_offset es p = some o →
      spec_rel_offset (es ++ ext) p = some o
  | [], _, hp, _ => absurd rfl hp
  | [i], o, _, h => by
    rw [spec_rel_offset_cons] at h ⊢
    simp only [spec_rel_offset, spec_rel_sec] at h ⊢
    cases hi : es[i]? with
    | none => simp [hi] at h
    | some e =>
      have hlt := getElem?_lt_of_some es i e hi
      rw [List.getElem?_append_left hlt, hi]
      rw [hi] at h
      rw [List.take_append_of_le_length (by omega)]
      exact h
  | i :: j :: q, o, _, h => by
    rw [spec_rel_offset_cons] at h ⊢
    cases hs : spec_rel_sec es (j :: q) with
    | none => simp [hs] at h
    | some cs =>
      cases ho : spec_rel_offset es (j :: q) with
      | none => simp [hs, ho] at h
      | some o1 =>
        rw [hs, ho] at h
        rw [spec_rel_sec_append es ext (j :: q) cs (by simp) hs,
          spec_rel_offset_append es ext (j :: q) o1 (by simp) ho]
        exact h

theorem spec_loc_anchored_append (es ext : List SCodeElement) (H : Handle) (O : Int)
    (loc : SLocation) (h : spec_loc_anchored es H O loc) :
    spec_loc_anchored (es ++ ext) H O loc := by
  obtain ⟨p, hp, hh, ho⟩ := h
  exact ⟨p, hp, hh, spec_rel_offset_append es ext p _ hp ho⟩

theorem spec_rel_sec_child (es : List SCodeElement) (t : Nat) (l : STxtLine) (info : SSecInfo)
    (cs : List SCodeElement) :
    ∀ (q : Handle), spec_rel_sec (es ++ [.sec t l info cs]) (q ++ [es.length]) =
      spec_rel_sec cs q
  | [] => by
    simp [spec_rel_sec]
  | i :: q => by
    rw [List.cons_append, spec_rel_sec_cons, spec_rel_sec_cons,
      spec_rel_sec_child es t l info cs q]

/-- The anchors of a section appended as the last element. -/
theorem spec_rel_offset_child (es : List SCodeElement) (t : Nat) (l : STxtLine)
    (info : SSecInfo) (cs : List SCodeElement) (ht : t ≠ CDE_CODEBASE) :
    ∀ (p : Handle) (o : Int), spec_rel_offset cs p = some o →
      spec_rel_offset (es ++ [.sec t l info cs]) (p ++ [es.length]) =
        some (o + get_length_list es)
  | [], o, h => by
    simp only [spec_rel_offset, Option.some.injEq] at h
    simp [spec_rel_offset, spec_rel_sec, SCodeElement.type, ht, ← h]
  | i :: q, o, h => by
    rw [spec_rel_offset_cons] at h
    rw [List.cons_append, spec_rel_offset_cons, spec_rel_sec_child es t l info cs q]
    cases hs : spec_rel_sec cs q with
    | none => simp [hs] at h
    | some ds =>
      cases ho : spec_rel_offset cs q with
      | none => simp [hs, ho] at h
      | some o1 =>
        rw [hs, ho] at h
        rw [spec_rel_offset_child es t l info cs ht q o1 ho]
        simp only at h ⊢
        cases hi : ds[i]? with
        | none => simp [hi] at h
        | some e =>
          rw [hi] at h
          simp only at h ⊢
          by_cases hty : e.type ≠ CDE_CODEBASE
          · rw [if_pos hty] at h ⊢
            simp only [Option.some.injEq] at h ⊢
            omega
          · rw [if_neg hty] at h
            cases h

theorem spec_loc_anchored_child (es : List SCodeElement) (t : Nat) (l : STxtLine)
    (info : SSecInfo) (cs : List SCodeElement) (ht : t ≠ CDE_CODEBASE) (H : Handle) (O : Int)
    (loc : SLocation)
    (h : spec_loc_anchored cs (es.length :: H) (O + get_length_list es) loc) :
    spec_loc_anchored (es ++ [.sec t l info cs]) H O loc := by
  obtain ⟨p, hp, hh, ho⟩ := h
  refine ⟨p ++ [es.length], by simp, by simp [hh], ?_⟩
  rw [spec_rel_offset_child es t l info cs ht p _ ho]
  congr 1
  omega

/-- The last element of a section is anchored at the length of the elements
before it. -/
theorem last_location_anchored (s : SCodeSection) (loc : SLocation)
    (hty : ∀ e ∈ s.ppElements, e.type ≠ CDE_CODEBASE) (h : s.last_location = some loc) :
    spec_loc_anchored s.ppElements s.handle s.fileOffset loc := by
  unfold SCodeSection.last_location at h
  split at h
  · cases h
  · rename_i hlen
    cases h
    have hlt : s.ppElements.length - 1 < s.ppElements.length := by omega
    refine ⟨[s.ppElements.length - 1], by simp, rfl, ?_⟩
    simp only [spec_rel_offset, spec_rel_sec, List.getElem?_eq_getElem hlt]
    rw [if_pos (hty _ (List.getElem_mem _))]
    rw [List.dropLast_eq_take]
    congr 1
    omega

theorem spec_rel_sec_last_info (pre : List SCodeElement) (t : Nat) (l : STxtLine)
    (info info1 : SSecInfo) (cs : List SCodeElement) :
    ∀ (q : Handle), q ≠ [] →
      spec_rel_sec (pre ++ [.sec t l info1 cs]) q = spec_rel_sec (pre ++ [.sec t l info cs]) q
  | [], hq => absurd rfl hq
  | [i], _ => by
    rw [spec_rel_sec_cons, spec_rel_sec_cons]
    simp only [spec_rel_sec]
    rcases Nat.lt_trichotomy i pre.length with hlt | heq | hgt
    · rw [List.getElem?_append_left hlt, List.getElem?_append_left hlt]
    · subst heq
      simp
    · rw [List.getElem?_eq_none (by simp; omega), List.getElem?_eq_none (by simp; omega)]
  | i :: j :: q, _ => by
    rw [spec_rel_sec_cons (pre ++ [SCodeElement.sec t l info1 cs]) i (j :: q),
      spec_rel_sec_cons (pre ++ [SCodeElement.sec t l info cs]) i (j :: q),
      spec_rel_sec_last_info pre t l info info1 cs (j :: q) (by simp)]

/-- The anchors do not depend on the section fields of the last element. -/
theorem spec_rel_offset_last_info (pre : List SCodeElement) (t : Nat) (l : STxtLine)
    (info info1 : SSecInfo) (cs : List SCodeElement) :
    ∀ (p : Handle), p ≠ [] →
      spec_rel_offset (pre ++ [.sec t l info1 cs]) p =
        spec_rel_offset (pre ++ [.sec t l info cs]) p
  | [], hp => absurd rfl hp
  | [i], _ => by
    rw [spec_rel_offset_cons, spec_rel_offset_cons]
    simp only [spec_rel_offset, spec_rel_sec]
    rcases Nat.lt_trichotomy i pre.length with hlt | heq | hgt
    · rw [List.getElem?_append_left hlt, List.getElem?_append_left hlt,
        List.take_append_of_le_length (by omega), List.take_append_of_le_length (by omega)]
    · subst heq
      simp [SCodeElement.type]
    · rw [List.getElem?_eq_none (by simp; omega), List.getElem?_eq_none (by simp; omega)]
  | i :: j :: q, _ => by
    rw [spec_rel_offset_cons (pre ++ [SCodeElement.sec t l info1 cs]) i (j :: q),
      spec_rel_offset_cons (pre ++ [SCodeElement.sec t l info cs]) i (j :: q),
      spec_rel_sec_last_info pre t l info info1 cs (j :: q) (by simp),
      spec_rel_offset_last_info pre t l info info1 cs (j :: q) (by simp)]

theorem spec_loc_anchored_last_info (pre : List SCodeElement) (t : Nat) (l : STxtLine)
    (info info1 : SSecInfo) (cs : List SCodeElement) (H : Handle) (O : Int) (loc : SLocation)
    (h : spec_loc_anchored (pre ++ [.sec t l info cs]) H O loc) :
    spec_loc_anchored (pre ++ [.sec t l info1 cs]) H O loc := by
  obtain ⟨p, hp, hh, ho⟩ := h
  exact ⟨p, hp, hh, by rw [spec_rel_offset_last_info pre t l info info1 cs p hp]; exact ho⟩

/-- In a tree whose root has type `CDE_CODEBASE`, the anchors in the element
list of the root are the file offsets. -/
theorem spec_rel_offset_root (l : STxtLine) (info : SSecInfo) (es : List SCodeElement) :
    ∀ (q : Handle) (cs : List SCodeElement) (o : Int), spec_rel_sec es q = some cs →
      spec_rel_offset es q = some o →
      (∃ t l1 info1, ce_at (.sec CDE_CODEBASE l info es) q = some (.sec t l1 info1 cs)) ∧
        get_file_offset (.sec CDE_CODEBASE l info es) q = some o
  | [], cs, o, hs, ho => by
    simp only [spec_rel_sec, Option.some.injEq] at hs
    simp only [spec_rel_offset, Option.some.injEq] at ho
    subst hs
    subst ho
    exact ⟨⟨_, _, _, rfl⟩, by simp [get_file_offset, SCodeElement.type]⟩
  | i :: q, cs, o, hs, ho => by
    rw [spec_rel_sec_cons] at hs
    rw [spec_rel_offset_cons] at ho
    cases hq : spec_rel_sec es q with
    | none => simp [hq] at hs
    | some ds =>
      cases hoq : spec_rel_offset es q with
      | none => simp [hq, hoq] at ho
      | some o1 =>
        obtain ⟨⟨t, l1, info1, hat⟩, hoff⟩ := spec_rel_offset_root l info es q ds o1 hq hoq
        rw [hq] at hs
        rw [hq, hoq] at ho
        simp only at hs ho
        cases hi : ds[i]? with
        | none => simp [hi] at hs
        | some e =>
          rw [hi] at hs ho
          simp only at ho
          have hati : ce_at (.sec CDE_CODEBASE l info es) (i :: q) = some e := by
            simp only [ce_at, hat, hi]
          cases e with
          | single t2 l2 => simp at hs
          | sec t2 l2 info2 cs2 =>
            simp only [Option.some.injEq] at hs
            subst hs
            by_cases hty : (SCodeElement.sec t2 l2 info2 cs2).type ≠ CDE_CODEBASE
            · rw [if_pos hty] at ho
              refine ⟨⟨_, _, _, hati⟩, ?_⟩
              rw [get_file_offset, hati, hat]
              simp only [if_pos hty, hoff, SCodeElement.ppElements]
              rw [← get_length_list_eq_sum]
              exact ho
            · rw [if_neg hty] at ho
              cases ho

/-- A location anchored in the element list of the root of a tree satisfies
`fileOffset == ce_file_offset(element)`. -/
theorem spec_location_ok_of_anchored (l : STxtLine) (info : SSecInfo)
    (es : List SCodeElement) (loc : SLocation) (h : spec_loc_anchored es [] 0 loc) :
    spec_location_ok (.sec CDE_CODEBASE l info es) loc = true := by
  obtain ⟨p, hp, hh, ho⟩ := h
  cases p with
  | nil => exact absurd rfl hp
  | cons i q =>
    rw [spec_rel_offset_cons] at ho
    cases hq : spec_rel_sec es q with
    | none => simp [hq] at ho
    | some ds =>
      cases hoq : spec_rel_offset es q with
      | none => simp [hq, hoq] at ho
      | some o1 =>
        obtain ⟨⟨t, l1, info1, hat⟩, hoff⟩ := spec_rel_offset_root l info es q ds o1 hq hoq
        rw [hq, hoq] at ho
        simp only at ho
        cases hi : ds[i]? with
        | none => simp [hi] at ho
        | some e =>
          rw [hi] at ho
          simp only at ho
          have hati : ce_at (.sec CDE_CODEBASE l info es) (i :: q) = some e := by
            simp only [ce_at, hat, hi]
          by_cases hty : e.type ≠ CDE_CODEBASE
          · rw [if_pos hty] at ho
            simp only [List.append_nil] at hh
            simp only [spec_location_ok, hh, ce_file_offset, hati, hat, if_pos hty, hoff,
              SCodeElement.ppElements]
            rw [← get_length_list_eq_sum, ho]
            simp
          · rw [if_neg hty] at ho
            cases ho

theorem tree_locations_list_append (a b : List SCodeElement) :
    tree_locations_list (a ++ b) = tree_locations_list a ++ tree_locations_list b := by
  induction a with
  | nil => simp [tree_locations_list]
  | cons e es ih => simp [tree_locations_list, ih]

theorem tree_locations_list_singles (t : Nat) (ls : List STxtLine) :
    tree_locations_list (ls.map (fun l => SCodeElement.single t l)) = [] := by
  induction ls with
  | nil => simp [tree_locations_list]
  | cons l ls ih => simp [tree_locations_list, tree_locations, ih]

/-! ### The invariant under the elementary operations of the parser -/

theorem spec_vars_ok_mono {Q Q1 : SLocation → Prop} (h : ∀ loc, Q loc → Q1 loc)
    (vs : List SVar) (hv : spec_vars_ok Q vs) : spec_vars_ok Q1 vs :=
  fun v hm loc hl => h loc (hv v hm loc hl)

theorem spec_func_ok_mono {Q Q1 : SLocation → Prop} (h : ∀ loc, Q loc → Q1 loc)
    (f : SSymFunc) (hf : spec_func_ok Q f) : spec_func_ok Q1 f :=
  ⟨fun loc hl => h loc (hf.1 loc hl), spec_vars_ok_mono h _ hf.2⟩

theorem spec_class_ok_mono {Q Q1 : SLocation → Prop} (h : ∀ loc, Q loc → Q1 loc)
    (c : SClass) (hc : spec_class_ok Q c) : spec_class_ok Q1 c :=
  ⟨fun loc hl => h loc (hc.1 loc hl), fun f hf => spec_func_ok_mono h f (hc.2.1 f hf),
    fun f hf => spec_func_ok_mono h f (hc.2.2.1 f hf),
    fun f hf => spec_func_ok_mono h f (hc.2.2.2.1 f hf), spec_vars_ok_mono h _ hc.2.2.2.2⟩

theorem spec_struct_ok_mono {Q Q1 : SLocation → Prop} (h : ∀ loc, Q loc → Q1 loc)
    (s : SStruct) (hs : spec_struct_ok Q s) : spec_struct_ok Q1 s :=
  ⟨fun loc hl => h loc (hs.1 loc hl), fun f hf => spec_func_ok_mono h f (hs.2.1 f hf),
    spec_vars_ok_mono h _ hs.2.2⟩

theorem spec_syms_ok_mono {Q Q1 : SLocation → Prop} (h : ∀ loc, Q loc → Q1 loc)
    (syms : SSymbolSet) (hs : spec_syms_ok Q syms) : spec_syms_ok Q1 syms :=
  ⟨fun c hc => spec_class_ok_mono h c (hs.1 c hc),
    fun s hm => spec_struct_ok_mono h s (hs.2.1 s hm),
    fun f hf => spec_func_ok_mono h f (hs.2.2 f hf)⟩

theorem spec_vars_ok_append {Q : SLocation → Prop} (a b : List SVar) (ha : spec_vars_ok Q a)
    (hb : spec_vars_ok Q b) : spec_vars_ok Q (a ++ b) := by
  intro v hv loc hl
  rcases List.mem_append.mp hv with h | h
  · exact ha v h loc hl
  · exact hb v h loc hl

/-- Variables without a location. -/
theorem spec_vars_ok_of_none {Q : SLocation → Prop} (vs : List SVar)
    (h : ∀ v ∈ vs, v.pLocation = none) : spec_vars_ok Q vs := by
  intro v hv loc hl
  rw [h v hv] at hl
  cases hl

theorem spec_loc_here_mono (P : SLocation → Prop) (s s1 : SCodeSection)
    (ext : List SCodeElement) (hH : s1.handle = s.handle) (hO : s1.fileOffset = s.fileOffset)
    (he : s1.ppElements = s.ppElements ++ ext) (loc : SLocation)
    (h : spec_loc_here P s loc) : spec_loc_here P s1 loc := by
  rcases h with h | h
  · exact Or.inl h
  · right
    rw [hH, hO, he]
    exact spec_loc_anchored_append _ ext _ _ loc h

theorem spec_locs_step_refl (st : SParse) : spec_locs_step st st :=
  ⟨rfl, rfl, rfl, fun _ h => h⟩

theorem spec_locs_step_trans (a b c : SParse) (h1 : spec_locs_step a b)
    (h2 : spec_locs_step b c) : spec_locs_step a c :=
  ⟨h2.1.trans h1.1, h2.2.1.trans h1.2.1, h2.2.2.1.trans h1.2.2.1,
    fun P h => h2.2.2.2 P (h1.2.2.2 P h)⟩

/-- Appending elements that hold no location and are not of type
`CDE_CODEBASE`, whatever is done to the line and the fold flag, is a step. -/
theorem spec_locs_step_append (st st1 : SParse) (ext : List SCodeElement)
    (hH : st1.pThis.handle = st.pThis.handle)
    (hO : st1.pThis.fileOffset = st.pThis.fileOffset)
    (hT : st1.pThis.type = st.pThis.type) (hV : st1.pThis.pVarSet = st.pThis.pVarSet)
    (hS : st1.pSymSet = st.pSymSet) (he : st1.pThis.ppElements = st.pThis.ppElements ++ ext)
    (hty : ∀ e ∈ ext, e.type ≠ CDE_CODEBASE) (hloc : tree_locations_list ext = []) :
    spec_locs_step st st1 := by
  refine ⟨hH, hO, hT, fun P hinv => ?_⟩
  obtain ⟨h1, h2, h3, h4⟩ := hinv
  have hmono := spec_loc_here_mono P st.pThis st1.pThis ext hH hO he
  refine ⟨?_, ?_, ?_, ?_⟩
  · rw [hS]; exact spec_syms_ok_mono hmono _ h1
  · rw [hV]; exact spec_vars_ok_mono hmono _ h2
  · intro loc hl
    rw [he, tree_locations_list_append, hloc, List.append_nil] at hl
    exact hmono loc (h3 loc hl)
  · intro e hm
    rw [he] at hm
    rcases List.mem_append.mp hm with h | h
    · exact h4 e h
    · exact hty e h

theorem spec_locs_step_add_single (st : SParse) (t : Nat) (l : STxtLine)
    (ht : t ≠ CDE_CODEBASE) :
    spec_locs_step st { st with pThis := { st.pThis with
      ppElements := st.pThis.ppElements ++ [.single t l] } } :=
  spec_locs_step_append st _ [.single t l] rfl rfl rfl rfl rfl rfl
    (by
      intro e he
      simp only [List.mem_singleton] at he
      rw [he]
      exact ht)
    (by simp [tree_locations_list, tree_locations])

/-- A change of the section that keeps place, type, variables and elements. -/
theorem spec_locs_step_fields (st st1 : SParse) (hH : st1.pThis.handle = st.pThis.handle)
    (hO : st1.pThis.fileOffset = st.pThis.fileOffset)
    (hT : st1.pThis.type = st.pThis.type) (hV : st1.pThis.pVarSet = st.pThis.pVarSet)
    (hS : st1.pSymSet = st.pSymSet) (he : st1.pThis.ppElements = st.pThis.ppElements) :
    spec_locs_step st st1 :=
  spec_locs_step_append st st1 [] hH hO hT hV hS (by simp [he]) (by simp) rfl

/-- The last element of the section is a location the invariant allows. -/
theorem spec_loc_inv_last (P : SLocation → Prop) (st : SParse) (hinv : spec_loc_inv P st)
    (loc : SLocation) (h : st.pThis.last_location = some loc) :
    spec_loc_here P st.pThis loc :=
  Or.inr (last_location_anchored st.pThis loc hinv.2.2.2 h)

/-- A change of the symbol set alone that keeps what the locations satisfy,
given that the last element of the section does, is a step. -/
theorem spec_locs_step_syms (st : SParse) (syms1 : SSymbolSet)
    (h : ∀ Q : SLocation → Prop, spec_syms_ok Q st.pSymSet →
      (∀ loc, st.pThis.last_location = some loc → Q loc) → spec_syms_ok Q syms1) :
    spec_locs_step st { st with pSymSet := syms1 } :=
  ⟨rfl, rfl, rfl, fun P hinv =>
    ⟨h _ hinv.1 (fun loc hl => spec_loc_inv_last P st hinv loc hl), hinv.2.1, hinv.2.2.1,
      hinv.2.2.2⟩⟩

/-- A change of the variable set of the section alone. -/
theorem spec_locs_step_vars (st : SParse) (vs : List SVar)
    (h : ∀ Q : SLocation → Prop, spec_vars_ok Q st.pThis.pVarSet →
      (∀ loc, st.pThis.last_location = some loc → Q loc) → spec_vars_ok Q vs) :
    spec_locs_step st { st with pThis := { st.pThis with pVarSet := vs } } :=
  ⟨rfl, rfl, rfl, fun P hinv =>
    ⟨hinv.1, h _ hinv.2.1 (fun loc hl => spec_loc_inv_last P st hinv loc hl), hinv.2.2.1,
      hinv.2.2.2⟩⟩

theorem spec_locs_step_of_add (add : AddSection) (hadd : spec_add_locs add)
    (type index length : Nat) (b : Bool) (lt li : Int) (st : SParse) (r : Bool × SParse)
    (ht : type ≠ CDE_CODEBASE) (h : add type index length b lt li st = some r) :
    spec_locs_step st r.2 :=
  hadd type index length b lt li st r ht h

/-! ### Symbol sets -/

theorem mem_of_mem_modify {α : Type} (f : α → α) :
    ∀ (i : Nat) (l : List α) (x : α), x ∈ List.modify f i l → x ∈ l ∨ ∃ y ∈ l, x = f y
  | i, [], x, h => by
    cases i <;> simp at h
  | 0, a :: l, x, h => by
    simp only [List.modify_zero_cons, List.mem_cons] at h
    rcases h with h | h
    · exact Or.inr ⟨a, List.mem_cons_self a l, h⟩
    · exact Or.inl (List.mem_cons_of_mem a h)
  | i + 1, a :: l, x, h => by
    simp only [List.modify_succ_cons, List.mem_cons] at h
    rcases h with h | h
    · exact Or.inl (by rw [h]; exact List.mem_cons_self a l)
    · rcases mem_of_mem_modify f i l x h with h1 | ⟨y, hy, hxy⟩
      · exact Or.inl (List.mem_cons_of_mem a h1)
      · exact Or.inr ⟨y, List.mem_cons_of_mem a hy, hxy⟩

theorem mem_add_class : ∀ (cs : List SClass) (a x : SClass),
    x ∈ (add_class cs a).1 → x ∈ cs ∨ x = a
  | [], a, x, h => by
    simp only [add_class, List.mem_singleton] at h
    exact Or.inr h
  | c :: cs, a, x, h => by
    simp only [add_class] at h
    split at h
    · simp only [List.mem_cons] at h
      rcases h with h | h
      · exact Or.inr h
      · exact Or.inl (List.mem_cons_of_mem c h)
    · simp only [List.mem_cons] at h
      rcases h with h | h
      · exact Or.inl (by rw [h]; exact List.mem_cons_self c cs)
      · rcases mem_add_class cs a x h with h1 | h1
        · exact Or.inl (List.mem_cons_of_mem c h1)
        · exact Or.inr h1

theorem mem_add_struct : ∀ (ss : List SStruct) (a x : SStruct),
    x ∈ (add_struct ss a).1 → x ∈ ss ∨ x = a
  | [], a, x, h => by
    simp only [add_struct, List.mem_singleton] at h
    exact Or.inr h
  | c :: cs, a, x, h => by
    simp only [add_struct] at h
    split at h
    · simp only [List.mem_cons] at h
      rcases h with h | h
      · exact Or.inr h
      · exact Or.inl (List.mem_cons_of_mem c h)
    · simp only [List.mem_cons] at h
      rcases h with h | h
      · exact Or.inl (by rw [h]; exact List.mem_cons_self c cs)
      · rcases mem_add_struct cs a x h with h1 | h1
        · exact Or.inl (List.mem_cons_of_mem c h1)
        · exact Or.inr h1

theorem mem_add_func : ∀ (fs : List SSymFunc) (a : SSymFunc) (r : List SSymFunc × Nat)
    (x : SSymFunc), add_func fs a = some r → x ∈ r.1 → x ∈ fs ∨ x = a
  | [], a, r, x, h, hx => by
    simp only [add_func, Option.some.injEq] at h
    rw [← h] at hx
    simp only [List.mem_singleton] at hx
    exact Or.inr hx
  | f :: fs, a, r, x, h, hx => by
    simp only [add_func] at h
    split at h
    · cases h
    · cases h
      simp only [List.mem_cons] at hx
      rcases hx with hx | hx
      · exact Or.inr hx
      · exact Or.inl (List.mem_cons_of_mem f hx)
    · split at h
      · cases h
      · rename_i fs1 i hrec
        cases h
        simp only [List.mem_cons] at hx
        rcases hx with hx | hx
        · exact Or.inl (by rw [hx]; exact List.mem_cons_self f fs)
        · rcases mem_add_func fs a (fs1, i) x hrec hx with h1 | h1
          · exact Or.inl (List.mem_cons_of_mem f h1)
          · exact Or.inr h1

theorem spec_class_ok_new (Q : SLocation → Prop) (n : STxtLine) (loc : Option SLocation)
    (h : ∀ l, loc = some l → Q l) : spec_class_ok Q (new_class n loc) := by
  refine ⟨h, ?_, ?_, ?_, ?_⟩
  · intro f hf; simp [new_class] at hf
  · intro f hf; simp [new_class] at hf
  · intro f hf; simp [new_class] at hf
  · intro v hv; simp [new_class] at hv

theorem spec_struct_ok_new (Q : SLocation → Prop) (n : STxtLine) (loc : Option SLocation)
    (h : ∀ l, loc = some l → Q l) : spec_struct_ok Q (new_struct n loc) := by
  refine ⟨h, ?_, ?_⟩
  · intro f hf; simp [new_struct] at hf
  · intro v hv; simp [new_struct] at hv

theorem spec_syms_ok_add_class (Q : SLocation → Prop) (syms : SSymbolSet) (c : SClass)
    (hs : spec_syms_ok Q syms) (hc : spec_class_ok Q c) :
    spec_syms_ok Q { syms with pClassSet := (add_class syms.pClassSet c).1 } := by
  refine ⟨fun x hx => ?_, hs.2.1, hs.2.2⟩
  rcases mem_add_class _ _ _ hx with h | h
  · exact hs.1 x h
  · rw [h]; exact hc

theorem spec_syms_ok_add_struct (Q : SLocation → Prop) (syms : SSymbolSet) (s : SStruct)
    (hs : spec_syms_ok Q syms) (hc : spec_struct_ok Q s) :
    spec_syms_ok Q { syms with pStructSet := (add_struct syms.pStructSet s).1 } := by
  refine ⟨hs.1, fun x hx => ?_, hs.2.2⟩
  rcases mem_add_struct _ _ _ hx with h | h
  · exact hs.2.1 x h
  · rw [h]; exact hc

theorem spec_syms_ok_modify_class (Q : SLocation → Prop) (syms : SSymbolSet)
    (f : SClass → SClass) (i : Nat) (hs : spec_syms_ok Q syms)
    (hf : ∀ c, spec_class_ok Q c → spec_class_ok Q (f c)) :
    spec_syms_ok Q { syms with pClassSet := List.modify f i syms.pClassSet } := by
  refine ⟨fun x hx => ?_, hs.2.1, hs.2.2⟩
  rcases mem_of_mem_modify f i _ x hx with h | ⟨y, hy, hxy⟩
  · exact hs.1 x h
  · rw [hxy]; exact hf y (hs.1 y hy)

theorem spec_syms_ok_modify_struct (Q : SLocation → Prop) (syms : SSymbolSet)
    (f : SStruct → SStruct) (i : Nat) (hs : spec_syms_ok Q syms)
    (hf : ∀ c, spec_struct_ok Q c → spec_struct_ok Q (f c)) :
    spec_syms_ok Q { syms with pStructSet := List.modify f i syms.pStructSet } := by
  refine ⟨hs.1, fun x hx => ?_, hs.2.2⟩
  rcases mem_of_mem_modify f i _ x hx with h | ⟨y, hy, hxy⟩
  · exact hs.2.1 x h
  · rw [hxy]; exact hf y (hs.2.1 y hy)

theorem spec_syms_ok_modify_func (Q : SLocation → Prop) (syms : SSymbolSet)
    (f : SSymFunc → SSymFunc) (i : Nat) (hs : spec_syms_ok Q syms)
    (hf : ∀ c, spec_func_ok Q c → spec_func_ok Q (f c)) :
    spec_syms_ok Q { syms with pFuncSet := List.modify f i syms.pFuncSet } := by
  refine ⟨hs.1, hs.2.1, fun x hx => ?_⟩
  rcases mem_of_mem_modify f i _ x hx with h | ⟨y, hy, hxy⟩
  · exact hs.2.2 x h
  · rw [hxy]; exact hf y (hs.2.2 y hy)

theorem spec_func_ok_set_location (Q : SLocation → Prop) (loc : SLocation) (hl : Q loc)
    (f : SSymFunc) (hf : spec_func_ok Q f) : spec_func_ok Q { f with pLocation := some loc } :=
  ⟨fun l h => by
    simp only [Option.some.injEq] at h
    rw [← h]; exact hl, hf.2⟩

theorem spec_funcs_ok_modify (Q : SLocation → Prop) (f : SSymFunc → SSymFunc) (i : Nat)
    (fs : List SSymFunc) (hfs : ∀ g ∈ fs, spec_func_ok Q g)
    (hf : ∀ g, spec_func_ok Q g → spec_func_ok Q (f g)) :
    ∀ g ∈ List.modify f i fs, spec_func_ok Q g := by
  intro g hg
  rcases mem_of_mem_modify f i fs g hg with h | ⟨y, hy, hxy⟩
  · exact hfs g h
  · rw [hxy]; exact hf y (hfs y hy)

/-- Writing an allowed location into the function of a slot keeps the symbol
set allowed. -/
theorem spec_syms_ok_set_func_location (Q : SLocation → Prop) (syms : SSymbolSet)
    (slot : SFuncSlot) (loc : SLocation) (hs : spec_syms_ok Q syms) (hl : Q loc) :
    spec_syms_ok Q (set_func_location syms slot loc) := by
  have hset := spec_func_ok_set_location Q loc hl
  cases slot with
  | nowhere => exact hs
  | global i => exact spec_syms_ok_modify_func Q syms _ i hs hset
  | classConstr c =>
    refine spec_syms_ok_modify_class Q syms _ c hs (fun k hk => ?_)
    refine ⟨hk.1, fun f hf => ?_, hk.2.2.1, hk.2.2.2.1, hk.2.2.2.2⟩
    simp only [Option.map_eq_some'] at hf
    obtain ⟨g, hg, hgf⟩ := hf
    rw [← hgf]
    exact hset g (hk.2.1 g hg)
  | classDestr c =>
    refine spec_syms_ok_modify_class Q syms _ c hs (fun k hk => ?_)
    refine ⟨hk.1, hk.2.1, fun f hf => ?_, hk.2.2.2.1, hk.2.2.2.2⟩
    simp only [Option.map_eq_some'] at hf
    obtain ⟨g, hg, hgf⟩ := hf
    rw [← hgf]
    exact hset g (hk.2.2.1 g hg)
  | classFunc c i =>
    refine spec_syms_ok_modify_class Q syms _ c hs (fun k hk => ?_)
    exact ⟨hk.1, hk.2.1, hk.2.2.1, spec_funcs_ok_modify Q _ i _ hk.2.2.2.1 hset, hk.2.2.2.2⟩
  | structFunc s i =>
    refine spec_syms_ok_modify_struct Q syms _ s hs (fun k hk => ?_)
    exact ⟨hk.1, spec_funcs_ok_modify Q _ i _ hk.2.1 hset, hk.2.2⟩

theorem spec_class_ok_add_func (Q : SLocation → Prop) (c c1 : SClass) (f : SSymFunc)
    (slot : Option (Option Nat × Bool)) (hc : spec_class_ok Q c) (hf : spec_func_ok Q f)
    (h : c.add_func f = some (c1, slot)) : spec_class_ok Q c1 := by
  unfold SClass.add_func at h
  split at h
  · cases h
  · cases h
    refine ⟨hc.1, fun g hg => ?_, hc.2.2.1, hc.2.2.2.1, hc.2.2.2.2⟩
    simp only [Option.some.injEq] at hg
    rw [← hg]; exact hf
  · split at h
    · cases h
    · split at h
      · cases h
      · cases h
        refine ⟨hc.1, hc.2.1, fun g hg => ?_, hc.2.2.2.1, hc.2.2.2.2⟩
        simp only [Option.some.injEq] at hg
        rw [← hg]; exact hf
      · split at h
        · cases h
        · rename_i fs i hadd
          cases h
          refine ⟨hc.1, hc.2.1, hc.2.2.1, fun g hg => ?_, hc.2.2.2.2⟩
          rcases mem_add_func _ _ _ g hadd hg with h1 | h1
          · exact hc.2.2.2.1 g h1
          · rw [h1]; exact hf

/-- Registering a function whose locations are allowed keeps the symbol set
allowed. -/
theorem spec_syms_ok_register_func (Q : SLocation → Prop) (st : SParse) (b : Bool)
    (cn : TxtLinePtr) (f : SSymFunc) (syms1 : SSymbolSet) (slot : SFuncSlot)
    (hs : spec_syms_ok Q st.pSymSet) (hf : spec_func_ok Q f)
    (h : register_func st b cn f = some (syms1, slot)) : spec_syms_ok Q syms1 := by
  have hclass : ∀ (i : Nat) (r : SSymbolSet × SFuncSlot),
      (match st.pSymSet.pClassSet[i]? with
        | none => none
        | some c =>
          match c.add_func f with
          | none => none
          | some (c1, slot) =>
            some ({ st.pSymSet with pClassSet := st.pSymSet.pClassSet.set i c1 },
              match slot with
              | some (some j, _) => SFuncSlot.classFunc i j
              | some (none, true) => SFuncSlot.classConstr i
              | some (none, false) => SFuncSlot.classDestr i
              | none => SFuncSlot.nowhere)) = some r → spec_syms_ok Q r.1 := by
    intro i r hr
    split at hr
    · cases hr
    · rename_i c hc
      split at hr
      · cases hr
      · rename_i c1 sl hadd
        cases hr
        refine ⟨fun x hx => ?_, hs.2.1, hs.2.2⟩
        rcases List.mem_or_eq_of_mem_set hx with h1 | h1
        · exact hs.1 x h1
        · rw [h1]
          exact spec_class_ok_add_func Q c c1 f sl (hs.1 c (List.getElem?_mem hc)) hf hadd
  unfold register_func at h
  simp only at h
  split at h
  · split at h
    · split at h
      · exact hclass _ _ h
      · cases h; exact hs
    · split at h
      · cases h
      · rename_i fs i hadd
        cases h
        refine ⟨hs.1, hs.2.1, fun g hg => ?_⟩
        rcases mem_add_func _ _ _ g hadd hg with h1 | h1
        · exact hs.2.2 g h1
        · rw [h1]; exact hf
  · split at h
    · split at h
      · cases h
      · exact hclass _ _ h
    · split at h
      · split at h
        · cases h
        · rename_i s hsat
          split at h
          · cases h
          · rename_i fs i hadd
            cases h
            have hsm : s ∈ st.pSymSet.pStructSet := by
              unfold struct_at at hsat
              split at hsat
              · cases hsat
              · exact List.getElem?_mem hsat
            refine ⟨hs.1, fun x hx => ?_, hs.2.2⟩
            rcases List.mem_or_eq_of_mem_set hx with h1 | h1
            · exact hs.2.1 x h1
            · rw [h1]
              have hk := hs.2.1 s hsm
              refine ⟨hk.1, fun g hg => ?_, hk.2.2⟩
              rcases mem_add_func _ _ _ g hadd hg with h2 | h2
              · exact hk.2.1 g h2
              · rw [h2]; exact hf
      · cases h; exact hs

/-- Registering a variable whose location is that of the last element of the
section is a step. -/
theorem register_var_locs (st st1 : SParse) (b : Bool) (v : SVar)
    (hv : ∀ loc, v.pLocation = some loc → st.pThis.last_location = some loc)
    (h : register_var st b v = some st1) : spec_locs_step st st1 := by
  have hvar : ∀ (Q : SLocation → Prop) (vs : List SVar), spec_vars_ok Q vs →
      (∀ loc, st.pThis.last_location = some loc → Q loc) → spec_vars_ok Q (add_var vs v) := by
    intro Q vs hvs hq
    refine spec_vars_ok_append vs [v] hvs ?_
    intro w hw loc hl
    simp only [List.mem_singleton] at hw
    rw [hw] at hl
    exact hq loc (hv loc hl)
  unfold register_var at h
  split at h
  · split at h
    · cases h
    · cases h
      refine spec_locs_step_syms st _ (fun Q hs hq => ?_)
      refine spec_syms_ok_modify_class Q _ _ _ hs (fun c hc => ?_)
      exact ⟨hc.1, hc.2.1, hc.2.2.1, hc.2.2.2.1, hvar Q _ hc.2.2.2.2 hq⟩
  · split at h
    · split at h
      · cases h
      · cases h
        refine spec_locs_step_syms st _ (fun Q hs hq => ?_)
        refine spec_syms_ok_modify_struct Q _ _ _ hs (fun c hc => ?_)
        exact ⟨hc.1, hc.2.1, hvar Q _ hc.2.2 hq⟩
    · cases h
      exact spec_locs_step_vars st _ (fun Q hs hq => hvar Q _ hs hq)

theorem extract_params_zero (pPage : List STxtLine) (pSymSet : SSymbolSet)
    (index fnDefnLength : Nat) (pLine : STxtLine) (idx : Nat) (vars : List SVar) :
    extract_params pPage pSymSet index fnDefnLength 0 pLine idx vars = none := rfl

theorem extract_params_succ (pPage : List STxtLine) (pSymSet : SSymbolSet)
    (index fnDefnLength : Nat) (n : Nat) (pLine : STxtLine) (idx : Nat) (vars : List SVar) :
    extract_params pPage pSymSet index fnDefnLength (n + 1) pLine idx vars =
      match (if tl_isempty pLine then
          if idx + 1 - index < fnDefnLength then
            (pPage[idx + 1]?).map (fun l => some (tl_trim l, idx + 1))
          else some none
        else some (some (pLine, idx)) : Option (Option (STxtLine × Nat))) with
      | none => none
      | some none => some vars
      | some (some (pLine1, idx1)) =>
        match extract_var pLine1 pSymSet with
        | none => none
        | some ev =>
          if ev.bFound then
            if ev.cSeparator ≠ some ')' then
              extract_params pPage pSymSet index fnDefnLength n ev.pLine idx1
                (add_var vars (new_var ev.pVarName ev.pVarType none))
            else some (add_var vars (new_var ev.pVarName ev.pVarType none))
          else some vars := rfl

/-- The parameters read by `extract_params` have no location. -/
theorem extract_params_no_location (pPage : List STxtLine) (pSymSet : SSymbolSet)
    (index fnDefnLength : Nat) (n : Nat) :
    ∀ (pLine : STxtLine) (idx : Nat) (vars r : List SVar),
      (∀ v ∈ vars, v.pLocation = none) →
      extract_params pPage pSymSet index fnDefnLength n pLine idx vars = some r →
      ∀ v ∈ r, v.pLocation = none := by
  induction n with
  | zero =>
    intro pLine idx vars r _ h
    rw [extract_params_zero] at h
    cases h
  | succ n ih =>
    intro pLine idx vars r hvars h
    rw [extract_params_succ] at h
    split at h
    · cases h
    · cases h; exact hvars
    · rename_i pLine1 idx1 hnext
      split at h
      · cases h
      · rename_i ev hev
        have hvars1 : ∀ v ∈ add_var vars (new_var ev.pVarName ev.pVarType none),
            v.pLocation = none := by
          intro v hv
          simp only [add_var, List.mem_append, List.mem_singleton] at hv
          rcases hv with hv | hv
          · exact hvars v hv
          · rw [hv]; rfl
        split at h
        · split at h
          · exact ih _ _ _ r hvars1 h
          · cases h; exact hvars1
        · cases h; exact hvars

/-- Adding parameters without location to the section of the last element is
a step. -/
theorem add_params_to_last_locs (st : SParse) (p : SCodeSection) (vars : List SVar)
    (hvars : ∀ v ∈ vars, v.pLocation = none)
    (h : add_params_to_last st.pThis vars = some p) :
    spec_locs_step st { st with pThis := p } := by
  unfold add_params_to_last at h
  split at h
  · cases h; exact spec_locs_step_refl _
  · split at h
    · rename_i t l info es hlast
      cases h
      have hsplit := List.dropLast_append_getLast? _ (Option.mem_def.mpr hlast)
      refine ⟨rfl, rfl, rfl, fun P hinv => ?_⟩
      obtain ⟨h1, h2, h3, h4⟩ := hinv
      have hmono : ∀ loc, spec_loc_here P st.pThis loc →
          spec_loc_here P { st.pThis with ppElements := st.pThis.ppElements.dropLast ++
            [.sec t l { info with pVarSet := info.pVarSet ++ vars } es] } loc := by
        intro loc hl
        rcases hl with hl | hl
        · exact Or.inl hl
        · right
          rw [← hsplit] at hl
          exact spec_loc_anchored_last_info _ t l info _ es _ _ loc hl
      refine ⟨spec_syms_ok_mono hmono _ h1, spec_vars_ok_mono hmono _ h2, ?_, ?_⟩
      · intro loc hl
        simp only [tree_locations_list_append, tree_locations_list, tree_locations,
          List.append_nil, List.mem_append, var_locations, List.filterMap_append] at hl
        rw [← hsplit] at h3
        simp only [tree_locations_list_append, tree_locations_list, tree_locations,
          List.append_nil, List.mem_append, var_locations] at h3
        rcases hl with hl | (hl | hl) | hl
        · exact hmono loc (h3 loc (Or.inl hl))
        · exact hmono loc (h3 loc (Or.inr (Or.inl hl)))
        · simp only [List.mem_filterMap] at hl
          obtain ⟨v, hv, hvl⟩ := hl
          rw [hvars v hv] at hvl
          cases hvl
        · exact hmono loc (h3 loc (Or.inr (Or.inr hl)))
      · intro e he
        simp only [List.mem_append, List.mem_singleton] at he
        rcases he with he | he
        · exact h4 e (List.mem_of_mem_dropLast he)
        · rw [he]
          have hm : SCodeElement.sec t l info es ∈ st.pThis.ppElements := by
            rw [← hsplit]
            simp
          exact h4 (SCodeElement.sec t l info es) hm
    · cases h

/-! ### The classifiers keep the invariant -/

theorem add_comment_section_locs (pThis : SCodeSection) (pPage : List STxtLine)
    (index length : Nat) (s : SCodeSection) (syms : SSymbolSet)
    (h : add_comment_section pThis pPage index length = some s) :
    spec_locs_step ⟨pThis, syms⟩ ⟨s, syms⟩ := by
  unfold add_comment_section at h
  split at h
  · cases h
  · split at h
    · split at h
      · cases h
        refine spec_locs_step_append _ _ _ rfl rfl rfl rfl rfl rfl ?_ ?_
        · intro e he
          simp only [List.mem_singleton] at he
          rw [he]
          exact (by decide : CDE_COMMENT ≠ CDE_CODEBASE)
        · simp only [tree_locations_list, tree_locations, var_locations, List.filterMap_nil,
            List.nil_append, List.append_nil]
          exact tree_locations_list_singles _ _
      · cases h
    · cases h

theorem find_comment_locs (pThis : SCodeSection) (pPage : List STxtLine) (index : Nat)
    (r : Bool × Nat × SCodeSection) (syms : SSymbolSet)
    (h : find_comment pThis pPage index = some r) :
    spec_locs_step ⟨pThis, syms⟩ ⟨r.2.2, syms⟩ := by
  unfold find_comment at h
  cases hf : pPage[index]? with
  | none => rw [hf] at h; cases h
  | some line =>
    rw [hf] at h
    simp only at h
    have hsingle : ∀ r : Bool × Nat × SCodeSection,
        (pThis.add_single CDE_S_COMMENT line).map (fun s => (true, 1, s)) = some r →
        spec_locs_step ⟨pThis, syms⟩ ⟨r.2.2, syms⟩ := by
      intro r hr
      obtain ⟨_, rfl⟩ := add_single_map_eq_some _ _ _ _ _ hr
      exact spec_locs_step_add_single ⟨pThis, syms⟩ _ _ (by decide)
    split at h
    · split at h
      · split at h
        · exact hsingle _ h
        · split at h
          · rename_i idx hrun
            cases ha : add_comment_section pThis pPage index (idx - index) with
            | none => rw [ha] at h; cases h
            | some s =>
              rw [ha] at h
              cases h
              exact add_comment_section_locs pThis pPage index _ s syms ha
          · cases h; exact spec_locs_step_refl _
      · exact hsingle _ h
    · split at h
      · split at h
        · rename_i idx hrun
          cases ha : add_comment_section pThis pPage index (idx + 1 - index) with
          | none => rw [ha] at h; cases h
          | some s =>
            rw [ha] at h
            cases h
            exact add_comment_section_locs pThis pPage index _ s syms ha
        · cases h; exact spec_locs_step_refl _
      · cases h; exact spec_locs_step_refl _

theorem find_enum_locs (pPage : List STxtLine) (add : AddSection)
    (hadd : spec_add_locs add) (index : Nat) (st : SParse) (r : Bool × Nat × SParse)
    (h : find_enum add pPage index st = some r) : spec_locs_step st r.2.2 := by
  unfold find_enum at h
  cases hf : pPage[index]? with
  | none => rw [hf] at h; cases h
  | some line =>
    rw [hf] at h
    simp only at h
    split at h
    · split at h
      · cases h
      · cases h; exact spec_locs_step_refl _
      · rename_i b len hbp
        split at h
        · cases h
        · rename_i b1 st1 ha
          cases h
          exact spec_locs_step_of_add add hadd _ _ _ _ _ _ st _ (by decide) ha
    · cases h; exact spec_locs_step_refl _

theorem spec_struct_ok_set_location (Q : SLocation → Prop) (loc : SLocation) (hl : Q loc)
    (s : SStruct) (hs : spec_struct_ok Q s) :
    spec_struct_ok Q { s with pLocation := some loc } :=
  ⟨fun l h => by
    simp only [Option.some.injEq] at h
    rw [← h]; exact hl, hs.2.1, hs.2.2⟩

theorem spec_class_ok_set_location (Q : SLocation → Prop) (loc : SLocation) (hl : Q loc)
    (c : SClass) (hc : spec_class_ok Q c) :
    spec_class_ok Q { c with pLocation := some loc } :=
  ⟨fun l h => by
    simp only [Option.some.injEq] at h
    rw [← h]; exact hl, hc.2.1, hc.2.2.1, hc.2.2.2.1, hc.2.2.2.2⟩

theorem find_typedef_struct_locs (pPage : List STxtLine) (add : AddSection)
    (hadd : spec_add_locs add) (index : Nat) (st : SParse) (r : Bool × Nat × SParse)
    (h : find_typedef_struct add pPage index st = some r) : spec_locs_step st r.2.2 := by
  unfold find_typedef_struct at h
  cases hf : pPage[index]? with
  | none => rw [hf] at h; cases h
  | some line =>
    rw [hf] at h
    simp only at h
    split at h
    · split at h
      · cases h
      · cases h; exact spec_locs_step_refl _
      · rename_i b len hbp
        split at h
        · cases h
        · rename_i b1 st1 ha
          have hs2 := spec_locs_step_of_add add hadd _ _ _ _ _ _ _ _ (by decide) ha
          have hs1 : spec_locs_step st st1 := by
            refine spec_locs_step_trans _ _ _ ?_ hs2
            exact spec_locs_step_syms st _ (fun Q hs _ =>
              spec_syms_ok_add_struct Q st.pSymSet _ hs
                (spec_struct_ok_new Q _ none (fun l hl => by cases hl)))
          split at h
          · cases h
          · rename_i loc hloc
            cases h
            refine spec_locs_step_trans _ _ _ hs1 (spec_locs_step_syms st1 _ (fun Q hs hq => ?_))
            exact spec_syms_ok_modify_struct Q _ _ _ hs
              (spec_struct_ok_set_location Q loc (hq loc hloc))
    · cases h; exact spec_locs_step_refl _

theorem find_class_locs (pPage : List STxtLine) (add : AddSection)
    (hadd : spec_add_locs add) (index : Nat) (st : SParse) (r : Bool × Nat × SParse)
    (h : find_class add pPage index st = some r) : spec_locs_step st r.2.2 := by
  unfold find_class at h
  cases hf : pPage[index]? with
  | none => rw [hf] at h; cases h
  | some line =>
    rw [hf] at h
    simp only at h
    split at h
    · split at h
      · split at h
        · cases h
        · rename_i pThis1 hadd1
          obtain ⟨_, rfl⟩ := add_single_eq_some _ _ _ _ hadd1
          split at h
          · cases h
          · rename_i loc hloc
            cases h
            refine spec_locs_step_trans _ _ _
              (spec_locs_step_add_single st CDE_S_FWDDECL_STR line (by decide))
              (spec_locs_step_syms _ _ (fun Q hs hq => ?_))
            exact spec_syms_ok_add_class Q st.pSymSet _ hs
              (spec_class_ok_new Q _ (some loc) (fun l hl => by
                simp only [Option.some.injEq] at hl
                rw [← hl]
                exact hq loc hloc))
      · split at h
        · cases h
        · cases h; exact spec_locs_step_refl _
        · rename_i b len hbp
          split at h
          · cases h
          · rename_i b1 st1 ha
            have hs2 := spec_locs_step_of_add add hadd _ _ _ _ _ _ _ _ (by decide) ha
            have hs1 : spec_locs_step st st1 := by
              refine spec_locs_step_trans _ _ _ ?_ hs2
              exact spec_locs_step_syms st _ (fun Q hs _ =>
                spec_syms_ok_add_class Q st.pSymSet _ hs
                  (spec_class_ok_new Q _ none (fun l hl => by cases hl)))
            split at h
            · cases h
            · rename_i loc hloc
              cases h
              refine spec_locs_step_trans _ _ _ hs1
                (spec_locs_step_syms st1 _ (fun Q hs hq => ?_))
              exact spec_syms_ok_modify_class Q _ _ _ hs
                (spec_class_ok_set_location Q loc (hq loc hloc))
    · cases h; exact spec_locs_step_refl _

theorem find_ifdef_locs (pPage : List STxtLine) (add : AddSection)
    (hadd : spec_add_locs add) (index : Nat) (st : SParse) (r : Bool × Nat × SParse)
    (h : find_ifdef add pPage index st = some r) : spec_locs_step st r.2.2 := by
  unfold find_ifdef at h
  cases hf : pPage[index]? with
  | none => rw [hf] at h; cases h
  | some line =>
    rw [hf] at h
    simp only at h
    split at h
    · split at h
      · cases h
      · cases h; exact spec_locs_step_refl _
      · rename_i idx bEnd hfe
        split at h
        · cases h
        · rename_i bFound st1 ha
          have hs := spec_locs_step_of_add add hadd _ _ _ _ _ _ _ _ (by decide) ha
          split at h
          · cases h; exact hs
          · split at h
            · cases h
            · cases h; exact hs
            · split at h
              · cases h
              · rename_i bFound2 st2 ha2
                cases h
                exact spec_locs_step_trans _ _ _ hs
                  (spec_locs_step_of_add add hadd _ _ _ _ _ _ _ _ (by decide) ha2)
    · cases h; exact spec_locs_step_refl _

theorem find_L1L2_locs (pPage : List STxtLine) (add : AddSection)
    (hadd : spec_add_locs add) (index : Nat) (st : SParse) (r : Bool × Nat × SParse)
    (h : find_L1L2 add pPage index st = some r) : spec_locs_step st r.2.2 := by
  unfold find_L1L2 at h
  cases hf : pPage[index]? with
  | none => rw [hf] at h; cases h
  | some line =>
    rw [hf] at h
    simp only at h
    split at h
    · split at h
      · cases h
      · cases h; exact spec_locs_step_refl _
      · rename_i idx hbr
        split at h
        · cases h
        · cases h; exact spec_locs_step_refl _
        · split at h
          · cases h
          · rename_i b1 st1 ha
            cases h
            refine spec_locs_step_of_add add hadd _ _ _ _ _ _ _ _ ?_ ha
            split <;> [decide; split <;> [decide; split <;> decide]]
    · cases h; exact spec_locs_step_refl _

theorem find_var_decl_locs (pPage : List STxtLine) (add : AddSection)
    (hadd : spec_add_locs add) (fuel index : Nat) (st : SParse) (r : Bool × Nat × SParse)
    (h : find_var_decl add fuel pPage index st = some r) : spec_locs_step st r.2.2 := by
  cases hf : pPage[index]? with
  | none => simp [find_var_decl, hf] at h
  | some line =>
  have hvar : ∀ (b : Bool) (ev : SExtractVar) (r : Bool × Nat × SParse),
      (match st.pThis.add_single CDE_S_VARDECL line with
        | none => none
        | some pThis1 =>
          match pThis1.last_location with
          | none => none
          | some loc =>
            (register_var { st with pThis := pThis1 } b
              (new_var ev.pVarName ev.pVarType (some loc))).map (fun st1 => (true, 1, st1))) =
        some r → spec_locs_step st r.2.2 := by
    intro b ev r h
    split at h
    · cases h
    · rename_i pThis1 hadd1
      obtain ⟨_, rfl⟩ := add_single_eq_some _ _ _ _ hadd1
      split at h
      · cases h
      · rename_i loc hloc
        cases hr : register_var { st with pThis := { st.pThis with
            ppElements := st.pThis.ppElements ++ [.single CDE_S_VARDECL line] } } b
            (new_var ev.pVarName ev.pVarType (some loc)) with
        | none => rw [hr] at h; cases h
        | some st1 =>
          rw [hr] at h
          cases h
          refine spec_locs_step_trans _ _ _
            (spec_locs_step_add_single st CDE_S_VARDECL line (by decide))
            (register_var_locs _ _ _ _ ?_ hr)
          intro l hl
          simp only [new_var, Option.some.injEq] at hl
          rw [← hl]
          exact hloc
  have hfunc : ∀ (ev : SExtractVar) (bFnDecl : Bool) (fnDefnLength nLength : Nat)
      (bInlineBrace : Bool) (r : Bool × Nat × SParse),
      (match extract_var line st.pSymSet with
        | none => none
        | some ev2 =>
          if ev2.bFound then
            match extract_params pPage st.pSymSet index fnDefnLength fuel ev2.pLine index []
              with
            | none => none
            | some vars =>
              let pFunc : SSymFunc := ⟨vars, ev2.pVarType, none, ev2.pVarName⟩
              match register_func st (st.pThis.type == CDE_CODEBASE ||
                  st.pThis.type == CDE_BLOCK || st.pThis.type == CDE_SUBBLOCK)
                  ev.pClassName pFunc with
              | none => none
              | some (syms1, slot) =>
                let st1 : SParse := { st with pSymSet := syms1 }
                let added : Option SParse :=
                  if bFnDecl then
                    (st1.pThis.add_single CDE_S_FWDDECL_FN line).map
                      (fun p => { st1 with pThis := p })
                  else
                    let sec : Option SParse :=
                      if ev.pClassName ≠ .null then
                        match syms1.pClassSet.findIdx?
                            (fun c => class_name_equals ev.pClassName c.pName) with
                        | some i =>
                          (add CDE_CLASS_FNDEFN index nLength bInlineBrace 2 i st1).map
                            (fun r => r.2)
                        | none => some st1
                      else
                        (add CDE_FNDEFN index nLength bInlineBrace 0 (-1) st1).map
                          (fun r => r.2)
                    match sec with
                    | none => none
                    | some st2 =>
                      (add_params_to_last st2.pThis vars).map
                        (fun p => { st2 with pThis := p })
                match added with
                | none => none
                | some st3 =>
                  match st3.pThis.last_location with
                  | none => none
                  | some loc =>
                    some (true, nLength,
                      { st3 with pSymSet := set_func_location st3.pSymSet slot loc })
          else some (false, nLength, st)) = some r → spec_locs_step st r.2.2 := by
    intro ev bFnDecl fnDefnLength nLength bInlineBrace r h
    cases hev2 : extract_var line st.pSymSet with
    | none => rw [hev2] at h; cases h
    | some ev2 =>
      rw [hev2] at h
      dsimp only at h
      split at h
      · split at h
        · cases h
        · rename_i vars hvars
          have hnone := extract_params_no_location pPage st.pSymSet index fnDefnLength fuel _ _
            [] vars (by simp) hvars
          split at h
          · cases h
          · rename_i syms1 slot hreg
            have hs1 : spec_locs_step st { st with pSymSet := syms1 } :=
              spec_locs_step_syms st syms1 (fun Q hs _ =>
                spec_syms_ok_register_func Q st _ _ _ syms1 slot hs
                  ⟨fun l hl => (by cases hl), spec_vars_ok_of_none vars hnone⟩ hreg)
            have hfin : ∀ (st3 : SParse) (loc : SLocation),
                spec_locs_step st st3 → st3.pThis.last_location = some loc →
                spec_locs_step st
                  { st3 with pSymSet := set_func_location st3.pSymSet slot loc } := by
              intro st3 loc hs3 hloc
              exact spec_locs_step_trans _ _ _ hs3 (spec_locs_step_syms st3 _
                (fun Q hs hq => spec_syms_ok_set_func_location Q _ slot loc hs (hq loc hloc)))
            cases bFnDecl with
            | true =>
              rw [if_pos rfl] at h
              split at h
              · cases h
              · rename_i st3 hadded
                rw [Option.map_eq_some'] at hadded
                obtain ⟨p1, hp1, rfl⟩ := hadded
                obtain ⟨_, rfl⟩ := add_single_eq_some _ _ _ _ hp1
                split at h
                · cases h
                · rename_i loc hloc
                  cases h
                  exact hfin _ loc (spec_locs_step_trans _ _ _ hs1
                    (spec_locs_step_add_single _ CDE_S_FWDDECL_FN line (by decide))) hloc
            | false =>
              rw [if_neg (by decide)] at h
              split at h
              · cases h
              · rename_i st3 hadded
                split at h
                · cases h
                · rename_i loc hloc
                  cases h
                  refine hfin st3 loc ?_ hloc
                  split at hadded
                  · cases hadded
                  · rename_i st2 hsec
                    cases hp : add_params_to_last st2.pThis vars with
                    | none => rw [hp] at hadded; cases hadded
                    | some p =>
                      rw [hp] at hadded
                      cases hadded
                      have hs2 : spec_locs_step st st2 := by
                        split at hsec
                        · split at hsec
                          · rename_i i hi
                            cases ha : add CDE_CLASS_FNDEFN index nLength bInlineBrace 2 i
                                ⟨st.pThis, syms1⟩ with
                            | none => rw [ha] at hsec; cases hsec
                            | some rr =>
                              rw [ha] at hsec
                              cases hsec
                              exact spec_locs_step_trans _ _ _ hs1
                                (spec_locs_step_of_add add hadd _ _ _ _ _ _ _ _ (by decide) ha)
                          · cases hsec
                            exact hs1
                        · cases ha : add CDE_FNDEFN index nLength bInlineBrace 0 (-1)
                              ⟨st.pThis, syms1⟩ with
                          | none => rw [ha] at hsec; cases hsec
                          | some rr =>
                            rw [ha] at hsec
                            cases hsec
                            exact spec_locs_step_trans _ _ _ hs1
                              (spec_locs_step_of_add add hadd _ _ _ _ _ _ _ _ (by decide) ha)
                      exact spec_locs_step_trans _ _ _ hs2
                        (add_params_to_last_locs st2 p vars hnone hp)
      · cases h
        exact spec_locs_step_refl _
  unfold find_var_decl at h
  rw [hf] at h
  dsimp only at h
  cases hev : extract_var (tl_trim line) st.pSymSet with
  | none => rw [hev] at h; cases h
  | some ev =>
    rw [hev] at h
    dsimp only at h
    split at h
    · split at h
      · exact hvar _ ev r h
      · split at h
        · split at h
          · exact hvar _ ev r h
          · exact hfunc ev true 1 1 true r h
        · split at h
          · cases h; exact spec_locs_step_refl _
          · rename_i idx hidx
            split at h
            · cases h
            · cases h; exact spec_locs_step_refl _
            · rename_i secLength hsl
              exact hfunc ev false (idx - index + 1) (idx + secLength - index)
                (decide (idx = index)) r h
    · cases h; exact spec_locs_step_refl _

theorem find_startstring_step_locs (pPage : List STxtLine) (add : AddSection)
    (hadd : spec_add_locs add) (index idx : Nat) (prev : Int) (st : SParse)
    (r : Bool × Bool × Nat × Nat × SParse)
    (h : find_startstring_step add pPage index idx prev st = some r) :
    spec_locs_step st r.2.2.2.2 := by
  unfold find_startstring_step at h
  cases hf : pPage[idx]? with
  | none => rw [hf] at h; cases h
  | some line =>
    rw [hf] at h
    dsimp only at h
    split at h
    · obtain ⟨_, rfl⟩ := add_single_map_eq_some _ _ _ _ _ h
      exact spec_locs_step_add_single _ _ _ (by decide)
    · cases hc : find_class add pPage idx st with
      | none => rw [hc] at h; cases h
      | some rc =>
        obtain ⟨bc, lc, st1⟩ := rc
        have hs1 : spec_locs_step st st1 := find_class_locs pPage add hadd idx st _ hc
        rw [hc] at h
        cases bc with
        | true => cases h; exact hs1
        | false =>
          dsimp only at h
          split at h
          · split at h
            · cases h
            · rename_i pThis1 hadd1
              obtain ⟨_, rfl⟩ := add_single_eq_some _ _ _ _ hadd1
              split at h
              · cases h
              · rename_i loc hloc
                cases h
                refine spec_locs_step_trans _ _ _ hs1 (spec_locs_step_trans _ _ _
                  (spec_locs_step_add_single st1 CDE_S_FWDDECL_STR line (by decide))
                  (spec_locs_step_syms _ _ (fun Q hs hq => ?_)))
                exact spec_syms_ok_add_struct Q st1.pSymSet _ hs
                  (spec_struct_ok_new Q _ (some loc) (fun l hl => by
                    simp only [Option.some.injEq] at hl
                    rw [← hl]
                    exact hq loc hloc))
          · cases he : find_enum add pPage idx st1 with
            | none => rw [he] at h; cases h
            | some re =>
              obtain ⟨be, le, st2⟩ := re
              have hs2 : spec_locs_step st st2 :=
                spec_locs_step_trans _ _ _ hs1 (find_enum_locs pPage add hadd idx st1 _ he)
              rw [he] at h
              cases be with
              | true => cases h; exact hs2
              | false =>
                dsimp only at h
                cases ht : find_typedef_struct add pPage idx st2 with
                | none => rw [ht] at h; cases h
                | some rt =>
                  obtain ⟨bt, lt, st3⟩ := rt
                  have hs3 : spec_locs_step st st3 := spec_locs_step_trans _ _ _ hs2
                    (find_typedef_struct_locs pPage add hadd idx st2 _ ht)
                  rw [ht] at h
                  cases bt with
                  | true => cases h; exact hs3
                  | false =>
                    dsimp only at h
                    split at h
                    · obtain ⟨_, rfl⟩ := add_single_map_eq_some _ _ _ _ _ h
                      exact spec_locs_step_trans _ _ _ hs3
                        (spec_locs_step_add_single _ _ _ (by decide))
                    · cases hcm : find_comment st3.pThis pPage idx with
                      | none => rw [hcm] at h; cases h
                      | some rcm =>
                        obtain ⟨bcm, lcm, p4⟩ := rcm
                        have hs4 : spec_locs_step st3 ⟨p4, st3.pSymSet⟩ :=
                          find_comment_locs st3.pThis pPage idx _ st3.pSymSet hcm
                        rw [hcm] at h
                        cases bcm with
                        | true => cases h; exact spec_locs_step_trans _ _ _ hs3 hs4
                        | false =>
                          dsimp only at h
                          split at h
                          · split at h
                            · cases h; exact hs3
                            · split at h
                              · cases h
                              · rename_i b4 st4 ha
                                cases h
                                exact spec_locs_step_trans _ _ _ hs3
                                  (spec_locs_step_of_add add hadd _ _ _ _ _ _ _ _ (by decide)
                                    ha)
                          · split at h
                            · obtain ⟨_, rfl⟩ := add_single_map_eq_some _ _ _ _ _ h
                              exact spec_locs_step_trans _ _ _ hs3
                                (spec_locs_step_add_single _ _ _ (by decide))
                            · cases hi : find_ifdef add pPage idx st3 with
                              | none => rw [hi] at h; cases h
                              | some ri =>
                                obtain ⟨bi, li, st4⟩ := ri
                                have hs5 : spec_locs_step st st4 :=
                                  spec_locs_step_trans _ _ _ hs3
                                    (find_ifdef_locs pPage add hadd idx st3 _ hi)
                                rw [hi] at h
                                cases bi with
                                | true => cases h; exact hs5
                                | false =>
                                  dsimp only at h
                                  split at h
                                  · obtain ⟨_, rfl⟩ := add_single_map_eq_some _ _ _ _ _ h
                                    exact spec_locs_step_trans _ _ _ hs5
                                      (spec_locs_step_add_single _ _ _ (by decide))
                                  · split at h
                                    · obtain ⟨_, rfl⟩ := add_single_map_eq_some _ _ _ _ _ h
                                      exact spec_locs_step_trans _ _ _ hs5
                                        (spec_locs_step_add_single _ _ _ (by decide))
                                    · cases h; exact hs5

theorem find_startstring_loop_locs (pPage : List STxtLine) (add : AddSection)
    (hadd : spec_add_locs add) (index : Nat) (prev : Int) :
    ∀ (n idx : Nat) (st : SParse) (r : Bool × Nat × SParse),
      find_startstring_loop add pPage index prev n idx st = some r →
      spec_locs_step st r.2.2 := by
  intro n
  induction n with
  | zero => intro idx st r h; simp [find_startstring_loop] at h
  | succ n ih =>
    intro idx st r h
    rw [find_startstring_loop] at h
    split at h
    · cases hs : find_startstring_step add pPage index idx prev st with
      | none => rw [hs] at h; cases h
      | some q =>
        obtain ⟨bFound, bExit, nLength, idx1, st1⟩ := q
        have h1 : spec_locs_step st st1 :=
          find_startstring_step_locs pPage add hadd index idx prev st _ hs
        rw [hs] at h
        dsimp only at h
        split at h
        · cases h; exact h1
        · exact spec_locs_step_trans _ _ _ h1 (ih idx1 st1 r h)
    · cases h; exact spec_locs_step_refl _

theorem find_startstring_parse_locs (pPage : List STxtLine) (add : AddSection)
    (hadd : spec_add_locs add) (fuel index : Nat) (st : SParse) (r : Bool × Nat × SParse)
    (h : find_startstring_parse add fuel pPage index st = some r) :
    spec_locs_step st r.2.2 :=
  find_startstring_loop_locs pPage add hadd index _ fuel index st r h

/-! ### The section parsers keep the invariant -/

theorem parse_not_loop_locs (pPage : List STxtLine) (index length : Nat) (syms : SSymbolSet) :
    ∀ (n idx : Nat) (p p1 : SCodeSection),
      parse_not_loop pPage index length n idx p = some p1 →
      spec_locs_step ⟨p, syms⟩ ⟨p1, syms⟩ := by
  intro n
  induction n with
  | zero => intro idx p p1 h; simp [parse_not_loop] at h
  | succ n ih =>
    intro idx p p1 h
    rw [parse_not_loop] at h
    split at h
    · cases hc : find_comment p pPage idx with
      | none => rw [hc] at h; cases h
      | some q =>
        obtain ⟨b, len, p2⟩ := q
        have hs : spec_locs_step ⟨p, syms⟩ ⟨p2, syms⟩ := find_comment_locs p pPage idx _ syms hc
        rw [hc] at h
        cases b with
        | true => exact spec_locs_step_trans _ _ _ hs (ih _ _ _ h)
        | false =>
          dsimp only at h
          split at h
          · cases h
          · split at h
            · cases h
            · rename_i pA hpA
              obtain ⟨_, rfl⟩ := add_single_eq_some _ _ _ _ hpA
              exact spec_locs_step_trans _ _ _ hs
                (spec_locs_step_trans _ _ _
                  (spec_locs_step_add_single ⟨p2, syms⟩ CDE_S_CODELINE _ (by decide)) (ih _ _ _ h))
    · cases h; exact spec_locs_step_refl _

theorem parse_preamble_loop_locs (pPage : List STxtLine) (index length : Nat)
    (syms : SSymbolSet) :
    ∀ (n idx : Nat) (p : SCodeSection) (r : Bool × SCodeSection),
      parse_preamble_loop pPage index length n idx p = some r →
      spec_locs_step ⟨p, syms⟩ ⟨r.2, syms⟩ := by
  intro n
  induction n with
  | zero => intro idx p r h; simp [parse_preamble_loop] at h
  | succ n ih =>
    intro idx p r h
    rw [parse_preamble_loop] at h
    split at h
    · cases hc : find_comment p pPage idx with
      | none => rw [hc] at h; cases h
      | some q =>
        obtain ⟨b, len, p2⟩ := q
        have hs : spec_locs_step ⟨p, syms⟩ ⟨p2, syms⟩ := find_comment_locs p pPage idx _ syms hc
        rw [hc] at h
        cases b with
        | true => exact spec_locs_step_trans _ _ _ hs (ih _ _ _ h)
        | false =>
          dsimp only at h
          split at h
          · cases h
          · split at h
            · split at h
              · cases h
              · rename_i pA hpA
                obtain ⟨_, rfl⟩ := add_single_eq_some _ _ _ _ hpA
                exact spec_locs_step_trans _ _ _ hs
                  (spec_locs_step_trans _ _ _
                    (spec_locs_step_add_single ⟨p2, syms⟩ CDE_S_BLANK _ (by decide)) (ih _ _ _ h))
            · cases h; exact hs
    · cases h; exact spec_locs_step_refl _

theorem parse_local_scope_loop_locs (pPage : List STxtLine) (add : AddSection)
    (hadd : spec_add_locs add) (fuel index length : Nat) :
    ∀ (n idx : Nat) (st st1 : SParse),
      parse_local_scope_loop add fuel pPage index length n idx st = some st1 →
      spec_locs_step st st1 := by
  intro n
  induction n with
  | zero => intro idx st st1 h; simp [parse_local_scope_loop] at h
  | succ n ih =>
    intro idx st st1 h
    rw [parse_local_scope_loop] at h
    split at h
    · cases h1 : find_L1L2 add pPage idx st with
      | none => rw [h1] at h; cases h
      | some q =>
        obtain ⟨b, len, s1⟩ := q
        have hs1 : spec_locs_step st s1 := find_L1L2_locs pPage add hadd idx st _ h1
        rw [h1] at h
        cases b with
        | true => exact spec_locs_step_trans _ _ _ hs1 (ih _ _ _ h)
        | false =>
          dsimp only at h
          cases h2 : find_ifdef add pPage idx s1 with
          | none => rw [h2] at h; cases h
          | some q2 =>
            obtain ⟨b2, len2, s2⟩ := q2
            have hs2 : spec_locs_step st s2 :=
              spec_locs_step_trans _ _ _ hs1 (find_ifdef_locs pPage add hadd idx s1 _ h2)
            rw [h2] at h
            cases b2 with
            | true => exact spec_locs_step_trans _ _ _ hs2 (ih _ _ _ h)
            | false =>
              dsimp only at h
              cases h3 : find_comment s2.pThis pPage idx with
              | none => rw [h3] at h; cases h
              | some q3 =>
                obtain ⟨b3, len3, p3⟩ := q3
                have hs3 : spec_locs_step st ⟨p3, s2.pSymSet⟩ :=
                  spec_locs_step_trans _ _ _ hs2
                    (find_comment_locs s2.pThis pPage idx _ s2.pSymSet h3)
                rw [h3] at h
                cases b3 with
                | true => exact spec_locs_step_trans _ _ _ hs3 (ih _ _ _ h)
                | false =>
                  dsimp only at h
                  split at h
                  · cases h
                  · split at h
                    · split at h
                      · cases h
                      · rename_i pA hpA
                        obtain ⟨_, rfl⟩ := add_single_eq_some _ _ _ _ hpA
                        exact spec_locs_step_trans _ _ _ hs3
                          (spec_locs_step_trans _ _ _
                            (spec_locs_step_add_single ⟨p3, s2.pSymSet⟩ CDE_S_BLANK _ (by decide))
                            (ih _ _ _ h))
                    · cases h4 : find_var_decl add fuel pPage idx { s2 with pThis := p3 } with
                      | none => rw [h4] at h; cases h
                      | some q4 =>
                        obtain ⟨b4, len4, s4⟩ := q4
                        have hs4 : spec_locs_step st s4 := spec_locs_step_trans _ _ _ hs3
                          (find_var_decl_locs pPage add hadd fuel idx _ _ h4)
                        rw [h4] at h
                        cases b4 with
                        | true => exact spec_locs_step_trans _ _ _ hs4 (ih _ _ _ h)
                        | false =>
                          dsimp only at h
                          split at h
                          · cases h
                          · rename_i pA hpA
                            obtain ⟨_, rfl⟩ := add_single_eq_some _ _ _ _ hpA
                            exact spec_locs_step_trans _ _ _ hs4
                              (spec_locs_step_trans _ _ _
                                (spec_locs_step_add_single s4 CDE_S_CODELINE _ (by decide))
                                (ih _ _ _ h))
    · cases h; exact spec_locs_step_refl _

theorem parse_struct_loop_locs (pPage : List STxtLine) (add : AddSection)
    (hadd : spec_add_locs add) (fuel index length : Nat) :
    ∀ (n idx : Nat) (st st1 : SParse),
      parse_struct_loop add fuel pPage index length n idx st = some st1 →
      spec_locs_step st st1 := by
  intro n
  induction n with
  | zero => intro idx st st1 h; simp [parse_struct_loop] at h
  | succ n ih =>
    intro idx st st1 h
    rw [parse_struct_loop] at h
    split at h
    · split at h
      · cases h
      · rename_i line hl
        cases h3 : find_comment st.pThis pPage idx with
        | none => rw [h3] at h; cases h
        | some q3 =>
          obtain ⟨b3, len3, p3⟩ := q3
          have hs3 : spec_locs_step st ⟨p3, st.pSymSet⟩ :=
            find_comment_locs st.pThis pPage idx _ st.pSymSet h3
          rw [h3] at h
          cases b3 with
          | true => exact spec_locs_step_trans _ _ _ hs3 (ih _ _ _ h)
          | false =>
            dsimp only at h
            split at h
            · split at h
              · cases h
              · rename_i pA hpA
                obtain ⟨_, rfl⟩ := add_single_eq_some _ _ _ _ hpA
                exact spec_locs_step_trans _ _ _ hs3
                  (spec_locs_step_trans _ _ _
                    (spec_locs_step_add_single ⟨p3, st.pSymSet⟩ CDE_S_COMMENT _ (by decide))
                    (ih _ _ _ h))
            · cases h4 : find_var_decl add fuel pPage idx { st with pThis := p3 } with
              | none => rw [h4] at h; cases h
              | some q4 =>
                obtain ⟨b4, len4, s4⟩ := q4
                have hs4 : spec_locs_step st s4 := spec_locs_step_trans _ _ _ hs3
                  (find_var_decl_locs pPage add hadd fuel idx _ _ h4)
                rw [h4] at h
                cases b4 with
                | true => exact spec_locs_step_trans _ _ _ hs4 (ih _ _ _ h)
                | false =>
                  dsimp only at h
                  cases h5 : find_enum add pPage idx s4 with
                  | none => rw [h5] at h; cases h
                  | some q5 =>
                    obtain ⟨b5, len5, s5⟩ := q5
                    have hs5 : spec_locs_step st s5 := spec_locs_step_trans _ _ _ hs4
                      (find_enum_locs pPage add hadd idx _ _ h5)
                    rw [h5] at h
                    cases b5 with
                    | true => exact spec_locs_step_trans _ _ _ hs5 (ih _ _ _ h)
                    | false =>
                      dsimp only at h
                      cases h6 : find_ifdef add pPage idx s5 with
                      | none => rw [h6] at h; cases h
                      | some q6 =>
                        obtain ⟨b6, len6, s6⟩ := q6
                        have hs6 : spec_locs_step st s6 := spec_locs_step_trans _ _ _ hs5
                          (find_ifdef_locs pPage add hadd idx _ _ h6)
                        rw [h6] at h
                        cases b6 with
                        | true => exact spec_locs_step_trans _ _ _ hs6 (ih _ _ _ h)
                        | false =>
                          dsimp only at h
                          split at h
                          · cases h
                          · rename_i pA hpA
                            obtain ⟨_, rfl⟩ := add_single_eq_some _ _ _ _ hpA
                            exact spec_locs_step_trans _ _ _ hs6
                              (spec_locs_step_trans _ _ _
                                (spec_locs_step_add_single s6 CDE_S_CODELINE _ (by decide))
                                (ih _ _ _ h))
    · cases h; exact spec_locs_step_refl _

theorem parse_global_scope_loop_locs (pPage : List STxtLine) (add : AddSection)
    (hadd : spec_add_locs add) (fuel index length : Nat) :
    ∀ (n idx : Nat) (st st1 : SParse),
      parse_global_scope_loop add fuel pPage index length n idx st = some st1 →
      spec_locs_step st st1 := by
  intro n
  induction n with
  | zero => intro idx st st1 h; simp [parse_global_scope_loop] at h
  | succ n ih =>
    intro idx st st1 h
    rw [parse_global_scope_loop] at h
    split at h
    · cases h1 : find_startstring_parse add fuel pPage idx st with
      | none => rw [h1] at h; cases h
      | some q =>
        obtain ⟨b, len, s1⟩ := q
        have hs1 : spec_locs_step st s1 :=
          find_startstring_parse_locs pPage add hadd fuel idx st _ h1
        rw [h1] at h
        cases b with
        | true => exact spec_locs_step_trans _ _ _ hs1 (ih _ _ _ h)
        | false =>
          dsimp only at h
          cases h4 : find_var_decl add fuel pPage idx s1 with
          | none => rw [h4] at h; cases h
          | some q4 =>
            obtain ⟨b4, len4, s4⟩ := q4
            have hs4 : spec_locs_step st s4 := spec_locs_step_trans _ _ _ hs1
              (find_var_decl_locs pPage add hadd fuel idx _ _ h4)
            rw [h4] at h
            cases b4 with
            | true => exact spec_locs_step_trans _ _ _ hs4 (ih _ _ _ h)
            | false =>
              dsimp only at h
              split at h
              · cases h
              · split at h
                · cases h
                · rename_i pA hpA
                  obtain ⟨_, rfl⟩ := add_single_eq_some _ _ _ _ hpA
                  exact spec_locs_step_trans _ _ _ hs4
                    (spec_locs_step_trans _ _ _
                      (spec_locs_step_add_single s4 CDE_S_CODELINE _ (by decide)) (ih _ _ _ h))
    · cases h; exact spec_locs_step_refl _

theorem parse_block_loop_locs (pPage : List STxtLine) (add : AddSection)
    (hadd : spec_add_locs add) (fuel index length : Nat) :
    ∀ (n idx : Nat) (b : Bool) (st : SParse) (r : Bool × Bool × SParse),
      parse_block_loop add fuel pPage index length n idx b st = some r →
      spec_locs_step st r.2.2 := by
  intro n
  induction n with
  | zero => intro idx b st r h; simp [parse_block_loop] at h
  | succ n ih =>
    intro idx b st r h
    rw [parse_block_loop] at h
    split at h
    · split at h
      · cases h
      · split at h
        · split at h
          · cases h
          · exact ih _ _ _ _ h
          · split at h
            · cases h
            · rename_i b1 s1 ha
              exact spec_locs_step_trans _ _ _
                (spec_locs_step_of_add add hadd _ _ _ _ _ _ _ (b1, s1) (by decide) ha)
                (ih _ _ _ _ h)
        · cases h1 : find_startstring_parse add fuel pPage idx st with
          | none => rw [h1] at h; cases h
          | some q =>
            obtain ⟨b1, len, s1⟩ := q
            have hs1 : spec_locs_step st s1 :=
              find_startstring_parse_locs pPage add hadd fuel idx st _ h1
            rw [h1] at h
            cases b1 with
            | true => exact spec_locs_step_trans _ _ _ hs1 (ih _ _ _ _ h)
            | false =>
              dsimp only at h
              cases h4 : find_var_decl add fuel pPage idx s1 with
              | none => rw [h4] at h; cases h
              | some q4 =>
                obtain ⟨b4, len4, s4⟩ := q4
                have hs4 : spec_locs_step st s4 := spec_locs_step_trans _ _ _ hs1
                  (find_var_decl_locs pPage add hadd fuel idx _ _ h4)
                rw [h4] at h
                cases b4 with
                | true => exact spec_locs_step_trans _ _ _ hs4 (ih _ _ _ _ h)
                | false => cases h; exact hs4
    · cases h; exact spec_locs_step_refl _

theorem parse_nm_codebase_loop_locs (pPage : List STxtLine) (add : AddSection)
    (hadd : spec_add_locs add) (fuel index length : Nat) :
    ∀ (n idx : Nat) (st : SParse) (r : Bool × SParse),
      parse_nm_codebase_loop add fuel pPage index length n idx st = some r →
      spec_locs_step st r.2 := by
  intro n
  induction n with
  | zero => intro idx st r h; simp [parse_nm_codebase_loop] at h
  | succ n ih =>
    intro idx st r h
    rw [parse_nm_codebase_loop] at h
    split at h
    · cases h1 : find_startstring_parse add fuel pPage idx st with
      | none => rw [h1] at h; cases h
      | some q =>
        obtain ⟨b1, len, s1⟩ := q
        have hs1 : spec_locs_step st s1 :=
          find_startstring_parse_locs pPage add hadd fuel idx st _ h1
        rw [h1] at h
        cases b1 with
        | true => exact spec_locs_step_trans _ _ _ hs1 (ih _ _ _ h)
        | false =>
          dsimp only at h
          cases h4 : find_var_decl add fuel pPage idx s1 with
          | none => rw [h4] at h; cases h
          | some q4 =>
            obtain ⟨b4, len4, s4⟩ := q4
            have hs4 : spec_locs_step st s4 := spec_locs_step_trans _ _ _ hs1
              (find_var_decl_locs pPage add hadd fuel idx _ _ h4)
            rw [h4] at h
            cases b4 with
            | true => exact spec_locs_step_trans _ _ _ hs4 (ih _ _ _ h)
            | false => cases h; exact hs4
    · cases h; exact spec_locs_step_refl _

theorem parse_codebase_loop_locs (pPage : List STxtLine) (add : AddSection)
    (hadd : spec_add_locs add) (index length : Nat) :
    ∀ (n offsetPrev offset numBlocks : Nat) (st : SParse) (r : Bool × SParse),
      parse_codebase_loop add pPage index length n offsetPrev offset numBlocks st = some r →
      spec_locs_step st r.2 := by
  intro n
  induction n with
  | zero => intro a b c st r h; simp [parse_codebase_loop] at h
  | succ n ih =>
    intro offsetPrev offset numBlocks st r h
    rw [parse_codebase_loop] at h
    split at h
    · cases h
    · rename_i pLine hl
      dsimp only at h
      split at h
      · cases h
      · rename_i offsetPrev1 numBlocks1 st1 hmarked
        have hs1 : spec_locs_step st st1 := by
          split at hmarked
          · cases ha : add (if numBlocks = 0 then CDE_PREAMBLE else CDE_BLOCK)
                (index + offsetPrev) (offset - offsetPrev) true 0 (-1) st with
            | none => rw [ha] at hmarked; cases hmarked
            | some rr =>
              rw [ha] at hmarked
              cases hmarked
              refine spec_locs_step_of_add add hadd _ _ _ _ _ _ _ _ ?_ ha
              split <;> decide
          · cases hmarked; exact spec_locs_step_refl _
        split at h
        · split at h
          · cases h
          · rename_i bParsed st2 ha
            cases h
            exact spec_locs_step_trans _ _ _ hs1
              (spec_locs_step_of_add add hadd _ _ _ _ _ _ _ (bParsed, st2) (by decide) ha)
        · exact spec_locs_step_trans _ _ _ hs1 (ih _ _ _ _ _ h)

/-- Every parser of `SCodeSection::parse` keeps the invariant. -/
theorem parse_locs (pPage : List STxtLine) (add : AddSection) (hadd : spec_add_locs add)
    (fuel index length : Nat) (b : Bool) (st : SParse) (r : Bool × SParse)
    (h : parse add fuel pPage index length b st = some r) : spec_locs_step st r.2 := by
  unfold parse at h
  dsimp only at h
  split at h
  · -- the code base
    unfold parse_codebase at h
    split at h
    · cases h
    · split at h
      · exact parse_codebase_loop_locs pPage add hadd _ _ _ _ _ _ _ _ h
      · exact parse_nm_codebase_loop_locs pPage add hadd _ _ _ _ _ _ _ h
  · split at h
    · -- the preamble
      unfold parse_preamble at h
      split at h
      · cases h
      · rename_i first hf
        rw [Option.map_eq_some'] at h
        obtain ⟨q, hq, hr⟩ := h
        rw [← hr]
        refine spec_locs_step_trans _ ⟨{ st.pThis with pLine := summary_line first false },
          st.pSymSet⟩ _ (spec_locs_step_fields _ _ rfl rfl rfl rfl rfl rfl) ?_
        exact parse_preamble_loop_locs pPage index length st.pSymSet _ _ _ _ hq
    · split at h
      · -- a block
        unfold parse_block at h
        split at h
        · cases h
        · rename_i first hf
          dsimp only at h
          split at h
          · cases h
          · rename_i pThis1 hadd1
            obtain ⟨_, rfl⟩ := add_single_eq_some _ _ _ _ hadd1
            split at h
            · cases h
            · rename_i bParsed bSub st1 hloop
              cases h
              have hs1 := parse_block_loop_locs pPage add hadd _ _ _ _ _ _ _ _ hloop
              have hs0 : spec_locs_step st
                  ⟨{ st.pThis with
                    pLine := (tl_remove (summary_line first false) "// BLOCK: ").1,
                    ppElements := st.pThis.ppElements ++ [.single CDE_S_BLOCKSTART first] },
                    st.pSymSet⟩ :=
                spec_locs_step_append _ _ [.single CDE_S_BLOCKSTART first] rfl rfl rfl rfl rfl
                  rfl
                  (by
                    intro e he
                    simp only [List.mem_singleton] at he
                    rw [he]
                    exact (by decide : CDE_S_BLOCKSTART ≠ CDE_CODEBASE))
                  (by simp [tree_locations_list, tree_locations])
              refine spec_locs_step_trans _ _ _ (spec_locs_step_trans _ _ _ hs0 hs1) ?_
              cases bSub with
              | true => exact spec_locs_step_refl _
              | false => exact spec_locs_step_fields _ _ rfl rfl rfl rfl rfl rfl
      · have hglobal : ∀ (r : Bool × SParse),
            parse_global_scope add fuel pPage index length st = some r →
            spec_locs_step st r.2 := by
          intro r h
          unfold parse_global_scope at h
          split at h
          · cases h
          · rename_i first hf
            dsimp only at h
            by_cases hsb : st.pThis.type = CDE_SUBBLOCK
            · rw [if_pos hsb] at h
              split at h
              · cases h
              · rename_i pThis1 hadd1
                obtain ⟨_, rfl⟩ := add_single_eq_some _ _ _ _ hadd1
                rw [Option.map_eq_some'] at h
                obtain ⟨q, hq, hr⟩ := h
                rw [← hr]
                have hs1 := parse_global_scope_loop_locs pPage add hadd _ _ _ _ _ _ _ hq
                refine spec_locs_step_trans _ _ _ ?_ hs1
                exact spec_locs_step_append _ _ [.single CDE_S_SUBBLOCKSTART first] rfl rfl rfl
                  rfl rfl rfl
                  (by
                    intro e he
                    simp only [List.mem_singleton] at he
                    rw [he]
                    exact (by decide : CDE_S_SUBBLOCKSTART ≠ CDE_CODEBASE))
                  (by simp [tree_locations_list, tree_locations])
            · rw [if_neg hsb] at h
              split at h
              · cases h
              · rename_i pThis1 hadd1
                obtain ⟨_, rfl⟩ := add_single_eq_some _ _ _ _ hadd1
                rw [Option.map_eq_some'] at h
                obtain ⟨q, hq, hr⟩ := h
                rw [← hr]
                have hs1 := parse_global_scope_loop_locs pPage add hadd _ _ _ _ _ _ _ hq
                refine spec_locs_step_trans _ _ _ ?_ hs1
                exact spec_locs_step_append _ _ [.single CDE_S_CODELINE first] rfl rfl rfl rfl
                  rfl rfl
                  (by
                    intro e he
                    simp only [List.mem_singleton] at he
                    rw [he]
                    exact (by decide : CDE_S_CODELINE ≠ CDE_CODEBASE))
                  (by simp [tree_locations_list, tree_locations])
        have hlocal : ∀ (r : Bool × SParse),
            parse_local_scope add fuel pPage index length b st = some r →
            spec_locs_step st r.2 := by
          intro r h
          unfold parse_local_scope at h
          split at h
          · cases h
          · rename_i first hf
            dsimp only at h
            split at h
            · cases h
            · rename_i pThis1 hadd1
              obtain ⟨_, rfl⟩ := add_single_eq_some _ _ _ _ hadd1
              rw [Option.map_eq_some'] at h
              obtain ⟨q, hq, hr⟩ := h
              rw [← hr]
              have hs1 := parse_local_scope_loop_locs pPage add hadd _ _ _ _ _ _ _ hq
              refine spec_locs_step_trans _ _ _ ?_ hs1
              exact spec_locs_step_append _ _ [.single CDE_S_CODELINE first] rfl rfl rfl rfl
                rfl rfl
                (by
                  intro e he
                  simp only [List.mem_singleton] at he
                  rw [he]
                  exact (by decide : CDE_S_CODELINE ≠ CDE_CODEBASE))
                (by simp [tree_locations_list, tree_locations])
        split at h
        · split at h
          · exact hglobal r h
          · exact hlocal r h
        · split at h
          · exact hglobal r h
          · split at h
            · -- sections that are not parsed
              unfold parse_not at h
              split at h
              · cases h
              · rename_i first hf
                rw [Option.map_eq_some'] at h
                obtain ⟨q, hq, hr⟩ := h
                rw [← hr]
                refine spec_locs_step_trans _ ⟨{ st.pThis with pLine := summary_line first b },
                  st.pSymSet⟩ _ (spec_locs_step_fields _ _ rfl rfl rfl rfl rfl rfl) ?_
                exact parse_not_loop_locs pPage index length st.pSymSet _ _ _ _ hq
            · split at h
              · exact hlocal r h
              · split at h
                · -- classes and structs
                  unfold parse_struct at h
                  split at h
                  · cases h
                  · rename_i first hf
                    dsimp only at h
                    split at h
                    · cases h
                    · rename_i pThis1 hadd1
                      obtain ⟨_, rfl⟩ := add_single_eq_some _ _ _ _ hadd1
                      split at h
                      · cases h
                      · rename_i st1 hloop
                        have hs1 := parse_struct_loop_locs pPage add hadd _ _ _ _ _ _ _ hloop
                        have hs0 : spec_locs_step st
                            ⟨{ st.pThis with
                              pLine := summary_line first b,
                              ppElements :=
                                st.pThis.ppElements ++ [.single CDE_S_CODELINE first] },
                              st.pSymSet⟩ :=
                          spec_locs_step_append _ _ [.single CDE_S_CODELINE first] rfl rfl rfl
                            rfl rfl rfl
                            (by
                              intro e he
                              simp only [List.mem_singleton] at he
                              rw [he]
                              exact (by decide : CDE_S_CODELINE ≠ CDE_CODEBASE))
                            (by simp [tree_locations_list, tree_locations])
                        split at h
                        · cases h
                        · split at h
                          · cases h
                          · obtain ⟨_, rfl⟩ := add_single_map_eq_some _ _ _ _ _ h
                            exact spec_locs_step_trans _ _ _
                              (spec_locs_step_trans _ _ _ hs0 hs1)
                              (spec_locs_step_add_single st1 CDE_S_CODELINE _ (by decide))
                · cases h; exact spec_locs_step_refl _

theorem mem_var_locations (vs : List SVar) (loc : SLocation) (h : loc ∈ var_locations vs) :
    ∃ v ∈ vs, v.pLocation = some loc := by
  simpa [var_locations, List.mem_filterMap] using h

/-- Adding a section keeps the invariant, within every bound. -/
theorem add_section_locs (pPage : List STxtLine) :
    ∀ (fuel : Nat), spec_add_locs (add_section pPage fuel) := by
  intro fuel
  induction fuel with
  | zero =>
    intro type index length b lt li st r _ h
    cases h
  | succ fuel ih =>
    intro type index length b lt li st r ht h
    rw [add_section] at h
    dsimp only at h
    split at h
    swap
    · cases h
    split at h
    · cases h
    · rename_i bParsed st1 hparse
      cases h
      have hstep := parse_locs pPage _ ih fuel index length b _ _ hparse
      obtain ⟨hH, hO, hT, hinv⟩ := hstep
      dsimp only at hH hO hT
      have hty1 : st1.pThis.type ≠ CDE_CODEBASE := by rw [hT]; exact ht
      have hmono0 : ∀ (P : SLocation → Prop) (s2 : SCodeSection),
          s2.handle = st.pThis.handle → s2.fileOffset = st.pThis.fileOffset →
          s2.ppElements = st.pThis.ppElements ++ [st1.pThis.pBaseElem] →
          ∀ loc, spec_loc_here (spec_loc_here P st.pThis) st1.pThis loc →
            spec_loc_here P s2 loc := by
        intro P s2 h1 h2 h3 loc hl
        rcases hl with hl | hl
        · exact spec_loc_here_mono P st.pThis s2 _ h1 h2 h3 loc hl
        · right
          rw [h1, h2, h3]
          rw [hH, hO] at hl
          exact spec_loc_anchored_child _ _ _ _ _ hty1 _ _ loc hl
      have hgoal : ∀ (s2 : SCodeSection), s2.handle = st.pThis.handle →
          s2.fileOffset = st.pThis.fileOffset → s2.type = st.pThis.type →
          s2.pVarSet = st.pThis.pVarSet →
          s2.ppElements = st.pThis.ppElements ++ [st1.pThis.pBaseElem] →
          spec_locs_step st ⟨s2, st1.pSymSet⟩ := by
        intro s2 h1 h2 h3 h4 h5
        refine ⟨h1, h2, h3, fun P hP => ?_⟩
        obtain ⟨g1, g2, g3, g4⟩ := hP
        have hstart : spec_loc_inv (spec_loc_here P st.pThis)
            ⟨{ type := type, pLine := [], bSummarized := decide (type ≠ CDE_PREAMBLE),
               symLinkType := lt, symLinkIndex := li, pVarSet := [], ppElements := [],
               handle := st.pThis.ppElements.length :: st.pThis.handle,
               fileOffset := st.pThis.fileOffset + st.pThis.get_length,
               containerType := st.pThis.type }, st.pSymSet⟩ := by
          refine ⟨spec_syms_ok_mono (fun loc hl => Or.inl hl) _ g1, ?_, ?_, ?_⟩
          · intro v hv; cases hv
          · intro loc hl; simp [tree_locations_list] at hl
          · intro e he; cases he
        obtain ⟨k1, k2, k3, k4⟩ := hinv _ hstart
        have hm := hmono0 P s2 h1 h2 h5
        have hm1 := spec_loc_here_mono P st.pThis s2 _ h1 h2 h5
        refine ⟨spec_syms_ok_mono hm _ k1, ?_, ?_, ?_⟩
        · rw [h4]; exact spec_vars_ok_mono hm1 _ g2
        · intro loc hl
          rw [h5, tree_locations_list_append] at hl
          rcases List.mem_append.mp hl with hl | hl
          · exact hm1 loc (g3 loc hl)
          · simp only [tree_locations_list, SCodeSection.pBaseElem, tree_locations,
              List.append_nil, List.mem_append] at hl
            rcases hl with hl | hl
            · obtain ⟨v, hv, hvl⟩ := mem_var_locations _ loc hl
              exact hm loc (k2 v hv loc hvl)
            · exact hm loc (k3 loc hl)
        · intro e he
          rw [h5] at he
          rcases List.mem_append.mp he with he | he
          · exact g4 e he
          · simp only [List.mem_singleton] at he
            rw [he]
            exact hty1
      by_cases hsub : type = CDE_SUBBLOCK
      · simp only [hsub, if_true]
        exact hgoal _ rfl rfl rfl rfl rfl
      · simp only [hsub, if_false]
        exact hgoal _ rfl rfl rfl rfl rfl

theorem mem_func_locations (Q : SLocation → Prop) (f : SSymFunc) (hf : spec_func_ok Q f)
    (loc : SLocation) (h : loc ∈ func_locations f) : Q loc := by
  simp only [func_locations, List.mem_append, Option.mem_toList, Option.mem_def] at h
  rcases h with h | h
  · exact hf.1 loc h
  · obtain ⟨v, hv, hvl⟩ := mem_var_locations _ loc h
    exact hf.2 v hv loc hvl

theorem mem_funcs_locations (Q : SLocation → Prop) (fs : List SSymFunc)
    (hfs : ∀ f ∈ fs, spec_func_ok Q f) (loc : SLocation)
    (h : loc ∈ (fs.map func_locations).flatten) : Q loc := by
  simp only [List.mem_flatten, List.mem_map] at h
  obtain ⟨l, ⟨f, hf, hfl⟩, hl⟩ := h
  rw [← hfl] at hl
  exact mem_func_locations Q f (hfs f hf) loc hl

/-- The locations listed for a symbol set are those the structured predicate
speaks of. -/
theorem mem_symbol_locations (Q : SLocation → Prop) (syms : SSymbolSet)
    (hs : spec_syms_ok Q syms) (loc : SLocation) (h : loc ∈ symbol_locations syms) : Q loc := by
  simp only [symbol_locations, List.mem_append] at h
  rcases h with (h | h) | h
  · simp only [List.mem_flatten, List.mem_map] at h
    obtain ⟨l, ⟨c, hc, hcl⟩, hl⟩ := h
    rw [← hcl] at hl
    have hk := hs.1 c hc
    simp only [class_locations, List.mem_append, Option.mem_toList, Option.mem_def] at hl
    rcases hl with (((hl | hl) | hl) | hl) | hl
    · exact hk.1 loc hl
    · cases hcon : c.pConstr with
      | none => simp [hcon] at hl
      | some f =>
        rw [hcon] at hl
        exact mem_func_locations Q f (hk.2.1 f hcon) loc (by simpa using hl)
    · cases hdes : c.pDestr with
      | none => simp [hdes] at hl
      | some f =>
        rw [hdes] at hl
        exact mem_func_locations Q f (hk.2.2.1 f hdes) loc (by simpa using hl)
    · exact mem_funcs_locations Q _ hk.2.2.2.1 loc hl
    · obtain ⟨v, hv, hvl⟩ := mem_var_locations _ loc hl
      exact hk.2.2.2.2 v hv loc hvl
  · simp only [List.mem_flatten, List.mem_map] at h
    obtain ⟨l, ⟨s, hsm, hsl⟩, hl⟩ := h
    rw [← hsl] at hl
    have hk := hs.2.1 s hsm
    simp only [struct_locations, List.mem_append, Option.mem_toList, Option.mem_def] at hl
    rcases hl with (hl | hl) | hl
    · exact hk.1 loc hl
    · exact mem_funcs_locations Q _ hk.2.1 loc hl
    · obtain ⟨v, hv, hvl⟩ := mem_var_locations _ loc hl
      exact hk.2.2 v hv loc hvl
  · exact mem_funcs_locations Q _ hs.2.2 loc h

/-- C36: for every page and every bound within which the parse returns
(whatever its boolean result), every location set in the symbol set
(structs, classes, constructors, destructors, free and member functions,
member variables and parameters) and in the variable sets of the sections of
the tree (global and local variables) points to an element of the tree and
satisfies `Location.fileOffset == ce_file_offset(Location.element)`. -/
theorem parse_page_locations (fuel : Nat) (pPage : List STxtLine)
    (r : Bool × SCodeElement × SSymbolSet) (h : parse_page fuel pPage = some r) :
    ∀ loc ∈ symbol_locations r.2.2 ++ tree_locations r.2.1,
      spec_location_ok r.2.1 loc = true := by
  unfold parse_page at h
  rw [Option.map_eq_some'] at h
  obtain ⟨q, hq, hr⟩ := h
  have hstep := parse_locs pPage _ (add_section_locs pPage fuel) fuel 0 pPage.length true
    new_base_section q hq
  obtain ⟨hH, hO, hT, hinv⟩ := hstep
  have hstart : spec_loc_inv (fun _ => False) new_base_section := by
    refine ⟨⟨?_, ?_, ?_⟩, ?_, ?_, ?_⟩
    · intro c hc; simp [new_base_section] at hc
    · intro c hc; simp [new_base_section] at hc
    · intro c hc; simp [new_base_section] at hc
    · intro v hv; simp [new_base_section] at hv
    · intro loc hl; simp [new_base_section, tree_locations_list] at hl
    · intro e he; simp [new_base_section] at he
  obtain ⟨k1, k2, k3, k4⟩ := hinv _ hstart
  have hH0 : q.2.pThis.handle = [] := hH
  have hO0 : q.2.pThis.fileOffset = 0 := hO
  have hT0 : q.2.pThis.type = CDE_CODEBASE := hT
  have hok : ∀ loc, spec_loc_here (fun _ => False) q.2.pThis loc →
      spec_location_ok q.2.pThis.pBaseElem loc = true := by
    intro loc hl
    rcases hl with hl | hl
    · exact absurd hl id
    · rw [hH0, hO0] at hl
      unfold SCodeSection.pBaseElem
      rw [hT0]
      exact spec_location_ok_of_anchored _ _ _ loc hl
  rw [← hr]
  intro loc hl
  dsimp only at hl ⊢
  rcases List.mem_append.mp hl with hl | hl
  · exact hok loc (mem_symbol_locations _ _ k1 loc hl)
  · simp only [SCodeSection.pBaseElem, tree_locations, List.mem_append] at hl
    rcases hl with hl | hl
    · obtain ⟨v, hv, hvl⟩ := mem_var_locations _ loc hl
      exact hok loc (k2 v hv loc hvl)
    · exact hok loc (k3 loc hl)

/-- C36 on `location_page`: the parse returns, seven locations are set (the
class `Foo`, its constructor and its member `x`, the struct `S`, the function
`f`, the global `g` and the local `b`), and each carries the file offset of
its element. -/
theorem parse_page_locations_witness :
    ∃ r, parse_page 12 location_page = some r ∧
      (symbol_locations r.2.2 ++ tree_locations r.2.1).map
          (fun l => (l.pCodeBaseLoc, l.fileOffset)) =
        [(some [0], 0), (some [2, 0], 2), (some [1, 0], 1), (some [3], 11), (some [1], 4),
          (some [2], 10), (some [1, 2, 1], 7)] ∧
      ∀ loc ∈ symbol_locations r.2.2 ++ tree_locations r.2.1,
        spec_location_ok r.2.1 loc = true :=
  ⟨(parse_page 12 location_page).get (by decide!), (Option.some_get _).symm, (by decide!),
    parse_page_locations 12 location_page _ (Option.some_get _).symm⟩

end ModalWX
